import Mathlib

/-!
# FastECS: a verification development

A shallow embedding of `FastECS.hpp` (archetype catalog, chunks, storages,
contexts, world, parallel jobs) together with theorems about it.

Modelling conventions
* Configuration: the defaults of the header (`COMPONENT_INDEX_TABLE_TYPE == 0`,
  `DIVIDE_PARALLEL_JOB_METHOD == 1`); `type_id()` and `hash_code()` are kept as
  two separate fields of a component class, so both settings of
  `USE_CUSTOM_COMPONENT_TYPE_ID` are covered.
* Machine integers are naturals, reduced with `u8`, `u16`, `u32`, `u64` where the
  source casts or can wrap; the loads `int threadTaskCounts[]` of `Prepare` are
  integers reduced with `i32`.
* C arrays are total functions `Nat → α`; an index outside the C array is never
  read by a run that respects the assertions of the source. The one read the source
  makes past an array without an assertion, `mEntitiesBuffer[blockIndex]` in
  `GetEntity`, is modelled on the bytes of the chunk buffer (`validPast`,
  `genPast`).
* Pointers are paths: an archetype pointer is an index into the objects the
  catalog allocated with `new`, a context pointer is the slot of the context in
  `World::mEntityContexts`, a storage pointer is a context pointer with the
  position of the storage in the list of that context, an entity pointer is a
  storage pointer with a chunk index and a block index.
* A failed `FASTECS_ASSERT`, a null dereference and a write past a fixed array
  are fatal: the operation returns `none`.
* The content of a component slot is `Option Value`: `none` is memory that holds
  no constructed object (fresh from `Malloc`, or after the destructor ran).
* An event manager calls the callbacks subscribed to the class of an event. A
  callback is modelled by the values it assigns to components of the record of the
  event, computed from what it reads there (`EventCallbackFunction`); each context
  holds its own event manager.
-/

namespace FastECS

/-! ## Configuration constants -/

def MAX_THREAD_COUNT : Nat := 32

def MAX_COMPONENT_COUNT_PER_ENTITY : Nat := 32

def MAX_STORAGE_CHUNK_SIZE : Nat := 64 * 1024 * 1024

def MAX_CONTEXT_COUNT : Nat := 256

def MAX_BLOCK_COUNT_BITS : Nat := 10

def MAX_CHUNK_COUNT_BITS : Nat := 15

def MAX_STORAGE_COUNT_BITS : Nat := 10

def MAX_ENTITY_COUNT_PER_CHUNK : Nat := 1 <<< MAX_BLOCK_COUNT_BITS

def MAX_CHUNK_COUNT_PER_STORAGE : Nat := 1 <<< MAX_CHUNK_COUNT_BITS

def MAX_STORAGE_COUNT_PER_CONTEXT : Nat := 1 <<< MAX_STORAGE_COUNT_BITS

def BLOCK_INDEX_MASK : Nat := MAX_ENTITY_COUNT_PER_CHUNK - 1

def CHUNK_INDEX_MASK : Nat := MAX_CHUNK_COUNT_PER_STORAGE - 1

def STORAGE_INDEX_MASK : Nat := MAX_STORAGE_COUNT_PER_CONTEXT - 1

def INVALID_COMPONENT_INDEX : Int := -1

/-- Size in bytes of one `uint16_t` free-list entry. -/
def sizeofFreeListEntry : Nat := 2

/-- Size in bytes of the `Entity` header (bool, three `uint16_t`, one pointer) on a
64-bit target. -/
def sizeofEntity : Nat := 16

/-! ## Machine integers and arrays -/

def u8 (x : Nat) : Nat := x % 2 ^ 8

def u16 (x : Nat) : Nat := x % 2 ^ 16

def u32 (x : Nat) : Nat := x % 2 ^ 32

def u64 (x : Nat) : Nat := x % 2 ^ 64

/-- The array `a` after the assignment `a[i] = v`. -/
def setAt {α : Type} (a : Nat → α) (i : Nat) (v : α) : Nat → α :=
  fun j => if j = i then v else a j

/-! ## Component classes -/

/-- The state of one component object; component classes are not interpreted. -/
abbrev Value := Nat

/-- A component class `T`: what the library reads from it at compile time
(`T::hash_code()`, `T::type_id()`, `sizeof(T)`, `alignof(T)`) and the value that
`T()` constructs. -/
structure ComponentType where
  hashCode : Nat
  typeId : Nat
  size : Nat
  alignment : Nat
  defaultValue : Value
deriving DecidableEq, Repr

/-- The C++ types compared by `is_type_duplicate`: a component class, or the
trait class `std::decay<U>` itself (not its member `type`). -/
inductive CppType where
  | component (T : ComponentType)
  | stdDecay (U : ComponentType)
deriving DecidableEq, Repr

/-- The type `std::decay_t<T>` of a component class (it is the class). -/
def decay_t (T : ComponentType) : CppType := CppType.component T

/-- The type `std::decay<U>`. -/
def decay (U : ComponentType) : CppType := CppType.stdDecay U

/-- The constant `std::is_same<A, B>::value`. -/
def is_same (A B : CppType) : Bool := decide (A = B)

/-- The constant `is_type_duplicate<T, OtherTypes...>::value`: the source compares
`std::decay_t<T>` with `std::decay<U>`. -/
def is_type_duplicate (T : ComponentType) : List ComponentType → Bool
  | [] => false
  | U :: OtherTypes =>
    if is_same (decay_t T) (decay U) then true else is_type_duplicate T OtherTypes

/-- The constant `sum_component_hashcodes<T...>::value`, a `uint32_t`. -/
def sum_component_hashcodes : List ComponentType → Nat
  | [] => 0
  | T :: U => u32 ((if is_type_duplicate T U then 0 else T.hashCode) + u32 (sum_component_hashcodes U))

/-- The record `ComponentMeta`; `constructor` is the value the stored constructor
writes. The stored destructor and assignment are the same for every class (end
the lifetime of the object; copy-construct from the source) and are part of the
operations that call them. -/
structure ComponentMeta where
  hashCode : Nat
  typeId : Nat
  size : Nat
  alignment : Nat
  constructor : Value
deriving DecidableEq, Repr

/-- The type `ComponentMetaMap = std::map<ComponentTypeID, ComponentMeta*>`, as the
list of its entries in key order. -/
abbrev ComponentMetaMap := List (Nat × ComponentMeta)

/-- The call `metaMap.find(id)` (`none` is `end()`). -/
def ComponentMetaMap.find (metaMap : ComponentMetaMap) (id : Nat) : Option ComponentMeta :=
  (List.find? (fun e => e.1 == id) metaMap).map Prod.snd

/-- The call `metaMap.insert({id, meta})` of `std::map`: keeps an existing entry. -/
def ComponentMetaMap.insert : ComponentMetaMap → Nat → ComponentMeta → ComponentMetaMap
  | [], id, m => [(id, m)]
  | e :: rest, id, m =>
    if id < e.1 then (id, m) :: e :: rest
    else if id = e.1 then e :: rest
    else e :: ComponentMetaMap.insert rest id m

/-- The call `metaMap.erase(id)`. -/
def ComponentMetaMap.erase (metaMap : ComponentMetaMap) (id : Nat) : ComponentMetaMap :=
  List.filter (fun e => e.1 != id) metaMap

/-- The keys of a component map, in the order of the map. -/
def ComponentMetaMap.keys (metaMap : ComponentMetaMap) : List Nat := metaMap.map Prod.fst

/-! ## Component index table (linear variant, the default) -/

structure LinearComponentIndexTable where
  mComponentCount : Nat
  mComponentTypeIds : Nat → Nat

/-- A default-constructed table. -/
def LinearComponentIndexTable.init : LinearComponentIndexTable :=
  { mComponentCount := 0, mComponentTypeIds := fun _ => 0 }

/-- The method `Add(id)`: the table afterwards and the returned index. -/
def LinearComponentIndexTable.Add (t : LinearComponentIndexTable) (id : Nat) :
    LinearComponentIndexTable × Nat :=
  ({ mComponentCount := t.mComponentCount + 1
     mComponentTypeIds := setAt t.mComponentTypeIds t.mComponentCount id },
   t.mComponentCount)

/-- The method `Add(id)` of `LinearComponentIndexTable<MaxCount>`: the array
`mComponentTypeIds` has `MaxCount` cells, and a write past it has no result. -/
def LinearComponentIndexTable.AddWithin (MaxCount : Nat) (t : LinearComponentIndexTable)
    (id : Nat) : Option (LinearComponentIndexTable × Nat) :=
  if t.mComponentCount < MaxCount then some (t.Add id) else none

/-- The method `Get(id)`: the first index below `mComponentCount` holding `id`. -/
def LinearComponentIndexTable.Get (t : LinearComponentIndexTable) (id : Nat) : Int :=
  match List.find? (fun i => t.mComponentTypeIds i == id) (List.range t.mComponentCount) with
  | some i => (i : Int)
  | none => INVALID_COMPONENT_INDEX

abbrev ComponentIndexTable := LinearComponentIndexTable

/-- The call `ContainComponentsHelperClass<ComponentTypes...>::All(table)`. -/
def ContainComponentsHelperClass.All (table : ComponentIndexTable) : List ComponentType → Bool
  | [] => true
  | T :: Rest =>
    decide (table.Get T.typeId ≠ INVALID_COMPONENT_INDEX)
      && ContainComponentsHelperClass.All table Rest

/-- The call `ContainComponentsHelperClass<ComponentTypes...>::Any(table)`. -/
def ContainComponentsHelperClass.Any (table : ComponentIndexTable) : List ComponentType → Bool
  | [] => false
  | T :: Rest =>
    decide (table.Get T.typeId ≠ INVALID_COMPONENT_INDEX)
      || ContainComponentsHelperClass.Any table Rest

/-! ## Archetypes -/

/-- The class `EntityArchetype`. `mComponentConstructors i` is `none` for a null
entry. `mStoragesInContext` maps a context id to the position of the storage in
the storage list of that context. -/
structure EntityArchetype where
  mArchetypeId : Nat
  mComponentMetaMap : ComponentMetaMap
  mComponentCount : Nat
  mComponentHashes : Nat → Nat
  mComponentTypeIds : Nat → Nat
  mComponentSizes : Nat → Nat
  mComponentAlignments : Nat → Nat
  mComponentOffsets : Nat → Nat
  mComponentConstructors : Nat → Option Value
  mComponentIndexTable : ComponentIndexTable
  mStoragesInContext : Nat → Option Nat

/-- The member initialisers of the constructor of `EntityArchetype`. -/
def EntityArchetype.init (id : Nat) (metaMap : ComponentMetaMap) : EntityArchetype :=
  { mArchetypeId := id
    mComponentMetaMap := metaMap
    mComponentCount := metaMap.length
    mComponentHashes := fun _ => 0
    mComponentTypeIds := fun _ => 0
    mComponentSizes := fun _ => 0
    mComponentAlignments := fun _ => 0
    mComponentOffsets := fun _ => 0
    mComponentConstructors := fun _ => none
    mComponentIndexTable := LinearComponentIndexTable.init
    mStoragesInContext := fun _ => none }

/-- The loop `for (auto it : metaMap)` of the constructor, from entry `i` on with
the running `currentOffset`, a `size_t`. -/
def EntityArchetype.fill : ComponentMetaMap → Nat → Nat → EntityArchetype → EntityArchetype
  | [], _, _, a => a
  | it :: rest, i, currentOffset, a =>
    EntityArchetype.fill rest (i + 1) (u64 (currentOffset + it.2.size))
      { a with
        mComponentHashes := setAt a.mComponentHashes i it.2.hashCode
        mComponentTypeIds := setAt a.mComponentTypeIds i it.2.typeId
        mComponentSizes := setAt a.mComponentSizes i it.2.size
        mComponentAlignments := setAt a.mComponentAlignments i it.2.alignment
        mComponentOffsets := setAt a.mComponentOffsets i currentOffset
        mComponentConstructors := setAt a.mComponentConstructors i (some it.2.constructor)
        mComponentIndexTable := (a.mComponentIndexTable.Add it.2.typeId).1 }

/-- The expression `new EntityArchetype(manager, id, metaMap)`. The member arrays
have `MAX_COMPONENT_COUNT_PER_ENTITY` entries, so a larger map writes past them. -/
def EntityArchetype.new (id : Nat) (metaMap : ComponentMetaMap) : Option EntityArchetype :=
  if metaMap.length ≤ MAX_COMPONENT_COUNT_PER_ENTITY then
    some (EntityArchetype.fill metaMap 0 0 (EntityArchetype.init id metaMap))
  else none

def EntityArchetype.ContainComponent (a : EntityArchetype) (T : ComponentType) : Bool :=
  decide (a.mComponentIndexTable.Get T.typeId ≠ INVALID_COMPONENT_INDEX)

def EntityArchetype.ContainAllComponents (a : EntityArchetype) (Ts : List ComponentType) : Bool :=
  ContainComponentsHelperClass.All a.mComponentIndexTable Ts

def EntityArchetype.ContainAnyComponents (a : EntityArchetype) (Ts : List ComponentType) : Bool :=
  ContainComponentsHelperClass.Any a.mComponentIndexTable Ts

def EntityArchetype.GetComponentIndex (a : EntityArchetype) (componentTypeID : Nat) : Int :=
  a.mComponentIndexTable.Get componentTypeID

/-! ## The archetype catalog -/

/-- The class `EntityArchetypeManager`. The two `std::unordered_map` members are
association lists; `objects` are the archetypes allocated with `new`, an archetype
pointer being the position in this list. -/
structure EntityArchetypeManager where
  mComponentMetas : List (Nat × ComponentMeta)
  mArchetypesMap : List (Nat × Nat)
  objects : List EntityArchetype

def EntityArchetypeManager.init : EntityArchetypeManager :=
  { mComponentMetas := [], mArchetypesMap := [], objects := [] }

/-- The call `map.find(key)` of `std::unordered_map` (`none` is `end()`). -/
def umapFind {β : Type} (map : List (Nat × β)) (key : Nat) : Option β :=
  (List.find? (fun e => e.1 == key) map).map Prod.snd

/-- The call `map.insert({key, v})` of `std::unordered_map`: keeps an existing entry. -/
def umapInsert {β : Type} (map : List (Nat × β)) (key : Nat) (v : β) : List (Nat × β) :=
  match umapFind map key with
  | some _ => map
  | none => map ++ [(key, v)]

/-- The method `GetComponentMeta<T>()`: the cache is keyed by `T::hash_code()`. -/
def EntityArchetypeManager.GetComponentMeta (mgr : EntityArchetypeManager) (T : ComponentType) :
    EntityArchetypeManager × ComponentMeta :=
  match umapFind mgr.mComponentMetas T.hashCode with
  | some m => (mgr, m)
  | none =>
    let m : ComponentMeta :=
      { hashCode := T.hashCode, typeId := T.typeId, size := T.size,
        alignment := T.alignment, constructor := T.defaultValue }
    ({ mgr with mComponentMetas := umapInsert mgr.mComponentMetas T.hashCode m }, m)

/-- The method `GetArchetypeIDFromComponentMetaMap`: a `uint32_t` running sum. -/
def GetArchetypeIDFromComponentMetaMap (metaMap : ComponentMetaMap) : Nat :=
  List.foldl (fun id it => u32 (id + it.2.hashCode)) 0 metaMap

/-- The call `GetComponentsMetaHelperClass<ComponentTypes...>::Call(manager, metaMap)`. -/
def GetComponentsMetaHelperClass.Call :
    List ComponentType → EntityArchetypeManager → ComponentMetaMap →
      EntityArchetypeManager × ComponentMetaMap
  | [], mgr, metaMap => (mgr, metaMap)
  | T :: OtherTypes, mgr, metaMap =>
    match metaMap.find T.typeId with
    | none =>
      let r := mgr.GetComponentMeta T
      GetComponentsMetaHelperClass.Call OtherTypes r.1 (metaMap.insert T.typeId r.2)
    | some _ => GetComponentsMetaHelperClass.Call OtherTypes mgr metaMap

/-- The call `RemoveComponentsFromMetaMap<ComponentTypes...>::Call(manager, metaMap)`. -/
def RemoveComponentsFromMetaMap.Call : List ComponentType → ComponentMetaMap → ComponentMetaMap
  | [], metaMap => metaMap
  | T :: OtherTypes, metaMap =>
    match metaMap.find T.typeId with
    | some _ => RemoveComponentsFromMetaMap.Call OtherTypes (metaMap.erase T.typeId)
    | none => RemoveComponentsFromMetaMap.Call OtherTypes metaMap

/-- The statements `new EntityArchetype(this, id, metaMap)` and
`mArchetypesMap.insert({ id, pEntityArchetype })` with the `return` that follows
them. -/
def EntityArchetypeManager.construct (mgr : EntityArchetypeManager) (id : Nat)
    (metaMap : ComponentMetaMap) : Option (EntityArchetypeManager × Nat) :=
  match EntityArchetype.new id metaMap with
  | none => none
  | some a =>
    some ({ mgr with
            objects := mgr.objects ++ [a]
            mArchetypesMap := umapInsert mgr.mArchetypesMap id mgr.objects.length },
          mgr.objects.length)

/-- The method `CreateArchetypeByComponentTypes<ComponentTypes...>()`: the catalog
afterwards and the returned archetype pointer. -/
def EntityArchetypeManager.CreateArchetypeByComponentTypes (mgr : EntityArchetypeManager)
    (Ts : List ComponentType) : Option (EntityArchetypeManager × Nat) :=
  let id := sum_component_hashcodes Ts
  match umapFind mgr.mArchetypesMap id with
  | some p => some (mgr, p)
  | none =>
    let r := GetComponentsMetaHelperClass.Call Ts mgr []
    r.1.construct id r.2

/-- The method `CreateArchetypeByEntityClass<EntityClass<Ts...>>()`; the constant
`EntityClassType::hashCode` is `sum_component_hashcodes_v<Ts...>` and
`GetComponentsMetaFromEntityClass` walks `Ts` like `GetComponentsMetaHelperClass`. -/
def EntityArchetypeManager.CreateArchetypeByEntityClass (mgr : EntityArchetypeManager)
    (Ts : List ComponentType) : Option (EntityArchetypeManager × Nat) :=
  let id := sum_component_hashcodes Ts
  match umapFind mgr.mArchetypesMap id with
  | some p => some (mgr, p)
  | none =>
    let r := GetComponentsMetaHelperClass.Call Ts mgr []
    r.1.construct id r.2

/-- A template argument list of `CreateArchetype<T...>`: component classes, or an
entity class `EntityClass<Ts...>` in first position. -/
inductive ArchetypeArgs where
  | components (Ts : List ComponentType)
  | entityClass (Ts : List ComponentType)

/-- The method `CreateArchetype<T...>()` (`CreateArchetypeHelperClass::Create`). -/
def EntityArchetypeManager.CreateArchetype (mgr : EntityArchetypeManager) :
    ArchetypeArgs → Option (EntityArchetypeManager × Nat)
  | ArchetypeArgs.components Ts => mgr.CreateArchetypeByComponentTypes Ts
  | ArchetypeArgs.entityClass Ts => mgr.CreateArchetypeByEntityClass Ts

/-- The method `AddComponents<ComponentTypes...>(pArchetype)`; the result pointer
is `none` for `nullptr`. A dangling `pArchetype` is fatal. -/
def EntityArchetypeManager.AddComponents (mgr : EntityArchetypeManager)
    (Ts : List ComponentType) (pArchetype : Nat) :
    Option (EntityArchetypeManager × Option Nat) :=
  match mgr.objects[pArchetype]? with
  | none => none
  | some a =>
    let r := GetComponentsMetaHelperClass.Call Ts mgr a.mComponentMetaMap
    if r.2.length = a.mComponentMetaMap.length then some (r.1, none)
    else
      let id := GetArchetypeIDFromComponentMetaMap r.2
      match umapFind r.1.mArchetypesMap id with
      | some p => some (r.1, some p)
      | none => (r.1.construct id r.2).map (fun q => (q.1, some q.2))

/-- The method `RemoveComponents<ComponentTypes...>(pArchetype)`. -/
def EntityArchetypeManager.RemoveComponents (mgr : EntityArchetypeManager)
    (Ts : List ComponentType) (pArchetype : Nat) :
    Option (EntityArchetypeManager × Option Nat) :=
  match mgr.objects[pArchetype]? with
  | none => none
  | some a =>
    let metaMap := RemoveComponentsFromMetaMap.Call Ts a.mComponentMetaMap
    if metaMap.length = a.mComponentMetaMap.length then some (mgr, none)
    else
      let id := GetArchetypeIDFromComponentMetaMap metaMap
      match umapFind mgr.mArchetypesMap id with
      | some p => some (mgr, some p)
      | none => (mgr.construct id metaMap).map (fun q => (q.1, some q.2))

/-! ## Entity identifiers -/

/-- The fields `ParseEntityID` writes through its five out-pointers. -/
structure ParsedEntityID where
  genid : Nat
  contextId : Nat
  storageIndex : Nat
  chunkIndex : Nat
  blockIndex : Nat
deriving DecidableEq, Repr

/-- The return expression of `Entity::GetEntityID` on the five values it reads
(`mGenID`, the context id and index of `mStorage`, `mChunkIndex`, `mBlockIndex`). -/
def packEntityID (mGenID contextId storageIndex mChunkIndex mBlockIndex : Nat) : Nat :=
  u64 (u64 mGenID <<< 48)
    ||| u64 (u64 contextId <<< 40)
    ||| u64 (u64 storageIndex <<< (MAX_CHUNK_COUNT_BITS + MAX_BLOCK_COUNT_BITS))
    ||| u64 (u64 mChunkIndex <<< MAX_BLOCK_COUNT_BITS)
    ||| u64 mBlockIndex

/-- The function `Entity::ParseEntityID`. -/
def ParseEntityID (eid : Nat) : ParsedEntityID :=
  { genid := u16 ((eid >>> 48) &&& 0x0FFFF)
    contextId := u8 ((eid >>> 40) &&& 0x0FF)
    storageIndex :=
      u16 ((eid >>> (MAX_CHUNK_COUNT_BITS + MAX_BLOCK_COUNT_BITS)) &&& STORAGE_INDEX_MASK)
    chunkIndex := u16 ((eid >>> MAX_BLOCK_COUNT_BITS) &&& CHUNK_INDEX_MASK)
    blockIndex := u16 (eid &&& BLOCK_INDEX_MASK) }

/-- The function `Entity::ExtractContextIdFromEntityID`. -/
def ExtractContextIdFromEntityID (eid : Nat) : Nat := u8 ((eid >>> 40) &&& 0x0FF)

/-! ## Pointers and entity headers -/

/-- A pointer to an `EntityComponentStorage`: the context that owns the storage and
the position of the storage in the storage list of that context. The fields
`mContext` and `mIndex` of the storage hold the same two values, so the model
reads them off the pointer. -/
structure StoragePtr where
  mContext : Nat
  mIndex : Nat
deriving DecidableEq, Repr

/-- A pointer to an `Entity` header: a header lives in `mEntitiesBuffer` of one
chunk, and its fields `mStorage`, `mChunkIndex`, `mBlockIndex`, written once by the
constructor of the chunk, are its own path; `pEntity->mChunkIndex` and the two
other reads are taken from the pointer. -/
structure EntityPtr where
  mStorage : StoragePtr
  mChunkIndex : Nat
  mBlockIndex : Nat
deriving DecidableEq, Repr

/-- The class `Entity`: the header stored in a chunk for each block. -/
structure Entity where
  mValid : Bool
  mGenID : Nat
  mChunkIndex : Nat
  mBlockIndex : Nat
  mStorage : StoragePtr
deriving DecidableEq, Repr

/-- What a cell of `mEntitiesBuffer` outside the blocks of the chunk reads as; such
a cell is not part of the buffer. -/
def Entity.outside : Entity :=
  { mValid := false, mGenID := 0, mChunkIndex := 0, mBlockIndex := 0,
    mStorage := { mContext := 0, mIndex := 0 } }

/-! ## The addresses of the arrays of a chunk -/

/-- The constant `std::alignment_of_v<Entity>`: the header holds a pointer. -/
def alignofEntity : Nat := 8

/-- The function `get_next_aligned_address(ptr, alignment)`, computed in
`uintptr_t`: the sum wraps at `2 ^ 64`. A division by zero has no result. -/
def get_next_aligned_address (ptr alignment : Nat) : Option Nat :=
  if alignment = 0 then none
  else some (u64 (u64 (ptr + u64 (alignment + (2 ^ 64 - 1))) / alignment * alignment))

/-- The addresses the constructor of `EntityComponentChunk` computes:
`mComponentBuffers` is the list of the starts of the component arrays and
`pComponentBufferAddress` the value of that variable after the loop. -/
structure ChunkLayout where
  mFreeList : Nat
  mEntitiesBuffer : Nat
  mComponentBuffers : List Nat
  pComponentBufferAddress : Nat
deriving DecidableEq, Repr

/-- The loop `for (int i = 0; i < mComponentCount; i++)` of the constructor of
`EntityComponentChunk`, for the indexes that are left, with the running
`pComponentBufferAddress` and the entries of `mComponentBuffers` set so far. The
product `mBlockCount * componentSize` is a `size_t`. -/
def EntityComponentChunk.layoutLoop (a : EntityArchetype) (mBlockCount : Nat) :
    List Nat → Nat → List Nat → Option (List Nat × Nat)
  | [], pComponentBufferAddress, mComponentBuffers =>
    some (mComponentBuffers, pComponentBufferAddress)
  | i :: rest, pComponentBufferAddress, mComponentBuffers =>
    match get_next_aligned_address pComponentBufferAddress (a.mComponentAlignments i) with
    | none => none
    | some buffer =>
      EntityComponentChunk.layoutLoop a mBlockCount rest
        (u64 (buffer + u64 (mBlockCount * a.mComponentSizes i))) (mComponentBuffers ++ [buffer])

/-- The addresses the constructor of `EntityComponentChunk` computes for `n` blocks
of the archetype `a` in the buffer that `Malloc` returned at `pMem`. -/
def EntityComponentChunk.layout (pMem : Nat) (a : EntityArchetype) (n : Nat) :
    Option ChunkLayout :=
  let mBlockCount := u16 n
  match get_next_aligned_address (u64 (pMem + sizeofFreeListEntry * mBlockCount))
      alignofEntity with
  | none => none
  | some pEntityBufferAddress =>
    match EntityComponentChunk.layoutLoop a mBlockCount (List.range a.mComponentCount)
        (u64 (pEntityBufferAddress + sizeofEntity * mBlockCount)) [] with
    | none => none
    | some r =>
      some
        { mFreeList := pMem
          mEntitiesBuffer := pEntityBufferAddress
          mComponentBuffers := r.1
          pComponentBufferAddress := r.2 }

/-- The address `GetComponentByIndex(pEntity, index)` computes for the record in
block `mBlockIndex`: `mComponentBuffers[index] + size * mBlockIndex`. -/
def ChunkLayout.GetComponentByIndex (l : ChunkLayout) (a : EntityArchetype)
    (mBlockIndex index : Nat) : Option Nat :=
  match l.mComponentBuffers[index]? with
  | none => none
  | some buffer => some (u64 (buffer + u64 (a.mComponentSizes index * mBlockIndex)))

/-- The largest number of bytes the arrays of a chunk of `n` blocks can take
after the start of its buffer: the arrays with the largest padding in front of the
header array and of each component array. -/
def EntityComponentChunk.layoutBound (a : EntityArchetype) (n : Nat) : Nat :=
  sizeofFreeListEntry * n + (alignofEntity - 1) + sizeofEntity * n
    + ((List.range a.mComponentCount).map
        (fun i => a.mComponentAlignments i - 1 + n * a.mComponentSizes i)).sum

/-- Where the arrays of a chunk lie in its buffer and how large the elements of the
component arrays are. The class holds the addresses in `mFreeList`,
`mEntitiesBuffer` and `mComponentBuffers[i]` and reads the sizes through
`mArchetype`; `mLayout` gives the addresses as distances from the start of the
buffer, for a buffer that starts at a multiple of every alignment involved (as the
buffers of `std::malloc` do for alignments up to 16). -/
structure ChunkAddresses where
  mLayout : Option ChunkLayout
  mComponentSizes : Nat → Nat

/-! ## Chunks -/

/-- The class `EntityComponentChunk`. `mComponentBuffers i b` is the content of
block `b` of the component array `i`. -/
structure EntityComponentChunk where
  mChunkId : Nat
  mEntityComponentStorage : StoragePtr
  mArchetype : Nat
  mBlockCount : Nat
  mChunkSize : Nat
  mComponentCount : Nat
  mUsedCount : Nat
  mFreeHead : Nat
  mFreeTail : Nat
  mFreeList : Nat → Nat
  mEntitiesBuffer : Nat → Entity
  mComponentBuffers : Nat → Nat → Option Value
  mAddresses : ChunkAddresses

/-- A pointer into a component array of a chunk: the array and the block. -/
structure ComponentSlot where
  index : Nat
  block : Nat
deriving DecidableEq, Repr

/-- The constructor of `EntityComponentChunk`; `a` is `*pArchetype`. -/
def EntityComponentChunk.new (chunkId : Nat) (pStorage : StoragePtr) (pArchetype : Nat)
    (a : EntityArchetype) (n chunkSize : Nat) : EntityComponentChunk :=
  { mChunkId := chunkId
    mEntityComponentStorage := pStorage
    mArchetype := pArchetype
    mBlockCount := u16 n
    mChunkSize := chunkSize
    mComponentCount := a.mComponentCount
    mUsedCount := 0
    mFreeHead := 0
    mFreeTail := u16 n
    mFreeList := fun i => if i < u16 n then u16 (i + 1) else 0
    mEntitiesBuffer := fun i =>
      if i < u16 n then
        { mValid := false, mGenID := 0, mBlockIndex := i, mChunkIndex := chunkId,
          mStorage := pStorage }
      else Entity.outside
    mComponentBuffers := fun _ _ => none
    mAddresses :=
      { mLayout := EntityComponentChunk.layout 0 a n
        mComponentSizes := a.mComponentSizes } }

/-- The chunk after `*p = v` for a component pointer `p`. -/
def EntityComponentChunk.store (c : EntityComponentChunk) (p : ComponentSlot)
    (v : Option Value) : EntityComponentChunk :=
  { c with
    mComponentBuffers := setAt c.mComponentBuffers p.index
      (setAt (c.mComponentBuffers p.index) p.block v) }

/-- The object a component pointer points to. -/
def EntityComponentChunk.load (c : EntityComponentChunk) (p : ComponentSlot) : Option Value :=
  c.mComponentBuffers p.index p.block

/-- The method `GetComponentByIndex(pEntity, index)`. -/
def EntityComponentChunk.GetComponentByIndex (c : EntityComponentChunk) (pEntity : EntityPtr)
    (index : Nat) : Option ComponentSlot :=
  if index < c.mComponentCount then some { index := index, block := pEntity.mBlockIndex }
  else none

/-- The method `GetComponentByTypeID(pEntity, componentTypeID)`: `some none` is the
returned `nullptr`. -/
def EntityComponentChunk.GetComponentByTypeID (c : EntityComponentChunk) (a : EntityArchetype)
    (pEntity : EntityPtr) (componentTypeID : Nat) : Option (Option ComponentSlot) :=
  let index := a.GetComponentIndex componentTypeID
  if index = INVALID_COMPONENT_INDEX then some none
  else (c.GetComponentByIndex pEntity index.toNat).map some

/-- The method `GetComponent<ComponentType>(pEntity)`: `none` is `nullptr`. -/
def EntityComponentChunk.GetComponent (_c : EntityComponentChunk) (a : EntityArchetype)
    (pEntity : EntityPtr) (T : ComponentType) : Option ComponentSlot :=
  let index := a.GetComponentIndex T.typeId
  if index = INVALID_COMPONENT_INDEX then none
  else some { index := index.toNat, block := pEntity.mBlockIndex }

/-- The method `ConstructComponents(pEntity)`; a null constructor entry constructs
nothing. -/
def EntityComponentChunk.ConstructComponents (c : EntityComponentChunk) (a : EntityArchetype)
    (pEntity : EntityPtr) : EntityComponentChunk :=
  List.foldl
    (fun c i => c.store { index := i, block := pEntity.mBlockIndex } (a.mComponentConstructors i))
    c (List.range c.mComponentCount)

/-- The method `DestructComponents(pEntity)`. -/
def EntityComponentChunk.DestructComponents (c : EntityComponentChunk) (pEntity : EntityPtr) :
    EntityComponentChunk :=
  List.foldl (fun c i => c.store { index := i, block := pEntity.mBlockIndex } none)
    c (List.range c.mComponentCount)

/-- The pointer `&mEntitiesBuffer[blockIndex]`. -/
def EntityComponentChunk.entityPtr (c : EntityComponentChunk) (blockIndex : Nat) : EntityPtr :=
  { mStorage := c.mEntityComponentStorage, mChunkIndex := c.mChunkId, mBlockIndex := blockIndex }

/-- The method `Allocate(bCallConstruct)`: the chunk afterwards and the returned
pointer; `none` when one of the two assertions fails. -/
def EntityComponentChunk.Allocate (c : EntityComponentChunk) (a : EntityArchetype)
    (bCallConstruct : Bool) : Option (EntityComponentChunk × EntityPtr) :=
  if c.mFreeHead = c.mFreeTail then none
  else
    let head := c.mFreeHead
    let e := c.mEntitiesBuffer head
    if e.mBlockIndex ≠ head then none
    else
      let c1 : EntityComponentChunk :=
        { c with
          mFreeHead := c.mFreeList head
          mEntitiesBuffer := setAt c.mEntitiesBuffer head
            { e with mValid := true, mGenID := u16 ((e.mGenID + 1) &&& 0x0000FFFF) } }
      let c2 := if bCallConstruct then c1.ConstructComponents a (c1.entityPtr head) else c1
      some ({ c2 with mUsedCount := u16 (c2.mUsedCount + 1) }, c2.entityPtr head)

/-- The method `Deallocate(pEntity, bCallDestructor)`; `none` when the assertion
fails. -/
def EntityComponentChunk.Deallocate (c : EntityComponentChunk) (pEntity : EntityPtr)
    (bCallDestructor : Bool) : Option EntityComponentChunk :=
  if pEntity.mChunkIndex ≠ c.mChunkId then none
  else
    let c1 := if bCallDestructor then c.DestructComponents pEntity else c
    some
      { c1 with
        mFreeList := setAt c1.mFreeList pEntity.mBlockIndex c1.mFreeHead
        mFreeHead := pEntity.mBlockIndex
        mEntitiesBuffer := setAt c1.mEntitiesBuffer pEntity.mBlockIndex
          { c1.mEntitiesBuffer pEntity.mBlockIndex with mValid := false }
        mUsedCount := u16 (c1.mUsedCount + 65535) }

def EntityComponentChunk.IsFull (c : EntityComponentChunk) : Bool :=
  decide (c.mFreeHead = c.mFreeTail)

def EntityComponentChunk.IsEmpty (c : EntityComponentChunk) : Bool :=
  decide (c.mUsedCount = 0)

/-- The method `CalculateBlockSize(pArchetype)`; `blockSize` is a `size_t`. -/
def EntityComponentChunk.CalculateBlockSize (a : EntityArchetype) : Nat :=
  List.foldl (fun blockSize i => u64 (blockSize + a.mComponentSizes i))
    (sizeofFreeListEntry + sizeofEntity) (List.range a.mComponentCount)

/-! ## Storages -/

/-- The class `EntityComponentStorage`. -/
structure EntityComponentStorage where
  mContext : Nat
  mIndex : Nat
  mArchetype : Nat
  mEntityCountPerChunk : Nat
  mComponentCountPerEntity : Nat
  mChunkSize : Nat
  mChunkFreeList : Nat → Nat
  mChunks : Nat → EntityComponentChunk
  mChunkArrayCapacity : Nat
  mChunkCount : Nat
  mChunkFreeHead : Nat

/-- The pointer `this` of a storage. -/
def EntityComponentStorage.this (s : EntityComponentStorage) : StoragePtr :=
  { mContext := s.mContext, mIndex := s.mIndex }

/-- A cell of `mChunks` after `memset(mChunks, 0, ...)`. -/
def EntityComponentChunk.zero : EntityComponentChunk :=
  { mChunkId := 0
    mEntityComponentStorage := { mContext := 0, mIndex := 0 }
    mArchetype := 0
    mBlockCount := 0
    mChunkSize := 0
    mComponentCount := 0
    mUsedCount := 0
    mFreeHead := 0
    mFreeTail := 0
    mFreeList := fun _ => 0
    mEntitiesBuffer := fun _ => Entity.outside
    mComponentBuffers := fun _ _ => none
    mAddresses := { mLayout := none, mComponentSizes := fun _ => 0 } }

/-- The constructor of `EntityComponentStorage`; `a` is `*pArchetype`. The count
`mChunkSize / entityBlockSize - 1` is computed in `size_t`. A cell of
`mChunkFreeList` that was never written reads as 0. -/
def EntityComponentStorage.new (pContext index pArchetype : Nat) (a : EntityArchetype) :
    EntityComponentStorage :=
  let entityBlockSize := EntityComponentChunk.CalculateBlockSize a
  let count := u64 (MAX_STORAGE_CHUNK_SIZE / entityBlockSize + (2 ^ 64 - 1))
  { mContext := pContext
    mIndex := index
    mArchetype := pArchetype
    mEntityCountPerChunk :=
      if count > MAX_ENTITY_COUNT_PER_CHUNK then MAX_ENTITY_COUNT_PER_CHUNK else count
    mComponentCountPerEntity := a.mComponentCount
    mChunkSize :=
      if count > MAX_ENTITY_COUNT_PER_CHUNK then
        u64 ((MAX_ENTITY_COUNT_PER_CHUNK + 1) * entityBlockSize)
      else MAX_STORAGE_CHUNK_SIZE
    mChunkFreeList := fun _ => 0
    mChunks := fun _ => EntityComponentChunk.zero
    mChunkArrayCapacity := 16
    mChunkCount := 0
    mChunkFreeHead := 0 }

/-- The method `IncreaseCapacity()`; `mChunkArrayCapacity` is a `uint16_t`. -/
def EntityComponentStorage.IncreaseCapacity (s : EntityComponentStorage) :
    EntityComponentStorage :=
  { s with mChunkArrayCapacity := u16 (s.mChunkArrayCapacity * 2) }

/-- The body of `if (mChunkFreeHead == mChunkCount)` in `Allocate`: make room in
the chunk array and construct a chunk at position `mChunkCount`; `none` when that
position is past the array. -/
def EntityComponentStorage.addChunk (s : EntityComponentStorage) (a : EntityArchetype) :
    Option EntityComponentStorage :=
  let s0 := if s.mChunkCount ≥ s.mChunkArrayCapacity then s.IncreaseCapacity else s
  if s0.mChunkCount ≥ s0.mChunkArrayCapacity then none
  else
    let chunk := EntityComponentChunk.new s0.mChunkCount s0.this s0.mArchetype a
      s0.mEntityCountPerChunk s0.mChunkSize
    some
      { s0 with
        mChunks := setAt s0.mChunks s0.mChunkCount chunk
        mChunkCount := u16 (s0.mChunkCount + 1)
        mChunkFreeList := setAt s0.mChunkFreeList s0.mChunkFreeHead (u16 (s0.mChunkCount + 1)) }

/-- The part of `Allocate` after the `if`: allocate in the chunk at the head of the
chunk free list and unlink that chunk when it became full. -/
def EntityComponentStorage.allocateInHead (s1 : EntityComponentStorage) (a : EntityArchetype)
    (bCallConstructor : Bool) : Option (EntityComponentStorage × EntityPtr) :=
  match (s1.mChunks s1.mChunkFreeHead).Allocate a bCallConstructor with
  | none => none
  | some (chunk, pEntity) =>
    let s2 := { s1 with mChunks := setAt s1.mChunks s1.mChunkFreeHead chunk }
    some (if chunk.IsFull then
            { s2 with mChunkFreeHead := s2.mChunkFreeList s2.mChunkFreeHead }
          else s2,
          pEntity)

/-- The method `Allocate(bCallConstructor)`; `a` is `*mArchetype`. -/
def EntityComponentStorage.Allocate (s : EntityComponentStorage) (a : EntityArchetype)
    (bCallConstructor : Bool) : Option (EntityComponentStorage × EntityPtr) :=
  match (if s.mChunkFreeHead = s.mChunkCount then s.addChunk a else some s) with
  | none => none
  | some s1 => s1.allocateInHead a bCallConstructor

/-- The method `Deallocate(pEntity, bCallDestructor)`. -/
def EntityComponentStorage.Deallocate (s : EntityComponentStorage) (pEntity : EntityPtr)
    (bCallDestructor : Bool) : Option EntityComponentStorage :=
  let bFull := (s.mChunks pEntity.mChunkIndex).IsFull
  match (s.mChunks pEntity.mChunkIndex).Deallocate pEntity bCallDestructor with
  | none => none
  | some chunk =>
    let s1 := { s with mChunks := setAt s.mChunks pEntity.mChunkIndex chunk }
    some (if bFull then
            { s1 with
              mChunkFreeList := setAt s1.mChunkFreeList pEntity.mChunkIndex s1.mChunkFreeHead
              mChunkFreeHead := pEntity.mChunkIndex }
          else s1)

/-- Byte `k` of a component object in the state `v`: the state of a component
object is its object representation, read as a little-endian number. -/
def objectByte (v : Value) (k : Nat) : Nat := v / 256 ^ k % 256

/-- The byte at the distance `offset` from the start of the buffer of the chunk when
it belongs to an element of a component array that holds an object; `none` for a
byte that no statement of the program has set. -/
def EntityComponentChunk.byteAt (c : EntityComponentChunk) (offset : Nat) : Option Nat :=
  match c.mAddresses.mLayout with
  | none => none
  | some l =>
    match List.find?
        (fun i => decide (l.mComponentBuffers.getD i 0 ≤ offset
          ∧ offset < l.mComponentBuffers.getD i 0
              + c.mBlockCount * c.mAddresses.mComponentSizes i))
        (List.range l.mComponentBuffers.length) with
    | none => none
    | some i =>
      (c.mComponentBuffers i
        ((offset - l.mComponentBuffers.getD i 0) / c.mAddresses.mComponentSizes i)).map
        (fun v => objectByte v
          ((offset - l.mComponentBuffers.getD i 0) % c.mAddresses.mComponentSizes i))

/-- The member `mValid` read through `&mEntitiesBuffer[blockIndex]` for a
`blockIndex` that is not below `mBlockCount`: the cell lies after the header array,
over the component arrays, and `mValid` is its byte 0. -/
def EntityComponentChunk.validPast (c : EntityComponentChunk) (blockIndex : Nat) :
    Option Bool :=
  match c.mAddresses.mLayout with
  | none => none
  | some l =>
    (c.byteAt (l.mEntitiesBuffer + sizeofEntity * blockIndex)).map (fun b => decide (b ≠ 0))

/-- The member `mGenID` read through `&mEntitiesBuffer[blockIndex]` for a
`blockIndex` that is not below `mBlockCount`: the bytes 2 and 3 of the cell. -/
def EntityComponentChunk.genPast (c : EntityComponentChunk) (blockIndex : Nat) : Option Nat :=
  match c.mAddresses.mLayout with
  | none => none
  | some l =>
    match c.byteAt (l.mEntitiesBuffer + sizeofEntity * blockIndex + 2),
        c.byteAt (l.mEntitiesBuffer + sizeofEntity * blockIndex + 3) with
    | some lo, some hi => some (lo + 256 * hi)
    | _, _ => none

/-- The result of `EntityComponentStorage::GetEntity` and of the lookups built on
it: `nullptr`, a pointer, or no answer when the lookup reads a byte that no
statement of the program has set. -/
inductive Lookup where
  | null
  | found (pEntity : EntityPtr)
  | indeterminate
deriving DecidableEq, Repr

/-- The method `GetEntity(chunkIndex, blockIndex)`. The source reads
`mEntitiesBuffer[blockIndex].mValid` without comparing `blockIndex` with
`mBlockCount`: for a `blockIndex` past the blocks of the chunk the read takes the
byte it finds in the component arrays, and the pointer returned for a byte that is
not zero points there. -/
def EntityComponentStorage.GetEntity (s : EntityComponentStorage) (chunkIndex blockIndex : Nat) :
    Lookup :=
  if chunkIndex ≥ s.mChunkCount then Lookup.null
  else if blockIndex ≥ (s.mChunks chunkIndex).mBlockCount then
    match (s.mChunks chunkIndex).validPast blockIndex with
    | none => Lookup.indeterminate
    | some false => Lookup.null
    | some true => Lookup.found ((s.mChunks chunkIndex).entityPtr blockIndex)
  else if !((s.mChunks chunkIndex).mEntitiesBuffer blockIndex).mValid then Lookup.null
  else Lookup.found ((s.mChunks chunkIndex).entityPtr blockIndex)

/-- The header `*pEntity` for a pointer into this storage. -/
def EntityComponentStorage.header (s : EntityComponentStorage) (pEntity : EntityPtr) : Entity :=
  (s.mChunks pEntity.mChunkIndex).mEntitiesBuffer pEntity.mBlockIndex

/-- The method `GetComponent<ComponentType>(pEntity)`. -/
def EntityComponentStorage.GetComponent (s : EntityComponentStorage) (a : EntityArchetype)
    (pEntity : EntityPtr) (T : ComponentType) : Option ComponentSlot :=
  (s.mChunks pEntity.mChunkIndex).GetComponent a pEntity T

/-- The method `GetComponentByIndex(pEntity, index)`. -/
def EntityComponentStorage.GetComponentByIndex (s : EntityComponentStorage) (pEntity : EntityPtr)
    (index : Nat) : Option ComponentSlot :=
  (s.mChunks pEntity.mChunkIndex).GetComponentByIndex pEntity index

/-- The method `GetComponentByTypeID(pEntity, componentTypeID)`. -/
def EntityComponentStorage.GetComponentByTypeID (s : EntityComponentStorage)
    (a : EntityArchetype) (pEntity : EntityPtr) (componentTypeID : Nat) :
    Option (Option ComponentSlot) :=
  (s.mChunks pEntity.mChunkIndex).GetComponentByTypeID a pEntity componentTypeID

/-- The object a component pointer of the entity `pEntity` points to. -/
def EntityComponentStorage.load (s : EntityComponentStorage) (pEntity : EntityPtr)
    (p : ComponentSlot) : Option Value :=
  (s.mChunks pEntity.mChunkIndex).load p

/-- The storage after `*p = v` for a component pointer `p` of the entity `pEntity`. -/
def EntityComponentStorage.store (s : EntityComponentStorage) (pEntity : EntityPtr)
    (p : ComponentSlot) (v : Option Value) : EntityComponentStorage :=
  { s with
    mChunks := setAt s.mChunks pEntity.mChunkIndex ((s.mChunks pEntity.mChunkIndex).store p v) }

/-! ## Contexts and the world -/

/-- A `CreateEntityEvent` or `DeleteEntityEvent` passed to `TriggerEvent`: the
pointer it carries and the header that pointer points to at that moment. -/
inductive EntityEvent where
  | created (pEntity : EntityPtr) (header : Entity)
  | deleted (pEntity : EntityPtr) (header : Entity)
deriving DecidableEq, Repr

/-- The pointer `evt.pEntity`. -/
def EntityEvent.pEntity : EntityEvent → EntityPtr
  | EntityEvent.created pEntity _ => pEntity
  | EntityEvent.deleted pEntity _ => pEntity

/-- The constant `CreateEntityEvent::type_id()`: the CRC-32 of the class name. -/
def CreateEntityEvent.type_id : Nat := 935269154

/-- The constant `DeleteEntityEvent::type_id()`: the CRC-32 of the class name. -/
def DeleteEntityEvent.type_id : Nat := 1663906294

/-- The constant `EventType::type_id()` of the class of an event. -/
def EntityEvent.type_id : EntityEvent → Nat
  | EntityEvent.created _ _ => CreateEntityEvent.type_id
  | EntityEvent.deleted _ _ => DeleteEntityEvent.type_id

def INVALID_EVENT_INDEX : Int := -1

def MAX_EVENT_COUNT : Nat := 16

/-- A callback subscribed to `CreateEntityEvent` or `DeleteEntityEvent`. It is
called with the event and runs on the record `evt->pEntity`: from the header and
the component values it reads there it gives the values it assigns to component
objects of that record, each by `if (pEntity->ContainComponent<T>())
*pEntity->GetComponent<T>() = data`, in order. A callback can be any code; the
callbacks that call other methods of the library are not covered. -/
abbrev EventCallbackFunction :=
  Entity → (ComponentType → Option Value) → List (ComponentType × Value)

/-- The record `EventCallbackObject`. -/
structure EventCallbackObject where
  id : Nat
  callback : EventCallbackFunction

abbrev EventCallbackList := List EventCallbackObject

/-- The class `EventManager`: the index table of the event classes and the list of
callbacks of each index. `triggered` is no member of the class: it keeps the events
`TriggerEvent` was called with through the context that holds the manager, oldest
first. -/
structure EventManager where
  triggered : List EntityEvent
  mIndexTable : LinearComponentIndexTable
  mEventCallbacks : Nat → EventCallbackList

/-- The manager `new EventManager()` of `World::CreateEventManager()`. -/
def EventManager.new : EventManager :=
  { triggered := [], mIndexTable := LinearComponentIndexTable.init,
    mEventCallbacks := fun _ => [] }

/-- The method `Subscrible<EventType>(cb)`: the manager afterwards and the handle.
`genid` is the value `GenID()` returns, the next value of a counter that all
managers share. The index table has `MAX_EVENT_COUNT` cells. The stored callback
calls `cb` through a reference; the model takes `cb` to be there whenever the
callback runs. -/
def EventManager.Subscrible (em : EventManager) (type_id genid : Nat)
    (cb : EventCallbackFunction) : Option (EventManager × Nat) :=
  match (if em.mIndexTable.Get type_id = INVALID_EVENT_INDEX then
      LinearComponentIndexTable.AddWithin MAX_EVENT_COUNT em.mIndexTable type_id
    else some (em.mIndexTable, (em.mIndexTable.Get type_id).toNat)) with
  | none => none
  | some r =>
    some
      ({ em with
         mIndexTable := r.1
         mEventCallbacks := setAt em.mEventCallbacks r.2
           (em.mEventCallbacks r.2 ++ [{ id := u32 genid, callback := cb }]) },
       u64 (r.2 * 2 ^ 32 + u32 genid))

/-- The method `Unsubscribe(handle)`: the first callback with the id of the handle
is erased from the list of the index of the handle; the array of lists has
`MAX_EVENT_COUNT` cells. -/
def EventManager.Unsubscribe (em : EventManager) (handle : Nat) : Option EventManager :=
  if u32 (handle / 2 ^ 32) < MAX_EVENT_COUNT then
    some
      { em with
        mEventCallbacks := setAt em.mEventCallbacks (u32 (handle / 2 ^ 32))
          (List.eraseP (fun it => it.id == handle % 2 ^ 32)
            (em.mEventCallbacks (u32 (handle / 2 ^ 32)))) }
  else none

/-- The method `Unsubscribe<EventType>()`. -/
def EventManager.UnsubscribeAll (em : EventManager) (type_id : Nat) : EventManager :=
  if em.mIndexTable.Get type_id = INVALID_EVENT_INDEX then em
  else
    { em with
      mEventCallbacks := setAt em.mEventCallbacks (em.mIndexTable.Get type_id).toNat [] }

/-- The list `TriggerEvent<EventType>` walks through: no callback when the class
of the event is not in the index table. -/
def EventManager.callbacks (em : EventManager) (type_id : Nat) : EventCallbackList :=
  if em.mIndexTable.Get type_id = INVALID_EVENT_INDEX then []
  else em.mEventCallbacks (em.mIndexTable.Get type_id).toNat

/-- The class `EntityContext`. The storages of `mEntityComponentStorageList` are
owned by the context; `mEventManager` is `none` for `nullptr`, and otherwise the
manager the pointer points to, which no other context shares. -/
structure EntityContext where
  mContextId : Nat
  mEntityComponentStorageList : List EntityComponentStorage
  mEventManager : Option EventManager

/-- The class `World`. -/
structure World where
  mArchetypeManager : EntityArchetypeManager
  mEntityContexts : Nat → Option EntityContext

/-- The constructor of `World`. -/
def World.new : World :=
  { mArchetypeManager := EntityArchetypeManager.init, mEntityContexts := fun _ => none }

/-- The method `FindAvaibableContextId()`: `none` is the returned `-1`. -/
def World.FindAvaibableContextId (w : World) : Option Nat :=
  List.find? (fun i => (w.mEntityContexts i).isNone) (List.range MAX_CONTEXT_COUNT)

/-- The method `CreateContext()`: the world afterwards and the context pointer. -/
def World.CreateContext (w : World) : Option (World × Nat) :=
  match w.FindAvaibableContextId with
  | none => none
  | some id =>
    some ({ w with
            mEntityContexts := setAt w.mEntityContexts id
              (some { mContextId := id, mEntityComponentStorageList := [],
                      mEventManager := none }) },
          id)

/-- The method `SetEventManager(pEventManager)` of the context `pContext`. -/
def World.SetEventManager (w : World) (pContext : Nat) (pEventManager : Option EventManager) :
    Option World :=
  match w.mEntityContexts pContext with
  | none => none
  | some c =>
    some { w with
           mEntityContexts := setAt w.mEntityContexts pContext
             (some { c with mEventManager := pEventManager }) }

/-- The call `pContext->GetEventManager()->Subscrible<EventType>(cb)`: the world
afterwards and the handle. -/
def World.Subscrible (w : World) (pContext type_id genid : Nat) (cb : EventCallbackFunction) :
    Option (World × Nat) :=
  match w.mEntityContexts pContext with
  | none => none
  | some c =>
    match c.mEventManager with
    | none => none
    | some em =>
      (em.Subscrible type_id genid cb).map
        (fun r =>
          ({ w with
             mEntityContexts := setAt w.mEntityContexts pContext
               (some { c with mEventManager := some r.1 }) },
           r.2))

/-- The call `pContext->GetEventManager()->Unsubscribe(handle)`. -/
def World.Unsubscribe (w : World) (pContext handle : Nat) : Option World :=
  match w.mEntityContexts pContext with
  | none => none
  | some c =>
    match c.mEventManager with
    | none => none
    | some em =>
      (em.Unsubscribe handle).map
        (fun em1 =>
          { w with
            mEntityContexts := setAt w.mEntityContexts pContext
              (some { c with mEventManager := some em1 }) })

/-- The call `pContext->GetEventManager()->Unsubscribe<EventType>()`. -/
def World.UnsubscribeAll (w : World) (pContext type_id : Nat) : Option World :=
  match w.mEntityContexts pContext with
  | none => none
  | some c =>
    match c.mEventManager with
    | none => none
    | some em =>
      some
        { w with
          mEntityContexts := setAt w.mEntityContexts pContext
            (some { c with mEventManager := some (em.UnsubscribeAll type_id) }) }

/-- The method `GetEventManager()` of the context `pContext`: `none` for `nullptr`,
and for a context that does not exist. -/
def World.GetEventManager (w : World) (pContext : Nat) : Option EventManager :=
  match w.mEntityContexts pContext with
  | none => none
  | some c => c.mEventManager

/-- The callbacks the event manager of the context `pContext` calls for an event
of the class `type_id`: none without a context or without a manager. -/
def World.callbacks (w : World) (pContext type_id : Nat) : EventCallbackList :=
  match w.mEntityContexts pContext with
  | none => []
  | some c =>
    match c.mEventManager with
    | none => []
    | some em => em.callbacks type_id

/-- The method `CreateArchetype<T...>()` of the world. -/
def World.CreateArchetype (w : World) (args : ArchetypeArgs) : Option (World × Nat) :=
  (w.mArchetypeManager.CreateArchetype args).map
    (fun r => ({ w with mArchetypeManager := r.1 }, r.2))

/-- The object `*p` for a storage pointer. -/
def World.storage (w : World) (p : StoragePtr) : Option EntityComponentStorage :=
  match w.mEntityContexts p.mContext with
  | none => none
  | some c => c.mEntityComponentStorageList[p.mIndex]?

/-- The object `*p` for an archetype pointer. -/
def World.archetype (w : World) (p : Nat) : Option EntityArchetype :=
  w.mArchetypeManager.objects[p]?

/-- The world after `*p = s` for a storage pointer. -/
def World.setStorage (w : World) (p : StoragePtr) (s : EntityComponentStorage) : World :=
  match w.mEntityContexts p.mContext with
  | none => w
  | some c =>
    { w with
      mEntityContexts := setAt w.mEntityContexts p.mContext
        (some { c with
                mEntityComponentStorageList :=
                  c.mEntityComponentStorageList.set p.mIndex s }) }

/-- The header `*pEntity`. -/
def World.header (w : World) (pEntity : EntityPtr) : Option Entity :=
  (w.storage pEntity.mStorage).map (fun s => s.header pEntity)

/-- The method `Entity::IsValid()`. -/
def World.IsValid (w : World) (pEntity : EntityPtr) : Option Bool :=
  (w.header pEntity).map Entity.mValid

/-- The method `Entity::GetArchetype()`: the pointer `mStorage->mArchetype`. -/
def World.GetArchetype (w : World) (pEntity : EntityPtr) : Option Nat :=
  (w.storage pEntity.mStorage).map EntityComponentStorage.mArchetype

/-- The method `Entity::GetEntityID()`. -/
def World.GetEntityID (w : World) (pEntity : EntityPtr) : Option Nat :=
  match w.storage pEntity.mStorage with
  | none => none
  | some s =>
    match w.mEntityContexts s.mContext with
    | none => none
    | some c =>
      some (packEntityID (s.header pEntity).mGenID c.mContextId s.mIndex
        pEntity.mChunkIndex pEntity.mBlockIndex)

/-- The method `EntityContext::GetEntity(eid)`; `pEntity->mGenID` is read where
`pEntity` points, which for a block index past the blocks of the chunk is in the
component arrays. -/
def EntityContext.GetEntity (c : EntityContext) (eid : Nat) : Lookup :=
  let id := ParseEntityID eid
  match c.mEntityComponentStorageList[id.storageIndex]? with
  | none => Lookup.null
  | some pStorage =>
    match pStorage.GetEntity id.chunkIndex id.blockIndex with
    | Lookup.null => Lookup.null
    | Lookup.indeterminate => Lookup.indeterminate
    | Lookup.found pEntity =>
      if id.blockIndex ≥ (pStorage.mChunks id.chunkIndex).mBlockCount then
        match (pStorage.mChunks id.chunkIndex).genPast id.blockIndex with
        | none => Lookup.indeterminate
        | some mGenID => if mGenID ≠ id.genid then Lookup.null else Lookup.found pEntity
      else if ((pStorage.mChunks id.chunkIndex).mEntitiesBuffer id.blockIndex).mGenID
          ≠ id.genid then
        Lookup.null
      else Lookup.found pEntity

/-- The method `World::GetEntity(eid)`. -/
def World.GetEntity (w : World) (eid : Nat) : Lookup :=
  match w.mEntityContexts (ExtractContextIdFromEntityID eid) with
  | none => Lookup.null
  | some c => c.GetEntity eid

/-- The method `EntityContext::GetEntityComponentStorage(pArchetype)` of the
context `pContext`: the world afterwards and the storage pointer. -/
def World.GetEntityComponentStorage (w : World) (pContext : Nat) (pArchetype : Nat) :
    Option (World × StoragePtr) :=
  match w.mEntityContexts pContext, w.archetype pArchetype with
  | some c, some a =>
    match a.mStoragesInContext c.mContextId with
    | some i => some (w, { mContext := pContext, mIndex := i })
    | none =>
      let index := u16 c.mEntityComponentStorageList.length
      if index < MAX_STORAGE_COUNT_PER_CONTEXT then
        let s := EntityComponentStorage.new pContext index pArchetype a
        let a1 := { a with
                    mStoragesInContext := setAt a.mStoragesInContext c.mContextId
                      (some c.mEntityComponentStorageList.length) }
        some ({ mArchetypeManager :=
                  { w.mArchetypeManager with
                    objects := w.mArchetypeManager.objects.set pArchetype a1 }
                mEntityContexts := setAt w.mEntityContexts pContext
                  (some { c with
                          mEntityComponentStorageList :=
                            c.mEntityComponentStorageList ++ [s] }) },
              { mContext := pContext, mIndex := c.mEntityComponentStorageList.length })
      else none
  | _, _ => none

/-- The method `Allocate(bCallConstructor)` through a storage pointer. -/
def World.Allocate (w : World) (pStorage : StoragePtr) (bCallConstructor : Bool) :
    Option (World × EntityPtr) :=
  match w.storage pStorage with
  | none => none
  | some s =>
    match w.archetype s.mArchetype with
    | none => none
    | some a =>
      match s.Allocate a bCallConstructor with
      | none => none
      | some (s1, pEntity) => some (w.setStorage pStorage s1, pEntity)

/-- The method `Entity::GetComponent<ComponentType>()`: `some none` is `nullptr`. -/
def World.GetComponent (w : World) (pEntity : EntityPtr) (T : ComponentType) :
    Option (Option ComponentSlot) :=
  match w.storage pEntity.mStorage with
  | none => none
  | some s =>
    match w.archetype s.mArchetype with
    | none => none
    | some a => some (s.GetComponent a pEntity T)

/-- The method `Entity::GetComponentByTypeID(typeId)`. -/
def World.GetComponentByTypeID (w : World) (pEntity : EntityPtr) (typeId : Nat) :
    Option (Option ComponentSlot) :=
  match w.storage pEntity.mStorage with
  | none => none
  | some s =>
    match w.archetype s.mArchetype with
    | none => none
    | some a => s.GetComponentByTypeID a pEntity typeId

/-- The method `Entity::GetComponentByIndex(index)`. -/
def World.GetComponentByIndex (w : World) (pEntity : EntityPtr) (index : Nat) :
    Option ComponentSlot :=
  match w.storage pEntity.mStorage with
  | none => none
  | some s => s.GetComponentByIndex pEntity index

/-- The object `*p` for a component pointer `p` of the entity `pEntity`. -/
def World.load (w : World) (pEntity : EntityPtr) (p : ComponentSlot) : Option Value :=
  match w.storage pEntity.mStorage with
  | none => none
  | some s => s.load pEntity p

/-- The world after `*p = v` for a component pointer `p` of the entity `pEntity`. -/
def World.store (w : World) (pEntity : EntityPtr) (p : ComponentSlot) (v : Option Value) :
    Option World :=
  match w.storage pEntity.mStorage with
  | none => none
  | some s => some (w.setStorage pEntity.mStorage (s.store pEntity p v))

/-- The value of the component `T` of an entity, read through `GetComponent<T>()`:
`none` when the pointer is `nullptr` (or dangling), or when the slot holds no
constructed object. -/
def World.component (w : World) (pEntity : EntityPtr) (T : ComponentType) : Option Value :=
  match w.GetComponent pEntity T with
  | some (some p) => w.load pEntity p
  | _ => none

/-- The method `Entity::SetComponent(data)`: the world afterwards and the returned
flag. -/
def World.SetComponent (w : World) (pEntity : EntityPtr) (T : ComponentType) (data : Value) :
    Option (World × Bool) :=
  match w.GetComponent pEntity T with
  | none => none
  | some none => some (w, false)
  | some (some pComponent) => (w.store pEntity pComponent (some data)).map (fun w1 => (w1, true))

/-- The assignments of a callback to the component objects of the record
`pEntity`, in order. -/
def World.assign (w : World) (pEntity : EntityPtr) : List (ComponentType × Value) → Option World
  | [] => some w
  | (T, data) :: rest =>
    match w.SetComponent pEntity T data with
    | none => none
    | some r => World.assign r.1 pEntity rest

/-- The call `it->callback(&evt)` for an event with the record `pEntity`. -/
def World.invoke (pEntity : EntityPtr) (w : Option World) (it : EventCallbackObject) :
    Option World :=
  match w with
  | none => none
  | some w =>
    match w.header pEntity with
    | none => none
    | some e => w.assign pEntity (it.callback e (fun T => w.component pEntity T))

/-- The world after the event manager of the context `pContext` has taken note of
the event: `triggered` is one event longer. -/
def World.noteEvent (w : World) (pContext : Nat) (c : EntityContext) (em : EventManager)
    (evt : EntityEvent) : World :=
  { w with
    mEntityContexts := setAt w.mEntityContexts pContext
      (some { c with mEventManager := some { em with triggered := em.triggered ++ [evt] } }) }

/-- The method `TriggerEvent(evt)` of the context `pContext`: without an event
manager nothing happens; otherwise `EventManager::TriggerEvent` calls the callbacks
subscribed to the class of the event, in the order of the list. -/
def World.TriggerEvent (w : World) (pContext : Nat) (evt : EntityEvent) : Option World :=
  match w.mEntityContexts pContext with
  | none => none
  | some c =>
    match c.mEventManager with
    | none => some w
    | some em =>
      List.foldl (World.invoke evt.pEntity) (some (w.noteEvent pContext c em evt))
        (em.callbacks evt.type_id)

/-- The method `OnEntityCreated(pEntity)` of the context `pContext`. -/
def World.OnEntityCreated (w : World) (pContext : Nat) (pEntity : EntityPtr) : Option World :=
  match w.header pEntity with
  | none => none
  | some e => w.TriggerEvent pContext (EntityEvent.created pEntity e)

/-- The method `OnEntityDeleted(pEntity)` of the context `pContext`. -/
def World.OnEntityDeleted (w : World) (pContext : Nat) (pEntity : EntityPtr) : Option World :=
  match w.header pEntity with
  | none => none
  | some e => w.TriggerEvent pContext (EntityEvent.deleted pEntity e)

/-- The call `ComponentTypesHelperClass<Args...>::ConstructEntity(pEntity, args...)`:
each argument is a component class with the value passed for it. -/
def World.ConstructEntity (w : World) (pEntity : EntityPtr) :
    List (ComponentType × Value) → Option World
  | [] => some w
  | (T, data) :: rest =>
    let next : Option World :=
      if !is_type_duplicate T (rest.map Prod.fst) then
        match w.GetComponent pEntity T with
        | none => none
        | some none => some w
        | some (some pComponentMem) => w.store pEntity pComponentMem (some data)
      else some w
    match next with
    | none => none
    | some w1 => World.ConstructEntity w1 pEntity rest

/-- The call `ComponentTypesHelperClass<ComponentTypes...>::ConstructEntity(pEntity)`:
each listed class is default-constructed. -/
def World.ConstructEntityDefault (w : World) (pEntity : EntityPtr) :
    List ComponentType → Option World
  | [] => some w
  | T :: Rest =>
    let next : Option World :=
      if !is_type_duplicate T Rest then
        match w.GetComponent pEntity T with
        | none => none
        | some none => some w
        | some (some pComponentMem) => w.store pEntity pComponentMem (some T.defaultValue)
      else some w
    match next with
    | none => none
    | some w1 => World.ConstructEntityDefault w1 pEntity Rest

/-- The call `ComponentTypesHelperClass<ComponentTypes...>::Contain(componentTypeId)`. -/
def ComponentTypesHelperClass.Contain (componentTypeId : Nat) : List ComponentType → Bool
  | [] => false
  | T :: Rest =>
    decide (componentTypeId = T.typeId) || ComponentTypesHelperClass.Contain componentTypeId Rest

/-- The method `CreateEntity(pArchetype)` of the context `pContext`. -/
def World.CreateEntity (w : World) (pContext : Nat) (pArchetype : Nat) :
    Option (World × EntityPtr) :=
  match w.GetEntityComponentStorage pContext pArchetype with
  | none => none
  | some (w1, pStorage) =>
    match w1.Allocate pStorage true with
    | none => none
    | some (w2, pEntity) => (w2.OnEntityCreated pContext pEntity).map (fun w3 => (w3, pEntity))

/-- One round of the loop of `CreateEntity(pArchetype, args...)` that constructs
the components for which no value was passed. -/
def World.constructMissing (Args : List ComponentType) (a : EntityArchetype)
    (pEntity : EntityPtr) (w : Option World) (i : Nat) : Option World :=
  match w with
  | none => none
  | some w =>
    if !ComponentTypesHelperClass.Contain (a.mComponentTypeIds i) Args then
      match w.GetComponentByIndex pEntity i with
      | none => none
      | some pComponentBytes => w.store pEntity pComponentBytes (a.mComponentConstructors i)
    else some w

/-- The method `CreateEntity(pArchetype, args...)` of the context `pContext`. -/
def World.CreateEntityWith (w : World) (pContext : Nat) (pArchetype : Nat)
    (args : List (ComponentType × Value)) : Option (World × EntityPtr) :=
  match w.GetEntityComponentStorage pContext pArchetype with
  | none => none
  | some (w1, pStorage) =>
    match w1.Allocate pStorage false, w1.archetype pArchetype with
    | some (w2, pEntity), some a =>
      match List.foldl (World.constructMissing (args.map Prod.fst) a pEntity) (some w2)
          (List.range a.mComponentCount) with
      | none => none
      | some w3 =>
        match w3.ConstructEntity pEntity args with
        | none => none
        | some w4 => (w4.OnEntityCreated pContext pEntity).map (fun w5 => (w5, pEntity))
    | _, _ => none

/-- One round of the loop of `CopyEntityData`. -/
def World.copyComponent (srcArchetype : EntityArchetype) (pDstEntity pSrcEntity : EntityPtr)
    (w : Option World) (i : Nat) : Option World :=
  match w with
  | none => none
  | some w =>
    match w.GetComponentByTypeID pDstEntity (srcArchetype.mComponentTypeIds i) with
    | none => none
    | some none => some w
    | some (some pDstComponentMem) =>
      match w.GetComponentByIndex pSrcEntity i with
      | none => none
      | some pSrcComponentMem =>
        w.store pDstEntity pDstComponentMem (w.load pSrcEntity pSrcComponentMem)

/-- The method `CopyEntityData(pDstEntity, pSrcEntity)`. -/
def World.CopyEntityData (w : World) (pDstEntity pSrcEntity : EntityPtr) : Option World :=
  match w.GetArchetype pSrcEntity with
  | none => none
  | some pSrcArchetype =>
    match w.archetype pSrcArchetype with
    | none => none
    | some srcArchetype =>
      List.foldl (World.copyComponent srcArchetype pDstEntity pSrcEntity) (some w)
        (List.range srcArchetype.mComponentCount)

/-- The part of `ExtendEntity` and `RemoveComponentsFromEntity` after the new
archetype is known: get its storage in the context, allocate, copy. -/
def World.migrate (w : World) (pContext : Nat) (pDstArchetype : Option Nat)
    (pSrcEntity : EntityPtr) : Option (World × EntityPtr) :=
  match pDstArchetype with
  | none => none
  | some pDstArchetype =>
    match w.GetEntityComponentStorage pContext pDstArchetype with
    | none => none
    | some (w1, pDstStorage) =>
      match w1.Allocate pDstStorage false with
      | none => none
      | some (w2, pDstEntity) =>
        (w2.CopyEntityData pDstEntity pSrcEntity).map (fun w3 => (w3, pDstEntity))

/-- The method `ExtendEntity(pSrcEntity, args...)` of the context `pContext`; the
returned pointer is `none` for `nullptr`. -/
def World.ExtendEntityWith (w : World) (pContext : Nat) (pSrcEntity : EntityPtr)
    (args : List (ComponentType × Value)) : Option (World × Option EntityPtr) :=
  match w.GetArchetype pSrcEntity with
  | none => none
  | some pSrcArchetype =>
    match w.archetype pSrcArchetype with
    | none => none
    | some srcArchetype =>
      if srcArchetype.ContainAnyComponents (args.map Prod.fst) then some (w, none)
      else
        match w.mArchetypeManager.AddComponents (args.map Prod.fst) pSrcArchetype with
        | none => none
        | some (mgr, pDstArchetype) =>
          match World.migrate { w with mArchetypeManager := mgr } pContext pDstArchetype
              pSrcEntity with
          | none => none
          | some (w3, pDstEntity) =>
            match w3.ConstructEntity pDstEntity args with
            | none => none
            | some w4 =>
              (w4.OnEntityCreated pContext pDstEntity).map (fun w5 => (w5, some pDstEntity))

/-- The method `ExtendEntity<ComponentTypes...>(pSrcEntity)` of the context
`pContext`. -/
def World.ExtendEntity (w : World) (pContext : Nat) (pSrcEntity : EntityPtr)
    (Ts : List ComponentType) : Option (World × Option EntityPtr) :=
  match w.GetArchetype pSrcEntity with
  | none => none
  | some pSrcArchetype =>
    match w.archetype pSrcArchetype with
    | none => none
    | some srcArchetype =>
      if srcArchetype.ContainAnyComponents Ts then some (w, none)
      else
        match w.mArchetypeManager.AddComponents Ts pSrcArchetype with
        | none => none
        | some (mgr, pDstArchetype) =>
          match World.migrate { w with mArchetypeManager := mgr } pContext pDstArchetype
              pSrcEntity with
          | none => none
          | some (w3, pDstEntity) =>
            match w3.ConstructEntityDefault pDstEntity Ts with
            | none => none
            | some w4 =>
              (w4.OnEntityCreated pContext pDstEntity).map (fun w5 => (w5, some pDstEntity))

/-- The method `RemoveComponentsFromEntity<ComponentTypes...>(pSrcEntity)` of the
context `pContext`. -/
def World.RemoveComponentsFromEntity (w : World) (pContext : Nat) (pSrcEntity : EntityPtr)
    (Ts : List ComponentType) : Option (World × Option EntityPtr) :=
  match w.GetArchetype pSrcEntity with
  | none => none
  | some pSrcArchetype =>
    match w.archetype pSrcArchetype with
    | none => none
    | some srcArchetype =>
      if !srcArchetype.ContainAllComponents Ts then some (w, none)
      else
        match w.mArchetypeManager.RemoveComponents Ts pSrcArchetype with
        | none => none
        | some (mgr, pDstArchetype) =>
          match World.migrate { w with mArchetypeManager := mgr } pContext pDstArchetype
              pSrcEntity with
          | none => none
          | some (w3, pDstEntity) =>
            (w3.OnEntityCreated pContext pDstEntity).map (fun w4 => (w4, some pDstEntity))

/-- The method `Entity::Extend<ComponentTypes...>()`. -/
def World.Extend (w : World) (pEntity : EntityPtr) (Ts : List ComponentType) :
    Option (World × Option EntityPtr) :=
  match w.storage pEntity.mStorage with
  | none => none
  | some s => w.ExtendEntity s.mContext pEntity Ts

/-- The method `Entity::Extend(args...)`. -/
def World.ExtendWith (w : World) (pEntity : EntityPtr) (args : List (ComponentType × Value)) :
    Option (World × Option EntityPtr) :=
  match w.storage pEntity.mStorage with
  | none => none
  | some s => w.ExtendEntityWith s.mContext pEntity args

/-- The method `Entity::Remove<ComponentTypes...>()`. -/
def World.Remove (w : World) (pEntity : EntityPtr) (Ts : List ComponentType) :
    Option (World × Option EntityPtr) :=
  match w.storage pEntity.mStorage with
  | none => none
  | some s => w.RemoveComponentsFromEntity s.mContext pEntity Ts

/-- The method `Entity::Release()`. -/
def World.Release (w : World) (pEntity : EntityPtr) : Option World :=
  match w.storage pEntity.mStorage with
  | none => none
  | some s =>
    if !(s.header pEntity).mValid then none
    else
      match w.OnEntityDeleted s.mContext pEntity with
      | none => none
      | some w1 =>
        match w1.storage pEntity.mStorage with
        | none => none
        | some s1 =>
          (s1.Deallocate pEntity true).map (fun s2 => w1.setStorage pEntity.mStorage s2)

/-- One round of the loop of `CloneEntity`; the stored assignment copy-constructs
the destination from the source. -/
def World.cloneComponent (pClonedEntity pEntity : EntityPtr) (w : Option World) (i : Nat) :
    Option World :=
  match w with
  | none => none
  | some w =>
    match w.GetComponentByIndex pEntity i with
    | none => none
    | some pSrcMem =>
      match w.GetComponentByIndex pClonedEntity i with
      | none => none
      | some pDstMem => w.store pClonedEntity pDstMem (w.load pEntity pSrcMem)

/-- The method `CloneEntity(pEntity)` of the storage `pStorage`. -/
def World.CloneEntity (w : World) (pStorage : StoragePtr) (pEntity : EntityPtr) :
    Option (World × EntityPtr) :=
  match w.storage pStorage with
  | none => none
  | some s =>
    if w.GetArchetype pEntity ≠ some s.mArchetype then none
    else
      match w.Allocate pStorage false with
      | none => none
      | some (w1, pClonedEntity) =>
        (List.foldl (World.cloneComponent pClonedEntity pEntity) (some w1)
          (List.range s.mComponentCountPerEntity)).map (fun w2 => (w2, pClonedEntity))

/-- The method `Entity::Clone()`. -/
def World.Clone (w : World) (pEntity : EntityPtr) : Option (World × EntityPtr) :=
  w.CloneEntity pEntity.mStorage pEntity

/-! ## Iteration -/

/-- The arguments of one invocation of a `ForEach` callback: the entity pointer
with the header it points to, and the component pointers with the objects they
point to. -/
structure Visit where
  pEntity : EntityPtr
  header : Entity
  components : List ComponentSlot
  values : List (Option Value)
deriving DecidableEq, Repr

/-- The call `GetComponentIndexesHelperClass<ComponentTypes...>::Call`: the filled
index array. -/
def GetComponentIndexesHelperClass.Call (a : EntityArchetype) : List ComponentType → List Int
  | [] => []
  | T :: Rest => a.GetComponentIndex T.typeId :: GetComponentIndexesHelperClass.Call a Rest

/-- The callback arguments for block `b`: `pEntity` and the component pointers
after `b - startBlockIndex` rounds of `AdvancePointers`. -/
def EntityComponentChunk.visit (c : EntityComponentChunk) (componentIndexes : List Int)
    (b : Nat) : Visit :=
  { pEntity := c.entityPtr b
    header := c.mEntitiesBuffer b
    components := componentIndexes.map (fun index => { index := index.toNat, block := b })
    values := componentIndexes.map (fun index => c.mComponentBuffers index.toNat b) }

/-- The loop `FOR_EACH_ENTITY` (and the loop of `_DoForEach_WithTooManyComponents`)
over `count` blocks from `startBlockIndex`; the callback folds its arguments into
an accumulator. -/
def EntityComponentChunk.DoForEach {σ : Type} (c : EntityComponentChunk) (f : σ → Visit → σ)
    (count startBlockIndex : Nat) (componentIndexes : List Int) (acc : σ) : σ :=
  List.foldl
    (fun acc i =>
      if (c.mEntitiesBuffer (startBlockIndex + i)).mValid then
        f acc (c.visit componentIndexes (startBlockIndex + i))
      else acc)
    acc (List.range count)

/-- The method `ForEach<ComponentTypes...>(f, startBlockIndex, endBlockIndex)`; `a`
is `*mArchetype`. An index `INVALID_COMPONENT_INDEX` makes the source read before
`mComponentBuffers`: the result is `none`. The loop runs `endBlockIndex -
startBlockIndex` times when that is positive. -/
def EntityComponentChunk.ForEach {σ : Type} (c : EntityComponentChunk) (a : EntityArchetype)
    (Ts : List ComponentType) (f : σ → Visit → σ) (startBlockIndex endBlockIndex : Nat)
    (acc : σ) : Option σ :=
  let componentIndexes := GetComponentIndexesHelperClass.Call a Ts
  if componentIndexes.any (fun index => index = INVALID_COMPONENT_INDEX) then none
  else
    some (c.DoForEach f (endBlockIndex - startBlockIndex) startBlockIndex componentIndexes acc)

/-- The method `ForEach<F, ComponentTypes...>(f, componentIndexes)` over the whole
chunk. -/
def EntityComponentChunk.ForEachAll {σ : Type} (c : EntityComponentChunk) (f : σ → Visit → σ)
    (componentIndexes : List Int) (acc : σ) : Option σ :=
  if componentIndexes.any (fun index => index = INVALID_COMPONENT_INDEX) then none
  else some (c.DoForEach f c.mBlockCount 0 componentIndexes acc)

/-- The method `EntityComponentStorage::ForEach<F, ComponentTypes...>(f)`. -/
def EntityComponentStorage.ForEach {σ : Type} (s : EntityComponentStorage) (a : EntityArchetype)
    (Ts : List ComponentType) (f : σ → Visit → σ) (acc : σ) : Option σ :=
  let componentIndexes := GetComponentIndexesHelperClass.Call a Ts
  List.foldl
    (fun acc i =>
      match acc with
      | none => none
      | some acc =>
        if !(s.mChunks i).IsEmpty then (s.mChunks i).ForEachAll f componentIndexes acc
        else some acc)
    (some acc) (List.range s.mChunkCount)

/-- The method `EntityContext::ForEach<ComponentTypes...>(f)`; `mgr` is the catalog
the archetype pointers of the storages point into. -/
def EntityContext.ForEach {σ : Type} (c : EntityContext) (mgr : EntityArchetypeManager)
    (Ts : List ComponentType) (f : σ → Visit → σ) (acc : σ) : Option σ :=
  List.foldl
    (fun acc pStorage =>
      match acc, mgr.objects[pStorage.mArchetype]? with
      | some acc, some a =>
        if a.ContainAllComponents Ts then pStorage.ForEach a Ts f acc else some acc
      | _, _ => none)
    (some acc) c.mEntityComponentStorageList

/-! ## Parallel jobs -/

/-- A pointer to a chunk: its storage and its position in `mChunks`. -/
structure ChunkPtr where
  mStorage : StoragePtr
  mChunkIndex : Nat
deriving DecidableEq, Repr

/-- The record `ParallelJobChunkSegement`. -/
structure ParallelJobChunkSegement where
  pChunk : ChunkPtr
  RangeStart : Nat
  RangeEnd : Nat
deriving DecidableEq, Repr

inductive ParallelJobState where
  | Unprepared
  | Prepared
  | Executing
deriving DecidableEq, Repr

/-- The class `ParallelJobBase<ComponentTypes...>` with the data members of
`ParallelJob`; the template arguments are the field `ComponentTypes`. -/
structure ParallelJobBase where
  ComponentTypes : List ComponentType
  mState : ParallelJobState
  mThreadCount : Nat
  mStartCounter : Nat
  mCompleteCounter : Nat
  mContext : Option Nat
  mDividedJobChunkSegmentArray : Nat → List ParallelJobChunkSegement

/-- A default-constructed job for the component classes `Ts`. -/
def ParallelJobBase.new (Ts : List ComponentType) : ParallelJobBase :=
  { ComponentTypes := Ts
    mState := ParallelJobState.Unprepared
    mThreadCount := 0
    mStartCounter := 0
    mCompleteCounter := 0
    mContext := none
    mDividedJobChunkSegmentArray := fun _ => [] }

/-- A value of type `int`: 32 bits in two's complement. A sum of two `int` that
leaves the range is undefined in C++; the model takes the value the addition of the
usual targets leaves, which wraps around. -/
def i32 (x : Int) : Int := (x + 2 ^ 31) % 2 ^ 32 - 2 ^ 31

/-- The call `std::min_element(a, a + n) - a` on an array of `int`: the first
position of a smallest element (0 for an empty range). -/
def min_element (a : Nat → Int) (n : Nat) : Nat :=
  List.foldl (fun smallest i => if a i < a smallest then i else smallest) 0 (List.range n)

/-- The state of the loops of `Prepare`: the segment lists and the array
`int threadTaskCounts[MAX_THREAD_COUNT]`. -/
structure Division where
  segments : Nat → List ParallelJobChunkSegement
  threadTaskCounts : Nat → Int

/-- One round of the loop `for (int j = 0; j < threadCount; j++)`: the division and
`currentStartIndex` afterwards; `threadTaskCounts[j] += rangeCount` is a sum of
`int`. -/
def Prepare.thread (pChunk : ChunkPtr) (threadCount entityCountPerChunk entityCountPerThread
    threadIndexSelected : Nat) (st : Division × Nat) (j : Nat) : Division × Nat :=
  let d := st.1
  let currentStartIndex := st.2
  let chunkSegment : ParallelJobChunkSegement :=
    if j = threadIndexSelected then
      { pChunk := pChunk
        RangeStart := entityCountPerThread * (threadCount - 1)
        RangeEnd := entityCountPerChunk }
    else
      { pChunk := pChunk
        RangeStart := currentStartIndex
        RangeEnd := currentStartIndex + entityCountPerThread }
  let next := if j = threadIndexSelected then currentStartIndex
    else currentStartIndex + entityCountPerThread
  let rangeCount : Int := (chunkSegment.RangeEnd : Int) - (chunkSegment.RangeStart : Int)
  if rangeCount > 0 then
    ({ segments := setAt d.segments j (d.segments j ++ [chunkSegment])
       threadTaskCounts := setAt d.threadTaskCounts j (i32 (d.threadTaskCounts j + rangeCount)) },
     next)
  else (d, next)

/-- One round of the loop `for (int i = 0; i < chunkCount; i++)`. -/
def Prepare.chunk (pStorage : StoragePtr) (threadCount entityCountPerChunk
    entityCountPerThread : Nat) (d : Division) (i : Nat) : Division :=
  let threadIndexSelected := min_element d.threadTaskCounts threadCount
  (List.foldl
    (Prepare.thread { mStorage := pStorage, mChunkIndex := i } threadCount entityCountPerChunk
      entityCountPerThread threadIndexSelected)
    (d, 0) (List.range threadCount)).1

/-- One round of the loop `for (EntityComponentStorage* pStorage : vecStorages)`. -/
def Prepare.storage (threadCount : Nat) (d : Division)
    (ps : StoragePtr × EntityComponentStorage) : Division :=
  let entityCountPerChunk := ps.2.mEntityCountPerChunk
  let entityCountPerThread := entityCountPerChunk / threadCount / 16 * 16
  List.foldl (Prepare.chunk ps.1 threadCount entityCountPerChunk entityCountPerThread) d
    (List.range ps.2.mChunkCount)

/-- The storages of a context with their pointers, in list order. -/
def EntityContext.storagePtrs (pContext : Nat) (c : EntityContext) :
    List (StoragePtr × EntityComponentStorage) :=
  List.zipWith (fun i s => ({ mContext := pContext, mIndex := i }, s))
    (List.range c.mEntityComponentStorageList.length) c.mEntityComponentStorageList

/-- The storages `Prepare` collects in `vecStorages`; `none` when an archetype
pointer dangles. -/
def World.matchingStorages (w : World) (pContext : Nat) (Ts : List ComponentType) :
    Option (List (StoragePtr × EntityComponentStorage)) :=
  match w.mEntityContexts pContext with
  | none => none
  | some c =>
    List.foldl
      (fun acc ps =>
        match acc, w.archetype ps.2.mArchetype with
        | some vecStorages, some a =>
          if a.ContainAllComponents Ts then some (vecStorages ++ [ps]) else some vecStorages
        | _, _ => none)
      (some []) (c.storagePtrs pContext)

/-- The method `Prepare(pContext, threadCount)`. A thread count of 0 divides by
zero as soon as a storage matches. -/
def ParallelJobBase.Prepare (job : ParallelJobBase) (w : World) (pContext : Nat)
    (threadCount : Nat) : Option ParallelJobBase :=
  if threadCount ≤ MAX_THREAD_COUNT ∧ job.mState ≠ ParallelJobState.Executing then
    match w.matchingStorages pContext job.ComponentTypes with
    | none => none
    | some vecStorages =>
      let job1 : ParallelJobBase :=
        { job with
          mContext := some pContext
          mThreadCount := threadCount
          mStartCounter := 0
          mCompleteCounter := 0
          mDividedJobChunkSegmentArray := fun _ => [] }
      if vecStorages.isEmpty then some job1
      else if threadCount = 0 then none
      else
        some
          { job1 with
            mDividedJobChunkSegmentArray :=
              (List.foldl (Prepare.storage threadCount)
                { segments := fun _ => [], threadTaskCounts := fun _ => 0 } vecStorages).segments }
  else none

/-- The object `*p` for a chunk pointer. -/
def World.chunk (w : World) (p : ChunkPtr) : Option EntityComponentChunk :=
  (w.storage p.mStorage).map (fun s => s.mChunks p.mChunkIndex)

/-- One round of the loop `for (auto& it : chunkList)` of `Execute`. -/
def Execute.segment {σ : Type} (w : World) (Ts : List ComponentType) (f : σ → Visit → σ)
    (acc : Option σ) (it : ParallelJobChunkSegement) : Option σ :=
  match acc, w.chunk it.pChunk with
  | some acc, some chunk =>
    match w.archetype chunk.mArchetype with
    | none => none
    | some a => chunk.ForEach a Ts f it.RangeStart it.RangeEnd acc
  | _, _ => none

/-- The method `ParallelJob::Execute` with the job function `f`: the job afterwards
and the accumulator the callback invocations of this call produced. -/
def ParallelJobBase.Execute {σ : Type} (job : ParallelJobBase) (w : World) (f : σ → Visit → σ)
    (acc : σ) : Option (ParallelJobBase × σ) :=
  let threadIndex := job.mStartCounter
  if threadIndex < job.mThreadCount then
    let job1 := { job with
                  mStartCounter := job.mStartCounter + 1
                  mState := ParallelJobState.Executing }
    match List.foldl (Execute.segment w job.ComponentTypes f) (some acc)
        (job1.mDividedJobChunkSegmentArray threadIndex) with
    | none => none
    | some acc1 =>
      some ({ job1 with
              mCompleteCounter := job1.mCompleteCounter + 1
              mState :=
                if job1.mCompleteCounter + 1 = job1.mThreadCount then
                  ParallelJobState.Unprepared
                else job1.mState },
            acc1)
  else none

/-! ## Invariants -/

/-- The cells reached from `h` by following the links `next` until `stop`, at most
`fuel` of them: the walk along a free list. -/
def linkChain (next : Nat → Nat) (stop : Nat) : Nat → Nat → List Nat
  | 0, _ => []
  | fuel + 1, h => if h = stop then [] else h :: linkChain next stop fuel (next h)

/-- The free blocks of a chunk: the walk from `mFreeHead` along `mFreeList` until
`mFreeTail`. -/
def EntityComponentChunk.freeBlocks (c : EntityComponentChunk) : List Nat :=
  linkChain c.mFreeList c.mFreeTail (c.mBlockCount + 1) c.mFreeHead

/-- The invariant of a chunk: the headers carry their own path, the free list is a
chain through exactly the invalid blocks, and `mUsedCount` counts the valid ones. -/
def EntityComponentChunk.Inv (c : EntityComponentChunk) : Prop :=
  c.mFreeTail = c.mBlockCount
    ∧ c.mBlockCount ≤ MAX_ENTITY_COUNT_PER_CHUNK
    ∧ (∀ b, b < c.mBlockCount →
        (c.mEntitiesBuffer b).mBlockIndex = b
          ∧ (c.mEntitiesBuffer b).mChunkIndex = c.mChunkId
          ∧ (c.mEntitiesBuffer b).mStorage = c.mEntityComponentStorage
          ∧ (c.mEntitiesBuffer b).mGenID < 2 ^ 16)
    ∧ c.freeBlocks.length ≤ c.mBlockCount
    ∧ c.freeBlocks.Nodup
    ∧ (∀ b, b ∈ c.freeBlocks → b < c.mBlockCount)
    ∧ (∀ b, b < c.mBlockCount → (b ∈ c.freeBlocks ↔ (c.mEntitiesBuffer b).mValid = false))
    ∧ c.mUsedCount + c.freeBlocks.length = c.mBlockCount

instance (c : EntityComponentChunk) : Decidable c.Inv := by
  unfold EntityComponentChunk.Inv
  infer_instance

/-- The chunks of the chunk free list: the walk from `mChunkFreeHead` along
`mChunkFreeList` until `mChunkCount`. -/
def EntityComponentStorage.freeChunks (s : EntityComponentStorage) : List Nat :=
  linkChain s.mChunkFreeList s.mChunkCount (s.mChunkCount + 1) s.mChunkFreeHead

/-- The invariant of a storage: the chunk array has one of the capacities that
doubling from 16 reaches in a `uint16_t`, every constructed chunk satisfies its
invariant and carries its own path, and the chunk free list is a chain through
exactly the chunks that are not full. -/
def EntityComponentStorage.Inv (s : EntityComponentStorage) : Prop :=
  s.mChunkArrayCapacity ∈ [16, 32, 64, 128, 256, 512, 1024, 2048, 4096, 8192, 16384, 32768]
    ∧ s.mChunkCount ≤ s.mChunkArrayCapacity
    ∧ s.mEntityCountPerChunk ≤ MAX_ENTITY_COUNT_PER_CHUNK
    ∧ (∀ i, i < s.mChunkCount →
        (s.mChunks i).Inv
          ∧ (s.mChunks i).mChunkId = i
          ∧ (s.mChunks i).mEntityComponentStorage = s.this
          ∧ (s.mChunks i).mArchetype = s.mArchetype
          ∧ (s.mChunks i).mBlockCount = s.mEntityCountPerChunk
          ∧ (s.mChunks i).mComponentCount = s.mComponentCountPerEntity)
    ∧ s.freeChunks.length ≤ s.mChunkCount
    ∧ s.freeChunks.Nodup
    ∧ (∀ i, i ∈ s.freeChunks → i < s.mChunkCount)
    ∧ (∀ i, i < s.mChunkCount → (i ∈ s.freeChunks ↔ (s.mChunks i).IsFull = false))

instance (s : EntityComponentStorage) : Decidable s.Inv := by
  unfold EntityComponentStorage.Inv
  infer_instance

/-- The invariant of an archetype: the member arrays and the index table list the
entries of `mComponentMetaMap` in order, the keys of the map increase strictly and
each entry is filed under the type id of its meta data. -/
def EntityArchetype.Inv (a : EntityArchetype) : Prop :=
  a.mComponentCount = a.mComponentMetaMap.length
    ∧ a.mComponentCount ≤ MAX_COMPONENT_COUNT_PER_ENTITY
    ∧ a.mComponentIndexTable.mComponentCount = a.mComponentCount
    ∧ a.mComponentMetaMap.keys.Sorted (· < ·)
    ∧ (∀ i, i < a.mComponentMetaMap.length → ∀ e, e ∈ a.mComponentMetaMap[i]? →
        e.2.typeId = e.1
          ∧ a.mComponentIndexTable.mComponentTypeIds i = e.1
          ∧ a.mComponentTypeIds i = e.1
          ∧ a.mComponentHashes i = e.2.hashCode
          ∧ a.mComponentSizes i = e.2.size
          ∧ a.mComponentAlignments i = e.2.alignment
          ∧ a.mComponentConstructors i = some e.2.constructor)

instance (a : EntityArchetype) : Decidable a.Inv := by
  unfold EntityArchetype.Inv
  infer_instance

/-- The invariant of the catalog map: identities are registered once, and each
points to an archetype with that identity. -/
def World.InvCatalog (w : World) : Prop :=
  (∀ e, e ∈ w.mArchetypeManager.mArchetypesMap →
      e.2 < w.mArchetypeManager.objects.length
        ∧ ∀ a, a ∈ w.mArchetypeManager.objects[e.2]? → a.mArchetypeId = e.1)
    ∧ (w.mArchetypeManager.mArchetypesMap.map Prod.fst).Nodup

instance (w : World) : Decidable w.InvCatalog := by
  unfold World.InvCatalog
  infer_instance

/-- The back-references of the archetype at `p` point to storages of that
archetype. -/
def World.InvBackRefs (w : World) (p : Nat) (a : EntityArchetype) : Prop :=
  ∀ i, i < MAX_CONTEXT_COUNT → ∀ j, j ∈ a.mStoragesInContext i →
    ∃ s, s ∈ w.storage { mContext := i, mIndex := j } ∧ s.mArchetype = p

instance (w : World) (p : Nat) (a : EntityArchetype) : Decidable (w.InvBackRefs p a) := by
  unfold World.InvBackRefs
  infer_instance

/-- The invariant of the archetype objects of a world. -/
def World.InvArchetypes (w : World) : Prop :=
  ∀ p, p < w.mArchetypeManager.objects.length →
    ∀ a, a ∈ w.mArchetypeManager.objects[p]? → a.Inv ∧ w.InvBackRefs p a

instance (w : World) : Decidable w.InvArchetypes := by
  unfold World.InvArchetypes
  infer_instance

/-- The storage at position `j` of the context in slot `i` satisfies its
invariant, carries its own path, and is the storage its archetype refers to for
this context. -/
def World.InvStorage (w : World) (i j : Nat) (s : EntityComponentStorage) : Prop :=
  s.Inv ∧ s.mContext = i ∧ s.mIndex = j
    ∧ ∃ a, a ∈ w.mArchetypeManager.objects[s.mArchetype]?
        ∧ a.mStoragesInContext i = some j
        ∧ s.mComponentCountPerEntity = a.mComponentCount

instance (w : World) (i j : Nat) (s : EntityComponentStorage) : Decidable (w.InvStorage i j s) := by
  unfold World.InvStorage
  infer_instance

/-- The invariant of the contexts of a world: a context sits in its own slot and
has at most `MAX_STORAGE_COUNT_PER_CONTEXT` storages. -/
def World.InvContexts (w : World) : Prop :=
  ∀ i, i < MAX_CONTEXT_COUNT → ∀ c, c ∈ w.mEntityContexts i →
    c.mContextId = i
      ∧ c.mEntityComponentStorageList.length ≤ MAX_STORAGE_COUNT_PER_CONTEXT
      ∧ ∀ j, j < c.mEntityComponentStorageList.length →
          ∀ s, s ∈ c.mEntityComponentStorageList[j]? → w.InvStorage i j s

instance (w : World) : Decidable w.InvContexts := by
  unfold World.InvContexts
  infer_instance

/-- The invariant of a world. -/
def World.Inv (w : World) : Prop :=
  w.InvCatalog ∧ w.InvArchetypes ∧ w.InvContexts

instance (w : World) : Decidable w.Inv := by
  unfold World.Inv
  infer_instance

/-- A pointer to a valid record: the context slot, the storage, the chunk and the
block exist and the header is marked valid. -/
def World.Live (w : World) (pEntity : EntityPtr) : Prop :=
  pEntity.mStorage.mContext < MAX_CONTEXT_COUNT
    ∧ ∃ s, s ∈ w.storage pEntity.mStorage
        ∧ pEntity.mChunkIndex < s.mChunkCount
        ∧ pEntity.mBlockIndex < (s.mChunks pEntity.mChunkIndex).mBlockCount
        ∧ (s.header pEntity).mValid = true

instance (w : World) (pEntity : EntityPtr) : Decidable (w.Live pEntity) := by
  unfold World.Live
  infer_instance

/-- How `Allocate` changes a chunk, field by field. -/
structure EntityComponentChunk.Allocated (c d : EntityComponentChunk) : Prop where
  mChunkId : d.mChunkId = c.mChunkId
  mEntityComponentStorage : d.mEntityComponentStorage = c.mEntityComponentStorage
  mArchetype : d.mArchetype = c.mArchetype
  mBlockCount : d.mBlockCount = c.mBlockCount
  mChunkSize : d.mChunkSize = c.mChunkSize
  mComponentCount : d.mComponentCount = c.mComponentCount
  mUsedCount : d.mUsedCount = u16 (c.mUsedCount + 1)
  mFreeHead : d.mFreeHead = c.mFreeList c.mFreeHead
  mFreeTail : d.mFreeTail = c.mFreeTail
  mFreeList : d.mFreeList = c.mFreeList
  mEntitiesBuffer : d.mEntitiesBuffer = setAt c.mEntitiesBuffer c.mFreeHead
    { c.mEntitiesBuffer c.mFreeHead with
      mValid := true
      mGenID := ((c.mEntitiesBuffer c.mFreeHead).mGenID + 1) % 2 ^ 16 }

/-- How `Deallocate` of the block `blk` changes a chunk, field by field. -/
structure EntityComponentChunk.Deallocated (c : EntityComponentChunk) (blk : Nat)
    (d : EntityComponentChunk) : Prop where
  mChunkId : d.mChunkId = c.mChunkId
  mEntityComponentStorage : d.mEntityComponentStorage = c.mEntityComponentStorage
  mArchetype : d.mArchetype = c.mArchetype
  mBlockCount : d.mBlockCount = c.mBlockCount
  mChunkSize : d.mChunkSize = c.mChunkSize
  mComponentCount : d.mComponentCount = c.mComponentCount
  mUsedCount : d.mUsedCount = u16 (c.mUsedCount + 65535)
  mFreeHead : d.mFreeHead = blk
  mFreeTail : d.mFreeTail = c.mFreeTail
  mFreeList : d.mFreeList = setAt c.mFreeList blk c.mFreeHead
  mEntitiesBuffer : d.mEntitiesBuffer = setAt c.mEntitiesBuffer blk
    { c.mEntitiesBuffer blk with mValid := false }

/-- How `Allocate` changes a storage: the returned record `p` was free and is now
valid with the next generation, and nothing else changes in the chunks that
existed. -/
structure EntityComponentStorage.AllocatedAt (s : EntityComponentStorage) (b : Bool)
    (p : EntityPtr) (t : EntityComponentStorage) : Prop where
  mContext : t.mContext = s.mContext
  mIndex : t.mIndex = s.mIndex
  mArchetype : t.mArchetype = s.mArchetype
  mEntityCountPerChunk : t.mEntityCountPerChunk = s.mEntityCountPerChunk
  mComponentCountPerEntity : t.mComponentCountPerEntity = s.mComponentCountPerEntity
  mChunkSize : t.mChunkSize = s.mChunkSize
  count_le : s.mChunkCount ≤ t.mChunkCount
  storage : p.mStorage = s.this
  chunk_lt : p.mChunkIndex < t.mChunkCount
  block_lt : p.mBlockIndex < t.mEntityCountPerChunk
  was_free : p.mChunkIndex < s.mChunkCount → (s.header p).mValid = false
  valid : (t.header p).mValid = true
  gen : p.mChunkIndex < s.mChunkCount →
    (t.header p).mGenID = ((s.header p).mGenID + 1) % 2 ^ 16
  gen_fresh : s.mChunkCount ≤ p.mChunkIndex → (t.header p).mGenID = 1
  headers : ∀ ch blk, ch < s.mChunkCount → (ch ≠ p.mChunkIndex ∨ blk ≠ p.mBlockIndex) →
    (t.mChunks ch).mEntitiesBuffer blk = (s.mChunks ch).mEntitiesBuffer blk
  buffers : b = false → ∀ ch, ch < s.mChunkCount →
    (t.mChunks ch).mComponentBuffers = (s.mChunks ch).mComponentBuffers
  from_head : s.mChunkFreeHead ≠ s.mChunkCount →
    p = (s.mChunks s.mChunkFreeHead).entityPtr (s.mChunks s.mChunkFreeHead).mFreeHead
  chunk_head : t.mChunkFreeHead = p.mChunkIndex ∨ (t.mChunks p.mChunkIndex).IsFull = true

/-- How `Deallocate` of the record `p` changes a storage: the record is invalid
with the same generation, and no other header changes. -/
structure EntityComponentStorage.ReleasedAt (s : EntityComponentStorage) (p : EntityPtr)
    (t : EntityComponentStorage) : Prop where
  mContext : t.mContext = s.mContext
  mIndex : t.mIndex = s.mIndex
  mArchetype : t.mArchetype = s.mArchetype
  mEntityCountPerChunk : t.mEntityCountPerChunk = s.mEntityCountPerChunk
  mComponentCountPerEntity : t.mComponentCountPerEntity = s.mComponentCountPerEntity
  mChunkSize : t.mChunkSize = s.mChunkSize
  mChunkCount : t.mChunkCount = s.mChunkCount
  valid : (t.header p).mValid = false
  gen : (t.header p).mGenID = (s.header p).mGenID
  headers : ∀ ch blk, (ch ≠ p.mChunkIndex ∨ blk ≠ p.mBlockIndex) →
    (t.mChunks ch).mEntitiesBuffer blk = (s.mChunks ch).mEntitiesBuffer blk
  free_head : (t.mChunks p.mChunkIndex).mFreeHead = p.mBlockIndex
  chunk_head : t.mChunkFreeHead = p.mChunkIndex
    ∨ ((s.mChunks p.mChunkIndex).IsFull = false ∧ t.mChunkFreeHead = s.mChunkFreeHead)

/-- An allocation or a release in a storage. -/
inductive StorageOp where
  | allocate (bCallConstructor : Bool)
  | release (pEntity : EntityPtr)
deriving DecidableEq, Repr

/-- A pointer to a valid record of the storage `s`. -/
def EntityComponentStorage.live (s : EntityComponentStorage) (pEntity : EntityPtr) : Prop :=
  pEntity.mChunkIndex < s.mChunkCount
    ∧ pEntity.mBlockIndex < s.mEntityCountPerChunk
    ∧ (s.header pEntity).mValid = true

instance (s : EntityComponentStorage) (pEntity : EntityPtr) : Decidable (s.live pEntity) := by
  unfold EntityComponentStorage.live
  infer_instance

/-- A sequence of allocations and of releases of valid records in a storage whose
archetype is `a`: the storage afterwards and the pointers the allocations returned,
oldest first. A release is `Entity::Release` without its notification: it asserts
that the record is valid and calls `Deallocate(pEntity, true)`. -/
def EntityComponentStorage.run (a : EntityArchetype) :
    List StorageOp → EntityComponentStorage → Option (EntityComponentStorage × List EntityPtr)
  | [], s => some (s, [])
  | StorageOp.allocate b :: ops, s =>
    match s.Allocate a b with
    | none => none
    | some (s1, p) => (EntityComponentStorage.run a ops s1).map (fun r => (r.1, p :: r.2))
  | StorageOp.release p :: ops, s =>
    if s.live p then
      match s.Deallocate p true with
      | none => none
      | some s1 => EntityComponentStorage.run a ops s1
    else none

/-- The sequence that allocates `n + 1` times and releases the record `p` after
each allocation but the last. -/
def reuseOps (p : EntityPtr) : Nat → List StorageOp
  | 0 => [StorageOp.allocate true]
  | n + 1 => StorageOp.allocate true :: StorageOp.release p :: reuseOps p n

/-! ## The slots an iteration has to visit -/

/-- The valid blocks of a chunk from `lo` (inclusive) to `hi` (exclusive), in
increasing order. -/
def EntityComponentChunk.validBlocks (c : EntityComponentChunk) (lo hi : Nat) : List Nat :=
  (List.range' lo (hi - lo)).filter (fun b => (c.mEntitiesBuffer b).mValid)

/-- One visit for every valid block of every chunk of a storage whose archetype is
`a`, chunk by chunk and block by block. -/
def EntityComponentStorage.validVisits (s : EntityComponentStorage) (a : EntityArchetype)
    (Ts : List ComponentType) : List Visit :=
  (List.range s.mChunkCount).flatMap (fun i =>
    ((s.mChunks i).validBlocks 0 (s.mChunks i).mBlockCount).map
      ((s.mChunks i).visit (GetComponentIndexesHelperClass.Call a Ts)))

/-- The visits of the storage `ps` of a world when its archetype contains all of
`Ts`, and no visit otherwise. -/
def World.storageVisits (w : World) (Ts : List ComponentType)
    (ps : StoragePtr × EntityComponentStorage) : List Visit :=
  match w.archetype ps.2.mArchetype with
  | none => []
  | some a => if a.ContainAllComponents Ts then ps.2.validVisits a Ts else []

/-- One visit for every valid slot of every chunk of every storage of the context
`pContext` whose archetype contains all of `Ts`, in storage order. -/
def World.validVisits (w : World) (pContext : Nat) (Ts : List ComponentType) : List Visit :=
  match w.mEntityContexts pContext with
  | none => []
  | some c => (c.storagePtrs pContext).flatMap (w.storageVisits Ts)

/-- The visits the segment `it` stands for: the valid blocks of its range in its
chunk. -/
def World.segmentVisits (w : World) (Ts : List ComponentType) (it : ParallelJobChunkSegement) :
    List Visit :=
  match w.chunk it.pChunk with
  | none => []
  | some chunk =>
    match w.archetype chunk.mArchetype with
    | none => []
    | some a =>
      (chunk.validBlocks it.RangeStart it.RangeEnd).map
        (chunk.visit (GetComponentIndexesHelperClass.Call a Ts))

/-- A segment `Execute` can run: its chunk pointer and the archetype pointer of the
chunk lead to objects, and the archetype contains all of `Ts`. -/
def World.runnable (w : World) (Ts : List ComponentType) (it : ParallelJobChunkSegement) :
    Prop :=
  ∃ chunk a, w.chunk it.pChunk = some chunk ∧ w.archetype chunk.mArchetype = some a
    ∧ a.ContainAllComponents Ts = true

/-- The visits of the segments of the workers below `threadCount`, as a multiset. -/
def World.dividedVisits (w : World) (Ts : List ComponentType) (threadCount : Nat)
    (segments : Nat → List ParallelJobChunkSegement) : Multiset Visit :=
  ((List.range threadCount).flatMap (fun j => (segments j).flatMap (w.segmentVisits Ts)) :
    List Visit)

/-- The call of `Execute` by each of `n` workers in turn, each with its own
accumulator `acc`: the job afterwards and the accumulators of the workers. -/
def ParallelJobBase.ExecuteEach {σ : Type} (w : World) (f : σ → Visit → σ) (acc : σ) :
    Nat → ParallelJobBase → Option (ParallelJobBase × List σ)
  | 0, job => some (job, [])
  | n + 1, job =>
    match job.Execute w f acc with
    | none => none
    | some (job1, r) =>
      (ParallelJobBase.ExecuteEach w f acc n job1).map (fun x => (x.1, r :: x.2))

/-- The callback that records its arguments. -/
def Visit.record (acc : List Visit) (v : Visit) : List Visit := acc ++ [v]

/-! ## Hypotheses on the catalog -/

/-- The meta data `GetComponentMeta<T>()` records for the class `T`. -/
def ComponentType.meta (T : ComponentType) : ComponentMeta :=
  { hashCode := T.hashCode, typeId := T.typeId, size := T.size, alignment := T.alignment,
    constructor := T.defaultValue }

/-- The component map with the classes `Ts` added: a class whose type id is not
yet a key is inserted with its meta data. -/
def ComponentMetaMap.insertAll : ComponentMetaMap → List ComponentType → ComponentMetaMap
  | metaMap, [] => metaMap
  | metaMap, T :: Ts =>
    match metaMap.find T.typeId with
    | none => ComponentMetaMap.insertAll (metaMap.insert T.typeId T.meta) Ts
    | some _ => ComponentMetaMap.insertAll metaMap Ts

/-- The component map without the classes `Ts`. -/
def ComponentMetaMap.eraseAll (metaMap : ComponentMetaMap) (Ts : List ComponentType) :
    ComponentMetaMap :=
  metaMap.filter (fun e => !(Ts.map ComponentType.typeId).contains e.1)

/-- The catalog knows the classes `Ts` as themselves: a cache entry under the hash
code of a class of `Ts` is the meta data of that class, and two classes of `Ts` with
the same hash code have the same meta data. -/
def EntityArchetypeManager.Knows (mgr : EntityArchetypeManager) (Ts : List ComponentType) :
    Prop :=
  (∀ T, T ∈ Ts → ∀ m, m ∈ umapFind mgr.mComponentMetas T.hashCode → m = T.meta)
    ∧ ∀ T, T ∈ Ts → ∀ U, U ∈ Ts → T.hashCode = U.hashCode → T.meta = U.meta

instance (mgr : EntityArchetypeManager) (Ts : List ComponentType) : Decidable (mgr.Knows Ts) := by
  unfold EntityArchetypeManager.Knows
  infer_instance

/-- No other component map is registered under the identity of `metaMap`: an
archetype registered under the hash sum of `metaMap` has the component map
`metaMap`. -/
def EntityArchetypeManager.NoCollision (mgr : EntityArchetypeManager)
    (metaMap : ComponentMetaMap) : Prop :=
  ∀ p, p ∈ umapFind mgr.mArchetypesMap (GetArchetypeIDFromComponentMetaMap metaMap) →
    ∀ a, a ∈ mgr.objects[p]? → a.mComponentMetaMap = metaMap

instance (mgr : EntityArchetypeManager) (metaMap : ComponentMetaMap) :
    Decidable (mgr.NoCollision metaMap) := by
  unfold EntityArchetypeManager.NoCollision
  infer_instance

/-- What resolving the component map `target` in the catalog of `w` gives: a
catalog `mgr` in which the archetype `pDst` has the component map `target` and is
registered under its identity, the archetypes and registrations of `w` are kept,
and the invariant holds. -/
structure World.Resolved (w : World) (mgr : EntityArchetypeManager) (target : ComponentMetaMap)
    (pDst : Nat) : Prop where
  inv : ({ w with mArchetypeManager := mgr } : World).Inv
  object : ∃ aDst, mgr.objects[pDst]? = some aDst ∧ aDst.mComponentMetaMap = target
  registered :
    umapFind mgr.mArchetypesMap (GetArchetypeIDFromComponentMetaMap target) = some pDst
  objects_keep : ∀ (q : Nat) (a : EntityArchetype),
    w.mArchetypeManager.objects[q]? = some a → mgr.objects[q]? = some a
  objects_new : ∀ (q : Nat) (a : EntityArchetype),
    mgr.objects[q]? = some a → w.mArchetypeManager.objects[q]? = none →
    q = pDst ∧ a.mStoragesInContext = fun _ => none
  map_keep : ∀ (k p : Nat), umapFind w.mArchetypeManager.mArchetypesMap k = some p →
    umapFind mgr.mArchetypesMap k = some p
  old : ∀ (a : EntityArchetype), w.mArchetypeManager.objects[pDst]? = some a →
    umapFind w.mArchetypeManager.mArchetypesMap (GetArchetypeIDFromComponentMetaMap target)
      = some pDst
  map_new : ∀ (k p : Nat), umapFind mgr.mArchetypesMap k = some p →
    umapFind w.mArchetypeManager.mArchetypesMap k = some p
      ∨ (k = GetArchetypeIDFromComponentMetaMap target ∧ p = pDst)

/-! ## The components of one record -/

/-- The component objects of the record `p` of a storage, by component index. -/
def EntityComponentStorage.cellsOf (s : EntityComponentStorage) (p : EntityPtr) :
    Nat → Option Value :=
  fun index => (s.mChunks p.mChunkIndex).mComponentBuffers index p.mBlockIndex

/-- The storage with the component objects of the record `p` replaced by `cells`. -/
def EntityComponentStorage.setCells (s : EntityComponentStorage) (p : EntityPtr)
    (cells : Nat → Option Value) : EntityComponentStorage :=
  { s with
    mChunks := setAt s.mChunks p.mChunkIndex
      { s.mChunks p.mChunkIndex with
        mComponentBuffers := fun index block =>
          if block = p.mBlockIndex then cells index
          else (s.mChunks p.mChunkIndex).mComponentBuffers index block } }

/-! ## Moving a record to another archetype -/

/-- The size of a block of an archetype with the component map `metaMap`: the free
list entry, the header and the components. -/
def ComponentMetaMap.blockSize (metaMap : ComponentMetaMap) : Nat :=
  sizeofFreeListEntry + sizeofEntity + (metaMap.map (fun e => e.2.size)).sum

/-- The context `pContext` has room for one more record of the archetype
registered for the component map `metaMap`. If no storage of the context belongs
to that archetype, the context can take one more storage and a chunk of the largest
size holds at least two blocks of the archetype (one block is lost to the capacity
computation). A storage of the context that belongs to that archetype holds at
least one record per chunk, and has a chunk that is not full or can take one more
chunk. -/
def World.Room (w : World) (pContext : Nat) (metaMap : ComponentMetaMap) : Prop :=
  ∀ c, c ∈ w.mEntityContexts pContext →
    ((∀ s, s ∈ c.mEntityComponentStorageList →
        s.mArchetype ∉ umapFind w.mArchetypeManager.mArchetypesMap
          (GetArchetypeIDFromComponentMetaMap metaMap)) →
      c.mEntityComponentStorageList.length < MAX_STORAGE_COUNT_PER_CONTEXT
        ∧ 2 * metaMap.blockSize ≤ MAX_STORAGE_CHUNK_SIZE)
    ∧ ∀ s, s ∈ c.mEntityComponentStorageList →
        s.mArchetype ∈ umapFind w.mArchetypeManager.mArchetypesMap
          (GetArchetypeIDFromComponentMetaMap metaMap) →
        1 ≤ s.mEntityCountPerChunk
          ∧ (s.mChunkFreeHead ≠ s.mChunkCount ∨ s.mChunkCount < MAX_CHUNK_COUNT_PER_STORAGE)

instance (w : World) (pContext : Nat) (metaMap : ComponentMetaMap) :
    Decidable (w.Room pContext metaMap) := by
  unfold World.Room
  infer_instance

/-- The context `pContext` has room for one more record of the archetype
`pArchetype`. If the archetype has no storage in the context, the context can take
one more storage and a chunk of the largest size holds at least two blocks of the
archetype. A storage of the context that belongs to the archetype holds at least
one record per chunk, and has a chunk that is not full or can take one more
chunk. -/
def World.RoomAt (w : World) (pContext pArchetype : Nat) : Prop :=
  ∀ c, c ∈ w.mEntityContexts pContext → ∀ a, a ∈ w.archetype pArchetype →
    (a.mStoragesInContext pContext = none →
      c.mEntityComponentStorageList.length < MAX_STORAGE_COUNT_PER_CONTEXT
        ∧ 2 * a.mComponentMetaMap.blockSize ≤ MAX_STORAGE_CHUNK_SIZE)
    ∧ ∀ s, s ∈ c.mEntityComponentStorageList → s.mArchetype = pArchetype →
        1 ≤ s.mEntityCountPerChunk
          ∧ (s.mChunkFreeHead ≠ s.mChunkCount ∨ s.mChunkCount < MAX_CHUNK_COUNT_PER_STORAGE)

instance (w : World) (pContext pArchetype : Nat) : Decidable (w.RoomAt pContext pArchetype) := by
  unfold World.RoomAt
  infer_instance

/-- The record `q` reads the same in `w3` as in `w`: it is valid, and its header,
its archetype, its component pointers and its component values are those it has in
`w`. -/
structure World.Keeps (w w3 : World) (q : EntityPtr) : Prop where
  live : w3.Live q
  header : w3.header q = w.header q
  archetype : w3.GetArchetype q = w.GetArchetype q
  pointer : ∀ T, w3.GetComponent q T = w.GetComponent q T
  component : ∀ T, w3.component q T = w.component q T

/-- What moving a record to the archetype `pDst` in the context `pContext` leaves
behind, apart from the component values of the new record `p`: the invariant
holds, `p` is a valid record of `pDst` that was not valid before, every record
that was valid reads as before, the catalog and the other storages are kept, and
so are the callbacks of every event manager. -/
structure World.Migrated (w : World) (pContext pDst : Nat) (w3 : World) (p : EntityPtr) :
    Prop where
  inv : w3.Inv
  live : w3.Live p
  fresh : ¬ w.Live p
  context : p.mStorage.mContext = pContext
  archetype : w3.GetArchetype p = some pDst
  keeps : ∀ q, w.Live q → World.Keeps w w3 q
  objects : ∀ (q : Nat) (a : EntityArchetype), w.archetype q = some a →
    ∃ a3, w3.archetype q = some a3
      ∧ a3 = { a with mStoragesInContext := a3.mStoragesInContext }
  map : ∀ (k q : Nat), umapFind w.mArchetypeManager.mArchetypesMap k = some q →
    umapFind w3.mArchetypeManager.mArchetypesMap k = some q
  storages : ∀ q, q ≠ p.mStorage → w3.storage q = w.storage q
  contexts : ∀ i, (w.mEntityContexts i).isSome = true → (w3.mEntityContexts i).isSome = true
  callbacks : ∀ i type_id, w3.callbacks i type_id = w.callbacks i type_id

/-- The component objects `Allocate(true)` leaves in the returned record: the
stored constructor values of the archetype. -/
def EntityComponentStorage.constructed (t : EntityComponentStorage) (a : EntityArchetype)
    (p : EntityPtr) : Nat → Option Value :=
  fun i =>
    if i < (t.mChunks p.mChunkIndex).mComponentCount then a.mComponentConstructors i
    else t.cellsOf p i

/-! ## Example data -/

/-- The component class `Profile` of the unit tests (custom id 1). -/
def Profile : ComponentType :=
  { hashCode := 1323996051, typeId := 1, size := 132, alignment := 4, defaultValue := 0 }

/-- The component class `Transform` of the unit tests (custom id 2). -/
def Transform : ComponentType :=
  { hashCode := 4114809614, typeId := 2, size := 28, alignment := 4, defaultValue := 0 }

/-- The component class `Velocity` of the unit tests (custom id 3). -/
def Velocity : ComponentType :=
  { hashCode := 1202631935, typeId := 3, size := 16, alignment := 4, defaultValue := 0 }

/-- A component class of 16 MiB: two records of it fill a chunk. -/
def Terrain : ComponentType :=
  { hashCode := 77, typeId := 4, size := 16 * 1024 * 1024, alignment := 8, defaultValue := 5 }

/-- A world with one context and the archetype of `Terrain`, and that archetype. -/
def exampleSetup : Option (World × Nat) :=
  match World.new.CreateContext with
  | none => none
  | some (w1, _) => w1.CreateArchetype (ArchetypeArgs.components [Terrain])

/-- The world of `exampleSetup` after `CreateEntity` in context 0, and the record. -/
def exampleCreated : Option (World × EntityPtr) :=
  match exampleSetup with
  | none => none
  | some (w, pArchetype) => w.CreateEntity 0 pArchetype

/-- A world with one context and one record with the component `Terrain`. -/
def exampleWorld : World := (exampleCreated.map Prod.fst).getD World.new

/-- The first record of the first storage of context 0: the record of
`exampleWorld`. -/
def exampleEntity : EntityPtr :=
  { mStorage := { mContext := 0, mIndex := 0 }, mChunkIndex := 0, mBlockIndex := 0 }


/-- The world `exampleWorld` after `Release` of its record. -/
def exampleReleased : World := (exampleWorld.Release exampleEntity).getD World.new

/-- The storage of `exampleReleased` that held the released record. -/
def exampleStorage : EntityComponentStorage :=
  match exampleReleased.storage exampleEntity.mStorage with
  | some s => s
  | none => EntityComponentStorage.new 0 0 0 (EntityArchetype.init 0 [])

/-- The archetype of `exampleStorage`. -/
def exampleArchetype : EntityArchetype :=
  match exampleReleased.archetype exampleStorage.mArchetype with
  | some a => a
  | none => EntityArchetype.init 0 []

/-- The identifier the record of `exampleWorld` had: generation 1 at context 0,
storage 0, chunk 0, slot 0. -/
def exampleId : Nat := packEntityID 1 0 0 0 0

/-- The storage `exampleStorage` after one more allocation, and the pointer that
allocation returned. -/
def exampleReused : EntityComponentStorage × List EntityPtr :=
  (exampleStorage.run exampleArchetype [StorageOp.allocate true]).getD (exampleStorage, [])

/-- The context of `exampleWorld`. -/
def exampleContext : EntityContext :=
  match exampleWorld.mEntityContexts 0 with
  | some c => c
  | none => { mContextId := 0, mEntityComponentStorageList := [], mEventManager := none }

/-- The archetype of the record of `exampleWorld`. -/
def exampleSource : EntityArchetype :=
  ((exampleWorld.GetArchetype exampleEntity).bind exampleWorld.archetype).getD
    (EntityArchetype.init 0 [])

/-- A world with one context and one record with the components `Terrain` and
`Profile`, and that record. -/
def examplePairCreated : Option (World × EntityPtr) :=
  match World.new.CreateContext with
  | none => none
  | some (w1, _) =>
    match w1.CreateArchetype (ArchetypeArgs.components [Terrain, Profile]) with
    | none => none
    | some (w2, pArchetype) => w2.CreateEntity 0 pArchetype

/-- The world of `examplePairCreated`; its record is `exampleEntity`. -/
def examplePairWorld : World := (examplePairCreated.map Prod.fst).getD World.new

/-- The archetype of the record of `examplePairWorld`. -/
def examplePairSource : EntityArchetype :=
  ((examplePairWorld.GetArchetype exampleEntity).bind examplePairWorld.archetype).getD
    (EntityArchetype.init 0 [])

/-- The component class `Stun` in the default configuration: hash code and type id
are the CRC-32 of the class name. -/
def Stun : ComponentType :=
  { hashCode := 1397128752, typeId := 1397128752, size := 4, alignment := 4, defaultValue := 3 }

/-- The component class `TextureForce` in the default configuration. -/
def TextureForce : ComponentType :=
  { hashCode := 2047824381, typeId := 2047824381, size := 12, alignment := 4,
    defaultValue := 0 }

/-- The component class `AgentShader` in the default configuration; the CRC-32 of
its name is the sum of those of `Stun` and `TextureForce`. -/
def AgentShader : ComponentType :=
  { hashCode := 3444953133, typeId := 3444953133, size := 8, alignment := 4,
    defaultValue := 9 }

/-- The component class `Health` in the default configuration. -/
def Health : ComponentType :=
  { hashCode := 3379963429, typeId := 3379963429, size := 4, alignment := 4,
    defaultValue := 100 }

/-- A world with one context, the archetypes of `AgentShader` and of `Stun`, and
one record of `Stun`; and that record. -/
def collisionCreated : Option (World × EntityPtr) :=
  match World.new.CreateContext with
  | none => none
  | some (w1, _) =>
    match w1.CreateArchetype (ArchetypeArgs.components [AgentShader]) with
    | none => none
    | some (w2, _) =>
      match w2.CreateArchetype (ArchetypeArgs.components [Stun]) with
      | none => none
      | some (w3, pArchetype) => w3.CreateEntity 0 pArchetype

/-- The world of `collisionCreated`; its record is `exampleEntity`. -/
def collisionWorld : World := (collisionCreated.map Prod.fst).getD World.new

/-- The second storage of context 0 starts with this record. -/
def collisionEntity : EntityPtr :=
  { mStorage := { mContext := 0, mIndex := 1 }, mChunkIndex := 0, mBlockIndex := 0 }

/-- The world `collisionWorld` after `ExtendEntity<TextureForce>` of its record, and
the returned pointer. -/
def collisionExtended : World × Option EntityPtr :=
  (collisionWorld.ExtendEntity 0 exampleEntity [TextureForce]).getD (World.new, none)

/-- The world `collisionWorld` after `Extend<TextureForce>()` of its record, and the
returned pointer. -/
def collisionGrown : World × Option EntityPtr :=
  (collisionWorld.Extend exampleEntity [TextureForce]).getD (World.new, none)

/-- A world with one context, the archetype of `Stun` and `TextureForce`, the
archetype of `AgentShader` and `Health`, and one record of the latter; and that
record. -/
def collisionPairCreated : Option (World × EntityPtr) :=
  match World.new.CreateContext with
  | none => none
  | some (w1, _) =>
    match w1.CreateArchetype (ArchetypeArgs.components [Stun, TextureForce]) with
    | none => none
    | some (w2, _) =>
      match w2.CreateArchetype (ArchetypeArgs.components [AgentShader, Health]) with
      | none => none
      | some (w3, pArchetype) => w3.CreateEntity 0 pArchetype

/-- The world of `collisionPairCreated`; its record is `exampleEntity`. -/
def collisionPairWorld : World := (collisionPairCreated.map Prod.fst).getD World.new

/-- The world `collisionPairWorld` after `RemoveComponentsFromEntity<Health>` of its
record, and the returned pointer. -/
def collisionReduced : World × Option EntityPtr :=
  (collisionPairWorld.RemoveComponentsFromEntity 0 exampleEntity [Health]).getD
    (World.new, none)
/-- The world and the record that `Clone` of the record of `exampleWorld`
returns. -/
def exampleClone : World × EntityPtr :=
  (exampleWorld.Clone exampleEntity).getD (World.new, exampleEntity)

/-- A chunk of two records of `Terrain` with the chunk id `i` in which both blocks
are in use. -/
def fullChunk (i : Nat) : EntityComponentChunk :=
  { mChunkId := i
    mEntityComponentStorage := { mContext := 0, mIndex := 0 }
    mArchetype := 0
    mBlockCount := 2
    mChunkSize := MAX_STORAGE_CHUNK_SIZE
    mComponentCount := 1
    mUsedCount := 2
    mFreeHead := 2
    mFreeTail := 2
    mFreeList := fun b => if b < 2 then b + 1 else 0
    mEntitiesBuffer := fun b =>
      if b < 2 then
        { mValid := true, mGenID := 1, mBlockIndex := b, mChunkIndex := i,
          mStorage := { mContext := 0, mIndex := 0 } }
      else Entity.outside
    mComponentBuffers := fun index b =>
      if index = 0 ∧ b < 2 then some Terrain.defaultValue else none
    mAddresses :=
      { mLayout := EntityComponentChunk.layout 0 exampleArchetype 2
        mComponentSizes := exampleArchetype.mComponentSizes } }

/-- The storage of the archetype of `Terrain` in context 0 with
`MAX_CHUNK_COUNT_PER_STORAGE` chunks, all of them full: 65536 records. -/
def fullStorage : EntityComponentStorage :=
  { mContext := 0
    mIndex := 0
    mArchetype := 0
    mEntityCountPerChunk := 2
    mComponentCountPerEntity := 1
    mChunkSize := MAX_STORAGE_CHUNK_SIZE
    mChunkFreeList := fun i => if i < 32768 then i + 1 else 0
    mChunks := fun i => if i < 32768 then fullChunk i else EntityComponentChunk.zero
    mChunkArrayCapacity := 32768
    mChunkCount := 32768
    mChunkFreeHead := 32768 }

/-- The world `exampleWorld` with its storage filled up: all
`MAX_CHUNK_COUNT_PER_STORAGE` chunks exist and are full. -/
def fullWorld : World := exampleWorld.setStorage { mContext := 0, mIndex := 0 } fullStorage

/-- A component class of 40 MiB: a chunk of `MAX_STORAGE_CHUNK_SIZE` bytes holds
one block of it. -/
def Atlas : ComponentType :=
  { hashCode := 78, typeId := 5, size := 40 * 1024 * 1024, alignment := 8, defaultValue := 6 }

/-- A world with one context and the archetype of `Atlas`, and that archetype. -/
def atlasSetup : Option (World × Nat) :=
  match World.new.CreateContext with
  | none => none
  | some (w1, _) => w1.CreateArchetype (ArchetypeArgs.components [Atlas])

/-- The world of `atlasSetup`. -/
def atlasWorld : World := (atlasSetup.map Prod.fst).getD World.new

/-- The catalog after `CreateArchetype<AgentShader>()` on the empty catalog, and
the returned pointer. -/
def collisionFirst : EntityArchetypeManager × Nat :=
  (EntityArchetypeManager.init.CreateArchetype (ArchetypeArgs.components [AgentShader])).getD
    (EntityArchetypeManager.init, 0)

/-- The catalog `collisionFirst` after `CreateArchetype<Stun, TextureForce>()`, and
the returned pointer. -/
def collisionSecond : EntityArchetypeManager × Nat :=
  (collisionFirst.1.CreateArchetype (ArchetypeArgs.components [Stun, TextureForce])).getD
    (EntityArchetypeManager.init, 0)

/-- A world without contexts whose catalog has the archetype of `AgentShader` at
pointer 0 and the archetype of `Stun` at pointer 1. -/
def collisionCatalog : World :=
  { World.new with
    mArchetypeManager :=
      ((collisionFirst.1.CreateArchetype (ArchetypeArgs.components [Stun])).getD
        (EntityArchetypeManager.init, 0)).1 }

/-- The catalog of `collisionCatalog` after `AddComponents<TextureForce>` of the
archetype of `Stun`, and the returned pointer. -/
def collisionAdded : EntityArchetypeManager × Option Nat :=
  (collisionCatalog.mArchetypeManager.AddComponents [TextureForce] 1).getD
    (EntityArchetypeManager.init, none)

/-- A world without contexts whose catalog has the archetype of `Stun` and
`TextureForce` at pointer 0 and the archetype of `AgentShader` and `Health` at
pointer 1. -/
def collisionPairCatalog : World :=
  { World.new with
    mArchetypeManager :=
      match EntityArchetypeManager.init.CreateArchetype
          (ArchetypeArgs.components [Stun, TextureForce]) with
      | none => EntityArchetypeManager.init
      | some (m1, _) =>
        ((m1.CreateArchetype (ArchetypeArgs.components [AgentShader, Health])).getD
          (EntityArchetypeManager.init, 0)).1 }

/-- The catalog of `collisionPairCatalog` after `RemoveComponents<Health>` of the
archetype of `AgentShader` and `Health`, and the returned pointer. -/
def collisionRemoved : EntityArchetypeManager × Option Nat :=
  (collisionPairCatalog.mArchetypeManager.RemoveComponents [Health] 1).getD
    (EntityArchetypeManager.init, none)

/-! ## Sequences of operations on one chunk -/

/-- An allocation in a chunk or the release of one of its blocks. -/
inductive ChunkOp where
  | allocate (bCallConstruct : Bool)
  | deallocate (blockIndex : Nat) (bCallDestructor : Bool)
deriving DecidableEq, Repr

/-- A sequence of calls of `Allocate` on a chunk that is not full and of calls of
`Deallocate` for a valid block of the chunk, on a chunk of the archetype `a`; `none`
when a call is made on a full chunk or for a block that is not valid, or fails an
assertion. -/
def EntityComponentChunk.run (a : EntityArchetype) :
    List ChunkOp → EntityComponentChunk → Option EntityComponentChunk
  | [], c => some c
  | ChunkOp.allocate b :: ops, c =>
    if c.IsFull then none
    else
      match c.Allocate a b with
      | none => none
      | some (c1, _) => EntityComponentChunk.run a ops c1
  | ChunkOp.deallocate blockIndex b :: ops, c =>
    if blockIndex < c.mBlockCount ∧ (c.mEntitiesBuffer blockIndex).mValid = true then
      match c.Deallocate (c.entityPtr blockIndex) b with
      | none => none
      | some c1 => EntityComponentChunk.run a ops c1
    else none

/-- A chunk of two blocks after `Allocate`, `Allocate` and `Deallocate` of block
0. -/
def exampleChunk : EntityComponentChunk :=
  ((EntityComponentChunk.new 0 { mContext := 0, mIndex := 0 } 0 exampleArchetype 2
      MAX_STORAGE_CHUNK_SIZE).run exampleArchetype
    [ChunkOp.allocate true, ChunkOp.allocate true, ChunkOp.deallocate 0 true]).getD
    EntityComponentChunk.zero

/-- A new storage of the archetype of `Terrain` after three allocations and the
release of the first record, and the pointers the allocations returned. -/
def exampleRun : EntityComponentStorage × List EntityPtr :=
  ((EntityComponentStorage.new 0 0 0 exampleArchetype).run exampleArchetype
    [StorageOp.allocate true, StorageOp.allocate true, StorageOp.allocate true,
      StorageOp.release exampleEntity]).getD
    (EntityComponentStorage.new 0 0 0 exampleArchetype, [])

/-! ## The ranges `Prepare` hands out for one chunk -/

/-- The number of blocks of a segment. -/
def ParallelJobChunkSegement.count (it : ParallelJobChunkSegement) : Nat :=
  it.RangeEnd - it.RangeStart

/-- The total number of blocks of a list of segments. -/
def segmentsTotal (l : List ParallelJobChunkSegement) : Nat :=
  (l.map ParallelJobChunkSegement.count).sum

/-- The segments the description of `Prepare` gives worker `j` for the chunk
`pChunk` of `n` blocks, with `perWorkerCount` blocks for a worker that is not
selected: the selected worker `sel` gets the blocks from
`perWorkerCount * (threadCount - 1)` to `n`, and each other worker the next
`perWorkerCount` blocks after those of the other workers before it; a range
without a block is not handed out. -/
def Prepare.assigned (pChunk : ChunkPtr) (threadCount n perWorkerCount sel j : Nat) :
    List ParallelJobChunkSegement :=
  if j = sel then
    if perWorkerCount * (threadCount - 1) < n then
      [{ pChunk := pChunk, RangeStart := perWorkerCount * (threadCount - 1), RangeEnd := n }]
    else []
  else if 0 < perWorkerCount then
    [{ pChunk := pChunk
       RangeStart := perWorkerCount * (if j < sel then j else j - 1)
       RangeEnd := perWorkerCount * (if j < sel then j else j - 1) + perWorkerCount }]
  else []

/-- The division `Prepare` starts from: no segment and no load. -/
def Division.init : Division :=
  { segments := fun _ => [], threadTaskCounts := fun _ => 0 }

/-- A division of three workers with the loads 5, 3 and 3: what the loops of
`Prepare` leave for three workers after a chunk of 5 blocks and two chunks of 3
blocks. -/
def exampleDivision : Division :=
  { segments := fun j =>
      if j = 0 then
        [{ pChunk := { mStorage := { mContext := 0, mIndex := 1 }, mChunkIndex := 0 }
           RangeStart := 0, RangeEnd := 5 }]
      else if j = 1 then
        [{ pChunk := { mStorage := { mContext := 0, mIndex := 2 }, mChunkIndex := 0 }
           RangeStart := 0, RangeEnd := 3 }]
      else if j = 2 then
        [{ pChunk := { mStorage := { mContext := 0, mIndex := 2 }, mChunkIndex := 1 }
           RangeStart := 0, RangeEnd := 3 }]
      else []
    threadTaskCounts := fun j => if j = 0 then 5 else if j < 3 then 3 else 0 }

/-- A chunk of 1024 records of `Velocity` with the chunk id `i` in the storage
`index` of context 0, all blocks in use. -/
def wideChunk (index i : Nat) : EntityComponentChunk :=
  { mChunkId := i
    mEntityComponentStorage := { mContext := 0, mIndex := index }
    mArchetype := index
    mBlockCount := 1024
    mChunkSize := 1025 * 34
    mComponentCount := 1
    mUsedCount := 1024
    mFreeHead := 1024
    mFreeTail := 1024
    mFreeList := fun b => if b < 1024 then b + 1 else 0
    mEntitiesBuffer := fun b =>
      if b < 1024 then
        { mValid := true, mGenID := 1, mBlockIndex := b, mChunkIndex := i,
          mStorage := { mContext := 0, mIndex := index } }
      else Entity.outside
    mComponentBuffers := fun k b =>
      if k = 0 ∧ b < 1024 then some Velocity.defaultValue else none
    mAddresses := { mLayout := none, mComponentSizes := fun _ => Velocity.size } }

/-- The storage `index` of context 0, of an archetype with the component `Velocity`,
with `MAX_CHUNK_COUNT_PER_STORAGE` chunks of 1024 blocks: 2^25 blocks. -/
def wideStorage (index : Nat) : EntityComponentStorage :=
  { mContext := 0
    mIndex := index
    mArchetype := index
    mEntityCountPerChunk := 1024
    mComponentCountPerEntity := 1
    mChunkSize := 1025 * 34
    mChunkFreeList := fun i => if i < 32768 then i + 1 else 0
    mChunks := fun i => if i < 32768 then wideChunk index i else EntityComponentChunk.zero
    mChunkArrayCapacity := 32768
    mChunkCount := 32768
    mChunkFreeHead := 32768 }

/-- The storages `Prepare` collects in a context with 64 storages of 2^25 blocks
each: 2^31 blocks. -/
def wideStorages : List (StoragePtr × EntityComponentStorage) :=
  (List.range 64).map (fun index => ({ mContext := 0, mIndex := index }, wideStorage index))

/-- A world with two contexts and one record of `Terrain` in each of them, and the
two records. -/
def twinCreated : Option (World × EntityPtr × EntityPtr) :=
  match World.new.CreateContext with
  | none => none
  | some (w1, _) =>
    match w1.CreateContext with
    | none => none
    | some (w2, _) =>
      match w2.CreateArchetype (ArchetypeArgs.components [Terrain]) with
      | none => none
      | some (w3, pArchetype) =>
        match w3.CreateEntity 0 pArchetype with
        | none => none
        | some (w4, pEntity1) =>
          (w4.CreateEntity 1 pArchetype).map (fun r => (r.1, pEntity1, r.2))

/-- The world of `twinCreated`; its record in context 0 is `exampleEntity`. -/
def twinWorld : World := (twinCreated.map Prod.fst).getD World.new

/-- The first record of the first storage of context 1: the record of `twinWorld`
in context 1. -/
def twinEntity : EntityPtr :=
  { mStorage := { mContext := 1, mIndex := 0 }, mChunkIndex := 0, mBlockIndex := 0 }

/-- The context 1 of `twinWorld`. -/
def twinContext : EntityContext :=
  (twinWorld.mEntityContexts 1).getD
    { mContextId := 1, mEntityComponentStorageList := [], mEventManager := none }

/-- The job for `Terrain` after `Prepare` in the context of the example world with
two workers. -/
def exampleJob : ParallelJobBase :=
  ((ParallelJobBase.new [Terrain]).Prepare exampleWorld 0 2).getD (ParallelJobBase.new [])

/-- The events `TriggerEvent` of the event manager of the context `pContext` was
called with, oldest first; `none` when there is no such context or its
`mEventManager` is `nullptr`. -/
def World.triggered (w : World) (pContext : Nat) : Option (List EntityEvent) :=
  match w.mEntityContexts pContext with
  | none => none
  | some c => c.mEventManager.map EventManager.triggered

/-- From the world `w` to the world `w1` the event manager of the context `pContext`
received the event `evt` and nothing else, and no other event manager received
anything. -/
def World.Raised (w w1 : World) (pContext : Nat) (evt : EntityEvent) : Prop :=
  w1.triggered pContext = (w.triggered pContext).map (fun l => l ++ [evt])
    ∧ ∀ i, i ≠ pContext → w1.triggered i = w.triggered i

/-- The world `exampleWorld` after `SetEventManager` of context 0 with a new event
manager. -/
def eventWorld : World :=
  (exampleWorld.SetEventManager 0 (some EventManager.new)).getD World.new

/-! ## Concurrent calls of `Execute` -/

/-- The points of a call of `Execute` at which other threads can run: before
`mStartCounter.fetch_add(1)`, before a round of the loop over `chunkList` or before
`mCompleteCounter.fetch_add(1)` once the loop is over, and after the return. -/
inductive ExecutePoint where
  | entry
  | loop
  | returned
deriving DecidableEq, Repr

/-- One call of `ParallelJob::Execute` by a thread: the point it is at, its local
variable `threadIndex` once assigned, the segments of `chunkList` its loop has not
reached yet, and the object `*pThreadLocalArg` of the thread. -/
structure ExecuteCall (σ : Type) where
  point : ExecutePoint
  threadIndex : Option Nat
  chunkList : List ParallelJobChunkSegement
  pThreadLocalArg : σ

/-- A call of `Execute(pThreadLocalArg)` that has not taken a step. -/
def ExecuteCall.new {σ : Type} (pThreadLocalArg : σ) : ExecuteCall σ :=
  { point := ExecutePoint.entry, threadIndex := none, chunkList := [],
    pThreadLocalArg := pThreadLocalArg }

/-- One step of a call of `Execute` on the shared job. At `entry`: the atomic
`mStartCounter.fetch_add(1)`, the assertion on the index it returned, and the
assignment of `Executing`. At `loop`: one round of the loop over `chunkList`, or,
when no segment is left, the atomic `mCompleteCounter.fetch_add(1)` with the
assignment of `Unprepared` by the last call to complete. A call that returned takes
no step. -/
def Execute.step {σ : Type} (w : World) (f : σ → Visit → σ) (job : ParallelJobBase)
    (call : ExecuteCall σ) : Option (ParallelJobBase × ExecuteCall σ) :=
  match call.point with
  | ExecutePoint.entry =>
    let threadIndex := job.mStartCounter
    if threadIndex < job.mThreadCount then
      some ({ job with
              mStartCounter := job.mStartCounter + 1
              mState := ParallelJobState.Executing },
            { call with
              point := ExecutePoint.loop
              threadIndex := some threadIndex
              chunkList := job.mDividedJobChunkSegmentArray threadIndex })
    else none
  | ExecutePoint.loop =>
    match call.chunkList with
    | it :: rest =>
      match Execute.segment w job.ComponentTypes f (some call.pThreadLocalArg) it with
      | none => none
      | some acc1 => some (job, { call with chunkList := rest, pThreadLocalArg := acc1 })
    | [] =>
      some ({ job with
              mCompleteCounter := job.mCompleteCounter + 1
              mState :=
                if job.mCompleteCounter + 1 = job.mThreadCount then
                  ParallelJobState.Unprepared
                else job.mState },
            { call with point := ExecutePoint.returned })
  | ExecutePoint.returned => some (job, call)

/-- The steps `Execute.step` of one call, `n` of them in a row. -/
def Execute.steps {σ : Type} (w : World) (f : σ → Visit → σ) :
    Nat → ParallelJobBase × ExecuteCall σ → Option (ParallelJobBase × ExecuteCall σ)
  | 0, st => some st
  | n + 1, st =>
    match Execute.step w f st.1 st.2 with
    | none => none
    | some st1 => Execute.steps w f n st1

/-- The calls of `Execute` by the threads 0, 1, ... on one job, run concurrently:
the thread `t` of the schedule takes the next step of its call, then the rest of
the schedule follows. The state is the shared job and the call of each thread. -/
def Execute.interleave {σ : Type} (w : World) (f : σ → Visit → σ) :
    List Nat → ParallelJobBase × (Nat → ExecuteCall σ) →
      Option (ParallelJobBase × (Nat → ExecuteCall σ))
  | [], st => some st
  | t :: rest, st =>
    match Execute.step w f st.1 (st.2 t) with
    | none => none
    | some r => Execute.interleave w f rest (r.1, setAt st.2 t r.2)

/-- The state `st` the schedule `l` leads to from the job `job` with no call
started, with the callback that records its arguments: the job keeps its classes,
worker count and segments; the start counter is the number of threads that took a
step; a thread that took none has not started; a thread that took one has an index
below the start counter, has processed a front part of the segments of that index
and recorded their visits, and is in the loop after one step more than it processed
segments, or returned with no segment left; no two threads have the same index. -/
structure Execute.Interleaved (w : World) (job : ParallelJobBase) (l : List Nat)
    (st : ParallelJobBase × (Nat → ExecuteCall (List Visit))) : Prop where
  types : st.1.ComponentTypes = job.ComponentTypes
  workers : st.1.mThreadCount = job.mThreadCount
  segments : st.1.mDividedJobChunkSegmentArray = job.mDividedJobChunkSegmentArray
  started : st.1.mStartCounter = l.toFinset.card
  idle : ∀ t, t ∉ l → st.2 t = ExecuteCall.new []
  busy : ∀ t, t ∈ l → ∃ j processed,
    (st.2 t).threadIndex = some j ∧ j < st.1.mStartCounter
      ∧ processed ++ (st.2 t).chunkList = job.mDividedJobChunkSegmentArray j
      ∧ (st.2 t).pThreadLocalArg = processed.flatMap (w.segmentVisits job.ComponentTypes)
      ∧ (((st.2 t).point = ExecutePoint.loop ∧ l.count t = 1 + processed.length)
        ∨ ((st.2 t).point = ExecutePoint.returned ∧ (st.2 t).chunkList = []
            ∧ (job.mDividedJobChunkSegmentArray j).length + 2 ≤ l.count t))
  distinct : ∀ t u j, (st.2 t).threadIndex = some j → (st.2 u).threadIndex = some j → t = u

/-! ## Reachable worlds -/

/-- The method `EntityContext::Release()` of the context `pContext`: the archetype
of each storage forgets its storage in this context, the world forgets the context
(`RemoveContext`), and the context object is deleted. -/
def World.ReleaseContext (w : World) (pContext : Nat) : Option World :=
  match w.mEntityContexts pContext with
  | none => none
  | some c =>
    match List.foldl
        (fun (objects : Option (List EntityArchetype)) (pStorage : EntityComponentStorage) =>
          match objects with
          | none => none
          | some objects =>
            match objects[pStorage.mArchetype]? with
            | none => none
            | some a =>
              some (objects.set pStorage.mArchetype
                { a with mStoragesInContext := setAt a.mStoragesInContext c.mContextId none }))
        (some w.mArchetypeManager.objects) c.mEntityComponentStorageList with
    | none => none
    | some objects =>
      some { mArchetypeManager := { w.mArchetypeManager with objects := objects }
             mEntityContexts := setAt (setAt w.mEntityContexts c.mContextId none) pContext none }

/-- A call that changes the world. -/
inductive WorldOp where
  | createContext
  | releaseContext (pContext : Nat)
  | setEventManager (pContext : Nat) (pEventManager : Option EventManager)
  | subscrible (pContext type_id genid : Nat) (cb : EventCallbackFunction)
  | unsubscribe (pContext handle : Nat)
  | unsubscribeAll (pContext type_id : Nat)
  | createArchetype (args : ArchetypeArgs)
  | createEntity (pContext pArchetype : Nat)
  | createEntityWith (pContext pArchetype : Nat) (args : List (ComponentType × Value))
  | extendEntity (pContext : Nat) (pSrcEntity : EntityPtr) (Ts : List ComponentType)
  | extendEntityWith (pContext : Nat) (pSrcEntity : EntityPtr)
      (args : List (ComponentType × Value))
  | removeComponentsFromEntity (pContext : Nat) (pSrcEntity : EntityPtr)
      (Ts : List ComponentType)
  | release (pEntity : EntityPtr)
  | setComponent (pEntity : EntityPtr) (T : ComponentType) (data : Value)
  | clone (pEntity : EntityPtr)

/-- The world after the call `op`; a call with a pointer to a record that is not
valid has no defined result. -/
def World.call (w : World) : WorldOp → Option World
  | WorldOp.createContext => w.CreateContext.map Prod.fst
  | WorldOp.releaseContext pContext => w.ReleaseContext pContext
  | WorldOp.setEventManager pContext pEventManager => w.SetEventManager pContext pEventManager
  | WorldOp.subscrible pContext type_id genid cb =>
    (w.Subscrible pContext type_id genid cb).map Prod.fst
  | WorldOp.unsubscribe pContext handle => w.Unsubscribe pContext handle
  | WorldOp.unsubscribeAll pContext type_id => w.UnsubscribeAll pContext type_id
  | WorldOp.createArchetype args => (w.CreateArchetype args).map Prod.fst
  | WorldOp.createEntity pContext pArchetype =>
    (w.CreateEntity pContext pArchetype).map Prod.fst
  | WorldOp.createEntityWith pContext pArchetype args =>
    (w.CreateEntityWith pContext pArchetype args).map Prod.fst
  | WorldOp.extendEntity pContext pSrcEntity Ts =>
    if w.Live pSrcEntity then (w.ExtendEntity pContext pSrcEntity Ts).map Prod.fst else none
  | WorldOp.extendEntityWith pContext pSrcEntity args =>
    if w.Live pSrcEntity then (w.ExtendEntityWith pContext pSrcEntity args).map Prod.fst
    else none
  | WorldOp.removeComponentsFromEntity pContext pSrcEntity Ts =>
    if w.Live pSrcEntity then
      (w.RemoveComponentsFromEntity pContext pSrcEntity Ts).map Prod.fst
    else none
  | WorldOp.release pEntity => if w.Live pEntity then w.Release pEntity else none
  | WorldOp.setComponent pEntity T data =>
    if w.Live pEntity then (w.SetComponent pEntity T data).map Prod.fst else none
  | WorldOp.clone pEntity => if w.Live pEntity then (w.Clone pEntity).map Prod.fst else none

/-- The world after a sequence of calls. -/
def World.run : List WorldOp → World → Option World
  | [], w => some w
  | op :: ops, w =>
    match w.call op with
    | none => none
    | some w1 => World.run ops w1

/-- The part of the invariant of a world that identifiers rest on: a context sits
in its own slot with at most `MAX_STORAGE_COUNT_PER_CONTEXT` storages, and each
storage satisfies its invariant, carries its own path, and has the component count
of the archetype object it points to. -/
def World.InvSlots (w : World) : Prop :=
  ∀ i, i < MAX_CONTEXT_COUNT → ∀ c, c ∈ w.mEntityContexts i →
    c.mContextId = i
      ∧ c.mEntityComponentStorageList.length ≤ MAX_STORAGE_COUNT_PER_CONTEXT
      ∧ ∀ j, j < c.mEntityComponentStorageList.length →
          ∀ s, s ∈ c.mEntityComponentStorageList[j]? →
            s.Inv ∧ s.mContext = i ∧ s.mIndex = j
              ∧ ∃ a, a ∈ w.mArchetypeManager.objects[s.mArchetype]?
                  ∧ s.mComponentCountPerEntity = a.mComponentCount

/-- A world with one context and two records with the component `Terrain`, built
by four calls. -/
def pairRun : World :=
  (World.new.run
    [WorldOp.createContext, WorldOp.createArchetype (ArchetypeArgs.components [Terrain]),
      WorldOp.createEntity 0 0, WorldOp.createEntity 0 0]).getD World.new

/-! ## Examples for the capacity of a storage -/

/-- The archetype of `Atlas` in `atlasWorld`. -/
def atlasArchetype : EntityArchetype :=
  match atlasWorld.archetype 0 with
  | some a => a
  | none => EntityArchetype.init 0 []

/-- The footprint of one record of an archetype in bytes: one free-list entry, one
`Entity` and the components. -/
def EntityArchetype.footprint (a : EntityArchetype) : Nat :=
  sizeofFreeListEntry + sizeofEntity
    + ((List.range a.mComponentCount).map a.mComponentSizes).sum

/-! ## Examples for the identity and the order of the components of an archetype -/

/-- The catalog after `CreateArchetype<Terrain>()` on the empty catalog, and the
returned pointer. -/
def repeatedFirst : EntityArchetypeManager × Nat :=
  (EntityArchetypeManager.init.CreateArchetype (ArchetypeArgs.components [Terrain])).getD
    (EntityArchetypeManager.init, 0)

/-- The catalog `repeatedFirst` after `CreateArchetype<Terrain, Terrain>()`, and the
returned pointer. -/
def repeatedSecond : EntityArchetypeManager × Nat :=
  (repeatedFirst.1.CreateArchetype (ArchetypeArgs.components [Terrain, Terrain])).getD
    (EntityArchetypeManager.init, 0)

/-- The catalog after `CreateArchetype<Velocity, Profile>()` on the empty catalog,
and the returned pointer. -/
def orderedSetup : EntityArchetypeManager × Nat :=
  (EntityArchetypeManager.init.CreateArchetype
    (ArchetypeArgs.components [Velocity, Profile])).getD (EntityArchetypeManager.init, 0)

/-- The archetype `CreateArchetype<Velocity, Profile>()` builds. -/
def orderedArchetype : EntityArchetype :=
  match orderedSetup.1.objects[orderedSetup.2]? with
  | some a => a
  | none => EntityArchetype.init 0 []

/-! ## A chunk buffer that is too small -/

/-- A component class of `2 ^ 54 - 100` bytes. -/
def Colossus : ComponentType :=
  { hashCode := 79, typeId := 6, size := 2 ^ 54 - 100, alignment := 1, defaultValue := 0 }

/-- The archetype `CreateArchetype<Colossus>()` builds on the empty catalog. -/
def colossusArchetype : EntityArchetype :=
  match EntityArchetypeManager.init.CreateArchetype (ArchetypeArgs.components [Colossus]) with
  | some r =>
    (match r.1.objects[r.2]? with
    | some a => a
    | none => EntityArchetype.init 0 [])
  | none => EntityArchetype.init 0 []

/-! ## The three component index tables -/

/-- The calls `Add(id)` for the ids of a list in order on a
`LinearComponentIndexTable<MaxCount>`: the table afterwards and the returned
indexes. -/
def LinearComponentIndexTable.AddAll (MaxCount : Nat) :
    List Nat → LinearComponentIndexTable → Option (LinearComponentIndexTable × List Nat)
  | [], t => some (t, [])
  | id :: rest, t =>
    match LinearComponentIndexTable.AddWithin MaxCount t id with
    | none => none
    | some r =>
      match LinearComponentIndexTable.AddAll MaxCount rest r.1 with
      | none => none
      | some q => some (q.1, r.2 :: q.2)

/-- The class `HashMapComponentIndexTable`; the `std::unordered_map` is an
association list. -/
structure HashMapComponentIndexTable where
  mComponentCount : Nat
  mIndexMap : List (Nat × Int)

/-- A default-constructed table. -/
def HashMapComponentIndexTable.init : HashMapComponentIndexTable :=
  { mComponentCount := 0, mIndexMap := [] }

/-- The method `Add(id)`: the table afterwards and the returned index; `none` when
one of the two assertions fails. -/
def HashMapComponentIndexTable.Add (t : HashMapComponentIndexTable) (id : Nat) :
    Option (HashMapComponentIndexTable × Nat) :=
  if t.mIndexMap.length ≠ t.mComponentCount then none
  else if (umapFind t.mIndexMap id).isSome then none
  else
    some
      ({ mComponentCount := t.mComponentCount + 1
         mIndexMap := umapInsert t.mIndexMap id (t.mComponentCount : Int) },
       t.mComponentCount)

/-- The method `Get(id)`. -/
def HashMapComponentIndexTable.Get (t : HashMapComponentIndexTable) (id : Nat) : Int :=
  match umapFind t.mIndexMap id with
  | none => INVALID_COMPONENT_INDEX
  | some index => index

/-- The calls `Add(id)` for the ids of a list in order: the table afterwards and the
returned indexes. -/
def HashMapComponentIndexTable.AddAll :
    List Nat → HashMapComponentIndexTable → Option (HashMapComponentIndexTable × List Nat)
  | [], t => some (t, [])
  | id :: rest, t =>
    match t.Add id with
    | none => none
    | some r =>
      match HashMapComponentIndexTable.AddAll rest r.1 with
      | none => none
      | some q => some (q.1, r.2 :: q.2)

/-- The class `DirectComponentIndexTable<MaxCount>`: the cells of `mIndexTable`
are those below `MaxCount`. -/
structure DirectComponentIndexTable where
  mComponentCount : Nat
  mIndexTable : Nat → Int

/-- The constructor of `DirectComponentIndexTable<MaxCount>`. -/
def DirectComponentIndexTable.init (MaxCount : Nat) : DirectComponentIndexTable :=
  { mComponentCount := 0
    mIndexTable := fun i => if i < MaxCount then INVALID_COMPONENT_INDEX else 0 }

/-- The method `Add(id)` of `DirectComponentIndexTable<MaxCount>`: the table
afterwards and the returned index; `none` when `id` is past the array or the
assertion fails. -/
def DirectComponentIndexTable.Add (MaxCount : Nat) (t : DirectComponentIndexTable) (id : Nat) :
    Option (DirectComponentIndexTable × Nat) :=
  if id < MaxCount then
    if t.mIndexTable id = INVALID_COMPONENT_INDEX then
      some
        ({ mComponentCount := t.mComponentCount + 1
           mIndexTable := setAt t.mIndexTable id (t.mComponentCount : Int) },
         t.mComponentCount)
    else none
  else none

/-- The method `Get(id)` of `DirectComponentIndexTable<MaxCount>`: the cell
`mIndexTable[id]`; a read past the array has no result. -/
def DirectComponentIndexTable.Get (MaxCount : Nat) (t : DirectComponentIndexTable) (id : Nat) :
    Option Int :=
  if id < MaxCount then some (t.mIndexTable id) else none

/-- The calls `Add(id)` for the ids of a list in order on a
`DirectComponentIndexTable<MaxCount>`: the table afterwards and the returned
indexes. -/
def DirectComponentIndexTable.AddAll (MaxCount : Nat) :
    List Nat → DirectComponentIndexTable → Option (DirectComponentIndexTable × List Nat)
  | [], t => some (t, [])
  | id :: rest, t =>
    match DirectComponentIndexTable.Add MaxCount t id with
    | none => none
    | some r =>
      match DirectComponentIndexTable.AddAll MaxCount rest r.1 with
      | none => none
      | some q => some (q.1, r.2 :: q.2)

/-! ## A subscriber of the creation event -/

/-- A callback like the one of the unit test of the events: it assigns 99 to the
component `Terrain` of the record of the event when the record has one. -/
def overwriteTerrain : EventCallbackFunction := fun _ _ => [(Terrain, 99)]

/-- The world after `SetEventManager` of context 0 with a new event manager and
`Subscrible<CreateEntityEvent>` of `overwriteTerrain` there. -/
def World.subscribed (w : World) : World :=
  (World.run
    [WorldOp.setEventManager 0 (some EventManager.new),
      WorldOp.subscrible 0 CreateEntityEvent.type_id 1 overwriteTerrain] w).getD World.new

/-- The world `exampleWorld` with the subscriber `overwriteTerrain`. -/
def subscribedWorld : World := exampleWorld.subscribed

/-- The world `examplePairWorld` with the subscriber `overwriteTerrain`. -/
def subscribedPairWorld : World := examplePairWorld.subscribed

/-! ## A component object that looks like a header -/

/-- The world `exampleWorld` after `SetComponent` of its record with a `Terrain`
whose object representation starts with the bytes 01 00 07 00: read as a header,
`mValid` is true and `mGenID` is 7. -/
def imprintedWorld : World :=
  ((exampleWorld.SetComponent exampleEntity Terrain (1 + 7 * 65536)).map Prod.fst).getD
    World.new

/-- The identifier with generation 7, context 0, storage 0, chunk 0 and block 2;
the chunks of the storage have two blocks. -/
def imprintedId : Nat := packEntityID 7 0 0 0 2

/-! ## Two classes with one hash code -/

/-- The component class `ShieldFlySound` with the custom type id 8
(`USE_CUSTOM_COMPONENT_TYPE_ID` is 1); its hash code is the CRC-32 of its name. -/
def ShieldFlySound : ComponentType :=
  { hashCode := 4037635176, typeId := 8, size := 8 * 1024 * 1024, alignment := 8,
    defaultValue := 0 }

/-- The component class `ManaParentGrid` with the custom type id 7; the CRC-32 of
its name is that of `ShieldFlySound`. -/
def ManaParentGrid : ComponentType :=
  { hashCode := 4037635176, typeId := 7, size := 8 * 1024 * 1024, alignment := 8,
    defaultValue := 0 }

/-- The world after `CreateContext()`, `CreateArchetype<ShieldFlySound,
ManaParentGrid>()` and `CreateEntity` of that archetype in context 0; the record is
`exampleEntity`. -/
def overlapWorld : World :=
  (World.run
    [WorldOp.createContext,
      WorldOp.createArchetype (ArchetypeArgs.components [ShieldFlySound, ManaParentGrid]),
      WorldOp.createEntity 0 0] World.new).getD World.new

/-- The archetype of the record of `overlapWorld`. -/
def overlapSource : EntityArchetype :=
  ((overlapWorld.GetArchetype exampleEntity).bind overlapWorld.archetype).getD
    (EntityArchetype.init 0 [])

/-- The context of `overlapWorld`. -/
def overlapContext : EntityContext :=
  match overlapWorld.mEntityContexts 0 with
  | some c => c
  | none => { mContextId := 0, mEntityComponentStorageList := [], mEventManager := none }

/-! ## The invariant in worlds built by calls -/

/-- The links between the catalog, the archetype objects and the storages of a
world, whatever the tables of the archetype objects hold: the contexts sit in the
slots below `MAX_CONTEXT_COUNT`, the catalog map is consistent, a back-reference of
an archetype object points to a storage of that archetype, and the archetype object
of a storage refers back to it. -/
def World.InvLinks (w : World) : Prop :=
  (∀ i, MAX_CONTEXT_COUNT ≤ i → w.mEntityContexts i = none)
    ∧ w.InvCatalog
    ∧ (∀ p a, w.mArchetypeManager.objects[p]? = some a → w.InvBackRefs p a)
    ∧ ∀ i, i < MAX_CONTEXT_COUNT → ∀ j s,
        w.storage { mContext := i, mIndex := j } = some s →
        ∃ a, w.mArchetypeManager.objects[s.mArchetype]? = some a
          ∧ a.mStoragesInContext i = some j

/-- The invariant of the worlds that calls build, whatever classes, pointers and
callbacks the calls are given: the part of the invariant that identifiers rest on,
and the links. -/
def World.Linked (w : World) : Prop := w.InvSlots ∧ w.InvLinks

/-- What a call of the catalog does to the archetype objects and their map: nothing,
or one new archetype object without storages is appended and registered under an
identity that was not registered. -/
def EntityArchetypeManager.Extends (mgr mgr1 : EntityArchetypeManager) : Prop :=
  (mgr1.objects = mgr.objects ∧ mgr1.mArchetypesMap = mgr.mArchetypesMap)
    ∨ ∃ aNew, mgr1.objects = mgr.objects ++ [aNew]
        ∧ mgr1.mArchetypesMap
            = umapInsert mgr.mArchetypesMap aNew.mArchetypeId mgr.objects.length
        ∧ umapFind mgr.mArchetypesMap aNew.mArchetypeId = none
        ∧ aNew.mStoragesInContext = fun _ => none

/-- The classes a call hands to the cache of meta data of the catalog. -/
def WorldOp.classes : WorldOp → List ComponentType
  | WorldOp.createArchetype (ArchetypeArgs.components Ts) => Ts
  | WorldOp.createArchetype (ArchetypeArgs.entityClass Ts) => Ts
  | WorldOp.extendEntity _ _ Ts => Ts
  | WorldOp.extendEntityWith _ _ args => args.map Prod.fst
  | _ => []

/-- The tables of the archetype objects of a world are consistent, and the cache of
meta data holds the classes of `L` as themselves. -/
def World.Tabled (w : World) (L : List ComponentType) : Prop :=
  w.mArchetypeManager.Knows L
    ∧ ∀ (p : Nat) (a : EntityArchetype), w.mArchetypeManager.objects[p]? = some a → a.Inv

/-- The three calls that build the example world. -/
def exampleOps : List WorldOp :=
  [WorldOp.createContext, WorldOp.createArchetype (ArchetypeArgs.components [Terrain]),
    WorldOp.createEntity 0 0]
/-! # Theorems -/

/-! ## Arrays -/

@[simp] theorem setAt_same {α : Type} (a : Nat → α) (i : Nat) (v : α) : setAt a i v i = v := by
  simp [setAt]

theorem setAt_other {α : Type} (a : Nat → α) (i j : Nat) (v : α) (h : j ≠ i) :
    setAt a i v j = a j := by
  simp [setAt, h]

/-! ## Entity identifiers -/

theorem packEntityID_eq (gen ctx st ch blk : Nat) (h1 : gen < 2 ^ 16) (h2 : ctx < 2 ^ 8)
    (h3 : st < 2 ^ 10) (h4 : ch < 2 ^ 15) (h5 : blk < 2 ^ 10) :
    packEntityID gen ctx st ch blk
      = gen * 2 ^ 48 + ctx * 2 ^ 40 + st * 2 ^ 25 + ch * 2 ^ 10 + blk := by
  have e1 : u64 gen = gen := Nat.mod_eq_of_lt (by omega)
  have e2 : u64 ctx = ctx := Nat.mod_eq_of_lt (by omega)
  have e3 : u64 st = st := Nat.mod_eq_of_lt (by omega)
  have e4 : u64 ch = ch := Nat.mod_eq_of_lt (by omega)
  have e5 : u64 blk = blk := Nat.mod_eq_of_lt (by omega)
  have f1 : u64 (gen <<< 48) = 2 ^ 48 * gen := by
    rw [Nat.shiftLeft_eq]; unfold u64; omega
  have f2 : u64 (ctx <<< 40) = 2 ^ 40 * ctx := by
    rw [Nat.shiftLeft_eq]; unfold u64; omega
  have f3 : u64 (st <<< 25) = 2 ^ 25 * st := by
    rw [Nat.shiftLeft_eq]; unfold u64; omega
  have f4 : u64 (ch <<< 10) = 2 ^ 10 * ch := by
    rw [Nat.shiftLeft_eq]; unfold u64; omega
  unfold packEntityID
  simp only [MAX_CHUNK_COUNT_BITS, MAX_BLOCK_COUNT_BITS, e1, e2, e3, e4, e5, Nat.reduceAdd]
  rw [f1, f2, f3, f4, Nat.lor_assoc, Nat.lor_assoc, Nat.lor_assoc]
  rw [← Nat.mul_add_lt_is_or h5]
  rw [← Nat.mul_add_lt_is_or (show 2 ^ 10 * ch + blk < 2 ^ 25 by omega)]
  rw [← Nat.mul_add_lt_is_or (show 2 ^ 25 * st + (2 ^ 10 * ch + blk) < 2 ^ 40 by omega)]
  rw [← Nat.mul_add_lt_is_or
    (show 2 ^ 40 * ctx + (2 ^ 25 * st + (2 ^ 10 * ch + blk)) < 2 ^ 48 by omega)]
  omega

theorem ParseEntityID_arith (eid : Nat) :
    ParseEntityID eid
      = { genid := eid / 2 ^ 48 % 2 ^ 16
          contextId := eid / 2 ^ 40 % 2 ^ 8
          storageIndex := eid / 2 ^ 25 % 2 ^ 10
          chunkIndex := eid / 2 ^ 10 % 2 ^ 15
          blockIndex := eid % 2 ^ 10 } := by
  unfold ParseEntityID
  have m1 : (0x0FFFF : Nat) = 2 ^ 16 - 1 := by norm_num
  have m2 : (0x0FF : Nat) = 2 ^ 8 - 1 := by norm_num
  have m3 : STORAGE_INDEX_MASK = 2 ^ 10 - 1 := by decide
  have m4 : CHUNK_INDEX_MASK = 2 ^ 15 - 1 := by decide
  have m5 : BLOCK_INDEX_MASK = 2 ^ 10 - 1 := by decide
  rw [m1, m2, m3, m4, m5]
  simp only [Nat.and_pow_two_sub_one_eq_mod, Nat.shiftRight_eq_div_pow, MAX_CHUNK_COUNT_BITS,
    MAX_BLOCK_COUNT_BITS, u16, u8, Nat.reduceAdd]
  congr 1 <;> omega

theorem ExtractContextIdFromEntityID_arith (eid : Nat) :
    ExtractContextIdFromEntityID eid = eid / 2 ^ 40 % 2 ^ 8 := by
  unfold ExtractContextIdFromEntityID
  have m2 : (0x0FF : Nat) = 2 ^ 8 - 1 := by norm_num
  rw [m2]
  simp only [Nat.and_pow_two_sub_one_eq_mod, Nat.shiftRight_eq_div_pow, u8]
  omega

/-- Decoding a packed identifier whose fields fit their bit widths gives the five
fields back, and the context id is the one extracted from the identifier. -/
theorem ParseEntityID_pack (gen ctx st ch blk : Nat) (h1 : gen < 2 ^ 16)
    (h2 : ctx < 2 ^ 8) (h3 : st < 2 ^ 10) (h4 : ch < 2 ^ 15) (h5 : blk < 2 ^ 10) :
    ParseEntityID (packEntityID gen ctx st ch blk)
        = { genid := gen, contextId := ctx, storageIndex := st, chunkIndex := ch,
            blockIndex := blk }
      ∧ ExtractContextIdFromEntityID (packEntityID gen ctx st ch blk) = ctx := by
  rw [ParseEntityID_arith, ExtractContextIdFromEntityID_arith,
    packEntityID_eq gen ctx st ch blk h1 h2 h3 h4 h5]
  refine ⟨?_, by omega⟩
  congr 1 <;> omega

/-- C2: for every generation below 2^16, context id below 2^8, storage index below
2^10, chunk index below 2^15 and slot index below 2^10, `ParseEntityID` returns
exactly the five fields from which `GetEntityID` built the identifier, and
`ExtractContextIdFromEntityID` returns the context id. -/
theorem ParseEntityID_packEntityID (gen ctx st ch blk : Nat) (h1 : gen < 2 ^ 16)
    (h2 : ctx < 2 ^ 8) (h3 : st < 2 ^ 10) (h4 : ch < 2 ^ 15) (h5 : blk < 2 ^ 10) :
    ParseEntityID (packEntityID gen ctx st ch blk)
        = { genid := gen, contextId := ctx, storageIndex := st, chunkIndex := ch,
            blockIndex := blk }
      ∧ ExtractContextIdFromEntityID (packEntityID gen ctx st ch blk) = ctx := by
  rw [ParseEntityID_arith, ExtractContextIdFromEntityID_arith,
    packEntityID_eq gen ctx st ch blk h1 h2 h3 h4 h5]
  refine ⟨?_, by omega⟩
  congr 1 <;> omega

/-- Witness of C2: the identifier of the record at context 3, storage 5, chunk 7,
slot 42 with generation 9 decodes to these five fields. -/
theorem ParseEntityID_packEntityID_witness :
    ParseEntityID (packEntityID 9 3 5 7 42)
        = { genid := 9, contextId := 3, storageIndex := 5, chunkIndex := 7, blockIndex := 42 }
      ∧ ExtractContextIdFromEntityID (packEntityID 9 3 5 7 42) = 3 :=
  ParseEntityID_packEntityID 9 3 5 7 42 (by norm_num) (by norm_num) (by norm_num)
    (by norm_num) (by norm_num)

/-! ## The archetype catalog -/

theorem is_type_duplicate_eq_false (T : ComponentType) (Us : List ComponentType) :
    is_type_duplicate T Us = false := by
  induction Us with
  | nil => rfl
  | cons U rest ih => simp [is_type_duplicate, is_same, decay_t, decay, ih]

theorem sum_component_hashcodes_eq (Ts : List ComponentType) :
    sum_component_hashcodes Ts = (Ts.map ComponentType.hashCode).sum % 2 ^ 32 := by
  induction Ts with
  | nil => rfl
  | cons T rest ih =>
    simp only [sum_component_hashcodes, is_type_duplicate_eq_false, ih, u32, List.map_cons,
      List.sum_cons]
    simp [Nat.add_mod]

theorem sum_component_hashcodes_perm {Ts Us : List ComponentType} (h : Ts.Perm Us) :
    sum_component_hashcodes Ts = sum_component_hashcodes Us := by
  rw [sum_component_hashcodes_eq, sum_component_hashcodes_eq, (h.map _).sum_eq]

theorem umapFind_umapInsert_self {β : Type} (map : List (Nat × β)) (key : Nat) (v : β)
    (h : umapFind map key = none) : umapFind (umapInsert map key v) key = some v := by
  unfold umapInsert
  rw [h]
  unfold umapFind at h ⊢
  simp only [Option.map_eq_none'] at h
  simp [List.find?_append, h]

theorem umapFind_umapInsert_other {β : Type} (map : List (Nat × β)) (key k : Nat) (v : β)
    (h : k ≠ key) : umapFind (umapInsert map key v) k = umapFind map k := by
  unfold umapInsert
  cases hf : umapFind map key with
  | some _ => rfl
  | none =>
    unfold umapFind
    simp only [List.find?_append]
    cases List.find? (fun e => e.1 == k) map with
    | some _ => rfl
    | none => simp [List.find?, beq_eq_false_iff_ne.mpr (Ne.symm h)]

theorem ComponentMetaMap.find_eq_none_iff (metaMap : ComponentMetaMap) (id : Nat) :
    metaMap.find id = none ↔ id ∉ metaMap.keys := by
  unfold ComponentMetaMap.find ComponentMetaMap.keys
  simp only [Option.map_eq_none', List.find?_eq_none, List.mem_map, not_exists, not_and]
  constructor
  · intro h e he heq
    exact h e he (by simp [heq])
  · intro h e he heq
    exact h e he (by simpa using heq)

theorem ComponentMetaMap.mem_keys_insert (metaMap : ComponentMetaMap) (id : Nat)
    (m : ComponentMeta) (x : Nat) :
    x ∈ (metaMap.insert id m).keys ↔ x = id ∨ x ∈ metaMap.keys := by
  induction metaMap with
  | nil => simp [ComponentMetaMap.insert, ComponentMetaMap.keys]
  | cons e rest ih =>
    rcases e with ⟨k, v⟩
    unfold ComponentMetaMap.insert
    simp only [ComponentMetaMap.keys] at ih
    by_cases h1 : id < k
    · simp [h1, ComponentMetaMap.keys]
    · by_cases h2 : id = k
      · subst h2
        simp [ComponentMetaMap.keys]
      · simp only [h1, h2, if_false, ComponentMetaMap.keys, List.map_cons, List.mem_cons, ih]
        tauto

theorem ComponentMetaMap.sorted_keys_insert (metaMap : ComponentMetaMap) (id : Nat)
    (m : ComponentMeta) (h : metaMap.keys.Sorted (· < ·)) :
    (metaMap.insert id m).keys.Sorted (· < ·) := by
  induction metaMap with
  | nil => simp [ComponentMetaMap.insert, ComponentMetaMap.keys]
  | cons e rest ih =>
    rcases e with ⟨k, v⟩
    have hs : (ComponentMetaMap.keys rest).Sorted (· < ·) := by
      simp only [ComponentMetaMap.keys, List.map_cons, List.sorted_cons] at h ⊢
      exact h.2
    have hlt : ∀ x ∈ ComponentMetaMap.keys rest, k < x := by
      simp only [ComponentMetaMap.keys, List.map_cons, List.sorted_cons] at h ⊢
      exact h.1
    unfold ComponentMetaMap.insert
    by_cases h1 : id < k
    · simp only [h1, if_true]
      show (id :: k :: ComponentMetaMap.keys rest).Sorted (· < ·)
      rw [List.sorted_cons]
      refine ⟨?_, h⟩
      intro b hb
      rcases List.mem_cons.mp hb with hb | hb
      · omega
      · exact lt_trans h1 (hlt b hb)
    · by_cases h2 : id = k
      · subst h2
        simpa using h
      · simp only [h1, h2, if_false]
        show (k :: ComponentMetaMap.keys (ComponentMetaMap.insert rest id m)).Sorted (· < ·)
        rw [List.sorted_cons]
        refine ⟨?_, ih hs⟩
        intro b hb
        rw [ComponentMetaMap.mem_keys_insert] at hb
        rcases hb with hb | hb
        · omega
        · exact hlt b hb

theorem GetComponentMeta_objects (mgr : EntityArchetypeManager) (T : ComponentType) :
    (mgr.GetComponentMeta T).1.objects = mgr.objects
      ∧ (mgr.GetComponentMeta T).1.mArchetypesMap = mgr.mArchetypesMap := by
  unfold EntityArchetypeManager.GetComponentMeta
  cases umapFind mgr.mComponentMetas T.hashCode <;> simp

theorem Call_objects (Ts : List ComponentType) (mgr : EntityArchetypeManager)
    (metaMap : ComponentMetaMap) :
    (GetComponentsMetaHelperClass.Call Ts mgr metaMap).1.objects = mgr.objects
      ∧ (GetComponentsMetaHelperClass.Call Ts mgr metaMap).1.mArchetypesMap
          = mgr.mArchetypesMap := by
  induction Ts generalizing mgr metaMap with
  | nil => simp [GetComponentsMetaHelperClass.Call]
  | cons T rest ih =>
    unfold GetComponentsMetaHelperClass.Call
    cases ComponentMetaMap.find metaMap T.typeId with
    | none =>
      simp only
      rw [(ih _ _).1, (ih _ _).2]
      exact GetComponentMeta_objects mgr T
    | some _ => exact ih _ _

theorem Call_keys (Ts : List ComponentType) (mgr : EntityArchetypeManager)
    (metaMap : ComponentMetaMap) (h : metaMap.keys.Sorted (· < ·)) :
    (GetComponentsMetaHelperClass.Call Ts mgr metaMap).2.keys.Sorted (· < ·)
      ∧ ∀ x, x ∈ (GetComponentsMetaHelperClass.Call Ts mgr metaMap).2.keys
          ↔ x ∈ metaMap.keys ∨ x ∈ Ts.map ComponentType.typeId := by
  induction Ts generalizing mgr metaMap with
  | nil => simp [GetComponentsMetaHelperClass.Call, h]
  | cons T rest ih =>
    unfold GetComponentsMetaHelperClass.Call
    cases hf : ComponentMetaMap.find metaMap T.typeId with
    | none =>
      simp only
      have := ih (mgr.GetComponentMeta T).1 (metaMap.insert T.typeId (mgr.GetComponentMeta T).2)
        (ComponentMetaMap.sorted_keys_insert _ _ _ h)
      refine ⟨this.1, ?_⟩
      intro x
      rw [this.2, ComponentMetaMap.mem_keys_insert]
      simp only [List.map_cons, List.mem_cons]
      tauto
    | some v =>
      simp only
      have := ih mgr metaMap h
      refine ⟨this.1, ?_⟩
      intro x
      rw [this.2]
      have hm : T.typeId ∈ metaMap.keys := by
        by_contra hc
        rw [← ComponentMetaMap.find_eq_none_iff] at hc
        rw [hc] at hf
        cases hf
      simp only [List.map_cons, List.mem_cons]
      constructor
      · tauto
      · rintro (h1 | h1 | h1)
        · exact Or.inl h1
        · exact Or.inl (h1 ▸ hm)
        · exact Or.inr h1

theorem Call_keys_perm {Ts Us : List ComponentType} (h : Ts.Perm Us)
    (mgr mgr2 : EntityArchetypeManager) (metaMap : ComponentMetaMap)
    (hs : metaMap.keys.Sorted (· < ·)) :
    (GetComponentsMetaHelperClass.Call Ts mgr metaMap).2.keys
      = (GetComponentsMetaHelperClass.Call Us mgr2 metaMap).2.keys := by
  have h1 := Call_keys Ts mgr metaMap hs
  have h2 := Call_keys Us mgr2 metaMap hs
  apply List.eq_of_perm_of_sorted _ h1.1 h2.1
  rw [List.perm_ext_iff_of_nodup h1.1.nodup h2.1.nodup]
  intro a
  rw [h1.2, h2.2]
  have := (h.map ComponentType.typeId).mem_iff (a := a)
  rw [this]

theorem Call_length_nil (Ts : List ComponentType) (mgr : EntityArchetypeManager) :
    (GetComponentsMetaHelperClass.Call Ts mgr []).2.length
      = (Ts.map ComponentType.typeId).dedup.length := by
  have h1 := Call_keys Ts mgr [] (by simp [ComponentMetaMap.keys])
  have : (GetComponentsMetaHelperClass.Call Ts mgr []).2.keys.Perm
      (Ts.map ComponentType.typeId).dedup := by
    rw [List.perm_ext_iff_of_nodup h1.1.nodup (List.nodup_dedup _)]
    intro a
    rw [h1.2]
    simp [ComponentMetaMap.keys]
  have := this.length_eq
  simpa [ComponentMetaMap.keys] using this

theorem construct_eq_some (mgr : EntityArchetypeManager) (id : Nat) (metaMap : ComponentMetaMap)
    (h : metaMap.length ≤ MAX_COMPONENT_COUNT_PER_ENTITY) :
    ∃ a, EntityArchetype.new id metaMap = some a ∧
      mgr.construct id metaMap
        = some ({ mgr with
                  objects := mgr.objects ++ [a]
                  mArchetypesMap := umapInsert mgr.mArchetypesMap id mgr.objects.length },
                mgr.objects.length) := by
  unfold EntityArchetypeManager.construct EntityArchetype.new
  simp [h]

theorem construct_eq_none (mgr : EntityArchetypeManager) (id : Nat) (metaMap : ComponentMetaMap)
    (h : ¬ metaMap.length ≤ MAX_COMPONENT_COUNT_PER_ENTITY) :
    mgr.construct id metaMap = none := by
  unfold EntityArchetypeManager.construct EntityArchetype.new
  simp [h]

theorem CreateArchetypeByComponentTypes_found (mgr : EntityArchetypeManager)
    (Ts : List ComponentType) (p : Nat)
    (h : umapFind mgr.mArchetypesMap (sum_component_hashcodes Ts) = some p) :
    mgr.CreateArchetypeByComponentTypes Ts = some (mgr, p) := by
  unfold EntityArchetypeManager.CreateArchetypeByComponentTypes
  simp only [h]

theorem CreateArchetypeByComponentTypes_fresh (mgr : EntityArchetypeManager)
    (Ts : List ComponentType)
    (h : umapFind mgr.mArchetypesMap (sum_component_hashcodes Ts) = none) :
    mgr.CreateArchetypeByComponentTypes Ts
      = (GetComponentsMetaHelperClass.Call Ts mgr []).1.construct (sum_component_hashcodes Ts)
          (GetComponentsMetaHelperClass.Call Ts mgr []).2 := by
  unfold EntityArchetypeManager.CreateArchetypeByComponentTypes
  simp only [h]

/-- What `CreateArchetypeByComponentTypes` returns: the registered pointer when the
identity is registered, the next fresh pointer otherwise, and a fatal error exactly
when a new archetype would have more than `MAX_COMPONENT_COUNT_PER_ENTITY`
components. -/
theorem CreateArchetypeByComponentTypes_cases (mgr : EntityArchetypeManager)
    (Ts : List ComponentType) :
    (∃ p, umapFind mgr.mArchetypesMap (sum_component_hashcodes Ts) = some p
        ∧ mgr.CreateArchetypeByComponentTypes Ts = some (mgr, p))
      ∨ (umapFind mgr.mArchetypesMap (sum_component_hashcodes Ts) = none
          ∧ (Ts.map ComponentType.typeId).dedup.length ≤ MAX_COMPONENT_COUNT_PER_ENTITY
          ∧ ∃ m1, mgr.CreateArchetypeByComponentTypes Ts = some (m1, mgr.objects.length)
              ∧ umapFind m1.mArchetypesMap (sum_component_hashcodes Ts)
                  = some mgr.objects.length)
      ∨ (umapFind mgr.mArchetypesMap (sum_component_hashcodes Ts) = none
          ∧ ¬ (Ts.map ComponentType.typeId).dedup.length ≤ MAX_COMPONENT_COUNT_PER_ENTITY
          ∧ mgr.CreateArchetypeByComponentTypes Ts = none) := by
  cases hf : umapFind mgr.mArchetypesMap (sum_component_hashcodes Ts) with
  | some p => exact Or.inl ⟨p, rfl, CreateArchetypeByComponentTypes_found mgr Ts p hf⟩
  | none =>
    right
    rw [CreateArchetypeByComponentTypes_fresh mgr Ts hf]
    by_cases hn : (Ts.map ComponentType.typeId).dedup.length ≤ MAX_COMPONENT_COUNT_PER_ENTITY
    · left
      refine ⟨rfl, hn, ?_⟩
      obtain ⟨a, _, hc⟩ := construct_eq_some (GetComponentsMetaHelperClass.Call Ts mgr []).1
        (sum_component_hashcodes Ts) (GetComponentsMetaHelperClass.Call Ts mgr []).2
        (by rw [Call_length_nil]; exact hn)
      rw [hc, (Call_objects Ts mgr []).1]
      refine ⟨_, rfl, ?_⟩
      apply umapFind_umapInsert_self
      rw [(Call_objects Ts mgr []).2]
      exact hf
    · right
      refine ⟨rfl, hn, ?_⟩
      apply construct_eq_none
      rw [Call_length_nil]
      exact hn

/-- C1: for two lists of component classes that are permutations of each other,
`CreateArchetype` on the same catalog returns the same archetype pointer whichever
call is made first: if the call for the first list returns, the call for the second
list on the resulting catalog returns the same pointer and leaves the catalog
unchanged, and so do the two calls in the opposite order; the first call returns
whenever the list has at most `MAX_COMPONENT_COUNT_PER_ENTITY` distinct classes. -/
theorem CreateArchetype_perm (mgr : EntityArchetypeManager) (Ts Us : List ComponentType)
    (h : Ts.Perm Us) :
    (∀ m1 p, mgr.CreateArchetype (ArchetypeArgs.components Ts) = some (m1, p) →
        m1.CreateArchetype (ArchetypeArgs.components Us) = some (m1, p)
          ∧ ∃ m2, mgr.CreateArchetype (ArchetypeArgs.components Us) = some (m2, p)
              ∧ m2.CreateArchetype (ArchetypeArgs.components Ts) = some (m2, p))
      ∧ ((Ts.map ComponentType.typeId).dedup.length ≤ MAX_COMPONENT_COUNT_PER_ENTITY →
          ∃ m1 p, mgr.CreateArchetype (ArchetypeArgs.components Ts) = some (m1, p)) := by
  have hid := sum_component_hashcodes_perm h
  have hlen : (Us.map ComponentType.typeId).dedup.length
      = (Ts.map ComponentType.typeId).dedup.length := by
    rw [← Call_length_nil Us mgr, ← Call_length_nil Ts mgr]
    have := Call_keys_perm h mgr mgr [] (by simp [ComponentMetaMap.keys])
    have := congrArg List.length this
    simpa [ComponentMetaMap.keys] using this.symm
  simp only [EntityArchetypeManager.CreateArchetype]
  constructor
  · intro m1 p hc
    rcases CreateArchetypeByComponentTypes_cases mgr Ts with ⟨q, hq, hq2⟩ | ⟨hq, hn, m, hm, hm2⟩
      | ⟨_, _, hq⟩
    · rw [hq2] at hc
      cases hc
      have hU : mgr.CreateArchetypeByComponentTypes Us = some (mgr, p) :=
        CreateArchetypeByComponentTypes_found mgr Us p (hid ▸ hq)
      exact ⟨hU, mgr, hU, hq2⟩
    · rw [hm] at hc
      cases hc
      constructor
      · exact CreateArchetypeByComponentTypes_found _ Us _ (hid ▸ hm2)
      · rcases CreateArchetypeByComponentTypes_cases mgr Us with ⟨q, hq1, _⟩
          | ⟨_, _, m2, hm3, hm4⟩ | ⟨_, hn2, _⟩
        · rw [← hid, hq] at hq1
          cases hq1
        · exact ⟨m2, hm3, CreateArchetypeByComponentTypes_found _ Ts _ (hid ▸ hm4)⟩
        · rw [hlen] at hn2
          exact absurd hn hn2
    · rw [hq] at hc
      cases hc
  · intro hn
    rcases CreateArchetypeByComponentTypes_cases mgr Ts with ⟨q, _, hq2⟩ | ⟨_, _, m, hm, _⟩
      | ⟨_, hn2, _⟩
    · exact ⟨_, _, hq2⟩
    · exact ⟨_, _, hm⟩
    · exact absurd hn hn2


/-- Witness of C1: on the empty catalog, `CreateArchetype<Transform, Profile>` and
then `CreateArchetype<Profile, Transform>` return the same pointer, and so do the
two calls in the opposite order. -/
theorem CreateArchetype_perm_witness :
    ∃ m1 p,
      EntityArchetypeManager.init.CreateArchetype (ArchetypeArgs.components [Transform, Profile])
          = some (m1, p)
        ∧ m1.CreateArchetype (ArchetypeArgs.components [Profile, Transform]) = some (m1, p)
        ∧ ∃ m2,
            EntityArchetypeManager.init.CreateArchetype
                (ArchetypeArgs.components [Profile, Transform]) = some (m2, p)
              ∧ m2.CreateArchetype (ArchetypeArgs.components [Transform, Profile])
                  = some (m2, p) := by
  have h := CreateArchetype_perm EntityArchetypeManager.init [Transform, Profile]
    [Profile, Transform] (List.Perm.swap _ _ _)
  obtain ⟨m1, p, h1⟩ := h.2 (by decide)
  exact ⟨m1, p, h1, (h.1 m1 p h1).1, (h.1 m1 p h1).2⟩

/-! ## Resolving identifiers -/

/-- What the invariant gives for a pointer to a valid record: its context and its
storage, with their own paths and the invariant of the storage. -/
theorem World.Live.path {w : World} {p : EntityPtr} (hinv : w.Inv) (hlive : w.Live p) :
    ∃ c s, w.mEntityContexts p.mStorage.mContext = some c
      ∧ c.mEntityComponentStorageList[p.mStorage.mIndex]? = some s
      ∧ w.storage p.mStorage = some s
      ∧ c.mContextId = p.mStorage.mContext
      ∧ p.mStorage.mContext < MAX_CONTEXT_COUNT
      ∧ p.mStorage.mIndex < c.mEntityComponentStorageList.length
      ∧ c.mEntityComponentStorageList.length ≤ MAX_STORAGE_COUNT_PER_CONTEXT
      ∧ w.InvStorage p.mStorage.mContext p.mStorage.mIndex s
      ∧ p.mChunkIndex < s.mChunkCount
      ∧ p.mBlockIndex < (s.mChunks p.mChunkIndex).mBlockCount
      ∧ (s.header p).mValid = true := by
  obtain ⟨hctx, s, hs, hch, hbl, hv⟩ := hlive
  have hs1 : w.storage p.mStorage = some s := hs
  unfold World.storage at hs
  cases hc : w.mEntityContexts p.mStorage.mContext with
  | none => rw [hc] at hs; cases hs
  | some c =>
    rw [hc] at hs
    have hs2 : c.mEntityComponentStorageList[p.mStorage.mIndex]? = some s := hs
    have hlt : p.mStorage.mIndex < c.mEntityComponentStorageList.length := by
      by_contra hge
      rw [List.getElem?_eq_none (by omega)] at hs2
      cases hs2
    obtain ⟨h1, h2, h3⟩ := hinv.2.2 _ hctx c hc
    exact ⟨c, s, rfl, hs2, hs1, h1, hctx, hlt, h2, h3 _ hlt s hs2, hch, hbl, hv⟩

/-- The identifier of a valid record is the packing of its generation and its
path, and the context of the record and the world resolve it to the record. -/
theorem World.Live.resolve {w : World} {p : EntityPtr} (hinv : w.Inv) (hlive : w.Live p) :
    ∃ eid c, w.GetEntityID p = some eid
      ∧ w.mEntityContexts p.mStorage.mContext = some c
      ∧ c.GetEntity eid = Lookup.found p
      ∧ w.GetEntity eid = Lookup.found p := by
  obtain ⟨c, s, hc, hs, hws, hcid, hctx, hidx, hlen, hst, hch, hbl, hv⟩ :=
    World.Live.path hinv hlive
  obtain ⟨hsinv, hsctx, hsidx, _⟩ := hst
  obtain ⟨hcap, hcnt, _, hchunks, _⟩ := hsinv
  obtain ⟨hcinv, hcid2, hcst, _, _, _⟩ := hchunks _ hch
  obtain ⟨_, hbc, hhdr, _⟩ := hcinv
  obtain ⟨_, _, _, hgen⟩ := hhdr _ hbl
  have hcap2 : s.mChunkArrayCapacity ≤ 32768 := by
    simp only [List.mem_cons, List.mem_singleton, List.not_mem_nil, or_false] at hcap
    omega
  have b1 : (s.header p).mGenID < 2 ^ 16 := hgen
  have b2 : p.mStorage.mContext < 2 ^ 8 := by
    simp only [MAX_CONTEXT_COUNT] at hctx; omega
  have b3 : p.mStorage.mIndex < 2 ^ 10 := by
    have : MAX_STORAGE_COUNT_PER_CONTEXT = 1024 := by decide
    omega
  have b4 : p.mChunkIndex < 2 ^ 15 := by omega
  have b5 : p.mBlockIndex < 2 ^ 10 := by
    have : MAX_ENTITY_COUNT_PER_CHUNK = 1024 := by decide
    omega
  have hparse := ParseEntityID_pack _ _ _ _ _ b1 b2 b3 b4 b5
  have hid : w.GetEntityID p
      = some (packEntityID (s.header p).mGenID p.mStorage.mContext p.mStorage.mIndex
          p.mChunkIndex p.mBlockIndex) := by
    unfold World.GetEntityID
    rw [hws]
    simp only [hsctx, hc, hcid, hsidx]
  have hptr : (s.mChunks p.mChunkIndex).entityPtr p.mBlockIndex = p := by
    unfold EntityComponentChunk.entityPtr
    rw [hcst, hcid2]
    unfold EntityComponentStorage.this
    rw [hsctx, hsidx]
  have hget : c.GetEntity (packEntityID (s.header p).mGenID p.mStorage.mContext
      p.mStorage.mIndex p.mChunkIndex p.mBlockIndex) = Lookup.found p := by
    unfold EntityContext.GetEntity
    simp only [hparse.1, hs]
    have hv2 : ((s.mChunks p.mChunkIndex).mEntitiesBuffer p.mBlockIndex).mValid = true := hv
    have : s.GetEntity p.mChunkIndex p.mBlockIndex = Lookup.found p := by
      unfold EntityComponentStorage.GetEntity
      rw [if_neg (by omega), if_neg (by omega), hv2, hptr]
      rfl
    rw [this]
    simp only []
    rw [if_neg (by omega)]
    simp [EntityComponentStorage.header]
  refine ⟨_, c, hid, hc, hget, ?_⟩
  unfold World.GetEntity
  rw [hparse.2, hc]
  exact hget

/-- C3: for every valid record `e` of a world that satisfies the invariant, the
context of `e` and the world both resolve `e.GetEntityID()` to `e` itself. -/
theorem GetEntity_GetEntityID (w : World) (p : EntityPtr) (hinv : w.Inv) (hlive : w.Live p) :
    ∃ eid c, w.GetEntityID p = some eid
      ∧ w.mEntityContexts p.mStorage.mContext = some c
      ∧ c.GetEntity eid = Lookup.found p
      ∧ w.GetEntity eid = Lookup.found p :=
  World.Live.resolve hinv hlive

set_option maxRecDepth 100000 in
/-- Witness of C3: the record of the example world is resolved by its context and
by the world. -/
theorem GetEntity_GetEntityID_witness :
    ∃ eid c, exampleWorld.GetEntityID exampleEntity = some eid
      ∧ exampleWorld.mEntityContexts 0 = some c
      ∧ c.GetEntity eid = Lookup.found exampleEntity
      ∧ exampleWorld.GetEntity eid = Lookup.found exampleEntity :=
  GetEntity_GetEntityID exampleWorld exampleEntity (by decide) (by decide)

/-! ## Frame lemmas for stores, events and deallocation -/

theorem EntityComponentChunk.foldl_store_eq (c : EntityComponentChunk) (l : List Nat)
    (g : Nat → ComponentSlot) (v : Nat → Option Value) :
    ∃ bufs, List.foldl (fun c i => c.store (g i) (v i)) c l
      = { c with mComponentBuffers := bufs } := by
  induction l generalizing c with
  | nil => exact ⟨c.mComponentBuffers, rfl⟩
  | cons i rest ih =>
    obtain ⟨bufs, hb⟩ := ih (c.store (g i) (v i))
    exact ⟨bufs, by rw [List.foldl_cons, hb]; rfl⟩

theorem EntityComponentChunk.DestructComponents_eq (c : EntityComponentChunk) (p : EntityPtr) :
    ∃ bufs, c.DestructComponents p = { c with mComponentBuffers := bufs } :=
  EntityComponentChunk.foldl_store_eq c _ (fun i => { index := i, block := p.mBlockIndex })
    (fun _ => none)

theorem EntityComponentChunk.ConstructComponents_eq (c : EntityComponentChunk)
    (a : EntityArchetype) (p : EntityPtr) :
    ∃ bufs, c.ConstructComponents a p = { c with mComponentBuffers := bufs } :=
  EntityComponentChunk.foldl_store_eq c _ (fun i => { index := i, block := p.mBlockIndex })
    (fun i => a.mComponentConstructors i)

@[simp] theorem EntityComponentChunk.DestructComponents_mChunkId (c : EntityComponentChunk)
    (p : EntityPtr) : (c.DestructComponents p).mChunkId = c.mChunkId := by
  obtain ⟨bufs, h⟩ := c.DestructComponents_eq p
  rw [h]

@[simp] theorem EntityComponentChunk.ConstructComponents_mChunkId (c : EntityComponentChunk)
    (a : EntityArchetype) (p : EntityPtr) : (c.ConstructComponents a p).mChunkId = c.mChunkId := by
  obtain ⟨bufs, h⟩ := c.ConstructComponents_eq a p
  rw [h]

@[simp] theorem EntityComponentChunk.DestructComponents_mEntityComponentStorage (c : EntityComponentChunk)
    (p : EntityPtr) : (c.DestructComponents p).mEntityComponentStorage = c.mEntityComponentStorage := by
  obtain ⟨bufs, h⟩ := c.DestructComponents_eq p
  rw [h]

@[simp] theorem EntityComponentChunk.ConstructComponents_mEntityComponentStorage (c : EntityComponentChunk)
    (a : EntityArchetype) (p : EntityPtr) : (c.ConstructComponents a p).mEntityComponentStorage = c.mEntityComponentStorage := by
  obtain ⟨bufs, h⟩ := c.ConstructComponents_eq a p
  rw [h]

@[simp] theorem EntityComponentChunk.DestructComponents_mArchetype (c : EntityComponentChunk)
    (p : EntityPtr) : (c.DestructComponents p).mArchetype = c.mArchetype := by
  obtain ⟨bufs, h⟩ := c.DestructComponents_eq p
  rw [h]

@[simp] theorem EntityComponentChunk.ConstructComponents_mArchetype (c : EntityComponentChunk)
    (a : EntityArchetype) (p : EntityPtr) : (c.ConstructComponents a p).mArchetype = c.mArchetype := by
  obtain ⟨bufs, h⟩ := c.ConstructComponents_eq a p
  rw [h]

@[simp] theorem EntityComponentChunk.DestructComponents_mBlockCount (c : EntityComponentChunk)
    (p : EntityPtr) : (c.DestructComponents p).mBlockCount = c.mBlockCount := by
  obtain ⟨bufs, h⟩ := c.DestructComponents_eq p
  rw [h]

@[simp] theorem EntityComponentChunk.ConstructComponents_mBlockCount (c : EntityComponentChunk)
    (a : EntityArchetype) (p : EntityPtr) : (c.ConstructComponents a p).mBlockCount = c.mBlockCount := by
  obtain ⟨bufs, h⟩ := c.ConstructComponents_eq a p
  rw [h]

@[simp] theorem EntityComponentChunk.DestructComponents_mChunkSize (c : EntityComponentChunk)
    (p : EntityPtr) : (c.DestructComponents p).mChunkSize = c.mChunkSize := by
  obtain ⟨bufs, h⟩ := c.DestructComponents_eq p
  rw [h]

@[simp] theorem EntityComponentChunk.ConstructComponents_mChunkSize (c : EntityComponentChunk)
    (a : EntityArchetype) (p : EntityPtr) : (c.ConstructComponents a p).mChunkSize = c.mChunkSize := by
  obtain ⟨bufs, h⟩ := c.ConstructComponents_eq a p
  rw [h]

@[simp] theorem EntityComponentChunk.DestructComponents_mComponentCount (c : EntityComponentChunk)
    (p : EntityPtr) : (c.DestructComponents p).mComponentCount = c.mComponentCount := by
  obtain ⟨bufs, h⟩ := c.DestructComponents_eq p
  rw [h]

@[simp] theorem EntityComponentChunk.ConstructComponents_mComponentCount (c : EntityComponentChunk)
    (a : EntityArchetype) (p : EntityPtr) : (c.ConstructComponents a p).mComponentCount = c.mComponentCount := by
  obtain ⟨bufs, h⟩ := c.ConstructComponents_eq a p
  rw [h]

@[simp] theorem EntityComponentChunk.DestructComponents_mUsedCount (c : EntityComponentChunk)
    (p : EntityPtr) : (c.DestructComponents p).mUsedCount = c.mUsedCount := by
  obtain ⟨bufs, h⟩ := c.DestructComponents_eq p
  rw [h]

@[simp] theorem EntityComponentChunk.ConstructComponents_mUsedCount (c : EntityComponentChunk)
    (a : EntityArchetype) (p : EntityPtr) : (c.ConstructComponents a p).mUsedCount = c.mUsedCount := by
  obtain ⟨bufs, h⟩ := c.ConstructComponents_eq a p
  rw [h]

@[simp] theorem EntityComponentChunk.DestructComponents_mFreeHead (c : EntityComponentChunk)
    (p : EntityPtr) : (c.DestructComponents p).mFreeHead = c.mFreeHead := by
  obtain ⟨bufs, h⟩ := c.DestructComponents_eq p
  rw [h]

@[simp] theorem EntityComponentChunk.ConstructComponents_mFreeHead (c : EntityComponentChunk)
    (a : EntityArchetype) (p : EntityPtr) : (c.ConstructComponents a p).mFreeHead = c.mFreeHead := by
  obtain ⟨bufs, h⟩ := c.ConstructComponents_eq a p
  rw [h]

@[simp] theorem EntityComponentChunk.DestructComponents_mFreeTail (c : EntityComponentChunk)
    (p : EntityPtr) : (c.DestructComponents p).mFreeTail = c.mFreeTail := by
  obtain ⟨bufs, h⟩ := c.DestructComponents_eq p
  rw [h]

@[simp] theorem EntityComponentChunk.ConstructComponents_mFreeTail (c : EntityComponentChunk)
    (a : EntityArchetype) (p : EntityPtr) : (c.ConstructComponents a p).mFreeTail = c.mFreeTail := by
  obtain ⟨bufs, h⟩ := c.ConstructComponents_eq a p
  rw [h]

@[simp] theorem EntityComponentChunk.DestructComponents_mFreeList (c : EntityComponentChunk)
    (p : EntityPtr) : (c.DestructComponents p).mFreeList = c.mFreeList := by
  obtain ⟨bufs, h⟩ := c.DestructComponents_eq p
  rw [h]

@[simp] theorem EntityComponentChunk.ConstructComponents_mFreeList (c : EntityComponentChunk)
    (a : EntityArchetype) (p : EntityPtr) : (c.ConstructComponents a p).mFreeList = c.mFreeList := by
  obtain ⟨bufs, h⟩ := c.ConstructComponents_eq a p
  rw [h]

@[simp] theorem EntityComponentChunk.DestructComponents_mEntitiesBuffer (c : EntityComponentChunk)
    (p : EntityPtr) : (c.DestructComponents p).mEntitiesBuffer = c.mEntitiesBuffer := by
  obtain ⟨bufs, h⟩ := c.DestructComponents_eq p
  rw [h]

@[simp] theorem EntityComponentChunk.ConstructComponents_mEntitiesBuffer (c : EntityComponentChunk)
    (a : EntityArchetype) (p : EntityPtr) : (c.ConstructComponents a p).mEntitiesBuffer = c.mEntitiesBuffer := by
  obtain ⟨bufs, h⟩ := c.ConstructComponents_eq a p
  rw [h]

/-- What `Deallocate` of a chunk returns when its assertion holds. -/
theorem EntityComponentChunk.Deallocate_chunk_eq (c : EntityComponentChunk) (p : EntityPtr)
    (b : Bool) (h : p.mChunkIndex = c.mChunkId) :
    ∃ bufs, c.Deallocate p b = some
      { c with
        mComponentBuffers := bufs
        mFreeList := setAt c.mFreeList p.mBlockIndex c.mFreeHead
        mFreeHead := p.mBlockIndex
        mEntitiesBuffer := setAt c.mEntitiesBuffer p.mBlockIndex
          { c.mEntitiesBuffer p.mBlockIndex with mValid := false }
        mUsedCount := u16 (c.mUsedCount + 65535) } := by
  unfold EntityComponentChunk.Deallocate
  rw [if_neg (by simp [h])]
  cases b with
  | false => exact ⟨c.mComponentBuffers, rfl⟩
  | true =>
    obtain ⟨bufs, hb⟩ := c.DestructComponents_eq p
    exact ⟨bufs, by simp only [if_true, hb]⟩

/-- What `Deallocate` of a storage returns when the assertion of the chunk holds:
only the chunk of the record and the chunk free list change. -/
theorem EntityComponentStorage.Deallocate_eq (s : EntityComponentStorage) (p : EntityPtr)
    (b : Bool) (h : p.mChunkIndex = (s.mChunks p.mChunkIndex).mChunkId) :
    ∃ chunk fl fh, (s.mChunks p.mChunkIndex).Deallocate p b = some chunk
      ∧ s.Deallocate p b = some
          { s with
            mChunks := setAt s.mChunks p.mChunkIndex chunk
            mChunkFreeList := fl
            mChunkFreeHead := fh } := by
  obtain ⟨bufs, hd⟩ := (s.mChunks p.mChunkIndex).Deallocate_chunk_eq p b h
  refine ⟨_, ?_, ?_, hd, ?_⟩
  · exact if (s.mChunks p.mChunkIndex).IsFull then
      setAt s.mChunkFreeList p.mChunkIndex s.mChunkFreeHead else s.mChunkFreeList
  · exact if (s.mChunks p.mChunkIndex).IsFull then p.mChunkIndex else s.mChunkFreeHead
  · unfold EntityComponentStorage.Deallocate
    rw [hd]
    cases (s.mChunks p.mChunkIndex).IsFull <;> rfl

theorem World.storage_eq_some_iff (w : World) (p : StoragePtr) (s : EntityComponentStorage) :
    w.storage p = some s ↔
      ∃ c, w.mEntityContexts p.mContext = some c
        ∧ c.mEntityComponentStorageList[p.mIndex]? = some s := by
  unfold World.storage
  cases w.mEntityContexts p.mContext with
  | none => simp
  | some c => simp

theorem World.storage_setStorage_same (w : World) (p : StoragePtr)
    (s s1 : EntityComponentStorage) (h : w.storage p = some s) :
    (w.setStorage p s1).storage p = some s1 := by
  obtain ⟨c, hc, hs⟩ := (w.storage_eq_some_iff p s).mp h
  have hlt : p.mIndex < c.mEntityComponentStorageList.length := by
    by_contra hge
    rw [List.getElem?_eq_none (by omega)] at hs
    cases hs
  unfold World.setStorage World.storage
  simp [hc, hlt]

theorem World.storage_setStorage_other (w : World) (p q : StoragePtr)
    (s1 : EntityComponentStorage) (h : q ≠ p) :
    (w.setStorage p s1).storage q = w.storage q := by
  unfold World.setStorage
  cases hc : w.mEntityContexts p.mContext with
  | none => rfl
  | some c =>
    unfold World.storage
    by_cases hctx : q.mContext = p.mContext
    · have hidx : p.mIndex ≠ q.mIndex := by
        intro hi
        apply h
        cases p; cases q
        simp only at hctx hi
        simp [hctx, hi]
      simp [hctx, hc, List.getElem?_set_ne hidx]
    · simp [setAt, hctx]

theorem World.setStorage_contexts_other (w : World) (p : StoragePtr)
    (s1 : EntityComponentStorage) (i : Nat) (h : i ≠ p.mContext) :
    (w.setStorage p s1).mEntityContexts i = w.mEntityContexts i := by
  unfold World.setStorage
  cases hc : w.mEntityContexts p.mContext with
  | none => rfl
  | some c => simp [setAt, h]

theorem World.setStorage_contexts_same (w : World) (p : StoragePtr)
    (s1 : EntityComponentStorage) (c : EntityContext)
    (hc : w.mEntityContexts p.mContext = some c) :
    (w.setStorage p s1).mEntityContexts p.mContext
      = some { c with
               mEntityComponentStorageList := c.mEntityComponentStorageList.set p.mIndex s1 } := by
  unfold World.setStorage
  simp [hc]

theorem World.setStorage_manager (w : World) (p : StoragePtr) (s1 : EntityComponentStorage) :
    (w.setStorage p s1).mArchetypeManager = w.mArchetypeManager := by
  unfold World.setStorage
  cases w.mEntityContexts p.mContext <;> rfl

/-- The callbacks of a context are those of its event manager. -/
theorem World.callbacks_eq (w : World) (pContext type_id : Nat) :
    w.callbacks pContext type_id
      = match w.GetEventManager pContext with
        | none => []
        | some em => em.callbacks type_id := by
  unfold World.callbacks World.GetEventManager
  cases w.mEntityContexts pContext with
  | none => rfl
  | some c => rfl

/-- Worlds with the same event manager in a context call the same callbacks
there. -/
theorem World.callbacks_congr {w w1 : World} {pContext : Nat}
    (h : w1.GetEventManager pContext = w.GetEventManager pContext) (type_id : Nat) :
    w1.callbacks pContext type_id = w.callbacks pContext type_id := by
  rw [World.callbacks_eq, World.callbacks_eq, h]

/-- `TriggerEvent` on an existing context in which no callback is subscribed to the
class of the event returns, and changes nothing but the event log of that
context. -/
theorem World.TriggerEvent_spec (w : World) (pContext : Nat) (evt : EntityEvent)
    (c : EntityContext) (hc : w.mEntityContexts pContext = some c)
    (hq : w.callbacks pContext evt.type_id = []) :
    ∃ w1 em, w.TriggerEvent pContext evt = some w1
      ∧ w1.mArchetypeManager = w.mArchetypeManager
      ∧ w1.mEntityContexts pContext = some { c with mEventManager := em }
      ∧ (∀ i, i ≠ pContext → w1.mEntityContexts i = w.mEntityContexts i)
      ∧ (∀ q, w1.storage q = w.storage q)
      ∧ ∀ i type_id, w1.callbacks i type_id = w.callbacks i type_id := by
  unfold World.TriggerEvent
  simp only [hc]
  cases hem : c.mEventManager with
  | none =>
    refine ⟨w, none, rfl, rfl, ?_, fun _ _ => rfl, fun _ => rfl, fun _ _ => rfl⟩
    rw [hc, ← hem]
  | some em =>
    have hq2 : em.callbacks evt.type_id = [] := by
      unfold World.callbacks at hq
      rw [hc] at hq
      simp only [hem] at hq
      exact hq
    simp only [hq2, List.foldl_nil]
    refine ⟨_, some { em with triggered := em.triggered ++ [evt] }, rfl, rfl, ?_, ?_, ?_, ?_⟩
    · simp [World.noteEvent]
    · intro i hi
      simp [World.noteEvent, setAt, hi]
    · intro q
      unfold World.storage World.noteEvent
      by_cases hq : q.mContext = pContext
      · simp [hq, hc]
      · simp [setAt, hq]
    · intro i type_id
      unfold World.callbacks World.noteEvent
      by_cases hi : i = pContext
      · simp only [hi, setAt_same, hc, hem]
        rfl
      · simp only [setAt_other _ _ _ _ hi]

/-! ## The free list of a chunk -/

theorem linkChain_cons (next : Nat → Nat) (stop n h : Nat) (hh : h ≠ stop) :
    linkChain next stop (n + 1) h = h :: linkChain next stop n (next h) := by
  rw [linkChain, if_neg hh]

theorem linkChain_stop (next : Nat → Nat) (stop n : Nat) :
    linkChain next stop n stop = [] := by
  cases n with
  | zero => rfl
  | succ n => rw [linkChain, if_pos rfl]

/-- A walk that stopped before its fuel ran out is the same with more fuel. -/
theorem linkChain_fuel (next : Nat → Nat) (stop n m h : Nat)
    (hlen : (linkChain next stop n h).length < n) (hm : n ≤ m) :
    linkChain next stop m h = linkChain next stop n h := by
  induction n generalizing h m with
  | zero => simp at hlen
  | succ n ih =>
    obtain ⟨m, rfl⟩ : ∃ k, m = k + 1 := ⟨m - 1, by omega⟩
    by_cases hh : h = stop
    · rw [hh, linkChain_stop, linkChain_stop]
    · rw [linkChain_cons _ _ _ _ hh] at hlen ⊢
      rw [linkChain_cons _ _ _ _ hh]
      simp only [List.length_cons] at hlen
      rw [ih _ _ (by omega) (by omega)]

/-- A walk shorter than a smaller fuel is already reached with that fuel. -/
theorem linkChain_fuel_le (next : Nat → Nat) (stop n m h : Nat)
    (hlen : (linkChain next stop m h).length < n) (hm : n ≤ m) :
    linkChain next stop n h = linkChain next stop m h := by
  induction n generalizing h m with
  | zero => omega
  | succ n ih =>
    obtain ⟨m, rfl⟩ : ∃ k, m = k + 1 := ⟨m - 1, by omega⟩
    by_cases hh : h = stop
    · rw [hh, linkChain_stop, linkChain_stop]
    · rw [linkChain_cons _ _ _ _ hh] at hlen ⊢
      rw [linkChain_cons _ _ _ _ hh]
      simp only [List.length_cons] at hlen
      rw [ih m _ (by omega) (by omega)]

/-- A walk depends on the links only at its own cells. -/
theorem linkChain_congr (next next2 : Nat → Nat) (stop n h : Nat)
    (hl : ∀ x, x ∈ linkChain next stop n h → next2 x = next x) :
    linkChain next2 stop n h = linkChain next stop n h := by
  induction n generalizing h with
  | zero => rfl
  | succ n ih =>
    by_cases hh : h = stop
    · rw [hh, linkChain_stop, linkChain_stop]
    · rw [linkChain_cons _ _ _ _ hh] at hl ⊢
      rw [linkChain_cons _ _ _ _ hh, hl h (by simp)]
      rw [ih _ (fun x hx => hl x (List.mem_cons_of_mem _ hx))]

theorem EntityComponentChunk.IsFull_iff (c : EntityComponentChunk) :
    c.IsFull = true ↔ c.mFreeHead = c.mFreeTail := by
  simp [EntityComponentChunk.IsFull]

/-- In a chunk that satisfies its invariant and is not full, the head of the free
list is a block of the chunk, it is invalid, and the free blocks are the head
followed by the chain from its successor. -/
theorem EntityComponentChunk.Inv.head (c : EntityComponentChunk) (hinv : c.Inv)
    (hne : c.mFreeHead ≠ c.mFreeTail) :
    c.mFreeHead < c.mBlockCount
      ∧ (c.mEntitiesBuffer c.mFreeHead).mValid = false
      ∧ c.freeBlocks
          = c.mFreeHead :: linkChain c.mFreeList c.mFreeTail c.mBlockCount (c.mFreeList c.mFreeHead)
      ∧ (linkChain c.mFreeList c.mFreeTail c.mBlockCount (c.mFreeList c.mFreeHead)).length
          < c.mBlockCount := by
  obtain ⟨_, _, _, hlen, _, hlt, hiff, _⟩ := hinv
  have hfb : c.freeBlocks
      = c.mFreeHead
          :: linkChain c.mFreeList c.mFreeTail c.mBlockCount (c.mFreeList c.mFreeHead) := by
    unfold EntityComponentChunk.freeBlocks
    rw [linkChain_cons _ _ _ _ hne]
  have hmem : c.mFreeHead ∈ c.freeBlocks := by rw [hfb]; simp
  have h1 := hlt _ hmem
  refine ⟨h1, (hiff _ h1).mp hmem, hfb, ?_⟩
  rw [hfb] at hlen
  simp only [List.length_cons] at hlen
  omega

theorem u16_and_mask (x : Nat) : u16 (x &&& 0x0000FFFF) = x % 2 ^ 16 := by
  have m1 : (0x0000FFFF : Nat) = 2 ^ 16 - 1 := by norm_num
  rw [m1, Nat.and_pow_two_sub_one_eq_mod]
  unfold u16
  omega

/-- `Allocate` of a chunk returns when the two assertions hold; the record is the
head of the free list. -/
theorem EntityComponentChunk.Allocate_chunk_spec (c : EntityComponentChunk) (a : EntityArchetype)
    (b : Bool) (hne : c.mFreeHead ≠ c.mFreeTail)
    (hidx : (c.mEntitiesBuffer c.mFreeHead).mBlockIndex = c.mFreeHead) :
    ∃ d, c.Allocate a b = some (d, c.entityPtr c.mFreeHead) ∧ c.Allocated d
      ∧ (b = false → d.mComponentBuffers = c.mComponentBuffers) := by
  unfold EntityComponentChunk.Allocate
  simp only []
  rw [if_neg hne, if_neg (not_not.mpr hidx)]
  cases b with
  | false =>
    refine ⟨_, rfl, ?_, fun _ => rfl⟩
    constructor <;> simp [u16_and_mask]
  | true =>
    simp only [if_true]
    exact ⟨_, congrArg some (Prod.ext rfl (by simp [EntityComponentChunk.entityPtr])),
      by constructor <;> simp [u16_and_mask], fun h => by cases h⟩

/-- `Deallocate` of a chunk returns when its assertion holds. -/
theorem EntityComponentChunk.Deallocate_chunk_spec (c : EntityComponentChunk) (p : EntityPtr)
    (b : Bool) (h : p.mChunkIndex = c.mChunkId) :
    ∃ d, c.Deallocate p b = some d ∧ c.Deallocated p.mBlockIndex d := by
  unfold EntityComponentChunk.Deallocate
  rw [if_neg (by simp [h])]
  refine ⟨_, rfl, ?_⟩
  cases b with
  | false => constructor <;> rfl
  | true => constructor <;> simp

/-- The invariant of a chunk after `Allocate`: the head left the free list. -/
theorem EntityComponentChunk.Allocated.keeps_Inv {c d : EntityComponentChunk} (h : c.Allocated d)
    (hinv : c.Inv) (hne : c.mFreeHead ≠ c.mFreeTail) :
    d.Inv ∧ d.freeBlocks = c.freeBlocks.tail := by
  obtain ⟨hlt, hval, hfb, hlen2⟩ := hinv.head c hne
  obtain ⟨htail, hbc, hhdr, hlen, hnd, hmem, hiff, hused⟩ := hinv
  have hchain : d.freeBlocks
      = linkChain c.mFreeList c.mFreeTail c.mBlockCount (c.mFreeList c.mFreeHead) := by
    unfold EntityComponentChunk.freeBlocks
    rw [h.mBlockCount, h.mFreeHead, h.mFreeTail, h.mFreeList]
    exact linkChain_fuel _ _ _ _ _ hlen2 (by omega)
  refine ⟨?_, by rw [hchain, hfb]; rfl⟩
  rw [hfb] at hlen hnd hmem hiff hused
  simp only [List.length_cons, List.nodup_cons, List.mem_cons] at hlen hnd hmem hiff hused
  unfold EntityComponentChunk.Inv
  rw [hchain, h.mFreeTail, h.mBlockCount, h.mEntitiesBuffer, h.mChunkId,
    h.mEntityComponentStorage, h.mUsedCount]
  refine ⟨htail, hbc, ?_, by omega, hnd.2, fun b hb => hmem b (Or.inr hb), ?_, ?_⟩
  · intro b hb
    by_cases hbh : b = c.mFreeHead
    · subst hbh
      simp only [setAt_same]
      obtain ⟨h1, h2, h3, _⟩ := hhdr _ hb
      exact ⟨h1, h2, h3, Nat.mod_lt _ (by norm_num)⟩
    · simp only [setAt_other _ _ _ _ hbh]
      exact hhdr b hb
  · intro b hb
    by_cases hbh : b = c.mFreeHead
    · subst hbh
      simp only [setAt_same]
      simp [hnd.1]
    · simp only [setAt_other _ _ _ _ hbh]
      rw [← hiff b hb]
      simp [hbh]
  · have h1024 : MAX_ENTITY_COUNT_PER_CHUNK = 1024 := by decide
    unfold u16
    omega

/-- The invariant of a chunk after `Deallocate` of a valid block: the block is the
new head of the free list. -/
theorem EntityComponentChunk.Deallocated.gives_Inv {c d : EntityComponentChunk} {blk : Nat}
    (h : c.Deallocated blk d) (hinv : c.Inv) (hblk : blk < c.mBlockCount)
    (hval : (c.mEntitiesBuffer blk).mValid = true) :
    d.Inv ∧ d.freeBlocks = blk :: c.freeBlocks := by
  obtain ⟨htail, hbc, hhdr, hlen, hnd, hmem, hiff, hused⟩ := hinv
  have hnot : blk ∉ c.freeBlocks := by
    intro hm
    have := (hiff blk hblk).mp hm
    rw [hval] at this
    cases this
  have hlen2 : c.freeBlocks.length < c.mBlockCount := by
    have hsub : c.freeBlocks ⊆ (List.range c.mBlockCount).erase blk := by
      intro x hx
      rw [List.mem_erase_of_ne (by rintro rfl; exact hnot hx)]
      exact List.mem_range.mpr (hmem x hx)
    have := (List.subperm_of_subset hnd hsub).length_le
    rw [List.length_erase_of_mem (List.mem_range.mpr hblk), List.length_range] at this
    omega
  have hfuel : linkChain c.mFreeList c.mFreeTail c.mBlockCount c.mFreeHead = c.freeBlocks :=
    linkChain_fuel_le _ _ _ _ _ hlen2 (by omega)
  have hchain : d.freeBlocks = blk :: c.freeBlocks := by
    have h1 : d.freeBlocks
        = linkChain (setAt c.mFreeList blk c.mFreeHead) c.mFreeTail (c.mBlockCount + 1) blk := by
      unfold EntityComponentChunk.freeBlocks
      rw [h.mBlockCount, h.mFreeHead, h.mFreeTail, h.mFreeList]
    rw [h1, linkChain_cons _ _ _ _ (by omega), setAt_same,
      linkChain_congr c.mFreeList (setAt c.mFreeList blk c.mFreeHead), hfuel]
    intro x hx
    rw [setAt_other]
    rintro rfl
    rw [hfuel] at hx
    exact hnot hx
  refine ⟨?_, hchain⟩
  unfold EntityComponentChunk.Inv
  rw [hchain, h.mFreeTail, h.mBlockCount, h.mEntitiesBuffer, h.mChunkId,
    h.mEntityComponentStorage, h.mUsedCount]
  refine ⟨htail, hbc, ?_, by simp only [List.length_cons]; omega, List.nodup_cons.mpr ⟨hnot, hnd⟩,
    ?_, ?_, ?_⟩
  · intro b hb
    by_cases hbh : b = blk
    · subst hbh
      simp only [setAt_same]
      exact hhdr _ hb
    · simp only [setAt_other _ _ _ _ hbh]
      exact hhdr b hb
  · intro b hb
    rcases List.mem_cons.mp hb with hb | hb
    · omega
    · exact hmem b hb
  · intro b hb
    by_cases hbh : b = blk
    · subst hbh
      simp
    · simp only [setAt_other _ _ _ _ hbh, List.mem_cons, hbh, false_or]
      exact hiff b hb
  · have h1024 : MAX_ENTITY_COUNT_PER_CHUNK = 1024 := by decide
    simp only [List.length_cons]
    unfold u16
    omega

/-! ## Allocation in a storage -/

theorem u16_of_lt {x : Nat} (h : x < 65536) : u16 x = x := by
  unfold u16
  omega

/-- The walk along the free list of a freshly constructed chunk. -/
theorem linkChain_fresh (n : Nat) (hn : n < 65536) (j k : Nat) (hk : k + j = n) :
    linkChain (fun i => if i < n then u16 (i + 1) else 0) n (j + 1) k = List.range' k j := by
  induction j generalizing k with
  | zero =>
    have : k = n := by omega
    rw [this, linkChain_stop]
    rfl
  | succ j ih =>
    rw [linkChain_cons _ _ _ _ (by omega)]
    simp only [show k < n by omega, if_true]
    rw [u16_of_lt (by omega), ih (k + 1) (by omega)]
    rfl

/-- A freshly constructed chunk satisfies the invariant; all its blocks are free. -/
theorem EntityComponentChunk.new_Inv (chunkId : Nat) (pStorage : StoragePtr) (pArchetype : Nat)
    (a : EntityArchetype) (n chunkSize : Nat) (hn : n ≤ MAX_ENTITY_COUNT_PER_CHUNK) :
    (EntityComponentChunk.new chunkId pStorage pArchetype a n chunkSize).Inv
      ∧ (EntityComponentChunk.new chunkId pStorage pArchetype a n chunkSize).freeBlocks
          = List.range n := by
  have h1024 : MAX_ENTITY_COUNT_PER_CHUNK = 1024 := by decide
  have hu : u16 n = n := u16_of_lt (by omega)
  have hfb : (EntityComponentChunk.new chunkId pStorage pArchetype a n chunkSize).freeBlocks
      = List.range n := by
    unfold EntityComponentChunk.freeBlocks EntityComponentChunk.new
    simp only [hu]
    rw [linkChain_fresh n (by omega) n 0 (by omega), List.range_eq_range']
  refine ⟨?_, hfb⟩
  unfold EntityComponentChunk.Inv
  rw [hfb]
  simp only [EntityComponentChunk.new, hu, List.length_range, List.mem_range]
  refine ⟨trivial, hn, ?_, le_refl _, List.nodup_range n, fun _ h => h, ?_, by omega⟩
  · intro b hb
    simp [hb]
  · intro b hb
    simp [hb]

/-- How the first part of `Allocate` changes a storage that has no chunk with a
free block: a fresh chunk is appended and heads the chunk free list. -/
theorem EntityComponentStorage.addChunk_spec (s : EntityComponentStorage) (a : EntityArchetype)
    (hinv : s.Inv) (hhead : s.mChunkFreeHead = s.mChunkCount)
    (hroom : s.mChunkCount < MAX_CHUNK_COUNT_PER_STORAGE)
    (hn : 1 ≤ s.mEntityCountPerChunk) (ha : a.mComponentCount = s.mComponentCountPerEntity) :
    ∃ s1, s.addChunk a = some s1 ∧ s1.Inv
      ∧ s1.mChunkFreeHead = s.mChunkCount ∧ s1.mChunkCount = s.mChunkCount + 1
      ∧ s1.mContext = s.mContext ∧ s1.mIndex = s.mIndex ∧ s1.mArchetype = s.mArchetype
      ∧ s1.mEntityCountPerChunk = s.mEntityCountPerChunk
      ∧ s1.mComponentCountPerEntity = s.mComponentCountPerEntity
      ∧ s1.mChunkSize = s.mChunkSize
      ∧ (∀ i, i ≠ s.mChunkCount → s1.mChunks i = s.mChunks i)
      ∧ s1.mChunks s.mChunkCount
          = EntityComponentChunk.new s.mChunkCount s.this s.mArchetype a s.mEntityCountPerChunk
              s.mChunkSize := by
  obtain ⟨hcap, hcnt, hpc, hchunks, hlen, hnd, hmem, hiff⟩ := hinv
  have h32768 : MAX_CHUNK_COUNT_PER_STORAGE = 32768 := by decide
  have hempty : s.freeChunks = [] := by
    unfold EntityComponentStorage.freeChunks
    rw [hhead, linkChain_stop]
  obtain ⟨s0, hs0⟩ : ∃ s0,
      (if s.mChunkCount ≥ s.mChunkArrayCapacity then s.IncreaseCapacity else s) = s0 := ⟨_, rfl⟩
  have hcap2 : s0.mChunkArrayCapacity ∈
        [16, 32, 64, 128, 256, 512, 1024, 2048, 4096, 8192, 16384, 32768]
      ∧ s.mChunkCount < s0.mChunkArrayCapacity := by
    by_cases hge : s.mChunkCount ≥ s.mChunkArrayCapacity
    · rw [if_pos hge] at hs0
      subst hs0
      simp only [EntityComponentStorage.IncreaseCapacity, u16]
      simp only [List.mem_cons, List.mem_singleton, List.not_mem_nil, or_false] at hcap ⊢
      omega
    · rw [if_neg hge] at hs0
      subst hs0
      exact ⟨hcap, by omega⟩
  have hfields : s0.mChunkCount = s.mChunkCount ∧ s0.mChunkFreeHead = s.mChunkFreeHead
        ∧ s0.mChunks = s.mChunks ∧ s0.mChunkFreeList = s.mChunkFreeList
        ∧ s0.mContext = s.mContext ∧ s0.mIndex = s.mIndex ∧ s0.mArchetype = s.mArchetype
        ∧ s0.mEntityCountPerChunk = s.mEntityCountPerChunk
        ∧ s0.mComponentCountPerEntity = s.mComponentCountPerEntity
        ∧ s0.mChunkSize = s.mChunkSize := by
    by_cases hge : s.mChunkCount ≥ s.mChunkArrayCapacity
    · rw [if_pos hge] at hs0
      subst hs0
      simp [EntityComponentStorage.IncreaseCapacity]
    · rw [if_neg hge] at hs0
      subst hs0
      simp
  obtain ⟨f1, f2, f3, f4, f5, f6, f7, f8, f9, f10⟩ := hfields
  have hthis : s0.this = s.this := by
    unfold EntityComponentStorage.this
    rw [f5, f6]
  have hadd : s.addChunk a = some
      { s0 with
        mChunks := setAt s0.mChunks s0.mChunkCount
          (EntityComponentChunk.new s0.mChunkCount s0.this s0.mArchetype a
            s0.mEntityCountPerChunk s0.mChunkSize)
        mChunkCount := u16 (s0.mChunkCount + 1)
        mChunkFreeList := setAt s0.mChunkFreeList s0.mChunkFreeHead (u16 (s0.mChunkCount + 1)) } := by
    unfold EntityComponentStorage.addChunk
    simp only [hs0]
    rw [if_neg (by omega)]
  have hu : u16 (s.mChunkCount + 1) = s.mChunkCount + 1 := u16_of_lt (by omega)
  refine ⟨_, hadd, ?_, ?_, ?_, f5, f6, f7, f8, f9, f10, ?_, ?_⟩
  · have hnew := EntityComponentChunk.new_Inv s.mChunkCount s.this s.mArchetype a
      s.mEntityCountPerChunk s.mChunkSize hpc
    have hfc : EntityComponentStorage.freeChunks
        { s0 with
          mChunks := setAt s0.mChunks s0.mChunkCount
            (EntityComponentChunk.new s0.mChunkCount s0.this s0.mArchetype a
              s0.mEntityCountPerChunk s0.mChunkSize)
          mChunkCount := u16 (s0.mChunkCount + 1)
          mChunkFreeList := setAt s0.mChunkFreeList s0.mChunkFreeHead
            (u16 (s0.mChunkCount + 1)) } = [s.mChunkCount] := by
      unfold EntityComponentStorage.freeChunks
      simp only [f1, f2, hhead, hu]
      rw [linkChain_cons _ _ _ _ (by omega), setAt_same, linkChain_stop]
    unfold EntityComponentStorage.Inv
    rw [hfc]
    simp only [f1, f3, f5, f6, f7, f8, f9, f10, EntityComponentStorage.this, hu,
      List.length_singleton, List.mem_singleton, List.nodup_singleton]
    refine ⟨hcap2.1, by omega, hpc, ?_, by omega, trivial, fun i hi => by omega, ?_⟩
    · intro i hi
      by_cases hic : i = s.mChunkCount
      · subst hic
        simp only [setAt_same]
        refine ⟨hnew.1, rfl, rfl, rfl, ?_, ha⟩
        simp only [EntityComponentChunk.new]
        exact u16_of_lt (by
          have h1024 : MAX_ENTITY_COUNT_PER_CHUNK = 1024 := by decide
          omega)
      · rw [setAt_other _ _ _ _ hic]
        have := hchunks i (by omega)
        unfold EntityComponentStorage.this at this
        exact this
    · intro i hi
      by_cases hic : i = s.mChunkCount
      · subst hic
        simp only [setAt_same, true_iff]
        have hfb := hnew.2
        unfold EntityComponentChunk.IsFull
        simp only [EntityComponentChunk.new, decide_eq_false_iff_not]
        rw [u16_of_lt (by
          have h1024 : MAX_ENTITY_COUNT_PER_CHUNK = 1024 := by decide
          omega)]
        omega
      · rw [setAt_other _ _ _ _ hic]
        simp only [hic, false_iff]
        have := (hiff i (by omega)).not
        rw [hempty] at this
        simpa using this
  · simp only [f2, hhead]
  · simp only [f1, hu]
  · intro i hi
    simp only [f1, f3]
    exact setAt_other _ _ _ _ hi
  · simp only [f1, f3, f7, f8, f10, hthis, setAt_same]

/-- In a storage that satisfies its invariant and has a chunk with a free block,
`Allocate` takes the record at the head of the free list of the head chunk. -/
theorem EntityComponentStorage.allocateInHead_spec (s : EntityComponentStorage)
    (a : EntityArchetype) (b : Bool) (hinv : s.Inv) (hne : s.mChunkFreeHead ≠ s.mChunkCount) :
    ∃ t p, s.allocateInHead a b = some (t, p) ∧ t.Inv ∧ s.AllocatedAt b p t
      ∧ t.mChunkCount = s.mChunkCount ∧ p.mChunkIndex = s.mChunkFreeHead := by
  obtain ⟨hcap, hcnt, hpc, hchunks, hlen, hnd, hmem, hiff⟩ := hinv
  have hL : s.freeChunks = s.mChunkFreeHead
      :: linkChain s.mChunkFreeList s.mChunkCount s.mChunkCount
          (s.mChunkFreeList s.mChunkFreeHead) := by
    unfold EntityComponentStorage.freeChunks
    rw [linkChain_cons _ _ _ _ hne]
  have hhead : s.mChunkFreeHead < s.mChunkCount := hmem _ (by rw [hL]; simp)
  have hnf : (s.mChunks s.mChunkFreeHead).IsFull = false :=
    (hiff _ hhead).mp (by rw [hL]; simp)
  obtain ⟨hcinv, hcid, hcst, hcar, hcbc, hccc⟩ := hchunks _ hhead
  have hcne : (s.mChunks s.mChunkFreeHead).mFreeHead ≠ (s.mChunks s.mChunkFreeHead).mFreeTail := by
    simpa [EntityComponentChunk.IsFull] using hnf
  obtain ⟨hflt, hfval, _, _⟩ := hcinv.head _ hcne
  obtain ⟨d, hd, hA, hbuf⟩ := (s.mChunks s.mChunkFreeHead).Allocate_chunk_spec a b hcne
    (hcinv.2.2.1 _ hflt).1
  obtain ⟨hdinv, _⟩ := hA.keeps_Inv hcinv hcne
  rw [hL] at hlen hnd hmem hiff
  simp only [List.length_cons, List.nodup_cons, List.mem_cons] at hlen hnd hmem hiff
  have hres : s.allocateInHead a b = some
      (if d.IsFull then
          { s with mChunks := setAt s.mChunks s.mChunkFreeHead d
                   mChunkFreeHead := s.mChunkFreeList s.mChunkFreeHead }
        else { s with mChunks := setAt s.mChunks s.mChunkFreeHead d },
       (s.mChunks s.mChunkFreeHead).entityPtr (s.mChunks s.mChunkFreeHead).mFreeHead) := by
    unfold EntityComponentStorage.allocateInHead
    rw [hd]
  have hchunk : ∀ i, i < s.mChunkCount →
      (setAt s.mChunks s.mChunkFreeHead d i).Inv
        ∧ (setAt s.mChunks s.mChunkFreeHead d i).mChunkId = i
        ∧ (setAt s.mChunks s.mChunkFreeHead d i).mEntityComponentStorage = s.this
        ∧ (setAt s.mChunks s.mChunkFreeHead d i).mArchetype = s.mArchetype
        ∧ (setAt s.mChunks s.mChunkFreeHead d i).mBlockCount = s.mEntityCountPerChunk
        ∧ (setAt s.mChunks s.mChunkFreeHead d i).mComponentCount = s.mComponentCountPerEntity := by
    intro i hi
    by_cases hih : i = s.mChunkFreeHead
    · subst hih
      rw [setAt_same, hA.mChunkId, hA.mEntityComponentStorage, hA.mArchetype, hA.mBlockCount,
        hA.mComponentCount]
      exact ⟨hdinv, hcid, hcst, hcar, hcbc, hccc⟩
    · rw [setAt_other _ _ _ _ hih]
      exact hchunks i hi
  refine ⟨_, _, hres, ?_, ?_, ?_, ?_⟩
  · by_cases hfull : d.IsFull = true
    · rw [if_pos hfull]
      have hfc : EntityComponentStorage.freeChunks
          { s with mChunks := setAt s.mChunks s.mChunkFreeHead d
                   mChunkFreeHead := s.mChunkFreeList s.mChunkFreeHead }
          = linkChain s.mChunkFreeList s.mChunkCount s.mChunkCount
              (s.mChunkFreeList s.mChunkFreeHead) := by
        show linkChain s.mChunkFreeList s.mChunkCount (s.mChunkCount + 1)
            (s.mChunkFreeList s.mChunkFreeHead)
          = linkChain s.mChunkFreeList s.mChunkCount s.mChunkCount
              (s.mChunkFreeList s.mChunkFreeHead)
        exact linkChain_fuel s.mChunkFreeList s.mChunkCount s.mChunkCount (s.mChunkCount + 1)
          (s.mChunkFreeList s.mChunkFreeHead) (by omega) (by omega)
      unfold EntityComponentStorage.Inv
      rw [hfc]
      refine ⟨hcap, hcnt, hpc, hchunk, ?_, hnd.2, fun i hi => hmem i (Or.inr hi), ?_⟩
      · show _ ≤ s.mChunkCount
        omega
      · intro i hi
        show _ ↔ (setAt s.mChunks s.mChunkFreeHead d i).IsFull = false
        by_cases hih : i = s.mChunkFreeHead
        · subst hih
          simp only [setAt_same, hfull, hnd.1]
          simp
        · simp only [setAt_other _ _ _ _ hih]
          rw [← hiff i hi]
          simp [hih]
    · rw [if_neg hfull]
      have hfc : EntityComponentStorage.freeChunks
          { s with mChunks := setAt s.mChunks s.mChunkFreeHead d }
          = s.mChunkFreeHead :: linkChain s.mChunkFreeList s.mChunkCount s.mChunkCount
              (s.mChunkFreeList s.mChunkFreeHead) := hL
      unfold EntityComponentStorage.Inv
      rw [hfc]
      refine ⟨hcap, hcnt, hpc, hchunk, ?_, List.nodup_cons.mpr hnd, ?_, ?_⟩
      · show _ ≤ s.mChunkCount
        simp only [List.length_cons]
        omega
      · intro i hi
        exact hmem i (List.mem_cons.mp hi)
      · intro i hi
        show _ ↔ (setAt s.mChunks s.mChunkFreeHead d i).IsFull = false
        rw [List.mem_cons]
        by_cases hih : i = s.mChunkFreeHead
        · subst hih
          simp only [setAt_same, true_or, true_iff]
          simpa using hfull
        · simp only [setAt_other _ _ _ _ hih]
          exact hiff i hi
  · have hchunks2 : ∀ t : EntityComponentStorage,
        t = (if d.IsFull then
          { s with mChunks := setAt s.mChunks s.mChunkFreeHead d
                   mChunkFreeHead := s.mChunkFreeList s.mChunkFreeHead }
          else { s with mChunks := setAt s.mChunks s.mChunkFreeHead d }) →
        t.mChunks = setAt s.mChunks s.mChunkFreeHead d ∧ t.mContext = s.mContext
          ∧ t.mIndex = s.mIndex ∧ t.mArchetype = s.mArchetype
          ∧ t.mEntityCountPerChunk = s.mEntityCountPerChunk
          ∧ t.mComponentCountPerEntity = s.mComponentCountPerEntity
          ∧ t.mChunkSize = s.mChunkSize ∧ t.mChunkCount = s.mChunkCount := by
      intro t ht
      cases hf : d.IsFull <;> rw [hf] at ht <;> subst ht <;> simp
    obtain ⟨g1, g2, g3, g4, g5, g6, g7, g8⟩ := hchunks2 _ rfl
    constructor
    · exact g2
    · exact g3
    · exact g4
    · exact g5
    · exact g6
    · exact g7
    · rw [g8]
    · simp only [EntityComponentChunk.entityPtr]
      exact hcst
    · rw [g8]
      simp only [EntityComponentChunk.entityPtr, hcid]
      exact hhead
    · rw [g5]
      simp only [EntityComponentChunk.entityPtr, ← hcbc]
      exact hflt
    · intro _
      simp only [EntityComponentStorage.header, EntityComponentChunk.entityPtr, hcid]
      exact hfval
    · simp only [EntityComponentStorage.header, EntityComponentChunk.entityPtr, hcid, g1,
        setAt_same, hA.mEntitiesBuffer]
    · intro _
      simp only [EntityComponentStorage.header, EntityComponentChunk.entityPtr, hcid, g1,
        setAt_same, hA.mEntitiesBuffer]
    · intro hle
      simp only [EntityComponentChunk.entityPtr, hcid] at hle
      omega
    · intro ch blk hch hor
      simp only [EntityComponentChunk.entityPtr, hcid] at hor
      rw [g1]
      by_cases hc : ch = s.mChunkFreeHead
      · subst hc
        rw [setAt_same, hA.mEntitiesBuffer, setAt_other]
        rcases hor with hor | hor
        · exact absurd rfl hor
        · exact hor
      · rw [setAt_other _ _ _ _ hc]
    · intro hb ch hch
      rw [g1]
      by_cases hc : ch = s.mChunkFreeHead
      · subst hc
        rw [setAt_same, hbuf hb]
      · rw [setAt_other _ _ _ _ hc]
    · intro _
      rfl
    · simp only [EntityComponentChunk.entityPtr, hcid, g1, setAt_same]
      cases hf : d.IsFull with
      | true => exact Or.inr rfl
      | false => exact Or.inl (by simp)
  · cases hf : d.IsFull <;> simp
  · simp only [EntityComponentChunk.entityPtr, hcid]

/-- `Allocate` of a storage: in a storage that satisfies its invariant, whose
chunks hold at least one record, and that has a chunk with a free block or room
for one more chunk, `Allocate` returns a record that was free, and the invariant
holds afterwards. -/
theorem EntityComponentStorage.Allocate_spec (s : EntityComponentStorage) (a : EntityArchetype)
    (b : Bool) (hinv : s.Inv) (hn : 1 ≤ s.mEntityCountPerChunk)
    (ha : a.mComponentCount = s.mComponentCountPerEntity)
    (hroom : s.mChunkFreeHead ≠ s.mChunkCount ∨ s.mChunkCount < MAX_CHUNK_COUNT_PER_STORAGE) :
    ∃ t p, s.Allocate a b = some (t, p) ∧ t.Inv ∧ s.AllocatedAt b p t := by
  by_cases hne : s.mChunkFreeHead = s.mChunkCount
  · have hroom2 : s.mChunkCount < MAX_CHUNK_COUNT_PER_STORAGE := by
      rcases hroom with h | h
      · exact absurd hne h
      · exact h
    obtain ⟨s1, hadd, hinv1, e1, e2, e3, e4, e5, e6, e7, e8, hold, hnew⟩ :=
      s.addChunk_spec a hinv hne hroom2 hn ha
    obtain ⟨t, p, hres, htinv, hrel, hcnt, hpc⟩ :=
      s1.allocateInHead_spec a b hinv1 (by omega)
    refine ⟨t, p, ?_, htinv, ?_⟩
    · unfold EntityComponentStorage.Allocate
      rw [if_pos hne, hadd]
      exact hres
    · rw [e1] at hpc
      have hblk : p.mBlockIndex < s.mEntityCountPerChunk := by
        have := hrel.block_lt
        rw [hrel.mEntityCountPerChunk, e6] at this
        exact this
      have hu : u16 s.mEntityCountPerChunk = s.mEntityCountPerChunk :=
        u16_of_lt (by
          have h1024 : MAX_ENTITY_COUNT_PER_CHUNK = 1024 := by decide
          have := hinv.2.2.1
          omega)
      constructor
      · rw [hrel.mContext, e3]
      · rw [hrel.mIndex, e4]
      · rw [hrel.mArchetype, e5]
      · rw [hrel.mEntityCountPerChunk, e6]
      · rw [hrel.mComponentCountPerEntity, e7]
      · rw [hrel.mChunkSize, e8]
      · have := hrel.count_le
        omega
      · rw [hrel.storage]
        unfold EntityComponentStorage.this
        rw [e3, e4]
      · exact hrel.chunk_lt
      · rw [hrel.mEntityCountPerChunk, e6]
        exact hblk
      · intro h
        omega
      · exact hrel.valid
      · intro h
        omega
      · intro _
        have := hrel.gen (by omega)
        rw [this]
        simp only [EntityComponentStorage.header, hpc, hnew, EntityComponentChunk.new, hu, hblk,
          if_true]
        norm_num
      · intro ch blk hch hor
        rw [hrel.headers ch blk (by omega) hor, hold ch (by omega)]
      · intro hb ch hch
        rw [hrel.buffers hb ch (by omega), hold ch (by omega)]
      · intro h
        exact absurd hne h
      · exact hrel.chunk_head
  · obtain ⟨t, p, hres, htinv, hrel, _, _⟩ := s.allocateInHead_spec a b hinv hne
    refine ⟨t, p, ?_, htinv, hrel⟩
    unfold EntityComponentStorage.Allocate
    rw [if_neg hne]
    exact hres

/-- `Deallocate` of a storage: for a valid record of a storage that satisfies its
invariant, `Deallocate` returns, the record is invalid afterwards, and the
invariant holds again. -/
theorem EntityComponentStorage.Deallocate_spec (s : EntityComponentStorage) (p : EntityPtr)
    (b : Bool) (hinv : s.Inv) (hch : p.mChunkIndex < s.mChunkCount)
    (hbl : p.mBlockIndex < s.mEntityCountPerChunk) (hv : (s.header p).mValid = true) :
    ∃ t, s.Deallocate p b = some t ∧ t.Inv ∧ s.ReleasedAt p t := by
  obtain ⟨hcap, hcnt, hpc, hchunks, hlen, hnd, hmem, hiff⟩ := hinv
  obtain ⟨hcinv, hcid, hcst, hcar, hcbc, hccc⟩ := hchunks _ hch
  obtain ⟨d, hd, hD⟩ := (s.mChunks p.mChunkIndex).Deallocate_chunk_spec p b hcid.symm
  obtain ⟨hdinv, hdfb⟩ := hD.gives_Inv hcinv (by omega) hv
  have hdnf : d.IsFull = false := by
    have hcons := hdfb
    unfold EntityComponentChunk.freeBlocks at hcons
    by_cases hf : d.mFreeHead = d.mFreeTail
    · rw [hf, linkChain_stop] at hcons
      cases hcons
    · simpa [EntityComponentChunk.IsFull] using hf
  have hres : s.Deallocate p b = some
      (if (s.mChunks p.mChunkIndex).IsFull then
          { s with mChunks := setAt s.mChunks p.mChunkIndex d
                   mChunkFreeList := setAt s.mChunkFreeList p.mChunkIndex s.mChunkFreeHead
                   mChunkFreeHead := p.mChunkIndex }
        else { s with mChunks := setAt s.mChunks p.mChunkIndex d }) := by
    unfold EntityComponentStorage.Deallocate
    rw [hd]
  have hchunk : ∀ i, i < s.mChunkCount →
      (setAt s.mChunks p.mChunkIndex d i).Inv
        ∧ (setAt s.mChunks p.mChunkIndex d i).mChunkId = i
        ∧ (setAt s.mChunks p.mChunkIndex d i).mEntityComponentStorage = s.this
        ∧ (setAt s.mChunks p.mChunkIndex d i).mArchetype = s.mArchetype
        ∧ (setAt s.mChunks p.mChunkIndex d i).mBlockCount = s.mEntityCountPerChunk
        ∧ (setAt s.mChunks p.mChunkIndex d i).mComponentCount = s.mComponentCountPerEntity := by
    intro i hi
    by_cases hih : i = p.mChunkIndex
    · subst hih
      rw [setAt_same, hD.mChunkId, hD.mEntityComponentStorage, hD.mArchetype, hD.mBlockCount,
        hD.mComponentCount]
      exact ⟨hdinv, hcid, hcst, hcar, hcbc, hccc⟩
    · rw [setAt_other _ _ _ _ hih]
      exact hchunks i hi
  refine ⟨_, hres, ?_, ?_⟩
  · by_cases hfull : (s.mChunks p.mChunkIndex).IsFull = true
    · rw [if_pos hfull]
      have hnot : p.mChunkIndex ∉ s.freeChunks := by
        intro hm
        have := (hiff _ hch).mp hm
        rw [hfull] at this
        cases this
      have hlen2 : s.freeChunks.length < s.mChunkCount := by
        have hsub : s.freeChunks ⊆ (List.range s.mChunkCount).erase p.mChunkIndex := by
          intro x hx
          rw [List.mem_erase_of_ne (by rintro rfl; exact hnot hx)]
          exact List.mem_range.mpr (hmem x hx)
        have := (List.subperm_of_subset hnd hsub).length_le
        rw [List.length_erase_of_mem (List.mem_range.mpr hch), List.length_range] at this
        omega
      have hfuel : linkChain s.mChunkFreeList s.mChunkCount s.mChunkCount s.mChunkFreeHead
          = s.freeChunks := linkChain_fuel_le _ _ _ _ _ hlen2 (by omega)
      have hfc : EntityComponentStorage.freeChunks
          { s with mChunks := setAt s.mChunks p.mChunkIndex d
                   mChunkFreeList := setAt s.mChunkFreeList p.mChunkIndex s.mChunkFreeHead
                   mChunkFreeHead := p.mChunkIndex }
          = p.mChunkIndex :: s.freeChunks := by
        show linkChain (setAt s.mChunkFreeList p.mChunkIndex s.mChunkFreeHead) s.mChunkCount
          (s.mChunkCount + 1) p.mChunkIndex = _
        rw [linkChain_cons _ _ _ _ (by omega), setAt_same,
          linkChain_congr s.mChunkFreeList (setAt s.mChunkFreeList p.mChunkIndex s.mChunkFreeHead),
          hfuel]
        intro x hx
        rw [setAt_other]
        rintro rfl
        rw [hfuel] at hx
        exact hnot hx
      unfold EntityComponentStorage.Inv
      rw [hfc]
      refine ⟨hcap, hcnt, hpc, hchunk, ?_, List.nodup_cons.mpr ⟨hnot, hnd⟩, ?_, ?_⟩
      · show _ ≤ s.mChunkCount
        simp only [List.length_cons]
        omega
      · intro i hi
        rcases List.mem_cons.mp hi with hi | hi
        · rw [hi]; exact hch
        · exact hmem i hi
      · intro i hi
        show _ ↔ (setAt s.mChunks p.mChunkIndex d i).IsFull = false
        rw [List.mem_cons]
        by_cases hih : i = p.mChunkIndex
        · subst hih
          simp only [setAt_same, true_or, true_iff]
          exact hdnf
        · simp only [setAt_other _ _ _ _ hih, hih, false_or]
          exact hiff i hi
    · rw [if_neg hfull]
      have hfc : EntityComponentStorage.freeChunks
          { s with mChunks := setAt s.mChunks p.mChunkIndex d } = s.freeChunks := rfl
      unfold EntityComponentStorage.Inv
      rw [hfc]
      refine ⟨hcap, hcnt, hpc, hchunk, hlen, hnd, hmem, ?_⟩
      intro i hi
      show _ ↔ (setAt s.mChunks p.mChunkIndex d i).IsFull = false
      by_cases hih : i = p.mChunkIndex
      · subst hih
        simp only [setAt_same, hdnf, iff_true]
        apply (hiff _ hch).mpr
        simpa using hfull
      · simp only [setAt_other _ _ _ _ hih]
        exact hiff i hi
  · have hchunks2 : ∀ t : EntityComponentStorage,
        t = (if (s.mChunks p.mChunkIndex).IsFull then
          { s with mChunks := setAt s.mChunks p.mChunkIndex d
                   mChunkFreeList := setAt s.mChunkFreeList p.mChunkIndex s.mChunkFreeHead
                   mChunkFreeHead := p.mChunkIndex }
          else { s with mChunks := setAt s.mChunks p.mChunkIndex d }) →
        t.mChunks = setAt s.mChunks p.mChunkIndex d ∧ t.mContext = s.mContext
          ∧ t.mIndex = s.mIndex ∧ t.mArchetype = s.mArchetype
          ∧ t.mEntityCountPerChunk = s.mEntityCountPerChunk
          ∧ t.mComponentCountPerEntity = s.mComponentCountPerEntity
          ∧ t.mChunkSize = s.mChunkSize ∧ t.mChunkCount = s.mChunkCount := by
      intro t ht
      cases hf : (s.mChunks p.mChunkIndex).IsFull <;> rw [hf] at ht <;> subst ht <;> simp
    obtain ⟨g1, g2, g3, g4, g5, g6, g7, g8⟩ := hchunks2 _ rfl
    constructor
    · exact g2
    · exact g3
    · exact g4
    · exact g5
    · exact g6
    · exact g7
    · exact g8
    · simp only [EntityComponentStorage.header, g1, setAt_same, hD.mEntitiesBuffer]
    · simp only [EntityComponentStorage.header, g1, setAt_same, hD.mEntitiesBuffer]
    · intro ch blk hor
      rw [g1]
      by_cases hc : ch = p.mChunkIndex
      · subst hc
        rw [setAt_same, hD.mEntitiesBuffer, setAt_other]
        rcases hor with hor | hor
        · exact absurd rfl hor
        · exact hor
      · rw [setAt_other _ _ _ _ hc]
    · rw [g1, setAt_same, hD.mFreeHead]
    · cases hf : (s.mChunks p.mChunkIndex).IsFull with
      | true => exact Or.inl (by simp)
      | false => exact Or.inr ⟨rfl, by simp⟩

/-! ## Generations along a sequence of allocations and releases -/

/-- An allocation that returns had a chunk with a free block or room for one more
chunk. -/
theorem EntityComponentStorage.Allocate_room (s : EntityComponentStorage) (a : EntityArchetype)
    (b : Bool) (hinv : s.Inv) (r : EntityComponentStorage × EntityPtr)
    (h : s.Allocate a b = some r) :
    s.mChunkFreeHead ≠ s.mChunkCount ∨ s.mChunkCount < MAX_CHUNK_COUNT_PER_STORAGE := by
  by_contra hno
  have h1 : s.mChunkFreeHead = s.mChunkCount := by
    by_contra h1
    exact hno (Or.inl h1)
  have h2 : ¬ s.mChunkCount < MAX_CHUNK_COUNT_PER_STORAGE := fun h2 => hno (Or.inr h2)
  have hM : MAX_CHUNK_COUNT_PER_STORAGE = 32768 := by decide
  obtain ⟨hcap, hcnt, _⟩ := hinv
  simp only [List.mem_cons, List.mem_singleton, List.not_mem_nil, or_false] at hcap
  have hc : s.mChunkArrayCapacity = 32768 := by omega
  have hk : s.mChunkCount = 32768 := by omega
  have hadd : s.addChunk a = none := by
    unfold EntityComponentStorage.addChunk EntityComponentStorage.IncreaseCapacity
    simp [hc, hk, u16]
  unfold EntityComponentStorage.Allocate at h
  rw [if_pos h1, hadd] at h
  cases h

/-- An allocation that returns, in a storage that satisfies its invariant: the
invariant holds afterwards and the returned record was free. -/
theorem EntityComponentStorage.Allocate_some (s : EntityComponentStorage) (a : EntityArchetype)
    (b : Bool) (hinv : s.Inv) (hn : 1 ≤ s.mEntityCountPerChunk)
    (ha : a.mComponentCount = s.mComponentCountPerEntity) (t : EntityComponentStorage)
    (p : EntityPtr) (h : s.Allocate a b = some (t, p)) :
    t.Inv ∧ s.AllocatedAt b p t := by
  obtain ⟨t2, p2, h2, hinv2, hrel⟩ :=
    s.Allocate_spec a b hinv hn ha (s.Allocate_room a b hinv _ h)
  rw [h2] at h
  cases h
  exact ⟨hinv2, hrel⟩

/-- Along a sequence of allocations and releases that returns, the invariant of the
storage is kept, chunks are only added, and the generation of a slot that existed
at the start grows by one, modulo 2^16, each time an allocation returns the slot. -/
theorem EntityComponentStorage.run_gen (a : EntityArchetype) (p : EntityPtr)
    (ops : List StorageOp) :
    ∀ (s : EntityComponentStorage) (r : EntityComponentStorage × List EntityPtr),
      s.Inv → 1 ≤ s.mEntityCountPerChunk → a.mComponentCount = s.mComponentCountPerEntity →
      p.mStorage = s.this → p.mChunkIndex < s.mChunkCount →
      p.mBlockIndex < s.mEntityCountPerChunk → s.run a ops = some r →
      r.1.Inv ∧ r.1.this = s.this ∧ r.1.mEntityCountPerChunk = s.mEntityCountPerChunk
        ∧ s.mChunkCount ≤ r.1.mChunkCount
        ∧ (r.1.header p).mGenID = ((s.header p).mGenID + r.2.count p) % 2 ^ 16
        ∧ ((s.header p).mValid = false → r.2.count p = 0 → (r.1.header p).mValid = false) := by
  induction ops with
  | nil =>
    intro s r hinv hn ha hst hch hbl hrun
    simp only [EntityComponentStorage.run, Option.some.injEq] at hrun
    subst hrun
    refine ⟨hinv, rfl, rfl, le_refl _, ?_, fun h _ => h⟩
    obtain ⟨_, _, _, hchunks, _⟩ := hinv
    obtain ⟨hcinv, _, _, _, hbc, _⟩ := hchunks _ hch
    obtain ⟨_, _, hhdr, _⟩ := hcinv
    have hg : (s.header p).mGenID < 2 ^ 16 := (hhdr _ (by omega)).2.2.2
    simp only [List.count_nil, Nat.add_zero]
    omega
  | cons op ops ih =>
    intro s r hinv hn ha hst hch hbl hrun
    cases op with
    | allocate b =>
      simp only [EntityComponentStorage.run] at hrun
      cases hall : s.Allocate a b with
      | none =>
        rw [hall] at hrun
        cases hrun
      | some tq =>
        obtain ⟨t, q⟩ := tq
        rw [hall] at hrun
        simp only [Option.map_eq_some'] at hrun
        obtain ⟨r1, hr1, hr⟩ := hrun
        subst hr
        obtain ⟨htinv, hrel⟩ := s.Allocate_some a b hinv hn ha t q hall
        have hthis : t.this = s.this := by
          unfold EntityComponentStorage.this
          rw [hrel.mContext, hrel.mIndex]
        obtain ⟨g1, g2, g3, g4, g5, g6⟩ := ih t r1 htinv (by rw [hrel.mEntityCountPerChunk]; exact hn)
          (by rw [hrel.mComponentCountPerEntity]; exact ha) (by rw [hthis]; exact hst)
          (lt_of_lt_of_le hch hrel.count_le) (by rw [hrel.mEntityCountPerChunk]; exact hbl) hr1
        show r1.1.Inv ∧ r1.1.this = s.this
          ∧ r1.1.mEntityCountPerChunk = s.mEntityCountPerChunk
          ∧ s.mChunkCount ≤ r1.1.mChunkCount
          ∧ (r1.1.header p).mGenID = ((s.header p).mGenID + (q :: r1.2).count p) % 2 ^ 16
          ∧ ((s.header p).mValid = false → (q :: r1.2).count p = 0 →
              (r1.1.header p).mValid = false)
        refine ⟨g1, by rw [g2, hthis], by rw [g3, hrel.mEntityCountPerChunk],
          le_trans hrel.count_le g4, ?_⟩
        rw [g5]
        by_cases hqp : q = p
        · subst hqp
          rw [hrel.gen hch, List.count_cons_self]
          refine ⟨by omega, fun _ h0 => ?_⟩
          omega
        · have hne : p.mChunkIndex ≠ q.mChunkIndex ∨ p.mBlockIndex ≠ q.mBlockIndex := by
            by_contra hno
            push_neg at hno
            apply hqp
            have h3 : q.mStorage = p.mStorage := by rw [hrel.storage, hst]
            cases q
            cases p
            simp only [EntityPtr.mk.injEq]
            simp only at h3 hno
            exact ⟨h3, hno.1.symm, hno.2.symm⟩
          have hh : t.header p = s.header p := by
            unfold EntityComponentStorage.header
            rw [hrel.headers _ _ hch hne]
          rw [hh, List.count_cons_of_ne (Ne.symm hqp)]
          exact ⟨rfl, fun h1 h0 => g6 (by rw [hh]; exact h1) h0⟩
    | release q =>
      simp only [EntityComponentStorage.run] at hrun
      by_cases hlive : s.live q
      · rw [if_pos hlive] at hrun
        obtain ⟨hqc, hqb, hqv⟩ := hlive
        obtain ⟨t, hd, htinv, hrel⟩ := s.Deallocate_spec q true hinv hqc hqb hqv
        rw [hd] at hrun
        simp only at hrun
        have hthis : t.this = s.this := by
          unfold EntityComponentStorage.this
          rw [hrel.mContext, hrel.mIndex]
        obtain ⟨g1, g2, g3, g4, g5, g6⟩ := ih t r htinv (by rw [hrel.mEntityCountPerChunk]; exact hn)
          (by rw [hrel.mComponentCountPerEntity]; exact ha) (by rw [hthis]; exact hst)
          (by rw [hrel.mChunkCount]; exact hch) (by rw [hrel.mEntityCountPerChunk]; exact hbl)
          hrun
        refine ⟨g1, by rw [g2, hthis], by rw [g3, hrel.mEntityCountPerChunk],
          by rw [← hrel.mChunkCount]; exact g4, ?_⟩
        rw [g5]
        by_cases hsame : p.mChunkIndex = q.mChunkIndex ∧ p.mBlockIndex = q.mBlockIndex
        · have e1 : t.header p = t.header q := by
            unfold EntityComponentStorage.header
            rw [hsame.1, hsame.2]
          have e2 : s.header p = s.header q := by
            unfold EntityComponentStorage.header
            rw [hsame.1, hsame.2]
          rw [e1, e2, hrel.gen]
          refine ⟨rfl, fun h1 _ => ?_⟩
          rw [hqv] at h1
          cases h1
        · have hne : p.mChunkIndex ≠ q.mChunkIndex ∨ p.mBlockIndex ≠ q.mBlockIndex := by
            by_contra hno
            push_neg at hno
            exact hsame hno
          have hh : t.header p = s.header p := by
            unfold EntityComponentStorage.header
            rw [hrel.headers _ _ hne]
          rw [hh]
          exact ⟨rfl, fun h1 h0 => g6 (by rw [hh]; exact h1) h0⟩
      · rw [if_neg hlive] at hrun
        cases hrun

/-- What the invariant gives for a pointer to a storage of a context. -/
theorem World.storage_path {w : World} {q : StoragePtr} {s : EntityComponentStorage}
    (hinv : w.Inv) (hctx : q.mContext < MAX_CONTEXT_COUNT) (hs : w.storage q = some s) :
    ∃ c, w.mEntityContexts q.mContext = some c
      ∧ c.mEntityComponentStorageList[q.mIndex]? = some s
      ∧ c.mContextId = q.mContext
      ∧ q.mIndex < MAX_STORAGE_COUNT_PER_CONTEXT
      ∧ w.InvStorage q.mContext q.mIndex s := by
  obtain ⟨c, hc, hs2⟩ := (w.storage_eq_some_iff q s).mp hs
  have hlt : q.mIndex < c.mEntityComponentStorageList.length := by
    by_contra hge
    rw [List.getElem?_eq_none (by omega)] at hs2
    cases hs2
  obtain ⟨h1, h2, h3⟩ := hinv.2.2 _ hctx c hc
  exact ⟨c, hc, hs2, h1, by omega, h3 _ hlt s hs2⟩

/-- What `EntityContext::GetEntity` returns for an identifier that packs the path of
a slot `p` of a storage of the context with a generation `g`: the record in the
slot when it is valid and has the generation `g`, and null otherwise. -/
theorem EntityContext.GetEntity_pack (c : EntityContext) (s : EntityComponentStorage)
    (p : EntityPtr) (g ctx : Nat)
    (hs : c.mEntityComponentStorageList[p.mStorage.mIndex]? = some s) (hinv : s.Inv)
    (hthis : s.this = p.mStorage) (hg : g < 2 ^ 16) (hctx : ctx < 2 ^ 8)
    (hidx : p.mStorage.mIndex < 2 ^ 10) (hch : p.mChunkIndex < s.mChunkCount)
    (hbl : p.mBlockIndex < s.mEntityCountPerChunk) :
    c.GetEntity (packEntityID g ctx p.mStorage.mIndex p.mChunkIndex p.mBlockIndex)
      = if (s.header p).mValid = true ∧ (s.header p).mGenID = g then Lookup.found p
        else Lookup.null := by
  obtain ⟨hcap, hcnt, hpc, hchunks, _⟩ := hinv
  obtain ⟨hcinv, hcid, hcst, _, hbc, _⟩ := hchunks _ hch
  simp only [List.mem_cons, List.mem_singleton, List.not_mem_nil, or_false] at hcap
  have hM : MAX_ENTITY_COUNT_PER_CHUNK = 1024 := by decide
  have hparse := ParseEntityID_pack g ctx p.mStorage.mIndex p.mChunkIndex p.mBlockIndex hg hctx
    hidx (by omega) (by omega)
  have hptr : (s.mChunks p.mChunkIndex).entityPtr p.mBlockIndex = p := by
    unfold EntityComponentChunk.entityPtr
    rw [hcst, hcid, hthis]
  unfold EntityContext.GetEntity
  simp only [hparse.1, hs]
  unfold EntityComponentStorage.GetEntity
  rw [if_neg (by omega), if_neg (by omega), hptr]
  unfold EntityComponentStorage.header
  cases hv : ((s.mChunks p.mChunkIndex).mEntitiesBuffer p.mBlockIndex).mValid with
  | false => simp
  | true =>
    simp only [Bool.not_true, Bool.false_eq_true, if_false]
    rw [if_neg (by omega)]
    by_cases hgen : ((s.mChunks p.mChunkIndex).mEntitiesBuffer p.mBlockIndex).mGenID = g
    · simp [hgen]
    · simp [hgen]

/-- When the slot `p` is the free block at the head of the chunk at the head of the
chunk free list, the sequence `reuseOps p n` returns, every one of its `n + 1`
allocations returns `p`, and `p` is valid at the end with its generation advanced
`n + 1` times modulo 2^16. -/
theorem EntityComponentStorage.run_reuseOps (a : EntityArchetype) (p : EntityPtr) (n : Nat) :
    ∀ (s : EntityComponentStorage), s.Inv → 1 ≤ s.mEntityCountPerChunk →
      a.mComponentCount = s.mComponentCountPerEntity → p.mStorage = s.this →
      p.mChunkIndex < s.mChunkCount → s.mChunkFreeHead = p.mChunkIndex →
      (s.mChunks p.mChunkIndex).mFreeHead = p.mBlockIndex →
      ∃ s1, s.run a (reuseOps p n) = some (s1, List.replicate (n + 1) p)
        ∧ s1.Inv ∧ s1.this = s.this ∧ p.mChunkIndex < s1.mChunkCount
        ∧ s1.mEntityCountPerChunk = s.mEntityCountPerChunk
        ∧ p.mBlockIndex < s1.mEntityCountPerChunk
        ∧ (s1.header p).mValid = true
        ∧ (s1.header p).mGenID = ((s.header p).mGenID + (n + 1)) % 2 ^ 16 := by
  have step : ∀ (s : EntityComponentStorage), s.Inv → 1 ≤ s.mEntityCountPerChunk →
      a.mComponentCount = s.mComponentCountPerEntity → p.mStorage = s.this →
      p.mChunkIndex < s.mChunkCount → s.mChunkFreeHead = p.mChunkIndex →
      (s.mChunks p.mChunkIndex).mFreeHead = p.mBlockIndex →
      ∃ t, s.Allocate a true = some (t, p) ∧ t.Inv ∧ s.AllocatedAt true p t := by
    intro s hinv hn ha hst hch hhead hfree
    have hne : s.mChunkFreeHead ≠ s.mChunkCount := by omega
    obtain ⟨t, q, hall, htinv, hrel⟩ := s.Allocate_spec a true hinv hn ha (Or.inl hne)
    have hq : q = p := by
      rw [hrel.from_head hne, hhead, hfree]
      obtain ⟨_, _, _, hchunks, _⟩ := hinv
      obtain ⟨_, hcid, hcst, _⟩ := hchunks _ hch
      unfold EntityComponentChunk.entityPtr
      rw [hcid, hcst, ← hst]
    subst hq
    exact ⟨t, hall, htinv, hrel⟩
  induction n with
  | zero =>
    intro s hinv hn ha hst hch hhead hfree
    obtain ⟨t, hall, htinv, hrel⟩ := step s hinv hn ha hst hch hhead hfree
    refine ⟨t, ?_, htinv, ?_, hrel.chunk_lt, hrel.mEntityCountPerChunk, hrel.block_lt,
      hrel.valid, ?_⟩
    · simp [reuseOps, EntityComponentStorage.run, hall]
    · unfold EntityComponentStorage.this
      rw [hrel.mContext, hrel.mIndex]
    · rw [hrel.gen hch]
  | succ n ih =>
    intro s hinv hn ha hst hch hhead hfree
    obtain ⟨t, hall, htinv, hrel⟩ := step s hinv hn ha hst hch hhead hfree
    have hlive : t.live p := ⟨hrel.chunk_lt, hrel.block_lt, hrel.valid⟩
    obtain ⟨t2, hd, ht2inv, hrel2⟩ :=
      t.Deallocate_spec p true htinv hrel.chunk_lt hrel.block_lt hrel.valid
    have hthis : t2.this = s.this := by
      unfold EntityComponentStorage.this
      rw [hrel2.mContext, hrel2.mIndex, hrel.mContext, hrel.mIndex]
    have hhead2 : t2.mChunkFreeHead = p.mChunkIndex := by
      rcases hrel2.chunk_head with h | ⟨hnf, h⟩
      · exact h
      · rcases hrel.chunk_head with h1 | h1
        · rw [h, h1]
        · rw [h1] at hnf
          cases hnf
    obtain ⟨s1, hrun, g1, g2, g3, g4, g5, g6, g7⟩ := ih t2 ht2inv
      (by rw [hrel2.mEntityCountPerChunk, hrel.mEntityCountPerChunk]; exact hn)
      (by rw [hrel2.mComponentCountPerEntity, hrel.mComponentCountPerEntity]; exact ha)
      (by rw [hthis]; exact hst) (by rw [hrel2.mChunkCount]; exact hrel.chunk_lt) hhead2
      hrel2.free_head
    refine ⟨s1, ?_, g1, by rw [g2, hthis], g3,
      by rw [g4, hrel2.mEntityCountPerChunk, hrel.mEntityCountPerChunk], g5, g6, ?_⟩
    · simp [reuseOps, EntityComponentStorage.run, hall, hlive, hd, hrun, List.replicate_succ]
    · rw [g7, hrel2.gen, hrel.gen hch]
      omega

set_option maxRecDepth 100000 in
/-- The example storage after the release: its invariant holds and the released
slot is the next one an allocation returns. -/
theorem exampleStorage_facts :
    exampleWorld.GetEntityID exampleEntity = some exampleId
      ∧ (exampleWorld.Release exampleEntity).isSome = true
      ∧ exampleReleased.Inv
      ∧ exampleReleased.GetEntityID exampleEntity = some exampleId
      ∧ exampleReleased.GetEntity exampleId = Lookup.null
      ∧ exampleStorage.Inv
      ∧ exampleStorage.mEntityCountPerChunk = 2
      ∧ exampleArchetype.mComponentCount = exampleStorage.mComponentCountPerEntity
      ∧ exampleStorage.this = exampleEntity.mStorage
      ∧ exampleStorage.mChunkCount = 1
      ∧ exampleStorage.mChunkFreeHead = 0
      ∧ (exampleStorage.mChunks 0).mFreeHead = 0
      ∧ (exampleStorage.header exampleEntity).mValid = false
      ∧ (exampleStorage.header exampleEntity).mGenID = 1 := by
  decide

/-- The storage pointer of the example record leads to `exampleStorage` and its
archetype pointer to `exampleArchetype`. -/
theorem exampleStorage_path :
    exampleReleased.storage exampleEntity.mStorage = some exampleStorage
      ∧ exampleReleased.archetype exampleStorage.mArchetype = some exampleArchetype := by
  constructor
  · have h : (exampleReleased.storage exampleEntity.mStorage).isSome = true := by decide
    unfold exampleStorage
    cases hs : exampleReleased.storage exampleEntity.mStorage with
    | none => rw [hs] at h; cases h
    | some s => rfl
  · have h : (exampleReleased.archetype exampleStorage.mArchetype).isSome = true := by decide
    unfold exampleArchetype
    cases hs : exampleReleased.archetype exampleStorage.mArchetype with
    | none => rw [hs] at h; cases h
    | some s => rfl

/-- Identifiers packed from in-range fields with different generations differ. -/
theorem packEntityID_gen_ne (g1 g2 ctx st ch blk : Nat) (h1 : g1 < 2 ^ 16) (h2 : g2 < 2 ^ 16)
    (hc : ctx < 2 ^ 8) (h3 : st < 2 ^ 10) (h4 : ch < 2 ^ 15) (h5 : blk < 2 ^ 10)
    (hne : g1 ≠ g2) : packEntityID g1 ctx st ch blk ≠ packEntityID g2 ctx st ch blk := by
  intro h
  have e1 := (ParseEntityID_pack g1 ctx st ch blk h1 hc h3 h4 h5).1
  have e2 := (ParseEntityID_pack g2 ctx st ch blk h2 hc h3 h4 h5).1
  rw [h, e2] at e1
  simp only [ParsedEntityID.mk.injEq, and_true] at e1
  exact hne e1.symm

/-- C5 (amended): for every released record `p` with identifier `eid` of a world
that satisfies the invariant, and every sequence of allocations and releases in
the storage of `p` that returns and during which allocations returned the slot of
`p` `k` times, the generation of the slot is the generation of the released record
plus `k` modulo 2^16. When `k` is not a multiple of 2^16, the generation and the
identifier of the slot differ from those of the released record; when `k` is zero
or not a multiple of 2^16, the world and the context resolve `eid` to null. -/
theorem stale_id_null (w : World) (p : EntityPtr) (s : EntityComponentStorage)
    (a : EntityArchetype) (ops : List StorageOp) (s1 : EntityComponentStorage)
    (tr : List EntityPtr) (hinv : w.Inv) (hctx : p.mStorage.mContext < MAX_CONTEXT_COUNT)
    (hs : w.storage p.mStorage = some s) (ha : w.archetype s.mArchetype = some a)
    (hch : p.mChunkIndex < s.mChunkCount) (hbl : p.mBlockIndex < s.mEntityCountPerChunk)
    (hfree : (s.header p).mValid = false) (hrun : s.run a ops = some (s1, tr)) :
    ∃ eid c1, w.GetEntityID p = some eid
      ∧ (w.setStorage p.mStorage s1).mEntityContexts p.mStorage.mContext = some c1
      ∧ (s1.header p).mGenID = ((s.header p).mGenID + tr.count p) % 2 ^ 16
      ∧ (tr.count p % 2 ^ 16 ≠ 0 →
          (s1.header p).mGenID ≠ (s.header p).mGenID
            ∧ (w.setStorage p.mStorage s1).GetEntityID p ≠ some eid)
      ∧ (tr.count p = 0 ∨ tr.count p % 2 ^ 16 ≠ 0 →
          c1.GetEntity eid = Lookup.null
            ∧ (w.setStorage p.mStorage s1).GetEntity eid = Lookup.null) := by
  obtain ⟨c, hc, hlist, hcid, hidx, hsinv, hsctx, hsidx, a2, ha2, _, hcc⟩ :=
    World.storage_path hinv hctx hs
  have haa : a2 = a := by
    unfold World.archetype at ha
    rw [ha] at ha2
    exact (Option.some.inj ha2).symm
  subst haa
  have hthis : p.mStorage = s.this := by
    unfold EntityComponentStorage.this
    rw [hsctx, hsidx]
  obtain ⟨g1, g2, g3, g4, g5, g6⟩ :=
    EntityComponentStorage.run_gen a2 p ops s (s1, tr) hsinv (by omega) hcc.symm hthis hch hbl
      hrun
  have g1 : s1.Inv := g1
  have g2 : s1.this = s.this := g2
  have g3 : s1.mEntityCountPerChunk = s.mEntityCountPerChunk := g3
  have g4 : s.mChunkCount ≤ s1.mChunkCount := g4
  have g5 : (s1.header p).mGenID = ((s.header p).mGenID + tr.count p) % 2 ^ 16 := g5
  have g6 : (s.header p).mValid = false → tr.count p = 0 → (s1.header p).mValid = false := g6
  have hM1 : MAX_CONTEXT_COUNT = 256 := by decide
  have hM2 : MAX_STORAGE_COUNT_PER_CONTEXT = 1024 := by decide
  have hM3 : MAX_ENTITY_COUNT_PER_CHUNK = 1024 := by decide
  have hgen : (s.header p).mGenID < 2 ^ 16 := by
    obtain ⟨_, _, _, hchunks, _⟩ := hsinv
    obtain ⟨hcinv, _, _, _, hbc, _⟩ := hchunks _ hch
    obtain ⟨_, _, hhdr, _⟩ := hcinv
    exact (hhdr _ (by omega)).2.2.2
  have hgen1 : (s1.header p).mGenID < 2 ^ 16 := by
    rw [g5]
    exact Nat.mod_lt _ (by norm_num)
  have hch15 : p.mChunkIndex < 2 ^ 15 := by
    obtain ⟨hcap, hcnt, _⟩ := g1
    simp only [List.mem_cons, List.mem_singleton, List.not_mem_nil, or_false] at hcap
    omega
  have hbl10 : p.mBlockIndex < 2 ^ 10 := by
    obtain ⟨_, _, hpc, _⟩ := hsinv
    omega
  have hid : w.GetEntityID p
      = some (packEntityID (s.header p).mGenID p.mStorage.mContext p.mStorage.mIndex
          p.mChunkIndex p.mBlockIndex) := by
    unfold World.GetEntityID
    rw [hs]
    simp only [hsctx, hc, hcid, hsidx]
  have hc1 := w.setStorage_contexts_same p.mStorage s1 c hc
  have hlt : p.mStorage.mIndex < c.mEntityComponentStorageList.length := by
    by_contra hge
    rw [List.getElem?_eq_none (by omega)] at hlist
    cases hlist
  have hget := EntityContext.GetEntity_pack
    { c with mEntityComponentStorageList := c.mEntityComponentStorageList.set p.mStorage.mIndex s1 }
    s1 p (s.header p).mGenID p.mStorage.mContext
    (by simp [hlt]) g1 (by rw [g2, hthis]) hgen (by omega) (by omega) (by omega) (by omega)
  have s1ctx : s1.mContext = p.mStorage.mContext := by
    have := congrArg StoragePtr.mContext g2
    rw [← hthis] at this
    exact this
  have s1idx : s1.mIndex = p.mStorage.mIndex := by
    have := congrArg StoragePtr.mIndex g2
    rw [← hthis] at this
    exact this
  refine ⟨_, _, hid, hc1, g5, ?_, ?_⟩
  · intro hk
    have hne : (s1.header p).mGenID ≠ (s.header p).mGenID := by
      rw [g5]
      omega
    refine ⟨hne, ?_⟩
    unfold World.GetEntityID
    rw [w.storage_setStorage_same p.mStorage s s1 hs]
    simp only [s1ctx, hc1, hcid, s1idx]
    intro h
    exact packEntityID_gen_ne _ _ _ _ _ _ hgen1 hgen (by omega) (by omega) hch15 hbl10 hne
      (Option.some.inj h)
  · intro hk
    have hnull : ¬ ((s1.header p).mValid = true ∧ (s1.header p).mGenID = (s.header p).mGenID) := by
      rintro ⟨hv, hg⟩
      rcases hk with hk | hk
      · rw [g6 hfree hk] at hv
        cases hv
      · rw [g5] at hg
        omega
    rw [if_neg hnull] at hget
    refine ⟨hget, ?_⟩
    unfold World.GetEntity
    rw [(ParseEntityID_pack _ _ _ _ _ hgen (by omega) (by omega) hch15 hbl10).2, hc1]
    exact hget

set_option maxRecDepth 100000 in
/-- Witness of C5 (amended): after the release in the example world and one more
allocation in the storage, which returns the slot of the released record, the slot
has generation 2 and the identifier of the released record resolves to null. -/
theorem stale_id_null_witness :
    exampleStorage.run exampleArchetype [StorageOp.allocate true]
        = some (exampleReused.1, exampleReused.2)
      ∧ exampleReused.2.count exampleEntity = 1
      ∧ ∃ eid c1, exampleReleased.GetEntityID exampleEntity = some eid
        ∧ (exampleReleased.setStorage exampleEntity.mStorage exampleReused.1).mEntityContexts
            exampleEntity.mStorage.mContext = some c1
        ∧ (exampleReused.1.header exampleEntity).mGenID
            = ((exampleStorage.header exampleEntity).mGenID
                + exampleReused.2.count exampleEntity) % 2 ^ 16
        ∧ (exampleReused.2.count exampleEntity % 2 ^ 16 ≠ 0 →
            (exampleReused.1.header exampleEntity).mGenID
                ≠ (exampleStorage.header exampleEntity).mGenID
              ∧ (exampleReleased.setStorage exampleEntity.mStorage exampleReused.1).GetEntityID
                  exampleEntity ≠ some eid)
        ∧ (exampleReused.2.count exampleEntity = 0
              ∨ exampleReused.2.count exampleEntity % 2 ^ 16 ≠ 0 →
            c1.GetEntity eid = Lookup.null
              ∧ (exampleReleased.setStorage exampleEntity.mStorage exampleReused.1).GetEntity eid
                  = Lookup.null) :=
  have hrun : exampleStorage.run exampleArchetype [StorageOp.allocate true]
      = some (exampleReused.1, exampleReused.2) := by
    have h : (exampleStorage.run exampleArchetype [StorageOp.allocate true]).isSome = true := by
      decide
    unfold exampleReused
    cases hs : exampleStorage.run exampleArchetype [StorageOp.allocate true] with
    | none => rw [hs] at h; cases h
    | some r => rfl
  ⟨hrun, by decide,
    stale_id_null exampleReleased exampleEntity exampleStorage exampleArchetype
      [StorageOp.allocate true] exampleReused.1 exampleReused.2 exampleStorage_facts.2.2.1
      (by decide) exampleStorage_path.1 exampleStorage_path.2 (by decide) (by decide)
      (by decide) hrun⟩

/-- C5 (counterexample): in the example world the record with identifier
`exampleId` is released; after 65536 allocations in its storage, each of the first
65535 followed by a release of the record, the slot holds a valid record with the
generation and the identifier of the released record, and `GetEntity(exampleId)`
returns that record. -/
theorem stale_id_found_after_wrap :
    ∃ s1 tr, exampleWorld.GetEntityID exampleEntity = some exampleId
      ∧ exampleWorld.Release exampleEntity = some exampleReleased
      ∧ exampleReleased.GetEntity exampleId = Lookup.null
      ∧ exampleReleased.storage exampleEntity.mStorage = some exampleStorage
      ∧ exampleStorage.run exampleArchetype (reuseOps exampleEntity 65535) = some (s1, tr)
      ∧ (s1.header exampleEntity).mValid = true
      ∧ (s1.header exampleEntity).mGenID = (exampleStorage.header exampleEntity).mGenID
      ∧ (exampleReleased.setStorage exampleEntity.mStorage s1).GetEntityID exampleEntity
          = some exampleId
      ∧ (exampleReleased.setStorage exampleEntity.mStorage s1).GetEntity exampleId
          = Lookup.found exampleEntity := by
  obtain ⟨f1, f2, f3, f4, f5, f6, f7, f8, f9, f10, f11, f12, f13, f14⟩ := exampleStorage_facts
  obtain ⟨hs, ha⟩ := exampleStorage_path
  have hch : exampleEntity.mChunkIndex = 0 := rfl
  have hbl : exampleEntity.mBlockIndex = 0 := rfl
  obtain ⟨s1, hrun, g1, g2, g3, g4, g5, g6, g7⟩ :=
    EntityComponentStorage.run_reuseOps exampleArchetype exampleEntity 65535 exampleStorage f6
      (by omega) f8 f9.symm (by rw [hch, f10]; omega) (by rw [hch, f11]) (by rw [hch, hbl, f12])
  have hgen : (s1.header exampleEntity).mGenID = 1 := by
    rw [g7, f14]
    norm_num
  have hrel : exampleWorld.Release exampleEntity = some exampleReleased := by
    unfold exampleReleased
    cases hr : exampleWorld.Release exampleEntity with
    | none => rw [hr] at f2; cases f2
    | some r => rfl
  obtain ⟨c, hc, hlist⟩ := (exampleReleased.storage_eq_some_iff _ _).mp hs
  have hlt : exampleEntity.mStorage.mIndex < c.mEntityComponentStorageList.length := by
    by_contra hge
    rw [List.getElem?_eq_none (by omega)] at hlist
    cases hlist
  have hc1 := exampleReleased.setStorage_contexts_same exampleEntity.mStorage s1 c hc
  have hget := EntityContext.GetEntity_pack
    { c with
      mEntityComponentStorageList :=
        c.mEntityComponentStorageList.set exampleEntity.mStorage.mIndex s1 }
    s1 exampleEntity 1 0 (by simp [hlt]) g1 (by rw [g2, f9]) (by norm_num) (by norm_num)
    (by decide) g3 g5
  rw [if_pos ⟨g6, hgen⟩] at hget
  have hcid : c.mContextId = 0 :=
    (f3.2.2 0 (by decide) c hc).1
  have s1ctx : s1.mContext = 0 := by
    have := congrArg StoragePtr.mContext g2
    rw [f9] at this
    exact this
  have s1idx : s1.mIndex = 0 := by
    have := congrArg StoragePtr.mIndex g2
    rw [f9] at this
    exact this
  have hctx0 : exampleEntity.mStorage.mContext = 0 := rfl
  rw [hctx0] at hc1
  refine ⟨s1, _, f1, hrel, f5, hs, hrun, g6, by rw [hgen, f14], ?_, ?_⟩
  · unfold World.GetEntityID
    rw [exampleReleased.storage_setStorage_same exampleEntity.mStorage exampleStorage s1 hs]
    simp only [s1ctx, hc1, hcid, s1idx, hgen]
    rfl
  · unfold World.GetEntity
    have hx : ExtractContextIdFromEntityID exampleId = 0 :=
      (ParseEntityID_pack 1 0 0 0 0 (by norm_num) (by norm_num) (by norm_num) (by norm_num)
        (by norm_num)).2
    rw [hx, hc1]
    exact hget
/-! ## The index table of an archetype -/

theorem find?_range_first (p : Nat → Bool) (n i : Nat) (hi : i < n) (hp : p i = true)
    (hfirst : ∀ j, j < i → p j = false) : (List.range n).find? p = some i := by
  induction n with
  | zero => omega
  | succ n ih =>
    rw [List.range_succ, List.find?_append]
    by_cases hin : i < n
    · rw [ih hin]
      rfl
    · have hin2 : i = n := by omega
      subst hin2
      have hnone : (List.range i).find? p = none := by
        rw [List.find?_eq_none]
        intro x hx
        rw [List.mem_range] at hx
        rw [hfirst x hx]
        simp
      rw [hnone]
      simp [hp]

theorem find?_range_none (p : Nat → Bool) (n : Nat) (h : ∀ j, j < n → p j = false) :
    (List.range n).find? p = none := by
  rw [List.find?_eq_none]
  intro x hx
  rw [List.mem_range] at hx
  rw [h x hx]
  simp

/-- The index of a component of an archetype is its position in the meta map. -/
theorem EntityArchetype.GetComponentIndex_of_key (a : EntityArchetype) (hinv : a.Inv)
    (i id : Nat) (h : a.mComponentMetaMap.keys[i]? = some id) :
    a.GetComponentIndex id = (i : Int) := by
  obtain ⟨hcount, _, htab, hsorted, hent⟩ := hinv
  have hnd : a.mComponentMetaMap.keys.Nodup := hsorted.nodup
  have hlen : a.mComponentMetaMap.keys.length = a.mComponentMetaMap.length := by
    unfold ComponentMetaMap.keys
    rw [List.length_map]
  have hi : i < a.mComponentMetaMap.length := by
    by_contra hge
    rw [List.getElem?_eq_none (by omega)] at h
    cases h
  have hkey : ∀ j, j < a.mComponentMetaMap.length →
      a.mComponentMetaMap.keys[j]? = some (a.mComponentIndexTable.mComponentTypeIds j) := by
    intro j hj
    unfold ComponentMetaMap.keys
    rw [List.getElem?_map, List.getElem?_eq_getElem hj]
    have := (hent j hj _ (by rw [List.getElem?_eq_getElem hj]; exact rfl)).2.1
    rw [this]
    rfl
  unfold EntityArchetype.GetComponentIndex LinearComponentIndexTable.Get
  rw [find?_range_first _ _ i (by omega)]
  · have := hkey i hi
    rw [h] at this
    simp only [Option.some.injEq] at this
    simp [this]
  · intro j hj
    have hj2 : j < a.mComponentMetaMap.length := by omega
    have hkj := hkey j hj2
    by_contra hne
    simp only [Bool.not_eq_false, beq_iff_eq] at hne
    rw [hne] at hkj
    have hij := (List.getElem?_inj (by omega) hnd (hkj.trans h.symm))
    omega

/-- A type id that is no key of the meta map has no index. -/
theorem EntityArchetype.GetComponentIndex_of_not_key (a : EntityArchetype) (hinv : a.Inv)
    (id : Nat) (h : id ∉ a.mComponentMetaMap.keys) :
    a.GetComponentIndex id = INVALID_COMPONENT_INDEX := by
  obtain ⟨hcount, _, htab, hsorted, hent⟩ := hinv
  unfold EntityArchetype.GetComponentIndex LinearComponentIndexTable.Get
  rw [find?_range_none]
  intro j hj
  have hj2 : j < a.mComponentMetaMap.length := by omega
  by_contra hne
  simp only [Bool.not_eq_false, beq_iff_eq] at hne
  apply h
  have := (hent j hj2 _ (by rw [List.getElem?_eq_getElem hj2]; exact rfl)).2.1
  unfold ComponentMetaMap.keys
  rw [List.mem_map]
  exact ⟨a.mComponentMetaMap[j], List.getElem_mem _, by rw [← this, hne]⟩

/-- An archetype has an index for a type id exactly when the type id is a key of
its meta map. -/
theorem EntityArchetype.GetComponentIndex_ne_iff (a : EntityArchetype) (hinv : a.Inv)
    (id : Nat) :
    a.GetComponentIndex id ≠ INVALID_COMPONENT_INDEX ↔ id ∈ a.mComponentMetaMap.keys := by
  constructor
  · intro h
    by_contra hno
    exact h (a.GetComponentIndex_of_not_key hinv id hno)
  · intro h
    obtain ⟨i, hi, hget⟩ := List.getElem_of_mem h
    rw [a.GetComponentIndex_of_key hinv i id (by rw [List.getElem?_eq_getElem hi, hget])]
    unfold INVALID_COMPONENT_INDEX
    omega

/-- The test `ContainAllComponents` holds exactly when every requested type id is
a key of the meta map. -/
theorem EntityArchetype.ContainAllComponents_iff (a : EntityArchetype) (hinv : a.Inv)
    (Ts : List ComponentType) :
    a.ContainAllComponents Ts = true ↔ ∀ T, T ∈ Ts → T.typeId ∈ a.mComponentMetaMap.keys := by
  unfold EntityArchetype.ContainAllComponents
  induction Ts with
  | nil => simp [ContainComponentsHelperClass.All]
  | cons T Rest ih =>
    simp only [ContainComponentsHelperClass.All, Bool.and_eq_true, decide_eq_true_eq, ih,
      List.mem_cons, forall_eq_or_imp]
    have := a.GetComponentIndex_ne_iff hinv T.typeId
    unfold EntityArchetype.GetComponentIndex at this
    rw [this]
/-! ## Iteration over the valid slots -/

/-- An option that holds a value is `some` of the value `getD` reads. -/
theorem eq_some_getD {α : Type} (o : Option α) (d : α) (h : o.isSome = true) :
    o = some (o.getD d) := by
  cases o with
  | none => cases h
  | some x => rfl

/-- A loop that calls `f` on the elements that pass a test is the fold of `f` over
the elements that pass. -/
theorem foldl_if_eq {σ α β : Type} (f : σ → β → σ) (p : α → Bool) (h : α → β) (l : List α) :
    ∀ acc : σ, List.foldl (fun acc i => if p i then f acc (h i) else acc) acc l
      = List.foldl f acc ((l.filter p).map h) := by
  induction l with
  | nil => intro acc; rfl
  | cons x l ih =>
    intro acc
    simp only [List.foldl_cons, List.filter_cons]
    cases hp : p x with
    | true => simp [ih]
    | false => simp [ih]

/-- The loop over `count` blocks from `startBlockIndex` calls the callback on the
valid blocks of that range, in order. -/
theorem EntityComponentChunk.DoForEach_eq {σ : Type} (c : EntityComponentChunk)
    (f : σ → Visit → σ) (count startBlockIndex : Nat) (componentIndexes : List Int) (acc : σ) :
    c.DoForEach f count startBlockIndex componentIndexes acc
      = List.foldl f acc
          ((c.validBlocks startBlockIndex (startBlockIndex + count)).map
            (c.visit componentIndexes)) := by
  unfold EntityComponentChunk.DoForEach EntityComponentChunk.validBlocks
  rw [Nat.add_sub_cancel_left, List.range'_eq_map_range, ← foldl_if_eq, List.foldl_map]

/-- The index array has no invalid entry when the archetype contains all the
requested components. -/
theorem GetComponentIndexesHelperClass.Call_valid (a : EntityArchetype)
    (Ts : List ComponentType) (h : a.ContainAllComponents Ts = true) :
    (GetComponentIndexesHelperClass.Call a Ts).any (fun index => index = INVALID_COMPONENT_INDEX)
      = false := by
  unfold EntityArchetype.ContainAllComponents at h
  induction Ts with
  | nil => rfl
  | cons T Rest ih =>
    simp only [ContainComponentsHelperClass.All, Bool.and_eq_true, decide_eq_true_eq] at h
    simp only [GetComponentIndexesHelperClass.Call, List.any_cons, Bool.or_eq_false_iff,
      decide_eq_false_iff_not]
    exact ⟨h.1, ih h.2⟩

/-- The range form of `ForEach` on a chunk whose archetype contains all the
requested components returns and calls the callback on the valid blocks of the
range. -/
theorem EntityComponentChunk.ForEach_range_eq {σ : Type} (c : EntityComponentChunk)
    (a : EntityArchetype) (Ts : List ComponentType) (f : σ → Visit → σ)
    (startBlockIndex endBlockIndex : Nat) (acc : σ) (h : a.ContainAllComponents Ts = true) :
    c.ForEach a Ts f startBlockIndex endBlockIndex acc
      = some (List.foldl f acc
          ((c.validBlocks startBlockIndex endBlockIndex).map
            (c.visit (GetComponentIndexesHelperClass.Call a Ts)))) := by
  unfold EntityComponentChunk.ForEach
  simp only [GetComponentIndexesHelperClass.Call_valid a Ts h, Bool.false_eq_true, if_false]
  rw [EntityComponentChunk.DoForEach_eq]
  unfold EntityComponentChunk.validBlocks
  rw [Nat.add_sub_cancel_left]

/-- A free list without repetition that holds as many blocks as the chunk has
holds every block of the chunk. -/
theorem mem_of_nodup_length {l : List Nat} {n : Nat} (hnd : l.Nodup) (hlt : ∀ b, b ∈ l → b < n)
    (hlen : l.length = n) (b : Nat) (hb : b < n) : b ∈ l := by
  have hsub : l ⊆ List.range n := fun x hx => List.mem_range.mpr (hlt x hx)
  have hsp : List.Subperm l (List.range n) := List.subperm_of_subset hnd hsub
  have hperm : l.Perm (List.range n) :=
    hsp.perm_of_length_le (by rw [List.length_range, hlen])
  exact hperm.symm.subset (List.mem_range.mpr hb)

/-- An empty chunk has no valid block. -/
theorem EntityComponentChunk.validBlocks_of_IsEmpty (c : EntityComponentChunk) (hinv : c.Inv)
    (he : c.IsEmpty = true) : c.validBlocks 0 c.mBlockCount = [] := by
  obtain ⟨_, _, _, _, hnd, hlt, hiff, hcount⟩ := hinv
  unfold EntityComponentChunk.IsEmpty at he
  have hu : c.mUsedCount = 0 := of_decide_eq_true he
  have hlen : c.freeBlocks.length = c.mBlockCount := by omega
  unfold EntityComponentChunk.validBlocks
  rw [List.filter_eq_nil_iff]
  intro b hb
  rw [List.mem_range'_1] at hb
  have hb2 : b < c.mBlockCount := by omega
  have hmem := mem_of_nodup_length hnd hlt hlen b hb2
  rw [(hiff b hb2).mp hmem]
  simp

/-- The whole-chunk form of `ForEach` with a valid index array calls the callback
on the valid blocks of the chunk. -/
theorem EntityComponentChunk.ForEachAll_eq {σ : Type} (c : EntityComponentChunk)
    (f : σ → Visit → σ) (componentIndexes : List Int) (acc : σ)
    (h : componentIndexes.any (fun index => index = INVALID_COMPONENT_INDEX) = false) :
    c.ForEachAll f componentIndexes acc
      = some (List.foldl f acc
          ((c.validBlocks 0 c.mBlockCount).map (c.visit componentIndexes))) := by
  unfold EntityComponentChunk.ForEachAll
  simp only [h, Bool.false_eq_true, if_false]
  rw [EntityComponentChunk.DoForEach_eq, Nat.zero_add]

/-- The method `ForEach` of a storage whose archetype contains all the requested
components returns and calls the callback on the valid slots of the storage. -/
theorem EntityComponentStorage.ForEach_storage_eq {σ : Type} (s : EntityComponentStorage)
    (a : EntityArchetype) (Ts : List ComponentType) (f : σ → Visit → σ) (acc : σ)
    (hinv : s.Inv) (h : a.ContainAllComponents Ts = true) :
    s.ForEach a Ts f acc = some (List.foldl f acc (s.validVisits a Ts)) := by
  have hidx := GetComponentIndexesHelperClass.Call_valid a Ts h
  obtain ⟨_, _, _, hchunks, _⟩ := hinv
  unfold EntityComponentStorage.ForEach EntityComponentStorage.validVisits
  simp only []
  generalize s.mChunkCount = n at hchunks
  induction n with
  | zero => rfl
  | succ n ih =>
    have ih2 := ih (fun i hi => hchunks i (by omega))
    rw [List.range_succ, List.foldl_append, ih2, List.flatMap_append, List.foldl_append]
    simp only [List.foldl_cons, List.foldl_nil, List.flatMap_cons, List.flatMap_nil,
      List.append_nil]
    cases he : (s.mChunks n).IsEmpty with
    | true =>
      rw [(s.mChunks n).validBlocks_of_IsEmpty (hchunks n (by omega)).1 he]
      rfl
    | false =>
      simp only [Bool.not_false, if_true]
      rw [EntityComponentChunk.ForEachAll_eq _ _ _ _ hidx]

/-- The storages listed by `storagePtrs` are the storages of the context, each with
the pointer made of the context and its position. -/
theorem EntityContext.storagePtrs_eq (pContext : Nat) (c : EntityContext) :
    c.storagePtrs pContext
      = c.mEntityComponentStorageList.enum.map
          (fun x => (({ mContext := pContext, mIndex := x.1 } : StoragePtr), x.2)) := by
  unfold EntityContext.storagePtrs
  apply List.ext_getElem?
  intro n
  simp only [List.getElem?_zipWith, List.getElem?_map, List.getElem?_enum, List.getElem?_range]
  by_cases hn : n < c.mEntityComponentStorageList.length
  · simp [List.getElem?_range, hn, List.getElem?_eq_getElem hn]
  · simp [List.getElem?_range, hn, List.getElem?_eq_none (Nat.le_of_not_lt hn)]

/-- A member of `storagePtrs`: its pointer leads to it. -/
theorem EntityContext.mem_storagePtrs {pContext : Nat} {c : EntityContext}
    {ps : StoragePtr × EntityComponentStorage} (h : ps ∈ c.storagePtrs pContext) :
    ps.1.mContext = pContext ∧ c.mEntityComponentStorageList[ps.1.mIndex]? = some ps.2 := by
  rw [EntityContext.storagePtrs_eq, List.mem_map] at h
  obtain ⟨x, hx, rfl⟩ := h
  obtain ⟨i, v⟩ := x
  exact ⟨rfl, (List.mem_enum_iff_getElem?).mp hx⟩

theorem EntityContext.storagePtrs_map_snd (pContext : Nat) (c : EntityContext) :
    (c.storagePtrs pContext).map Prod.snd = c.mEntityComponentStorageList := by
  rw [EntityContext.storagePtrs_eq, List.map_map]
  have : (Prod.snd ∘ fun x : Nat × EntityComponentStorage =>
      (({ mContext := pContext, mIndex := x.1 } : StoragePtr), x.2)) = Prod.snd := rfl
  rw [this, List.enum_map_snd]

/-- What the invariant gives for a member of `storagePtrs` of a context of the
world. -/
theorem World.storagePtrs_inv {w : World} {pContext : Nat} {c : EntityContext}
    {ps : StoragePtr × EntityComponentStorage} (hinv : w.Inv)
    (hctx : pContext < MAX_CONTEXT_COUNT) (hc : w.mEntityContexts pContext = some c)
    (h : ps ∈ c.storagePtrs pContext) :
    w.storage ps.1 = some ps.2 ∧ ps.2.Inv ∧ ps.2.this = ps.1
      ∧ ∃ a, w.archetype ps.2.mArchetype = some a := by
  obtain ⟨h1, h2⟩ := EntityContext.mem_storagePtrs h
  have hs : w.storage ps.1 = some ps.2 := by
    rw [World.storage_eq_some_iff]
    exact ⟨c, by rw [h1]; exact hc, h2⟩
  obtain ⟨c2, hc2, _, _, _, hsinv, hsctx, hsidx, a, ha, _⟩ :=
    World.storage_path hinv (by rw [h1]; exact hctx) hs
  refine ⟨hs, hsinv, ?_, a, ha⟩
  unfold EntityComponentStorage.this
  rw [hsctx, hsidx]

/-- The method `ForEach` of a context of a world that satisfies the invariant
returns and calls the callback on `validVisits`, in order. -/
theorem EntityContext.ForEach_eq {σ : Type} (w : World) (pContext : Nat) (c : EntityContext)
    (Ts : List ComponentType) (f : σ → Visit → σ) (acc : σ) (hinv : w.Inv)
    (hctx : pContext < MAX_CONTEXT_COUNT) (hc : w.mEntityContexts pContext = some c) :
    c.ForEach w.mArchetypeManager Ts f acc
      = some (List.foldl f acc (w.validVisits pContext Ts)) := by
  have hall : ∀ ps, ps ∈ c.storagePtrs pContext →
      ps.2.Inv ∧ ∃ a, w.archetype ps.2.mArchetype = some a :=
    fun ps hps => ⟨(World.storagePtrs_inv hinv hctx hc hps).2.1,
      (World.storagePtrs_inv hinv hctx hc hps).2.2.2⟩
  unfold EntityContext.ForEach World.validVisits
  rw [hc]
  simp only []
  rw [← EntityContext.storagePtrs_map_snd pContext c, List.foldl_map]
  generalize c.storagePtrs pContext = l at hall
  induction l generalizing acc with
  | nil => rfl
  | cons ps l ih =>
    obtain ⟨hsinv, a, ha⟩ := hall ps (List.mem_cons_self _ _)
    have ha2 : w.mArchetypeManager.objects[ps.2.mArchetype]? = some a := ha
    simp only [List.foldl_cons, List.flatMap_cons, List.foldl_append, ha2]
    have hv : w.storageVisits Ts ps
        = if a.ContainAllComponents Ts then ps.2.validVisits a Ts else [] := by
      unfold World.storageVisits
      rw [ha]
    rw [hv]
    cases hcon : a.ContainAllComponents Ts with
    | true =>
      simp only [if_true]
      rw [ps.2.ForEach_storage_eq a Ts f acc hsinv hcon]
      exact ih _ (fun x hx => hall x (List.mem_cons_of_mem _ hx))
    | false =>
      simp only [Bool.false_eq_true, if_false, List.foldl_nil]
      exact ih _ (fun x hx => hall x (List.mem_cons_of_mem _ hx))

/-- The members of `validBlocks`. -/
theorem EntityComponentChunk.mem_validBlocks (c : EntityComponentChunk) (lo hi b : Nat) :
    b ∈ c.validBlocks lo hi ↔ lo ≤ b ∧ b < hi ∧ (c.mEntitiesBuffer b).mValid = true := by
  unfold EntityComponentChunk.validBlocks
  rw [List.mem_filter, List.mem_range'_1]
  constructor
  · rintro ⟨⟨h1, h2⟩, h3⟩
    exact ⟨h1, by omega, h3⟩
  · rintro ⟨h1, h2, h3⟩
    exact ⟨⟨h1, by omega⟩, h3⟩

theorem EntityComponentChunk.validBlocks_nodup (c : EntityComponentChunk) (lo hi : Nat) :
    (c.validBlocks lo hi).Nodup :=
  (List.nodup_range' lo (hi - lo)).filter _

/-- The valid blocks of a range split at any point of the range. -/
theorem EntityComponentChunk.validBlocks_append (c : EntityComponentChunk) (lo mid hi : Nat)
    (h1 : lo ≤ mid) (h2 : mid ≤ hi) :
    c.validBlocks lo mid ++ c.validBlocks mid hi = c.validBlocks lo hi := by
  unfold EntityComponentChunk.validBlocks
  rw [← List.filter_append]
  congr 1
  have h := List.range'_append lo (mid - lo) (hi - mid) 1
  simp only [Nat.one_mul] at h
  have e1 : lo + (mid - lo) = mid := by omega
  have e2 : hi - lo = hi - mid + (mid - lo) := by omega
  rw [e1] at h
  rw [e2]
  exact h

/-- An empty or reversed range has no valid block. -/
theorem EntityComponentChunk.validBlocks_nil (c : EntityComponentChunk) (lo hi : Nat)
    (h : hi ≤ lo) : c.validBlocks lo hi = [] := by
  unfold EntityComponentChunk.validBlocks
  have : hi - lo = 0 := by omega
  rw [this]
  rfl

/-- The members of the visits of a storage. -/
theorem EntityComponentStorage.mem_storage_validVisits (s : EntityComponentStorage)
    (a : EntityArchetype) (Ts : List ComponentType) (v : Visit) :
    v ∈ s.validVisits a Ts ↔
      ∃ i b, i < s.mChunkCount ∧ b < (s.mChunks i).mBlockCount
        ∧ ((s.mChunks i).mEntitiesBuffer b).mValid = true
        ∧ v = (s.mChunks i).visit (GetComponentIndexesHelperClass.Call a Ts) b := by
  unfold EntityComponentStorage.validVisits
  simp only [List.mem_flatMap, List.mem_range, List.mem_map,
    EntityComponentChunk.mem_validBlocks]
  constructor
  · rintro ⟨i, hi, b, ⟨_, hb, hv⟩, rfl⟩
    exact ⟨i, b, hi, hb, hv, rfl⟩
  · rintro ⟨i, b, hi, hb, hv, rfl⟩
    exact ⟨i, hi, b, ⟨Nat.zero_le _, hb, hv⟩, rfl⟩

/-- The visits of a storage that satisfies its invariant point to different
records. -/
theorem EntityComponentStorage.storage_validVisits_nodup (s : EntityComponentStorage)
    (a : EntityArchetype) (Ts : List ComponentType) (hinv : s.Inv) :
    ((s.validVisits a Ts).map Visit.pEntity).Nodup := by
  obtain ⟨_, _, _, hchunks, _⟩ := hinv
  unfold EntityComponentStorage.validVisits
  rw [List.map_flatMap, List.nodup_flatMap]
  constructor
  · intro i _
    rw [List.map_map]
    apply List.Nodup.map_on _ (EntityComponentChunk.validBlocks_nodup _ _ _)
    intro x _ y _ hxy
    exact congrArg EntityPtr.mBlockIndex hxy
  · apply List.Nodup.pairwise_of_forall_ne (List.nodup_range _)
    intro i hi j hj hij
    rw [List.mem_range] at hi hj
    intro p hp1 hp2
    simp only [List.mem_map] at hp1 hp2
    obtain ⟨_, ⟨b1, _, rfl⟩, h1⟩ := hp1
    obtain ⟨_, ⟨b2, _, rfl⟩, h2⟩ := hp2
    have e1 := congrArg EntityPtr.mChunkIndex h1
    have e2 := congrArg EntityPtr.mChunkIndex h2
    simp only [EntityComponentChunk.visit, EntityComponentChunk.entityPtr] at e1 e2
    rw [(hchunks i hi).2.1] at e1
    rw [(hchunks j hj).2.1] at e2
    exact hij (by rw [e1, e2])

/-- The pointer of a visit of a storage that satisfies its invariant is a pointer
to a valid record of the storage. -/
theorem EntityComponentStorage.validVisits_ptr (s : EntityComponentStorage)
    (a : EntityArchetype) (Ts : List ComponentType) (hinv : s.Inv) (v : Visit)
    (hv : v ∈ s.validVisits a Ts) :
    v.pEntity.mStorage = s.this ∧ v.pEntity.mChunkIndex < s.mChunkCount
      ∧ v.pEntity.mBlockIndex < (s.mChunks v.pEntity.mChunkIndex).mBlockCount
      ∧ (s.header v.pEntity).mValid = true
      ∧ v = (s.mChunks v.pEntity.mChunkIndex).visit (GetComponentIndexesHelperClass.Call a Ts)
          v.pEntity.mBlockIndex := by
  obtain ⟨_, _, _, hchunks, _⟩ := hinv
  obtain ⟨i, b, hi, hb, hvalid, rfl⟩ := (s.mem_storage_validVisits a Ts v).mp hv
  obtain ⟨_, hcid, hcst, _⟩ := hchunks i hi
  simp only [EntityComponentChunk.visit, EntityComponentChunk.entityPtr,
    EntityComponentStorage.header, hcid, hcst]
  exact ⟨trivial, hi, hb, hvalid, trivial⟩

/-- The members of `validVisits` of a world that satisfies the invariant are the
visits of the valid records of the storages of the context whose archetype contains
all the requested components. -/
theorem World.mem_validVisits (w : World) (pContext : Nat) (c : EntityContext)
    (Ts : List ComponentType) (hinv : w.Inv) (hctx : pContext < MAX_CONTEXT_COUNT)
    (hc : w.mEntityContexts pContext = some c) (v : Visit) :
    v ∈ w.validVisits pContext Ts ↔
      ∃ s a, v.pEntity.mStorage.mContext = pContext
        ∧ w.storage v.pEntity.mStorage = some s
        ∧ w.archetype s.mArchetype = some a
        ∧ a.ContainAllComponents Ts = true
        ∧ v.pEntity.mChunkIndex < s.mChunkCount
        ∧ v.pEntity.mBlockIndex < (s.mChunks v.pEntity.mChunkIndex).mBlockCount
        ∧ (s.header v.pEntity).mValid = true
        ∧ v = (s.mChunks v.pEntity.mChunkIndex).visit
            (GetComponentIndexesHelperClass.Call a Ts) v.pEntity.mBlockIndex := by
  unfold World.validVisits
  rw [hc]
  simp only [List.mem_flatMap]
  constructor
  · rintro ⟨ps, hps, hv⟩
    obtain ⟨hs, hsinv, hthis, a, ha⟩ := World.storagePtrs_inv hinv hctx hc hps
    unfold World.storageVisits at hv
    rw [ha] at hv
    simp only [] at hv
    by_cases hcon : a.ContainAllComponents Ts = true
    · rw [if_pos hcon] at hv
      obtain ⟨h1, h2, h3, h4, h5⟩ := ps.2.validVisits_ptr a Ts hsinv v hv
      rw [hthis] at h1
      refine ⟨ps.2, a, ?_, by rw [h1]; exact hs, ha, hcon, h2, h3, h4, h5⟩
      rw [h1]
      exact (EntityContext.mem_storagePtrs hps).1
    · rw [if_neg hcon] at hv
      cases hv
  · rintro ⟨s, a, h1, hs, ha, hcon, hch, hbl, hvalid, hv⟩
    obtain ⟨c2, hc2, hlist⟩ := (w.storage_eq_some_iff _ _).mp hs
    rw [h1, hc] at hc2
    cases hc2
    refine ⟨(v.pEntity.mStorage, s), ?_, ?_⟩
    · rw [EntityContext.storagePtrs_eq, List.mem_map]
      refine ⟨(v.pEntity.mStorage.mIndex, s), List.mem_enum_iff_getElem?.mpr hlist, ?_⟩
      simp only [Prod.mk.injEq, and_true]
      rw [← h1]
    · unfold World.storageVisits
      simp only [ha, hcon, if_true]
      rw [EntityComponentStorage.mem_storage_validVisits]
      exact ⟨_, _, hch, hbl, hvalid, hv⟩

/-- The visits of `validVisits` point to different records. -/
theorem World.validVisits_nodup (w : World) (pContext : Nat) (c : EntityContext)
    (Ts : List ComponentType) (hinv : w.Inv) (hctx : pContext < MAX_CONTEXT_COUNT)
    (hc : w.mEntityContexts pContext = some c) :
    ((w.validVisits pContext Ts).map Visit.pEntity).Nodup := by
  unfold World.validVisits
  rw [hc]
  simp only []
  rw [List.map_flatMap, List.nodup_flatMap]
  have hptr : ∀ ps, ps ∈ c.storagePtrs pContext → ∀ p,
      p ∈ (w.storageVisits Ts ps).map Visit.pEntity → p.mStorage = ps.1 := by
    intro ps hps p hp
    obtain ⟨hs, hsinv, hthis, a, ha⟩ := World.storagePtrs_inv hinv hctx hc hps
    rw [List.mem_map] at hp
    obtain ⟨v, hv, rfl⟩ := hp
    unfold World.storageVisits at hv
    rw [ha] at hv
    simp only [] at hv
    by_cases hcon : a.ContainAllComponents Ts = true
    · rw [if_pos hcon] at hv
      rw [(ps.2.validVisits_ptr a Ts hsinv v hv).1, hthis]
    · rw [if_neg hcon] at hv
      cases hv
  constructor
  · intro ps hps
    obtain ⟨hs, hsinv, hthis, a, ha⟩ := World.storagePtrs_inv hinv hctx hc hps
    unfold World.storageVisits
    rw [ha]
    simp only []
    by_cases hcon : a.ContainAllComponents Ts = true
    · rw [if_pos hcon]
      exact ps.2.storage_validVisits_nodup a Ts hsinv
    · rw [if_neg hcon]
      exact List.nodup_nil
  · have hfst : (c.storagePtrs pContext).Pairwise (fun x y => x.1 ≠ y.1) := by
      have hnd : ((c.storagePtrs pContext).map Prod.fst).Nodup := by
        rw [EntityContext.storagePtrs_eq, List.map_map]
        have : (Prod.fst ∘ fun x : Nat × EntityComponentStorage =>
            (({ mContext := pContext, mIndex := x.1 } : StoragePtr), x.2))
            = (fun j => ({ mContext := pContext, mIndex := j } : StoragePtr)) ∘ Prod.fst := rfl
        rw [this, ← List.map_map, List.enum_map_fst]
        apply List.Nodup.map _ (List.nodup_range _)
        intro i j hij
        exact congrArg StoragePtr.mIndex hij
      exact List.pairwise_map.mp hnd
    apply List.Pairwise.imp_of_mem _ hfst
    intro x y hx hy hxy p hp1 hp2
    exact hxy (by rw [← hptr x hx p hp1, ← hptr y hy p hp2])

/-- A visit carries the header of its record and the components that
`GetComponent` returns for the record. -/
theorem World.visit_content (w : World) (p : EntityPtr) (s : EntityComponentStorage)
    (a : EntityArchetype) (Ts : List ComponentType) (hs : w.storage p.mStorage = some s)
    (ha : w.archetype s.mArchetype = some a) (hcon : a.ContainAllComponents Ts = true) :
    w.header p
        = some ((s.mChunks p.mChunkIndex).visit (GetComponentIndexesHelperClass.Call a Ts)
            p.mBlockIndex).header
      ∧ Ts.map (w.GetComponent p)
        = ((s.mChunks p.mChunkIndex).visit (GetComponentIndexesHelperClass.Call a Ts)
            p.mBlockIndex).components.map (fun slot => some (some slot))
      ∧ Ts.map (w.component p)
        = ((s.mChunks p.mChunkIndex).visit (GetComponentIndexesHelperClass.Call a Ts)
            p.mBlockIndex).values := by
  refine ⟨?_, ?_, ?_⟩
  · unfold World.header
    rw [hs]
    rfl
  · unfold EntityArchetype.ContainAllComponents at hcon
    simp only [EntityComponentChunk.visit]
    induction Ts with
    | nil => rfl
    | cons T Rest ih =>
      simp only [ContainComponentsHelperClass.All, Bool.and_eq_true, decide_eq_true_eq] at hcon
      simp only [List.map_cons, GetComponentIndexesHelperClass.Call, ih hcon.2]
      congr 1
      unfold World.GetComponent
      rw [hs]
      simp only [ha, EntityComponentStorage.GetComponent, EntityComponentChunk.GetComponent,
        EntityArchetype.GetComponentIndex, if_neg hcon.1]
  · unfold EntityArchetype.ContainAllComponents at hcon
    simp only [EntityComponentChunk.visit]
    induction Ts with
    | nil => rfl
    | cons T Rest ih =>
      simp only [ContainComponentsHelperClass.All, Bool.and_eq_true, decide_eq_true_eq] at hcon
      simp only [List.map_cons, GetComponentIndexesHelperClass.Call, ih hcon.2]
      congr 1
      unfold World.component World.GetComponent
      rw [hs]
      simp only [ha, EntityComponentStorage.GetComponent, EntityComponentChunk.GetComponent,
        EntityArchetype.GetComponentIndex, if_neg hcon.1]
      unfold World.load
      rw [hs]
      rfl

theorem foldl_add_eq_sum {α : Type} (g : α → Nat) (l : List α) :
    ∀ n : Nat, List.foldl (fun acc v => acc + g v) n l = n + (l.map g).sum := by
  induction l with
  | nil => intro n; rfl
  | cons x l ih =>
    intro n
    simp only [List.foldl_cons, List.map_cons, List.sum_cons, ih]
    omega

/-- The list `validVisits` of a world that satisfies the invariant: every valid
record of the context whose archetype contains every class of `Ts` occurs in it
exactly once and no other record occurs, and each visit carries the header of its
record and the components `GetComponent` returns for it. -/
theorem World.validVisits_spec (w : World) (pContext : Nat) (c : EntityContext)
    (Ts : List ComponentType) (hinv : w.Inv) (hctx : pContext < MAX_CONTEXT_COUNT)
    (hc : w.mEntityContexts pContext = some c) :
    ((w.validVisits pContext Ts).map Visit.pEntity).Nodup
      ∧ (∀ p, p ∈ (w.validVisits pContext Ts).map Visit.pEntity ↔
          (p.mStorage.mContext = pContext ∧ w.Live p
            ∧ ∃ s a, w.storage p.mStorage = some s ∧ w.archetype s.mArchetype = some a
              ∧ ∀ T, T ∈ Ts → T.typeId ∈ a.mComponentMetaMap.keys))
      ∧ (∀ v, v ∈ w.validVisits pContext Ts →
          w.header v.pEntity = some v.header
            ∧ Ts.map (w.GetComponent v.pEntity)
                = v.components.map (fun slot => some (some slot))
            ∧ Ts.map (w.component v.pEntity) = v.values) := by
  have hkeys : ∀ (s : EntityComponentStorage) (a : EntityArchetype) (q : StoragePtr),
      w.storage q = some s → w.archetype s.mArchetype = some a →
      (a.ContainAllComponents Ts = true ↔ ∀ T, T ∈ Ts → T.typeId ∈ a.mComponentMetaMap.keys) := by
    intro s a q hs ha
    have hlt : s.mArchetype < w.mArchetypeManager.objects.length := by
      by_contra hge
      unfold World.archetype at ha
      rw [List.getElem?_eq_none (by omega)] at ha
      cases ha
    exact a.ContainAllComponents_iff (hinv.2.1 _ hlt a ha).1 Ts
  refine ⟨w.validVisits_nodup pContext c Ts hinv hctx hc, ?_, ?_⟩
  · intro p
    rw [List.mem_map]
    constructor
    · rintro ⟨v, hv, rfl⟩
      obtain ⟨s, a, h1, hs, ha, hcon, hch, hbl, hvalid, _⟩ :=
        (w.mem_validVisits pContext c Ts hinv hctx hc v).mp hv
      exact ⟨h1, ⟨by rw [h1]; exact hctx, s, hs, hch, hbl, hvalid⟩, s, a, hs, ha,
        (hkeys s a _ hs ha).mp hcon⟩
    · rintro ⟨h1, ⟨_, s, hs, hch, hbl, hvalid⟩, s2, a, hs2, ha, hcon⟩
      have hs1 : w.storage p.mStorage = some s := hs
      rw [hs1] at hs2
      cases hs2
      obtain ⟨_, _, _, _, _, hsinv, hsctx, hsidx, _⟩ :=
        World.storage_path hinv (by rw [h1]; exact hctx) hs1
      obtain ⟨_, _, _, hchunks, _⟩ := hsinv
      obtain ⟨_, hcid, hcst, _⟩ := hchunks _ hch
      have hp : ((s.mChunks p.mChunkIndex).visit (GetComponentIndexesHelperClass.Call a Ts)
          p.mBlockIndex).pEntity = p := by
        simp only [EntityComponentChunk.visit, EntityComponentChunk.entityPtr, hcid, hcst,
          EntityComponentStorage.this, hsctx, hsidx]
      refine ⟨(s.mChunks p.mChunkIndex).visit (GetComponentIndexesHelperClass.Call a Ts)
        p.mBlockIndex, ?_, hp⟩
      rw [w.mem_validVisits pContext c Ts hinv hctx hc]
      rw [hp]
      exact ⟨s, a, h1, hs1, ha, (hkeys s a _ hs1 ha).mpr hcon, hch, hbl, hvalid, rfl⟩
  · intro v hv
    obtain ⟨s, a, h1, hs, ha, hcon, hch, hbl, hvalid, hveq⟩ :=
      (w.mem_validVisits pContext c Ts hinv hctx hc v).mp hv
    have h := w.visit_content v.pEntity s a Ts hs ha hcon
    rw [← hveq] at h
    exact h

/-- For every context of a world that satisfies the invariant and every list `Ts` of
component classes, `ForEach<Ts...>` of the context returns and calls the callback on
a list of visits in which every valid record of the context whose archetype contains
every class of `Ts` occurs exactly once and no other record occurs, each visit
carrying the header of its record and the components `GetComponent` returns for it;
a field summed by the callback is the sum of the field over these visits. -/
theorem ForEach_visits_of_Inv (w : World) (pContext : Nat) (c : EntityContext)
    (Ts : List ComponentType) (hinv : w.Inv) (hctx : pContext < MAX_CONTEXT_COUNT)
    (hc : w.mEntityContexts pContext = some c) :
    ∃ visits : List Visit,
      (∀ (σ : Type) (f : σ → Visit → σ) (acc : σ),
          c.ForEach w.mArchetypeManager Ts f acc = some (List.foldl f acc visits))
        ∧ (visits.map Visit.pEntity).Nodup
        ∧ (∀ p, p ∈ visits.map Visit.pEntity ↔
            (p.mStorage.mContext = pContext ∧ w.Live p
              ∧ ∃ s a, w.storage p.mStorage = some s ∧ w.archetype s.mArchetype = some a
                ∧ ∀ T, T ∈ Ts → T.typeId ∈ a.mComponentMetaMap.keys))
        ∧ (∀ v, v ∈ visits →
            w.header v.pEntity = some v.header
              ∧ Ts.map (w.GetComponent v.pEntity)
                  = v.components.map (fun slot => some (some slot))
              ∧ Ts.map (w.component v.pEntity) = v.values)
        ∧ (∀ field : Visit → Nat,
            c.ForEach w.mArchetypeManager Ts (fun acc v => acc + field v) 0
              = some ((visits.map field).sum)) := by
  obtain ⟨h1, h2, h3⟩ := w.validVisits_spec pContext c Ts hinv hctx hc
  refine ⟨w.validVisits pContext Ts, ?_, h1, h2, h3, ?_⟩
  · intro σ f acc
    exact EntityContext.ForEach_eq w pContext c Ts f acc hinv hctx hc
  · intro field
    rw [EntityContext.ForEach_eq w pContext c Ts _ 0 hinv hctx hc, foldl_add_eq_sum,
      Nat.zero_add]

set_option maxRecDepth 100000 in
/-- C7 (counterexample): in the world built by `CreateContext()`,
`CreateArchetype<ShieldFlySound, ManaParentGrid>()` and `CreateEntity` the record is
valid and the component map of its archetype has the type id of `ManaParentGrid`
among its keys, but both entries of the index table hold the type id of
`ShieldFlySound` (the meta data come from a cache keyed by the hash code, which the
two classes share), so `ForEach<ManaParentGrid>` of the context visits no record. -/
theorem ForEach_overlap :
    (World.run
        [WorldOp.createContext,
          WorldOp.createArchetype
            (ArchetypeArgs.components [ShieldFlySound, ManaParentGrid]),
          WorldOp.createEntity 0 0] World.new).isSome = true
      ∧ overlapWorld.mEntityContexts 0 = some overlapContext
      ∧ overlapWorld.Live exampleEntity
      ∧ exampleEntity.mStorage.mContext = 0
      ∧ (overlapWorld.GetArchetype exampleEntity).bind overlapWorld.archetype
          = some overlapSource
      ∧ overlapSource.mComponentMetaMap.keys
          = [ManaParentGrid.typeId, ShieldFlySound.typeId]
      ∧ (List.range 2).map overlapSource.mComponentIndexTable.mComponentTypeIds
          = [ShieldFlySound.typeId, ShieldFlySound.typeId]
      ∧ ¬ overlapWorld.Inv
      ∧ overlapContext.ForEach overlapWorld.mArchetypeManager [ManaParentGrid]
          (fun acc _ => acc + 1) 0 = some 0 := by
  refine ⟨by decide, ?_, by decide, by decide, eq_some_getD _ _ (by decide), by decide,
    by decide, by decide, by decide⟩
  have h : (overlapWorld.mEntityContexts 0).isSome = true := by decide
  unfold overlapContext
  cases hs : overlapWorld.mEntityContexts 0 with
  | none => rw [hs] at h; cases h
  | some c => rfl
/-! ## Parallel jobs -/

/-- One round of the loop of `Execute` on a runnable segment calls the callback on
the visits of the segment. -/
theorem Execute.segment_eq {σ : Type} (w : World) (Ts : List ComponentType) (f : σ → Visit → σ)
    (acc : σ) (it : ParallelJobChunkSegement) (h : w.runnable Ts it) :
    Execute.segment w Ts f (some acc) it = some (List.foldl f acc (w.segmentVisits Ts it)) := by
  obtain ⟨chunk, a, hchunk, ha, hcon⟩ := h
  unfold Execute.segment World.segmentVisits
  simp only [hchunk, ha]
  exact chunk.ForEach_range_eq a Ts f it.RangeStart it.RangeEnd acc hcon

/-- The loop of `Execute` over runnable segments calls the callback on the visits
of the segments, in order. -/
theorem Execute.foldl_segment_eq {σ : Type} (w : World) (Ts : List ComponentType)
    (f : σ → Visit → σ) (L : List ParallelJobChunkSegement) :
    ∀ acc : σ, (∀ it, it ∈ L → w.runnable Ts it) →
      List.foldl (Execute.segment w Ts f) (some acc) L
        = some (List.foldl f acc (L.flatMap (w.segmentVisits Ts))) := by
  induction L with
  | nil => intro acc _; rfl
  | cons it L ih =>
    intro acc h
    rw [List.foldl_cons, Execute.segment_eq w Ts f acc it (h it (List.mem_cons_self _ _)),
      ih _ (fun x hx => h x (List.mem_cons_of_mem _ hx)), List.flatMap_cons, List.foldl_append]

/-- The calls of `Execute` by `n` workers in turn, on a job whose segments are
runnable and whose start counter leaves `n` workers: every call returns, and worker
`j` calls the callback on the visits of the segments of `j`. -/
theorem ParallelJobBase.ExecuteEach_eq {σ : Type} (w : World) (f : σ → Visit → σ) (acc : σ)
    (n : Nat) :
    ∀ job : ParallelJobBase, job.mStartCounter + n ≤ job.mThreadCount →
      (∀ j it, it ∈ job.mDividedJobChunkSegmentArray j → w.runnable job.ComponentTypes it) →
      ∃ job2, ParallelJobBase.ExecuteEach w f acc n job
        = some (job2, (List.range' job.mStartCounter n).map (fun j =>
            List.foldl f acc
              ((job.mDividedJobChunkSegmentArray j).flatMap
                (w.segmentVisits job.ComponentTypes)))) := by
  induction n with
  | zero =>
    intro job _ _
    exact ⟨job, rfl⟩
  | succ n ih =>
    intro job hle hrun
    have hlt : job.mStartCounter < job.mThreadCount := by omega
    have hex := Execute.foldl_segment_eq w job.ComponentTypes f
      (job.mDividedJobChunkSegmentArray job.mStartCounter) acc (hrun job.mStartCounter)
    unfold ParallelJobBase.ExecuteEach ParallelJobBase.Execute
    simp only [if_pos hlt, hex]
    obtain ⟨job2, h2⟩ := ih
      { job with
        mStartCounter := job.mStartCounter + 1
        mCompleteCounter := job.mCompleteCounter + 1
        mState :=
          if job.mCompleteCounter + 1 = job.mThreadCount then ParallelJobState.Unprepared
          else ParallelJobState.Executing }
      (by simp only []; omega) hrun
    refine ⟨job2, ?_⟩
    rw [h2]
    simp only [Option.map_some', List.range'_succ, List.map_cons]

theorem foldl_record (l : List Visit) :
    ∀ acc : List Visit, List.foldl Visit.record acc l = acc ++ l := by
  induction l with
  | nil => intro acc; simp
  | cons x l ih =>
    intro acc
    rw [List.foldl_cons, ih]
    simp [Visit.record]

theorem World.dividedVisits_eq_sum (w : World) (Ts : List ComponentType) (threadCount : Nat)
    (segments : Nat → List ParallelJobChunkSegement) :
    w.dividedVisits Ts threadCount segments
      = ∑ j in Finset.range threadCount,
          (((segments j).flatMap (w.segmentVisits Ts) : List Visit) : Multiset Visit) := by
  unfold World.dividedVisits
  induction threadCount with
  | zero => rfl
  | succ n ih =>
    rw [List.range_succ, List.flatMap_append, ← Multiset.coe_add, ih, Finset.sum_range_succ]
    simp

/-- Appending a segment to the list of a worker adds the visits of the segment. -/
theorem World.dividedVisits_push (w : World) (Ts : List ComponentType) (threadCount : Nat)
    (segments : Nat → List ParallelJobChunkSegement) (j : Nat) (hj : j < threadCount)
    (it : ParallelJobChunkSegement) :
    w.dividedVisits Ts threadCount (setAt segments j (segments j ++ [it]))
      = w.dividedVisits Ts threadCount segments + ((w.segmentVisits Ts it : List Visit) :
          Multiset Visit) := by
  rw [World.dividedVisits_eq_sum, World.dividedVisits_eq_sum,
    ← Finset.add_sum_erase (Finset.range threadCount) _ (Finset.mem_range.mpr hj),
    ← Finset.add_sum_erase (Finset.range threadCount)
      (fun j => (((segments j).flatMap (w.segmentVisits Ts) : List Visit) : Multiset Visit))
      (Finset.mem_range.mpr hj)]
  have hrest : ∑ x in (Finset.range threadCount).erase j,
        (((setAt segments j (segments j ++ [it]) x).flatMap (w.segmentVisits Ts) : List Visit) :
          Multiset Visit)
      = ∑ x in (Finset.range threadCount).erase j,
        (((segments x).flatMap (w.segmentVisits Ts) : List Visit) : Multiset Visit) := by
    apply Finset.sum_congr rfl
    intro x hx
    rw [setAt_other _ _ _ _ (Finset.ne_of_mem_erase hx)]
  rw [hrest, setAt_same, List.flatMap_append, ← Multiset.coe_add]
  simp only [List.flatMap_cons, List.flatMap_nil, List.append_nil]
  abel

/-- The visits of two adjacent ranges of a chunk are the visits of their union. -/
theorem World.segmentVisits_append (w : World) (Ts : List ComponentType) (pChunk : ChunkPtr)
    (lo mid hi : Nat) (h1 : lo ≤ mid) (h2 : mid ≤ hi) :
    w.segmentVisits Ts { pChunk := pChunk, RangeStart := lo, RangeEnd := mid }
        ++ w.segmentVisits Ts { pChunk := pChunk, RangeStart := mid, RangeEnd := hi }
      = w.segmentVisits Ts { pChunk := pChunk, RangeStart := lo, RangeEnd := hi } := by
  unfold World.segmentVisits
  simp only []
  cases w.chunk pChunk with
  | none => rfl
  | some chunk =>
    simp only []
    cases w.archetype chunk.mArchetype with
    | none => rfl
    | some a =>
      simp only []
      rw [← List.map_append, chunk.validBlocks_append lo mid hi h1 h2]

/-- A segment whose range is empty has no visit. -/
theorem World.segmentVisits_nil (w : World) (Ts : List ComponentType) (pChunk : ChunkPtr)
    (lo hi : Nat) (h : hi ≤ lo) :
    w.segmentVisits Ts { pChunk := pChunk, RangeStart := lo, RangeEnd := hi } = [] := by
  unfold World.segmentVisits
  simp only []
  cases w.chunk pChunk with
  | none => rfl
  | some chunk =>
    simp only []
    cases w.archetype chunk.mArchetype with
    | none => rfl
    | some a =>
      simp only []
      rw [chunk.validBlocks_nil lo hi h]
      rfl

/-- One round of the inner loop of `Prepare` for a worker that is not the selected
one: the worker gets the next `entityCountPerThread` blocks. -/
theorem Prepare.thread_other (w : World) (Ts : List ComponentType) (pChunk : ChunkPtr)
    (threadCount entityCountPerChunk entityCountPerThread threadIndexSelected : Nat)
    (d : Division) (cur j : Nat) (hj : j < threadCount) (hne : j ≠ threadIndexSelected)
    (hrun : ∀ lo hi, w.runnable Ts { pChunk := pChunk, RangeStart := lo, RangeEnd := hi })
    (hd : ∀ j it, it ∈ d.segments j → w.runnable Ts it) :
    (Prepare.thread pChunk threadCount entityCountPerChunk entityCountPerThread
        threadIndexSelected (d, cur) j).2 = cur + entityCountPerThread
      ∧ w.dividedVisits Ts threadCount
          (Prepare.thread pChunk threadCount entityCountPerChunk entityCountPerThread
            threadIndexSelected (d, cur) j).1.segments
        = w.dividedVisits Ts threadCount d.segments
          + ((w.segmentVisits Ts
              { pChunk := pChunk, RangeStart := cur, RangeEnd := cur + entityCountPerThread } :
              List Visit) : Multiset Visit)
      ∧ (∀ j2 it, it ∈ (Prepare.thread pChunk threadCount entityCountPerChunk
            entityCountPerThread threadIndexSelected (d, cur) j).1.segments j2 →
          w.runnable Ts it) := by
  unfold Prepare.thread
  simp only [if_neg hne]
  by_cases hk : 0 < entityCountPerThread
  · have hpos : ((cur + entityCountPerThread : Nat) : Int) - (cur : Int) > 0 := by omega
    rw [if_pos hpos]
    refine ⟨rfl, w.dividedVisits_push Ts threadCount d.segments j hj _, ?_⟩
    intro j2 it hit
    simp only [] at hit
    by_cases hj2 : j2 = j
    · subst hj2
      rw [setAt_same, List.mem_append, List.mem_singleton] at hit
      rcases hit with hit | rfl
      · exact hd _ it hit
      · exact hrun _ _
    · rw [setAt_other _ _ _ _ hj2] at hit
      exact hd _ it hit
  · have hneg : ¬ ((cur + entityCountPerThread : Nat) : Int) - (cur : Int) > 0 := by omega
    rw [if_neg hneg]
    refine ⟨rfl, ?_, hd⟩
    rw [w.segmentVisits_nil Ts pChunk cur (cur + entityCountPerThread) (by omega)]
    simp

/-- One round of the inner loop of `Prepare` for the selected worker: the worker
gets the blocks from `entityCountPerThread * (threadCount - 1)` to the end of the
chunk. -/
theorem Prepare.thread_selected (w : World) (Ts : List ComponentType) (pChunk : ChunkPtr)
    (threadCount entityCountPerChunk entityCountPerThread : Nat)
    (d : Division) (cur j : Nat) (hj : j < threadCount)
    (hrun : ∀ lo hi, w.runnable Ts { pChunk := pChunk, RangeStart := lo, RangeEnd := hi })
    (hd : ∀ j it, it ∈ d.segments j → w.runnable Ts it) :
    (Prepare.thread pChunk threadCount entityCountPerChunk entityCountPerThread
        j (d, cur) j).2 = cur
      ∧ w.dividedVisits Ts threadCount
          (Prepare.thread pChunk threadCount entityCountPerChunk entityCountPerThread
            j (d, cur) j).1.segments
        = w.dividedVisits Ts threadCount d.segments
          + ((w.segmentVisits Ts
              { pChunk := pChunk, RangeStart := entityCountPerThread * (threadCount - 1),
                RangeEnd := entityCountPerChunk } : List Visit) : Multiset Visit)
      ∧ (∀ j2 it, it ∈ (Prepare.thread pChunk threadCount entityCountPerChunk
            entityCountPerThread j (d, cur) j).1.segments j2 →
          w.runnable Ts it) := by
  unfold Prepare.thread
  simp only [if_true]
  by_cases hk : entityCountPerThread * (threadCount - 1) < entityCountPerChunk
  · have hpos : ((entityCountPerChunk : Nat) : Int)
        - ((entityCountPerThread * (threadCount - 1) : Nat) : Int) > 0 := by omega
    rw [if_pos hpos]
    refine ⟨rfl, w.dividedVisits_push Ts threadCount d.segments j hj _, ?_⟩
    intro j2 it hit
    simp only [] at hit
    by_cases hj2 : j2 = j
    · subst hj2
      rw [setAt_same, List.mem_append, List.mem_singleton] at hit
      rcases hit with hit | rfl
      · exact hd _ it hit
      · exact hrun _ _
    · rw [setAt_other _ _ _ _ hj2] at hit
      exact hd _ it hit
  · have hneg : ¬ ((entityCountPerChunk : Nat) : Int)
        - ((entityCountPerThread * (threadCount - 1) : Nat) : Int) > 0 := by omega
    rw [if_neg hneg]
    refine ⟨rfl, ?_, hd⟩
    rw [w.segmentVisits_nil Ts pChunk _ _ (by omega)]
    simp

theorem min_element_lt (a : Nat → Int) (n : Nat) (hn : 0 < n) : min_element a n < n := by
  unfold min_element
  have h : ∀ (l : List Nat) (init : Nat), init < n → (∀ i, i ∈ l → i < n) →
      List.foldl (fun smallest i => if a i < a smallest then i else smallest) init l < n := by
    intro l
    induction l with
    | nil => intro init hi _; exact hi
    | cons x l ih =>
      intro init hi hl
      rw [List.foldl_cons]
      apply ih
      · by_cases hx : a x < a init
        · rw [if_pos hx]
          exact hl x (List.mem_cons_self _ _)
        · rw [if_neg hx]
          exact hi
      · intro i hi2
        exact hl i (List.mem_cons_of_mem _ hi2)
  exact h _ 0 hn (fun i hi => List.mem_range.mp hi)

/-- The inner loop of `Prepare` for one chunk hands out every block of the chunk
once: the visits of the workers grow by the visits of the whole chunk. -/
theorem Prepare.chunk_eq (w : World) (Ts : List ComponentType) (pStorage : StoragePtr)
    (threadCount entityCountPerChunk entityCountPerThread : Nat) (d : Division) (i : Nat)
    (hT : 0 < threadCount) (hk : entityCountPerThread * threadCount ≤ entityCountPerChunk)
    (hrun : ∀ lo hi, w.runnable Ts
      { pChunk := { mStorage := pStorage, mChunkIndex := i }, RangeStart := lo, RangeEnd := hi })
    (hd : ∀ j it, it ∈ d.segments j → w.runnable Ts it) :
    w.dividedVisits Ts threadCount
        (Prepare.chunk pStorage threadCount entityCountPerChunk entityCountPerThread d i).segments
      = w.dividedVisits Ts threadCount d.segments
        + ((w.segmentVisits Ts
            { pChunk := { mStorage := pStorage, mChunkIndex := i }, RangeStart := 0,
              RangeEnd := entityCountPerChunk } : List Visit) : Multiset Visit)
      ∧ (∀ j it,
          it ∈ (Prepare.chunk pStorage threadCount entityCountPerChunk entityCountPerThread
            d i).segments j → w.runnable Ts it) := by
  unfold Prepare.chunk
  simp only []
  have hsel := min_element_lt d.threadTaskCounts threadCount hT
  generalize min_element d.threadTaskCounts threadCount = sel at hsel
  have key : ∀ m, m ≤ threadCount →
      ∃ cnt, (List.foldl
          (Prepare.thread { mStorage := pStorage, mChunkIndex := i } threadCount
            entityCountPerChunk entityCountPerThread sel) (d, 0) (List.range m)).2
          = entityCountPerThread * cnt
        ∧ cnt + (if sel < m then 1 else 0) = m
        ∧ w.dividedVisits Ts threadCount (List.foldl
            (Prepare.thread { mStorage := pStorage, mChunkIndex := i } threadCount
              entityCountPerChunk entityCountPerThread sel) (d, 0) (List.range m)).1.segments
          = w.dividedVisits Ts threadCount d.segments
            + ((w.segmentVisits Ts
                { pChunk := { mStorage := pStorage, mChunkIndex := i }, RangeStart := 0,
                  RangeEnd := entityCountPerThread * cnt } : List Visit) : Multiset Visit)
            + (if sel < m then
                ((w.segmentVisits Ts
                  { pChunk := { mStorage := pStorage, mChunkIndex := i },
                    RangeStart := entityCountPerThread * (threadCount - 1),
                    RangeEnd := entityCountPerChunk } : List Visit) : Multiset Visit)
              else 0)
        ∧ (∀ j it, it ∈ (List.foldl
            (Prepare.thread { mStorage := pStorage, mChunkIndex := i } threadCount
              entityCountPerChunk entityCountPerThread sel) (d, 0) (List.range m)).1.segments j →
            w.runnable Ts it) := by
    intro m
    induction m with
    | zero =>
      intro _
      refine ⟨0, rfl, by simp, ?_, hd⟩
      simp only [List.range_zero, List.foldl_nil, Nat.mul_zero, Nat.not_lt_zero, if_false,
        add_zero]
      rw [w.segmentVisits_nil Ts _ 0 0 (le_refl _)]
      simp
    | succ m ih =>
      intro hm
      obtain ⟨cnt, h1, h2, h3, h4⟩ := ih (by omega)
      rw [List.range_succ, List.foldl_append]
      simp only [List.foldl_cons, List.foldl_nil]
      generalize List.foldl
          (Prepare.thread { mStorage := pStorage, mChunkIndex := i } threadCount
            entityCountPerChunk entityCountPerThread sel) (d, 0) (List.range m) = st
        at h1 h2 h3 h4
      obtain ⟨dm, cur⟩ := st
      simp only [] at h1 h3 h4
      by_cases hms : m = sel
      · subst hms
        obtain ⟨e1, e2, e3⟩ := Prepare.thread_selected w Ts
          { mStorage := pStorage, mChunkIndex := i } threadCount entityCountPerChunk
          entityCountPerThread dm cur m (by omega) hrun h4
        refine ⟨cnt, by rw [e1, h1], ?_, ?_, e3⟩
        · simp only [Nat.lt_irrefl, if_false, Nat.lt_succ_self, if_true] at h2 ⊢
          omega
        · rw [e2, h3]
          simp only [Nat.lt_irrefl, if_false, Nat.lt_succ_self, if_true, add_zero]
      · obtain ⟨e1, e2, e3⟩ := Prepare.thread_other w Ts
          { mStorage := pStorage, mChunkIndex := i } threadCount entityCountPerChunk
          entityCountPerThread sel dm cur m (by omega) hms hrun h4
        have hiff : sel < m + 1 ↔ sel < m := by
          constructor
          · intro h; omega
          · intro h; omega
        refine ⟨cnt + 1, by rw [e1, h1, Nat.mul_succ], ?_, ?_, e3⟩
        · simp only [hiff]
          omega
        · rw [e2, h3, h1, Nat.mul_succ,
            ← w.segmentVisits_append Ts { mStorage := pStorage, mChunkIndex := i } 0
              (entityCountPerThread * cnt) (entityCountPerThread * cnt + entityCountPerThread)
              (Nat.zero_le _) (Nat.le_add_right _ _),
            ← Multiset.coe_add]
          simp only [hiff]
          abel
  obtain ⟨cnt, h1, h2, h3, h4⟩ := key threadCount (le_refl _)
  refine ⟨?_, h4⟩
  rw [h3]
  simp only [hsel, if_true] at h2 ⊢
  have hcnt : cnt = threadCount - 1 := by omega
  subst hcnt
  have hle : entityCountPerThread * (threadCount - 1) ≤ entityCountPerChunk :=
    le_trans (Nat.mul_le_mul_left _ (Nat.sub_le _ _)) hk
  rw [add_assoc, Multiset.coe_add,
    w.segmentVisits_append Ts { mStorage := pStorage, mChunkIndex := i } 0
      (entityCountPerThread * (threadCount - 1)) entityCountPerChunk (Nat.zero_le _) hle]

/-- The loops of `Prepare` for one storage whose archetype contains all of `Ts` hand
out every block of every chunk of the storage once. -/
theorem Prepare.storage_eq (w : World) (Ts : List ComponentType) (threadCount : Nat)
    (d : Division) (ps : StoragePtr × EntityComponentStorage) (a : EntityArchetype)
    (hT : 0 < threadCount) (hs : w.storage ps.1 = some ps.2) (hsinv : ps.2.Inv)
    (ha : w.archetype ps.2.mArchetype = some a) (hcon : a.ContainAllComponents Ts = true)
    (hd : ∀ j it, it ∈ d.segments j → w.runnable Ts it) :
    w.dividedVisits Ts threadCount (Prepare.storage threadCount d ps).segments
      = w.dividedVisits Ts threadCount d.segments
        + ((ps.2.validVisits a Ts : List Visit) : Multiset Visit)
      ∧ (∀ j it, it ∈ (Prepare.storage threadCount d ps).segments j → w.runnable Ts it) := by
  obtain ⟨_, _, _, hchunks, _⟩ := hsinv
  have hk : ps.2.mEntityCountPerChunk / threadCount / 16 * 16 * threadCount
      ≤ ps.2.mEntityCountPerChunk :=
    le_trans (Nat.mul_le_mul_right _ (Nat.div_mul_le_self _ _)) (Nat.div_mul_le_self _ _)
  have hchunk : ∀ i, w.chunk { mStorage := ps.1, mChunkIndex := i } = some (ps.2.mChunks i) := by
    intro i
    unfold World.chunk
    rw [hs]
    rfl
  have hrun : ∀ i, i < ps.2.mChunkCount → ∀ lo hi, w.runnable Ts
      { pChunk := { mStorage := ps.1, mChunkIndex := i }, RangeStart := lo, RangeEnd := hi } := by
    intro i hi lo hi2
    exact ⟨ps.2.mChunks i, a, hchunk i, by rw [(hchunks i hi).2.2.2.1]; exact ha, hcon⟩
  have hvis : ∀ i, i < ps.2.mChunkCount →
      w.segmentVisits Ts
        { pChunk := { mStorage := ps.1, mChunkIndex := i }, RangeStart := 0,
          RangeEnd := ps.2.mEntityCountPerChunk }
      = ((ps.2.mChunks i).validBlocks 0 (ps.2.mChunks i).mBlockCount).map
          ((ps.2.mChunks i).visit (GetComponentIndexesHelperClass.Call a Ts)) := by
    intro i hi
    unfold World.segmentVisits
    simp only [hchunk i, (hchunks i hi).2.2.2.1, ha, (hchunks i hi).2.2.2.2.1]
  unfold Prepare.storage EntityComponentStorage.validVisits
  simp only []
  have key : ∀ m, m ≤ ps.2.mChunkCount →
      w.dividedVisits Ts threadCount
          (List.foldl (Prepare.chunk ps.1 threadCount ps.2.mEntityCountPerChunk
            (ps.2.mEntityCountPerChunk / threadCount / 16 * 16)) d (List.range m)).segments
        = w.dividedVisits Ts threadCount d.segments
          + (((List.range m).flatMap (fun i =>
              ((ps.2.mChunks i).validBlocks 0 (ps.2.mChunks i).mBlockCount).map
                ((ps.2.mChunks i).visit (GetComponentIndexesHelperClass.Call a Ts))) :
              List Visit) : Multiset Visit)
        ∧ (∀ j it, it ∈ (List.foldl (Prepare.chunk ps.1 threadCount ps.2.mEntityCountPerChunk
            (ps.2.mEntityCountPerChunk / threadCount / 16 * 16)) d (List.range m)).segments j →
            w.runnable Ts it) := by
    intro m
    induction m with
    | zero =>
      intro _
      refine ⟨?_, hd⟩
      simp
    | succ m ih =>
      intro hm
      obtain ⟨h1, h2⟩ := ih (by omega)
      rw [List.range_succ, List.foldl_append, List.flatMap_append]
      simp only [List.foldl_cons, List.foldl_nil, List.flatMap_cons, List.flatMap_nil,
        List.append_nil]
      obtain ⟨e1, e2⟩ := Prepare.chunk_eq w Ts ps.1 threadCount ps.2.mEntityCountPerChunk
        (ps.2.mEntityCountPerChunk / threadCount / 16 * 16) _ m hT hk (hrun m (by omega)) h2
      refine ⟨?_, e2⟩
      rw [e1, h1, hvis m (by omega), ← Multiset.coe_add, add_assoc]
  exact key _ (le_refl _)

/-- The loop of `Prepare` over storages whose archetypes contain all of `Ts` hands
out every block of every chunk of these storages once. -/
theorem Prepare.storages_eq (w : World) (Ts : List ComponentType) (threadCount : Nat)
    (hT : 0 < threadCount) (vecStorages : List (StoragePtr × EntityComponentStorage)) :
    ∀ d : Division,
      (∀ ps, ps ∈ vecStorages → w.storage ps.1 = some ps.2 ∧ ps.2.Inv
        ∧ ∃ a, w.archetype ps.2.mArchetype = some a ∧ a.ContainAllComponents Ts = true) →
      (∀ j it, it ∈ d.segments j → w.runnable Ts it) →
      w.dividedVisits Ts threadCount
          (List.foldl (Prepare.storage threadCount) d vecStorages).segments
        = w.dividedVisits Ts threadCount d.segments
          + ((vecStorages.flatMap (w.storageVisits Ts) : List Visit) : Multiset Visit)
        ∧ (∀ j it, it ∈ (List.foldl (Prepare.storage threadCount) d vecStorages).segments j →
            w.runnable Ts it) := by
  induction vecStorages with
  | nil =>
    intro d _ hd
    refine ⟨?_, hd⟩
    simp
  | cons ps l ih =>
    intro d hall hd
    obtain ⟨hs, hsinv, a, ha, hcon⟩ := hall ps (List.mem_cons_self _ _)
    obtain ⟨e1, e2⟩ := Prepare.storage_eq w Ts threadCount d ps a hT hs hsinv ha hcon hd
    obtain ⟨g1, g2⟩ := ih (Prepare.storage threadCount d ps)
      (fun x hx => hall x (List.mem_cons_of_mem _ hx)) e2
    rw [List.foldl_cons]
    refine ⟨?_, g2⟩
    have hv : w.storageVisits Ts ps = ps.2.validVisits a Ts := by
      unfold World.storageVisits
      simp only [ha, hcon, if_true]
    rw [g1, e1, List.flatMap_cons, hv, ← Multiset.coe_add, add_assoc]

/-- The storages `Prepare` collects in a world that satisfies the invariant: the
storages of the context whose archetype contains all of `Ts`; their visits are
`validVisits`. -/
theorem World.matchingStorages_spec (w : World) (pContext : Nat) (c : EntityContext)
    (Ts : List ComponentType) (hinv : w.Inv) (hctx : pContext < MAX_CONTEXT_COUNT)
    (hc : w.mEntityContexts pContext = some c) :
    ∃ vecStorages, w.matchingStorages pContext Ts = some vecStorages
      ∧ (∀ ps, ps ∈ vecStorages → w.storage ps.1 = some ps.2 ∧ ps.2.Inv
          ∧ ∃ a, w.archetype ps.2.mArchetype = some a ∧ a.ContainAllComponents Ts = true)
      ∧ vecStorages.flatMap (w.storageVisits Ts) = w.validVisits pContext Ts := by
  have hall : ∀ ps, ps ∈ c.storagePtrs pContext →
      w.storage ps.1 = some ps.2 ∧ ps.2.Inv ∧ ∃ a, w.archetype ps.2.mArchetype = some a :=
    fun ps hps => ⟨(World.storagePtrs_inv hinv hctx hc hps).1,
      (World.storagePtrs_inv hinv hctx hc hps).2.1,
      (World.storagePtrs_inv hinv hctx hc hps).2.2.2⟩
  unfold World.matchingStorages World.validVisits
  rw [hc]
  simp only []
  have key : ∀ (l acc : List (StoragePtr × EntityComponentStorage)),
      (∀ ps, ps ∈ l →
        w.storage ps.1 = some ps.2 ∧ ps.2.Inv ∧ ∃ a, w.archetype ps.2.mArchetype = some a) →
      (∀ ps, ps ∈ acc → w.storage ps.1 = some ps.2 ∧ ps.2.Inv
        ∧ ∃ a, w.archetype ps.2.mArchetype = some a ∧ a.ContainAllComponents Ts = true) →
      ∃ vecStorages,
        List.foldl
            (fun acc ps =>
              match acc, w.archetype ps.2.mArchetype with
              | some vecStorages, some a =>
                if a.ContainAllComponents Ts then some (vecStorages ++ [ps]) else some vecStorages
              | _, _ => none)
            (some acc) l = some vecStorages
          ∧ (∀ ps, ps ∈ vecStorages → w.storage ps.1 = some ps.2 ∧ ps.2.Inv
              ∧ ∃ a, w.archetype ps.2.mArchetype = some a ∧ a.ContainAllComponents Ts = true)
          ∧ vecStorages.flatMap (w.storageVisits Ts)
              = acc.flatMap (w.storageVisits Ts) ++ l.flatMap (w.storageVisits Ts) := by
    intro l
    induction l with
    | nil =>
      intro acc _ hacc
      exact ⟨acc, rfl, hacc, by simp⟩
    | cons ps l ih =>
      intro acc hl hacc
      obtain ⟨hs, hsinv, a, ha⟩ := hl ps (List.mem_cons_self _ _)
      rw [List.foldl_cons]
      simp only [ha]
      have hv : w.storageVisits Ts ps
          = if a.ContainAllComponents Ts then ps.2.validVisits a Ts else [] := by
        unfold World.storageVisits
        rw [ha]
      by_cases hcon : a.ContainAllComponents Ts = true
      · rw [if_pos hcon]
        obtain ⟨vec, h1, h2, h3⟩ := ih (acc ++ [ps])
          (fun x hx => hl x (List.mem_cons_of_mem _ hx))
          (by
            intro x hx
            rw [List.mem_append, List.mem_singleton] at hx
            rcases hx with hx | rfl
            · exact hacc x hx
            · exact ⟨hs, hsinv, a, ha, hcon⟩)
        refine ⟨vec, h1, h2, ?_⟩
        rw [h3, List.flatMap_append, List.flatMap_cons, List.append_assoc]
        simp
      · rw [if_neg hcon]
        obtain ⟨vec, h1, h2, h3⟩ := ih acc (fun x hx => hl x (List.mem_cons_of_mem _ hx)) hacc
        refine ⟨vec, h1, h2, ?_⟩
        rw [h3, List.flatMap_cons, hv, if_neg hcon, List.nil_append]
  obtain ⟨vec, h1, h2, h3⟩ := key (c.storagePtrs pContext) [] hall
    (fun ps hps => absurd hps (List.not_mem_nil _))
  exact ⟨vec, h1, h2, by rw [h3]; rfl⟩

/-- The method `Prepare` in a world that satisfies the invariant, for at least one
worker: it returns, the job has the requested worker count and a start counter of
zero, its segments are runnable, and the visits of the segments of the workers are
`validVisits`, each once. -/
theorem ParallelJobBase.Prepare_spec (job : ParallelJobBase) (w : World) (pContext : Nat)
    (c : EntityContext) (threadCount : Nat) (hinv : w.Inv)
    (hctx : pContext < MAX_CONTEXT_COUNT) (hc : w.mEntityContexts pContext = some c)
    (h1 : 1 ≤ threadCount) (h2 : threadCount ≤ MAX_THREAD_COUNT)
    (hstate : job.mState ≠ ParallelJobState.Executing) :
    ∃ job1, job.Prepare w pContext threadCount = some job1
      ∧ job1.ComponentTypes = job.ComponentTypes
      ∧ job1.mThreadCount = threadCount
      ∧ job1.mStartCounter = 0
      ∧ (∀ j it, it ∈ job1.mDividedJobChunkSegmentArray j → w.runnable job.ComponentTypes it)
      ∧ w.dividedVisits job.ComponentTypes threadCount job1.mDividedJobChunkSegmentArray
          = ((w.validVisits pContext job.ComponentTypes : List Visit) : Multiset Visit) := by
  obtain ⟨vec, hvec, hall, hvis⟩ :=
    w.matchingStorages_spec pContext c job.ComponentTypes hinv hctx hc
  obtain ⟨e1, e2⟩ := Prepare.storages_eq w job.ComponentTypes threadCount h1 vec
    { segments := fun _ => [], threadTaskCounts := fun _ => 0 } hall
    (fun j it hit => absurd hit (List.not_mem_nil _))
  have hzero : w.dividedVisits job.ComponentTypes threadCount (fun _ => []) = 0 := by
    rw [World.dividedVisits_eq_sum]
    simp
  simp only [] at e1
  rw [hzero, zero_add, hvis] at e1
  refine ⟨{ job with
            mContext := some pContext
            mThreadCount := threadCount
            mStartCounter := 0
            mCompleteCounter := 0
            mDividedJobChunkSegmentArray :=
              (List.foldl (Prepare.storage threadCount)
                { segments := fun _ => [], threadTaskCounts := fun _ => 0 } vec).segments },
    ?_, rfl, rfl, rfl, e2, e1⟩
  unfold ParallelJobBase.Prepare
  rw [if_pos ⟨h2, hstate⟩, hvec]
  simp only []
  cases vec with
  | nil => rfl
  | cons ps l =>
    have hT : ¬ threadCount = 0 := by omega
    simp only [List.isEmpty_cons, Bool.false_eq_true, if_false, hT]

/-- For every context of a world that satisfies the invariant, every list of
requested component classes and every worker count from 1 to `MAX_THREAD_COUNT`,
`Prepare` returns, and then `Execute` run once for each worker returns each time and
worker `j` calls the callback on the `j`-th of `threadCount` lists of visits; the
visits of these lists together are, each once, the visits of a list `slots` in which
every valid record of the context whose archetype contains every requested class
occurs exactly once and no other record occurs; the sum of the per-worker numbers of
visits is the number of these records. -/
theorem Prepare_Execute_visits_of_Inv (w : World) (pContext : Nat) (c : EntityContext)
    (job : ParallelJobBase) (threadCount : Nat) (hinv : w.Inv)
    (hctx : pContext < MAX_CONTEXT_COUNT) (hc : w.mEntityContexts pContext = some c)
    (h1 : 1 ≤ threadCount) (h2 : threadCount ≤ MAX_THREAD_COUNT)
    (hstate : job.mState ≠ ParallelJobState.Executing) :
    ∃ (job1 : ParallelJobBase) (visits : List (List Visit)) (slots : List Visit),
      job.Prepare w pContext threadCount = some job1
        ∧ visits.length = threadCount
        ∧ (∀ (σ : Type) (f : σ → Visit → σ) (acc : σ),
            ∃ job2, ParallelJobBase.ExecuteEach w f acc threadCount job1
              = some (job2, visits.map (List.foldl f acc)))
        ∧ visits.flatten.Perm slots
        ∧ (visits.map List.length).sum = slots.length
        ∧ (slots.map Visit.pEntity).Nodup
        ∧ (∀ p, p ∈ slots.map Visit.pEntity ↔
            (p.mStorage.mContext = pContext ∧ w.Live p
              ∧ ∃ s a, w.storage p.mStorage = some s ∧ w.archetype s.mArchetype = some a
                ∧ ∀ T, T ∈ job.ComponentTypes → T.typeId ∈ a.mComponentMetaMap.keys))
        ∧ (∀ v, v ∈ slots →
            w.header v.pEntity = some v.header
              ∧ job.ComponentTypes.map (w.GetComponent v.pEntity)
                  = v.components.map (fun slot => some (some slot))
              ∧ job.ComponentTypes.map (w.component v.pEntity) = v.values) := by
  obtain ⟨job1, hprep, g1, g2, g3, g4, g5⟩ :=
    job.Prepare_spec w pContext c threadCount hinv hctx hc h1 h2 hstate
  obtain ⟨s1, s2, s3⟩ := w.validVisits_spec pContext c job.ComponentTypes hinv hctx hc
  have hperm : ((List.range' 0 threadCount).map (fun j =>
      (job1.mDividedJobChunkSegmentArray j).flatMap
        (w.segmentVisits job.ComponentTypes))).flatten.Perm
      (w.validVisits pContext job.ComponentTypes) := by
    apply Multiset.coe_eq_coe.mp
    rw [← g5]
    unfold World.dividedVisits
    rw [List.flatMap_def, List.range_eq_range']
  refine ⟨job1, (List.range' 0 threadCount).map (fun j =>
      (job1.mDividedJobChunkSegmentArray j).flatMap (w.segmentVisits job.ComponentTypes)),
    w.validVisits pContext job.ComponentTypes, hprep, by simp, ?_, hperm, ?_, s1, s2, s3⟩
  · intro σ f acc
    obtain ⟨job2, hex⟩ := ParallelJobBase.ExecuteEach_eq w f acc threadCount job1
      (by rw [g2, g3]; omega) (by rw [g1]; exact g4)
    refine ⟨job2, ?_⟩
    rw [hex, g1, g3, List.map_map]
    rfl
  · rw [← hperm.length_eq, List.length_flatten]

set_option maxRecDepth 100000 in
/-- C6 (counterexample): in the world built by `CreateContext()`,
`CreateArchetype<ShieldFlySound, ManaParentGrid>()` and `CreateEntity` the record is
valid and the component map of its archetype has the type id of `ManaParentGrid`
among its keys, but a job for `ManaParentGrid` prepared for one worker gives that
worker no segment, and `Execute` visits no record. -/
theorem Prepare_Execute_overlap :
    overlapWorld.Live exampleEntity
      ∧ exampleEntity.mStorage.mContext = 0
      ∧ (overlapWorld.GetArchetype exampleEntity).bind overlapWorld.archetype
          = some overlapSource
      ∧ ManaParentGrid.typeId ∈ overlapSource.mComponentMetaMap.keys
      ∧ (((ParallelJobBase.new [ManaParentGrid]).Prepare overlapWorld 0 1).map
          (fun job1 => job1.mDividedJobChunkSegmentArray 0)) = some []
      ∧ ((ParallelJobBase.new [ManaParentGrid]).Prepare overlapWorld 0 1).bind
          (fun job1 =>
            (ParallelJobBase.ExecuteEach overlapWorld (fun acc _ => acc + 1) 0 1 job1).map
              Prod.snd) = some [0] := by
  refine ⟨by decide, by decide, eq_some_getD _ _ (by decide), by decide, by decide, by decide⟩
/-! ## Construction of archetypes -/

/-- What the loop of the constructor of `EntityArchetype` does from position `i` on:
it leaves the scalar members and the entries below `i` alone and writes entry
`i + j` from the `j`-th remaining map entry. -/
theorem EntityArchetype.fill_spec (rest : ComponentMetaMap) :
    ∀ (i currentOffset : Nat) (a : EntityArchetype), a.mComponentIndexTable.mComponentCount = i →
      (EntityArchetype.fill rest i currentOffset a).mArchetypeId = a.mArchetypeId
        ∧ (EntityArchetype.fill rest i currentOffset a).mComponentMetaMap = a.mComponentMetaMap
        ∧ (EntityArchetype.fill rest i currentOffset a).mComponentCount = a.mComponentCount
        ∧ (EntityArchetype.fill rest i currentOffset a).mStoragesInContext = a.mStoragesInContext
        ∧ (EntityArchetype.fill rest i currentOffset a).mComponentIndexTable.mComponentCount
            = i + rest.length
        ∧ (∀ j, j < rest.length → ∀ e, e ∈ rest[j]? →
            (EntityArchetype.fill rest i currentOffset a).mComponentIndexTable.mComponentTypeIds
                (i + j) = e.2.typeId
              ∧ (EntityArchetype.fill rest i currentOffset a).mComponentTypeIds (i + j)
                  = e.2.typeId
              ∧ (EntityArchetype.fill rest i currentOffset a).mComponentHashes (i + j)
                  = e.2.hashCode
              ∧ (EntityArchetype.fill rest i currentOffset a).mComponentSizes (i + j) = e.2.size
              ∧ (EntityArchetype.fill rest i currentOffset a).mComponentAlignments (i + j)
                  = e.2.alignment
              ∧ (EntityArchetype.fill rest i currentOffset a).mComponentConstructors (i + j)
                  = some e.2.constructor)
        ∧ (∀ j, j < i →
            (EntityArchetype.fill rest i currentOffset a).mComponentIndexTable.mComponentTypeIds j
                = a.mComponentIndexTable.mComponentTypeIds j
              ∧ (EntityArchetype.fill rest i currentOffset a).mComponentTypeIds j
                  = a.mComponentTypeIds j
              ∧ (EntityArchetype.fill rest i currentOffset a).mComponentHashes j
                  = a.mComponentHashes j
              ∧ (EntityArchetype.fill rest i currentOffset a).mComponentSizes j
                  = a.mComponentSizes j
              ∧ (EntityArchetype.fill rest i currentOffset a).mComponentAlignments j
                  = a.mComponentAlignments j
              ∧ (EntityArchetype.fill rest i currentOffset a).mComponentConstructors j
                  = a.mComponentConstructors j) := by
  induction rest with
  | nil =>
    intro i off a hi
    exact ⟨rfl, rfl, rfl, rfl, hi, fun j hj => absurd hj (Nat.not_lt_zero _),
      fun j _ => ⟨rfl, rfl, rfl, rfl, rfl, rfl⟩⟩
  | cons it rest ih =>
    intro i off a hi
    unfold EntityArchetype.fill
    have hA : ∃ a2 : EntityArchetype,
        a2 = { a with
          mComponentHashes := setAt a.mComponentHashes i it.2.hashCode
          mComponentTypeIds := setAt a.mComponentTypeIds i it.2.typeId
          mComponentSizes := setAt a.mComponentSizes i it.2.size
          mComponentAlignments := setAt a.mComponentAlignments i it.2.alignment
          mComponentOffsets := setAt a.mComponentOffsets i off
          mComponentConstructors := setAt a.mComponentConstructors i (some it.2.constructor)
          mComponentIndexTable := (a.mComponentIndexTable.Add it.2.typeId).1 } := ⟨_, rfl⟩
    obtain ⟨a2, ha2⟩ := hA
    rw [← ha2]
    have f1 : a2.mArchetypeId = a.mArchetypeId := by rw [ha2]
    have f2 : a2.mComponentMetaMap = a.mComponentMetaMap := by rw [ha2]
    have f3 : a2.mComponentCount = a.mComponentCount := by rw [ha2]
    have f4 : a2.mStoragesInContext = a.mStoragesInContext := by rw [ha2]
    have f5 : a2.mComponentIndexTable.mComponentCount = i + 1 := by
      rw [ha2]
      simp [LinearComponentIndexTable.Add, hi]
    have f6 : a2.mComponentIndexTable.mComponentTypeIds
        = setAt a.mComponentIndexTable.mComponentTypeIds i it.2.typeId := by
      rw [ha2]
      simp [LinearComponentIndexTable.Add, hi]
    have f7 : a2.mComponentTypeIds = setAt a.mComponentTypeIds i it.2.typeId := by rw [ha2]
    have f8 : a2.mComponentHashes = setAt a.mComponentHashes i it.2.hashCode := by rw [ha2]
    have f9 : a2.mComponentSizes = setAt a.mComponentSizes i it.2.size := by rw [ha2]
    have f10 : a2.mComponentAlignments = setAt a.mComponentAlignments i it.2.alignment := by
      rw [ha2]
    have f11 : a2.mComponentConstructors
        = setAt a.mComponentConstructors i (some it.2.constructor) := by rw [ha2]
    obtain ⟨h1, h2, h3, h4, h5, h6, h7⟩ := ih (i + 1) (u64 (off + it.2.size)) a2 f5
    refine ⟨by rw [h1, f1], by rw [h2, f2], by rw [h3, f3], by rw [h4, f4], ?_, ?_, ?_⟩
    · rw [h5, List.length_cons]
      omega
    · intro j hj e he
      cases j with
      | zero =>
        simp only [List.getElem?_cons_zero, Option.mem_def, Option.some.injEq] at he
        subst he
        obtain ⟨g1, g2, g3, g4, g5, g6⟩ := h7 i (by omega)
        have e0 : i + 0 = i := rfl
        rw [e0, g1, g2, g3, g4, g5, g6, f6, f7, f8, f9, f10, f11]
        simp only [setAt_same, and_self]
      | succ j =>
        simp only [List.getElem?_cons_succ] at he
        have := h6 j (by simpa using hj) e he
        have e1 : i + (j + 1) = i + 1 + j := by omega
        rw [e1]
        exact this
    · intro j hj
      obtain ⟨g1, g2, g3, g4, g5, g6⟩ := h7 j (by omega)
      have hne : j ≠ i := by omega
      rw [g1, g2, g3, g4, g5, g6, f6, f7, f8, f9, f10, f11]
      simp only [setAt_other _ _ _ _ hne, and_self]

/-- A new archetype for a component map with strictly increasing keys, each entry
filed under the type id of its meta data, satisfies the invariant of
archetypes. -/
theorem EntityArchetype.new_spec (id : Nat) (metaMap : ComponentMetaMap)
    (hlen : metaMap.length ≤ MAX_COMPONENT_COUNT_PER_ENTITY)
    (hsorted : metaMap.keys.Sorted (· < ·))
    (hkey : ∀ e, e ∈ metaMap → e.2.typeId = e.1) :
    ∃ a, EntityArchetype.new id metaMap = some a ∧ a.Inv ∧ a.mArchetypeId = id
      ∧ a.mComponentMetaMap = metaMap ∧ a.mStoragesInContext = fun _ => none := by
  unfold EntityArchetype.new
  rw [if_pos hlen]
  obtain ⟨h1, h2, h3, h4, h5, h6, _⟩ :=
    EntityArchetype.fill_spec metaMap 0 0 (EntityArchetype.init id metaMap) rfl
  refine ⟨_, rfl, ?_, h1, h2, h4⟩
  refine ⟨by rw [h3, h2]; rfl, by rw [h3]; exact hlen, by rw [h5, h3]; simp [EntityArchetype.init],
    by rw [h2]; exact hsorted, ?_⟩
  intro i hi e he
  rw [h2] at hi he
  have hi2 : i < metaMap.length := hi
  have he2 : e ∈ metaMap[i]? := he
  have hmem : e ∈ metaMap := by
    rw [List.getElem?_eq_getElem hi2] at he2
    simp only [Option.mem_def, Option.some.injEq] at he2
    rw [← he2]
    exact List.getElem_mem _
  have := h6 i hi2 e he2
  simp only [Nat.zero_add] at this
  have hk := hkey e hmem
  rw [← hk]
  exact ⟨rfl, this.1, this.2.1, this.2.2.1, this.2.2.2.1, this.2.2.2.2.1, this.2.2.2.2.2⟩

/-! ## Adding and removing components of an archetype -/

theorem ComponentMetaMap.mem_insert (metaMap : ComponentMetaMap) (id : Nat) (m : ComponentMeta)
    (e : Nat × ComponentMeta) (h : e ∈ metaMap.insert id m) : e = (id, m) ∨ e ∈ metaMap := by
  induction metaMap with
  | nil =>
    simp only [ComponentMetaMap.insert, List.mem_singleton] at h
    exact Or.inl h
  | cons x rest ih =>
    unfold ComponentMetaMap.insert at h
    by_cases h1 : id < x.1
    · rw [if_pos h1, List.mem_cons] at h
      exact h
    · rw [if_neg h1] at h
      by_cases h2 : id = x.1
      · rw [if_pos h2] at h
        exact Or.inr h
      · rw [if_neg h2, List.mem_cons] at h
        rcases h with h | h
        · exact Or.inr (by rw [h]; exact List.mem_cons_self _ _)
        · rcases ih h with h3 | h3
          · exact Or.inl h3
          · exact Or.inr (List.mem_cons_of_mem _ h3)

/-- The entries of `insertAll`: entries of the map and meta data of added classes,
each filed under the type id of the class. -/
theorem ComponentMetaMap.mem_insertAll (Ts : List ComponentType) :
    ∀ (metaMap : ComponentMetaMap) (e : Nat × ComponentMeta), e ∈ metaMap.insertAll Ts →
      e ∈ metaMap ∨ ∃ T, T ∈ Ts ∧ e = (T.typeId, T.meta) := by
  induction Ts with
  | nil =>
    intro metaMap e h
    exact Or.inl h
  | cons T Ts ih =>
    intro metaMap e h
    unfold ComponentMetaMap.insertAll at h
    cases hf : metaMap.find T.typeId with
    | none =>
      rw [hf] at h
      rcases ih _ e h with h1 | ⟨U, hU, h1⟩
      · rcases ComponentMetaMap.mem_insert _ _ _ _ h1 with h2 | h2
        · exact Or.inr ⟨T, List.mem_cons_self _ _, h2⟩
        · exact Or.inl h2
      · exact Or.inr ⟨U, List.mem_cons_of_mem _ hU, h1⟩
    | some m =>
      rw [hf] at h
      rcases ih _ e h with h1 | ⟨U, hU, h1⟩
      · exact Or.inl h1
      · exact Or.inr ⟨U, List.mem_cons_of_mem _ hU, h1⟩

/-- For classes the catalog knows as themselves, `GetComponentsMetaHelperClass`
computes `insertAll`. -/
theorem Call_eq_insertAll (Ts : List ComponentType) :
    ∀ (mgr : EntityArchetypeManager) (metaMap : ComponentMetaMap), mgr.Knows Ts →
      (GetComponentsMetaHelperClass.Call Ts mgr metaMap).2 = metaMap.insertAll Ts := by
  induction Ts with
  | nil => intro mgr metaMap _; rfl
  | cons T Ts ih =>
    intro mgr metaMap hk
    obtain ⟨hk1, hk2⟩ := hk
    unfold GetComponentsMetaHelperClass.Call ComponentMetaMap.insertAll
    cases hf : metaMap.find T.typeId with
    | some m =>
      simp only []
      exact ih mgr metaMap ⟨fun U hU => hk1 U (List.mem_cons_of_mem _ hU),
        fun U hU V hV => hk2 U (List.mem_cons_of_mem _ hU) V (List.mem_cons_of_mem _ hV)⟩
    | none =>
      simp only []
      have hmeta : (mgr.GetComponentMeta T).2 = T.meta := by
        unfold EntityArchetypeManager.GetComponentMeta
        cases hc : umapFind mgr.mComponentMetas T.hashCode with
        | none => rfl
        | some m => exact hk1 T (List.mem_cons_self _ _) m hc
      rw [hmeta]
      apply ih
      refine ⟨?_, fun U hU V hV => hk2 U (List.mem_cons_of_mem _ hU) V (List.mem_cons_of_mem _ hV)⟩
      intro U hU m hm
      unfold EntityArchetypeManager.GetComponentMeta at hm
      cases hc : umapFind mgr.mComponentMetas T.hashCode with
      | some m0 =>
        rw [hc] at hm
        exact hk1 U (List.mem_cons_of_mem _ hU) m hm
      | none =>
        rw [hc] at hm
        simp only [] at hm
        by_cases hh : U.hashCode = T.hashCode
        · rw [hh, umapFind_umapInsert_self _ _ _ hc] at hm
          simp only [Option.mem_def, Option.some.injEq] at hm
          rw [← hm]
          exact (hk2 U (List.mem_cons_of_mem _ hU) T (List.mem_cons_self _ _) hh).symm
        · rw [umapFind_umapInsert_other _ _ _ _ hh] at hm
          exact hk1 U (List.mem_cons_of_mem _ hU) m hm

/-- The invariant of a world only reads the objects and the map of the catalog. -/
theorem World.Inv_of_catalog_eq (w : World) (mgr : EntityArchetypeManager) (hinv : w.Inv)
    (h1 : mgr.objects = w.mArchetypeManager.objects)
    (h2 : mgr.mArchetypesMap = w.mArchetypeManager.mArchetypesMap) :
    ({ w with mArchetypeManager := mgr } : World).Inv := by
  obtain ⟨hcat, harch, hctx⟩ := hinv
  refine ⟨?_, ?_, ?_⟩
  · unfold World.InvCatalog
    simp only [h1, h2]
    exact hcat
  · unfold World.InvArchetypes
    simp only [h1]
    exact harch
  · unfold World.InvContexts World.InvStorage
    simp only [h1]
    exact hctx

/-- The invariant of a world is kept when a new archetype without storages is
appended to the objects of the catalog and registered under its identity. -/
theorem World.Inv_of_catalog_append (w : World) (mgr : EntityArchetypeManager)
    (aNew : EntityArchetype) (hinv : w.Inv) (ha : aNew.Inv)
    (hst : aNew.mStoragesInContext = fun _ => none)
    (h1 : mgr.objects = w.mArchetypeManager.objects ++ [aNew])
    (h2 : mgr.mArchetypesMap
      = umapInsert w.mArchetypeManager.mArchetypesMap aNew.mArchetypeId
          w.mArchetypeManager.objects.length)
    (hnew : umapFind w.mArchetypeManager.mArchetypesMap aNew.mArchetypeId = none) :
    ({ w with mArchetypeManager := mgr } : World).Inv := by
  obtain ⟨⟨hcat1, hcat2⟩, harch, hctx⟩ := hinv
  have hmap : mgr.mArchetypesMap
      = w.mArchetypeManager.mArchetypesMap
        ++ [(aNew.mArchetypeId, w.mArchetypeManager.objects.length)] := by
    rw [h2]
    unfold umapInsert
    rw [hnew]
  have hnotin : aNew.mArchetypeId ∉ w.mArchetypeManager.mArchetypesMap.map Prod.fst := by
    intro hin
    rw [List.mem_map] at hin
    obtain ⟨e, he, heq⟩ := hin
    unfold umapFind at hnew
    simp only [Option.map_eq_none', List.find?_eq_none] at hnew
    exact hnew e he (by simp [heq])
  refine ⟨⟨?_, ?_⟩, ?_, ?_⟩
  · intro e he
    simp only [hmap, List.mem_append, List.mem_singleton] at he
    simp only [h1]
    rcases he with he | he
    · obtain ⟨g1, g2⟩ := hcat1 e he
      refine ⟨by rw [List.length_append]; omega, ?_⟩
      intro a hmem
      rw [List.getElem?_append_left g1] at hmem
      exact g2 a hmem
    · subst he
      refine ⟨by simp, ?_⟩
      intro a hmem
      simp only [List.getElem?_concat_length, Option.mem_def, Option.some.injEq] at hmem
      rw [← hmem]
  · simp only [hmap, List.map_append, List.map_cons, List.map_nil]
    rw [List.nodup_append]
    refine ⟨hcat2, List.nodup_singleton _, ?_⟩
    intro x hx hx2
    rw [List.mem_singleton] at hx2
    exact hnotin (hx2 ▸ hx)
  · intro p hp a hmem
    simp only [h1] at hp hmem
    by_cases hlt : p < w.mArchetypeManager.objects.length
    · rw [List.getElem?_append_left hlt] at hmem
      exact harch p hlt a hmem
    · have hpe : p = w.mArchetypeManager.objects.length := by
        rw [List.length_append] at hp
        simp only [List.length_singleton] at hp
        omega
      subst hpe
      simp only [List.getElem?_concat_length, Option.mem_def, Option.some.injEq] at hmem
      subst hmem
      refine ⟨ha, ?_⟩
      intro i _ j hj
      rw [hst] at hj
      cases hj
  · intro i hi c hc
    obtain ⟨g1, g2, g3⟩ := hctx i hi c hc
    refine ⟨g1, g2, ?_⟩
    intro j hj s hs
    obtain ⟨k1, k2, k3, a, k4, k5⟩ := g3 j hj s hs
    refine ⟨k1, k2, k3, a, ?_, k5⟩
    simp only [h1]
    have hlt : s.mArchetype < w.mArchetypeManager.objects.length := by
      by_contra hge
      rw [List.getElem?_eq_none (by omega)] at k4
      cases k4
    rw [List.getElem?_append_left hlt]
    exact k4

/-- Resolving a component map whose identity is registered: the registered
archetype is returned, and without a collision it has that component map. -/
theorem World.Resolved.found (w : World) (mgr : EntityArchetypeManager)
    (target : ComponentMetaMap) (p : Nat) (hinv : w.Inv)
    (h1 : mgr.objects = w.mArchetypeManager.objects)
    (h2 : mgr.mArchetypesMap = w.mArchetypeManager.mArchetypesMap)
    (hcol : w.mArchetypeManager.NoCollision target)
    (hfind : umapFind mgr.mArchetypesMap (GetArchetypeIDFromComponentMetaMap target) = some p) :
    w.Resolved mgr target p := by
  rw [h2] at hfind
  have hmem : (GetArchetypeIDFromComponentMetaMap target, p)
      ∈ w.mArchetypeManager.mArchetypesMap := by
    unfold umapFind at hfind
    simp only [Option.map_eq_some'] at hfind
    obtain ⟨e, he, hp⟩ := hfind
    have h3 := List.find?_some he
    have h4 := List.mem_of_find?_eq_some he
    simp only [beq_iff_eq] at h3
    rw [← h3, ← hp]
    exact h4
  obtain ⟨hlt, _⟩ := hinv.1.1 _ hmem
  refine ⟨w.Inv_of_catalog_eq mgr hinv h1 h2, ?_, by rw [h2]; exact hfind, ?_, ?_, ?_, ?_,
    fun k p2 hk => Or.inl (by rw [← h2]; exact hk)⟩
  · refine ⟨w.mArchetypeManager.objects[p], by rw [h1, List.getElem?_eq_getElem hlt], ?_⟩
    exact hcol p hfind _ (by rw [List.getElem?_eq_getElem hlt]; rfl)
  · intro q a hq
    rw [h1]
    exact hq
  · intro q a hq hnone
    rw [h1, hnone] at hq
    cases hq
  · intro k p2 hk
    rw [h2]
    exact hk
  · exact fun _ _ => hfind

/-- Resolving a component map whose identity is not registered: a new archetype is
constructed and registered. -/
theorem World.Resolved.fresh (w : World) (mgr : EntityArchetypeManager)
    (target : ComponentMetaMap) (hinv : w.Inv)
    (h1 : mgr.objects = w.mArchetypeManager.objects)
    (h2 : mgr.mArchetypesMap = w.mArchetypeManager.mArchetypesMap)
    (hlen : target.length ≤ MAX_COMPONENT_COUNT_PER_ENTITY)
    (hsorted : target.keys.Sorted (· < ·)) (hkey : ∀ e, e ∈ target → e.2.typeId = e.1)
    (hfind : umapFind mgr.mArchetypesMap (GetArchetypeIDFromComponentMetaMap target) = none) :
    ∃ mgr2, mgr.construct (GetArchetypeIDFromComponentMetaMap target) target
        = some (mgr2, w.mArchetypeManager.objects.length)
      ∧ w.Resolved mgr2 target w.mArchetypeManager.objects.length := by
  obtain ⟨a, hnew, hainv, haid, hamap, hast⟩ :=
    EntityArchetype.new_spec (GetArchetypeIDFromComponentMetaMap target) target hlen hsorted hkey
  unfold EntityArchetypeManager.construct
  rw [hnew]
  simp only [h1, h2]
  refine ⟨_, rfl, ?_⟩
  rw [h2] at hfind
  refine ⟨?_, ?_, ?_, ?_, ?_, ?_, ?_, ?_⟩
  · apply w.Inv_of_catalog_append _ a hinv hainv hast rfl
    · simp only [haid]
    · rw [haid]
      exact hfind
  · exact ⟨a, by simp, hamap⟩
  · simp only []
    exact umapFind_umapInsert_self _ _ _ hfind
  · intro q a0 hq
    simp only []
    have hlt : q < w.mArchetypeManager.objects.length := by
      by_contra hge
      rw [List.getElem?_eq_none (by omega)] at hq
      cases hq
    rw [List.getElem?_append_left hlt]
    exact hq
  · intro q a0 hq hnone
    simp only [] at hq
    have hge : w.mArchetypeManager.objects.length ≤ q := by
      by_contra hlt
      rw [List.getElem?_eq_getElem (by omega)] at hnone
      cases hnone
    have hq2 : q = w.mArchetypeManager.objects.length := by
      by_contra hne
      rw [List.getElem?_eq_none (by rw [List.length_append]; simp; omega)] at hq
      cases hq
    subst hq2
    simp only [List.getElem?_concat_length, Option.some.injEq] at hq
    subst hq
    exact ⟨rfl, hast⟩
  · intro k p hk
    simp only []
    by_cases hkk : k = GetArchetypeIDFromComponentMetaMap target
    · rw [hkk, hfind] at hk
      cases hk
    · rw [umapFind_umapInsert_other _ _ _ _ hkk]
      exact hk
  · intro a0 ha0
    rw [List.getElem?_eq_none (le_refl _)] at ha0
    cases ha0
  · intro k p hk
    simp only [] at hk
    by_cases hkk : k = GetArchetypeIDFromComponentMetaMap target
    · right
      rw [hkk, umapFind_umapInsert_self _ _ _ hfind] at hk
      simp only [Option.some.injEq] at hk
      exact ⟨hkk, hk.symm⟩
    · left
      rw [umapFind_umapInsert_other _ _ _ _ hkk] at hk
      exact hk

/-- `AddComponents` for classes the catalog knows, at least one of them new for the
archetype, without a collision and within the component limit: the component map
of the archetype with the classes added is resolved. -/
theorem World.AddComponents_spec (w : World) (pSrc : Nat) (aSrc : EntityArchetype)
    (Ts : List ComponentType) (hinv : w.Inv) (ha : w.archetype pSrc = some aSrc)
    (hnew : ∃ T, T ∈ Ts ∧ T.typeId ∉ aSrc.mComponentMetaMap.keys)
    (hknows : w.mArchetypeManager.Knows Ts)
    (hcol : w.mArchetypeManager.NoCollision (aSrc.mComponentMetaMap.insertAll Ts))
    (hlen : (aSrc.mComponentMetaMap.insertAll Ts).length ≤ MAX_COMPONENT_COUNT_PER_ENTITY) :
    ∃ mgr pDst, w.mArchetypeManager.AddComponents Ts pSrc = some (mgr, some pDst)
      ∧ w.Resolved mgr (aSrc.mComponentMetaMap.insertAll Ts) pDst
      ∧ (aSrc.mComponentMetaMap.insertAll Ts).keys.Sorted (· < ·)
      ∧ (∀ x, x ∈ (aSrc.mComponentMetaMap.insertAll Ts).keys
          ↔ x ∈ aSrc.mComponentMetaMap.keys ∨ x ∈ Ts.map ComponentType.typeId)
      ∧ (∀ e, e ∈ aSrc.mComponentMetaMap.insertAll Ts →
          e ∈ aSrc.mComponentMetaMap ∨ ∃ T, T ∈ Ts ∧ e = (T.typeId, T.meta)) := by
  have hlt : pSrc < w.mArchetypeManager.objects.length := by
    by_contra hge
    unfold World.archetype at ha
    rw [List.getElem?_eq_none (by omega)] at ha
    cases ha
  obtain ⟨hainv, _⟩ := hinv.2.1 pSrc hlt aSrc ha
  obtain ⟨_, _, _, hsorted, hent⟩ := hainv
  have hcall := Call_eq_insertAll Ts w.mArchetypeManager aSrc.mComponentMetaMap hknows
  obtain ⟨hk1, hk2⟩ := Call_keys Ts w.mArchetypeManager aSrc.mComponentMetaMap hsorted
  obtain ⟨ho1, ho2⟩ := Call_objects Ts w.mArchetypeManager aSrc.mComponentMetaMap
  rw [hcall] at hk1 hk2
  have hmem := ComponentMetaMap.mem_insertAll Ts aSrc.mComponentMetaMap
  have hkey : ∀ e, e ∈ aSrc.mComponentMetaMap.insertAll Ts → e.2.typeId = e.1 := by
    intro e he
    rcases hmem e he with h | ⟨T, _, h⟩
    · obtain ⟨i, hi, hget⟩ := List.getElem_of_mem h
      exact (hent i hi e (by rw [List.getElem?_eq_getElem hi, hget]; rfl)).1
    · rw [h]
      rfl
  have hlenne : ¬ (aSrc.mComponentMetaMap.insertAll Ts).length = aSrc.mComponentMetaMap.length := by
    obtain ⟨T, hT, hTn⟩ := hnew
    have hnd : (T.typeId :: aSrc.mComponentMetaMap.keys).Nodup :=
      List.nodup_cons.mpr ⟨hTn, hsorted.nodup⟩
    have hsub : (T.typeId :: aSrc.mComponentMetaMap.keys)
        ⊆ (aSrc.mComponentMetaMap.insertAll Ts).keys := by
      intro x hx
      rw [hk2]
      rw [List.mem_cons] at hx
      rcases hx with hx | hx
      · exact Or.inr (by rw [hx]; exact List.mem_map_of_mem _ hT)
      · exact Or.inl hx
    have := (List.subperm_of_subset hnd hsub).length_le
    simp only [ComponentMetaMap.keys, List.length_cons, List.length_map] at this
    omega
  have ha2 : w.mArchetypeManager.objects[pSrc]? = some aSrc := ha
  unfold EntityArchetypeManager.AddComponents
  simp only [ha2, hcall, if_neg hlenne]
  cases hfind : umapFind (GetComponentsMetaHelperClass.Call Ts w.mArchetypeManager
      aSrc.mComponentMetaMap).1.mArchetypesMap
      (GetArchetypeIDFromComponentMetaMap (aSrc.mComponentMetaMap.insertAll Ts)) with
  | some p =>
    exact ⟨_, p, rfl, World.Resolved.found w _ _ p hinv ho1 ho2 hcol hfind, hk1, hk2, hmem⟩
  | none =>
    obtain ⟨mgr2, hcons, hres⟩ := World.Resolved.fresh w _ _ hinv ho1 ho2 hlen hk1 hkey hfind
    simp only [hcons, Option.map_some']
    exact ⟨mgr2, _, rfl, hres, hk1, hk2, hmem⟩

theorem RemoveComponentsFromMetaMap.Call_eq (Ts : List ComponentType) :
    ∀ metaMap : ComponentMetaMap,
      RemoveComponentsFromMetaMap.Call Ts metaMap = metaMap.eraseAll Ts := by
  induction Ts with
  | nil =>
    intro metaMap
    simp [RemoveComponentsFromMetaMap.Call, ComponentMetaMap.eraseAll]
  | cons T Ts ih =>
    intro metaMap
    have herase : RemoveComponentsFromMetaMap.Call (T :: Ts) metaMap
        = RemoveComponentsFromMetaMap.Call Ts (metaMap.erase T.typeId) := by
      simp only [RemoveComponentsFromMetaMap.Call]
      cases hf : metaMap.find T.typeId with
      | some m => rfl
      | none =>
        simp only []
        congr 1
        unfold ComponentMetaMap.erase
        symm
        rw [List.filter_eq_self]
        intro e he
        rw [ComponentMetaMap.find_eq_none_iff] at hf
        simp only [bne_iff_ne, ne_eq]
        intro heq
        apply hf
        unfold ComponentMetaMap.keys
        rw [← heq]
        exact List.mem_map_of_mem _ he
    rw [herase, ih]
    unfold ComponentMetaMap.eraseAll ComponentMetaMap.erase
    rw [List.filter_filter]
    congr 1
    funext e
    simp only [List.map_cons, List.contains_cons]
    cases h1 : (e.1 == T.typeId) <;> cases h2 : (List.map ComponentType.typeId Ts).contains e.1 <;>
      simp [bne, h1, h2]

/-- `RemoveComponents` for classes at least one of which the archetype has,
without a collision: the component map of the archetype without the classes is
resolved. -/
theorem World.RemoveComponents_spec (w : World) (pSrc : Nat) (aSrc : EntityArchetype)
    (Ts : List ComponentType) (hinv : w.Inv) (ha : w.archetype pSrc = some aSrc)
    (hold : ∃ T, T ∈ Ts ∧ T.typeId ∈ aSrc.mComponentMetaMap.keys)
    (hcol : w.mArchetypeManager.NoCollision (aSrc.mComponentMetaMap.eraseAll Ts)) :
    ∃ mgr pDst, w.mArchetypeManager.RemoveComponents Ts pSrc = some (mgr, some pDst)
      ∧ w.Resolved mgr (aSrc.mComponentMetaMap.eraseAll Ts) pDst
      ∧ (aSrc.mComponentMetaMap.eraseAll Ts).keys.Sorted (· < ·) := by
  have hlt : pSrc < w.mArchetypeManager.objects.length := by
    by_contra hge
    unfold World.archetype at ha
    rw [List.getElem?_eq_none (by omega)] at ha
    cases ha
  obtain ⟨hainv, _⟩ := hinv.2.1 pSrc hlt aSrc ha
  obtain ⟨hcnt, hmax, _, hsorted, hent⟩ := hainv
  have hsub : (aSrc.mComponentMetaMap.eraseAll Ts).Sublist aSrc.mComponentMetaMap :=
    List.filter_sublist _
  have hk1 : (aSrc.mComponentMetaMap.eraseAll Ts).keys.Sorted (· < ·) :=
    List.Pairwise.sublist (hsub.map Prod.fst) hsorted
  have hkey : ∀ e, e ∈ aSrc.mComponentMetaMap.eraseAll Ts → e.2.typeId = e.1 := by
    intro e he
    obtain ⟨i, hi, hget⟩ := List.getElem_of_mem (hsub.subset he)
    exact (hent i hi e (by rw [List.getElem?_eq_getElem hi, hget]; rfl)).1
  have hlen : (aSrc.mComponentMetaMap.eraseAll Ts).length < aSrc.mComponentMetaMap.length := by
    unfold ComponentMetaMap.eraseAll
    rw [List.length_filter_lt_length_iff_exists]
    obtain ⟨T, hT, hTk⟩ := hold
    unfold ComponentMetaMap.keys at hTk
    rw [List.mem_map] at hTk
    obtain ⟨e, he, heq⟩ := hTk
    refine ⟨e, he, ?_⟩
    simp only [Bool.not_eq_true, Bool.not_eq_false', List.contains_iff_exists_mem_beq]
    exact ⟨T.typeId, List.mem_map_of_mem _ hT, by simp [heq]⟩
  have ha2 : w.mArchetypeManager.objects[pSrc]? = some aSrc := ha
  unfold EntityArchetypeManager.RemoveComponents
  simp only [ha2, RemoveComponentsFromMetaMap.Call_eq, if_neg (Nat.ne_of_lt hlen)]
  cases hfind : umapFind w.mArchetypeManager.mArchetypesMap
      (GetArchetypeIDFromComponentMetaMap (aSrc.mComponentMetaMap.eraseAll Ts)) with
  | some p =>
    exact ⟨_, p, rfl, World.Resolved.found w _ _ p hinv rfl rfl hcol hfind, hk1⟩
  | none =>
    obtain ⟨mgr2, hcons, hres⟩ := World.Resolved.fresh w _ _ hinv rfl rfl
      (by unfold MAX_COMPONENT_COUNT_PER_ENTITY at hmax ⊢; omega) hk1 hkey hfind
    simp only [hcons, Option.map_some']
    exact ⟨mgr2, _, rfl, hres, hk1⟩
/-! ## The storage of an archetype in a context -/

/-- A new storage satisfies the invariant of storages. -/
theorem EntityComponentStorage.new_storage_Inv (pContext index pArchetype : Nat) (a : EntityArchetype) :
    (EntityComponentStorage.new pContext index pArchetype a).Inv := by
  unfold EntityComponentStorage.new EntityComponentStorage.Inv EntityComponentStorage.freeChunks
  simp only []
  refine ⟨by simp, by omega, ?_, ?_, ?_, ?_, ?_, ?_⟩
  · split
    · exact le_refl _
    · omega
  · intro i hi
    omega
  · simp [linkChain]
  · simp [linkChain]
  · simp [linkChain]
  · intro i hi
    omega

/-- An archetype that differs from one that satisfies the invariant only in its
storage references satisfies the invariant. -/
theorem EntityArchetype.Inv_of_eq (a a1 : EntityArchetype) (ha : a.Inv)
    (h : a1 = { a with mStoragesInContext := a1.mStoragesInContext }) : a1.Inv := by
  rw [h]
  exact ha

/-- `GetEntityComponentStorage` for an archetype of the catalog: it returns the
storage the archetype refers to for the context, or, in a context with fewer than
`MAX_STORAGE_COUNT_PER_CONTEXT` storages, appends a new, empty storage to the
context and records it in the archetype; the invariant holds afterwards and no
other storage, archetype or context changes. -/
theorem World.GetEntityComponentStorage_spec (w : World) (pContext pArchetype : Nat)
    (c : EntityContext) (a : EntityArchetype) (hinv : w.Inv)
    (hctx : pContext < MAX_CONTEXT_COUNT) (hc : w.mEntityContexts pContext = some c)
    (ha : w.archetype pArchetype = some a)
    (hroom : a.mStoragesInContext pContext = none →
      c.mEntityComponentStorageList.length < MAX_STORAGE_COUNT_PER_CONTEXT) :
    ∃ w1 ps s a1 c1, w.GetEntityComponentStorage pContext pArchetype = some (w1, ps)
      ∧ w1.Inv
      ∧ ps.mContext = pContext
      ∧ w1.storage ps = some s
      ∧ s.mArchetype = pArchetype
      ∧ (w.storage ps = some s
          ∨ (w.storage ps = none ∧ a.mStoragesInContext pContext = none
              ∧ s = EntityComponentStorage.new pContext ps.mIndex pArchetype a))
      ∧ w1.archetype pArchetype = some a1
      ∧ a1 = { a with mStoragesInContext := a1.mStoragesInContext }
      ∧ w1.mArchetypeManager.objects.length = w.mArchetypeManager.objects.length
      ∧ (∀ q, q ≠ pArchetype → w1.archetype q = w.archetype q)
      ∧ w1.mArchetypeManager.mArchetypesMap = w.mArchetypeManager.mArchetypesMap
      ∧ (∀ q, q ≠ ps → w1.storage q = w.storage q)
      ∧ w1.mEntityContexts pContext = some c1
      ∧ (∀ i, i ≠ pContext → w1.mEntityContexts i = w.mEntityContexts i) := by
  obtain ⟨⟨hcat1, hcat2⟩, harch, hctxs⟩ := hinv
  obtain ⟨hcid, hclen, hcst⟩ := hctxs pContext hctx c hc
  have hplt : pArchetype < w.mArchetypeManager.objects.length := by
    by_contra hge
    unfold World.archetype at ha
    rw [List.getElem?_eq_none (by omega)] at ha
    cases ha
  have ha2 : w.mArchetypeManager.objects[pArchetype]? = some a := ha
  obtain ⟨hainv, hback⟩ := harch pArchetype hplt a ha2
  unfold World.GetEntityComponentStorage
  simp only [hc, ha]
  cases hst : a.mStoragesInContext c.mContextId with
  | some i =>
    simp only []
    rw [hcid] at hst
    obtain ⟨s, hs, hsa⟩ := hback pContext hctx i hst
    exact ⟨w, _, s, a, c, rfl, ⟨⟨hcat1, hcat2⟩, harch, hctxs⟩, rfl, hs, hsa, Or.inl hs, ha, rfl,
      rfl, fun _ _ => rfl, rfl, fun _ _ => rfl, hc, fun _ _ => rfl⟩
  | none =>
    have hroom := hroom (by rw [← hcid]; exact hst)
    have hM : MAX_STORAGE_COUNT_PER_CONTEXT = 1024 := by decide
    have hu : u16 c.mEntityComponentStorageList.length = c.mEntityComponentStorageList.length := by
      unfold u16
      omega
    simp only [hu, if_pos hroom]
    obtain ⟨a1, ha1⟩ : ∃ a1 : EntityArchetype, a1 = { a with
        mStoragesInContext := setAt a.mStoragesInContext c.mContextId
          (some c.mEntityComponentStorageList.length) } := ⟨_, rfl⟩
    obtain ⟨sn, hsn⟩ : ∃ sn : EntityComponentStorage, sn = EntityComponentStorage.new pContext
        c.mEntityComponentStorageList.length pArchetype a := ⟨_, rfl⟩
    obtain ⟨w1, hw1⟩ : ∃ w1 : World, w1 =
        { mArchetypeManager :=
            { w.mArchetypeManager with
              objects := w.mArchetypeManager.objects.set pArchetype a1 }
          mEntityContexts := setAt w.mEntityContexts pContext
            (some { c with
                    mEntityComponentStorageList :=
                      c.mEntityComponentStorageList ++ [sn] }) } := ⟨_, rfl⟩
    rw [← ha1, ← hsn, ← hw1]
    have ha1eq : a1 = { a with mStoragesInContext := a1.mStoragesInContext } := by
      rw [ha1]
    have hobj : w1.mArchetypeManager.objects = w.mArchetypeManager.objects.set pArchetype a1 := by
      rw [hw1]
    have hmap : w1.mArchetypeManager.mArchetypesMap = w.mArchetypeManager.mArchetypesMap := by
      rw [hw1]
    have hc1 : w1.mEntityContexts pContext
        = some { c with mEntityComponentStorageList := c.mEntityComponentStorageList ++ [sn] } := by
      rw [hw1]
      simp
    have hcother : ∀ i, i ≠ pContext → w1.mEntityContexts i = w.mEntityContexts i := by
      intro i hi
      rw [hw1]
      simp only []
      exact setAt_other _ _ _ _ hi
    have harch1 : w1.archetype pArchetype = some a1 := by
      unfold World.archetype
      rw [hobj, List.getElem?_set_self hplt]
    have harchother : ∀ q, q ≠ pArchetype → w1.archetype q = w.archetype q := by
      intro q hq
      unfold World.archetype
      rw [hobj, List.getElem?_set_ne (Ne.symm hq)]
    have hstor_other : ∀ q : StoragePtr, q.mContext ≠ pContext → w1.storage q = w.storage q := by
      intro q hq
      unfold World.storage
      rw [hcother _ hq]
    have hstor_same : ∀ q : StoragePtr, q.mContext = pContext →
        w1.storage q = (c.mEntityComponentStorageList ++ [sn])[q.mIndex]? := by
      intro q hq
      unfold World.storage
      rw [hq, hc1]
    have hstor_old : ∀ q : StoragePtr, q.mContext = pContext →
        w.storage q = c.mEntityComponentStorageList[q.mIndex]? := by
      intro q hq
      unfold World.storage
      rw [hq, hc]
    have hstor_keep : ∀ (q : StoragePtr) (s : EntityComponentStorage), w.storage q = some s →
        w1.storage q = some s := by
      intro q s hs
      by_cases hq : q.mContext = pContext
      · rw [hstor_old q hq] at hs
        have hlt : q.mIndex < c.mEntityComponentStorageList.length := by
          by_contra hge
          rw [List.getElem?_eq_none (by omega)] at hs
          cases hs
        rw [hstor_same q hq, List.getElem?_append_left hlt]
        exact hs
      · rw [hstor_other q hq]
        exact hs
    have hnew : w1.storage { mContext := pContext, mIndex := c.mEntityComponentStorageList.length }
        = some sn := by
      rw [hstor_same _ rfl]
      simp
    have hold_none : w.storage
        { mContext := pContext, mIndex := c.mEntityComponentStorageList.length } = none := by
      rw [hstor_old _ rfl]
      simp
    have hsnarch : sn.mArchetype = pArchetype := by rw [hsn]; rfl
    refine ⟨w1, _, sn, a1, _, rfl, ?_, rfl, hnew, hsnarch, Or.inr ⟨hold_none, by rw [← hcid]; exact hst, hsn⟩, harch1, ha1eq,
      by rw [hobj, List.length_set], harchother, hmap, ?_, hc1, hcother⟩
    · refine ⟨⟨?_, by rw [hmap]; exact hcat2⟩, ?_, ?_⟩
      · intro e he
        rw [hmap] at he
        obtain ⟨g1, g2⟩ := hcat1 e he
        rw [hobj, List.length_set]
        refine ⟨g1, ?_⟩
        intro a0 ha0
        by_cases hep : e.2 = pArchetype
        · rw [hep, List.getElem?_set_self hplt] at ha0
          simp only [Option.mem_def, Option.some.injEq] at ha0
          rw [← ha0, ha1]
          exact g2 a (by rw [hep]; exact ha2)
        · rw [List.getElem?_set_ne (Ne.symm hep)] at ha0
          exact g2 a0 ha0
      · intro p hp a0 ha0
        rw [hobj] at hp ha0
        rw [List.length_set] at hp
        by_cases hpp : p = pArchetype
        · rw [hpp, List.getElem?_set_self hplt] at ha0
          simp only [Option.mem_def, Option.some.injEq] at ha0
          subst ha0
          refine ⟨EntityArchetype.Inv_of_eq a a1 hainv ha1eq, ?_⟩
          intro i hi j hj
          by_cases hic : i = pContext
          · subst hic
            rw [ha1] at hj
            simp only [hcid, setAt_same, Option.mem_def, Option.some.injEq] at hj
            subst hj
            exact ⟨sn, hnew, by rw [hpp]; exact hsnarch⟩
          · rw [ha1] at hj
            simp only [hcid, setAt_other _ _ _ _ hic] at hj
            obtain ⟨s0, hs0, hs0a⟩ := hback i hi j hj
            exact ⟨s0, hstor_keep _ s0 hs0, by rw [hpp]; exact hs0a⟩
        · rw [List.getElem?_set_ne (Ne.symm hpp)] at ha0
          obtain ⟨g1, g2⟩ := harch p hp a0 ha0
          refine ⟨g1, ?_⟩
          intro i hi j hj
          obtain ⟨s0, hs0, hs0a⟩ := g2 i hi j hj
          exact ⟨s0, hstor_keep _ s0 hs0, hs0a⟩
      · intro i hi c0 hc0
        by_cases hic : i = pContext
        · subst hic
          rw [hc1] at hc0
          simp only [Option.mem_def, Option.some.injEq] at hc0
          subst hc0
          refine ⟨hcid, by simp only [List.length_append, List.length_singleton]; omega, ?_⟩
          intro j hj s0 hs0
          simp only [List.length_append, List.length_singleton] at hj
          simp only [] at hs0
          by_cases hjl : j < c.mEntityComponentStorageList.length
          · rw [List.getElem?_append_left hjl] at hs0
            obtain ⟨k1, k2, k3, a0, k4, k5, k6⟩ := hcst j hjl s0 hs0
            by_cases hsp : s0.mArchetype = pArchetype
            · rw [hsp, ha2] at k4
              simp only [Option.mem_def, Option.some.injEq] at k4
              subst k4
              rw [hcid, k5] at hst
              cases hst
            · refine ⟨k1, k2, k3, a0, ?_, k5, k6⟩
              rw [hobj, List.getElem?_set_ne (Ne.symm hsp)]
              exact k4
          · have hje : j = c.mEntityComponentStorageList.length := by omega
            subst hje
            simp only [List.getElem?_concat_length, Option.mem_def, Option.some.injEq] at hs0
            subst hs0
            refine ⟨by rw [hsn]; exact EntityComponentStorage.new_storage_Inv _ _ _ _, by rw [hsn]; rfl,
              by rw [hsn]; rfl, a1, ?_, ?_, ?_⟩
            · rw [hobj, hsnarch, List.getElem?_set_self hplt]
              rfl
            · rw [ha1]
              simp only [hcid, setAt_same]
            · rw [hsn, ha1]
              rfl
        · rw [hcother i hic] at hc0
          obtain ⟨g1, g2, g3⟩ := hctxs i hi c0 hc0
          refine ⟨g1, g2, ?_⟩
          intro j hj s0 hs0
          obtain ⟨k1, k2, k3, a0, k4, k5, k6⟩ := g3 j hj s0 hs0
          by_cases hsp : s0.mArchetype = pArchetype
          · rw [hsp, ha2] at k4
            simp only [Option.mem_def, Option.some.injEq] at k4
            subst k4
            refine ⟨k1, k2, k3, a1, ?_, ?_, ?_⟩
            · rw [hobj, hsp, List.getElem?_set_self hplt]
              rfl
            · rw [ha1]
              simp only []
              rw [hcid, setAt_other _ _ _ _ hic]
              exact k5
            · rw [k6, ha1]
          · refine ⟨k1, k2, k3, a0, ?_, k5, k6⟩
            rw [hobj, List.getElem?_set_ne (Ne.symm hsp)]
            exact k4
    · intro q hq
      by_cases hqc : q.mContext = pContext
      · rw [hstor_same q hqc, hstor_old q hqc]
        have hqi : q.mIndex ≠ c.mEntityComponentStorageList.length := by
          intro hqi
          apply hq
          cases q
          simp only at hqc hqi
          rw [hqc, hqi]
        by_cases hlt : q.mIndex < c.mEntityComponentStorageList.length
        · rw [List.getElem?_append_left hlt]
        · rw [List.getElem?_eq_none
              (by rw [List.length_append, List.length_singleton]; omega),
            List.getElem?_eq_none (by omega)]
      · exact hstor_other q hqc

/-- Replacing a storage by one with the same path, archetype and component count
that satisfies the invariant of storages keeps the invariant of the world. -/
theorem World.Inv_setStorage (w : World) (q : StoragePtr) (s t : EntityComponentStorage)
    (hinv : w.Inv) (hs : w.storage q = some s)
    (htinv : t.Inv) (h1 : t.mContext = s.mContext) (h2 : t.mIndex = s.mIndex)
    (h3 : t.mArchetype = s.mArchetype)
    (h4 : t.mComponentCountPerEntity = s.mComponentCountPerEntity) :
    (w.setStorage q t).Inv := by
  obtain ⟨hcat, harch, hctxs⟩ := hinv
  obtain ⟨c, hc, hlist⟩ := (w.storage_eq_some_iff q s).mp hs
  have hlt : q.mIndex < c.mEntityComponentStorageList.length := by
    by_contra hge
    rw [List.getElem?_eq_none (by omega)] at hlist
    cases hlist
  refine ⟨?_, ?_, ?_⟩
  · unfold World.InvCatalog
    rw [World.setStorage_manager]
    exact hcat
  · unfold World.InvArchetypes
    rw [World.setStorage_manager]
    intro p hp a ha
    obtain ⟨g1, g2⟩ := harch p hp a ha
    refine ⟨g1, ?_⟩
    intro i hi j hj
    obtain ⟨s0, hs0, hs0a⟩ := g2 i hi j hj
    by_cases hqq : ({ mContext := i, mIndex := j } : StoragePtr) = q
    · rw [hqq] at hs0 ⊢
      have hs0' : w.storage q = some s0 := hs0
      rw [hs] at hs0'
      cases hs0'
      exact ⟨t, w.storage_setStorage_same q s t hs, by rw [h3]; exact hs0a⟩
    · refine ⟨s0, ?_, hs0a⟩
      rw [w.storage_setStorage_other q _ t hqq]
      exact hs0
  · intro i hi c0 hc0
    by_cases hic : i = q.mContext
    · subst hic
      rw [w.setStorage_contexts_same q t c hc] at hc0
      simp only [Option.mem_def, Option.some.injEq] at hc0
      subst hc0
      obtain ⟨g1, g2, g3⟩ := hctxs q.mContext hi c hc
      refine ⟨g1, by rw [List.length_set]; exact g2, ?_⟩
      intro j hj s0 hs0
      simp only [List.length_set] at hj
      simp only [] at hs0
      by_cases hjq : j = q.mIndex
      · subst hjq
        rw [List.getElem?_set_self hlt] at hs0
        simp only [Option.mem_def, Option.some.injEq] at hs0
        subst hs0
        obtain ⟨k1, k2, k3, a0, k4, k5, k6⟩ := g3 q.mIndex hlt s hlist
        refine ⟨htinv, by rw [h1]; exact k2, by rw [h2]; exact k3, a0, ?_, k5, by rw [h4]; exact k6⟩
        rw [World.setStorage_manager, h3]
        exact k4
      · rw [List.getElem?_set_ne (Ne.symm hjq)] at hs0
        obtain ⟨k1, k2, k3, a0, k4, k5, k6⟩ := g3 j hj s0 hs0
        refine ⟨k1, k2, k3, a0, ?_, k5, k6⟩
        rw [World.setStorage_manager]
        exact k4
    · rw [w.setStorage_contexts_other q t i hic] at hc0
      obtain ⟨g1, g2, g3⟩ := hctxs i hi c0 hc0
      refine ⟨g1, g2, ?_⟩
      intro j hj s0 hs0
      obtain ⟨k1, k2, k3, a0, k4, k5, k6⟩ := g3 j hj s0 hs0
      refine ⟨k1, k2, k3, a0, ?_, k5, k6⟩
      rw [World.setStorage_manager]
      exact k4

/-- `Allocate` through a storage pointer, in a world that satisfies the invariant,
for a storage with room: it returns a record that was free, the storage is replaced
by the storage after the allocation, and the invariant holds afterwards. -/
theorem World.Allocate_world_spec (w : World) (ps : StoragePtr) (s : EntityComponentStorage)
    (b : Bool) (hinv : w.Inv) (hctx : ps.mContext < MAX_CONTEXT_COUNT)
    (hs : w.storage ps = some s) (hn : 1 ≤ s.mEntityCountPerChunk)
    (hroom : s.mChunkFreeHead ≠ s.mChunkCount ∨ s.mChunkCount < MAX_CHUNK_COUNT_PER_STORAGE) :
    ∃ t p, w.Allocate ps b = some (w.setStorage ps t, p) ∧ t.Inv ∧ s.AllocatedAt b p t
      ∧ (w.setStorage ps t).Inv := by
  obtain ⟨c, hc, hlist, hcid, hidx, hsinv, hsctx, hsidx, a, ha, _, hcc⟩ :=
    World.storage_path hinv hctx hs
  obtain ⟨t, p, hall, htinv, hrel⟩ := s.Allocate_spec a b hsinv hn hcc.symm hroom
  have ha2 : w.archetype s.mArchetype = some a := ha
  refine ⟨t, p, ?_, htinv, hrel, ?_⟩
  · unfold World.Allocate
    simp only [hs, ha2, hall]
  · exact w.Inv_setStorage ps s t hinv hs htinv hrel.mContext hrel.mIndex hrel.mArchetype
      hrel.mComponentCountPerEntity

/-! ## Writing the components of one record -/

theorem EntityComponentStorage.setCells_cellsOf (s : EntityComponentStorage) (p : EntityPtr) :
    s.setCells p (s.cellsOf p) = s := by
  unfold EntityComponentStorage.setCells EntityComponentStorage.cellsOf
  have h : (fun index block =>
      if block = p.mBlockIndex then (s.mChunks p.mChunkIndex).mComponentBuffers index p.mBlockIndex
      else (s.mChunks p.mChunkIndex).mComponentBuffers index block)
      = (s.mChunks p.mChunkIndex).mComponentBuffers := by
    funext index block
    by_cases hb : block = p.mBlockIndex
    · rw [if_pos hb, hb]
    · rw [if_neg hb]
  rw [h]
  have h2 : setAt s.mChunks p.mChunkIndex (s.mChunks p.mChunkIndex) = s.mChunks := by
    funext i
    unfold setAt
    by_cases hi : i = p.mChunkIndex
    · rw [if_pos hi, hi]
    · rw [if_neg hi]
  show { s with mChunks := setAt s.mChunks p.mChunkIndex (s.mChunks p.mChunkIndex) } = s
  rw [h2]

theorem EntityComponentStorage.setCells_setCells (s : EntityComponentStorage) (p : EntityPtr)
    (c1 c2 : Nat → Option Value) : (s.setCells p c1).setCells p c2 = s.setCells p c2 := by
  unfold EntityComponentStorage.setCells
  simp only [setAt_same]
  congr 1
  funext i
  unfold setAt
  by_cases hi : i = p.mChunkIndex
  · simp only [if_pos hi]
    congr 1
    funext index block
    by_cases hb : block = p.mBlockIndex
    · simp only [if_pos hb]
    · simp only [if_neg hb]
  · simp only [if_neg hi]

theorem EntityComponentStorage.cellsOf_setCells_same (s : EntityComponentStorage)
    (p : EntityPtr) (cells : Nat → Option Value) : (s.setCells p cells).cellsOf p = cells := by
  unfold EntityComponentStorage.setCells EntityComponentStorage.cellsOf
  funext index
  simp only [setAt_same, if_true]

theorem EntityComponentStorage.cellsOf_setCells_other (s : EntityComponentStorage)
    (p q : EntityPtr) (cells : Nat → Option Value)
    (h : q.mChunkIndex ≠ p.mChunkIndex ∨ q.mBlockIndex ≠ p.mBlockIndex) :
    (s.setCells p cells).cellsOf q = s.cellsOf q := by
  unfold EntityComponentStorage.setCells EntityComponentStorage.cellsOf
  funext index
  by_cases hc : q.mChunkIndex = p.mChunkIndex
  · have hb : q.mBlockIndex ≠ p.mBlockIndex := by
      rcases h with h | h
      · exact absurd hc h
      · exact h
    simp only [hc, setAt_same, if_neg hb]
  · simp only [setAt_other _ _ _ _ hc]

/-- A store through a component pointer of the record `p` replaces one component
object of `p`. -/
theorem EntityComponentStorage.store_eq (s : EntityComponentStorage) (p : EntityPtr)
    (index : Nat) (v : Option Value) :
    s.store p { index := index, block := p.mBlockIndex } v
      = s.setCells p (setAt (s.cellsOf p) index v) := by
  have hb : setAt (s.mChunks p.mChunkIndex).mComponentBuffers index
      (setAt ((s.mChunks p.mChunkIndex).mComponentBuffers index) p.mBlockIndex v)
      = fun i block =>
          if block = p.mBlockIndex then
            setAt (fun index => (s.mChunks p.mChunkIndex).mComponentBuffers index p.mBlockIndex)
              index v i
          else (s.mChunks p.mChunkIndex).mComponentBuffers i block := by
    funext i block
    unfold setAt
    by_cases hi : i = index
    · simp only [if_pos hi]
      by_cases hb : block = p.mBlockIndex
      · simp only [if_pos hb]
      · simp only [if_neg hb, hi]
    · simp only [if_neg hi]
      by_cases hb : block = p.mBlockIndex
      · subst hb
        simp only [if_true]
      · simp only [if_neg hb]
  unfold EntityComponentStorage.store EntityComponentStorage.setCells
    EntityComponentStorage.cellsOf EntityComponentChunk.store
  simp only []
  rw [hb]

/-- Replacing the component objects of a record changes no other member of the
storage and of its chunks. -/
theorem EntityComponentStorage.setCells_fields (s : EntityComponentStorage) (p : EntityPtr)
    (cells : Nat → Option Value) :
    (s.setCells p cells).mContext = s.mContext
      ∧ (s.setCells p cells).mIndex = s.mIndex
      ∧ (s.setCells p cells).mArchetype = s.mArchetype
      ∧ (s.setCells p cells).mEntityCountPerChunk = s.mEntityCountPerChunk
      ∧ (s.setCells p cells).mComponentCountPerEntity = s.mComponentCountPerEntity
      ∧ (s.setCells p cells).mChunkCount = s.mChunkCount
      ∧ (s.setCells p cells).mChunkFreeHead = s.mChunkFreeHead
      ∧ (s.setCells p cells).mChunkFreeList = s.mChunkFreeList
      ∧ (s.setCells p cells).mChunkArrayCapacity = s.mChunkArrayCapacity
      ∧ (∀ i, ((s.setCells p cells).mChunks i).mEntitiesBuffer = (s.mChunks i).mEntitiesBuffer)
      ∧ (∀ i, ((s.setCells p cells).mChunks i).mComponentCount = (s.mChunks i).mComponentCount)
      ∧ (∀ i, ((s.setCells p cells).mChunks i).mBlockCount = (s.mChunks i).mBlockCount)
      ∧ (∀ i, ∃ bufs, (s.setCells p cells).mChunks i
          = { s.mChunks i with mComponentBuffers := bufs }) := by
  refine ⟨rfl, rfl, rfl, rfl, rfl, rfl, rfl, rfl, rfl, ?_, ?_, ?_, ?_⟩
  all_goals
    intro i
    unfold EntityComponentStorage.setCells
    by_cases hi : i = p.mChunkIndex
    · subst hi
      simp only [setAt_same] <;> first | rfl | exact ⟨_, rfl⟩
    · simp only [setAt_other _ _ _ _ hi] <;> first | rfl | exact ⟨_, rfl⟩

/-- Replacing the component objects of a record keeps the invariant of the
storage. -/
theorem EntityComponentStorage.setCells_Inv (s : EntityComponentStorage) (p : EntityPtr)
    (cells : Nat → Option Value) (hinv : s.Inv) : (s.setCells p cells).Inv := by
  obtain ⟨f1, f2, f3, f4, f5, f6, f7, f8, f9, _, _, _, f13⟩ := s.setCells_fields p cells
  obtain ⟨h1, h2, h3, h4, h5, h6, h7, h8⟩ := hinv
  have hfree : (s.setCells p cells).freeChunks = s.freeChunks := by
    unfold EntityComponentStorage.freeChunks
    rw [f6, f7, f8]
  have hfull : ∀ i, ((s.setCells p cells).mChunks i).IsFull = (s.mChunks i).IsFull := by
    intro i
    obtain ⟨bufs, hb⟩ := f13 i
    rw [hb]
    rfl
  refine ⟨by rw [f9]; exact h1, by rw [f6, f9]; exact h2, by rw [f4]; exact h3, ?_,
    by rw [hfree, f6]; exact h5, by rw [hfree]; exact h6, by rw [hfree, f6]; exact h7, ?_⟩
  · intro i hi
    rw [f6] at hi
    obtain ⟨bufs, hb⟩ := f13 i
    rw [hb]
    exact h4 i hi
  · intro i hi
    rw [f6] at hi
    rw [hfree, hfull]
    exact h8 i hi

theorem World.setStorage_setStorage (w : World) (q : StoragePtr)
    (s1 s2 : EntityComponentStorage) : (w.setStorage q s1).setStorage q s2 = w.setStorage q s2 := by
  unfold World.setStorage
  cases hc : w.mEntityContexts q.mContext with
  | none => simp only [hc]
  | some c =>
    simp only [setAt_same, List.set_set]
    congr 1
    funext i
    unfold setAt
    by_cases hi : i = q.mContext
    · simp only [if_pos hi]
    · simp only [if_neg hi]

/-- A store through a component pointer of the record `p`, at world level. -/
theorem World.store_world_eq (w : World) (p : EntityPtr) (s : EntityComponentStorage) (index : Nat)
    (v : Option Value) (hs : w.storage p.mStorage = some s) :
    w.store p { index := index, block := p.mBlockIndex } v
      = some (w.setStorage p.mStorage (s.setCells p (setAt (s.cellsOf p) index v))) := by
  unfold World.store
  rw [hs]
  simp only [EntityComponentStorage.store_eq]

/-- An index the table returns is below the component count and holds the type
id. -/
theorem LinearComponentIndexTable.Get_eq (t : LinearComponentIndexTable) (id j : Nat)
    (h : t.Get id = (j : Int)) : j < t.mComponentCount ∧ t.mComponentTypeIds j = id := by
  unfold LinearComponentIndexTable.Get at h
  cases hf : List.find? (fun i => t.mComponentTypeIds i == id) (List.range t.mComponentCount) with
  | none =>
    rw [hf] at h
    simp only [INVALID_COMPONENT_INDEX] at h
    omega
  | some i =>
    rw [hf] at h
    simp only [Nat.cast_inj] at h
    subst h
    have h1 := List.find?_some hf
    have h2 := List.mem_of_find?_eq_some hf
    simp only [beq_iff_eq] at h1
    exact ⟨List.mem_range.mp h2, h1⟩

/-- An index that is not invalid is a natural number. -/
theorem LinearComponentIndexTable.Get_cases (t : LinearComponentIndexTable) (id : Nat) :
    t.Get id = INVALID_COMPONENT_INDEX ∨ ∃ j : Nat, t.Get id = (j : Int) := by
  unfold LinearComponentIndexTable.Get
  cases List.find? (fun i => t.mComponentTypeIds i == id) (List.range t.mComponentCount) with
  | none => exact Or.inl rfl
  | some i => exact Or.inr ⟨i, rfl⟩
/-! ## Copying and constructing components -/

theorem World.GetComponentByTypeID_valid (w : World) (p : EntityPtr)
    (s : EntityComponentStorage) (a : EntityArchetype) (tid j : Nat)
    (hs : w.storage p.mStorage = some s) (ha : w.archetype s.mArchetype = some a)
    (hj : a.GetComponentIndex tid = (j : Int))
    (hlt : j < (s.mChunks p.mChunkIndex).mComponentCount) :
    w.GetComponentByTypeID p tid = some (some { index := j, block := p.mBlockIndex }) := by
  unfold World.GetComponentByTypeID
  rw [hs]
  simp only [ha, EntityComponentStorage.GetComponentByTypeID,
    EntityComponentChunk.GetComponentByTypeID, hj, EntityComponentChunk.GetComponentByIndex]
  have hne : ¬ ((j : Int) = INVALID_COMPONENT_INDEX) := by
    unfold INVALID_COMPONENT_INDEX
    omega
  simp [hne, hlt]

theorem World.GetComponentByTypeID_invalid (w : World) (p : EntityPtr)
    (s : EntityComponentStorage) (a : EntityArchetype) (tid : Nat)
    (hs : w.storage p.mStorage = some s) (ha : w.archetype s.mArchetype = some a)
    (hj : a.GetComponentIndex tid = INVALID_COMPONENT_INDEX) :
    w.GetComponentByTypeID p tid = some none := by
  unfold World.GetComponentByTypeID
  rw [hs]
  simp only [ha, EntityComponentStorage.GetComponentByTypeID,
    EntityComponentChunk.GetComponentByTypeID, hj, if_true]

theorem World.GetComponentByIndex_eq (w : World) (p : EntityPtr) (s : EntityComponentStorage)
    (i : Nat) (hs : w.storage p.mStorage = some s)
    (hlt : i < (s.mChunks p.mChunkIndex).mComponentCount) :
    w.GetComponentByIndex p i = some { index := i, block := p.mBlockIndex } := by
  unfold World.GetComponentByIndex
  rw [hs]
  simp only [EntityComponentStorage.GetComponentByIndex, EntityComponentChunk.GetComponentByIndex,
    if_pos hlt]

theorem World.load_eq (w : World) (p : EntityPtr) (s : EntityComponentStorage) (i : Nat)
    (hs : w.storage p.mStorage = some s) :
    w.load p { index := i, block := p.mBlockIndex } = s.cellsOf p i := by
  unfold World.load
  rw [hs]
  rfl

/-- The value `GetComponent<T>()` leads to, from the index table of the archetype
and the component objects of the record. -/
theorem World.component_eq (w : World) (p : EntityPtr) (s : EntityComponentStorage)
    (a : EntityArchetype) (T : ComponentType) (hs : w.storage p.mStorage = some s)
    (ha : w.archetype s.mArchetype = some a) :
    w.component p T
      = if a.GetComponentIndex T.typeId = INVALID_COMPONENT_INDEX then none
        else s.cellsOf p (a.GetComponentIndex T.typeId).toNat := by
  unfold World.component World.GetComponent
  rw [hs]
  simp only [ha, EntityComponentStorage.GetComponent, EntityComponentChunk.GetComponent]
  by_cases h : a.GetComponentIndex T.typeId = INVALID_COMPONENT_INDEX
  · simp only [h, if_true]
  · simp only [h, if_false]
    exact w.load_eq p s _ hs

/-- The pointer `GetComponent<T>()` returns. -/
theorem World.GetComponent_eq (w : World) (p : EntityPtr) (s : EntityComponentStorage)
    (a : EntityArchetype) (T : ComponentType) (hs : w.storage p.mStorage = some s)
    (ha : w.archetype s.mArchetype = some a) :
    w.GetComponent p T
      = some (if a.GetComponentIndex T.typeId = INVALID_COMPONENT_INDEX then none
          else some { index := (a.GetComponentIndex T.typeId).toNat, block := p.mBlockIndex }) := by
  unfold World.GetComponent
  rw [hs]
  simp only [ha, EntityComponentStorage.GetComponent, EntityComponentChunk.GetComponent]

/-- After the component objects of the record `pDst` are replaced, another record
`pSrc` still has its storage, archetype, component count and component objects. -/
theorem World.setCells_other (w : World) (pDst pSrc : EntityPtr)
    (sd ss : EntityComponentStorage) (cells : Nat → Option Value)
    (hsd : w.storage pDst.mStorage = some sd) (hss : w.storage pSrc.mStorage = some ss)
    (hne : pSrc.mStorage ≠ pDst.mStorage ∨ pSrc.mChunkIndex ≠ pDst.mChunkIndex
      ∨ pSrc.mBlockIndex ≠ pDst.mBlockIndex) :
    ∃ ss1, (w.setStorage pDst.mStorage (sd.setCells pDst cells)).storage pSrc.mStorage = some ss1
      ∧ ss1.mArchetype = ss.mArchetype
      ∧ (ss1.mChunks pSrc.mChunkIndex).mComponentCount
          = (ss.mChunks pSrc.mChunkIndex).mComponentCount
      ∧ ss1.cellsOf pSrc = ss.cellsOf pSrc
      ∧ ss1.header pSrc = ss.header pSrc := by
  by_cases hst : pSrc.mStorage = pDst.mStorage
  · have hne2 : pSrc.mChunkIndex ≠ pDst.mChunkIndex ∨ pSrc.mBlockIndex ≠ pDst.mBlockIndex := by
      rcases hne with h | h
      · exact absurd hst h
      · exact h
    rw [hst] at hss ⊢
    rw [hsd] at hss
    cases hss
    obtain ⟨_, _, f3, _, _, _, _, _, _, f10, f11, _, _⟩ := sd.setCells_fields pDst cells
    refine ⟨_, w.storage_setStorage_same _ sd _ hsd, f3, f11 _,
      sd.cellsOf_setCells_other pDst pSrc cells hne2, ?_⟩
    unfold EntityComponentStorage.header
    rw [f10]
  · refine ⟨ss, ?_, rfl, rfl, rfl, rfl⟩
    rw [w.storage_setStorage_other _ _ _ hst]
    exact hss

/-- Writing back the storage a pointer leads to changes nothing. -/
theorem World.setStorage_self (w : World) (q : StoragePtr) (s : EntityComponentStorage)
    (hs : w.storage q = some s) : w.setStorage q s = w := by
  unfold World.setStorage
  obtain ⟨c, hc, hlist⟩ := (w.storage_eq_some_iff _ _).mp hs
  simp only [hc]
  have hl : c.mEntityComponentStorageList.set q.mIndex s = c.mEntityComponentStorageList := by
    apply List.ext_getElem?
    intro n
    by_cases hn : n = q.mIndex
    · subst hn
      have hlt : q.mIndex < c.mEntityComponentStorageList.length := by
        by_contra hge
        rw [List.getElem?_eq_none (by omega)] at hlist
        cases hlist
      rw [List.getElem?_set_self hlt, hlist]
    · rw [List.getElem?_set_ne (Ne.symm hn)]
  rw [hl]
  have hf : setAt w.mEntityContexts q.mContext (some c) = w.mEntityContexts := by
    funext i
    unfold setAt
    by_cases hi : i = q.mContext
    · rw [if_pos hi, hi, hc]
    · rw [if_neg hi]
  show { w with mEntityContexts := setAt w.mEntityContexts q.mContext (some c) } = w
  rw [hf]

/-- `CopyEntityData` between two different records whose storages and archetypes
exist: it returns, every component of the source that the destination archetype
has is copied to the destination, and no other component object changes. -/
theorem World.CopyEntityData_spec (w : World) (pDst pSrc : EntityPtr)
    (sd ss : EntityComponentStorage) (ad as : EntityArchetype)
    (hsd : w.storage pDst.mStorage = some sd) (had : w.archetype sd.mArchetype = some ad)
    (hadinv : ad.Inv)
    (hdc : (sd.mChunks pDst.mChunkIndex).mComponentCount = ad.mComponentCount)
    (hss : w.storage pSrc.mStorage = some ss) (has : w.archetype ss.mArchetype = some as)
    (hasinv : as.Inv)
    (hsc : (ss.mChunks pSrc.mChunkIndex).mComponentCount = as.mComponentCount)
    (hne : pSrc.mStorage ≠ pDst.mStorage ∨ pSrc.mChunkIndex ≠ pDst.mChunkIndex
      ∨ pSrc.mBlockIndex ≠ pDst.mBlockIndex) :
    ∃ cells, w.CopyEntityData pDst pSrc
        = some (w.setStorage pDst.mStorage (sd.setCells pDst cells))
      ∧ (∀ i, i < as.mComponentCount → ∀ j : Nat,
          ad.GetComponentIndex (as.mComponentTypeIds i) = (j : Int) →
          cells j = ss.cellsOf pSrc i)
      ∧ (∀ j : Nat, (∀ i, i < as.mComponentCount →
          ad.GetComponentIndex (as.mComponentTypeIds i) ≠ (j : Int)) →
          cells j = sd.cellsOf pDst j) := by
  have hinj : ∀ i k, i < as.mComponentCount → k < as.mComponentCount →
      as.mComponentTypeIds i = as.mComponentTypeIds k → i = k := by
    obtain ⟨hcnt, _, _, hsorted, hent⟩ := hasinv
    intro i k hi hk hik
    have hi2 : i < as.mComponentMetaMap.length := by omega
    have hk2 : k < as.mComponentMetaMap.length := by omega
    have e1 := (hent i hi2 _ (by rw [List.getElem?_eq_getElem hi2]; exact rfl)).2.2.1
    have e2 := (hent k hk2 _ (by rw [List.getElem?_eq_getElem hk2]; exact rfl)).2.2.1
    have hkeys : as.mComponentMetaMap.keys[i]? = as.mComponentMetaMap.keys[k]? := by
      unfold ComponentMetaMap.keys
      rw [List.getElem?_map, List.getElem?_map, List.getElem?_eq_getElem hi2,
        List.getElem?_eq_getElem hk2]
      simp only [Option.map_some', Option.some.injEq]
      rw [← e1, ← e2]
      exact hik
    have hlen : as.mComponentMetaMap.keys.length = as.mComponentMetaMap.length := by
      unfold ComponentMetaMap.keys
      rw [List.length_map]
    exact List.getElem?_inj (by omega) hsorted.nodup hkeys
  have hdlt : ∀ tid j : Nat, ad.GetComponentIndex tid = (j : Int) → j < ad.mComponentCount := by
    intro tid j hj
    have := (LinearComponentIndexTable.Get_eq _ tid j hj).1
    rw [hadinv.2.2.1] at this
    exact this
  have hdinj : ∀ t1 t2 (j : Nat), ad.GetComponentIndex t1 = (j : Int) →
      ad.GetComponentIndex t2 = (j : Int) → t1 = t2 := by
    intro t1 t2 j h1 h2
    rw [← (LinearComponentIndexTable.Get_eq _ t1 j h1).2,
      ← (LinearComponentIndexTable.Get_eq _ t2 j h2).2]
  have hga : w.GetArchetype pSrc = some ss.mArchetype := by
    unfold World.GetArchetype
    rw [hss]
    rfl
  unfold World.CopyEntityData
  simp only [hga, has]
  have key : ∀ k, k ≤ as.mComponentCount →
      ∃ cells, List.foldl (World.copyComponent as pDst pSrc) (some w) (List.range k)
          = some (w.setStorage pDst.mStorage (sd.setCells pDst cells))
        ∧ (∀ i, i < k → ∀ j : Nat,
            ad.GetComponentIndex (as.mComponentTypeIds i) = (j : Int) →
            cells j = ss.cellsOf pSrc i)
        ∧ (∀ j : Nat, (∀ i, i < k →
            ad.GetComponentIndex (as.mComponentTypeIds i) ≠ (j : Int)) →
            cells j = sd.cellsOf pDst j) := by
    intro k
    induction k with
    | zero =>
      intro _
      refine ⟨sd.cellsOf pDst, ?_, fun i hi => absurd hi (Nat.not_lt_zero _), fun _ _ => rfl⟩
      simp only [List.range_zero, List.foldl_nil, Option.some.injEq]
      rw [sd.setCells_cellsOf, w.setStorage_self _ _ hsd]
    | succ k ih =>
      intro hk
      obtain ⟨cells, hfold, hc1, hc2⟩ := ih (by omega)
      rw [List.range_succ, List.foldl_append, hfold]
      simp only [List.foldl_cons, List.foldl_nil]
      have hsd1 := w.storage_setStorage_same pDst.mStorage sd (sd.setCells pDst cells) hsd
      obtain ⟨_, _, f3, _, _, _, _, _, _, _, f11, _, _⟩ := sd.setCells_fields pDst cells
      have had1 : (w.setStorage pDst.mStorage (sd.setCells pDst cells)).archetype
          (sd.setCells pDst cells).mArchetype = some ad := by
        unfold World.archetype
        rw [World.setStorage_manager, f3]
        exact had
      obtain ⟨ss1, hss1, g1, g2, g3, _⟩ := w.setCells_other pDst pSrc sd ss cells hsd hss hne
      unfold World.copyComponent
      simp only []
      rcases LinearComponentIndexTable.Get_cases ad.mComponentIndexTable (as.mComponentTypeIds k)
        with hinv | ⟨j0, hj0⟩
      · rw [World.GetComponentByTypeID_invalid _ pDst _ ad _ hsd1 had1 hinv]
        simp only []
        refine ⟨cells, rfl, ?_, ?_⟩
        · intro i hi j hj
          by_cases hik : i = k
          · subst hik
            have : ad.GetComponentIndex (as.mComponentTypeIds i) = INVALID_COMPONENT_INDEX := hinv
            rw [this] at hj
            unfold INVALID_COMPONENT_INDEX at hj
            omega
          · exact hc1 i (by omega) j hj
        · intro j hj
          exact hc2 j (fun i hi => hj i (by omega))
      · have hj0' : ad.GetComponentIndex (as.mComponentTypeIds k) = (j0 : Int) := hj0
        rw [World.GetComponentByTypeID_valid _ pDst _ ad _ j0 hsd1 had1 hj0'
            (by rw [f11, hdc]; exact hdlt _ _ hj0'),
          World.GetComponentByIndex_eq _ pSrc ss1 k hss1 (by rw [g2, hsc]; omega)]
        simp only []
        rw [World.load_eq _ pSrc ss1 k hss1, World.store_world_eq _ pDst _ j0 _ hsd1,
          World.setStorage_setStorage, EntityComponentStorage.setCells_setCells,
          EntityComponentStorage.cellsOf_setCells_same, g3]
        refine ⟨_, rfl, ?_, ?_⟩
        · intro i hi j hj
          by_cases hik : i = k
          · subst hik
            rw [hj0'] at hj
            have : j0 = j := by omega
            subst this
            rw [setAt_same]
          · have hjne : j ≠ j0 := by
              intro hjj
              subst hjj
              exact hik (hinj i k (by omega) (by omega) (hdinj _ _ j hj hj0'))
            rw [setAt_other _ _ _ _ hjne]
            exact hc1 i (by omega) j hj
        · intro j hj
          have hjne : j ≠ j0 := by
            intro hjj
            subst hjj
            exact hj k (by omega) hj0'
          rw [setAt_other _ _ _ _ hjne]
          exact hc2 j (fun i hi => hj i (by omega))
  exact key _ (le_refl _)

/-- `ConstructEntity(pEntity, args...)` for arguments of pairwise different type
ids: it returns, every argument whose class the archetype has is constructed in its
component, and no other component object changes. -/
theorem World.ConstructEntity_spec (p : EntityPtr) (ad : EntityArchetype)
    (args : List (ComponentType × Value)) :
    ∀ (w : World) (sd : EntityComponentStorage), w.storage p.mStorage = some sd →
      w.archetype sd.mArchetype = some ad →
      (args.map (fun x => x.1.typeId)).Nodup →
      ∃ cells, w.ConstructEntity p args = some (w.setStorage p.mStorage (sd.setCells p cells))
        ∧ (∀ T v, (T, v) ∈ args → ∀ j : Nat, ad.GetComponentIndex T.typeId = (j : Int) →
            cells j = some v)
        ∧ (∀ j : Nat, (∀ T v, (T, v) ∈ args → ad.GetComponentIndex T.typeId ≠ (j : Int)) →
            cells j = sd.cellsOf p j) := by
  have hdinj : ∀ t1 t2 (j : Nat), ad.GetComponentIndex t1 = (j : Int) →
      ad.GetComponentIndex t2 = (j : Int) → t1 = t2 := by
    intro t1 t2 j h1 h2
    rw [← (LinearComponentIndexTable.Get_eq _ t1 j h1).2,
      ← (LinearComponentIndexTable.Get_eq _ t2 j h2).2]
  induction args with
  | nil =>
    intro w sd hsd _ _
    refine ⟨sd.cellsOf p, ?_, ?_, fun _ _ => rfl⟩
    · rw [sd.setCells_cellsOf, w.setStorage_self _ _ hsd]
      rfl
    · intro T v h
      cases h
  | cons x rest ih =>
    intro w sd hsd had hnd
    obtain ⟨T0, v0⟩ := x
    simp only [List.map_cons, List.nodup_cons] at hnd
    obtain ⟨hnotin, hnd2⟩ := hnd
    unfold World.ConstructEntity
    simp only [is_type_duplicate_eq_false, Bool.not_false, if_true]
    rw [w.GetComponent_eq p sd ad T0 hsd had]
    rcases LinearComponentIndexTable.Get_cases ad.mComponentIndexTable T0.typeId
      with hinv | ⟨j0, hj0⟩
    · have hinv2 : ad.GetComponentIndex T0.typeId = INVALID_COMPONENT_INDEX := hinv
      simp only [hinv2, if_true]
      obtain ⟨cells, h1, h2, h3⟩ := ih w sd hsd had hnd2
      refine ⟨cells, h1, ?_, ?_⟩
      · intro T v hmem j hj
        rw [List.mem_cons] at hmem
        rcases hmem with hmem | hmem
        · simp only [Prod.mk.injEq] at hmem
          rw [hmem.1, hinv2] at hj
          unfold INVALID_COMPONENT_INDEX at hj
          omega
        · exact h2 T v hmem j hj
      · intro j hj
        exact h3 j (fun T v hmem => hj T v (List.mem_cons_of_mem _ hmem))
    · have hj0' : ad.GetComponentIndex T0.typeId = (j0 : Int) := hj0
      have hne : ¬ ((j0 : Int) = INVALID_COMPONENT_INDEX) := by
        unfold INVALID_COMPONENT_INDEX
        omega
      simp only [hj0', hne, if_false, Int.toNat_ofNat]
      rw [World.store_world_eq w p sd j0 _ hsd]
      simp only []
      have hsd1 := w.storage_setStorage_same p.mStorage sd
        (sd.setCells p (setAt (sd.cellsOf p) j0 (some v0))) hsd
      have had1 : (w.setStorage p.mStorage
          (sd.setCells p (setAt (sd.cellsOf p) j0 (some v0)))).archetype
          (sd.setCells p (setAt (sd.cellsOf p) j0 (some v0))).mArchetype = some ad := by
        unfold World.archetype
        rw [World.setStorage_manager]
        exact had
      obtain ⟨cells, h1, h2, h3⟩ := ih _ _ hsd1 had1 hnd2
      rw [h1, World.setStorage_setStorage, EntityComponentStorage.setCells_setCells]
      have hrest : ∀ T v, (T, v) ∈ rest → ad.GetComponentIndex T.typeId ≠ (j0 : Int) := by
        intro T v hmem hj
        apply hnotin
        rw [List.mem_map]
        exact ⟨(T, v), hmem, hdinj _ _ j0 hj hj0'⟩
      refine ⟨cells, rfl, ?_, ?_⟩
      · intro T v hmem j hj
        rw [List.mem_cons] at hmem
        rcases hmem with hmem | hmem
        · simp only [Prod.mk.injEq] at hmem
          rw [hmem.1, hj0'] at hj
          have : j0 = j := by omega
          subst this
          rw [h3 j0 hrest, EntityComponentStorage.cellsOf_setCells_same, setAt_same, hmem.2]
        · exact h2 T v hmem j hj
      · intro j hj
        rw [h3 j (fun T v hmem => hj T v (List.mem_cons_of_mem _ hmem)),
          EntityComponentStorage.cellsOf_setCells_same]
        have hjne : j ≠ j0 := by
          intro hjj
          subst hjj
          exact hj T0 v0 (List.mem_cons_self _ _) hj0'
        rw [setAt_other _ _ _ _ hjne]

/-- Default construction is construction from the default values. -/
theorem World.ConstructEntityDefault_eq (p : EntityPtr) (Ts : List ComponentType) :
    ∀ w : World, w.ConstructEntityDefault p Ts
      = w.ConstructEntity p (Ts.map (fun T => (T, T.defaultValue))) := by
  induction Ts with
  | nil => intro w; rfl
  | cons T Rest ih =>
    intro w
    rw [List.map_cons]
    simp only [World.ConstructEntityDefault, World.ConstructEntity, is_type_duplicate_eq_false,
      Bool.not_false, if_true]
    cases hg : w.GetComponent p T with
    | none => rfl
    | some o =>
      cases o with
      | none => exact ih w
      | some slot =>
        simp only []
        cases hst : w.store p slot (some T.defaultValue) with
        | none => rfl
        | some w1 => exact ih w1

/-- `ExtendEntity<Ts...>(pSrcEntity)` is `ExtendEntity(pSrcEntity, args...)` with
the default values as arguments. -/
theorem World.ExtendEntity_eq (w : World) (pContext : Nat) (pSrcEntity : EntityPtr)
    (Ts : List ComponentType) :
    w.ExtendEntity pContext pSrcEntity Ts
      = w.ExtendEntityWith pContext pSrcEntity (Ts.map (fun T => (T, T.defaultValue))) := by
  have hmap : (Ts.map (fun T => (T, T.defaultValue))).map Prod.fst = Ts := by
    rw [List.map_map]
    exact List.map_id _
  unfold World.ExtendEntity World.ExtendEntityWith
  simp only [hmap, World.ConstructEntityDefault_eq]
/-! ## The event managers of the contexts -/

theorem World.setStorage_GetEventManager (w : World) (p : StoragePtr) (s : EntityComponentStorage)
    (i : Nat) : (w.setStorage p s).GetEventManager i = w.GetEventManager i := by
  unfold World.setStorage World.GetEventManager
  cases hc : w.mEntityContexts p.mContext with
  | none => rfl
  | some c =>
    by_cases hi : i = p.mContext
    · simp [setAt, hi, hc]
    · simp [setAt, hi]

theorem World.GetEntityComponentStorage_GetEventManager (w w1 : World) (pContext pArchetype : Nat)
    (ps : StoragePtr) (h : w.GetEntityComponentStorage pContext pArchetype = some (w1, ps))
    (i : Nat) : w1.GetEventManager i = w.GetEventManager i := by
  unfold World.GetEntityComponentStorage at h
  cases hc : w.mEntityContexts pContext with
  | none => simp [hc] at h
  | some c =>
    cases ha : w.archetype pArchetype with
    | none => simp [hc, ha] at h
    | some a =>
      simp only [hc, ha] at h
      cases hm : a.mStoragesInContext c.mContextId with
      | some k =>
        simp only [hm, Option.some.injEq, Prod.mk.injEq] at h
        rw [← h.1]
      | none =>
        simp only [hm] at h
        by_cases hlt : u16 c.mEntityComponentStorageList.length < MAX_STORAGE_COUNT_PER_CONTEXT
        · rw [if_pos hlt] at h
          simp only [Option.some.injEq, Prod.mk.injEq] at h
          rw [← h.1]
          unfold World.GetEventManager
          by_cases hi : i = pContext
          · simp [setAt, hi, hc]
          · simp [setAt, hi]
        · rw [if_neg hlt] at h
          cases h

theorem World.Allocate_GetEventManager (w w1 : World) (ps : StoragePtr) (b : Bool) (p : EntityPtr)
    (h : w.Allocate ps b = some (w1, p)) (i : Nat) : w1.GetEventManager i = w.GetEventManager i := by
  unfold World.Allocate at h
  cases hs : w.storage ps with
  | none => simp [hs] at h
  | some s =>
    cases ha : w.archetype s.mArchetype with
    | none => simp [hs, ha] at h
    | some a =>
      cases hal : s.Allocate a b with
      | none => simp [hs, ha, hal] at h
      | some r =>
        simp only [hs, ha, hal, Option.some.injEq, Prod.mk.injEq] at h
        rw [← h.1]
        exact w.setStorage_GetEventManager ps r.1 i

theorem World.store_GetEventManager (w w1 : World) (p : EntityPtr) (slot : ComponentSlot)
    (v : Option Value) (h : w.store p slot v = some w1) (i : Nat) :
    w1.GetEventManager i = w.GetEventManager i := by
  unfold World.store at h
  cases hs : w.storage p.mStorage with
  | none => simp [hs] at h
  | some s =>
    simp only [hs, Option.some.injEq] at h
    rw [← h]
    exact w.setStorage_GetEventManager _ _ i

theorem World.ConstructEntity_GetEventManager (p : EntityPtr) (args : List (ComponentType × Value)) :
    ∀ (w w1 : World), w.ConstructEntity p args = some w1 →
      ∀ i, w1.GetEventManager i = w.GetEventManager i := by
  induction args with
  | nil =>
    intro w w1 h i
    simp only [World.ConstructEntity, Option.some.injEq] at h
    rw [h]
  | cons x rest ih =>
    intro w w1 h i
    obtain ⟨T, data⟩ := x
    simp only [World.ConstructEntity] at h
    by_cases hd : (!is_type_duplicate T (rest.map Prod.fst)) = true
    · rw [if_pos hd] at h
      cases hg : w.GetComponent p T with
      | none => simp [hg] at h
      | some o =>
        cases o with
        | none =>
          simp only [hg] at h
          exact ih w w1 h i
        | some slot =>
          simp only [hg] at h
          cases hst : w.store p slot (some data) with
          | none => simp [hst] at h
          | some w2 =>
            simp only [hst] at h
            rw [ih w2 w1 h i, w.store_GetEventManager w2 p slot _ hst i]
    · rw [if_neg hd] at h
      exact ih w w1 h i

theorem World.ConstructEntityDefault_GetEventManager (p : EntityPtr) (Ts : List ComponentType) :
    ∀ (w w1 : World), w.ConstructEntityDefault p Ts = some w1 →
      ∀ i, w1.GetEventManager i = w.GetEventManager i := by
  induction Ts with
  | nil =>
    intro w w1 h i
    simp only [World.ConstructEntityDefault, Option.some.injEq] at h
    rw [h]
  | cons T rest ih =>
    intro w w1 h i
    simp only [World.ConstructEntityDefault] at h
    by_cases hd : (!is_type_duplicate T rest) = true
    · rw [if_pos hd] at h
      cases hg : w.GetComponent p T with
      | none => simp [hg] at h
      | some o =>
        cases o with
        | none =>
          simp only [hg] at h
          exact ih w w1 h i
        | some slot =>
          simp only [hg] at h
          cases hst : w.store p slot (some T.defaultValue) with
          | none => simp [hst] at h
          | some w2 =>
            simp only [hst] at h
            rw [ih w2 w1 h i, w.store_GetEventManager w2 p slot _ hst i]
    · rw [if_neg hd] at h
      exact ih w w1 h i

/-- A loop whose rounds keep the event managers keeps them. -/
theorem World.foldl_GetEventManager (step : Option World → Nat → Option World)
    (hnone : ∀ k, step none k = none)
    (hstep : ∀ (w w1 : World) k, step (some w) k = some w1 →
      ∀ i, w1.GetEventManager i = w.GetEventManager i) (l : List Nat) :
    ∀ (w w1 : World), List.foldl step (some w) l = some w1 →
      ∀ i, w1.GetEventManager i = w.GetEventManager i := by
  induction l with
  | nil =>
    intro w w1 h i
    simp only [List.foldl_nil, Option.some.injEq] at h
    rw [h]
  | cons k rest ih =>
    intro w w1 h i
    rw [List.foldl_cons] at h
    cases hs : step (some w) k with
    | none =>
      rw [hs] at h
      have hn : ∀ l : List Nat, List.foldl step none l = none := by
        intro l
        induction l with
        | nil => rfl
        | cons k2 l2 ih2 => rw [List.foldl_cons, hnone, ih2]
      rw [hn] at h
      cases h
    | some w2 =>
      rw [hs] at h
      rw [ih w2 w1 h i, hstep w w2 k hs i]

theorem World.constructMissing_GetEventManager (Args : List ComponentType) (a : EntityArchetype)
    (p : EntityPtr) (w w1 : World) (k : Nat)
    (h : World.constructMissing Args a p (some w) k = some w1) (i : Nat) :
    w1.GetEventManager i = w.GetEventManager i := by
  simp only [World.constructMissing] at h
  by_cases hd : (!ComponentTypesHelperClass.Contain (a.mComponentTypeIds k) Args) = true
  · rw [if_pos hd] at h
    cases hg : w.GetComponentByIndex p k with
    | none => simp [hg] at h
    | some slot =>
      simp only [hg] at h
      exact w.store_GetEventManager w1 p slot _ h i
  · rw [if_neg hd] at h
    simp only [Option.some.injEq] at h
    rw [h]

theorem World.copyComponent_GetEventManager (a : EntityArchetype) (pDst pSrc : EntityPtr)
    (w w1 : World) (k : Nat)
    (h : World.copyComponent a pDst pSrc (some w) k = some w1) (i : Nat) :
    w1.GetEventManager i = w.GetEventManager i := by
  simp only [World.copyComponent] at h
  cases hg : w.GetComponentByTypeID pDst (a.mComponentTypeIds k) with
  | none => simp [hg] at h
  | some o =>
    cases o with
    | none =>
      simp only [hg, Option.some.injEq] at h
      rw [h]
    | some slot =>
      simp only [hg] at h
      cases hs : w.GetComponentByIndex pSrc k with
      | none => simp [hs] at h
      | some src =>
        simp only [hs] at h
        exact w.store_GetEventManager w1 pDst slot _ h i

theorem World.CopyEntityData_GetEventManager (w w1 : World) (pDst pSrc : EntityPtr)
    (h : w.CopyEntityData pDst pSrc = some w1) (i : Nat) :
    w1.GetEventManager i = w.GetEventManager i := by
  unfold World.CopyEntityData at h
  cases hg : w.GetArchetype pSrc with
  | none => simp [hg] at h
  | some pa =>
    cases ha : w.archetype pa with
    | none => simp [hg, ha] at h
    | some a =>
      simp only [hg, ha] at h
      exact World.foldl_GetEventManager (World.copyComponent a pDst pSrc) (fun _ => rfl)
        (fun w w1 k h i => World.copyComponent_GetEventManager a pDst pSrc w w1 k h i) _ w w1 h i

theorem World.migrate_GetEventManager (w w1 : World) (pContext : Nat) (pDst : Option Nat)
    (pSrc p : EntityPtr) (h : w.migrate pContext pDst pSrc = some (w1, p)) (i : Nat) :
    w1.GetEventManager i = w.GetEventManager i := by
  unfold World.migrate at h
  cases pDst with
  | none => simp at h
  | some pd =>
    simp only [] at h
    cases hg : w.GetEntityComponentStorage pContext pd with
    | none => simp [hg] at h
    | some r =>
      obtain ⟨w2, ps⟩ := r
      simp only [hg] at h
      cases hal : w2.Allocate ps false with
      | none => simp [hal] at h
      | some r2 =>
        obtain ⟨w3, q⟩ := r2
        simp only [hal] at h
        cases hcp : w3.CopyEntityData q pSrc with
        | none => simp [hcp] at h
        | some w4 =>
          simp only [hcp, Option.map_some', Option.some.injEq, Prod.mk.injEq] at h
          rw [← h.1, w3.CopyEntityData_GetEventManager w4 q pSrc hcp i,
            w2.Allocate_GetEventManager w3 ps false q hal i,
            w.GetEntityComponentStorage_GetEventManager w2 pContext pd ps hg i]

/-! ## Moving a record: what the rest of the world keeps -/

/-- A record reads the same in two worlds in which its storage has the same
archetype, header and component objects for it, and the archetype has the same
index table. -/
theorem World.Keeps.of_storage (w w3 : World) (q : EntityPtr) (sq sq3 : EntityComponentStorage)
    (a a3 : EntityArchetype) (hlive : w.Live q)
    (hs : w.storage q.mStorage = some sq) (hs3 : w3.storage q.mStorage = some sq3)
    (harch : sq3.mArchetype = sq.mArchetype)
    (hcount : sq.mChunkCount ≤ sq3.mChunkCount)
    (hblocks : (sq3.mChunks q.mChunkIndex).mBlockCount = (sq.mChunks q.mChunkIndex).mBlockCount)
    (hheader : sq3.header q = sq.header q)
    (hcells : sq3.cellsOf q = sq.cellsOf q)
    (ha : w.archetype sq.mArchetype = some a) (ha3 : w3.archetype sq.mArchetype = some a3)
    (htable : a3.mComponentIndexTable = a.mComponentIndexTable) :
    World.Keeps w w3 q := by
  obtain ⟨hctx, s, hs', h1, h2, h3⟩ := hlive
  rw [hs] at hs'
  simp only [Option.mem_def, Option.some.injEq] at hs'
  subst hs'
  have ha3' : w3.archetype sq3.mArchetype = some a3 := by rw [harch]; exact ha3
  have hidx : ∀ id, a3.GetComponentIndex id = a.GetComponentIndex id := by
    intro id
    unfold EntityArchetype.GetComponentIndex
    rw [htable]
  refine ⟨⟨hctx, sq3, hs3, by omega, by rw [hblocks]; exact h2, by rw [hheader]; exact h3⟩,
    ?_, ?_, ?_, ?_⟩
  · unfold World.header
    rw [hs, hs3, Option.map_some', Option.map_some', hheader]
  · unfold World.GetArchetype
    rw [hs, hs3, Option.map_some', Option.map_some', harch]
  · intro T
    rw [w3.GetComponent_eq q sq3 a3 T hs3 ha3', w.GetComponent_eq q sq a T hs ha, hidx]
  · intro T
    rw [w3.component_eq q sq3 a3 T hs3 ha3', w.component_eq q sq a T hs ha, hidx, hcells]

theorem World.Keeps.trans {w w1 w2 : World} {q : EntityPtr} (h1 : World.Keeps w w1 q)
    (h2 : World.Keeps w1 w2 q) : World.Keeps w w2 q :=
  ⟨h2.live, h2.header.trans h1.header, h2.archetype.trans h1.archetype,
    fun T => (h2.pointer T).trans (h1.pointer T),
    fun T => (h2.component T).trans (h1.component T)⟩

/-- A world with the same catalog and the same storages reads the same. -/
theorem World.Keeps.of_same (w w1 : World) (q : EntityPtr)
    (hm : w1.mArchetypeManager = w.mArchetypeManager) (hst : ∀ r, w1.storage r = w.storage r)
    (hlive : w.Live q) : World.Keeps w w1 q := by
  have harch : ∀ r, w1.archetype r = w.archetype r := by
    intro r
    unfold World.archetype
    rw [hm]
  refine ⟨?_, ?_, ?_, ?_, ?_⟩
  · unfold World.Live
    rw [hst]
    exact hlive
  · unfold World.header
    rw [hst]
  · unfold World.GetArchetype
    rw [hst]
  · intro T
    unfold World.GetComponent
    rw [hst]
    cases w.storage q.mStorage with
    | none => rfl
    | some s => simp only [harch]
  · intro T
    have hp : w1.GetComponent q T = w.GetComponent q T := by
      unfold World.GetComponent
      rw [hst]
      cases w.storage q.mStorage with
      | none => rfl
      | some s => simp only [harch]
    unfold World.component World.load
    rw [hp, hst]

/-- The invariant after an event: the event log is no part of it. -/
theorem World.Inv_of_event (w w1 : World) (pContext : Nat) (c : EntityContext)
    (em : Option EventManager) (hinv : w.Inv)
    (hm : w1.mArchetypeManager = w.mArchetypeManager)
    (hc : w.mEntityContexts pContext = some c)
    (hc1 : w1.mEntityContexts pContext = some { c with mEventManager := em })
    (hother : ∀ i, i ≠ pContext → w1.mEntityContexts i = w.mEntityContexts i)
    (hst : ∀ q, w1.storage q = w.storage q) : w1.Inv := by
  obtain ⟨hcat, harch, hctxs⟩ := hinv
  refine ⟨?_, ?_, ?_⟩
  · unfold World.InvCatalog
    rw [hm]
    exact hcat
  · unfold World.InvArchetypes World.InvBackRefs
    rw [hm]
    intro p hp a ha
    obtain ⟨g1, g2⟩ := harch p hp a ha
    refine ⟨g1, ?_⟩
    intro i hi j hj
    rw [hst]
    exact g2 i hi j hj
  · intro i hi c0 hc0
    by_cases hic : i = pContext
    · subst hic
      rw [hc1] at hc0
      simp only [Option.mem_def, Option.some.injEq] at hc0
      subst hc0
      obtain ⟨g1, g2, g3⟩ := hctxs i hi c hc
      refine ⟨g1, g2, ?_⟩
      intro j hj s0 hs0
      obtain ⟨k1, k2, k3, a0, k4, k5, k6⟩ := g3 j hj s0 hs0
      refine ⟨k1, k2, k3, a0, ?_, k5, k6⟩
      rw [hm]
      exact k4
    · rw [hother i hic] at hc0
      obtain ⟨g1, g2, g3⟩ := hctxs i hi c0 hc0
      refine ⟨g1, g2, ?_⟩
      intro j hj s0 hs0
      obtain ⟨k1, k2, k3, a0, k4, k5, k6⟩ := g3 j hj s0 hs0
      refine ⟨k1, k2, k3, a0, ?_, k5, k6⟩
      rw [hm]
      exact k4

/-! ## The capacity of a new storage -/

theorem foldl_sizes_eq (sizes : Nat → Nat) (metaMap : ComponentMetaMap)
    (h : ∀ i, i < metaMap.length → ∀ e, e ∈ metaMap[i]? → sizes i = e.2.size) (b : Nat) :
    ∀ n, n ≤ metaMap.length →
      List.foldl (fun blockSize i => blockSize + sizes i) b (List.range n)
        = b + ((metaMap.take n).map (fun e => e.2.size)).sum := by
  intro n
  induction n with
  | zero =>
    intro _
    simp
  | succ n ih =>
    intro hn
    have hlt : n < metaMap.length := by omega
    rw [List.range_succ, List.foldl_append, ih (by omega), List.take_succ,
      List.getElem?_eq_getElem hlt]
    simp only [List.foldl_cons, List.foldl_nil, Option.toList_some, List.map_append,
      List.map_cons, List.map_nil, List.sum_append, List.sum_cons, List.sum_nil]
    rw [h n hlt metaMap[n] (by rw [List.getElem?_eq_getElem hlt]; rfl)]
    omega

/-- A running `size_t` sum that stays below `2 ^ 64` is the sum. -/
theorem foldl_u64_add {α : Type} (g : α → Nat) (l : List α) :
    ∀ n : Nat, n + (l.map g).sum < 2 ^ 64 →
      List.foldl (fun acc v => u64 (acc + g v)) n l = n + (l.map g).sum := by
  induction l with
  | nil => intro n _; rfl
  | cons x l ih =>
    intro n hn
    simp only [List.map_cons, List.sum_cons] at hn
    have hu : u64 (n + g x) = n + g x := Nat.mod_eq_of_lt (by omega)
    simp only [List.foldl_cons, List.map_cons, List.sum_cons, hu]
    rw [ih (n + g x) (by omega)]
    omega

/-- The block size the chunk computes for an archetype is the block size of its
component map when that is below `2 ^ 64`. -/
theorem EntityComponentChunk.CalculateBlockSize_eq (a : EntityArchetype) (hinv : a.Inv)
    (hlt : a.mComponentMetaMap.blockSize < 2 ^ 64) :
    EntityComponentChunk.CalculateBlockSize a = a.mComponentMetaMap.blockSize := by
  obtain ⟨hcnt, _, _, _, hent⟩ := hinv
  have h1 : List.foldl (fun blockSize i => blockSize + a.mComponentSizes i)
      (sizeofFreeListEntry + sizeofEntity) (List.range a.mComponentCount)
      = a.mComponentMetaMap.blockSize := by
    unfold ComponentMetaMap.blockSize
    rw [foldl_sizes_eq a.mComponentSizes a.mComponentMetaMap
      (fun i hi e he => (hent i hi e he).2.2.2.2.1) _ a.mComponentCount (by omega), hcnt,
      List.take_length]
  have h2 := foldl_add_eq_sum a.mComponentSizes (List.range a.mComponentCount)
    (sizeofFreeListEntry + sizeofEntity)
  unfold EntityComponentChunk.CalculateBlockSize
  rw [foldl_u64_add a.mComponentSizes _ _ (by rw [← h2, h1]; exact hlt), ← h2, h1]

/-- A new storage holds at least one record per chunk when a chunk of the largest
size holds two blocks. -/
theorem EntityComponentStorage.new_capacity (pContext index pArchetype : Nat)
    (a : EntityArchetype) (hinv : a.Inv)
    (h : 2 * a.mComponentMetaMap.blockSize ≤ MAX_STORAGE_CHUNK_SIZE) :
    1 ≤ (EntityComponentStorage.new pContext index pArchetype a).mEntityCountPerChunk := by
  have hM : MAX_STORAGE_CHUNK_SIZE = 67108864 := by decide
  have hbs := EntityComponentChunk.CalculateBlockSize_eq a hinv (by omega)
  have hpos : 18 ≤ a.mComponentMetaMap.blockSize := by
    unfold ComponentMetaMap.blockSize sizeofFreeListEntry sizeofEntity
    omega
  have hE : MAX_ENTITY_COUNT_PER_CHUNK = 1024 := by decide
  have hdiv : 2 ≤ MAX_STORAGE_CHUNK_SIZE / a.mComponentMetaMap.blockSize :=
    (Nat.le_div_iff_mul_le (by omega)).mpr h
  have hle : MAX_STORAGE_CHUNK_SIZE / a.mComponentMetaMap.blockSize ≤ 67108864 := by
    rw [← hM]
    exact Nat.div_le_self _ _
  unfold EntityComponentStorage.new
  simp only [hbs, hE]
  generalize MAX_STORAGE_CHUNK_SIZE / a.mComponentMetaMap.blockSize = x at hdiv hle
  have hu : u64 (x + (2 ^ 64 - 1)) = x - 1 := by
    unfold u64
    norm_num
    omega
  rw [hu]
  split <;> omega
/-! ## Moving a record -/

/-- The part of `ExtendEntity` and `RemoveComponentsFromEntity` after the new
archetype is known, for a valid record and a context with room: it returns a
record `p` of the new archetype that was not valid before; the components the two
archetypes share are copied from the source record; and whatever the component
objects of `p` are set to afterwards, the rest of the world is kept. -/
theorem World.migrate_spec (w : World) (pContext pDst : Nat) (pSrc : EntityPtr)
    (c : EntityContext) (ad as : EntityArchetype) (ss : EntityComponentStorage)
    (hinv : w.Inv) (hctx : pContext < MAX_CONTEXT_COUNT)
    (hc : w.mEntityContexts pContext = some c) (had : w.archetype pDst = some ad)
    (hroom1 : ad.mStoragesInContext pContext = none →
      c.mEntityComponentStorageList.length < MAX_STORAGE_COUNT_PER_CONTEXT
        ∧ 2 * ad.mComponentMetaMap.blockSize ≤ MAX_STORAGE_CHUNK_SIZE)
    (hroom2 : ∀ s, s ∈ c.mEntityComponentStorageList → s.mArchetype = pDst →
      1 ≤ s.mEntityCountPerChunk
        ∧ (s.mChunkFreeHead ≠ s.mChunkCount ∨ s.mChunkCount < MAX_CHUNK_COUNT_PER_STORAGE))
    (hlive : w.Live pSrc) (hss : w.storage pSrc.mStorage = some ss)
    (has : w.archetype ss.mArchetype = some as) :
    ∃ (w2 : World) (t : EntityComponentStorage) (p : EntityPtr) (cells : Nat → Option Value)
      (ad1 : EntityArchetype),
      w.migrate pContext (some pDst) pSrc
          = some (w2.setStorage p.mStorage (t.setCells p cells), p)
      ∧ (∀ i, i < as.mComponentCount → ∀ j : Nat,
          ad.GetComponentIndex (as.mComponentTypeIds i) = (j : Int) →
          cells j = ss.cellsOf pSrc i)
      ∧ w2.storage p.mStorage = some t
      ∧ t.mArchetype = pDst
      ∧ w2.archetype pDst = some ad1
      ∧ ad1 = { ad with mStoragesInContext := ad1.mStoragesInContext }
      ∧ ∀ cells', World.Migrated w pContext pDst
          (w2.setStorage p.mStorage (t.setCells p cells')) p := by
  obtain ⟨w1, ps, s, a1, c1, hget, hinv1, hpsctx, hs1, hsarch, hcase, ha1, ha1eq, hlen1, harch1,
    hmap1, hst1, hc1, hctx1⟩ :=
    w.GetEntityComponentStorage_spec pContext pDst c ad hinv hctx hc had (fun h => (hroom1 h).1)
  have hlt_of : ∀ (v : World) (r : Nat) (a : EntityArchetype), v.archetype r = some a →
      r < v.mArchetypeManager.objects.length := by
    intro v r a ha
    by_contra hge
    unfold World.archetype at ha
    rw [List.getElem?_eq_none (by omega)] at ha
    cases ha
  have hadinv : ad.Inv := (hinv.2.1 pDst (hlt_of w pDst ad had) ad had).1
  have hpsctx' : ps.mContext < MAX_CONTEXT_COUNT := by rw [hpsctx]; exact hctx
  have hcap : 1 ≤ s.mEntityCountPerChunk
      ∧ (s.mChunkFreeHead ≠ s.mChunkCount ∨ s.mChunkCount < MAX_CHUNK_COUNT_PER_STORAGE) := by
    rcases hcase with hex | ⟨_, hnone, hnew⟩
    · obtain ⟨c', hc', hlist⟩ := (w.storage_eq_some_iff ps s).mp hex
      rw [hpsctx, hc] at hc'
      cases hc'
      exact hroom2 s (List.getElem?_mem hlist) hsarch
    · refine ⟨?_, Or.inr ?_⟩
      · rw [hnew]
        exact EntityComponentStorage.new_capacity _ _ _ ad hadinv (hroom1 hnone).2
      · rw [hnew]
        exact (by decide : 0 < MAX_CHUNK_COUNT_PER_STORAGE)
  obtain ⟨t, p, hall, htinv, hrel, hinv2⟩ :=
    w1.Allocate_world_spec ps s false hinv1 hpsctx' hs1 hcap.1 hcap.2
  obtain ⟨w2, hw2⟩ : ∃ w2, w2 = w1.setStorage ps t := ⟨_, rfl⟩
  rw [← hw2] at hall hinv2
  obtain ⟨_, _, _, _, _, hsinv1, hsctx, hsidx, a1', ha1', _, hscc⟩ :=
    World.storage_path hinv1 hpsctx' hs1
  have hthis : s.this = ps := by
    unfold EntityComponentStorage.this
    rw [hsctx, hsidx]
  have hpst : p.mStorage = ps := by rw [hrel.storage, hthis]
  have ha1'' : a1' = a1 := by
    rw [hsarch] at ha1'
    have h := ha1
    unfold World.archetype at h
    rw [h] at ha1'
    simp only [Option.mem_def, Option.some.injEq] at ha1'
    exact ha1'.symm
  subst ha1''
  have hs2 : w2.storage p.mStorage = some t := by
    rw [hpst, hw2]
    exact w1.storage_setStorage_same ps s t hs1
  have harch2 : ∀ r, w2.archetype r = w1.archetype r := by
    intro r
    unfold World.archetype
    rw [hw2, World.setStorage_manager]
  have hobj2 : ∀ (r : Nat) (a : EntityArchetype), w.archetype r = some a →
      ∃ a2, w2.archetype r = some a2
        ∧ a2 = { a with mStoragesInContext := a2.mStoragesInContext } := by
    intro r a ha
    by_cases hr : r = pDst
    · subst hr
      rw [had] at ha
      cases ha
      exact ⟨a1', by rw [harch2]; exact ha1, ha1eq⟩
    · exact ⟨a, by rw [harch2, harch1 r hr]; exact ha, rfl⟩
  have hchunk_t : ∀ i, i < t.mChunkCount →
      (t.mChunks i).mBlockCount = t.mEntityCountPerChunk
        ∧ (t.mChunks i).mComponentCount = t.mComponentCountPerEntity := by
    intro i hi
    obtain ⟨_, _, _, h4, _⟩ := htinv
    obtain ⟨_, _, _, _, h5, h6⟩ := h4 i hi
    exact ⟨h5, h6⟩
  have hchunk_s : ∀ i, i < s.mChunkCount →
      (s.mChunks i).mBlockCount = s.mEntityCountPerChunk
        ∧ (s.mChunks i).mComponentCount = s.mComponentCountPerEntity := by
    intro i hi
    obtain ⟨_, _, _, h4, _⟩ := hsinv1
    obtain ⟨_, _, _, _, h5, h6⟩ := h4 i hi
    exact ⟨h5, h6⟩
  -- a record that was valid, in the world after the allocation
  have hq2 : ∀ q, w.Live q → ∀ sq, w.storage q.mStorage = some sq →
      ∃ sq2, w2.storage q.mStorage = some sq2
        ∧ sq2.mArchetype = sq.mArchetype
        ∧ sq.mChunkCount ≤ sq2.mChunkCount
        ∧ (sq2.mChunks q.mChunkIndex).mBlockCount = (sq.mChunks q.mChunkIndex).mBlockCount
        ∧ (sq2.mChunks q.mChunkIndex).mComponentCount
            = (sq.mChunks q.mChunkIndex).mComponentCount
        ∧ sq2.header q = sq.header q
        ∧ sq2.cellsOf q = sq.cellsOf q
        ∧ (q.mStorage = ps → sq2 = t
            ∧ (q.mChunkIndex ≠ p.mChunkIndex ∨ q.mBlockIndex ≠ p.mBlockIndex)) := by
    intro q hq sq hsq
    obtain ⟨_, s0, hs0, hq1, hq2, hq3⟩ := hq
    rw [hsq] at hs0
    simp only [Option.mem_def, Option.some.injEq] at hs0
    subst hs0
    by_cases hqs : q.mStorage = ps
    · rw [hqs] at hsq
      have hex : w.storage ps = some s := by
        rcases hcase with hex | ⟨hnone, _⟩
        · exact hex
        · rw [hnone] at hsq
          cases hsq
      rw [hex] at hsq
      cases hsq
      have hne : q.mChunkIndex ≠ p.mChunkIndex ∨ q.mBlockIndex ≠ p.mBlockIndex := by
        by_contra hcon
        have e1 : q.mChunkIndex = p.mChunkIndex := by
          by_contra h
          exact hcon (Or.inl h)
        have e2 : q.mBlockIndex = p.mBlockIndex := by
          by_contra h
          exact hcon (Or.inr h)
        have hfree := hrel.was_free (by rw [← e1]; exact hq1)
        unfold EntityComponentStorage.header at hfree hq3
        rw [e1, e2, hfree] at hq3
        cases hq3
      have hqt : q.mChunkIndex < t.mChunkCount := lt_of_lt_of_le hq1 hrel.count_le
      refine ⟨t, by rw [hqs, ← hpst]; exact hs2, hrel.mArchetype, hrel.count_le, ?_, ?_, ?_, ?_,
        fun _ => ⟨rfl, hne⟩⟩
      · rw [(hchunk_t _ hqt).1, (hchunk_s _ hq1).1, hrel.mEntityCountPerChunk]
      · rw [(hchunk_t _ hqt).2, (hchunk_s _ hq1).2, hrel.mComponentCountPerEntity]
      · unfold EntityComponentStorage.header
        exact hrel.headers q.mChunkIndex q.mBlockIndex hq1 hne
      · unfold EntityComponentStorage.cellsOf
        rw [hrel.buffers rfl q.mChunkIndex hq1]
    · refine ⟨sq, ?_, rfl, le_refl _, rfl, rfl, rfl, rfl, fun h => absurd h hqs⟩
      rw [hw2, w1.storage_setStorage_other ps _ t hqs, hst1 _ hqs]
      exact hsq
  -- the copy
  have had2 : w2.archetype t.mArchetype = some a1' := by
    rw [hrel.mArchetype, hsarch, harch2]
    exact ha1
  have ha1inv : a1'.Inv := (hinv1.2.1 pDst (hlt_of w1 pDst a1' ha1) a1' ha1).1
  have hdc : (t.mChunks p.mChunkIndex).mComponentCount = a1'.mComponentCount := by
    rw [(hchunk_t _ hrel.chunk_lt).2, hrel.mComponentCountPerEntity, hscc]
  obtain ⟨ss2, hss2, hss2arch, _, _, hss2cc, _, hss2cells, hss2ne⟩ := hq2 pSrc hlive ss hss
  obtain ⟨as2, has2, has2eq⟩ := hobj2 _ as has
  have has2' : w2.archetype ss2.mArchetype = some as2 := by rw [hss2arch]; exact has2
  have has2inv : as2.Inv :=
    (hinv2.2.1 _ (hlt_of w2 _ as2 has2) as2 has2).1
  obtain ⟨hsrcctx, s0, hs0, hsrc1, hsrc2, hsrc3⟩ := hlive
  rw [hss] at hs0
  simp only [Option.mem_def, Option.some.injEq] at hs0
  subst hs0
  obtain ⟨_, _, _, _, _, hssinv, _, _, as', has', _, hsscc⟩ := World.storage_path hinv hsrcctx hss
  have has'' : as' = as := by
    have h := has
    unfold World.archetype at h
    rw [h] at has'
    simp only [Option.mem_def, Option.some.injEq] at has'
    exact has'.symm
  subst has''
  have hcount2 : as2.mComponentCount = as'.mComponentCount := by rw [has2eq]
  have htypes2 : as2.mComponentTypeIds = as'.mComponentTypeIds := by rw [has2eq]
  have hsc : (ss2.mChunks pSrc.mChunkIndex).mComponentCount = as2.mComponentCount := by
    obtain ⟨_, _, _, h4, _⟩ := hssinv
    obtain ⟨_, _, _, _, _, h6⟩ := h4 _ hsrc1
    rw [hss2cc, h6, hsscc, hcount2]
  have hne : pSrc.mStorage ≠ p.mStorage ∨ pSrc.mChunkIndex ≠ p.mChunkIndex
      ∨ pSrc.mBlockIndex ≠ p.mBlockIndex := by
    by_cases hps : pSrc.mStorage = ps
    · rcases (hss2ne hps).2 with h | h
      · exact Or.inr (Or.inl h)
      · exact Or.inr (Or.inr h)
    · exact Or.inl (by rw [hpst]; exact hps)
  obtain ⟨cells, hcopy, hcells, _⟩ :=
    w2.CopyEntityData_spec p pSrc t ss2 a1' as2 hs2 had2 ha1inv hdc hss2 has2' has2inv hsc hne
  have hidx : ∀ id, a1'.GetComponentIndex id = ad.GetComponentIndex id := by
    intro id
    unfold EntityArchetype.GetComponentIndex
    rw [ha1eq]
  refine ⟨w2, t, p, cells, a1', ?_, ?_, hs2, by rw [hrel.mArchetype, hsarch],
    by rw [harch2]; exact ha1, ha1eq, ?_⟩
  · unfold World.migrate
    simp only [hget, hall, hcopy, Option.map_some']
  · intro i hi j hj
    rw [← hss2cells]
    exact hcells i (by rw [hcount2]; exact hi) j (by rw [hidx, htypes2]; exact hj)
  · intro cells'
    obtain ⟨f1, f2, f3, f4, f5, f6, _, _, _, f10, f11, f12, _⟩ := t.setCells_fields p cells'
    have hs3 : (w2.setStorage p.mStorage (t.setCells p cells')).storage p.mStorage
        = some (t.setCells p cells') := w2.storage_setStorage_same p.mStorage t _ hs2
    have harch3 : ∀ r, (w2.setStorage p.mStorage (t.setCells p cells')).archetype r
        = w2.archetype r := by
      intro r
      unfold World.archetype
      rw [World.setStorage_manager]
    refine ⟨?_, ?_, ?_, ?_, ?_, ?_, ?_, ?_, ?_, ?_, ?_⟩
    · exact w2.Inv_setStorage p.mStorage t _ hinv2 hs2 (t.setCells_Inv p cells' htinv) f1 f2 f3 f5
    · refine ⟨by rw [hpst]; exact hpsctx', _, hs3, by rw [f6]; exact hrel.chunk_lt, ?_, ?_⟩
      · rw [f12, (hchunk_t _ hrel.chunk_lt).1]
        exact hrel.block_lt
      · unfold EntityComponentStorage.header
        rw [f10]
        exact hrel.valid
    · rintro ⟨_, s0, hs0, h1, h2, h3⟩
      rw [hpst] at hs0
      rcases hcase with hex | ⟨hnone, _⟩
      · rw [hex] at hs0
        simp only [Option.mem_def, Option.some.injEq] at hs0
        subst hs0
        rw [hrel.was_free h1] at h3
        cases h3
      · rw [hnone] at hs0
        cases hs0
    · rw [hpst]
      exact hpsctx
    · unfold World.GetArchetype
      rw [hs3, Option.map_some', f3, hrel.mArchetype, hsarch]
    · intro q hq
      obtain ⟨hqctx, sq, hsq, hq1, hq2', hq3⟩ := hq
      simp only [Option.mem_def] at hsq
      obtain ⟨sq2, hsq2, g1, g2, g3, g4, g5, g6, g7⟩ :=
        hq2 q ⟨hqctx, sq, hsq, hq1, hq2', hq3⟩ sq hsq
      obtain ⟨_, _, _, _, _, _, _, _, aq, haq, _, _⟩ := World.storage_path hinv hqctx hsq
      have haq' : w.archetype sq.mArchetype = some aq := haq
      obtain ⟨aq2, haq2, haq2eq⟩ := hobj2 _ aq haq'
      have htable : aq2.mComponentIndexTable = aq.mComponentIndexTable := by rw [haq2eq]
      by_cases hqs : q.mStorage = ps
      · obtain ⟨e1, hne'⟩ := g7 hqs
        subst e1
        have hsq3 : (w2.setStorage p.mStorage (sq2.setCells p cells')).storage q.mStorage
            = some (sq2.setCells p cells') := by
          rw [hqs, ← hpst]
          exact hs3
        refine World.Keeps.of_storage w _ q sq _ aq aq2 ⟨hqctx, sq, hsq, hq1, hq2', hq3⟩ hsq
          hsq3 (by rw [f3]; exact g1) (by rw [f6]; exact g2) (by rw [f12]; exact g3) ?_ ?_
          haq' (by rw [harch3]; exact haq2) htable
        · unfold EntityComponentStorage.header
          rw [f10]
          exact g5
        · rw [sq2.cellsOf_setCells_other p q cells' hne']
          exact g6
      · have hsq3 : (w2.setStorage p.mStorage (t.setCells p cells')).storage q.mStorage
            = some sq2 := by
          rw [w2.storage_setStorage_other p.mStorage _ _ (by rw [hpst]; exact hqs)]
          exact hsq2
        exact World.Keeps.of_storage w _ q sq sq2 aq aq2 ⟨hqctx, sq, hsq, hq1, hq2', hq3⟩ hsq
          hsq3 g1 g2 g3 g5 g6 haq' (by rw [harch3]; exact haq2) htable
    · intro r a ha
      obtain ⟨a2, ha2, ha2eq⟩ := hobj2 r a ha
      exact ⟨a2, by rw [harch3]; exact ha2, ha2eq⟩
    · intro k q hk
      rw [World.setStorage_manager, hw2, World.setStorage_manager, hmap1]
      exact hk
    · intro q hq
      rw [w2.storage_setStorage_other p.mStorage _ _ hq, hw2,
        w1.storage_setStorage_other ps _ t (by rw [← hpst]; exact hq),
        hst1 q (by rw [← hpst]; exact hq)]
    · intro i hi
      by_cases hip : i = pContext
      · rw [hip]
        obtain ⟨c2, h2⟩ : ∃ c2, w2.mEntityContexts ps.mContext = some c2 :=
          ⟨_, by rw [hw2]; exact w1.setStorage_contexts_same ps t c1 (by rw [hpsctx]; exact hc1)⟩
        have h3 := w2.setStorage_contexts_same p.mStorage (t.setCells p cells') _
          (by rw [hpst]; exact h2)
        have e : p.mStorage.mContext = pContext := by rw [hpst]; exact hpsctx
        rw [e] at h3
        rw [h3]
        rfl
      · rw [w2.setStorage_contexts_other p.mStorage _ i (by rw [hpst, hpsctx]; exact hip), hw2,
          w1.setStorage_contexts_other ps t i (by rw [hpsctx]; exact hip), hctx1 i hip]
        exact hi
    · intro i type_id
      apply World.callbacks_congr
      rw [World.setStorage_GetEventManager, hw2, World.setStorage_GetEventManager]
      exact w.GetEntityComponentStorage_GetEventManager w1 pContext pDst ps hget i
/-- `ContainAnyComponents` of an archetype that satisfies its invariant: some type
id of the listed classes is a key of the meta map. -/
theorem EntityArchetype.ContainAnyComponents_iff (a : EntityArchetype) (hinv : a.Inv)
    (Ts : List ComponentType) :
    a.ContainAnyComponents Ts = true ↔ ∃ T, T ∈ Ts ∧ T.typeId ∈ a.mComponentMetaMap.keys := by
  unfold EntityArchetype.ContainAnyComponents
  induction Ts with
  | nil => simp [ContainComponentsHelperClass.Any]
  | cons T Rest ih =>
    simp only [ContainComponentsHelperClass.Any, Bool.or_eq_true, decide_eq_true_eq, ih,
      List.mem_cons, exists_eq_or_imp]
    have := a.GetComponentIndex_ne_iff hinv T.typeId
    unfold EntityArchetype.GetComponentIndex at this
    rw [this]

theorem ComponentMetaMap.mem_keys_eraseAll (metaMap : ComponentMetaMap)
    (Ts : List ComponentType) (x : Nat) :
    x ∈ (metaMap.eraseAll Ts).keys
      ↔ x ∈ metaMap.keys ∧ x ∉ Ts.map ComponentType.typeId := by
  have hcon : ∀ y : Nat, (Ts.map ComponentType.typeId).contains y = false
      ↔ y ∉ Ts.map ComponentType.typeId := by
    intro y
    simp
  unfold ComponentMetaMap.eraseAll ComponentMetaMap.keys
  simp only [List.mem_map, List.mem_filter, Bool.not_eq_true', hcon]
  constructor
  · rintro ⟨e, ⟨he, hno⟩, rfl⟩
    exact ⟨⟨e, he, rfl⟩, hno⟩
  · rintro ⟨⟨e, he, rfl⟩, hno⟩
    exact ⟨e, ⟨he, hno⟩, rfl⟩

/-- The position of a key of an archetype: the index the table returns for it,
which is below the component count and holds the key. -/
theorem EntityArchetype.index_of_key (a : EntityArchetype) (hinv : a.Inv) (id : Nat)
    (h : id ∈ a.mComponentMetaMap.keys) :
    ∃ i : Nat, a.GetComponentIndex id = (i : Int) ∧ i < a.mComponentCount
      ∧ a.mComponentTypeIds i = id := by
  obtain ⟨i, hi, hget⟩ := List.getElem_of_mem h
  have hkey : a.mComponentMetaMap.keys[i]? = some id := by
    rw [List.getElem?_eq_getElem hi, hget]
  refine ⟨i, a.GetComponentIndex_of_key hinv i id hkey, ?_, ?_⟩
  · obtain ⟨hcount, _⟩ := hinv
    unfold ComponentMetaMap.keys at hi
    rw [List.length_map] at hi
    omega
  · obtain ⟨_, _, _, _, hent⟩ := hinv
    have hi2 : i < a.mComponentMetaMap.length := by
      unfold ComponentMetaMap.keys at hi
      rw [List.length_map] at hi
      exact hi
    have h3 := (hent i hi2 a.mComponentMetaMap[i]
      (by rw [List.getElem?_eq_getElem hi2]; rfl)).2.2.1
    rw [h3]
    unfold ComponentMetaMap.keys at hget
    rw [List.getElem_map] at hget
    exact hget

/-- Moving a valid record to the archetype a component map was resolved to, in a
context with room: the move returns a record `p` of that archetype, the components
the two archetypes share are copied, and whatever the component objects of `p` are
set to afterwards, the creation event is delivered and the rest of the world is
kept, when no callback is subscribed to the creation event in the context. -/
theorem World.move_spec (w : World) (mgr : EntityArchetypeManager) (target : ComponentMetaMap)
    (pContext pDst : Nat) (e : EntityPtr) (c : EntityContext) (ss : EntityComponentStorage)
    (as : EntityArchetype) (hinv : w.Inv) (hres : w.Resolved mgr target pDst)
    (hctx : pContext < MAX_CONTEXT_COUNT) (hc : w.mEntityContexts pContext = some c)
    (hroom : w.Room pContext target)
    (hlive : w.Live e) (hss : w.storage e.mStorage = some ss)
    (has : w.archetype ss.mArchetype = some as)
    (hq : w.callbacks pContext CreateEntityEvent.type_id = []) :
    ∃ (w2 : World) (t : EntityComponentStorage) (p : EntityPtr) (cells : Nat → Option Value)
      (ad1 : EntityArchetype),
      World.migrate { w with mArchetypeManager := mgr } pContext (some pDst) e
          = some (w2.setStorage p.mStorage (t.setCells p cells), p)
      ∧ (∀ i, i < as.mComponentCount → ∀ j : Nat,
          ad1.GetComponentIndex (as.mComponentTypeIds i) = (j : Int) →
          cells j = ss.cellsOf e i)
      ∧ w2.storage p.mStorage = some t
      ∧ t.mArchetype = pDst
      ∧ w2.archetype pDst = some ad1
      ∧ ad1.Inv
      ∧ ad1.mComponentMetaMap = target
      ∧ ∀ cells', ∃ w5,
          (w2.setStorage p.mStorage (t.setCells p cells')).OnEntityCreated pContext p = some w5
          ∧ World.Migrated w pContext pDst w5 p
          ∧ w5.storage p.mStorage = some (t.setCells p cells')
          ∧ w5.archetype pDst = some ad1
          ∧ umapFind w5.mArchetypeManager.mArchetypesMap
              (GetArchetypeIDFromComponentMetaMap target) = some pDst := by
  obtain ⟨wm, hwm⟩ : ∃ wm : World, wm = { w with mArchetypeManager := mgr } := ⟨_, rfl⟩
  have hminv : wm.Inv := by rw [hwm]; exact hres.inv
  have hmst : ∀ q, wm.storage q = w.storage q := by
    intro q
    rw [hwm]
    rfl
  have hmctx : wm.mEntityContexts = w.mEntityContexts := by rw [hwm]
  have hmmgr : wm.mArchetypeManager = mgr := by rw [hwm]
  have hmarch : ∀ (q : Nat) (a : EntityArchetype), w.archetype q = some a →
      wm.archetype q = some a := by
    intro q a ha
    unfold World.archetype
    rw [hmmgr]
    exact hres.objects_keep q a ha
  obtain ⟨ad, had, hadmap⟩ := hres.object
  have had' : wm.archetype pDst = some ad := by
    unfold World.archetype
    rw [hmmgr]
    exact had
  have hmlive : ∀ q, w.Live q → wm.Live q := by
    intro q hq
    unfold World.Live
    rw [hmst]
    exact hq
  have hmc : wm.mEntityContexts pContext = some c := by rw [hmctx]; exact hc
  obtain ⟨hr1, hr2⟩ := hroom c hc
  have hstor : ∀ s, s ∈ c.mEntityComponentStorageList →
      ∃ j a, c.mEntityComponentStorageList[j]? = some s
        ∧ w.archetype s.mArchetype = some a
        ∧ wm.archetype s.mArchetype = some a
        ∧ a.mStoragesInContext pContext = some j := by
    intro s hs
    obtain ⟨j, hj⟩ := List.getElem?_of_mem hs
    have hjlt : j < c.mEntityComponentStorageList.length := by
      by_contra hge
      rw [List.getElem?_eq_none (by omega)] at hj
      cases hj
    obtain ⟨_, _, hsts⟩ := hinv.2.2 pContext hctx c hc
    obtain ⟨_, _, _, a, ha, hback, _⟩ := hsts j hjlt s hj
    exact ⟨j, a, hj, ha, hmarch _ a ha, hback⟩
  have hroom1 : ad.mStoragesInContext pContext = none →
      c.mEntityComponentStorageList.length < MAX_STORAGE_COUNT_PER_CONTEXT
        ∧ 2 * ad.mComponentMetaMap.blockSize ≤ MAX_STORAGE_CHUNK_SIZE := by
    intro hnone
    rw [hadmap]
    apply hr1
    intro s hs hmem
    obtain ⟨j, a, _, _, ha, hback⟩ := hstor s hs
    simp only [Option.mem_def] at hmem
    have h1 := hres.map_keep _ _ hmem
    rw [hres.registered] at h1
    simp only [Option.some.injEq] at h1
    rw [← h1, had'] at ha
    cases ha
    rw [hnone] at hback
    cases hback
  have hroom2 : ∀ s, s ∈ c.mEntityComponentStorageList → s.mArchetype = pDst →
      1 ≤ s.mEntityCountPerChunk
        ∧ (s.mChunkFreeHead ≠ s.mChunkCount
            ∨ s.mChunkCount < MAX_CHUNK_COUNT_PER_STORAGE) := by
    intro s hs hsa
    obtain ⟨j, a, _, ha, _, _⟩ := hstor s hs
    apply hr2 s hs
    rw [hsa] at ha
    rw [hres.old a ha, hsa]
    rfl
  have hmss : wm.storage e.mStorage = some ss := by rw [hmst]; exact hss
  obtain ⟨w2, t, p, cells, ad1, hmig, hcells, hs2, htarch, had1, had1eq, hM⟩ :=
    wm.migrate_spec pContext pDst e c ad as ss hminv hctx hmc had' hroom1 hroom2
      (hmlive e hlive) hmss (hmarch _ as has)
  have hidx : ∀ id, ad1.GetComponentIndex id = ad.GetComponentIndex id := by
    intro id
    unfold EntityArchetype.GetComponentIndex
    rw [had1eq]
  have hlt_of : ∀ (v : World) (r : Nat) (a : EntityArchetype), v.archetype r = some a →
      r < v.mArchetypeManager.objects.length := by
    intro v r a ha
    by_contra hge
    unfold World.archetype at ha
    rw [List.getElem?_eq_none (by omega)] at ha
    cases ha
  have harch4 : ∀ cells' r, (w2.setStorage p.mStorage (t.setCells p cells')).archetype r
      = w2.archetype r := by
    intro cells' r
    unfold World.archetype
    rw [World.setStorage_manager]
  have had1inv : ad1.Inv := by
    have h4 : (w2.setStorage p.mStorage (t.setCells p cells)).archetype pDst = some ad1 := by
      rw [harch4]
      exact had1
    exact ((hM cells).inv.2.1 pDst (hlt_of _ _ _ h4) ad1 h4).1
  refine ⟨w2, t, p, cells, ad1, by rw [← hwm]; exact hmig, ?_, hs2, htarch, had1, had1inv,
    by rw [had1eq]; exact hadmap, ?_⟩
  · intro i hi j hj
    exact hcells i hi j (by rw [← hidx]; exact hj)
  · intro cells'
    have M := hM cells'
    obtain ⟨w4, hw4⟩ : ∃ w4, w4 = w2.setStorage p.mStorage (t.setCells p cells') := ⟨_, rfl⟩
    rw [← hw4] at M ⊢
    have hs4 : w4.storage p.mStorage = some (t.setCells p cells') := by
      rw [hw4]
      exact w2.storage_setStorage_same p.mStorage t _ hs2
    have hc4 : ∃ c4, w4.mEntityContexts pContext = some c4 := by
      have h := M.contexts pContext (by rw [hmc]; rfl)
      exact Option.isSome_iff_exists.mp h
    obtain ⟨c4, hc4⟩ := hc4
    have hmcb : ∀ i type_id, wm.callbacks i type_id = w.callbacks i type_id := by
      intro i type_id
      rw [hwm]
      rfl
    obtain ⟨w5, em, h5, hm5, hc5, hother5, hst5, hcb5⟩ :=
      w4.TriggerEvent_spec pContext (EntityEvent.created p ((t.setCells p cells').header p)) c4 hc4
        (by rw [M.callbacks, hmcb]; exact hq)
    have harch5 : ∀ r, w5.archetype r = w4.archetype r := by
      intro r
      unfold World.archetype
      rw [hm5]
    refine ⟨w5, ?_, ?_, by rw [hst5]; exact hs4,
      by rw [harch5, hw4, harch4]; exact had1, ?_⟩
    · unfold World.OnEntityCreated World.header
      rw [hs4]
      exact h5
    · refine ⟨?_, ?_, ?_, M.context, ?_, ?_, ?_, ?_, ?_, ?_, ?_⟩
      · exact World.Inv_of_event w4 w5 pContext c4 em M.inv hm5 hc4 hc5 hother5 hst5
      · unfold World.Live
        rw [hst5]
        exact M.live
      · intro h
        exact M.fresh (hmlive p h)
      · unfold World.GetArchetype
        rw [hst5]
        exact M.archetype
      · intro q hq
        have k2 := M.keeps q (hmlive q hq)
        have k3 := World.Keeps.of_same w4 w5 q hm5 hst5 k2.live
        obtain ⟨hqctx, sq, hsq, hq1, hq2, hq3⟩ := hq
        simp only [Option.mem_def] at hsq
        obtain ⟨_, _, _, _, _, _, _, _, aq, haq, _, _⟩ := World.storage_path hinv hqctx hsq
        have haq' : w.archetype sq.mArchetype = some aq := haq
        have k1 := World.Keeps.of_storage w wm q sq sq aq aq ⟨hqctx, sq, hsq, hq1, hq2, hq3⟩ hsq
          (by rw [hmst]; exact hsq) rfl (le_refl _) rfl rfl rfl haq' (hmarch _ aq haq') rfl
        exact k1.trans (k2.trans k3)
      · intro q a ha
        obtain ⟨a3, ha3, ha3eq⟩ := M.objects q a (hmarch q a ha)
        exact ⟨a3, by rw [harch5]; exact ha3, ha3eq⟩
      · intro k q hk
        rw [hm5]
        apply M.map
        rw [hmmgr]
        exact hres.map_keep k q hk
      · intro q hq
        rw [hst5, M.storages q hq, hmst]
      · intro i hi
        by_cases hip : i = pContext
        · rw [hip, hc5]
          rfl
        · rw [hother5 i hip]
          apply M.contexts
          rw [hmctx]
          exact hi
      · intro i type_id
        rw [hcb5, M.callbacks, hmcb]
    · rw [hm5]
      apply M.map
      rw [hmmgr]
      exact hres.registered
/-- The value `GetComponent<T>()` leads to for a class the archetype has at the
index `j`. -/
theorem World.component_at (w : World) (p : EntityPtr) (s : EntityComponentStorage)
    (a : EntityArchetype) (T : ComponentType) (j : Nat) (hs : w.storage p.mStorage = some s)
    (ha : w.archetype s.mArchetype = some a) (hj : a.GetComponentIndex T.typeId = (j : Int)) :
    w.component p T = s.cellsOf p j := by
  rw [w.component_eq p s a T hs ha, hj]
  have hne : ¬ ((j : Int) = INVALID_COMPONENT_INDEX) := by
    unfold INVALID_COMPONENT_INDEX
    omega
  rw [if_neg hne, Int.toNat_ofNat]

/-! ## `ExtendEntity` and `RemoveComponentsFromEntity` -/

/-- `ExtendEntity(pSrcEntity, args...)` for a valid record, arguments of pairwise
different type ids none of which the archetype of the record has, classes the
catalog knows, no collision, room, and no callback subscribed to the creation event
in the context: it returns a record of the archetype
registered for the component map with the classes added; the components of the
source have the values of the source, the added components have the values of the
arguments, and the rest of the world is kept. -/
theorem World.ExtendEntityWith_spec (w : World) (pContext : Nat) (e : EntityPtr)
    (args : List (ComponentType × Value)) (c : EntityContext) (ss : EntityComponentStorage)
    (as : EntityArchetype) (hinv : w.Inv) (hctx : pContext < MAX_CONTEXT_COUNT)
    (hc : w.mEntityContexts pContext = some c) (hlive : w.Live e)
    (hss : w.storage e.mStorage = some ss) (has : w.archetype ss.mArchetype = some as)
    (hne : args ≠ [])
    (hnd : (args.map (fun x => x.1.typeId)).Nodup)
    (hnew : ∀ x, x ∈ args → x.1.typeId ∉ as.mComponentMetaMap.keys)
    (hknows : w.mArchetypeManager.Knows (args.map Prod.fst))
    (hcol : w.mArchetypeManager.NoCollision
      (as.mComponentMetaMap.insertAll (args.map Prod.fst)))
    (hlen : (as.mComponentMetaMap.insertAll (args.map Prod.fst)).length
      ≤ MAX_COMPONENT_COUNT_PER_ENTITY)
    (hroom : w.Room pContext (as.mComponentMetaMap.insertAll (args.map Prod.fst)))
    (hq : w.callbacks pContext CreateEntityEvent.type_id = []) :
    ∃ (w5 : World) (p : EntityPtr) (pDst : Nat) (ad1 : EntityArchetype),
      w.ExtendEntityWith pContext e args = some (w5, some p)
      ∧ World.Migrated w pContext pDst w5 p
      ∧ w5.archetype pDst = some ad1
      ∧ ad1.Inv
      ∧ ad1.mComponentMetaMap = as.mComponentMetaMap.insertAll (args.map Prod.fst)
      ∧ umapFind w5.mArchetypeManager.mArchetypesMap
          (GetArchetypeIDFromComponentMetaMap
            (as.mComponentMetaMap.insertAll (args.map Prod.fst))) = some pDst
      ∧ (∀ T, T.typeId ∈ as.mComponentMetaMap.keys → w5.component p T = w.component e T)
      ∧ (∀ T v, (T, v) ∈ args → w5.component p T = some v) := by
  have hslt : ss.mArchetype < w.mArchetypeManager.objects.length := by
    by_contra hge
    unfold World.archetype at has
    rw [List.getElem?_eq_none (by omega)] at has
    cases has
  have hasinv : as.Inv := (hinv.2.1 _ hslt as has).1
  have hany : as.ContainAnyComponents (args.map Prod.fst) = false := by
    cases hb : as.ContainAnyComponents (args.map Prod.fst) with
    | false => rfl
    | true =>
      exfalso
      obtain ⟨T, hT, hkey⟩ := (as.ContainAnyComponents_iff hasinv _).mp hb
      obtain ⟨x, hx, rfl⟩ := List.mem_map.mp hT
      exact hnew x hx hkey
  obtain ⟨x0, hx0⟩ := List.exists_mem_of_ne_nil args hne
  obtain ⟨mgr, pDst, hadd, hres, hsorted, hkeys, _⟩ :=
    w.AddComponents_spec ss.mArchetype as (args.map Prod.fst) hinv has
      ⟨x0.1, List.mem_map.mpr ⟨x0, hx0, rfl⟩, hnew x0 hx0⟩ hknows hcol hlen
  obtain ⟨w2, t, p, cells, ad1, hmig, hcells, hs2, htarch, had1, had1inv, had1map, hclose⟩ :=
    w.move_spec mgr _ pContext pDst e c ss as hinv hres hctx hc hroom hlive hss has hq
  have hs3 : (w2.setStorage p.mStorage (t.setCells p cells)).storage p.mStorage
      = some (t.setCells p cells) := w2.storage_setStorage_same p.mStorage t _ hs2
  have had3 : (w2.setStorage p.mStorage (t.setCells p cells)).archetype
      (t.setCells p cells).mArchetype = some ad1 := by
    unfold World.archetype
    rw [World.setStorage_manager]
    have h : (t.setCells p cells).mArchetype = pDst := htarch
    rw [h]
    exact had1
  obtain ⟨cells2, hcons, hwritten, hkept⟩ :=
    World.ConstructEntity_spec p ad1 args _ _ hs3 had3 hnd
  rw [World.setStorage_setStorage, EntityComponentStorage.setCells_setCells] at hcons
  obtain ⟨w5, hev, M, hs5, had5, hreg5⟩ := hclose cells2
  have had5' : w5.archetype (t.setCells p cells2).mArchetype = some ad1 := by
    have h : (t.setCells p cells2).mArchetype = pDst := htarch
    rw [h]
    exact had5
  have hkeyd : ∀ id, id ∈ as.mComponentMetaMap.keys ∨ id ∈ (args.map Prod.fst).map
      ComponentType.typeId → id ∈ ad1.mComponentMetaMap.keys := by
    intro id hid
    rw [had1map]
    exact (hkeys id).mpr hid
  refine ⟨w5, p, pDst, ad1, ?_, M, had5, had1inv, had1map, hreg5, ?_, ?_⟩
  · have hga : w.GetArchetype e = some ss.mArchetype := by
      unfold World.GetArchetype
      rw [hss]
      rfl
    unfold World.ExtendEntityWith
    simp only [hga, has, hany, Bool.false_eq_true, if_false, hadd, hmig, hcons, hev,
      Option.map_some']
  · intro T hT
    obtain ⟨i, hi1, hi2, hi3⟩ := as.index_of_key hasinv T.typeId hT
    obtain ⟨j, hj1, _, _⟩ := ad1.index_of_key had1inv T.typeId (hkeyd _ (Or.inl hT))
    rw [w5.component_at p _ ad1 T j hs5 had5' hj1, w.component_at e ss as T i hss has hi1,
      EntityComponentStorage.cellsOf_setCells_same]
    have hk : cells2 j = (t.setCells p cells).cellsOf p j := by
      apply hkept j
      intro T' v hmem heq
      have h1 := (LinearComponentIndexTable.Get_eq _ T'.typeId j heq).2
      have h2 := (LinearComponentIndexTable.Get_eq _ T.typeId j hj1).2
      rw [h1] at h2
      apply hnew (T', v) hmem
      simp only []
      rw [h2]
      exact hT
    rw [hk, EntityComponentStorage.cellsOf_setCells_same]
    exact hcells i hi2 j (by rw [hi3]; exact hj1)
  · intro T v hmem
    have hT : T.typeId ∈ (args.map Prod.fst).map ComponentType.typeId :=
      List.mem_map.mpr ⟨T, List.mem_map.mpr ⟨(T, v), hmem, rfl⟩, rfl⟩
    obtain ⟨j, hj1, _, _⟩ := ad1.index_of_key had1inv T.typeId (hkeyd _ (Or.inr hT))
    rw [w5.component_at p _ ad1 T j hs5 had5' hj1, EntityComponentStorage.cellsOf_setCells_same]
    exact hwritten T v hmem j hj1

/-- `RemoveComponentsFromEntity<Ts...>(pSrcEntity)` for a valid record, classes all
of which the archetype of the record has, no collision, room, and no callback
subscribed to the creation event in the context: it returns a
record of the archetype registered for the component map without the classes; the
components that are left have the values of the source, `GetComponent` of a
removed class is null, and the rest of the world is kept. -/
theorem World.RemoveComponentsFromEntity_spec (w : World) (pContext : Nat) (e : EntityPtr)
    (Ts : List ComponentType) (c : EntityContext) (ss : EntityComponentStorage)
    (as : EntityArchetype) (hinv : w.Inv) (hctx : pContext < MAX_CONTEXT_COUNT)
    (hc : w.mEntityContexts pContext = some c) (hlive : w.Live e)
    (hss : w.storage e.mStorage = some ss) (has : w.archetype ss.mArchetype = some as)
    (hne : Ts ≠ [])
    (hall : ∀ T, T ∈ Ts → T.typeId ∈ as.mComponentMetaMap.keys)
    (hcol : w.mArchetypeManager.NoCollision (as.mComponentMetaMap.eraseAll Ts))
    (hroom : w.Room pContext (as.mComponentMetaMap.eraseAll Ts))
    (hq : w.callbacks pContext CreateEntityEvent.type_id = []) :
    ∃ (w5 : World) (p : EntityPtr) (pDst : Nat) (ad1 : EntityArchetype),
      w.RemoveComponentsFromEntity pContext e Ts = some (w5, some p)
      ∧ World.Migrated w pContext pDst w5 p
      ∧ w5.archetype pDst = some ad1
      ∧ ad1.Inv
      ∧ ad1.mComponentMetaMap = as.mComponentMetaMap.eraseAll Ts
      ∧ umapFind w5.mArchetypeManager.mArchetypesMap
          (GetArchetypeIDFromComponentMetaMap (as.mComponentMetaMap.eraseAll Ts)) = some pDst
      ∧ (∀ T, T.typeId ∈ (as.mComponentMetaMap.eraseAll Ts).keys →
          w5.component p T = w.component e T)
      ∧ (∀ T, T ∈ Ts → w5.GetComponent p T = some none) := by
  have hslt : ss.mArchetype < w.mArchetypeManager.objects.length := by
    by_contra hge
    unfold World.archetype at has
    rw [List.getElem?_eq_none (by omega)] at has
    cases has
  have hasinv : as.Inv := (hinv.2.1 _ hslt as has).1
  have hcontain : as.ContainAllComponents Ts = true :=
    (as.ContainAllComponents_iff hasinv Ts).mpr hall
  obtain ⟨T0, hT0⟩ := List.exists_mem_of_ne_nil Ts hne
  obtain ⟨mgr, pDst, hrem, hres, _⟩ :=
    w.RemoveComponents_spec ss.mArchetype as Ts hinv has ⟨T0, hT0, hall T0 hT0⟩ hcol
  obtain ⟨w2, t, p, cells, ad1, hmig, hcells, hs2, htarch, had1, had1inv, had1map, hclose⟩ :=
    w.move_spec mgr _ pContext pDst e c ss as hinv hres hctx hc hroom hlive hss has hq
  obtain ⟨w5, hev, M, hs5, had5, hreg5⟩ := hclose cells
  have had5' : w5.archetype (t.setCells p cells).mArchetype = some ad1 := by
    have h : (t.setCells p cells).mArchetype = pDst := htarch
    rw [h]
    exact had5
  refine ⟨w5, p, pDst, ad1, ?_, M, had5, had1inv, had1map, hreg5, ?_, ?_⟩
  · have hga : w.GetArchetype e = some ss.mArchetype := by
      unfold World.GetArchetype
      rw [hss]
      rfl
    unfold World.RemoveComponentsFromEntity
    simp only [hga, has, hcontain, Bool.not_true, Bool.false_eq_true, if_false, hrem, hmig, hev,
      Option.map_some']
  · intro T hT
    have hT' := ((as.mComponentMetaMap.mem_keys_eraseAll Ts T.typeId).mp hT).1
    obtain ⟨i, hi1, hi2, hi3⟩ := as.index_of_key hasinv T.typeId hT'
    obtain ⟨j, hj1, _, _⟩ := ad1.index_of_key had1inv T.typeId (by rw [had1map]; exact hT)
    rw [w5.component_at p _ ad1 T j hs5 had5' hj1, w.component_at e ss as T i hss has hi1,
      EntityComponentStorage.cellsOf_setCells_same]
    exact hcells i hi2 j (by rw [hi3]; exact hj1)
  · intro T hT
    have hno : T.typeId ∉ ad1.mComponentMetaMap.keys := by
      rw [had1map]
      intro h
      exact ((as.mComponentMetaMap.mem_keys_eraseAll Ts T.typeId).mp h).2
        (List.mem_map.mpr ⟨T, hT, rfl⟩)
    rw [w5.GetComponent_eq p _ ad1 T hs5 had5',
      ad1.GetComponentIndex_of_not_key had1inv T.typeId hno, if_pos rfl]
/-! ## The identity of a component map -/

theorem foldl_hash_eq (metaMap : ComponentMetaMap) :
    ∀ b : Nat, List.foldl (fun id (it : Nat × ComponentMeta) => u32 (id + it.2.hashCode))
        (b % 2 ^ 32) metaMap
      = (b + (metaMap.map (fun e => e.2.hashCode)).sum) % 2 ^ 32 := by
  induction metaMap with
  | nil =>
    intro b
    simp
  | cons e rest ih =>
    intro b
    simp only [List.foldl_cons, List.map_cons, List.sum_cons]
    have hu : u32 (b % 2 ^ 32 + e.2.hashCode) = (b % 2 ^ 32 + e.2.hashCode) % 2 ^ 32 := rfl
    rw [hu, ih (b % 2 ^ 32 + e.2.hashCode)]
    omega

/-- The identity of a component map is the sum of the hash codes of its entries,
as a `uint32_t`. -/
theorem GetArchetypeIDFromComponentMetaMap_eq (metaMap : ComponentMetaMap) :
    GetArchetypeIDFromComponentMetaMap metaMap
      = (metaMap.map (fun e => e.2.hashCode)).sum % 2 ^ 32 := by
  unfold GetArchetypeIDFromComponentMetaMap
  have h := foldl_hash_eq metaMap 0
  simp only [Nat.zero_mod, Nat.zero_add] at h
  exact h

/-- `CreateArchetype` for a list of classes whose entries are those of a registered
component map returns the registered archetype and leaves the catalog as it is. -/
theorem CreateArchetype_registered (mgr : EntityArchetypeManager) (target : ComponentMetaMap)
    (pDst : Nat) (Us : List ComponentType)
    (hperm : (Us.map (fun U => (U.typeId, U.meta))).Perm target)
    (hreg : umapFind mgr.mArchetypesMap (GetArchetypeIDFromComponentMetaMap target)
      = some pDst) :
    mgr.CreateArchetype (ArchetypeArgs.components Us) = some (mgr, pDst) := by
  have hsum : sum_component_hashcodes Us = GetArchetypeIDFromComponentMetaMap target := by
    rw [sum_component_hashcodes_eq, GetArchetypeIDFromComponentMetaMap_eq,
      ← (hperm.map (fun e => e.2.hashCode)).sum_eq, List.map_map]
    rfl
  unfold EntityArchetypeManager.CreateArchetype
  exact CreateArchetypeByComponentTypes_found mgr Us pDst (by rw [hsum]; exact hreg)

/-! ## Adding one class and removing it again -/

theorem ComponentMetaMap.insertAll_single (metaMap : ComponentMetaMap) (C : ComponentType)
    (h : C.typeId ∉ metaMap.keys) :
    metaMap.insertAll [C] = metaMap.insert C.typeId C.meta := by
  unfold ComponentMetaMap.insertAll
  rw [(metaMap.find_eq_none_iff C.typeId).mpr h]
  rfl

theorem ComponentMetaMap.filter_insert (id : Nat) (m : ComponentMeta)
    (p : Nat × ComponentMeta → Bool) (hp : ∀ e, p e = true ↔ e.1 ≠ id) :
    ∀ metaMap : ComponentMetaMap, id ∉ metaMap.keys →
      (metaMap.insert id m).filter p = metaMap := by
  have hhead : ¬ p (id, m) = true := by
    rw [hp]
    exact fun h => h rfl
  intro metaMap
  induction metaMap with
  | nil =>
    intro _
    unfold ComponentMetaMap.insert
    rw [List.filter_cons_of_neg hhead]
    rfl
  | cons e rest ih =>
    intro h
    have hne : e.1 ≠ id := by
      intro heq
      apply h
      unfold ComponentMetaMap.keys
      rw [List.map_cons, heq]
      exact List.mem_cons_self _ _
    have hrest : id ∉ ComponentMetaMap.keys rest := by
      intro hmem
      apply h
      unfold ComponentMetaMap.keys
      rw [List.map_cons]
      exact List.mem_cons_of_mem _ hmem
    have hall : ∀ x, x ∈ rest → p x = true := by
      intro x hx
      rw [hp]
      intro heq
      apply hrest
      unfold ComponentMetaMap.keys
      rw [← heq]
      exact List.mem_map_of_mem _ hx
    have he : p e = true := (hp e).mpr hne
    unfold ComponentMetaMap.insert
    by_cases h1 : id < e.1
    · rw [if_pos h1, List.filter_cons_of_neg hhead, List.filter_cons_of_pos he,
        List.filter_eq_self.mpr hall]
    · rw [if_neg h1, if_neg (Ne.symm hne), List.filter_cons_of_pos he, ih hrest]

/-- Adding a class the map does not have and removing it again gives the map. -/
theorem ComponentMetaMap.eraseAll_insertAll (metaMap : ComponentMetaMap) (C : ComponentType)
    (h : C.typeId ∉ metaMap.keys) : (metaMap.insertAll [C]).eraseAll [C] = metaMap := by
  rw [metaMap.insertAll_single C h]
  unfold ComponentMetaMap.eraseAll
  apply ComponentMetaMap.filter_insert C.typeId C.meta _ _ metaMap h
  intro e
  simp

/-- `GetComponent<T>()` leads to nothing for a class the archetype does not have. -/
theorem World.component_none (w : World) (p : EntityPtr) (s : EntityComponentStorage)
    (a : EntityArchetype) (T : ComponentType) (hs : w.storage p.mStorage = some s)
    (ha : w.archetype s.mArchetype = some a) (hinv : a.Inv)
    (hno : T.typeId ∉ a.mComponentMetaMap.keys) : w.component p T = none := by
  rw [w.component_eq p s a T hs ha, a.GetComponentIndex_of_not_key hinv T.typeId hno, if_pos rfl]

/-! ## C8: `ExtendEntity` -/

/-- C8 (amended): in a world that satisfies the invariant, for an existing context,
a valid record `e` and a non-empty list of arguments of pairwise different type ids
none of which the archetype of `e` has, when the catalog knows the classes, no other
component map is registered under the identity of the map with the classes added,
that map is within the component limit, the context has room and no callback is
subscribed to `CreateEntityEvent` in the context, `ExtendEntity` with the
arguments returns (and so does `ExtendEntity<Ts...>` when the arguments
are the default values of `Ts`) a valid record `p` other than `e`; its archetype is
the one `CreateArchetype` returns for every list of classes whose entries are
those of the map with the classes added; its components of the classes of `e` have
the values of `e`, its components of the added classes have the values of the
arguments; and `e` is valid with the archetype and the component values it
had. -/
theorem ExtendEntity_correct (w : World) (pContext : Nat) (e : EntityPtr)
    (args : List (ComponentType × Value)) (aSrc : EntityArchetype)
    (hinv : w.Inv) (hctx : pContext < MAX_CONTEXT_COUNT)
    (hc : (w.mEntityContexts pContext).isSome = true) (hlive : w.Live e)
    (hsrc : (w.GetArchetype e).bind w.archetype = some aSrc)
    (hne : args ≠ [])
    (hnd : (args.map (fun x => x.1.typeId)).Nodup)
    (hnew : ∀ x, x ∈ args → x.1.typeId ∉ aSrc.mComponentMetaMap.keys)
    (hknows : w.mArchetypeManager.Knows (args.map Prod.fst))
    (hcol : w.mArchetypeManager.NoCollision
      (aSrc.mComponentMetaMap.insertAll (args.map Prod.fst)))
    (hlen : (aSrc.mComponentMetaMap.insertAll (args.map Prod.fst)).length
      ≤ MAX_COMPONENT_COUNT_PER_ENTITY)
    (hroom : w.Room pContext (aSrc.mComponentMetaMap.insertAll (args.map Prod.fst)))
    (hquiet : w.callbacks pContext CreateEntityEvent.type_id = []) :
    ∃ (w1 : World) (p : EntityPtr) (pDst : Nat),
      w.ExtendEntityWith pContext e args = some (w1, some p)
      ∧ (∀ Ts : List ComponentType, args = Ts.map (fun T => (T, T.defaultValue)) →
          w.ExtendEntity pContext e Ts = some (w1, some p))
      ∧ w1.Inv
      ∧ w1.Live p
      ∧ p ≠ e
      ∧ w1.GetArchetype p = some pDst
      ∧ (∀ Us : List ComponentType,
          (Us.map (fun U => (U.typeId, U.meta))).Perm
            (aSrc.mComponentMetaMap.insertAll (args.map Prod.fst)) →
          w1.mArchetypeManager.CreateArchetype (ArchetypeArgs.components Us)
            = some (w1.mArchetypeManager, pDst))
      ∧ (∀ T, T.typeId ∈ aSrc.mComponentMetaMap.keys → w1.component p T = w.component e T)
      ∧ (∀ T v, (T, v) ∈ args → w1.component p T = some v)
      ∧ w1.Live e
      ∧ w1.GetArchetype e = w.GetArchetype e
      ∧ ∀ T, w1.component e T = w.component e T := by
  obtain ⟨c, hc⟩ := Option.isSome_iff_exists.mp hc
  unfold World.GetArchetype at hsrc
  cases hss : w.storage e.mStorage with
  | none =>
    rw [hss] at hsrc
    cases hsrc
  | some ss =>
    rw [hss] at hsrc
    have has : w.archetype ss.mArchetype = some aSrc := hsrc
    obtain ⟨w5, p, pDst, ad1, hop, M, _, _, _, hreg, hinh, hargs⟩ :=
      w.ExtendEntityWith_spec pContext e args c ss aSrc hinv hctx hc hlive hss has hne hnd hnew
        hknows hcol hlen hroom hquiet
    have hk := M.keeps e hlive
    refine ⟨w5, p, pDst, hop, ?_, M.inv, M.live, ?_, M.archetype, ?_, hinh, hargs, hk.live,
      hk.archetype, hk.component⟩
    · intro Ts hTs
      rw [World.ExtendEntity_eq, ← hTs]
      exact hop
    · intro h
      apply M.fresh
      rw [h]
      exact hlive
    · intro Us hperm
      exact CreateArchetype_registered _ _ pDst Us hperm hreg

set_option maxRecDepth 100000 in
/-- Witness of C8: the record of the example world, which has the component
`Terrain`, is extended by a `Profile` with the value 7. -/
theorem ExtendEntity_correct_witness :
    ∃ (w1 : World) (p : EntityPtr) (pDst : Nat),
      exampleWorld.ExtendEntityWith 0 exampleEntity [(Profile, 7)] = some (w1, some p)
      ∧ (∀ Ts : List ComponentType, [(Profile, 7)] = Ts.map (fun T => (T, T.defaultValue)) →
          exampleWorld.ExtendEntity 0 exampleEntity Ts = some (w1, some p))
      ∧ w1.Inv
      ∧ w1.Live p
      ∧ p ≠ exampleEntity
      ∧ w1.GetArchetype p = some pDst
      ∧ (∀ Us : List ComponentType,
          (Us.map (fun U => (U.typeId, U.meta))).Perm
            (exampleSource.mComponentMetaMap.insertAll [Profile]) →
          w1.mArchetypeManager.CreateArchetype (ArchetypeArgs.components Us)
            = some (w1.mArchetypeManager, pDst))
      ∧ (∀ T, T.typeId ∈ exampleSource.mComponentMetaMap.keys →
          w1.component p T = exampleWorld.component exampleEntity T)
      ∧ (∀ T v, (T, v) ∈ [(Profile, 7)] → w1.component p T = some v)
      ∧ w1.Live exampleEntity
      ∧ w1.GetArchetype exampleEntity = exampleWorld.GetArchetype exampleEntity
      ∧ ∀ T, w1.component exampleEntity T = exampleWorld.component exampleEntity T :=
  ExtendEntity_correct exampleWorld 0 exampleEntity [(Profile, 7)] exampleSource (by decide)
    (by decide) (by decide) (by decide) (eq_some_getD _ _ (by decide)) (by decide)
    (by decide) (by decide) (by decide) (by decide) (by decide) (by decide)
    (List.eq_nil_of_length_eq_zero (by decide))

set_option maxRecDepth 100000 in
/-- C8 (counterexamples): first, the CRC-32 of `AgentShader` is the sum of those of
`Stun` and `TextureForce`. In a world with the archetypes of `AgentShader` and of
`Stun` and a valid record of `Stun`, whose `Stun` component holds its default value,
`ExtendEntity<TextureForce>` returns a valid record of the archetype of
`AgentShader`: `GetComponent` of `Stun` and of `TextureForce` are null for it.
Second, in the example world after `SetEventManager` and `Subscrible` of a callback
that assigns 99 to the `Terrain` of the record of a `CreateEntityEvent`, the record
has only the component `Terrain`, of value 5, and `ExtendEntity` of it by `Profile`
(with a value or without) returns a record whose `Terrain` reads 99. -/
theorem ExtendEntity_diverges :
    (Stun.hashCode + TextureForce.hashCode = AgentShader.hashCode
      ∧ collisionWorld.Live exampleEntity
      ∧ (∀ a, a ∈ (collisionWorld.GetArchetype exampleEntity).bind collisionWorld.archetype →
          a.mComponentMetaMap.keys = [Stun.typeId])
      ∧ collisionWorld.component exampleEntity Stun = some Stun.defaultValue
      ∧ collisionWorld.ExtendEntity 0 exampleEntity [TextureForce]
          = some (collisionExtended.1, some collisionEntity)
      ∧ collisionExtended.1.Live collisionEntity
      ∧ (∀ a, a ∈ (collisionExtended.1.GetArchetype collisionEntity).bind
            collisionExtended.1.archetype →
          a.mComponentMetaMap.keys = [AgentShader.typeId])
      ∧ collisionExtended.1.GetComponent collisionEntity Stun = some none
      ∧ collisionExtended.1.GetComponent collisionEntity TextureForce = some none
      ∧ collisionExtended.1.component collisionEntity Stun = none)
    ∧ (World.run
          [WorldOp.setEventManager 0 (some EventManager.new),
            WorldOp.subscrible 0 CreateEntityEvent.type_id 1 overwriteTerrain]
          exampleWorld).isSome = true
      ∧ subscribedWorld.Inv
      ∧ (subscribedWorld.callbacks 0 CreateEntityEvent.type_id).length = 1
      ∧ subscribedWorld.Live exampleEntity
      ∧ (∀ a, a ∈ (subscribedWorld.GetArchetype exampleEntity).bind
            subscribedWorld.archetype →
          a.mComponentMetaMap.keys = [Terrain.typeId])
      ∧ subscribedWorld.component exampleEntity Terrain = some 5
      ∧ (subscribedWorld.ExtendEntityWith 0 exampleEntity [(Profile, 7)]).bind
          (fun r => r.2.bind (fun p => r.1.component p Terrain)) = some 99
      ∧ (subscribedWorld.ExtendEntity 0 exampleEntity [Profile]).bind
          (fun r => r.2.bind (fun p => r.1.component p Terrain)) = some 99 := by
  have hsome : (collisionWorld.ExtendEntity 0 exampleEntity [TextureForce]).isSome = true := by
    decide
  have hptr : collisionExtended.2 = some collisionEntity := by decide
  have hop : collisionWorld.ExtendEntity 0 exampleEntity [TextureForce]
      = some (collisionExtended.1, some collisionEntity) := by
    rw [← hptr]
    exact eq_some_getD _ (World.new, none) hsome
  exact ⟨⟨by decide, by decide, by decide, by decide, hop, by decide, by decide, by decide,
    by decide, by decide⟩, by decide, by decide, by decide, by decide, by decide, by decide,
    by decide, by decide⟩
/-! ## C9: `Extend<C>` then `Remove<C>` -/

/-- C9 (amended): in a world that satisfies the invariant, for a valid record `e`
whose archetype is registered under the identity of its own component map and lacks
the class `C`, when the catalog knows `C`, no other component map is registered
under the identity of the map with `C` added, that map is within the component
limit, the context of `e` has room for it, the storage of `e` has a chunk that is
not full or can take one more chunk, and no callback is subscribed to
`CreateEntityEvent` in the context of `e`: `Extend<C>()` of `e` returns a record, and
`Remove<C>()` of that record returns a valid record whose archetype is the
archetype of `e` and whose component values are those of `e`. -/
theorem Extend_Remove_roundtrip (w : World) (e : EntityPtr) (C : ComponentType)
    (aSrc : EntityArchetype) (hinv : w.Inv) (hlive : w.Live e)
    (hsrc : (w.GetArchetype e).bind w.archetype = some aSrc)
    (hreg : umapFind w.mArchetypeManager.mArchetypesMap
      (GetArchetypeIDFromComponentMetaMap aSrc.mComponentMetaMap) = w.GetArchetype e)
    (hnew : C.typeId ∉ aSrc.mComponentMetaMap.keys)
    (hknows : w.mArchetypeManager.Knows [C])
    (hcol : w.mArchetypeManager.NoCollision (aSrc.mComponentMetaMap.insertAll [C]))
    (hlen : (aSrc.mComponentMetaMap.insertAll [C]).length ≤ MAX_COMPONENT_COUNT_PER_ENTITY)
    (hroom : w.Room e.mStorage.mContext (aSrc.mComponentMetaMap.insertAll [C]))
    (hback : ∀ s, s ∈ w.storage e.mStorage →
      s.mChunkFreeHead ≠ s.mChunkCount ∨ s.mChunkCount < MAX_CHUNK_COUNT_PER_STORAGE)
    (hquiet : w.callbacks e.mStorage.mContext CreateEntityEvent.type_id = []) :
    ∃ (w1 : World) (p1 : EntityPtr) (w2 : World) (p2 : EntityPtr),
      w.Extend e [C] = some (w1, some p1)
      ∧ w1.Remove p1 [C] = some (w2, some p2)
      ∧ w2.Live p2
      ∧ w2.GetArchetype p2 = w.GetArchetype e
      ∧ ∀ T, w2.component p2 T = w.component e T := by
  obtain ⟨c, ss, hc, _, hss, _, hctx, _⟩ := World.Live.path hinv hlive
  have hga : w.GetArchetype e = some ss.mArchetype := by
    unfold World.GetArchetype
    rw [hss]
    rfl
  rw [hga] at hsrc hreg
  have has : w.archetype ss.mArchetype = some aSrc := hsrc
  obtain ⟨_, _, _, _, _, hssinv, hssctx, _, _, _, _, _⟩ := World.storage_path hinv hctx hss
  have hlt_of : ∀ (v : World) (r : Nat) (a : EntityArchetype), v.archetype r = some a →
      r < v.mArchetypeManager.objects.length := by
    intro v r a ha
    by_contra hge
    unfold World.archetype at ha
    rw [List.getElem?_eq_none (by omega)] at ha
    cases ha
  have hasinv : aSrc.Inv := (hinv.2.1 _ (hlt_of w _ aSrc has) aSrc has).1
  -- the first step
  obtain ⟨w1, p1, pDst1, ad1, hop1, M1, had1, had1inv, had1map, hreg1, hinh1, _⟩ :=
    w.ExtendEntityWith_spec e.mStorage.mContext e [(C, C.defaultValue)] c ss aSrc hinv hctx hc
      hlive hss has (by simp) (by simp)
      (by
        intro x hx
        simp only [List.mem_singleton] at hx
        rw [hx]
        exact hnew)
      hknows hcol hlen hroom hquiet
  have hfst : List.map Prod.fst [(C, C.defaultValue)] = [C] := rfl
  rw [hfst] at had1map hreg1
  have hext : w.Extend e [C] = some (w1, some p1) := by
    unfold World.Extend
    rw [hss]
    simp only []
    rw [hssctx, World.ExtendEntity_eq]
    exact hop1
  -- the record in between
  obtain ⟨hp1ctx, sd1, hsd1, hp1a, hp1b, hp1c⟩ := M1.live
  simp only [Option.mem_def] at hsd1
  have hsd1arch : sd1.mArchetype = pDst1 := by
    have h := M1.archetype
    unfold World.GetArchetype at h
    rw [hsd1] at h
    simp only [Option.map_some', Option.some.injEq] at h
    exact h
  obtain ⟨_, _, _, _, _, _, hsd1ctx, _, _, _, _, _⟩ := World.storage_path M1.inv hp1ctx hsd1
  obtain ⟨c1, hc1⟩ := Option.isSome_iff_exists.mp
    (M1.contexts e.mStorage.mContext (by rw [hc]; rfl))
  have hk1 := M1.keeps e hlive
  obtain ⟨a3, ha3, ha3eq⟩ := M1.objects _ aSrc has
  have ha3map : a3.mComponentMetaMap = aSrc.mComponentMetaMap := by rw [ha3eq]
  have hCin : C.typeId ∈ ad1.mComponentMetaMap.keys := by
    rw [had1map, aSrc.mComponentMetaMap.insertAll_single C hnew]
    exact (ComponentMetaMap.mem_keys_insert _ _ _ _).mpr (Or.inl rfl)
  have hpne : ss.mArchetype ≠ pDst1 := by
    intro h
    rw [h, had1] at ha3
    cases ha3
    rw [ha3map] at hCin
    exact hnew hCin
  have hse1 : w1.storage e.mStorage = some ss := by
    rw [M1.storages e.mStorage, hss]
    intro h
    have h2 := hk1.archetype
    have hsd1' : w1.storage e.mStorage = some sd1 := by rw [h]; exact hsd1
    unfold World.GetArchetype at h2
    rw [hsd1', hss] at h2
    simp only [Option.map_some', Option.some.injEq] at h2
    exact hpne (by rw [← h2]; exact hsd1arch)
  have hreg1' : umapFind w1.mArchetypeManager.mArchetypesMap
      (GetArchetypeIDFromComponentMetaMap aSrc.mComponentMetaMap) = some ss.mArchetype :=
    M1.map _ _ hreg
  have herase : ad1.mComponentMetaMap.eraseAll [C] = aSrc.mComponentMetaMap := by
    rw [had1map]
    exact aSrc.mComponentMetaMap.eraseAll_insertAll C hnew
  have hcol2 : w1.mArchetypeManager.NoCollision (ad1.mComponentMetaMap.eraseAll [C]) := by
    rw [herase]
    intro q hq a ha
    rw [hreg1'] at hq
    simp only [Option.mem_def, Option.some.injEq] at hq
    subst hq
    have h : w1.archetype ss.mArchetype = some a := ha
    rw [ha3] at h
    cases h
    exact ha3map
  have hss_mem : ∀ c1', w1.mEntityContexts e.mStorage.mContext = some c1' →
      c1'.mEntityComponentStorageList[e.mStorage.mIndex]? = some ss := by
    intro c1' hc1'
    obtain ⟨c0, hc0, hl0⟩ := (w1.storage_eq_some_iff _ _).mp hse1
    rw [hc1'] at hc0
    cases hc0
    exact hl0
  have hroom2 : w1.Room p1.mStorage.mContext (ad1.mComponentMetaMap.eraseAll [C]) := by
    rw [herase, M1.context]
    intro c1' hc1'
    have hmem := hss_mem c1' hc1'
    refine ⟨?_, ?_⟩
    · intro hno
      exfalso
      exact hno ss (List.getElem?_mem hmem) (by rw [hreg1']; rfl)
    · intro s hs hsa
      rw [hreg1'] at hsa
      simp only [Option.mem_def, Option.some.injEq] at hsa
      obtain ⟨j, hj⟩ := List.getElem?_of_mem hs
      have hjlt : j < c1'.mEntityComponentStorageList.length := by
        by_contra hge
        rw [List.getElem?_eq_none (by omega)] at hj
        cases hj
      have helt : e.mStorage.mIndex < c1'.mEntityComponentStorageList.length := by
        by_contra hge
        rw [List.getElem?_eq_none (by omega)] at hmem
        cases hmem
      obtain ⟨_, _, hsts⟩ := M1.inv.2.2 _ hctx c1' hc1'
      obtain ⟨_, _, _, a, ha, hb, _⟩ := hsts j hjlt s hj
      obtain ⟨_, _, _, a', ha', hb', _⟩ := hsts _ helt ss hmem
      rw [← hsa] at ha
      rw [ha'] at ha
      simp only [Option.mem_def, Option.some.injEq] at ha
      rw [← ha, hb'] at hb
      simp only [Option.some.injEq] at hb
      rw [← hb, hmem] at hj
      simp only [Option.some.injEq] at hj
      subst hj
      obtain ⟨_, s0, hs0, hq1, hq2, _⟩ := hlive
      rw [hss] at hs0
      simp only [Option.mem_def, Option.some.injEq] at hs0
      subst hs0
      obtain ⟨_, _, _, h4, _⟩ := hssinv
      obtain ⟨_, _, _, _, h5, _⟩ := h4 _ hq1
      exact ⟨by omega, hback _ hss⟩
  -- the second step
  obtain ⟨w2, p2, pDst2, ad2, hop2, M2, had2, had2inv, had2map, hreg2, hinh2, _⟩ :=
    w1.RemoveComponentsFromEntity_spec p1.mStorage.mContext p1 [C] c1 sd1 ad1 M1.inv hp1ctx
      (by rw [M1.context]; exact hc1) M1.live hsd1 (by rw [hsd1arch]; exact had1) (by simp)
      (by
        intro T hT
        simp only [List.mem_singleton] at hT
        rw [hT]
        exact hCin)
      hcol2 hroom2 (by rw [M1.context, M1.callbacks]; exact hquiet)
  have hrem : w1.Remove p1 [C] = some (w2, some p2) := by
    unfold World.Remove
    rw [hsd1]
    simp only []
    rw [hsd1ctx]
    exact hop2
  have hdst2 : pDst2 = ss.mArchetype := by
    have h := M2.map _ _ hreg1'
    rw [herase] at hreg2
    rw [hreg2] at h
    simp only [Option.some.injEq] at h
    exact h
  obtain ⟨_, sd2, hsd2, _, _, _⟩ := M2.live
  simp only [Option.mem_def] at hsd2
  have hsd2arch : sd2.mArchetype = pDst2 := by
    have h := M2.archetype
    unfold World.GetArchetype at h
    rw [hsd2] at h
    simp only [Option.map_some', Option.some.injEq] at h
    exact h
  refine ⟨w1, p1, w2, p2, hext, hrem, M2.live, ?_, ?_⟩
  · rw [M2.archetype, hga, hdst2]
  · intro T
    by_cases hT : T.typeId ∈ aSrc.mComponentMetaMap.keys
    · rw [hinh2 T (by rw [herase]; exact hT), hinh1 T hT]
    · rw [w2.component_none p2 sd2 ad2 T hsd2 (by rw [hsd2arch]; exact had2) had2inv
          (by rw [had2map, herase]; exact hT),
        w.component_none e ss aSrc T hss has hasinv hT]

set_option maxRecDepth 100000 in
/-- Witness of C9: the record of the example world, which has the component
`Terrain`, is extended by `Profile`, and `Profile` is removed again. -/
theorem Extend_Remove_roundtrip_witness :
    ∃ (w1 : World) (p1 : EntityPtr) (w2 : World) (p2 : EntityPtr),
      exampleWorld.Extend exampleEntity [Profile] = some (w1, some p1)
      ∧ w1.Remove p1 [Profile] = some (w2, some p2)
      ∧ w2.Live p2
      ∧ w2.GetArchetype p2 = exampleWorld.GetArchetype exampleEntity
      ∧ ∀ T, w2.component p2 T = exampleWorld.component exampleEntity T :=
  Extend_Remove_roundtrip exampleWorld exampleEntity Profile exampleSource (by decide)
    (by decide) (eq_some_getD _ _ (by decide)) (by decide) (by decide) (by decide)
    (by decide) (by decide) (by decide) (by decide)
    (List.eq_nil_of_length_eq_zero (by decide))

set_option maxRecDepth 100000 in
/-- C9 (counterexamples): first, the CRC-32 of `AgentShader` is the sum of those of
`Stun` and `TextureForce`. In a world with the archetypes of `AgentShader` and of
`Stun` and a valid record of `Stun`, `Extend<TextureForce>()` returns a record of
the archetype of `AgentShader`, and `Remove<TextureForce>()` of that record returns
null. Second, in the example world after `SetEventManager` and `Subscrible` of a
callback that assigns 99 to the `Terrain` of the record of a `CreateEntityEvent`,
the record has only the component `Terrain`, of value 5, and `Remove<Profile>()` of
the record that `Extend<Profile>()` returns gives a record whose `Terrain` reads
99. -/
theorem Extend_Remove_diverges :
    (Stun.hashCode + TextureForce.hashCode = AgentShader.hashCode
      ∧ collisionWorld.Live exampleEntity
      ∧ (∀ a, a ∈ (collisionWorld.GetArchetype exampleEntity).bind collisionWorld.archetype →
          a.mComponentMetaMap.keys = [Stun.typeId])
      ∧ collisionWorld.Extend exampleEntity [TextureForce]
          = some (collisionGrown.1, some collisionEntity)
      ∧ (∀ a, a ∈ (collisionGrown.1.GetArchetype collisionEntity).bind
            collisionGrown.1.archetype →
          a.mComponentMetaMap.keys = [AgentShader.typeId])
      ∧ (collisionGrown.1.Remove collisionEntity [TextureForce]).map Prod.snd = some none)
    ∧ (subscribedWorld.callbacks 0 CreateEntityEvent.type_id).length = 1
      ∧ subscribedWorld.Inv
      ∧ subscribedWorld.Live exampleEntity
      ∧ (∀ a, a ∈ (subscribedWorld.GetArchetype exampleEntity).bind
            subscribedWorld.archetype →
          a.mComponentMetaMap.keys = [Terrain.typeId])
      ∧ subscribedWorld.component exampleEntity Terrain = some 5
      ∧ (subscribedWorld.Extend exampleEntity [Profile]).bind
          (fun r1 => r1.2.bind (fun p1 => (r1.1.Remove p1 [Profile]).bind
            (fun r2 => r2.2.bind (fun p2 => r2.1.component p2 Terrain)))) = some 99 := by
  have hsome : (collisionWorld.Extend exampleEntity [TextureForce]).isSome = true := by
    decide
  have hptr : collisionGrown.2 = some collisionEntity := by decide
  have hop : collisionWorld.Extend exampleEntity [TextureForce]
      = some (collisionGrown.1, some collisionEntity) := by
    rw [← hptr]
    exact eq_some_getD _ (World.new, none) hsome
  exact ⟨⟨by decide, by decide, by decide, hop, by decide, by decide⟩, by decide, by decide,
    by decide, by decide, by decide, by decide⟩
/-! ## C10: `RemoveComponentsFromEntity` -/

/-- C10 (amended): in a world that satisfies the invariant, for an existing context,
a valid record `e` and a non-empty list of classes all of which the archetype of `e`
has, when no other component map is registered under the identity of the map without
the classes, the context has room and no callback is subscribed to
`CreateEntityEvent` in the context, `RemoveComponentsFromEntity` returns a valid
record `p` other than `e`; its archetype is the one `CreateArchetype` returns for
every list of classes whose entries are those of the map without the classes; its
components of the classes that are left have the values of `e`, `GetComponent` of a
removed class is null for it; and `e` is valid with the archetype and the component
values it had. -/
theorem RemoveComponentsFromEntity_correct (w : World) (pContext : Nat) (e : EntityPtr)
    (Ts : List ComponentType) (aSrc : EntityArchetype)
    (hinv : w.Inv) (hctx : pContext < MAX_CONTEXT_COUNT)
    (hc : (w.mEntityContexts pContext).isSome = true) (hlive : w.Live e)
    (hsrc : (w.GetArchetype e).bind w.archetype = some aSrc)
    (hne : Ts ≠ [])
    (hall : ∀ T, T ∈ Ts → T.typeId ∈ aSrc.mComponentMetaMap.keys)
    (hcol : w.mArchetypeManager.NoCollision (aSrc.mComponentMetaMap.eraseAll Ts))
    (hroom : w.Room pContext (aSrc.mComponentMetaMap.eraseAll Ts))
    (hquiet : w.callbacks pContext CreateEntityEvent.type_id = []) :
    ∃ (w1 : World) (p : EntityPtr) (pDst : Nat),
      w.RemoveComponentsFromEntity pContext e Ts = some (w1, some p)
      ∧ w1.Inv
      ∧ w1.Live p
      ∧ p ≠ e
      ∧ w1.GetArchetype p = some pDst
      ∧ (∀ Us : List ComponentType,
          (Us.map (fun U => (U.typeId, U.meta))).Perm (aSrc.mComponentMetaMap.eraseAll Ts) →
          w1.mArchetypeManager.CreateArchetype (ArchetypeArgs.components Us)
            = some (w1.mArchetypeManager, pDst))
      ∧ (∀ T, T.typeId ∈ aSrc.mComponentMetaMap.keys → T.typeId ∉ Ts.map ComponentType.typeId →
          w1.component p T = w.component e T)
      ∧ (∀ T, T ∈ Ts → w1.GetComponent p T = some none)
      ∧ w1.Live e
      ∧ w1.GetArchetype e = w.GetArchetype e
      ∧ ∀ T, w1.component e T = w.component e T := by
  obtain ⟨c, hc⟩ := Option.isSome_iff_exists.mp hc
  unfold World.GetArchetype at hsrc
  cases hss : w.storage e.mStorage with
  | none =>
    rw [hss] at hsrc
    cases hsrc
  | some ss =>
    rw [hss] at hsrc
    have has : w.archetype ss.mArchetype = some aSrc := hsrc
    obtain ⟨w5, p, pDst, ad1, hop, M, _, _, _, hreg, hinh, hrem⟩ :=
      w.RemoveComponentsFromEntity_spec pContext e Ts c ss aSrc hinv hctx hc hlive hss has hne
        hall hcol hroom hquiet
    have hk := M.keeps e hlive
    refine ⟨w5, p, pDst, hop, M.inv, M.live, ?_, M.archetype, ?_, ?_, hrem, hk.live,
      hk.archetype, hk.component⟩
    · intro h
      apply M.fresh
      rw [h]
      exact hlive
    · intro Us hperm
      exact CreateArchetype_registered _ _ pDst Us hperm hreg
    · intro T h1 h2
      exact hinh T ((aSrc.mComponentMetaMap.mem_keys_eraseAll Ts T.typeId).mpr ⟨h1, h2⟩)

set_option maxRecDepth 100000 in
/-- Witness of C10: `Profile` is removed from the record of the example world with
the components `Terrain` and `Profile`. -/
theorem RemoveComponentsFromEntity_correct_witness :
    ∃ (w1 : World) (p : EntityPtr) (pDst : Nat),
      examplePairWorld.RemoveComponentsFromEntity 0 exampleEntity [Profile] = some (w1, some p)
      ∧ w1.Inv
      ∧ w1.Live p
      ∧ p ≠ exampleEntity
      ∧ w1.GetArchetype p = some pDst
      ∧ (∀ Us : List ComponentType,
          (Us.map (fun U => (U.typeId, U.meta))).Perm
            (examplePairSource.mComponentMetaMap.eraseAll [Profile]) →
          w1.mArchetypeManager.CreateArchetype (ArchetypeArgs.components Us)
            = some (w1.mArchetypeManager, pDst))
      ∧ (∀ T, T.typeId ∈ examplePairSource.mComponentMetaMap.keys →
          T.typeId ∉ [Profile].map ComponentType.typeId →
          w1.component p T = examplePairWorld.component exampleEntity T)
      ∧ (∀ T, T ∈ [Profile] → w1.GetComponent p T = some none)
      ∧ w1.Live exampleEntity
      ∧ w1.GetArchetype exampleEntity = examplePairWorld.GetArchetype exampleEntity
      ∧ ∀ T, w1.component exampleEntity T = examplePairWorld.component exampleEntity T :=
  RemoveComponentsFromEntity_correct examplePairWorld 0 exampleEntity [Profile]
    examplePairSource (by decide) (by decide) (by decide) (by decide)
    (eq_some_getD _ _ (by decide)) (by decide) (by decide) (by decide) (by decide)
    (List.eq_nil_of_length_eq_zero (by decide))

set_option maxRecDepth 100000 in
/-- C10 (counterexamples): first, the CRC-32 of `AgentShader` is the sum of those of
`Stun` and `TextureForce`. In a world with the archetype of `Stun` and
`TextureForce`, the archetype of `AgentShader` and `Health`, and a valid record of
the latter, whose `AgentShader` component holds its default value,
`RemoveComponentsFromEntity<Health>` returns a valid record of the archetype of
`Stun` and `TextureForce`: `GetComponent` of `AgentShader`, the class that is
left, is null for it. Second, in the world with one record of `Terrain` and
`Profile` after `SetEventManager` and `Subscrible` of a callback that assigns 99 to
the `Terrain` of the record of a `CreateEntityEvent`, the `Terrain` of the record is
5, and `RemoveComponentsFromEntity<Profile>` returns a record whose `Terrain`, the
class that is left, reads 99. -/
theorem RemoveComponentsFromEntity_diverges :
    (Stun.hashCode + TextureForce.hashCode = AgentShader.hashCode
      ∧ collisionPairWorld.Live exampleEntity
      ∧ (∀ a, a ∈ (collisionPairWorld.GetArchetype exampleEntity).bind
            collisionPairWorld.archetype →
          a.mComponentMetaMap.keys = [Health.typeId, AgentShader.typeId])
      ∧ collisionPairWorld.component exampleEntity AgentShader = some AgentShader.defaultValue
      ∧ collisionPairWorld.RemoveComponentsFromEntity 0 exampleEntity [Health]
          = some (collisionReduced.1, some collisionEntity)
      ∧ collisionReduced.1.Live collisionEntity
      ∧ (∀ a, a ∈ (collisionReduced.1.GetArchetype collisionEntity).bind
            collisionReduced.1.archetype →
          a.mComponentMetaMap.keys = [Stun.typeId, TextureForce.typeId])
      ∧ collisionReduced.1.GetComponent collisionEntity AgentShader = some none
      ∧ collisionReduced.1.component collisionEntity AgentShader = none)
    ∧ (World.run
          [WorldOp.setEventManager 0 (some EventManager.new),
            WorldOp.subscrible 0 CreateEntityEvent.type_id 1 overwriteTerrain]
          examplePairWorld).isSome = true
      ∧ (subscribedPairWorld.callbacks 0 CreateEntityEvent.type_id).length = 1
      ∧ subscribedPairWorld.Inv
      ∧ subscribedPairWorld.Live exampleEntity
      ∧ (∀ a, a ∈ (subscribedPairWorld.GetArchetype exampleEntity).bind
            subscribedPairWorld.archetype →
          a.mComponentMetaMap.keys = [Profile.typeId, Terrain.typeId])
      ∧ subscribedPairWorld.component exampleEntity Terrain = some 5
      ∧ (subscribedPairWorld.RemoveComponentsFromEntity 0 exampleEntity [Profile]).bind
          (fun r => r.2.bind (fun p => r.1.component p Terrain)) = some 99 := by
  have hsome :
      (collisionPairWorld.RemoveComponentsFromEntity 0 exampleEntity [Health]).isSome = true := by
    decide
  have hptr : collisionReduced.2 = some collisionEntity := by decide
  have hop : collisionPairWorld.RemoveComponentsFromEntity 0 exampleEntity [Health]
      = some (collisionReduced.1, some collisionEntity) := by
    rw [← hptr]
    exact eq_some_getD _ (World.new, none) hsome
  exact ⟨⟨by decide, by decide, by decide, by decide, hop, by decide, by decide, by decide,
    by decide⟩, by decide, by decide, by decide, by decide, by decide, by decide, by decide⟩
/-! ## C20: an entity class and its component list -/

/-- C20: on every catalog, `CreateArchetype` of an entity class
`EntityClass<C1, ..., Cn>` and `CreateArchetype<C1, ..., Cn>` are the same
computation; when one of the two calls returned an archetype, the other call, on
the catalog the first one left, returns that archetype and leaves the catalog as it
is; and the first call returns whenever the list has at most
`MAX_COMPONENT_COUNT_PER_ENTITY` distinct classes. -/
theorem CreateArchetype_entityClass (mgr : EntityArchetypeManager) (Ts : List ComponentType) :
    mgr.CreateArchetype (ArchetypeArgs.entityClass Ts)
        = mgr.CreateArchetype (ArchetypeArgs.components Ts)
      ∧ (∀ mgr1 p, mgr.CreateArchetype (ArchetypeArgs.entityClass Ts) = some (mgr1, p) →
          mgr1.CreateArchetype (ArchetypeArgs.components Ts) = some (mgr1, p))
      ∧ (∀ mgr1 p, mgr.CreateArchetype (ArchetypeArgs.components Ts) = some (mgr1, p) →
          mgr1.CreateArchetype (ArchetypeArgs.entityClass Ts) = some (mgr1, p))
      ∧ ((Ts.map ComponentType.typeId).dedup.length ≤ MAX_COMPONENT_COUNT_PER_ENTITY →
          ∃ mgr1 p, mgr.CreateArchetype (ArchetypeArgs.entityClass Ts) = some (mgr1, p)) := by
  have hsame : ∀ m : EntityArchetypeManager, m.CreateArchetype (ArchetypeArgs.entityClass Ts)
      = m.CreateArchetype (ArchetypeArgs.components Ts) := fun _ => rfl
  have hagain : ∀ mgr1 p, mgr.CreateArchetype (ArchetypeArgs.components Ts) = some (mgr1, p) →
      mgr1.CreateArchetype (ArchetypeArgs.components Ts) = some (mgr1, p) := by
    intro mgr1 p h
    have h' : mgr.CreateArchetypeByComponentTypes Ts = some (mgr1, p) := h
    have hreg : umapFind mgr1.mArchetypesMap (sum_component_hashcodes Ts) = some p := by
      cases hf : umapFind mgr.mArchetypesMap (sum_component_hashcodes Ts) with
      | some q =>
        rw [CreateArchetypeByComponentTypes_found mgr Ts q hf] at h'
        simp only [Option.some.injEq, Prod.mk.injEq] at h'
        rw [← h'.1, ← h'.2]
        exact hf
      | none =>
        rw [CreateArchetypeByComponentTypes_fresh mgr Ts hf] at h'
        unfold EntityArchetypeManager.construct at h'
        cases hnew : EntityArchetype.new (sum_component_hashcodes Ts)
            (GetComponentsMetaHelperClass.Call Ts mgr []).2 with
        | none =>
          rw [hnew] at h'
          cases h'
        | some a =>
          rw [hnew] at h'
          simp only [Option.some.injEq, Prod.mk.injEq] at h'
          have hmap : (GetComponentsMetaHelperClass.Call Ts mgr []).1.mArchetypesMap
              = mgr.mArchetypesMap := (Call_objects Ts mgr []).2
          have hobj : (GetComponentsMetaHelperClass.Call Ts mgr []).1.objects
              = mgr.objects := (Call_objects Ts mgr []).1
          rw [← h'.1, ← h'.2]
          simp only []
          apply umapFind_umapInsert_self
          rw [hmap]
          exact hf
    exact CreateArchetypeByComponentTypes_found mgr1 Ts p hreg
  refine ⟨hsame mgr, ?_, ?_, ?_⟩
  · intro mgr1 p h
    rw [hsame mgr] at h
    exact hagain mgr1 p h
  · intro mgr1 p h
    rw [hsame mgr1]
    exact hagain mgr1 p h
  · intro hn
    rw [hsame mgr]
    rcases CreateArchetypeByComponentTypes_cases mgr Ts with ⟨p, _, h⟩ | ⟨_, _, m1, h, _⟩
      | ⟨_, hno, _⟩
    · exact ⟨mgr, p, h⟩
    · exact ⟨m1, _, h⟩
    · exact absurd hn hno

/-- Witness of C20: the entity class `EntityClass<Transform, Profile>` and the list
`Transform, Profile` on the empty catalog. -/
theorem CreateArchetype_entityClass_witness :
    EntityArchetypeManager.init.CreateArchetype (ArchetypeArgs.entityClass [Transform, Profile])
        = EntityArchetypeManager.init.CreateArchetype
            (ArchetypeArgs.components [Transform, Profile])
      ∧ (∀ mgr1 p,
          EntityArchetypeManager.init.CreateArchetype
              (ArchetypeArgs.entityClass [Transform, Profile]) = some (mgr1, p) →
          mgr1.CreateArchetype (ArchetypeArgs.components [Transform, Profile]) = some (mgr1, p))
      ∧ (∀ mgr1 p,
          EntityArchetypeManager.init.CreateArchetype
              (ArchetypeArgs.components [Transform, Profile]) = some (mgr1, p) →
          mgr1.CreateArchetype (ArchetypeArgs.entityClass [Transform, Profile]) = some (mgr1, p))
      ∧ (([Transform, Profile].map ComponentType.typeId).dedup.length
            ≤ MAX_COMPONENT_COUNT_PER_ENTITY →
          ∃ mgr1 p,
            EntityArchetypeManager.init.CreateArchetype
              (ArchetypeArgs.entityClass [Transform, Profile]) = some (mgr1, p)) :=
  CreateArchetype_entityClass EntityArchetypeManager.init [Transform, Profile]
/-! ## C15: `GetComponent` -/

/-- The path of a valid record: its storage and the archetype of the storage. -/
theorem World.Live.source {w : World} {e : EntityPtr} (hinv : w.Inv) (hlive : w.Live e) :
    ∃ s a, w.storage e.mStorage = some s ∧ w.archetype s.mArchetype = some a ∧ a.Inv
      ∧ (w.GetArchetype e).bind w.archetype = some a
      ∧ s.Inv
      ∧ e.mChunkIndex < s.mChunkCount
      ∧ e.mBlockIndex < (s.mChunks e.mChunkIndex).mBlockCount
      ∧ (s.header e).mValid = true
      ∧ (s.mChunks e.mChunkIndex).mComponentCount = a.mComponentCount
      ∧ s.mContext = e.mStorage.mContext := by
  obtain ⟨hctx, s, hs, h1, h2, h3⟩ := hlive
  simp only [Option.mem_def] at hs
  obtain ⟨_, _, _, _, _, hsinv, hsctx, _, a, ha, _, hcc⟩ := World.storage_path hinv hctx hs
  have ha' : w.archetype s.mArchetype = some a := ha
  have hlt : s.mArchetype < w.mArchetypeManager.objects.length := by
    by_contra hge
    unfold World.archetype at ha'
    rw [List.getElem?_eq_none (by omega)] at ha'
    cases ha'
  refine ⟨s, a, hs, ha', (hinv.2.1 _ hlt a ha).1, ?_, hsinv, h1, h2, h3, ?_, hsctx⟩
  · unfold World.GetArchetype
    rw [hs]
    exact ha'
  · obtain ⟨_, _, _, h4, _⟩ := hsinv
    obtain ⟨_, _, _, _, _, h6⟩ := h4 _ h1
    rw [h6, hcc]

/-- For every valid record `e` of a world that satisfies the invariant and every
class `T`, `GetComponent<T>()` returns null exactly when the archetype of `e` does
not contain `T`; when `T` is the component number `i` of the archetype, it returns
the pointer to the element at the block index of `e` in the component array `i` of
the chunk of `e`, and that element is what the pointer reads. -/
theorem GetComponent_correct_of_Inv (w : World) (e : EntityPtr) (T : ComponentType)
    (aSrc : EntityArchetype) (hinv : w.Inv) (hlive : w.Live e)
    (hsrc : (w.GetArchetype e).bind w.archetype = some aSrc) :
    (w.GetComponent e T = some none ↔ aSrc.ContainComponent T = false)
      ∧ (aSrc.ContainComponent T = true ↔ T.typeId ∈ aSrc.mComponentMetaMap.keys)
      ∧ ∀ i, aSrc.mComponentMetaMap.keys[i]? = some T.typeId →
          w.GetComponent e T = some (some { index := i, block := e.mBlockIndex })
            ∧ ∃ s, w.storage e.mStorage = some s
                ∧ w.load e { index := i, block := e.mBlockIndex }
                    = (s.mChunks e.mChunkIndex).mComponentBuffers i e.mBlockIndex := by
  obtain ⟨s, a, hs, ha, hainv, hsrc', _⟩ := World.Live.source hinv hlive
  rw [hsrc] at hsrc'
  cases hsrc'
  have hget := w.GetComponent_eq e s aSrc T hs ha
  have hcon : aSrc.ContainComponent T = true ↔ T.typeId ∈ aSrc.mComponentMetaMap.keys := by
    unfold EntityArchetype.ContainComponent
    rw [decide_eq_true_iff]
    exact aSrc.GetComponentIndex_ne_iff hainv T.typeId
  refine ⟨?_, hcon, ?_⟩
  · rw [hget]
    constructor
    · intro h
      by_contra hc
      rw [Bool.not_eq_false] at hc
      have hne := (aSrc.GetComponentIndex_ne_iff hainv T.typeId).mpr (hcon.mp hc)
      rw [if_neg hne] at h
      cases h
    · intro h
      have hno : T.typeId ∉ aSrc.mComponentMetaMap.keys := by
        intro hk
        rw [hcon.mpr hk] at h
        cases h
      rw [aSrc.GetComponentIndex_of_not_key hainv T.typeId hno, if_pos rfl]
  · intro i hi
    have hidx := aSrc.GetComponentIndex_of_key hainv i T.typeId hi
    refine ⟨?_, s, hs, ?_⟩
    · rw [hget, hidx]
      have hne : ¬ ((i : Int) = INVALID_COMPONENT_INDEX) := by
        unfold INVALID_COMPONENT_INDEX
        omega
      rw [if_neg hne, Int.toNat_ofNat]
    · rw [w.load_eq e s i hs]
      rfl

set_option maxRecDepth 100000 in
/-- C15 (counterexample): in the world built by `CreateContext()`,
`CreateArchetype<ShieldFlySound, ManaParentGrid>()` and `CreateEntity` the record is
valid and the component map of its archetype has the type id of `ManaParentGrid` as
its first key, but `ContainComponent<ManaParentGrid>()` is false and
`GetComponent<ManaParentGrid>()` of the record returns null. -/
theorem GetComponent_overlap :
    overlapWorld.Live exampleEntity
      ∧ (overlapWorld.GetArchetype exampleEntity).bind overlapWorld.archetype
          = some overlapSource
      ∧ overlapSource.mComponentMetaMap.keys[0]? = some ManaParentGrid.typeId
      ∧ overlapSource.ContainComponent ManaParentGrid = false
      ∧ overlapWorld.GetComponent exampleEntity ManaParentGrid = some none := by
  refine ⟨by decide, eq_some_getD _ _ (by decide), by decide, by decide, by decide⟩
/-! ## Constructing while allocating -/

theorem setAt_setAt {α : Type} (a : Nat → α) (i : Nat) (u v : α) :
    setAt (setAt a i u) i v = setAt a i v := by
  funext j
  unfold setAt
  by_cases h : j = i
  · simp only [if_pos h]
  · simp only [if_neg h]

/-- The component arrays after a run of constructions in one block. -/
theorem EntityComponentChunk.foldl_store_bufs (c : EntityComponentChunk) (blk : Nat)
    (v : Nat → Option Value) (n : Nat) :
    List.foldl (fun c i => c.store { index := i, block := blk } (v i)) c (List.range n)
      = { c with
          mComponentBuffers := fun i b =>
            if b = blk ∧ i < n then v i else c.mComponentBuffers i b } := by
  induction n with
  | zero =>
    simp only [List.range_zero, List.foldl_nil, Nat.not_lt_zero, and_false, if_false]
  | succ n ih =>
    rw [List.range_succ, List.foldl_append, ih]
    simp only [List.foldl_cons, List.foldl_nil, EntityComponentChunk.store]
    congr 1
    funext i b
    unfold setAt
    by_cases hi : i = n
    · subst hi
      by_cases hb : b = blk
      · simp [hb]
      · simp [hb]
    · by_cases hb : b = blk
      · have h1 : (i < n + 1) = (i < n) := by
          apply propext
          constructor <;> intro h <;> omega
        simp only [hi, if_false, h1]
      · simp [hi, hb]

/-- `ConstructComponents` writes the stored constructor values of the archetype
into the components of the block, and nothing else. -/
theorem EntityComponentChunk.ConstructComponents_bufs (c : EntityComponentChunk)
    (a : EntityArchetype) (p : EntityPtr) :
    c.ConstructComponents a p
      = { c with
          mComponentBuffers := fun i b =>
            if b = p.mBlockIndex ∧ i < c.mComponentCount then a.mComponentConstructors i
            else c.mComponentBuffers i b } :=
  c.foldl_store_bufs p.mBlockIndex (fun i => a.mComponentConstructors i) c.mComponentCount

/-- `Allocate(true)` of a chunk is `Allocate(false)` followed by the construction of
the components of the returned record. -/
theorem EntityComponentChunk.Allocate_constructing (c : EntityComponentChunk) (a : EntityArchetype)
    (hne : c.mFreeHead ≠ c.mFreeTail)
    (hidx : (c.mEntitiesBuffer c.mFreeHead).mBlockIndex = c.mFreeHead) :
    ∃ d, c.Allocate a false = some (d, c.entityPtr c.mFreeHead)
      ∧ d.mComponentCount = c.mComponentCount
      ∧ c.Allocate a true
          = some ({ d with
                    mComponentBuffers := fun i b =>
                      if b = c.mFreeHead ∧ i < c.mComponentCount then
                        a.mComponentConstructors i
                      else d.mComponentBuffers i b },
                  c.entityPtr c.mFreeHead) := by
  unfold EntityComponentChunk.Allocate
  simp only [if_neg hne, if_neg (not_not.mpr hidx)]
  refine ⟨_, rfl, rfl, ?_⟩
  simp only [if_true, EntityComponentChunk.ConstructComponents_bufs]
  rfl

theorem EntityComponentStorage.allocateInHead_true_eq (s : EntityComponentStorage)
    (a : EntityArchetype) (hinv : s.Inv) (hne : s.mChunkFreeHead ≠ s.mChunkCount) :
    ∃ t p, s.allocateInHead a false = some (t, p)
      ∧ s.allocateInHead a true = some (t.setCells p (t.constructed a p), p) := by
  obtain ⟨hcap, hcnt, hpc, hchunks, hlen, hnd, hmem, hiff⟩ := hinv
  have hL : s.freeChunks = s.mChunkFreeHead
      :: linkChain s.mChunkFreeList s.mChunkCount s.mChunkCount
          (s.mChunkFreeList s.mChunkFreeHead) := by
    unfold EntityComponentStorage.freeChunks
    rw [linkChain_cons _ _ _ _ hne]
  have hhead : s.mChunkFreeHead < s.mChunkCount := hmem _ (by rw [hL]; simp)
  have hnf : (s.mChunks s.mChunkFreeHead).IsFull = false :=
    (hiff _ hhead).mp (by rw [hL]; simp)
  obtain ⟨hcinv, hcid, hcst, hcar, hcbc, hccc⟩ := hchunks _ hhead
  have hcne : (s.mChunks s.mChunkFreeHead).mFreeHead ≠ (s.mChunks s.mChunkFreeHead).mFreeTail := by
    simpa [EntityComponentChunk.IsFull] using hnf
  obtain ⟨hflt, hfval, _, _⟩ := hcinv.head _ hcne
  obtain ⟨d, hdF, hdc, hdT⟩ := (s.mChunks s.mChunkFreeHead).Allocate_constructing a hcne
    (hcinv.2.2.1 _ hflt).1
  obtain ⟨c, hc⟩ : ∃ c, c = s.mChunks s.mChunkFreeHead := ⟨_, rfl⟩
  rw [← hc] at hdF hdT hdc hcid
  obtain ⟨p, hp⟩ : ∃ p, p = c.entityPtr c.mFreeHead := ⟨_, rfl⟩
  have hpc : p.mChunkIndex = s.mChunkFreeHead := by
    rw [hp]
    exact hcid
  have hpb : p.mBlockIndex = c.mFreeHead := by rw [hp]; rfl
  rw [← hp] at hdF hdT
  obtain ⟨dT, hdTdef⟩ : ∃ dT, dT = { d with
      mComponentBuffers := fun i b =>
        if b = c.mFreeHead ∧ i < c.mComponentCount then a.mComponentConstructors i
        else d.mComponentBuffers i b } := ⟨_, rfl⟩
  rw [← hdTdef] at hdT
  have hfull : dT.IsFull = d.IsFull := by rw [hdTdef]; rfl
  obtain ⟨t, ht⟩ : ∃ t, t = (if d.IsFull then
      { s with mChunks := setAt s.mChunks s.mChunkFreeHead d
               mChunkFreeHead := s.mChunkFreeList s.mChunkFreeHead }
    else { s with mChunks := setAt s.mChunks s.mChunkFreeHead d }) := ⟨_, rfl⟩
  have hF : s.allocateInHead a false = some (t, p) := by
    unfold EntityComponentStorage.allocateInHead
    rw [← hc, hdF, ht]
  have htc : t.mChunks p.mChunkIndex = d := by
    rw [hpc, ht]
    cases d.IsFull <;> simp
  have hT : s.allocateInHead a true = some (t.setCells p (t.constructed a p), p) := by
    unfold EntityComponentStorage.allocateInHead
    rw [← hc, hdT]
    simp only [hfull]
    have hchunk : { d with
        mComponentBuffers := fun index block =>
          if block = p.mBlockIndex then t.constructed a p index
          else d.mComponentBuffers index block } = dT := by
      rw [hdTdef]
      congr 1
      funext i b
      unfold EntityComponentStorage.constructed EntityComponentStorage.cellsOf
      rw [htc, hdc, hpb]
      by_cases hb : b = c.mFreeHead
      · by_cases hi : i < c.mComponentCount
        · simp [hb, hi]
        · simp [hb, hi]
      · simp [hb]
    unfold EntityComponentStorage.setCells
    rw [htc, hchunk, hpc, ht]
    cases d.IsFull
    · simp only [Bool.false_eq_true, if_false, setAt_setAt]
    · simp only [if_true, setAt_setAt]
  exact ⟨t, p, hF, hT⟩

/-- `Allocate(true)` of a storage is `Allocate(false)` followed by the construction
of the components of the returned record. -/
theorem EntityComponentStorage.Allocate_constructed (s : EntityComponentStorage)
    (a : EntityArchetype) (hinv : s.Inv) (hn : 1 ≤ s.mEntityCountPerChunk)
    (ha : a.mComponentCount = s.mComponentCountPerEntity)
    (hroom : s.mChunkFreeHead ≠ s.mChunkCount ∨ s.mChunkCount < MAX_CHUNK_COUNT_PER_STORAGE) :
    ∃ t p, s.Allocate a false = some (t, p)
      ∧ s.Allocate a true = some (t.setCells p (t.constructed a p), p) := by
  by_cases hne : s.mChunkFreeHead = s.mChunkCount
  · have hroom2 : s.mChunkCount < MAX_CHUNK_COUNT_PER_STORAGE := by
      rcases hroom with h | h
      · exact absurd hne h
      · exact h
    obtain ⟨s1, hadd, hinv1, e1, e2, _⟩ := s.addChunk_spec a hinv hne hroom2 hn ha
    obtain ⟨t, p, hF, hT⟩ := s1.allocateInHead_true_eq a hinv1 (by omega)
    refine ⟨t, p, ?_, ?_⟩
    · unfold EntityComponentStorage.Allocate
      rw [if_pos hne, hadd]
      exact hF
    · unfold EntityComponentStorage.Allocate
      rw [if_pos hne, hadd]
      exact hT
  · obtain ⟨t, p, hF, hT⟩ := s.allocateInHead_true_eq a hinv hne
    refine ⟨t, p, ?_, ?_⟩
    · unfold EntityComponentStorage.Allocate
      rw [if_neg hne]
      exact hF
    · unfold EntityComponentStorage.Allocate
      rw [if_neg hne]
      exact hT

/-- `Allocate(true)` through a storage pointer is `Allocate(false)` followed by the
construction of the components of the returned record. -/
theorem World.Allocate_true_eq (w : World) (ps : StoragePtr) (s : EntityComponentStorage)
    (a : EntityArchetype) (w2 : World) (p : EntityPtr) (hinv : w.Inv)
    (hctx : ps.mContext < MAX_CONTEXT_COUNT) (hs : w.storage ps = some s)
    (ha : w.archetype s.mArchetype = some a) (hn : 1 ≤ s.mEntityCountPerChunk)
    (hroom : s.mChunkFreeHead ≠ s.mChunkCount ∨ s.mChunkCount < MAX_CHUNK_COUNT_PER_STORAGE)
    (hall : w.Allocate ps false = some (w2, p)) :
    ∃ t, w2.storage ps = some t
      ∧ w.Allocate ps true = some (w2.setStorage ps (t.setCells p (t.constructed a p)), p) := by
  obtain ⟨_, _, _, _, _, hsinv, _, _, a', ha', _, hcc⟩ := World.storage_path hinv hctx hs
  have ha'' : a' = a := by
    have h := ha
    unfold World.archetype at h
    rw [h] at ha'
    simp only [Option.mem_def, Option.some.injEq] at ha'
    exact ha'.symm
  subst ha''
  obtain ⟨t, p', hF, hT⟩ := s.Allocate_constructed a' hsinv hn hcc.symm hroom
  unfold World.Allocate at hall
  simp only [hs, ha, hF, Option.some.injEq, Prod.mk.injEq] at hall
  obtain ⟨hw2, hp⟩ := hall
  subst hp
  refine ⟨t, by rw [← hw2]; exact w.storage_setStorage_same ps s t hs, ?_⟩
  unfold World.Allocate
  simp only [hs, ha, hT]
  rw [← hw2, World.setStorage_setStorage]

/-! ## Placing a new record -/

/-- The start of `CreateEntity`, `ExtendEntity` and `RemoveComponentsFromEntity`:
get the storage of the archetype in the context and allocate without constructing.
For an archetype of the catalog and a context with room it returns a record `p` of
the archetype that was not valid before; the records that were valid keep their
component objects; and whatever the component objects of `p` are set to afterwards,
the rest of the world is kept. -/
theorem World.place_spec (w : World) (pContext pDst : Nat) (c : EntityContext)
    (ad : EntityArchetype) (hinv : w.Inv) (hctx : pContext < MAX_CONTEXT_COUNT)
    (hc : w.mEntityContexts pContext = some c) (had : w.archetype pDst = some ad)
    (hroom1 : ad.mStoragesInContext pContext = none →
      c.mEntityComponentStorageList.length < MAX_STORAGE_COUNT_PER_CONTEXT
        ∧ 2 * ad.mComponentMetaMap.blockSize ≤ MAX_STORAGE_CHUNK_SIZE)
    (hroom2 : ∀ s, s ∈ c.mEntityComponentStorageList → s.mArchetype = pDst →
      1 ≤ s.mEntityCountPerChunk
        ∧ (s.mChunkFreeHead ≠ s.mChunkCount ∨ s.mChunkCount < MAX_CHUNK_COUNT_PER_STORAGE)) :
    ∃ (w1 : World) (ps : StoragePtr) (w2 : World) (t : EntityComponentStorage) (p : EntityPtr)
      (ad1 : EntityArchetype),
      w.GetEntityComponentStorage pContext pDst = some (w1, ps)
      ∧ w1.Allocate ps false = some (w2, p)
      ∧ w1.Inv
      ∧ w1.archetype pDst = some ad1
      ∧ p.mStorage = ps
      ∧ w2.storage p.mStorage = some t
      ∧ t.mArchetype = pDst
      ∧ w2.archetype pDst = some ad1
      ∧ ad1 = { ad with mStoragesInContext := ad1.mStoragesInContext }
      ∧ ad1.Inv
      ∧ (t.mChunks p.mChunkIndex).mComponentCount = ad1.mComponentCount
      ∧ t.mComponentCountPerEntity = ad1.mComponentCount
      ∧ (∀ q, w.Live q → ∀ sq, w.storage q.mStorage = some sq →
          ∃ sq2, w2.storage q.mStorage = some sq2
            ∧ (sq2.mChunks q.mChunkIndex).mComponentCount
                = (sq.mChunks q.mChunkIndex).mComponentCount
            ∧ sq2.cellsOf q = sq.cellsOf q
            ∧ (q.mStorage ≠ p.mStorage ∨ q.mChunkIndex ≠ p.mChunkIndex
                ∨ q.mBlockIndex ≠ p.mBlockIndex))
      ∧ w1.Allocate ps true
          = some (w2.setStorage p.mStorage (t.setCells p (t.constructed ad1 p)), p)
      ∧ ∀ cells', World.Migrated w pContext pDst
          (w2.setStorage p.mStorage (t.setCells p cells')) p := by
  obtain ⟨w1, ps, s, a1, c1, hget, hinv1, hpsctx, hs1, hsarch, hcase, ha1, ha1eq, hlen1, harch1,
    hmap1, hst1, hc1, hctx1⟩ :=
    w.GetEntityComponentStorage_spec pContext pDst c ad hinv hctx hc had (fun h => (hroom1 h).1)
  have hlt_of : ∀ (v : World) (r : Nat) (a : EntityArchetype), v.archetype r = some a →
      r < v.mArchetypeManager.objects.length := by
    intro v r a ha
    by_contra hge
    unfold World.archetype at ha
    rw [List.getElem?_eq_none (by omega)] at ha
    cases ha
  have hadinv : ad.Inv := (hinv.2.1 pDst (hlt_of w pDst ad had) ad had).1
  have hpsctx' : ps.mContext < MAX_CONTEXT_COUNT := by rw [hpsctx]; exact hctx
  have hcap : 1 ≤ s.mEntityCountPerChunk
      ∧ (s.mChunkFreeHead ≠ s.mChunkCount ∨ s.mChunkCount < MAX_CHUNK_COUNT_PER_STORAGE) := by
    rcases hcase with hex | ⟨_, hnone, hnew⟩
    · obtain ⟨c', hc', hlist⟩ := (w.storage_eq_some_iff ps s).mp hex
      rw [hpsctx, hc] at hc'
      cases hc'
      exact hroom2 s (List.getElem?_mem hlist) hsarch
    · refine ⟨?_, Or.inr ?_⟩
      · rw [hnew]
        exact EntityComponentStorage.new_capacity _ _ _ ad hadinv (hroom1 hnone).2
      · rw [hnew]
        exact (by decide : 0 < MAX_CHUNK_COUNT_PER_STORAGE)
  obtain ⟨t, p, hall, htinv, hrel, hinv2⟩ :=
    w1.Allocate_world_spec ps s false hinv1 hpsctx' hs1 hcap.1 hcap.2
  obtain ⟨w2, hw2⟩ : ∃ w2, w2 = w1.setStorage ps t := ⟨_, rfl⟩
  rw [← hw2] at hall hinv2
  obtain ⟨_, _, _, _, _, hsinv1, hsctx, hsidx, a1', ha1', _, hscc⟩ :=
    World.storage_path hinv1 hpsctx' hs1
  have hthis : s.this = ps := by
    unfold EntityComponentStorage.this
    rw [hsctx, hsidx]
  have hpst : p.mStorage = ps := by rw [hrel.storage, hthis]
  have ha1'' : a1' = a1 := by
    rw [hsarch] at ha1'
    have h := ha1
    unfold World.archetype at h
    rw [h] at ha1'
    simp only [Option.mem_def, Option.some.injEq] at ha1'
    exact ha1'.symm
  subst ha1''
  have hs2 : w2.storage p.mStorage = some t := by
    rw [hpst, hw2]
    exact w1.storage_setStorage_same ps s t hs1
  have harch2 : ∀ r, w2.archetype r = w1.archetype r := by
    intro r
    unfold World.archetype
    rw [hw2, World.setStorage_manager]
  have hobj2 : ∀ (r : Nat) (a : EntityArchetype), w.archetype r = some a →
      ∃ a2, w2.archetype r = some a2
        ∧ a2 = { a with mStoragesInContext := a2.mStoragesInContext } := by
    intro r a ha
    by_cases hr : r = pDst
    · subst hr
      rw [had] at ha
      cases ha
      exact ⟨a1', by rw [harch2]; exact ha1, ha1eq⟩
    · exact ⟨a, by rw [harch2, harch1 r hr]; exact ha, rfl⟩
  have hchunk_t : ∀ i, i < t.mChunkCount →
      (t.mChunks i).mBlockCount = t.mEntityCountPerChunk
        ∧ (t.mChunks i).mComponentCount = t.mComponentCountPerEntity := by
    intro i hi
    obtain ⟨_, _, _, h4, _⟩ := htinv
    obtain ⟨_, _, _, _, h5, h6⟩ := h4 i hi
    exact ⟨h5, h6⟩
  have hchunk_s : ∀ i, i < s.mChunkCount →
      (s.mChunks i).mBlockCount = s.mEntityCountPerChunk
        ∧ (s.mChunks i).mComponentCount = s.mComponentCountPerEntity := by
    intro i hi
    obtain ⟨_, _, _, h4, _⟩ := hsinv1
    obtain ⟨_, _, _, _, h5, h6⟩ := h4 i hi
    exact ⟨h5, h6⟩
  -- a record that was valid, in the world after the allocation
  have hq2 : ∀ q, w.Live q → ∀ sq, w.storage q.mStorage = some sq →
      ∃ sq2, w2.storage q.mStorage = some sq2
        ∧ sq2.mArchetype = sq.mArchetype
        ∧ sq.mChunkCount ≤ sq2.mChunkCount
        ∧ (sq2.mChunks q.mChunkIndex).mBlockCount = (sq.mChunks q.mChunkIndex).mBlockCount
        ∧ (sq2.mChunks q.mChunkIndex).mComponentCount
            = (sq.mChunks q.mChunkIndex).mComponentCount
        ∧ sq2.header q = sq.header q
        ∧ sq2.cellsOf q = sq.cellsOf q
        ∧ (q.mStorage = ps → sq2 = t
            ∧ (q.mChunkIndex ≠ p.mChunkIndex ∨ q.mBlockIndex ≠ p.mBlockIndex)) := by
    intro q hq sq hsq
    obtain ⟨_, s0, hs0, hq1, hq2, hq3⟩ := hq
    rw [hsq] at hs0
    simp only [Option.mem_def, Option.some.injEq] at hs0
    subst hs0
    by_cases hqs : q.mStorage = ps
    · rw [hqs] at hsq
      have hex : w.storage ps = some s := by
        rcases hcase with hex | ⟨hnone, _⟩
        · exact hex
        · rw [hnone] at hsq
          cases hsq
      rw [hex] at hsq
      cases hsq
      have hne : q.mChunkIndex ≠ p.mChunkIndex ∨ q.mBlockIndex ≠ p.mBlockIndex := by
        by_contra hcon
        have e1 : q.mChunkIndex = p.mChunkIndex := by
          by_contra h
          exact hcon (Or.inl h)
        have e2 : q.mBlockIndex = p.mBlockIndex := by
          by_contra h
          exact hcon (Or.inr h)
        have hfree := hrel.was_free (by rw [← e1]; exact hq1)
        unfold EntityComponentStorage.header at hfree hq3
        rw [e1, e2, hfree] at hq3
        cases hq3
      have hqt : q.mChunkIndex < t.mChunkCount := lt_of_lt_of_le hq1 hrel.count_le
      refine ⟨t, by rw [hqs, ← hpst]; exact hs2, hrel.mArchetype, hrel.count_le, ?_, ?_, ?_, ?_,
        fun _ => ⟨rfl, hne⟩⟩
      · rw [(hchunk_t _ hqt).1, (hchunk_s _ hq1).1, hrel.mEntityCountPerChunk]
      · rw [(hchunk_t _ hqt).2, (hchunk_s _ hq1).2, hrel.mComponentCountPerEntity]
      · unfold EntityComponentStorage.header
        exact hrel.headers q.mChunkIndex q.mBlockIndex hq1 hne
      · unfold EntityComponentStorage.cellsOf
        rw [hrel.buffers rfl q.mChunkIndex hq1]
    · refine ⟨sq, ?_, rfl, le_refl _, rfl, rfl, rfl, rfl, fun h => absurd h hqs⟩
      rw [hw2, w1.storage_setStorage_other ps _ t hqs, hst1 _ hqs]
      exact hsq
  have had2 : w2.archetype t.mArchetype = some a1' := by
    rw [hrel.mArchetype, hsarch, harch2]
    exact ha1
  have ha1inv : a1'.Inv := (hinv1.2.1 pDst (hlt_of w1 pDst a1' ha1) a1' ha1).1
  have hdc : (t.mChunks p.mChunkIndex).mComponentCount = a1'.mComponentCount := by
    rw [(hchunk_t _ hrel.chunk_lt).2, hrel.mComponentCountPerEntity, hscc]
  have htrue : w1.Allocate ps true
      = some (w2.setStorage p.mStorage (t.setCells p (t.constructed a1' p)), p) := by
    obtain ⟨t', ht', htrue⟩ := w1.Allocate_true_eq ps s a1' w2 p hinv1 hpsctx' hs1
      (by rw [hsarch]; exact ha1) hcap.1 hcap.2 hall
    rw [← hpst, hs2] at ht'
    cases ht'
    rw [hpst]
    exact htrue
  refine ⟨w1, ps, w2, t, p, a1', hget, hall, hinv1, ha1, hpst, hs2,
    by rw [hrel.mArchetype, hsarch], by rw [harch2]; exact ha1, ha1eq, ha1inv, hdc,
    by rw [hrel.mComponentCountPerEntity, hscc], ?_, htrue, ?_⟩
  · intro q hq sq hsq
    obtain ⟨sq2, g0, _, _, _, g4, _, g6, g7⟩ := hq2 q hq sq hsq
    refine ⟨sq2, g0, g4, g6, ?_⟩
    by_cases hqs : q.mStorage = ps
    · rcases (g7 hqs).2 with h | h
      · exact Or.inr (Or.inl h)
      · exact Or.inr (Or.inr h)
    · exact Or.inl (by rw [hpst]; exact hqs)
  · intro cells'
    obtain ⟨f1, f2, f3, f4, f5, f6, _, _, _, f10, f11, f12, _⟩ := t.setCells_fields p cells'
    have hs3 : (w2.setStorage p.mStorage (t.setCells p cells')).storage p.mStorage
        = some (t.setCells p cells') := w2.storage_setStorage_same p.mStorage t _ hs2
    have harch3 : ∀ r, (w2.setStorage p.mStorage (t.setCells p cells')).archetype r
        = w2.archetype r := by
      intro r
      unfold World.archetype
      rw [World.setStorage_manager]
    refine ⟨?_, ?_, ?_, ?_, ?_, ?_, ?_, ?_, ?_, ?_, ?_⟩
    · exact w2.Inv_setStorage p.mStorage t _ hinv2 hs2 (t.setCells_Inv p cells' htinv) f1 f2 f3 f5
    · refine ⟨by rw [hpst]; exact hpsctx', _, hs3, by rw [f6]; exact hrel.chunk_lt, ?_, ?_⟩
      · rw [f12, (hchunk_t _ hrel.chunk_lt).1]
        exact hrel.block_lt
      · unfold EntityComponentStorage.header
        rw [f10]
        exact hrel.valid
    · rintro ⟨_, s0, hs0, h1, h2, h3⟩
      rw [hpst] at hs0
      rcases hcase with hex | ⟨hnone, _⟩
      · rw [hex] at hs0
        simp only [Option.mem_def, Option.some.injEq] at hs0
        subst hs0
        rw [hrel.was_free h1] at h3
        cases h3
      · rw [hnone] at hs0
        cases hs0
    · rw [hpst]
      exact hpsctx
    · unfold World.GetArchetype
      rw [hs3, Option.map_some', f3, hrel.mArchetype, hsarch]
    · intro q hq
      obtain ⟨hqctx, sq, hsq, hq1, hq2', hq3⟩ := hq
      simp only [Option.mem_def] at hsq
      obtain ⟨sq2, hsq2, g1, g2, g3, g4, g5, g6, g7⟩ :=
        hq2 q ⟨hqctx, sq, hsq, hq1, hq2', hq3⟩ sq hsq
      obtain ⟨_, _, _, _, _, _, _, _, aq, haq, _, _⟩ := World.storage_path hinv hqctx hsq
      have haq' : w.archetype sq.mArchetype = some aq := haq
      obtain ⟨aq2, haq2, haq2eq⟩ := hobj2 _ aq haq'
      have htable : aq2.mComponentIndexTable = aq.mComponentIndexTable := by rw [haq2eq]
      by_cases hqs : q.mStorage = ps
      · obtain ⟨e1, hne'⟩ := g7 hqs
        subst e1
        have hsq3 : (w2.setStorage p.mStorage (sq2.setCells p cells')).storage q.mStorage
            = some (sq2.setCells p cells') := by
          rw [hqs, ← hpst]
          exact hs3
        refine World.Keeps.of_storage w _ q sq _ aq aq2 ⟨hqctx, sq, hsq, hq1, hq2', hq3⟩ hsq
          hsq3 (by rw [f3]; exact g1) (by rw [f6]; exact g2) (by rw [f12]; exact g3) ?_ ?_
          haq' (by rw [harch3]; exact haq2) htable
        · unfold EntityComponentStorage.header
          rw [f10]
          exact g5
        · rw [sq2.cellsOf_setCells_other p q cells' hne']
          exact g6
      · have hsq3 : (w2.setStorage p.mStorage (t.setCells p cells')).storage q.mStorage
            = some sq2 := by
          rw [w2.storage_setStorage_other p.mStorage _ _ (by rw [hpst]; exact hqs)]
          exact hsq2
        exact World.Keeps.of_storage w _ q sq sq2 aq aq2 ⟨hqctx, sq, hsq, hq1, hq2', hq3⟩ hsq
          hsq3 g1 g2 g3 g5 g6 haq' (by rw [harch3]; exact haq2) htable
    · intro r a ha
      obtain ⟨a2, ha2, ha2eq⟩ := hobj2 r a ha
      exact ⟨a2, by rw [harch3]; exact ha2, ha2eq⟩
    · intro k q hk
      rw [World.setStorage_manager, hw2, World.setStorage_manager, hmap1]
      exact hk
    · intro q hq
      rw [w2.storage_setStorage_other p.mStorage _ _ hq, hw2,
        w1.storage_setStorage_other ps _ t (by rw [← hpst]; exact hq),
        hst1 q (by rw [← hpst]; exact hq)]
    · intro i hi
      by_cases hip : i = pContext
      · rw [hip]
        obtain ⟨c2, h2⟩ : ∃ c2, w2.mEntityContexts ps.mContext = some c2 :=
          ⟨_, by rw [hw2]; exact w1.setStorage_contexts_same ps t c1 (by rw [hpsctx]; exact hc1)⟩
        have h3 := w2.setStorage_contexts_same p.mStorage (t.setCells p cells') _
          (by rw [hpst]; exact h2)
        have e : p.mStorage.mContext = pContext := by rw [hpst]; exact hpsctx
        rw [e] at h3
        rw [h3]
        rfl
      · rw [w2.setStorage_contexts_other p.mStorage _ i (by rw [hpst, hpsctx]; exact hip), hw2,
          w1.setStorage_contexts_other ps t i (by rw [hpsctx]; exact hip), hctx1 i hip]
        exact hi
    · intro i type_id
      apply World.callbacks_congr
      rw [World.setStorage_GetEventManager, hw2, World.setStorage_GetEventManager]
      exact w.GetEntityComponentStorage_GetEventManager w1 pContext pDst ps hget i

/-! ## The creation event -/

/-- The creation event after a record was placed, in a context in which no callback
is subscribed to it: it is delivered, and what the placement left behind still
holds. -/
theorem World.Migrated.created {w w4 : World} {pContext pDst : Nat} {p : EntityPtr}
    (M : World.Migrated w pContext pDst w4 p)
    (hc : (w.mEntityContexts pContext).isSome = true)
    (hq : w.callbacks pContext CreateEntityEvent.type_id = []) :
    ∃ w5, w4.OnEntityCreated pContext p = some w5
      ∧ World.Migrated w pContext pDst w5 p
      ∧ w5.mArchetypeManager = w4.mArchetypeManager
      ∧ ∀ q, w5.storage q = w4.storage q := by
  obtain ⟨c4, hc4⟩ := Option.isSome_iff_exists.mp (M.contexts pContext hc)
  obtain ⟨_, s4, hs4, _, _, _⟩ := M.live
  simp only [Option.mem_def] at hs4
  obtain ⟨w5, em, h5, hm5, hc5, hother5, hst5, hcb5⟩ :=
    w4.TriggerEvent_spec pContext (EntityEvent.created p (s4.header p)) c4 hc4
      (by rw [M.callbacks]; exact hq)
  have harch5 : ∀ r, w5.archetype r = w4.archetype r := by
    intro r
    unfold World.archetype
    rw [hm5]
  refine ⟨w5, ?_, ?_, hm5, hst5⟩
  · unfold World.OnEntityCreated World.header
    rw [hs4]
    exact h5
  · refine ⟨?_, ?_, M.fresh, M.context, ?_, ?_, ?_, ?_, ?_, ?_, ?_⟩
    · exact World.Inv_of_event w4 w5 pContext c4 em M.inv hm5 hc4 hc5 hother5 hst5
    · unfold World.Live
      rw [hst5]
      exact M.live
    · unfold World.GetArchetype
      rw [hst5]
      exact M.archetype
    · intro q hq
      have k2 := M.keeps q hq
      exact k2.trans (World.Keeps.of_same w4 w5 q hm5 hst5 k2.live)
    · intro q a ha
      obtain ⟨a3, ha3, ha3eq⟩ := M.objects q a ha
      exact ⟨a3, by rw [harch5]; exact ha3, ha3eq⟩
    · intro k q hk
      rw [hm5]
      exact M.map k q hk
    · intro q hq
      rw [hst5, M.storages q hq]
    · intro i hi
      by_cases hip : i = pContext
      · rw [hip, hc5]
        rfl
      · rw [hother5 i hip]
        exact M.contexts i hi
    · intro i type_id
      rw [hcb5, M.callbacks]

/-! ## The loops over the components of one record -/

theorem ComponentTypesHelperClass.Contain_iff (id : Nat) (Args : List ComponentType) :
    ComponentTypesHelperClass.Contain id Args = true ↔ id ∈ Args.map ComponentType.typeId := by
  induction Args with
  | nil => simp [ComponentTypesHelperClass.Contain]
  | cons T Rest ih =>
    simp only [ComponentTypesHelperClass.Contain, Bool.or_eq_true, decide_eq_true_eq, ih,
      List.map_cons, List.mem_cons]

/-- The loop of `CreateEntity(pArchetype, args...)` over the first `n` components:
it returns, a component whose type id is not among the classes of the arguments
holds the stored constructor value of the archetype, and no other component object
changes. -/
theorem World.constructMissing_spec (w : World) (p : EntityPtr) (sd : EntityComponentStorage)
    (a : EntityArchetype) (Args : List ComponentType)
    (hsd : w.storage p.mStorage = some sd) :
    ∀ n, n ≤ (sd.mChunks p.mChunkIndex).mComponentCount →
      ∃ cells, List.foldl (World.constructMissing Args a p) (some w) (List.range n)
          = some (w.setStorage p.mStorage (sd.setCells p cells))
        ∧ (∀ i, i < n → a.mComponentTypeIds i ∉ Args.map ComponentType.typeId →
            cells i = a.mComponentConstructors i)
        ∧ (∀ i, (i < n → a.mComponentTypeIds i ∈ Args.map ComponentType.typeId) →
            cells i = sd.cellsOf p i) := by
  intro n
  induction n with
  | zero =>
    intro _
    refine ⟨sd.cellsOf p, ?_, fun i hi => absurd hi (Nat.not_lt_zero _), fun _ _ => rfl⟩
    simp only [List.range_zero, List.foldl_nil, Option.some.injEq]
    rw [sd.setCells_cellsOf, w.setStorage_self _ _ hsd]
  | succ k ih =>
    intro hk
    obtain ⟨cells, hfold, hc1, hc2⟩ := ih (by omega)
    rw [List.range_succ, List.foldl_append, hfold]
    simp only [List.foldl_cons, List.foldl_nil]
    have hsd1 := w.storage_setStorage_same p.mStorage sd (sd.setCells p cells) hsd
    obtain ⟨_, _, _, _, _, _, _, _, _, _, f11, _, _⟩ := sd.setCells_fields p cells
    unfold World.constructMissing
    simp only []
    by_cases hcon : ComponentTypesHelperClass.Contain (a.mComponentTypeIds k) Args = true
    · simp only [hcon, Bool.not_true, Bool.false_eq_true, if_false]
      have hmem := (ComponentTypesHelperClass.Contain_iff _ _).mp hcon
      refine ⟨cells, rfl, ?_, ?_⟩
      · intro i hi hno
        by_cases hik : i = k
        · subst hik
          exact absurd hmem hno
        · exact hc1 i (by omega) hno
      · intro i hi
        apply hc2 i
        intro hlt
        exact hi (by omega)
    · have hcon' : ComponentTypesHelperClass.Contain (a.mComponentTypeIds k) Args = false := by
        cases h : ComponentTypesHelperClass.Contain (a.mComponentTypeIds k) Args with
        | false => rfl
        | true => exact absurd h hcon
      have hno : a.mComponentTypeIds k ∉ Args.map ComponentType.typeId := by
        intro h
        exact hcon ((ComponentTypesHelperClass.Contain_iff _ _).mpr h)
      simp only [hcon', Bool.not_false, if_true]
      rw [World.GetComponentByIndex_eq _ p _ k hsd1 (by rw [f11]; omega)]
      simp only []
      rw [World.store_world_eq _ p _ k _ hsd1, World.setStorage_setStorage,
        EntityComponentStorage.setCells_setCells, EntityComponentStorage.cellsOf_setCells_same]
      refine ⟨_, rfl, ?_, ?_⟩
      · intro i hi hnoi
        by_cases hik : i = k
        · subst hik
          rw [setAt_same]
        · rw [setAt_other _ _ _ _ hik]
          exact hc1 i (by omega) hnoi
      · intro i hi
        have hik : i ≠ k := by
          intro h
          subst h
          exact hno (hi (by omega))
        rw [setAt_other _ _ _ _ hik]
        apply hc2 i
        intro hlt
        exact hi (by omega)

/-- The loop of `CloneEntity` over the first `n` components: it returns, the
components of the clone hold what the components of the source hold, and no other
component object changes. -/
theorem World.cloneComponent_spec (w : World) (pDst pSrc : EntityPtr)
    (sd ss : EntityComponentStorage)
    (hsd : w.storage pDst.mStorage = some sd) (hss : w.storage pSrc.mStorage = some ss)
    (hne : pSrc.mStorage ≠ pDst.mStorage ∨ pSrc.mChunkIndex ≠ pDst.mChunkIndex
      ∨ pSrc.mBlockIndex ≠ pDst.mBlockIndex) :
    ∀ n, n ≤ (sd.mChunks pDst.mChunkIndex).mComponentCount →
      n ≤ (ss.mChunks pSrc.mChunkIndex).mComponentCount →
      ∃ cells, List.foldl (World.cloneComponent pDst pSrc) (some w) (List.range n)
          = some (w.setStorage pDst.mStorage (sd.setCells pDst cells))
        ∧ (∀ i, i < n → cells i = ss.cellsOf pSrc i)
        ∧ (∀ i, n ≤ i → cells i = sd.cellsOf pDst i) := by
  intro n
  induction n with
  | zero =>
    intro _ _
    refine ⟨sd.cellsOf pDst, ?_, fun i hi => absurd hi (Nat.not_lt_zero _), fun _ _ => rfl⟩
    simp only [List.range_zero, List.foldl_nil, Option.some.injEq]
    rw [sd.setCells_cellsOf, w.setStorage_self _ _ hsd]
  | succ k ih =>
    intro hk1 hk2
    obtain ⟨cells, hfold, hc1, hc2⟩ := ih (by omega) (by omega)
    rw [List.range_succ, List.foldl_append, hfold]
    simp only [List.foldl_cons, List.foldl_nil]
    have hsd1 := w.storage_setStorage_same pDst.mStorage sd (sd.setCells pDst cells) hsd
    obtain ⟨_, _, _, _, _, _, _, _, _, _, f11, _, _⟩ := sd.setCells_fields pDst cells
    obtain ⟨ss1, hss1, _, g2, g3, _⟩ := w.setCells_other pDst pSrc sd ss cells hsd hss hne
    unfold World.cloneComponent
    simp only []
    rw [World.GetComponentByIndex_eq _ pSrc ss1 k hss1 (by rw [g2]; omega),
      World.GetComponentByIndex_eq _ pDst _ k hsd1 (by rw [f11]; omega)]
    simp only []
    rw [World.load_eq _ pSrc ss1 k hss1, World.store_world_eq _ pDst _ k _ hsd1,
      World.setStorage_setStorage, EntityComponentStorage.setCells_setCells,
      EntityComponentStorage.cellsOf_setCells_same, g3]
    refine ⟨_, rfl, ?_, ?_⟩
    · intro i hi
      by_cases hik : i = k
      · subst hik
        rw [setAt_same]
      · rw [setAt_other _ _ _ _ hik]
        exact hc1 i (by omega)
    · intro i hi
      rw [setAt_other _ _ _ _ (by omega)]
      exact hc2 i (by omega)

/-! ## Replacing the component objects of one record -/

/-- What a record reads depends on its storage and on the catalog only. -/
theorem World.component_congr (w w1 : World) (q : EntityPtr) (U : ComponentType)
    (hs : w1.storage q.mStorage = w.storage q.mStorage)
    (hm : w1.mArchetypeManager = w.mArchetypeManager) :
    w1.GetComponent q U = w.GetComponent q U ∧ w1.component q U = w.component q U := by
  have hp : w1.GetComponent q U = w.GetComponent q U := by
    unfold World.GetComponent World.archetype
    rw [hs, hm]
  refine ⟨hp, ?_⟩
  unfold World.component World.load
  rw [hp, hs]

/-- The world after the component objects of the record `p` are replaced: the
invariant is kept, no header changes, `p` reads the new objects, and every other
record reads what it read. -/
theorem World.setCells_spec (w : World) (p : EntityPtr) (s : EntityComponentStorage)
    (a : EntityArchetype) (cells : Nat → Option Value) (hinv : w.Inv)
    (hctx : p.mStorage.mContext < MAX_CONTEXT_COUNT)
    (hs : w.storage p.mStorage = some s) (ha : w.archetype s.mArchetype = some a) :
    (w.setStorage p.mStorage (s.setCells p cells)).Inv
      ∧ (w.setStorage p.mStorage (s.setCells p cells)).mArchetypeManager = w.mArchetypeManager
      ∧ (∀ q, (w.setStorage p.mStorage (s.setCells p cells)).header q = w.header q)
      ∧ (∀ q, (w.setStorage p.mStorage (s.setCells p cells)).Live q ↔ w.Live q)
      ∧ (∀ q, (w.setStorage p.mStorage (s.setCells p cells)).GetArchetype q = w.GetArchetype q)
      ∧ (∀ q U, (w.setStorage p.mStorage (s.setCells p cells)).GetComponent q U
          = w.GetComponent q U)
      ∧ (∀ U (j : Nat), a.GetComponentIndex U.typeId = (j : Int) →
          (w.setStorage p.mStorage (s.setCells p cells)).component p U = cells j)
      ∧ (∀ q, q ≠ p → ∀ U,
          (w.setStorage p.mStorage (s.setCells p cells)).component q U = w.component q U) := by
  obtain ⟨w1, hw1⟩ : ∃ w1, w1 = w.setStorage p.mStorage (s.setCells p cells) := ⟨_, rfl⟩
  rw [← hw1]
  obtain ⟨f1, f2, f3, _, f5, f6, _, _, _, f10, _, f12, _⟩ := s.setCells_fields p cells
  obtain ⟨_, _, _, _, _, hinv_s, _⟩ := World.storage_path hinv hctx hs
  have hs1 : w1.storage p.mStorage = some (s.setCells p cells) := by
    rw [hw1]
    exact w.storage_setStorage_same p.mStorage s _ hs
  have hm : w1.mArchetypeManager = w.mArchetypeManager := by
    rw [hw1]
    exact World.setStorage_manager _ _ _
  have ha1 : w1.archetype (s.setCells p cells).mArchetype = some a := by
    unfold World.archetype
    rw [hm, f3]
    exact ha
  have hother : ∀ q : EntityPtr, q.mStorage ≠ p.mStorage →
      w1.storage q.mStorage = w.storage q.mStorage := by
    intro q hq
    rw [hw1]
    exact w.storage_setStorage_other p.mStorage _ _ hq
  have hheader : ∀ q, w1.header q = w.header q := by
    intro q
    by_cases hq : q.mStorage = p.mStorage
    · unfold World.header
      rw [hq, hs1, hs, Option.map_some', Option.map_some']
      unfold EntityComponentStorage.header
      rw [f10]
    · unfold World.header
      rw [hother q hq]
  have hpointer : ∀ q U, w1.GetComponent q U = w.GetComponent q U := by
    intro q U
    by_cases hq : q.mStorage = p.mStorage
    · have hsq1 : w1.storage q.mStorage = some (s.setCells p cells) := by rw [hq]; exact hs1
      have hsq : w.storage q.mStorage = some s := by rw [hq]; exact hs
      rw [w1.GetComponent_eq q _ a U hsq1 ha1, w.GetComponent_eq q s a U hsq ha]
    · exact (w.component_congr w1 q U (hother q hq) hm).1
  refine ⟨?_, hm, hheader, ?_, ?_, hpointer, ?_, ?_⟩
  · rw [hw1]
    exact w.Inv_setStorage p.mStorage s _ hinv hs (s.setCells_Inv p cells hinv_s) f1 f2 f3 f5
  · intro q
    unfold World.Live
    by_cases hq : q.mStorage = p.mStorage
    · rw [hq, hs1, hs]
      simp only [Option.mem_def, Option.some.injEq, exists_eq_left']
      unfold EntityComponentStorage.header
      rw [f6, f12, f10]
    · rw [hother q hq]
  · intro q
    by_cases hq : q.mStorage = p.mStorage
    · unfold World.GetArchetype
      rw [hq, hs1, hs, Option.map_some', Option.map_some', f3]
    · unfold World.GetArchetype
      rw [hother q hq]
  · intro U j hj
    rw [w1.component_at p _ a U j hs1 ha1 hj, EntityComponentStorage.cellsOf_setCells_same]
  · intro q hq U
    by_cases hqs : q.mStorage = p.mStorage
    · have hsq1 : w1.storage q.mStorage = some (s.setCells p cells) := by rw [hqs]; exact hs1
      have hsq : w.storage q.mStorage = some s := by rw [hqs]; exact hs
      have hne : q.mChunkIndex ≠ p.mChunkIndex ∨ q.mBlockIndex ≠ p.mBlockIndex := by
        by_contra hcon
        apply hq
        have e1 : q.mChunkIndex = p.mChunkIndex := by
          by_contra h
          exact hcon (Or.inl h)
        have e2 : q.mBlockIndex = p.mBlockIndex := by
          by_contra h
          exact hcon (Or.inr h)
        cases q
        cases p
        simp only [EntityPtr.mk.injEq]
        exact ⟨hqs, e1, e2⟩
      rw [w1.component_eq q _ a U hsq1 ha1, w.component_eq q s a U hsq ha,
        s.cellsOf_setCells_other p q cells hne]
    · exact (w.component_congr w1 q U (hother q hqs) hm).2
/-! ## C11: the null results of `ExtendEntity` and `RemoveComponentsFromEntity` -/

/-- A result of `ExtendEntity` on the path past the containment test carries a
pointer. -/
theorem World.ExtendEntityWith_past (w : World) (pContext : Nat) (e : EntityPtr)
    (args : List (ComponentType × Value)) (s : EntityComponentStorage) (a : EntityArchetype)
    (hs : w.storage e.mStorage = some s) (ha : w.archetype s.mArchetype = some a)
    (hany : a.ContainAnyComponents (args.map Prod.fst) = false) (w1 : World) :
    w.ExtendEntityWith pContext e args ≠ some (w1, none) := by
  have hga : w.GetArchetype e = some s.mArchetype := by
    unfold World.GetArchetype
    rw [hs]
    rfl
  unfold World.ExtendEntityWith
  simp only [hga, ha, hany, Bool.false_eq_true, if_false]
  cases w.mArchetypeManager.AddComponents (args.map Prod.fst) s.mArchetype with
  | none => simp
  | some r =>
    obtain ⟨mgr, pDst⟩ := r
    simp only []
    cases World.migrate { w with mArchetypeManager := mgr } pContext pDst e with
    | none => simp
    | some r3 =>
      obtain ⟨w3, p⟩ := r3
      simp only []
      cases w3.ConstructEntity p args with
      | none => simp
      | some w4 =>
        simp only []
        cases w4.OnEntityCreated pContext p with
        | none => simp
        | some w5 => simp

/-- A result of `RemoveComponentsFromEntity` on the path past the containment test
carries a pointer. -/
theorem World.RemoveComponentsFromEntity_past (w : World) (pContext : Nat) (e : EntityPtr)
    (Ts : List ComponentType) (s : EntityComponentStorage) (a : EntityArchetype)
    (hs : w.storage e.mStorage = some s) (ha : w.archetype s.mArchetype = some a)
    (hall : a.ContainAllComponents Ts = true) (w1 : World) :
    w.RemoveComponentsFromEntity pContext e Ts ≠ some (w1, none) := by
  have hga : w.GetArchetype e = some s.mArchetype := by
    unfold World.GetArchetype
    rw [hs]
    rfl
  unfold World.RemoveComponentsFromEntity
  simp only [hga, ha, hall, Bool.not_true, Bool.false_eq_true, if_false]
  cases w.mArchetypeManager.RemoveComponents Ts s.mArchetype with
  | none => simp
  | some r =>
    obtain ⟨mgr, pDst⟩ := r
    simp only []
    cases World.migrate { w with mArchetypeManager := mgr } pContext pDst e with
    | none => simp
    | some r3 =>
      obtain ⟨w3, p⟩ := r3
      simp only []
      cases w3.OnEntityCreated pContext p with
      | none => simp
      | some w5 => simp

/-- For every valid record `e` of a world that satisfies the invariant, with the
archetype `aSrc`: `ExtendEntity` with arguments (and `ExtendEntity<Ts...>`) returns
null exactly when `aSrc` has the type id of one of the classes, and
`RemoveComponentsFromEntity<Ts...>` returns null exactly when `aSrc` lacks the type
id of one of the classes; and whenever null is returned, the world is the world
before the call. -/
theorem Extend_Remove_null_of_Inv (w : World) (pContext : Nat) (e : EntityPtr)
    (args : List (ComponentType × Value)) (Ts : List ComponentType) (aSrc : EntityArchetype)
    (hinv : w.Inv) (hlive : w.Live e)
    (hsrc : (w.GetArchetype e).bind w.archetype = some aSrc) :
    (∀ w1, w.ExtendEntityWith pContext e args = some (w1, none)
        ↔ w1 = w ∧ ∃ x, x ∈ args ∧ x.1.typeId ∈ aSrc.mComponentMetaMap.keys)
      ∧ (∀ w1, w.ExtendEntity pContext e Ts = some (w1, none)
        ↔ w1 = w ∧ ∃ T, T ∈ Ts ∧ T.typeId ∈ aSrc.mComponentMetaMap.keys)
      ∧ (∀ w1, w.RemoveComponentsFromEntity pContext e Ts = some (w1, none)
        ↔ w1 = w ∧ ∃ T, T ∈ Ts ∧ T.typeId ∉ aSrc.mComponentMetaMap.keys) := by
  obtain ⟨s, a, hs, ha, hainv, hsrc', _⟩ := World.Live.source hinv hlive
  rw [hsrc] at hsrc'
  cases hsrc'
  have hga : w.GetArchetype e = some s.mArchetype := by
    unfold World.GetArchetype
    rw [hs]
    rfl
  have hext : ∀ (xs : List (ComponentType × Value)) (w1 : World),
      w.ExtendEntityWith pContext e xs = some (w1, none)
        ↔ w1 = w ∧ ∃ T, T ∈ xs.map Prod.fst ∧ T.typeId ∈ aSrc.mComponentMetaMap.keys := by
    intro xs w1
    cases hany : aSrc.ContainAnyComponents (xs.map Prod.fst) with
    | true =>
      have hex := (aSrc.ContainAnyComponents_iff hainv _).mp hany
      have hop : w.ExtendEntityWith pContext e xs = some (w, none) := by
        unfold World.ExtendEntityWith
        simp only [hga, ha, hany, if_true]
      rw [hop]
      constructor
      · intro h
        simp only [Option.some.injEq, Prod.mk.injEq, and_true] at h
        exact ⟨h.symm, hex⟩
      · rintro ⟨h, _⟩
        rw [h]
    | false =>
      constructor
      · intro h
        exact absurd h (w.ExtendEntityWith_past pContext e xs s aSrc hs ha hany w1)
      · rintro ⟨_, hex⟩
        rw [(aSrc.ContainAnyComponents_iff hainv _).mpr hex] at hany
        cases hany
  refine ⟨?_, ?_, ?_⟩
  · intro w1
    rw [hext args w1]
    constructor
    · rintro ⟨h, T, hT, hk⟩
      obtain ⟨x, hx, rfl⟩ := List.mem_map.mp hT
      exact ⟨h, x, hx, hk⟩
    · rintro ⟨h, x, hx, hk⟩
      exact ⟨h, x.1, List.mem_map.mpr ⟨x, hx, rfl⟩, hk⟩
  · intro w1
    rw [World.ExtendEntity_eq, hext _ w1]
    have hmap : (Ts.map (fun T => (T, T.defaultValue))).map Prod.fst = Ts := by
      rw [List.map_map]
      exact List.map_id _
    rw [hmap]
  · intro w1
    cases hall : aSrc.ContainAllComponents Ts with
    | true =>
      constructor
      · intro h
        exact absurd h (w.RemoveComponentsFromEntity_past pContext e Ts s aSrc hs ha hall w1)
      · rintro ⟨_, T, hT, hk⟩
        exact absurd ((aSrc.ContainAllComponents_iff hainv Ts).mp hall T hT) hk
    | false =>
      have hop : w.RemoveComponentsFromEntity pContext e Ts = some (w, none) := by
        unfold World.RemoveComponentsFromEntity
        simp only [hga, ha, hall, Bool.not_false, if_true]
      have hex : ∃ T, T ∈ Ts ∧ T.typeId ∉ aSrc.mComponentMetaMap.keys := by
        by_contra hno
        have hall' : aSrc.ContainAllComponents Ts = true := by
          apply (aSrc.ContainAllComponents_iff hainv Ts).mpr
          intro T hT
          by_contra hk
          exact hno ⟨T, hT, hk⟩
        rw [hall'] at hall
        cases hall
      rw [hop]
      constructor
      · intro h
        simp only [Option.some.injEq, Prod.mk.injEq, and_true] at h
        exact ⟨h.symm, hex⟩
      · rintro ⟨h, _⟩
        rw [h]

set_option maxRecDepth 100000 in
/-- C11 (counterexample): in the world built by `CreateContext()`,
`CreateArchetype<ShieldFlySound, ManaParentGrid>()` and `CreateEntity` the record is
valid and the component map of its archetype has the type id of `ManaParentGrid`
among its keys, but `RemoveComponentsFromEntity<ManaParentGrid>` returns null, and
`ExtendEntity<ManaParentGrid>` does not return null: `ContainAnyComponents` is
false, `AddComponents` returns null and the call goes on with that null
archetype. -/
theorem Extend_Remove_overlap :
    overlapWorld.Live exampleEntity
      ∧ (overlapWorld.GetArchetype exampleEntity).bind overlapWorld.archetype
          = some overlapSource
      ∧ ManaParentGrid.typeId ∈ overlapSource.mComponentMetaMap.keys
      ∧ overlapSource.ContainAllComponents [ManaParentGrid] = false
      ∧ overlapWorld.RemoveComponentsFromEntity 0 exampleEntity [ManaParentGrid]
          = some (overlapWorld, none)
      ∧ overlapSource.ContainAnyComponents [ManaParentGrid] = false
      ∧ overlapWorld.ExtendEntity 0 exampleEntity [ManaParentGrid] = none := by
  refine ⟨by decide, eq_some_getD _ _ (by decide), by decide, by decide, ?_, by decide, ?_⟩
  · have hga : overlapWorld.GetArchetype exampleEntity = some 0 := by decide
    have hsrc : (overlapWorld.GetArchetype exampleEntity).bind overlapWorld.archetype
        = some overlapSource := eq_some_getD _ _ (by decide)
    have ha : overlapWorld.archetype 0 = some overlapSource := by
      rw [hga] at hsrc
      exact hsrc
    have hall : overlapSource.ContainAllComponents [ManaParentGrid] = false := by decide
    unfold World.RemoveComponentsFromEntity
    simp only [hga, ha, hall, Bool.not_false, if_true]
  · have h : (overlapWorld.ExtendEntity 0 exampleEntity [ManaParentGrid]).isSome = false := by
      decide
    cases hs : overlapWorld.ExtendEntity 0 exampleEntity [ManaParentGrid] with
    | none => rfl
    | some x => rw [hs] at h; cases h
/-! ## `SetComponent` -/

/-- `SetComponent` on a record whose storage and archetype exist: for a class the
archetype has at the index `j` the component object `j` of the record is replaced
and true is returned; for a class it lacks nothing changes and false is
returned. -/
theorem World.SetComponent_eq (w : World) (e : EntityPtr) (T : ComponentType) (v : Value)
    (s : EntityComponentStorage) (a : EntityArchetype)
    (hs : w.storage e.mStorage = some s) (ha : w.archetype s.mArchetype = some a) :
    (∀ j : Nat, a.GetComponentIndex T.typeId = (j : Int) →
        w.SetComponent e T v
          = some (w.setStorage e.mStorage (s.setCells e (setAt (s.cellsOf e) j (some v))), true))
      ∧ (a.GetComponentIndex T.typeId = INVALID_COMPONENT_INDEX →
        w.SetComponent e T v = some (w, false)) := by
  constructor
  · intro j hj
    have hne : ¬ ((j : Int) = INVALID_COMPONENT_INDEX) := by
      unfold INVALID_COMPONENT_INDEX
      omega
    unfold World.SetComponent
    rw [w.GetComponent_eq e s a T hs ha, hj, if_neg hne, Int.toNat_ofNat]
    simp only []
    rw [w.store_world_eq e s j _ hs]
    rfl
  · intro hj
    unfold World.SetComponent
    rw [w.GetComponent_eq e s a T hs ha, hj, if_pos rfl]

/-- `SetComponent` on a valid record of a world that satisfies the invariant: it
returns, the invariant is kept, and no header, no component pointer and no
component value of another record changes. -/
theorem World.SetComponent_frame (w : World) (e : EntityPtr) (T : ComponentType) (v : Value)
    (hinv : w.Inv) (hlive : w.Live e) :
    ∃ w1 b, w.SetComponent e T v = some (w1, b)
      ∧ w1.Inv
      ∧ (∀ q, w1.header q = w.header q)
      ∧ (∀ q, w1.Live q ↔ w.Live q)
      ∧ (∀ q U, w1.GetComponent q U = w.GetComponent q U)
      ∧ (∀ q, q ≠ e → ∀ U, w1.component q U = w.component q U) := by
  obtain ⟨s, a, hs, ha, _⟩ := World.Live.source hinv hlive
  obtain ⟨h1, h2⟩ := w.SetComponent_eq e T v s a hs ha
  rcases LinearComponentIndexTable.Get_cases a.mComponentIndexTable T.typeId with hno | ⟨j, hj⟩
  · exact ⟨w, false, h2 hno, hinv, fun _ => rfl, fun _ => Iff.rfl, fun _ _ => rfl,
      fun _ _ _ => rfl⟩
  · obtain ⟨g1, _, g3, g4, _, g6, _, g8⟩ :=
      w.setCells_spec e s a (setAt (s.cellsOf e) j (some v)) hinv hlive.1 hs ha
    exact ⟨_, true, h1 j hj, g1, g3, g4, g6, g8⟩

/-- For every valid record `e` of a world that satisfies the invariant, every class
`T` and value `v`: if the archetype of `e` contains `T`, `SetComponent(v)` returns
true, afterwards `GetComponent<T>()` of `e` leads to `v`, the components of `e` with
another type id and every component of every other record read what they read
before, and no header and no component pointer changes; if the archetype lacks `T`,
it returns false and the world is the world before the call. -/
theorem SetComponent_correct_of_Inv (w : World) (e : EntityPtr) (T : ComponentType) (v : Value)
    (aSrc : EntityArchetype) (hinv : w.Inv) (hlive : w.Live e)
    (hsrc : (w.GetArchetype e).bind w.archetype = some aSrc) :
    (T.typeId ∈ aSrc.mComponentMetaMap.keys →
        ∃ w1, w.SetComponent e T v = some (w1, true)
          ∧ w1.Inv
          ∧ w1.component e T = some v
          ∧ (∀ U, U.typeId ≠ T.typeId → w1.component e U = w.component e U)
          ∧ (∀ q, q ≠ e → ∀ U, w1.component q U = w.component q U)
          ∧ (∀ q, w1.header q = w.header q)
          ∧ ∀ q U, w1.GetComponent q U = w.GetComponent q U)
      ∧ (T.typeId ∉ aSrc.mComponentMetaMap.keys → w.SetComponent e T v = some (w, false)) := by
  obtain ⟨s, a, hs, ha, hainv, hsrc', _⟩ := World.Live.source hinv hlive
  rw [hsrc] at hsrc'
  cases hsrc'
  obtain ⟨h1, h2⟩ := w.SetComponent_eq e T v s aSrc hs ha
  constructor
  · intro hT
    obtain ⟨j, hj, _, _⟩ := aSrc.index_of_key hainv T.typeId hT
    obtain ⟨g1, g2, g3, _, _, g6, g7, g8⟩ :=
      w.setCells_spec e s aSrc (setAt (s.cellsOf e) j (some v)) hinv hlive.1 hs ha
    refine ⟨_, h1 j hj, g1, ?_, ?_, g8, g3, g6⟩
    · rw [g7 T j hj, setAt_same]
    · intro U hU
      by_cases hk : U.typeId ∈ aSrc.mComponentMetaMap.keys
      · obtain ⟨i, hi, _, _⟩ := aSrc.index_of_key hainv U.typeId hk
        have hij : i ≠ j := by
          intro h
          subst h
          apply hU
          rw [← (LinearComponentIndexTable.Get_eq _ U.typeId i hi).2,
            ← (LinearComponentIndexTable.Get_eq _ T.typeId i hj).2]
        rw [g7 U i hi, setAt_other _ _ _ _ hij, w.component_at e s aSrc U i hs ha hi]
      · have hs1 := w.storage_setStorage_same e.mStorage s
          (s.setCells e (setAt (s.cellsOf e) j (some v))) hs
        have ha1 : (w.setStorage e.mStorage
            (s.setCells e (setAt (s.cellsOf e) j (some v)))).archetype
            (s.setCells e (setAt (s.cellsOf e) j (some v))).mArchetype = some aSrc := by
          unfold World.archetype
          rw [g2]
          exact ha
        rw [World.component_none _ e _ aSrc U hs1 ha1 hainv hk,
          w.component_none e s aSrc U hs ha hainv hk]
  · intro hT
    exact h2 (aSrc.GetComponentIndex_of_not_key hainv T.typeId hT)

set_option maxRecDepth 100000 in
/-- C16 (counterexample): in the world built by `CreateContext()`,
`CreateArchetype<ShieldFlySound, ManaParentGrid>()` and `CreateEntity` the record is
valid and the component map of its archetype has the type id of `ManaParentGrid`
among its keys, but `SetComponent` of a `ManaParentGrid` returns false. -/
theorem SetComponent_overlap :
    overlapWorld.Live exampleEntity
      ∧ (overlapWorld.GetArchetype exampleEntity).bind overlapWorld.archetype
          = some overlapSource
      ∧ ManaParentGrid.typeId ∈ overlapSource.mComponentMetaMap.keys
      ∧ (overlapWorld.SetComponent exampleEntity ManaParentGrid 3).map Prod.snd
          = some false := by
  refine ⟨by decide, eq_some_getD _ _ (by decide), by decide, by decide⟩
/-! ## `Clone` -/

/-- `GetEntityComponentStorage` for the context and the archetype of a valid
record returns the storage of the record and changes nothing. -/
theorem World.GetEntityComponentStorage_existing (w : World) (e : EntityPtr)
    (s : EntityComponentStorage) (hinv : w.Inv) (hctx : e.mStorage.mContext < MAX_CONTEXT_COUNT)
    (hs : w.storage e.mStorage = some s) :
    w.GetEntityComponentStorage e.mStorage.mContext s.mArchetype = some (w, e.mStorage) := by
  obtain ⟨c, hc, _, hcid, _, _, _, _, a, ha, hback, _⟩ := World.storage_path hinv hctx hs
  have ha' : w.archetype s.mArchetype = some a := ha
  unfold World.GetEntityComponentStorage
  simp only [hc, ha', hcid, hback]

/-- A storage in which `Allocate` returned had a chunk that was not full or room
for one more chunk. -/
theorem EntityComponentStorage.room_of_Allocate (s : EntityComponentStorage)
    (a : EntityArchetype) (b : Bool) (r : EntityComponentStorage × EntityPtr) (hinv : s.Inv)
    (h : s.Allocate a b = some r) :
    s.mChunkFreeHead ≠ s.mChunkCount ∨ s.mChunkCount < MAX_CHUNK_COUNT_PER_STORAGE := by
  by_contra hcon
  have h1 : s.mChunkFreeHead = s.mChunkCount := by
    by_contra hne
    exact hcon (Or.inl hne)
  have h2 : ¬ s.mChunkCount < MAX_CHUNK_COUNT_PER_STORAGE := fun hlt => hcon (Or.inr hlt)
  have h32768 : MAX_CHUNK_COUNT_PER_STORAGE = 32768 := by decide
  obtain ⟨hcap, hcnt, _⟩ := hinv
  simp only [List.mem_cons, List.mem_singleton, List.not_mem_nil, or_false] at hcap
  have hcap2 : s.mChunkArrayCapacity = 32768 := by omega
  have hadd : s.addChunk a = none := by
    unfold EntityComponentStorage.addChunk EntityComponentStorage.IncreaseCapacity
    simp only [hcap2, u16]
    have hge : s.mChunkCount ≥ 32768 := by omega
    simp [hge]
  unfold EntityComponentStorage.Allocate at h
  rw [if_pos h1, hadd] at h
  cases h

/-- The identifier of a valid record is the packing of its generation and its
path. -/
theorem World.GetEntityID_eq (w : World) (p : EntityPtr) (hinv : w.Inv) (hlive : w.Live p) :
    w.GetEntityID p = (w.header p).map (fun h =>
      packEntityID h.mGenID p.mStorage.mContext p.mStorage.mIndex p.mChunkIndex
        p.mBlockIndex) := by
  obtain ⟨hctx, s, hs, _⟩ := hlive
  simp only [Option.mem_def] at hs
  obtain ⟨c, hc, _, hcid, _, _, hsctx, hsidx, _⟩ := World.storage_path hinv hctx hs
  unfold World.GetEntityID World.header
  rw [hs]
  simp only [hsctx, hc, hcid, hsidx, Option.map_some']

/-- `Clone` of a valid record whose storage has a chunk that is not full or room
for one more chunk: it returns a record of the same storage that was not valid
before, whose components read what the components of the source read, and the rest
of the world is kept. -/
theorem World.Clone_spec (w : World) (e : EntityPtr) (hinv : w.Inv) (hlive : w.Live e)
    (hroom : ∀ s, s ∈ w.storage e.mStorage →
      s.mChunkFreeHead ≠ s.mChunkCount ∨ s.mChunkCount < MAX_CHUNK_COUNT_PER_STORAGE) :
    ∃ (w1 : World) (c : EntityPtr) (pA : Nat),
      w.Clone e = some (w1, c)
      ∧ World.Migrated w e.mStorage.mContext pA w1 c
      ∧ w.GetArchetype e = some pA
      ∧ c.mStorage = e.mStorage
      ∧ ∀ T, w1.component c T = w.component e T := by
  obtain ⟨c0, s, hc0, hlist, hs, _, hctx, _⟩ := World.Live.path hinv hlive
  obtain ⟨s', a, hs', ha, hainv, _, hsinv, he1, he2, _, hecc, _⟩ :=
    World.Live.source hinv hlive
  rw [hs] at hs'
  cases hs'
  obtain ⟨_, _, _, _, _, _, _, _, a', ha', hback, hscc⟩ := World.storage_path hinv hctx hs
  have haa : a' = a := by
    have h := ha
    unfold World.archetype at h
    rw [h] at ha'
    simp only [Option.mem_def, Option.some.injEq] at ha'
    exact ha'.symm
  subst haa
  have hroom1 : a'.mStoragesInContext e.mStorage.mContext = none →
      c0.mEntityComponentStorageList.length < MAX_STORAGE_COUNT_PER_CONTEXT
        ∧ 2 * a'.mComponentMetaMap.blockSize ≤ MAX_STORAGE_CHUNK_SIZE := by
    intro h
    rw [hback] at h
    cases h
  have hroom2 : ∀ s2, s2 ∈ c0.mEntityComponentStorageList → s2.mArchetype = s.mArchetype →
      1 ≤ s2.mEntityCountPerChunk
        ∧ (s2.mChunkFreeHead ≠ s2.mChunkCount
            ∨ s2.mChunkCount < MAX_CHUNK_COUNT_PER_STORAGE) := by
    intro s2 hs2 hs2a
    obtain ⟨j, hj⟩ := List.getElem?_of_mem hs2
    have hjlt : j < c0.mEntityComponentStorageList.length := by
      by_contra hge
      rw [List.getElem?_eq_none (by omega)] at hj
      cases hj
    obtain ⟨_, _, hsts⟩ := hinv.2.2 _ hctx c0 hc0
    obtain ⟨_, _, _, a2, ha2, hb2, _⟩ := hsts j hjlt s2 hj
    rw [hs2a, ha'] at ha2
    simp only [Option.mem_def, Option.some.injEq] at ha2
    rw [← ha2, hback] at hb2
    simp only [Option.some.injEq] at hb2
    rw [← hb2, hlist] at hj
    simp only [Option.some.injEq] at hj
    subst hj
    obtain ⟨_, _, _, h4, _⟩ := hsinv
    obtain ⟨_, _, _, _, h5, _⟩ := h4 _ he1
    exact ⟨by omega, hroom _ hs⟩
  obtain ⟨w1, ps, w2, t, p, ad1, hget, hall, _, _, hpst, hs2, htarch, had2, had1eq, had1inv, hdc,
    htcc, hkeep, _, hclose⟩ :=
    w.place_spec e.mStorage.mContext s.mArchetype c0 a' hinv hctx hc0 ha hroom1 hroom2
  rw [w.GetEntityComponentStorage_existing e s hinv hctx hs] at hget
  simp only [Option.some.injEq, Prod.mk.injEq] at hget
  obtain ⟨hw1, hps⟩ := hget
  subst hw1
  subst hps
  obtain ⟨sq2, hsq2, hsqcc, hsqcells, hne⟩ := hkeep e hlive s hs
  have hcount : ad1.mComponentCount = a'.mComponentCount := by rw [had1eq]
  have hn1 : s.mComponentCountPerEntity ≤ (t.mChunks p.mChunkIndex).mComponentCount := by
    rw [hdc, hcount, hscc]
  have hn2 : s.mComponentCountPerEntity ≤ (sq2.mChunks e.mChunkIndex).mComponentCount := by
    rw [hsqcc, hecc, hscc]
  obtain ⟨cells, hloop, hcopied, _⟩ :=
    w2.cloneComponent_spec p e t sq2 hs2 hsq2 hne _ hn1 hn2
  have M := hclose cells
  have hga : w.GetArchetype e = some s.mArchetype := by
    unfold World.GetArchetype
    rw [hs]
    rfl
  refine ⟨_, p, s.mArchetype, ?_, M, hga, hpst, ?_⟩
  · unfold World.Clone World.CloneEntity
    rw [hs]
    simp only [hga, ne_eq, not_true_eq_false, if_false, hall, hloop, Option.map_some']
  · intro T
    have hs3 := w2.storage_setStorage_same p.mStorage t (t.setCells p cells) hs2
    have ha3 : (w2.setStorage p.mStorage (t.setCells p cells)).archetype
        (t.setCells p cells).mArchetype = some ad1 := by
      unfold World.archetype
      rw [World.setStorage_manager]
      have h : (t.setCells p cells).mArchetype = s.mArchetype := htarch
      rw [h]
      exact had2
    have hkeys : ad1.mComponentMetaMap = a'.mComponentMetaMap := by rw [had1eq]
    have hidx : ∀ id, ad1.GetComponentIndex id = a'.GetComponentIndex id := by
      intro id
      unfold EntityArchetype.GetComponentIndex
      rw [had1eq]
    by_cases hT : T.typeId ∈ a'.mComponentMetaMap.keys
    · obtain ⟨j, hj, hjlt, _⟩ := a'.index_of_key hainv T.typeId hT
      rw [World.component_at _ p _ ad1 T j hs3 ha3 (by rw [hidx]; exact hj),
        w.component_at e s a' T j hs ha hj, EntityComponentStorage.cellsOf_setCells_same,
        hcopied j (by rw [hscc]; exact hjlt), hsqcells]
    · rw [World.component_none _ p _ ad1 T hs3 ha3 had1inv (by rw [hkeys]; exact hT),
        w.component_none e s a' T hs ha hainv hT]

/-- C12: for every valid record `e` of a world that satisfies the invariant, whose
storage has a chunk that is not full or fewer than `MAX_CHUNK_COUNT_PER_STORAGE`
chunks, `Clone` returns a record `c` that is valid afterwards and was not valid
before, belongs to the archetype of `e`, lies in the storage of `e` at another
chunk or block, has another identifier than `e`, and reads for every component
class what `e` reads; `e` stays valid with its identifier and its values. -/
theorem Clone_correct (w : World) (e : EntityPtr) (hinv : w.Inv) (hlive : w.Live e)
    (hroom : ∀ s, s ∈ w.storage e.mStorage →
      s.mChunkFreeHead ≠ s.mChunkCount ∨ s.mChunkCount < MAX_CHUNK_COUNT_PER_STORAGE) :
    ∃ (w1 : World) (c : EntityPtr),
      w.Clone e = some (w1, c)
      ∧ w1.Inv
      ∧ w1.Live c ∧ ¬ w.Live c ∧ w1.Live e
      ∧ w1.GetArchetype c = w.GetArchetype e
      ∧ w1.GetArchetype e = w.GetArchetype e
      ∧ c.mStorage = e.mStorage
      ∧ (c.mChunkIndex ≠ e.mChunkIndex ∨ c.mBlockIndex ≠ e.mBlockIndex)
      ∧ (∃ idc ide, w1.GetEntityID c = some idc ∧ w1.GetEntityID e = some ide
          ∧ w.GetEntityID e = some ide ∧ idc ≠ ide)
      ∧ ∀ T, w1.component c T = w.component e T ∧ w1.component e T = w.component e T := by
  obtain ⟨w1, c, pA, hclone, M, hga, hst, hcomp⟩ := w.Clone_spec e hinv hlive hroom
  have K := M.keeps e hlive
  have hne : c ≠ e := by
    intro h
    apply M.fresh
    rw [h]
    exact hlive
  obtain ⟨idc, _, hidc, _, _, hgc⟩ := World.Live.resolve M.inv M.live
  obtain ⟨ide, _, hide, _, _, hge⟩ := World.Live.resolve M.inv K.live
  refine ⟨w1, c, hclone, M.inv, M.live, M.fresh, K.live, ?_, K.archetype, hst, ?_,
    ⟨idc, ide, hidc, hide, ?_, ?_⟩, fun T => ⟨hcomp T, K.component T⟩⟩
  · rw [M.archetype, hga]
  · by_contra hcon
    apply hne
    have h1 : c.mChunkIndex = e.mChunkIndex := by
      by_contra h
      exact hcon (Or.inl h)
    have h2 : c.mBlockIndex = e.mBlockIndex := by
      by_contra h
      exact hcon (Or.inr h)
    cases c
    cases e
    simp only at hst h1 h2
    rw [hst, h1, h2]
  · rw [w.GetEntityID_eq e hinv hlive, ← K.header, ← w1.GetEntityID_eq e M.inv K.live]
    exact hide
  · intro h
    rw [h, hge] at hgc
    simp only [Lookup.found.injEq] at hgc
    exact hne hgc.symm

set_option maxRecDepth 100000 in
/-- Witness of C12: `Clone` of the record of the example world, whose storage has
one chunk with a free block. -/
theorem Clone_correct_witness :
    ∃ (w1 : World) (c : EntityPtr),
      exampleWorld.Clone exampleEntity = some (w1, c)
      ∧ w1.Inv
      ∧ w1.Live c ∧ ¬ exampleWorld.Live c ∧ w1.Live exampleEntity
      ∧ w1.GetArchetype c = exampleWorld.GetArchetype exampleEntity
      ∧ w1.GetArchetype exampleEntity = exampleWorld.GetArchetype exampleEntity
      ∧ c.mStorage = exampleEntity.mStorage
      ∧ (c.mChunkIndex ≠ exampleEntity.mChunkIndex ∨ c.mBlockIndex ≠ exampleEntity.mBlockIndex)
      ∧ (∃ idc ide, w1.GetEntityID c = some idc ∧ w1.GetEntityID exampleEntity = some ide
          ∧ exampleWorld.GetEntityID exampleEntity = some ide ∧ idc ≠ ide)
      ∧ ∀ T, w1.component c T = exampleWorld.component exampleEntity T
          ∧ w1.component exampleEntity T = exampleWorld.component exampleEntity T :=
  Clone_correct exampleWorld exampleEntity (by decide) (by decide) (by decide)

/-- C13: for every valid record `e` of a world that satisfies the invariant and
the record `c` that `Clone` of `e` returned: after `Clone` the header of `e` and
every component value of `e` are what they were, and every `SetComponent` on `c`
after it returns and leaves the header and every component value of `e` what they
were before `Clone`. -/
theorem Clone_frame (w : World) (e : EntityPtr) (w1 : World) (c : EntityPtr)
    (hinv : w.Inv) (hlive : w.Live e) (hclone : w.Clone e = some (w1, c)) :
    w1.header e = w.header e
      ∧ (∀ T, w1.component e T = w.component e T)
      ∧ ∀ T v, ∃ w2 b, w1.SetComponent c T v = some (w2, b)
          ∧ w2.header e = w.header e
          ∧ ∀ U, w2.component e U = w.component e U := by
  have hroom : ∀ s, s ∈ w.storage e.mStorage →
      s.mChunkFreeHead ≠ s.mChunkCount ∨ s.mChunkCount < MAX_CHUNK_COUNT_PER_STORAGE := by
    intro s hs
    simp only [Option.mem_def] at hs
    obtain ⟨_, _, _, _, _, hsinv, _⟩ := World.storage_path hinv hlive.1 hs
    have h := hclone
    unfold World.Clone World.CloneEntity World.Allocate at h
    rw [hs] at h
    simp only at h
    split at h
    · cases h
    · cases ha : w.archetype s.mArchetype with
      | none =>
        rw [ha] at h
        cases h
      | some a =>
        rw [ha] at h
        simp only at h
        cases hal : s.Allocate a false with
        | none =>
          rw [hal] at h
          cases h
        | some r => exact s.room_of_Allocate a false r hsinv hal
  obtain ⟨w1', c', pA, hclone', M, _, _, _⟩ := w.Clone_spec e hinv hlive hroom
  rw [hclone] at hclone'
  simp only [Option.some.injEq, Prod.mk.injEq] at hclone'
  obtain ⟨hw, hc⟩ := hclone'
  subst hw
  subst hc
  have K := M.keeps e hlive
  have hne : e ≠ c := by
    intro h
    apply M.fresh
    rw [← h]
    exact hlive
  refine ⟨K.header, K.component, ?_⟩
  intro T v
  obtain ⟨w2, b, hset, _, hhdr, _, _, hframe⟩ := w1.SetComponent_frame c T v M.inv M.live
  refine ⟨w2, b, hset, ?_, ?_⟩
  · rw [hhdr, K.header]
  · intro U
    rw [hframe e hne U, K.component]

set_option maxRecDepth 100000 in
/-- Witness of C13: `Clone` of the record of the example world. -/
theorem Clone_frame_witness :
    exampleClone.1.header exampleEntity = exampleWorld.header exampleEntity
      ∧ (∀ T, exampleClone.1.component exampleEntity T = exampleWorld.component exampleEntity T)
      ∧ ∀ T v, ∃ w2 b, exampleClone.1.SetComponent exampleClone.2 T v = some (w2, b)
          ∧ w2.header exampleEntity = exampleWorld.header exampleEntity
          ∧ ∀ U, w2.component exampleEntity U = exampleWorld.component exampleEntity U :=
  Clone_frame exampleWorld exampleEntity exampleClone.1 exampleClone.2 (by decide) (by decide)
    (eq_some_getD _ (World.new, exampleEntity) (by decide))

/-- The chunk `fullChunk i` satisfies the chunk invariant. -/
theorem fullChunk_Inv (i : Nat) : (fullChunk i).Inv := by
  have hfree : (fullChunk i).freeBlocks = [] := linkChain_stop _ _ _
  have hle : (fullChunk i).mBlockCount ≤ MAX_ENTITY_COUNT_PER_CHUNK := by
    show 2 ≤ MAX_ENTITY_COUNT_PER_CHUNK
    decide
  unfold EntityComponentChunk.Inv
  rw [hfree]
  refine ⟨rfl, hle, ?_, by simp, List.nodup_nil, by simp, ?_, rfl⟩
  · intro b hb
    have hb2 : b < 2 := hb
    simp [fullChunk, hb2]
  · intro b hb
    have hb2 : b < 2 := hb
    simp [fullChunk, hb2]

/-- The storage `fullStorage` satisfies the storage invariant. -/
theorem fullStorage_Inv : fullStorage.Inv := by
  have hfree : fullStorage.freeChunks = [] := linkChain_stop _ _ _
  unfold EntityComponentStorage.Inv
  rw [hfree]
  refine ⟨by decide, by decide, by decide, ?_, by simp, List.nodup_nil, by simp, ?_⟩
  · intro i hi
    have hi2 : i < 32768 := hi
    have hc : fullStorage.mChunks i = fullChunk i := by
      simp [fullStorage, hi2]
    rw [hc]
    exact ⟨fullChunk_Inv i, rfl, rfl, rfl, rfl, rfl⟩
  · intro i hi
    have hi2 : i < 32768 := hi
    have hc : fullStorage.mChunks i = fullChunk i := by
      simp [fullStorage, hi2]
    rw [hc]
    simp [EntityComponentChunk.IsFull, fullChunk]

set_option maxRecDepth 100000 in
/-- The world `fullWorld` satisfies the invariant. -/
theorem fullWorld_Inv : fullWorld.Inv :=
  World.Inv_setStorage exampleWorld { mContext := 0, mIndex := 0 }
    ((exampleWorld.storage { mContext := 0, mIndex := 0 }).getD fullStorage) fullStorage
    (by decide) (eq_some_getD _ _ (by decide)) fullStorage_Inv (by decide) (by decide)
    (by decide) (by decide)

set_option maxRecDepth 100000 in
/-- C12 (counterexample): in the world `fullWorld`, which satisfies the invariant,
the storage of the valid record `exampleEntity` has `MAX_CHUNK_COUNT_PER_STORAGE`
chunks, its chunk array has 32768 cells and no chunk has a free block. `Clone` of
the record returns nothing: `IncreaseCapacity` doubles the `uint16_t` capacity to
0, and the chunk `mChunks[32768]`, which `Allocate` goes on to construct, lies
past the chunk array. -/
theorem Clone_full :
    fullWorld.Inv
      ∧ fullWorld.Live exampleEntity
      ∧ (∀ s, s ∈ fullWorld.storage exampleEntity.mStorage →
          s.mChunkCount = MAX_CHUNK_COUNT_PER_STORAGE
            ∧ s.mChunkFreeHead = s.mChunkCount
            ∧ s.mChunkArrayCapacity = 32768
            ∧ s.IncreaseCapacity.mChunkArrayCapacity = 0)
      ∧ fullWorld.Clone exampleEntity = none := by
  refine ⟨fullWorld_Inv, by decide, by decide, ?_⟩
  have h : (fullWorld.Clone exampleEntity).isSome = false := by decide
  cases hc : fullWorld.Clone exampleEntity with
  | none => rfl
  | some r =>
    rw [hc] at h
    cases h
/-! ## `CreateEntity` -/

/-- An entry of the component map of an archetype has an index, and the archetype
stores the constructor of the entry at that index. -/
theorem EntityArchetype.constructor_of_entry (a : EntityArchetype) (hinv : a.Inv) (k : Nat)
    (m : ComponentMeta) (h : (k, m) ∈ a.mComponentMetaMap) :
    ∃ j : Nat, a.GetComponentIndex k = (j : Int) ∧ j < a.mComponentCount
      ∧ a.mComponentTypeIds j = k ∧ a.mComponentConstructors j = some m.constructor := by
  obtain ⟨j, hj, hget⟩ := List.getElem_of_mem h
  have hentry : a.mComponentMetaMap[j]? = some (k, m) := by
    rw [List.getElem?_eq_getElem hj, hget]
  have hkey : a.mComponentMetaMap.keys[j]? = some k := by
    unfold ComponentMetaMap.keys
    rw [List.getElem?_map, hentry]
    rfl
  have hidx := a.GetComponentIndex_of_key hinv j k hkey
  obtain ⟨hcount, _, _, _, hent⟩ := hinv
  obtain ⟨_, _, h3, _, _, _, h7⟩ := hent j hj (k, m) hentry
  exact ⟨j, hidx, by omega, h3, h7⟩

/-- The component objects a created record reads, for component objects `cells`
written into a record `p` of the archetype `ad`. -/
theorem World.created_components (w4 w5 : World) (p : EntityPtr) (t : EntityComponentStorage)
    (ad : EntityArchetype) (cells : Nat → Option Value)
    (hs4 : w4.storage p.mStorage = some (t.setCells p cells))
    (ha4 : w4.archetype t.mArchetype = some ad)
    (hm5 : w5.mArchetypeManager = w4.mArchetypeManager)
    (hst5 : ∀ q, w5.storage q = w4.storage q) (hadinv : ad.Inv) :
    (∀ T (j : Nat), ad.GetComponentIndex T.typeId = (j : Int) → w5.component p T = cells j)
      ∧ ∀ T, T.typeId ∉ ad.mComponentMetaMap.keys → w5.component p T = none := by
  have ha4' : w4.archetype (t.setCells p cells).mArchetype = some ad := ha4
  constructor
  · intro T j hj
    rw [(w4.component_congr w5 p T (hst5 _) hm5).2,
      w4.component_at p _ ad T j hs4 ha4' hj, EntityComponentStorage.cellsOf_setCells_same]
  · intro T hT
    rw [(w4.component_congr w5 p T (hst5 _) hm5).2,
      w4.component_none p _ ad T hs4 ha4' hadinv hT]

/-- `CreateEntity(pArchetype, args...)` for an archetype of the catalog, arguments
of pairwise different type ids and a context with room in which no callback is
subscribed to the creation event: it returns a record of the archetype that was not
valid before; a component whose class has an argument holds
the value of the argument, every other component holds the value its stored
constructor builds, and the rest of the world is kept. -/
theorem World.CreateEntityWith_spec (w : World) (pContext pA : Nat)
    (args : List (ComponentType × Value)) (c : EntityContext) (a : EntityArchetype)
    (hinv : w.Inv) (hctx : pContext < MAX_CONTEXT_COUNT)
    (hc : w.mEntityContexts pContext = some c) (ha : w.archetype pA = some a)
    (hnd : (args.map (fun x => x.1.typeId)).Nodup) (hroom : w.RoomAt pContext pA)
    (hq : w.callbacks pContext CreateEntityEvent.type_id = []) :
    ∃ (w1 : World) (p : EntityPtr),
      w.CreateEntityWith pContext pA args = some (w1, p)
      ∧ World.Migrated w pContext pA w1 p
      ∧ (∀ T v, (T, v) ∈ args → T.typeId ∈ a.mComponentMetaMap.keys →
          w1.component p T = some v)
      ∧ (∀ T m, (T.typeId, m) ∈ a.mComponentMetaMap →
          T.typeId ∉ args.map (fun x => x.1.typeId) → w1.component p T = some m.constructor)
      ∧ ∀ T, T.typeId ∉ a.mComponentMetaMap.keys → w1.component p T = none := by
  obtain ⟨hroom1, hroom2⟩ := hroom c hc a ha
  obtain ⟨w1, ps, w2, t, p, ad1, hget, hall, _, had1, hpst, hs2, htarch, had2, had1eq, had1inv,
    hdc, _, _, _, hclose⟩ := w.place_spec pContext pA c a hinv hctx hc ha hroom1 hroom2
  have hmap : ad1.mComponentMetaMap = a.mComponentMetaMap := by rw [had1eq]
  obtain ⟨cells1, hfold, hmiss, hrest⟩ :=
    w2.constructMissing_spec p t ad1 (args.map Prod.fst) hs2 ad1.mComponentCount (by omega)
  have hs3 := w2.storage_setStorage_same p.mStorage t (t.setCells p cells1) hs2
  have ha3 : (w2.setStorage p.mStorage (t.setCells p cells1)).archetype
      (t.setCells p cells1).mArchetype = some ad1 := by
    unfold World.archetype
    rw [World.setStorage_manager]
    have h : (t.setCells p cells1).mArchetype = pA := htarch
    rw [h]
    exact had2
  obtain ⟨cells2, hcons, hgiven, hother⟩ :=
    World.ConstructEntity_spec p ad1 args _ _ hs3 ha3 hnd
  rw [World.setStorage_setStorage, EntityComponentStorage.setCells_setCells] at hcons
  have M := hclose cells2
  obtain ⟨w5, hev, M5, hm5, hst5⟩ := M.created (by rw [hc]; rfl) hq
  have hs4 := w2.storage_setStorage_same p.mStorage t (t.setCells p cells2) hs2
  have ha4 : (w2.setStorage p.mStorage (t.setCells p cells2)).archetype t.mArchetype
      = some ad1 := by
    unfold World.archetype
    rw [World.setStorage_manager, htarch]
    exact had2
  obtain ⟨hread, hnull⟩ := World.created_components _ w5 p t ad1 cells2 hs4 ha4 hm5 hst5 had1inv
  have hids : List.map ComponentType.typeId (args.map Prod.fst)
      = args.map (fun x => x.1.typeId) := by
    rw [List.map_map]
    rfl
  refine ⟨w5, p, ?_, M5, ?_, ?_, ?_⟩
  · unfold World.CreateEntityWith
    simp only [hget, hall, had1, hfold, hcons, hev, Option.map_some']
  · intro T v hTv hT
    rw [← hmap] at hT
    obtain ⟨j, hj, _, _⟩ := ad1.index_of_key had1inv T.typeId hT
    rw [hread T j hj]
    exact hgiven T v hTv j hj
  · intro T m hTm hT
    rw [← hmap] at hTm
    obtain ⟨j, hj, hjlt, hjid, hjcon⟩ := ad1.constructor_of_entry had1inv T.typeId m hTm
    rw [hread T j hj, ← hjcon]
    have hne : ∀ T2 v2, (T2, v2) ∈ args → ad1.GetComponentIndex T2.typeId ≠ (j : Int) := by
      intro T2 v2 h2 hidx
      apply hT
      have h3 := (LinearComponentIndexTable.Get_eq _ T2.typeId j hidx).2
      have h4 := (LinearComponentIndexTable.Get_eq _ T.typeId j hj).2
      rw [← h4, h3]
      exact List.mem_map.mpr ⟨(T2, v2), h2, rfl⟩
    rw [hother j hne, EntityComponentStorage.cellsOf_setCells_same]
    apply hmiss j hjlt
    rw [hjid, hids]
    exact hT
  · intro T hT
    rw [← hmap] at hT
    exact hnull T hT

/-- `CreateEntity(pArchetype)` for an archetype of the catalog and a context with
room in which no callback is subscribed to the creation event: it returns a record of the archetype that was not valid before, every
component holds the value its stored constructor builds, and the rest of the world
is kept. -/
theorem World.CreateEntity_spec (w : World) (pContext pA : Nat) (c : EntityContext)
    (a : EntityArchetype) (hinv : w.Inv) (hctx : pContext < MAX_CONTEXT_COUNT)
    (hc : w.mEntityContexts pContext = some c) (ha : w.archetype pA = some a)
    (hroom : w.RoomAt pContext pA)
    (hq : w.callbacks pContext CreateEntityEvent.type_id = []) :
    ∃ (w1 : World) (p : EntityPtr),
      w.CreateEntity pContext pA = some (w1, p)
      ∧ World.Migrated w pContext pA w1 p
      ∧ (∀ T m, (T.typeId, m) ∈ a.mComponentMetaMap → w1.component p T = some m.constructor)
      ∧ ∀ T, T.typeId ∉ a.mComponentMetaMap.keys → w1.component p T = none := by
  obtain ⟨hroom1, hroom2⟩ := hroom c hc a ha
  obtain ⟨w1, ps, w2, t, p, ad1, hget, _, _, had1, hpst, hs2, htarch, had2, had1eq, had1inv,
    hdc, _, _, hall, hclose⟩ := w.place_spec pContext pA c a hinv hctx hc ha hroom1 hroom2
  have hmap : ad1.mComponentMetaMap = a.mComponentMetaMap := by rw [had1eq]
  have M := hclose (t.constructed ad1 p)
  obtain ⟨w5, hev, M5, hm5, hst5⟩ := M.created (by rw [hc]; rfl) hq
  have hs4 := w2.storage_setStorage_same p.mStorage t (t.setCells p (t.constructed ad1 p)) hs2
  have ha4 : (w2.setStorage p.mStorage (t.setCells p (t.constructed ad1 p))).archetype
      t.mArchetype = some ad1 := by
    unfold World.archetype
    rw [World.setStorage_manager, htarch]
    exact had2
  obtain ⟨hread, hnull⟩ :=
    World.created_components _ w5 p t ad1 _ hs4 ha4 hm5 hst5 had1inv
  refine ⟨w5, p, ?_, M5, ?_, ?_⟩
  · unfold World.CreateEntity
    simp only [hget, hall, hev, Option.map_some']
  · intro T m hTm
    rw [← hmap] at hTm
    obtain ⟨j, hj, hjlt, _, hjcon⟩ := ad1.constructor_of_entry had1inv T.typeId m hTm
    rw [hread T j hj, ← hjcon]
    unfold EntityComponentStorage.constructed
    rw [hdc, if_pos hjlt]
  · intro T hT
    rw [← hmap] at hT
    exact hnull T hT

/-- C14 (amended): for every world that satisfies the invariant, every context of
it, every archetype `A` of its catalog and all arguments of pairwise different type
ids, if the context has room for a record of `A` and no callback is subscribed to
`CreateEntityEvent` in the context: `CreateEntity(A, args...)` returns a
record that is valid, was not valid before and belongs to `A`, in which the
component of a class with an argument holds the value of the argument and every
other component of `A` holds the value the constructor of its entry builds;
`CreateEntity(A)` returns such a record in which every component of `A` holds the
value the constructor of its entry builds. In both cases the invariant is kept, the
record has no component for a class outside `A`, and every record that was valid
reads as before. -/
theorem CreateEntity_correct (w : World) (pContext pA : Nat)
    (args : List (ComponentType × Value)) (a : EntityArchetype) (hinv : w.Inv)
    (hctx : pContext < MAX_CONTEXT_COUNT) (hc : (w.mEntityContexts pContext).isSome = true)
    (ha : w.archetype pA = some a) (hnd : (args.map (fun x => x.1.typeId)).Nodup)
    (hroom : w.RoomAt pContext pA)
    (hquiet : w.callbacks pContext CreateEntityEvent.type_id = []) :
    (∃ (w1 : World) (p : EntityPtr),
        w.CreateEntityWith pContext pA args = some (w1, p)
        ∧ w1.Inv ∧ w1.Live p ∧ ¬ w.Live p
        ∧ w1.GetArchetype p = some pA
        ∧ (∃ a1, w1.archetype pA = some a1 ∧ a1.mComponentMetaMap = a.mComponentMetaMap)
        ∧ (∀ T v, (T, v) ∈ args → T.typeId ∈ a.mComponentMetaMap.keys →
            w1.component p T = some v)
        ∧ (∀ T m, (T.typeId, m) ∈ a.mComponentMetaMap →
            T.typeId ∉ args.map (fun x => x.1.typeId) →
            w1.component p T = some m.constructor)
        ∧ (∀ T, T.typeId ∉ a.mComponentMetaMap.keys → w1.GetComponent p T = some none)
        ∧ ∀ q, w.Live q → World.Keeps w w1 q)
      ∧ ∃ (w1 : World) (p : EntityPtr),
        w.CreateEntity pContext pA = some (w1, p)
        ∧ w1.Inv ∧ w1.Live p ∧ ¬ w.Live p
        ∧ w1.GetArchetype p = some pA
        ∧ (∃ a1, w1.archetype pA = some a1 ∧ a1.mComponentMetaMap = a.mComponentMetaMap)
        ∧ (∀ T m, (T.typeId, m) ∈ a.mComponentMetaMap →
            w1.component p T = some m.constructor)
        ∧ (∀ T, T.typeId ∉ a.mComponentMetaMap.keys → w1.GetComponent p T = some none)
        ∧ ∀ q, w.Live q → World.Keeps w w1 q := by
  obtain ⟨c, hc'⟩ := Option.isSome_iff_exists.mp hc
  have hnull : ∀ (w1 : World) (p : EntityPtr), World.Migrated w pContext pA w1 p →
      (∃ a1, w1.archetype pA = some a1 ∧ a1.mComponentMetaMap = a.mComponentMetaMap)
        ∧ ∀ T, T.typeId ∉ a.mComponentMetaMap.keys → w1.GetComponent p T = some none := by
    intro w1 p M
    obtain ⟨a1, ha1, ha1eq⟩ := M.objects pA a ha
    have hmap : a1.mComponentMetaMap = a.mComponentMetaMap := by rw [ha1eq]
    refine ⟨⟨a1, ha1, hmap⟩, ?_⟩
    intro T hT
    obtain ⟨s, a2, hs, ha2, ha2inv, hsrc, _⟩ := World.Live.source M.inv M.live
    have hga := M.archetype
    unfold World.GetArchetype at hga
    rw [hs] at hga
    simp only [Option.map_some', Option.some.injEq] at hga
    rw [hga, ha1] at ha2
    cases ha2
    rw [← hmap] at hT
    rw [w1.GetComponent_eq p s a1 T hs (by rw [hga]; exact ha1),
      a1.GetComponentIndex_of_not_key ha2inv T.typeId hT]
    rfl
  constructor
  · obtain ⟨w1, p, hcall, M, h1, h2, _⟩ :=
      w.CreateEntityWith_spec pContext pA args c a hinv hctx hc' ha hnd hroom hquiet
    obtain ⟨g1, g2⟩ := hnull w1 p M
    exact ⟨w1, p, hcall, M.inv, M.live, M.fresh, M.archetype, g1, h1, h2, g2, M.keeps⟩
  · obtain ⟨w1, p, hcall, M, h1, _⟩ := w.CreateEntity_spec pContext pA c a hinv hctx hc' ha hroom
      hquiet
    obtain ⟨g1, g2⟩ := hnull w1 p M
    exact ⟨w1, p, hcall, M.inv, M.live, M.fresh, M.archetype, g1, h1, g2, M.keeps⟩

set_option maxRecDepth 100000 in
/-- Witness of C14: `CreateEntity` with a value for `Terrain`, and without values,
in the example world, whose storage of the archetype of `Terrain` has a free
block. -/
theorem CreateEntity_correct_witness :
    (∃ (w1 : World) (p : EntityPtr),
        exampleWorld.CreateEntityWith 0 0 [(Terrain, 7)] = some (w1, p)
        ∧ w1.Inv ∧ w1.Live p ∧ ¬ exampleWorld.Live p
        ∧ w1.GetArchetype p = some 0
        ∧ (∃ a1, w1.archetype 0 = some a1
            ∧ a1.mComponentMetaMap = exampleSource.mComponentMetaMap)
        ∧ (∀ T v, (T, v) ∈ [(Terrain, 7)] → T.typeId ∈ exampleSource.mComponentMetaMap.keys →
            w1.component p T = some v)
        ∧ (∀ T m, (T.typeId, m) ∈ exampleSource.mComponentMetaMap →
            T.typeId ∉ [(Terrain, 7)].map (fun x => x.1.typeId) →
            w1.component p T = some m.constructor)
        ∧ (∀ T, T.typeId ∉ exampleSource.mComponentMetaMap.keys →
            w1.GetComponent p T = some none)
        ∧ ∀ q, exampleWorld.Live q → World.Keeps exampleWorld w1 q)
      ∧ ∃ (w1 : World) (p : EntityPtr),
        exampleWorld.CreateEntity 0 0 = some (w1, p)
        ∧ w1.Inv ∧ w1.Live p ∧ ¬ exampleWorld.Live p
        ∧ w1.GetArchetype p = some 0
        ∧ (∃ a1, w1.archetype 0 = some a1
            ∧ a1.mComponentMetaMap = exampleSource.mComponentMetaMap)
        ∧ (∀ T m, (T.typeId, m) ∈ exampleSource.mComponentMetaMap →
            w1.component p T = some m.constructor)
        ∧ (∀ T, T.typeId ∉ exampleSource.mComponentMetaMap.keys →
            w1.GetComponent p T = some none)
        ∧ ∀ q, exampleWorld.Live q → World.Keeps exampleWorld w1 q :=
  CreateEntity_correct exampleWorld 0 0 [(Terrain, 7)] exampleSource (by decide) (by decide)
    (by decide) (eq_some_getD _ _ (by decide)) (by decide) (by decide)
    (List.eq_nil_of_length_eq_zero (by decide))

set_option maxRecDepth 100000 in
/-- C14 (counterexamples): first, a block of the archetype of `Atlas`, a class of
40 MiB, takes more than half of `MAX_STORAGE_CHUNK_SIZE`, so the storage of the
archetype gets `mEntityCountPerChunk = 64 MiB / block size - 1 = 0`. In a world with
one context and that archetype, which satisfies the invariant, the first chunk has
no block, and neither `CreateEntity(A)` nor `CreateEntity(A, value)` returns a
record. Second, in the example world after `SetEventManager` and `Subscrible` of a
callback that assigns 99 to the `Terrain` of the record of a `CreateEntityEvent`,
`CreateEntity` of the archetype of `Terrain` with the value 7 returns a record whose
`Terrain` reads 99, and so does `CreateEntity` without a value, the default value
being 5. -/
theorem CreateEntity_diverges :
    (atlasSetup.map Prod.snd = some 0
      ∧ atlasWorld.Inv
      ∧ (atlasWorld.mEntityContexts 0).isSome = true
      ∧ (∀ a, a ∈ atlasWorld.archetype 0 →
          a.mComponentMetaMap.keys = [Atlas.typeId]
            ∧ MAX_STORAGE_CHUNK_SIZE / EntityComponentChunk.CalculateBlockSize a = 1)
      ∧ (∀ r, r ∈ atlasWorld.GetEntityComponentStorage 0 0 →
          ∀ s, s ∈ r.1.storage r.2 → s.mEntityCountPerChunk = 0)
      ∧ atlasWorld.CreateEntity 0 0 = none
      ∧ atlasWorld.CreateEntityWith 0 0 [(Atlas, 1)] = none)
    ∧ (World.run
          [WorldOp.setEventManager 0 (some EventManager.new),
            WorldOp.subscrible 0 CreateEntityEvent.type_id 1 overwriteTerrain]
          exampleWorld).isSome = true
      ∧ (subscribedWorld.callbacks 0 CreateEntityEvent.type_id).length = 1
      ∧ subscribedWorld.Inv
      ∧ (∀ a, a ∈ subscribedWorld.archetype 0 →
          a.mComponentMetaMap.keys = [Terrain.typeId])
      ∧ Terrain.defaultValue = 5
      ∧ (subscribedWorld.CreateEntityWith 0 0 [(Terrain, 7)]).bind
          (fun r => r.1.component r.2 Terrain) = some 99
      ∧ (subscribedWorld.CreateEntity 0 0).bind
          (fun r => r.1.component r.2 Terrain) = some 99 := by
  have h1 : (atlasWorld.CreateEntity 0 0).isSome = false := by decide
  have h2 : (atlasWorld.CreateEntityWith 0 0 [(Atlas, 1)]).isSome = false := by decide
  refine ⟨⟨by decide, by decide, by decide, by decide, by decide, ?_, ?_⟩, by decide,
    by decide, by decide, by decide, by decide, by decide, by decide⟩
  · cases hc : atlasWorld.CreateEntity 0 0 with
    | none => rfl
    | some r =>
      rw [hc] at h1
      cases h1
  · cases hc : atlasWorld.CreateEntityWith 0 0 [(Atlas, 1)] with
    | none => rfl
    | some r =>
      rw [hc] at h2
      cases h2
/-! ## Callbacks and `Release` -/

/-- The world after an event manager took note of an event: the invariant is kept,
and the catalog and every storage are unchanged. -/
theorem World.noteEvent_spec (w : World) (pContext : Nat) (c : EntityContext)
    (em : EventManager) (evt : EntityEvent) (hinv : w.Inv)
    (hc : w.mEntityContexts pContext = some c) :
    (w.noteEvent pContext c em evt).Inv
      ∧ (w.noteEvent pContext c em evt).mArchetypeManager = w.mArchetypeManager
      ∧ ∀ q, (w.noteEvent pContext c em evt).storage q = w.storage q := by
  have hst : ∀ q, (w.noteEvent pContext c em evt).storage q = w.storage q := by
    intro q
    unfold World.storage World.noteEvent
    by_cases hq : q.mContext = pContext
    · simp [hq, hc]
    · simp [setAt, hq]
  refine ⟨?_, rfl, hst⟩
  refine World.Inv_of_event w _ pContext c
    (some { em with triggered := em.triggered ++ [evt] }) hinv rfl hc ?_ ?_ hst
  · simp [World.noteEvent]
  · intro i hi
    simp [World.noteEvent, setAt, hi]

/-- The assignments of a callback to the components of a valid record, in a world
that satisfies the invariant: they return, the invariant is kept, no header
changes, and no other record reads another value. -/
theorem World.assign_frame (p : EntityPtr) (l : List (ComponentType × Value)) :
    ∀ (w : World), w.Inv → w.Live p →
      ∃ w1, w.assign p l = some w1 ∧ w1.Inv
        ∧ (∀ q, w1.header q = w.header q)
        ∧ (∀ q, w1.Live q ↔ w.Live q)
        ∧ ∀ q, q ≠ p → ∀ U, w1.component q U = w.component q U := by
  induction l with
  | nil =>
    intro w hinv _
    exact ⟨w, rfl, hinv, fun _ => rfl, fun _ => Iff.rfl, fun _ _ _ => rfl⟩
  | cons x rest ih =>
    intro w hinv hlive
    obtain ⟨T, data⟩ := x
    obtain ⟨w1, b, hset, hinv1, hhdr1, hlive1, _, hcomp1⟩ :=
      w.SetComponent_frame p T data hinv hlive
    obtain ⟨w2, hrest, hinv2, hhdr2, hlive2, hcomp2⟩ := ih w1 hinv1 ((hlive1 p).mpr hlive)
    refine ⟨w2, ?_, hinv2, ?_, ?_, ?_⟩
    · simp only [World.assign, hset]
      exact hrest
    · intro q
      rw [hhdr2, hhdr1]
    · intro q
      rw [hlive2, hlive1]
    · intro q hq U
      rw [hcomp2 q hq, hcomp1 q hq]

/-- The callbacks of an event for a valid record, in a world that satisfies the
invariant: all of them return, the invariant is kept, no header changes, and no
other record reads another value. -/
theorem World.invoke_frame (p : EntityPtr) (l : EventCallbackList) :
    ∀ (w : World), w.Inv → w.Live p →
      ∃ w1, List.foldl (World.invoke p) (some w) l = some w1 ∧ w1.Inv
        ∧ (∀ q, w1.header q = w.header q)
        ∧ (∀ q, w1.Live q ↔ w.Live q)
        ∧ ∀ q, q ≠ p → ∀ U, w1.component q U = w.component q U := by
  induction l with
  | nil =>
    intro w hinv _
    exact ⟨w, rfl, hinv, fun _ => rfl, fun _ => Iff.rfl, fun _ _ _ => rfl⟩
  | cons it rest ih =>
    intro w hinv hlive
    obtain ⟨s, hs⟩ : ∃ s, w.storage p.mStorage = some s := by
      obtain ⟨_, s, hs, _⟩ := hlive
      exact ⟨s, hs⟩
    have hh : w.header p = some (s.header p) := by
      unfold World.header
      rw [hs]
      rfl
    obtain ⟨w1, hcall, hinv1, hhdr1, hlive1, hcomp1⟩ :=
      World.assign_frame p (it.callback (s.header p) (fun T => w.component p T)) w hinv hlive
    obtain ⟨w2, hrest, hinv2, hhdr2, hlive2, hcomp2⟩ := ih w1 hinv1 ((hlive1 p).mpr hlive)
    refine ⟨w2, ?_, hinv2, ?_, ?_, ?_⟩
    · rw [List.foldl_cons]
      simp only [World.invoke, hh, hcall]
      exact hrest
    · intro q
      rw [hhdr2, hhdr1]
    · intro q
      rw [hlive2, hlive1]
    · intro q hq U
      rw [hcomp2 q hq, hcomp1 q hq]

/-- `TriggerEvent` for an event with a valid record, on an existing context of a
world that satisfies the invariant: it returns whatever callbacks are subscribed,
the invariant is kept, no header changes, and no other record reads another
value. -/
theorem World.TriggerEvent_frame (w : World) (pContext : Nat) (evt : EntityEvent)
    (c : EntityContext) (hinv : w.Inv) (hc : w.mEntityContexts pContext = some c)
    (hlive : w.Live evt.pEntity) :
    ∃ w1, w.TriggerEvent pContext evt = some w1 ∧ w1.Inv
      ∧ (∀ q, w1.header q = w.header q)
      ∧ (∀ q, w1.Live q ↔ w.Live q)
      ∧ ∀ q, q ≠ evt.pEntity → ∀ U, w1.component q U = w.component q U := by
  unfold World.TriggerEvent
  simp only [hc]
  cases hem : c.mEventManager with
  | none => exact ⟨w, rfl, hinv, fun _ => rfl, fun _ => Iff.rfl, fun _ _ _ => rfl⟩
  | some em =>
    obtain ⟨hinv0, hm0, hst0⟩ := w.noteEvent_spec pContext c em evt hinv hc
    have hhdr0 : ∀ q, (w.noteEvent pContext c em evt).header q = w.header q := by
      intro q
      unfold World.header
      rw [hst0]
    have hlive0 : ∀ q, (w.noteEvent pContext c em evt).Live q ↔ w.Live q := by
      intro q
      unfold World.Live
      rw [hst0]
    have hcomp0 : ∀ q U, (w.noteEvent pContext c em evt).component q U = w.component q U :=
      fun q U => (w.component_congr _ q U (hst0 _) hm0).2
    obtain ⟨w1, hcall, hinv1, hhdr1, hlive1, hcomp1⟩ :=
      World.invoke_frame evt.pEntity (em.callbacks evt.type_id) _ hinv0
        ((hlive0 _).mpr hlive)
    refine ⟨w1, hcall, hinv1, ?_, ?_, ?_⟩
    · intro q
      rw [hhdr1, hhdr0]
    · intro q
      rw [hlive1, hlive0]
    · intro q hq U
      rw [hcomp1 q hq, hcomp0]

/-- `Release` of a valid record of a world that satisfies the invariant, whatever
callbacks are subscribed to the deletion event: it returns, the record is no longer
valid afterwards, and its context and the world resolve the identifier it had to
null. -/
theorem World.Release_spec (w : World) (p : EntityPtr) (hinv : w.Inv) (hlive : w.Live p) :
    ∃ eid w1 c1, w.GetEntityID p = some eid
      ∧ w.Release p = some w1
      ∧ w1.IsValid p = some false
      ∧ w1.mEntityContexts p.mStorage.mContext = some c1
      ∧ c1.GetEntity eid = Lookup.null
      ∧ w1.GetEntity eid = Lookup.null := by
  obtain ⟨c0, s0, hc0, _, hws0, _, _, _, _, hst0, _, _, hv0⟩ := World.Live.path hinv hlive
  obtain ⟨wt, hwt, hinvt, hhdrt, hlivet, _⟩ :=
    w.TriggerEvent_frame p.mStorage.mContext (EntityEvent.deleted p (s0.header p)) c0 hinv hc0
      hlive
  have hlive1 : wt.Live p := (hlivet p).mpr hlive
  have hid0 : w.GetEntityID p = wt.GetEntityID p := by
    rw [w.GetEntityID_eq p hinv hlive, wt.GetEntityID_eq p hinvt hlive1, hhdrt]
  rw [hid0]
  obtain ⟨eid, c0', hid, hc0', hget0, _⟩ := World.Live.resolve hinvt hlive1
  obtain ⟨c, s, hc, hs, hws, hcid, hctx, hidx, hlen, hst, hch, hbl, hv⟩ :=
    World.Live.path hinvt hlive1
  obtain ⟨hsinv, hsctx, hsidx, _⟩ := hst
  obtain ⟨_, _, _, hchunks, _⟩ := hsinv
  obtain ⟨_, hcid2, _, _, _, _⟩ := hchunks _ hch
  obtain ⟨chunk, fl, fh, hcd, hsd⟩ := s.Deallocate_eq p true hcid2.symm
  obtain ⟨bufs, hcd2⟩ := (s.mChunks p.mChunkIndex).Deallocate_chunk_eq p true hcid2.symm
  rw [hcd2] at hcd
  have hrel : w.Release p = some (wt.setStorage p.mStorage
      { s with mChunks := setAt s.mChunks p.mChunkIndex chunk
               mChunkFreeList := fl, mChunkFreeHead := fh }) := by
    unfold World.Release
    rw [hws0]
    simp only [hv0, Bool.not_true, Bool.false_eq_true, if_false, World.OnEntityDeleted,
      World.header, hws0, Option.map_some', hst0.2.1, hwt, hws, hsd]
  have hst1 := World.storage_setStorage_same wt p.mStorage s
    { s with mChunks := setAt s.mChunks p.mChunkIndex chunk
             mChunkFreeList := fl, mChunkFreeHead := fh } hws
  have hctx1 := World.setStorage_contexts_same wt p.mStorage
    { s with mChunks := setAt s.mChunks p.mChunkIndex chunk
             mChunkFreeList := fl, mChunkFreeHead := fh } _ hc
  have hchunk : chunk.mEntitiesBuffer p.mBlockIndex
      = { (s.mChunks p.mChunkIndex).mEntitiesBuffer p.mBlockIndex with mValid := false } := by
    cases hcd
    simp
  have hbc : chunk.mBlockCount = (s.mChunks p.mChunkIndex).mBlockCount := by
    cases hcd
    rfl
  have hpk : ParseEntityID eid
        = { genid := (s.header p).mGenID, contextId := p.mStorage.mContext,
            storageIndex := p.mStorage.mIndex, chunkIndex := p.mChunkIndex,
            blockIndex := p.mBlockIndex }
      ∧ ExtractContextIdFromEntityID eid = p.mStorage.mContext := by
    have hid2 := hid
    unfold World.GetEntityID at hid2
    rw [hws] at hid2
    simp only [hsctx, hc, hcid, hsidx, Option.some.injEq] at hid2
    rw [← hid2]
    obtain ⟨hsinv, _, _, _⟩ := (hinvt.2.2 _ hctx c hc).2.2 _ hidx s hs
    obtain ⟨hcap, hcnt, _, hchunks, _⟩ := hsinv
    obtain ⟨hcinv, _⟩ := hchunks _ hch
    obtain ⟨_, hbc0, hhdr, _⟩ := hcinv
    have hcap2 : s.mChunkArrayCapacity ≤ 32768 := by
      simp only [List.mem_cons, List.mem_singleton, List.not_mem_nil, or_false] at hcap
      omega
    have h1024 : MAX_STORAGE_COUNT_PER_CONTEXT = 1024 := by decide
    have h1024b : MAX_ENTITY_COUNT_PER_CHUNK = 1024 := by decide
    have h256 : MAX_CONTEXT_COUNT = 256 := by decide
    exact ParseEntityID_pack _ _ _ _ _ (hhdr _ hbl).2.2.2 (by omega) (by omega)
      (by omega) (by omega)
  have hnull : EntityContext.GetEntity
      { c with
        mEntityComponentStorageList := c.mEntityComponentStorageList.set p.mStorage.mIndex
          { s with mChunks := setAt s.mChunks p.mChunkIndex chunk
                   mChunkFreeList := fl, mChunkFreeHead := fh } } eid = Lookup.null := by
    unfold EntityContext.GetEntity
    simp only [hpk.1, List.getElem?_set_self hidx]
    have : EntityComponentStorage.GetEntity
        { s with mChunks := setAt s.mChunks p.mChunkIndex chunk
                 mChunkFreeList := fl, mChunkFreeHead := fh } p.mChunkIndex p.mBlockIndex
        = Lookup.null := by
      unfold EntityComponentStorage.GetEntity
      simp only [setAt_same, hchunk, hbc]
      rw [if_neg (by omega), if_neg (by omega)]
      simp
    rw [this]
  refine ⟨eid, _, _, hid, hrel, ?_, hctx1, hnull, ?_⟩
  · unfold World.IsValid World.header
    rw [hst1]
    simp [EntityComponentStorage.header, hchunk]
  · unfold World.GetEntity
    rw [hpk.2, hctx1]
    exact hnull


/-- C4: for every valid record of a world that satisfies the invariant,
`Release` returns, the record is no longer valid afterwards, and `GetEntity` of its
context and of the world return null for the identifier it had. -/
theorem Release_GetEntity (w : World) (p : EntityPtr) (hinv : w.Inv) (hlive : w.Live p) :
    ∃ eid w1 c1, w.GetEntityID p = some eid
      ∧ w.Release p = some w1
      ∧ w1.IsValid p = some false
      ∧ w1.mEntityContexts p.mStorage.mContext = some c1
      ∧ c1.GetEntity eid = Lookup.null
      ∧ w1.GetEntity eid = Lookup.null :=
  w.Release_spec p hinv hlive

set_option maxRecDepth 100000 in
/-- Witness of C4: after `Release` of the record of the example world its
identifier resolves to null. -/
theorem Release_GetEntity_witness :
    ∃ eid w1 c1, exampleWorld.GetEntityID exampleEntity = some eid
      ∧ exampleWorld.Release exampleEntity = some w1
      ∧ w1.IsValid exampleEntity = some false
      ∧ w1.mEntityContexts 0 = some c1
      ∧ c1.GetEntity eid = Lookup.null
      ∧ w1.GetEntity eid = Lookup.null :=
  Release_GetEntity exampleWorld exampleEntity (by decide) (by decide)

/-! ## The catalog operations -/

/-- An archetype contains a class exactly when the type id of the class is a key of
its component map. -/
theorem EntityArchetype.ContainComponent_iff (a : EntityArchetype) (hinv : a.Inv)
    (T : ComponentType) :
    a.ContainComponent T = true ↔ T.typeId ∈ a.mComponentMetaMap.keys := by
  unfold EntityArchetype.ContainComponent
  rw [decide_eq_true_iff]
  exact a.GetComponentIndex_ne_iff hinv T.typeId

/-- A registration that `find` returns is an entry of the map. -/
theorem umapFind_mem {β : Type} (map : List (Nat × β)) (k : Nat) (v : β)
    (h : umapFind map k = some v) : (k, v) ∈ map := by
  unfold umapFind at h
  simp only [Option.map_eq_some'] at h
  obtain ⟨e, he, hv⟩ := h
  have h3 := List.find?_some he
  have h4 := List.mem_of_find?_eq_some he
  simp only [beq_iff_eq] at h3
  rw [← h3, ← hv]
  exact h4

/-- The archetype object of a pointer of the catalog of a world that satisfies the
invariant satisfies the archetype invariant. -/
theorem World.archetype_Inv (w : World) (p : Nat) (a : EntityArchetype) (hinv : w.Inv)
    (ha : w.mArchetypeManager.objects[p]? = some a) : a.Inv := by
  have hlt : p < w.mArchetypeManager.objects.length := by
    by_contra hge
    rw [List.getElem?_eq_none (by omega)] at ha
    cases ha
  exact (hinv.2.1 p hlt a ha).1

/-- `GetComponentsMetaHelperClass::Call` for classes the component map has already
changes neither the catalog nor the component map. -/
theorem Call_all_present (Ts : List ComponentType) (mgr : EntityArchetypeManager)
    (metaMap : ComponentMetaMap) (h : ∀ T, T ∈ Ts → T.typeId ∈ metaMap.keys) :
    GetComponentsMetaHelperClass.Call Ts mgr metaMap = (mgr, metaMap) := by
  induction Ts with
  | nil => rfl
  | cons T rest ih =>
    unfold GetComponentsMetaHelperClass.Call
    cases hf : metaMap.find T.typeId with
    | none =>
      exact absurd (h T (List.mem_cons_self _ _)) ((metaMap.find_eq_none_iff T.typeId).mp hf)
    | some m =>
      simp only
      exact ih (fun U hU => h U (List.mem_cons_of_mem _ hU))

/-- Removing classes none of which the component map has gives the component
map. -/
theorem ComponentMetaMap.eraseAll_absent (metaMap : ComponentMetaMap) (Ts : List ComponentType)
    (h : ∀ T, T ∈ Ts → T.typeId ∉ metaMap.keys) : metaMap.eraseAll Ts = metaMap := by
  unfold ComponentMetaMap.eraseAll
  rw [List.filter_eq_self]
  intro e he
  have hno : e.1 ∉ Ts.map ComponentType.typeId := by
    intro hmem
    obtain ⟨T, hT, hTe⟩ := List.mem_map.mp hmem
    apply h T hT
    rw [hTe]
    exact List.mem_map_of_mem _ he
  simp [hno]

/-- The catalog knows fewer classes as well. -/
theorem EntityArchetypeManager.Knows.mono {mgr : EntityArchetypeManager}
    {L Ts : List ComponentType} (h : mgr.Knows L) (hsub : ∀ T, T ∈ Ts → T ∈ L) :
    mgr.Knows Ts :=
  ⟨fun T hT => h.1 T (hsub T hT), fun T hT U hU => h.2 T (hsub T hT) U (hsub U hU)⟩

/-- What the catalog knows depends on its cache of meta data only. -/
theorem EntityArchetypeManager.Knows.of_metas {mgr mgr2 : EntityArchetypeManager}
    {L : List ComponentType} (h : mgr.Knows L)
    (hm : mgr2.mComponentMetas = mgr.mComponentMetas) : mgr2.Knows L := by
  unfold EntityArchetypeManager.Knows at h ⊢
  rw [hm]
  exact h

/-- `GetComponentMeta<T>()` for a known class keeps what the catalog knows. -/
theorem GetComponentMeta_knows (mgr : EntityArchetypeManager) (L : List ComponentType)
    (T : ComponentType) (h : mgr.Knows L) (hT : T ∈ L) : (mgr.GetComponentMeta T).1.Knows L := by
  unfold EntityArchetypeManager.GetComponentMeta
  cases hf : umapFind mgr.mComponentMetas T.hashCode with
  | some m => exact h
  | none =>
    refine ⟨?_, h.2⟩
    intro U hU m hm
    simp only [Option.mem_def] at hm
    by_cases hh : U.hashCode = T.hashCode
    · rw [hh, umapFind_umapInsert_self _ _ _ hf] at hm
      simp only [Option.some.injEq] at hm
      rw [← hm]
      exact h.2 T hT U hU hh.symm
    · rw [umapFind_umapInsert_other _ _ _ _ hh] at hm
      exact h.1 U hU m hm

/-- `GetComponentsMetaHelperClass::Call` for known classes keeps what the catalog
knows. -/
theorem Call_knows (L : List ComponentType) (Ts : List ComponentType) :
    ∀ (mgr : EntityArchetypeManager) (metaMap : ComponentMetaMap), mgr.Knows L →
      (∀ T, T ∈ Ts → T ∈ L) → (GetComponentsMetaHelperClass.Call Ts mgr metaMap).1.Knows L := by
  induction Ts with
  | nil =>
    intro mgr metaMap h _
    exact h
  | cons T rest ih =>
    intro mgr metaMap h hsub
    unfold GetComponentsMetaHelperClass.Call
    cases hf : metaMap.find T.typeId with
    | none =>
      simp only
      exact ih _ _ (GetComponentMeta_knows mgr L T h (hsub T (List.mem_cons_self _ _)))
        (fun U hU => hsub U (List.mem_cons_of_mem _ hU))
    | some m =>
      simp only
      exact ih _ _ h (fun U hU => hsub U (List.mem_cons_of_mem _ hU))

/-- Inserting a new key adds one entry. -/
theorem ComponentMetaMap.insert_perm (id : Nat) (m : ComponentMeta) :
    ∀ metaMap : ComponentMetaMap, id ∉ metaMap.keys →
      (metaMap.insert id m).Perm ((id, m) :: metaMap) := by
  intro metaMap
  induction metaMap with
  | nil =>
    intro _
    exact List.Perm.refl _
  | cons e rest ih =>
    intro h
    have hne : id ≠ e.1 := by
      intro heq
      apply h
      unfold ComponentMetaMap.keys
      rw [List.map_cons, heq]
      exact List.mem_cons_self _ _
    have hrest : id ∉ ComponentMetaMap.keys rest := by
      intro hmem
      apply h
      unfold ComponentMetaMap.keys
      rw [List.map_cons]
      exact List.mem_cons_of_mem _ hmem
    unfold ComponentMetaMap.insert
    by_cases h1 : id < e.1
    · rw [if_pos h1]
    · rw [if_neg h1, if_neg hne]
      exact ((ih hrest).cons e).trans (List.Perm.swap _ _ _)

/-- Adding classes of pairwise different type ids none of which the component map
has adds one entry for each class. -/
theorem ComponentMetaMap.insertAll_perm (Ts : List ComponentType) :
    ∀ metaMap : ComponentMetaMap, (Ts.map ComponentType.typeId).Nodup →
      (∀ T, T ∈ Ts → T.typeId ∉ metaMap.keys) →
      (metaMap.insertAll Ts).Perm (Ts.map (fun T => (T.typeId, T.meta)) ++ metaMap) := by
  induction Ts with
  | nil =>
    intro metaMap _ _
    exact List.Perm.refl _
  | cons T rest ih =>
    intro metaMap hnd hno
    rw [List.map_cons, List.nodup_cons] at hnd
    have hT : T.typeId ∉ metaMap.keys := hno T (List.mem_cons_self _ _)
    unfold ComponentMetaMap.insertAll
    rw [(metaMap.find_eq_none_iff T.typeId).mpr hT]
    simp only
    have hno2 : ∀ U, U ∈ rest → U.typeId ∉ (metaMap.insert T.typeId T.meta).keys := by
      intro U hU hmem
      rw [ComponentMetaMap.mem_keys_insert] at hmem
      rcases hmem with heq | hmem
      · apply hnd.1
        rw [← heq]
        exact List.mem_map_of_mem _ hU
      · exact hno U (List.mem_cons_of_mem _ hU) hmem
    refine (ih _ hnd.2 hno2).trans ?_
    rw [List.map_cons, List.cons_append]
    exact ((ComponentMetaMap.insert_perm T.typeId T.meta metaMap hT).append_left _).trans
      List.perm_middle

/-- `CreateArchetype<Ts...>()` for known classes of pairwise different type ids,
without a collision and within the component limit: the component map of the
classes is resolved, and the catalog knows what it knew. -/
theorem World.CreateArchetype_spec (w : World) (Ts L : List ComponentType) (hinv : w.Inv)
    (hsub : ∀ T, T ∈ Ts → T ∈ L) (hknows : w.mArchetypeManager.Knows L)
    (hnd : (Ts.map ComponentType.typeId).Nodup)
    (hcol : w.mArchetypeManager.NoCollision (ComponentMetaMap.insertAll [] Ts))
    (hlen : Ts.length ≤ MAX_COMPONENT_COUNT_PER_ENTITY) :
    ∃ m1 p, w.mArchetypeManager.CreateArchetype (ArchetypeArgs.components Ts) = some (m1, p)
      ∧ w.Resolved m1 (ComponentMetaMap.insertAll [] Ts) p
      ∧ m1.Knows L
      ∧ GetArchetypeIDFromComponentMetaMap (ComponentMetaMap.insertAll [] Ts)
          = sum_component_hashcodes Ts
      ∧ ∀ x, x ∈ (ComponentMetaMap.insertAll [] Ts).keys ↔ x ∈ Ts.map ComponentType.typeId := by
  have hperm : (ComponentMetaMap.insertAll [] Ts).Perm (Ts.map (fun T => (T.typeId, T.meta))) := by
    have h := ComponentMetaMap.insertAll_perm Ts [] hnd (fun _ _ h => by cases h)
    rw [List.append_nil] at h
    exact h
  have hsum : GetArchetypeIDFromComponentMetaMap (ComponentMetaMap.insertAll [] Ts)
      = sum_component_hashcodes Ts := by
    rw [sum_component_hashcodes_eq, GetArchetypeIDFromComponentMetaMap_eq,
      (hperm.map (fun e => e.2.hashCode)).sum_eq, List.map_map]
    rfl
  have hkeys : ∀ x, x ∈ (ComponentMetaMap.insertAll [] Ts).keys
      ↔ x ∈ Ts.map ComponentType.typeId := by
    intro x
    unfold ComponentMetaMap.keys
    rw [(hperm.map Prod.fst).mem_iff, List.map_map]
    rfl
  have hk : w.mArchetypeManager.Knows Ts := hknows.mono hsub
  have hcall := Call_eq_insertAll Ts w.mArchetypeManager [] hk
  have hsorted : (ComponentMetaMap.insertAll [] Ts).keys.Sorted (· < ·) := by
    rw [← hcall]
    exact (Call_keys Ts w.mArchetypeManager [] (by simp [ComponentMetaMap.keys])).1
  have hkey : ∀ e, e ∈ ComponentMetaMap.insertAll [] Ts → e.2.typeId = e.1 := by
    intro e he
    rcases ComponentMetaMap.mem_insertAll Ts [] e he with h | ⟨T, _, h⟩
    · cases h
    · rw [h]
      rfl
  have hlen2 : (ComponentMetaMap.insertAll [] Ts).length ≤ MAX_COMPONENT_COUNT_PER_ENTITY := by
    rw [hperm.length_eq, List.length_map]
    exact hlen
  cases hf : umapFind w.mArchetypeManager.mArchetypesMap (sum_component_hashcodes Ts) with
  | some p =>
    have hfound : w.mArchetypeManager.CreateArchetype (ArchetypeArgs.components Ts)
        = some (w.mArchetypeManager, p) := CreateArchetypeByComponentTypes_found _ Ts p hf
    refine ⟨_, p, hfound, ?_, hknows, hsum, hkeys⟩
    exact World.Resolved.found w _ _ p hinv rfl rfl hcol (by rw [hsum]; exact hf)
  | none =>
    obtain ⟨ho1, ho2⟩ := Call_objects Ts w.mArchetypeManager []
    obtain ⟨mgr2, hcons, hres⟩ := World.Resolved.fresh w
      (GetComponentsMetaHelperClass.Call Ts w.mArchetypeManager []).1
      (ComponentMetaMap.insertAll [] Ts) hinv ho1 ho2 hlen2 hsorted hkey
      (by rw [ho2, hsum]; exact hf)
    refine ⟨mgr2, _, ?_, hres, ?_, hsum, hkeys⟩
    · show w.mArchetypeManager.CreateArchetypeByComponentTypes Ts = _
      rw [CreateArchetypeByComponentTypes_fresh _ Ts hf, hcall, ← hsum]
      exact hcons
    · obtain ⟨a, _, hc⟩ := construct_eq_some
        (GetComponentsMetaHelperClass.Call Ts w.mArchetypeManager []).1
        (GetArchetypeIDFromComponentMetaMap (ComponentMetaMap.insertAll [] Ts))
        (ComponentMetaMap.insertAll [] Ts) hlen2
      rw [hc] at hcons
      simp only [Option.some.injEq, Prod.mk.injEq] at hcons
      have hk2 := Call_knows L Ts w.mArchetypeManager [] hknows hsub
      apply hk2.of_metas
      rw [← hcons.1]

/-- C17: for every archetype `A` of a world that satisfies the invariant and every
list `X` of classes the catalog knows, if no archetype with another component map
is registered under the hash sum of the component map of `A` with `X` added and
that map has at most `MAX_COMPONENT_COUNT_PER_ENTITY` entries: `AddComponents<X...>(A)`
returns; it returns null exactly when the type id of every class of `X` is a key of
the component map of `A`, and then the catalog is the catalog before the call;
otherwise it returns an archetype whose component map has exactly the keys of `A`
and the type ids of `X`, and which contains exactly the classes `A` contains and
the classes of `X`. The invariant holds afterwards. -/
theorem AddComponents_correct (w : World) (pA : Nat) (a : EntityArchetype)
    (X : List ComponentType) (hinv : w.Inv) (ha : w.archetype pA = some a)
    (hknows : w.mArchetypeManager.Knows X)
    (hcol : w.mArchetypeManager.NoCollision (a.mComponentMetaMap.insertAll X))
    (hlen : (a.mComponentMetaMap.insertAll X).length ≤ MAX_COMPONENT_COUNT_PER_ENTITY) :
    ∃ mgr r, w.mArchetypeManager.AddComponents X pA = some (mgr, r)
      ∧ (r = none ↔ ∀ T, T ∈ X → T.typeId ∈ a.mComponentMetaMap.keys)
      ∧ (r = none → mgr = w.mArchetypeManager)
      ∧ ({ w with mArchetypeManager := mgr } : World).Inv
      ∧ ∀ p, r = some p → ∃ aDst, mgr.objects[p]? = some aDst
          ∧ (∀ x, x ∈ aDst.mComponentMetaMap.keys
              ↔ x ∈ a.mComponentMetaMap.keys ∨ x ∈ X.map ComponentType.typeId)
          ∧ ∀ T, aDst.ContainComponent T = true
              ↔ a.ContainComponent T = true ∨ T.typeId ∈ X.map ComponentType.typeId := by
  have hainv : a.Inv := w.archetype_Inv pA a hinv ha
  by_cases hall : ∀ T, T ∈ X → T.typeId ∈ a.mComponentMetaMap.keys
  · refine ⟨w.mArchetypeManager, none, ?_, ⟨fun _ => hall, fun _ => rfl⟩, fun _ => rfl, hinv, ?_⟩
    · have ha' : w.mArchetypeManager.objects[pA]? = some a := ha
      unfold EntityArchetypeManager.AddComponents
      rw [ha']
      simp only [Call_all_present X w.mArchetypeManager a.mComponentMetaMap hall, if_true]
    · intro p hp
      cases hp
  · have hnew : ∃ T, T ∈ X ∧ T.typeId ∉ a.mComponentMetaMap.keys := by
      by_contra hcon
      apply hall
      intro T hT
      by_contra hTk
      exact hcon ⟨T, hT, hTk⟩
    obtain ⟨mgr, pDst, hcall, hres, _, hkeys, _⟩ :=
      w.AddComponents_spec pA a X hinv ha hnew hknows hcol hlen
    refine ⟨mgr, some pDst, hcall, ⟨fun h => (by cases h), fun h => absurd h hall⟩,
      fun h => (by cases h), hres.inv, ?_⟩
    intro p hp
    simp only [Option.some.injEq] at hp
    subst hp
    obtain ⟨aDst, haDst, hmap⟩ := hres.object
    have hdinv : aDst.Inv :=
      World.archetype_Inv { w with mArchetypeManager := mgr } pDst aDst hres.inv haDst
    refine ⟨aDst, haDst, ?_, ?_⟩
    · intro x
      rw [hmap]
      exact hkeys x
    · intro T
      rw [aDst.ContainComponent_iff hdinv, a.ContainComponent_iff hainv, hmap]
      exact hkeys T.typeId

set_option maxRecDepth 100000 in
/-- Witness of C17: `AddComponents<Profile>` of the archetype of `Terrain` in the
example world. -/
theorem AddComponents_correct_witness :
    ∃ mgr r, exampleWorld.mArchetypeManager.AddComponents [Profile] 0 = some (mgr, r)
      ∧ (r = none ↔ ∀ T, T ∈ [Profile] → T.typeId ∈ exampleSource.mComponentMetaMap.keys)
      ∧ (r = none → mgr = exampleWorld.mArchetypeManager)
      ∧ ({ exampleWorld with mArchetypeManager := mgr } : World).Inv
      ∧ ∀ p, r = some p → ∃ aDst, mgr.objects[p]? = some aDst
          ∧ (∀ x, x ∈ aDst.mComponentMetaMap.keys
              ↔ x ∈ exampleSource.mComponentMetaMap.keys
                ∨ x ∈ [Profile].map ComponentType.typeId)
          ∧ ∀ T, aDst.ContainComponent T = true
              ↔ exampleSource.ContainComponent T = true
                ∨ T.typeId ∈ [Profile].map ComponentType.typeId :=
  AddComponents_correct exampleWorld 0 exampleSource [Profile] (by decide)
    (eq_some_getD _ _ (by decide)) (by decide) (by decide) (by decide)

set_option maxRecDepth 100000 in
/-- C17 (counterexample): the CRC-32 of `AgentShader` is the sum of those of `Stun`
and `TextureForce`. In a world that satisfies the invariant and whose catalog has
the archetype of `AgentShader` at pointer 0 and the archetype of `Stun` at pointer
1, `AddComponents<TextureForce>` of the archetype of `Stun` returns pointer 0: the
archetype of `AgentShader`, which contains neither `Stun` nor `TextureForce`. -/
theorem AddComponents_collision :
    Stun.hashCode + TextureForce.hashCode = AgentShader.hashCode
      ∧ collisionCatalog.Inv
      ∧ (∀ a, a ∈ collisionCatalog.archetype 1 → a.mComponentMetaMap.keys = [Stun.typeId])
      ∧ collisionCatalog.mArchetypeManager.AddComponents [TextureForce] 1
          = some (collisionAdded.1, some 0)
      ∧ ∀ a, a ∈ collisionAdded.1.objects[0]? →
          a.mComponentMetaMap.keys = [AgentShader.typeId]
            ∧ a.ContainComponent Stun = false ∧ a.ContainComponent TextureForce = false := by
  have hsome : (collisionCatalog.mArchetypeManager.AddComponents [TextureForce] 1).isSome
      = true := by decide
  have hptr : collisionAdded.2 = some 0 := by decide
  have hop : collisionCatalog.mArchetypeManager.AddComponents [TextureForce] 1
      = some (collisionAdded.1, some 0) := by
    rw [← hptr]
    exact eq_some_getD _ (EntityArchetypeManager.init, none) hsome
  exact ⟨by decide, by decide, by decide, hop, by decide⟩

/-- C18: for every archetype `A` of a world that satisfies the invariant and every
list `X` of classes, if no archetype with another component map is registered
under the hash sum of the component map of `A` without `X`: `RemoveComponents<X...>(A)`
returns; it returns null exactly when the type id of no class of `X` is a key of
the component map of `A`, and then the catalog is the catalog before the call;
otherwise it returns an archetype whose component map has exactly the keys of `A`
that are not type ids of `X`, and which contains exactly the classes `A` contains
that are not in `X`. The invariant holds afterwards. -/
theorem RemoveComponents_correct (w : World) (pA : Nat) (a : EntityArchetype)
    (X : List ComponentType) (hinv : w.Inv) (ha : w.archetype pA = some a)
    (hcol : w.mArchetypeManager.NoCollision (a.mComponentMetaMap.eraseAll X)) :
    ∃ mgr r, w.mArchetypeManager.RemoveComponents X pA = some (mgr, r)
      ∧ (r = none ↔ ∀ T, T ∈ X → T.typeId ∉ a.mComponentMetaMap.keys)
      ∧ (r = none → mgr = w.mArchetypeManager)
      ∧ ({ w with mArchetypeManager := mgr } : World).Inv
      ∧ ∀ p, r = some p → ∃ aDst, mgr.objects[p]? = some aDst
          ∧ (∀ x, x ∈ aDst.mComponentMetaMap.keys
              ↔ x ∈ a.mComponentMetaMap.keys ∧ x ∉ X.map ComponentType.typeId)
          ∧ ∀ T, aDst.ContainComponent T = true
              ↔ a.ContainComponent T = true ∧ T.typeId ∉ X.map ComponentType.typeId := by
  have hainv : a.Inv := w.archetype_Inv pA a hinv ha
  by_cases hnone : ∀ T, T ∈ X → T.typeId ∉ a.mComponentMetaMap.keys
  · refine ⟨w.mArchetypeManager, none, ?_, ⟨fun _ => hnone, fun _ => rfl⟩, fun _ => rfl, hinv,
      ?_⟩
    · have ha' : w.mArchetypeManager.objects[pA]? = some a := ha
      unfold EntityArchetypeManager.RemoveComponents
      rw [ha']
      simp only [RemoveComponentsFromMetaMap.Call_eq, a.mComponentMetaMap.eraseAll_absent X hnone,
        if_true]
    · intro p hp
      cases hp
  · have hold : ∃ T, T ∈ X ∧ T.typeId ∈ a.mComponentMetaMap.keys := by
      by_contra hcon
      apply hnone
      intro T hT hTk
      exact hcon ⟨T, hT, hTk⟩
    obtain ⟨mgr, pDst, hcall, hres, _⟩ := w.RemoveComponents_spec pA a X hinv ha hold hcol
    refine ⟨mgr, some pDst, hcall, ⟨fun h => (by cases h), fun h => absurd h hnone⟩,
      fun h => (by cases h), hres.inv, ?_⟩
    intro p hp
    simp only [Option.some.injEq] at hp
    subst hp
    obtain ⟨aDst, haDst, hmap⟩ := hres.object
    have hdinv : aDst.Inv :=
      World.archetype_Inv { w with mArchetypeManager := mgr } pDst aDst hres.inv haDst
    refine ⟨aDst, haDst, ?_, ?_⟩
    · intro x
      rw [hmap]
      exact a.mComponentMetaMap.mem_keys_eraseAll X x
    · intro T
      rw [aDst.ContainComponent_iff hdinv, a.ContainComponent_iff hainv, hmap]
      exact a.mComponentMetaMap.mem_keys_eraseAll X T.typeId

set_option maxRecDepth 100000 in
/-- Witness of C18: `RemoveComponents<Terrain>` of the archetype of `Terrain` in the
example world. -/
theorem RemoveComponents_correct_witness :
    ∃ mgr r, exampleWorld.mArchetypeManager.RemoveComponents [Terrain] 0 = some (mgr, r)
      ∧ (r = none ↔ ∀ T, T ∈ [Terrain] → T.typeId ∉ exampleSource.mComponentMetaMap.keys)
      ∧ (r = none → mgr = exampleWorld.mArchetypeManager)
      ∧ ({ exampleWorld with mArchetypeManager := mgr } : World).Inv
      ∧ ∀ p, r = some p → ∃ aDst, mgr.objects[p]? = some aDst
          ∧ (∀ x, x ∈ aDst.mComponentMetaMap.keys
              ↔ x ∈ exampleSource.mComponentMetaMap.keys
                ∧ x ∉ [Terrain].map ComponentType.typeId)
          ∧ ∀ T, aDst.ContainComponent T = true
              ↔ exampleSource.ContainComponent T = true
                ∧ T.typeId ∉ [Terrain].map ComponentType.typeId :=
  RemoveComponents_correct exampleWorld 0 exampleSource [Terrain] (by decide)
    (eq_some_getD _ _ (by decide)) (by decide)

set_option maxRecDepth 100000 in
/-- C18 (counterexample): the CRC-32 of `AgentShader` is the sum of those of `Stun`
and `TextureForce`. In a world that satisfies the invariant and whose catalog has
the archetype of `Stun` and `TextureForce` at pointer 0 and the archetype of
`AgentShader` and `Health` at pointer 1, `RemoveComponents<Health>` of the latter
returns pointer 0: the archetype of `Stun` and `TextureForce`, which does not
contain `AgentShader`. -/
theorem RemoveComponents_collision :
    Stun.hashCode + TextureForce.hashCode = AgentShader.hashCode
      ∧ collisionPairCatalog.Inv
      ∧ (∀ a, a ∈ collisionPairCatalog.archetype 1 →
          a.mComponentMetaMap.keys = [Health.typeId, AgentShader.typeId])
      ∧ collisionPairCatalog.mArchetypeManager.RemoveComponents [Health] 1
          = some (collisionRemoved.1, some 0)
      ∧ ∀ a, a ∈ collisionRemoved.1.objects[0]? →
          a.mComponentMetaMap.keys = [Stun.typeId, TextureForce.typeId]
            ∧ a.ContainComponent AgentShader = false ∧ a.ContainComponent Stun = true := by
  have hsome : (collisionPairCatalog.mArchetypeManager.RemoveComponents [Health] 1).isSome
      = true := by decide
  have hptr : collisionRemoved.2 = some 0 := by decide
  have hop : collisionPairCatalog.mArchetypeManager.RemoveComponents [Health] 1
      = some (collisionRemoved.1, some 0) := by
    rw [← hptr]
    exact eq_some_getD _ (EntityArchetypeManager.init, none) hsome
  exact ⟨by decide, by decide, by decide, hop, by decide⟩

/-- C19: for every world that satisfies the invariant and every two lists `Ts` and
`Us` of classes the catalog knows, each of pairwise different type ids and of at
most `MAX_COMPONENT_COUNT_PER_ENTITY` classes, whose sets of type ids differ: if
the hash sums of the two lists differ and no archetype with another component map
is registered under the hash sum of either list, then `CreateArchetype<Ts...>()`
and after it `CreateArchetype<Us...>()` return two different archetypes, the first
contains exactly the classes of `Ts` and the second exactly the classes of `Us`,
and the invariant holds afterwards. -/
theorem CreateArchetype_distinct (w : World) (Ts Us : List ComponentType) (hinv : w.Inv)
    (hknows : w.mArchetypeManager.Knows (Ts ++ Us))
    (hTs : (Ts.map ComponentType.typeId).Nodup) (hUs : (Us.map ComponentType.typeId).Nodup)
    (hlenT : Ts.length ≤ MAX_COMPONENT_COUNT_PER_ENTITY)
    (hlenU : Us.length ≤ MAX_COMPONENT_COUNT_PER_ENTITY)
    (hdiff : ¬ ((∀ x, x ∈ Ts.map ComponentType.typeId → x ∈ Us.map ComponentType.typeId)
      ∧ ∀ x, x ∈ Us.map ComponentType.typeId → x ∈ Ts.map ComponentType.typeId))
    (hid : sum_component_hashcodes Ts ≠ sum_component_hashcodes Us)
    (hcolT : w.mArchetypeManager.NoCollision (ComponentMetaMap.insertAll [] Ts))
    (hcolU : w.mArchetypeManager.NoCollision (ComponentMetaMap.insertAll [] Us)) :
    ∃ m1 p1 m2 p2 a1 a2,
      w.mArchetypeManager.CreateArchetype (ArchetypeArgs.components Ts) = some (m1, p1)
      ∧ m1.CreateArchetype (ArchetypeArgs.components Us) = some (m2, p2)
      ∧ p1 ≠ p2
      ∧ m2.objects[p1]? = some a1 ∧ m2.objects[p2]? = some a2
      ∧ (∀ T, a1.ContainComponent T = true ↔ T.typeId ∈ Ts.map ComponentType.typeId)
      ∧ (∀ T, a2.ContainComponent T = true ↔ T.typeId ∈ Us.map ComponentType.typeId)
      ∧ ({ w with mArchetypeManager := m2 } : World).Inv := by
  obtain ⟨m1, p1, hcall1, R1, K1, hsumT, hkeysT⟩ :=
    w.CreateArchetype_spec Ts (Ts ++ Us) hinv (fun T hT => List.mem_append_left _ hT) hknows hTs
      hcolT hlenT
  have hpermU : (ComponentMetaMap.insertAll [] Us).Perm
      (Us.map (fun T => (T.typeId, T.meta))) := by
    have h := ComponentMetaMap.insertAll_perm Us [] hUs (fun _ _ h => by cases h)
    rw [List.append_nil] at h
    exact h
  have hsumU : GetArchetypeIDFromComponentMetaMap (ComponentMetaMap.insertAll [] Us)
      = sum_component_hashcodes Us := by
    rw [sum_component_hashcodes_eq, GetArchetypeIDFromComponentMetaMap_eq,
      (hpermU.map (fun e => e.2.hashCode)).sum_eq, List.map_map]
    rfl
  have hcolU1 : m1.NoCollision (ComponentMetaMap.insertAll [] Us) := by
    intro p hp a ha
    simp only [Option.mem_def] at hp ha
    rcases R1.map_new _ p hp with hold | ⟨hk, _⟩
    · have hmem := umapFind_mem _ _ _ hold
      obtain ⟨hlt, _⟩ := hinv.1.1 _ hmem
      have hobj : w.mArchetypeManager.objects[p]? = some w.mArchetypeManager.objects[p] :=
        List.getElem?_eq_getElem hlt
      have hkeep := R1.objects_keep p _ hobj
      rw [hkeep] at ha
      simp only [Option.some.injEq] at ha
      rw [← ha]
      exact hcolU p hold _ hobj
    · rw [hsumU, hsumT] at hk
      exact absurd hk.symm hid
  obtain ⟨m2, p2, hcall2, R2, _, _, hkeysU⟩ :=
    World.CreateArchetype_spec { w with mArchetypeManager := m1 } Us (Ts ++ Us) R1.inv
      (fun T hT => List.mem_append_right _ hT) K1 hUs hcolU1 hlenU
  obtain ⟨a1, ha1, hmap1⟩ := R1.object
  obtain ⟨a2, ha2, hmap2⟩ := R2.object
  have ha1' : m2.objects[p1]? = some a1 := R2.objects_keep p1 a1 ha1
  have hinv1 : a1.Inv :=
    World.archetype_Inv { w with mArchetypeManager := m1 } p1 a1 R1.inv ha1
  have hinv2 : a2.Inv :=
    World.archetype_Inv { w with mArchetypeManager := m2 } p2 a2 R2.inv ha2
  refine ⟨m1, p1, m2, p2, a1, a2, hcall1, hcall2, ?_, ha1', ha2, ?_, ?_, R2.inv⟩
  · intro hp
    apply hdiff
    rw [hp, ha2] at ha1'
    simp only [Option.some.injEq] at ha1'
    have hsame : ∀ x, x ∈ Ts.map ComponentType.typeId ↔ x ∈ Us.map ComponentType.typeId := by
      intro x
      rw [← hkeysT x, ← hkeysU x, ← hmap1, ← hmap2, ha1']
    exact ⟨fun x => (hsame x).mp, fun x => (hsame x).mpr⟩
  · intro T
    rw [a1.ContainComponent_iff hinv1, hmap1]
    exact hkeysT T.typeId
  · intro T
    rw [a2.ContainComponent_iff hinv2, hmap2]
    exact hkeysU T.typeId

set_option maxRecDepth 100000 in
/-- Witness of C19: `CreateArchetype<Profile>()` and then
`CreateArchetype<Profile, Transform>()` in the example world. -/
theorem CreateArchetype_distinct_witness :
    ∃ m1 p1 m2 p2 a1 a2,
      exampleWorld.mArchetypeManager.CreateArchetype (ArchetypeArgs.components [Profile])
          = some (m1, p1)
      ∧ m1.CreateArchetype (ArchetypeArgs.components [Profile, Transform]) = some (m2, p2)
      ∧ p1 ≠ p2
      ∧ m2.objects[p1]? = some a1 ∧ m2.objects[p2]? = some a2
      ∧ (∀ T, a1.ContainComponent T = true ↔ T.typeId ∈ [Profile].map ComponentType.typeId)
      ∧ (∀ T, a2.ContainComponent T = true
          ↔ T.typeId ∈ [Profile, Transform].map ComponentType.typeId)
      ∧ ({ exampleWorld with mArchetypeManager := m2 } : World).Inv :=
  CreateArchetype_distinct exampleWorld [Profile] [Profile, Transform] (by decide) (by decide)
    (by decide) (by decide) (by decide) (by decide) (by decide) (by decide) (by decide)
    (by decide)

set_option maxRecDepth 100000 in
/-- C19 (counterexample): the CRC-32 of `AgentShader` is the sum of those of `Stun`
and `TextureForce`. On the empty catalog `CreateArchetype<AgentShader>()` returns
pointer 0, and after it `CreateArchetype<Stun, TextureForce>()` returns pointer 0
as well and leaves the catalog as it is: the archetype of `AgentShader`, which
contains neither `Stun` nor `TextureForce`. -/
theorem CreateArchetype_collision :
    Stun.hashCode + TextureForce.hashCode = AgentShader.hashCode
      ∧ (¬ ∀ x, x ∈ [AgentShader].map ComponentType.typeId →
          x ∈ [Stun, TextureForce].map ComponentType.typeId)
      ∧ World.new.Inv
      ∧ World.new.mArchetypeManager.CreateArchetype (ArchetypeArgs.components [AgentShader])
          = some (collisionFirst.1, 0)
      ∧ collisionFirst.1.CreateArchetype (ArchetypeArgs.components [Stun, TextureForce])
          = some (collisionSecond.1, 0)
      ∧ collisionSecond.1.objects.length = 1
      ∧ ∀ a, a ∈ collisionSecond.1.objects[0]? →
          a.ContainComponent AgentShader = true
            ∧ a.ContainComponent Stun = false ∧ a.ContainComponent TextureForce = false := by
  have hsome1 : (World.new.mArchetypeManager.CreateArchetype
      (ArchetypeArgs.components [AgentShader])).isSome = true := by decide
  have hptr1 : collisionFirst.2 = 0 := by decide
  have hop1 : World.new.mArchetypeManager.CreateArchetype
      (ArchetypeArgs.components [AgentShader]) = some (collisionFirst.1, 0) := by
    rw [← hptr1]
    exact eq_some_getD _ (EntityArchetypeManager.init, 0) hsome1
  have hsome2 : (collisionFirst.1.CreateArchetype
      (ArchetypeArgs.components [Stun, TextureForce])).isSome = true := by decide
  have hptr2 : collisionSecond.2 = 0 := by decide
  have hop2 : collisionFirst.1.CreateArchetype (ArchetypeArgs.components [Stun, TextureForce])
      = some (collisionSecond.1, 0) := by
    rw [← hptr2]
    exact eq_some_getD _ (EntityArchetypeManager.init, 0) hsome2
  exact ⟨by decide, by decide, by decide, hop1, hop2, by decide, by decide⟩
/-! ## The free list of a chunk along a sequence of operations -/

/-- `Allocate` on a chunk that satisfies its invariant and is not full returns and
keeps the invariant. -/
theorem EntityComponentChunk.Allocate_keeps (c : EntityComponentChunk) (a : EntityArchetype)
    (b : Bool) (hinv : c.Inv) (hfull : c.IsFull = false) :
    ∃ d, c.Allocate a b = some (d, c.entityPtr c.mFreeHead) ∧ d.Inv
      ∧ d.mBlockCount = c.mBlockCount := by
  have hne : c.mFreeHead ≠ c.mFreeTail := by
    intro h
    rw [(c.IsFull_iff).mpr h] at hfull
    cases hfull
  obtain ⟨hlt, _, _, _⟩ := hinv.head c hne
  have hidx : (c.mEntitiesBuffer c.mFreeHead).mBlockIndex = c.mFreeHead := (hinv.2.2.1 _ hlt).1
  obtain ⟨d, hd, hD, _⟩ := c.Allocate_chunk_spec a b hne hidx
  exact ⟨d, hd, (hD.keeps_Inv hinv hne).1, hD.mBlockCount⟩

/-- `Deallocate` of a valid block of a chunk that satisfies its invariant returns
and keeps the invariant. -/
theorem EntityComponentChunk.Deallocate_keeps (c : EntityComponentChunk) (blk : Nat) (b : Bool)
    (hinv : c.Inv) (hblk : blk < c.mBlockCount)
    (hval : (c.mEntitiesBuffer blk).mValid = true) :
    ∃ d, c.Deallocate (c.entityPtr blk) b = some d ∧ d.Inv
      ∧ d.mBlockCount = c.mBlockCount := by
  obtain ⟨d, hd, hD⟩ := c.Deallocate_chunk_spec (c.entityPtr blk) b rfl
  exact ⟨d, hd, (hD.gives_Inv hinv hblk hval).1, hD.mBlockCount⟩

/-- A sequence of operations on a chunk that returns keeps the invariant and the
number of blocks. -/
theorem EntityComponentChunk.run_keeps_Inv (a : EntityArchetype) (ops : List ChunkOp) :
    ∀ c d : EntityComponentChunk, c.Inv → c.run a ops = some d →
      d.Inv ∧ d.mBlockCount = c.mBlockCount := by
  induction ops with
  | nil =>
    intro c d hinv hrun
    simp only [EntityComponentChunk.run, Option.some.injEq] at hrun
    subst hrun
    exact ⟨hinv, rfl⟩
  | cons op ops ih =>
    intro c d hinv hrun
    cases op with
    | allocate b =>
      unfold EntityComponentChunk.run at hrun
      cases hfull : c.IsFull with
      | true =>
        rw [hfull] at hrun
        simp only [if_true] at hrun
        cases hrun
      | false =>
        rw [hfull] at hrun
        obtain ⟨c1, hc1, hinv1, hbc1⟩ := c.Allocate_keeps a b hinv hfull
        simp only [Bool.false_eq_true, if_false, hc1] at hrun
        obtain ⟨h1, h2⟩ := ih c1 d hinv1 hrun
        exact ⟨h1, by rw [h2, hbc1]⟩
    | deallocate blk b =>
      unfold EntityComponentChunk.run at hrun
      by_cases hg : blk < c.mBlockCount ∧ (c.mEntitiesBuffer blk).mValid = true
      · rw [if_pos hg] at hrun
        obtain ⟨c1, hc1, hinv1, hbc1⟩ := c.Deallocate_keeps blk b hinv hg.1 hg.2
        simp only [hc1] at hrun
        obtain ⟨h1, h2⟩ := ih c1 d hinv1 hrun
        exact ⟨h1, by rw [h2, hbc1]⟩
      · rw [if_neg hg] at hrun
        cases hrun

/-- In a chunk that satisfies its invariant, the used count is the number of valid
blocks, and the chunk is full exactly when every block is valid. -/
theorem EntityComponentChunk.Inv.counts (c : EntityComponentChunk) (hinv : c.Inv) :
    c.mUsedCount
        = ((List.range c.mBlockCount).filter (fun b => (c.mEntitiesBuffer b).mValid)).length
      ∧ (c.IsFull = true ↔ ∀ b, b < c.mBlockCount → (c.mEntitiesBuffer b).mValid = true) := by
  have hinv' := hinv
  obtain ⟨htail, hbc, hhdr, hlen, hnd, hmem, hiff, hused⟩ := hinv
  have hperm : c.freeBlocks.Perm
      ((List.range c.mBlockCount).filter (fun b => !(c.mEntitiesBuffer b).mValid)) := by
    rw [List.perm_ext_iff_of_nodup hnd ((List.nodup_range _).filter _)]
    intro b
    simp only [List.mem_filter, List.mem_range, Bool.not_eq_true', ]
    constructor
    · intro hb
      exact ⟨hmem b hb, (hiff b (hmem b hb)).mp hb⟩
    · rintro ⟨hb, hv⟩
      exact (hiff b hb).mpr hv
  constructor
  · have h1 := List.length_eq_countP_add_countP (fun b => (c.mEntitiesBuffer b).mValid)
      (List.range c.mBlockCount)
    rw [List.length_range, List.countP_eq_length_filter, List.countP_eq_length_filter] at h1
    have h2 := hperm.length_eq
    have h3 : (List.filter (fun b => decide ¬(c.mEntitiesBuffer b).mValid = true)
        (List.range c.mBlockCount))
        = (List.range c.mBlockCount).filter (fun b => !(c.mEntitiesBuffer b).mValid) := by
      congr 1
      funext b
      cases (c.mEntitiesBuffer b).mValid <;> rfl
    rw [h3] at h1
    omega
  · rw [c.IsFull_iff]
    constructor
    · intro hfull b hb
      by_contra hv
      have hv2 : (c.mEntitiesBuffer b).mValid = false := by
        cases h : (c.mEntitiesBuffer b).mValid with
        | true => exact absurd h hv
        | false => rfl
      have hin := (hiff b hb).mpr hv2
      unfold EntityComponentChunk.freeBlocks at hin
      rw [hfull, linkChain_stop] at hin
      cases hin
    · intro hall
      by_contra hne
      obtain ⟨hlt, hval, _, _⟩ := hinv'.head c hne
      rw [hall _ hlt] at hval
      cases hval

/-- C30: for every chunk that a sequence of calls of `Allocate` on a chunk that is
not full and of `Deallocate` for a valid block leaves of a new chunk of `n` blocks,
`n` at most `MAX_ENTITY_COUNT_PER_CHUNK`: the sentinel `mFreeTail` is `n`, the walk
from `mFreeHead` along `mFreeList` up to the sentinel has no block twice and has
exactly the blocks below `n` whose `mValid` is false, `mUsedCount` is the number of
valid blocks, `IsFull` holds exactly when every block is valid, and the next
`Allocate` on the chunk when it is not full and the next `Deallocate` of a valid
block return. -/
theorem chunk_free_list (chunkId : Nat) (pStorage : StoragePtr) (pArchetype : Nat)
    (a : EntityArchetype) (n chunkSize : Nat) (ops : List ChunkOp) (c : EntityComponentChunk)
    (hn : n ≤ MAX_ENTITY_COUNT_PER_CHUNK)
    (hrun : (EntityComponentChunk.new chunkId pStorage pArchetype a n chunkSize).run a ops
      = some c) :
    c.mBlockCount = n ∧ c.mFreeTail = n
      ∧ c.freeBlocks.Nodup
      ∧ (∀ b, b ∈ c.freeBlocks ↔ b < n ∧ (c.mEntitiesBuffer b).mValid = false)
      ∧ c.mUsedCount = ((List.range n).filter (fun b => (c.mEntitiesBuffer b).mValid)).length
      ∧ (c.IsFull = true ↔ ∀ b, b < n → (c.mEntitiesBuffer b).mValid = true)
      ∧ (c.IsFull = false → ∀ b, ∃ d p, c.Allocate a b = some (d, p))
      ∧ ∀ blk b, blk < n → (c.mEntitiesBuffer blk).mValid = true →
          ∃ d, c.Deallocate (c.entityPtr blk) b = some d := by
  have h1024 : MAX_ENTITY_COUNT_PER_CHUNK = 1024 := by decide
  obtain ⟨hnew, _⟩ := EntityComponentChunk.new_Inv chunkId pStorage pArchetype a n chunkSize hn
  obtain ⟨hinv, hbc⟩ := EntityComponentChunk.run_keeps_Inv a ops _ c hnew hrun
  have hbn : c.mBlockCount = n := by
    rw [hbc]
    show u16 n = n
    exact u16_of_lt (by omega)
  obtain ⟨hcount, hfull⟩ := EntityComponentChunk.Inv.counts c hinv
  rw [hbn] at hcount hfull
  refine ⟨hbn, by rw [hinv.1, hbn], hinv.2.2.2.2.1, ?_, hcount, hfull, ?_, ?_⟩
  · intro b
    constructor
    · intro hb
      have hlt := hinv.2.2.2.2.2.1 b hb
      exact ⟨by omega, (hinv.2.2.2.2.2.2.1 b hlt).mp hb⟩
    · rintro ⟨hb, hv⟩
      exact (hinv.2.2.2.2.2.2.1 b (by omega)).mpr hv
  · intro hnf b
    obtain ⟨d, hd, _⟩ := c.Allocate_keeps a b hinv hnf
    exact ⟨d, _, hd⟩
  · intro blk b hblk hv
    obtain ⟨d, hd, _⟩ := c.Deallocate_keeps blk b hinv (by omega) hv
    exact ⟨d, hd⟩

set_option maxRecDepth 100000 in
/-- Witness of C30: a chunk of two blocks after `Allocate`, `Allocate` and
`Deallocate` of block 0. -/
theorem chunk_free_list_witness :
    exampleChunk.mBlockCount = 2 ∧ exampleChunk.mFreeTail = 2
      ∧ exampleChunk.freeBlocks.Nodup
      ∧ (∀ b, b ∈ exampleChunk.freeBlocks
          ↔ b < 2 ∧ (exampleChunk.mEntitiesBuffer b).mValid = false)
      ∧ exampleChunk.mUsedCount
          = ((List.range 2).filter (fun b => (exampleChunk.mEntitiesBuffer b).mValid)).length
      ∧ (exampleChunk.IsFull = true
          ↔ ∀ b, b < 2 → (exampleChunk.mEntitiesBuffer b).mValid = true)
      ∧ (exampleChunk.IsFull = false →
          ∀ b, ∃ d p, exampleChunk.Allocate exampleArchetype b = some (d, p))
      ∧ ∀ blk b, blk < 2 → (exampleChunk.mEntitiesBuffer blk).mValid = true →
          ∃ d, exampleChunk.Deallocate (exampleChunk.entityPtr blk) b = some d :=
  chunk_free_list 0 { mContext := 0, mIndex := 0 } 0 exampleArchetype 2 MAX_STORAGE_CHUNK_SIZE
    [ChunkOp.allocate true, ChunkOp.allocate true, ChunkOp.deallocate 0 true] exampleChunk
    (by decide) (eq_some_getD _ _ (by decide))
/-! ## The chunk free list along a sequence of operations -/

/-- In a storage whose chunks hold no block, `Allocate` fails: the chunk at the head
of the chunk free list has no free block. -/
theorem EntityComponentStorage.Allocate_none_of_zero (s : EntityComponentStorage)
    (a : EntityArchetype) (b : Bool) (hinv : s.Inv) (hzero : s.mEntityCountPerChunk = 0) :
    s.Allocate a b = none := by
  obtain ⟨hcap, hcnt, hpc, hchunks, hlen, hnd, hmem, hiff⟩ := hinv
  by_cases hhead : s.mChunkFreeHead = s.mChunkCount
  · unfold EntityComponentStorage.Allocate
    rw [if_pos hhead]
    cases hadd : s.addChunk a with
    | none => rfl
    | some s1 =>
      simp only
      unfold EntityComponentStorage.addChunk at hadd
      by_cases hge : s.mChunkCount ≥ s.mChunkArrayCapacity
      · simp only [if_pos hge] at hadd
        by_cases h2 : s.IncreaseCapacity.mChunkCount ≥ s.IncreaseCapacity.mChunkArrayCapacity
        · rw [if_pos h2] at hadd
          cases hadd
        · rw [if_neg h2] at hadd
          simp only [Option.some.injEq] at hadd
          rw [← hadd]
          unfold EntityComponentStorage.allocateInHead
          simp [setAt, EntityComponentStorage.IncreaseCapacity, hhead, hzero,
            EntityComponentChunk.new, EntityComponentChunk.Allocate, u16]
      · simp only [if_neg hge] at hadd
        simp only [Option.some.injEq] at hadd
        rw [← hadd]
        unfold EntityComponentStorage.allocateInHead
        simp [setAt, hhead, hzero, EntityComponentChunk.new, EntityComponentChunk.Allocate, u16]
  · exfalso
    have hL : s.freeChunks = s.mChunkFreeHead
        :: linkChain s.mChunkFreeList s.mChunkCount s.mChunkCount
            (s.mChunkFreeList s.mChunkFreeHead) := by
      unfold EntityComponentStorage.freeChunks
      rw [linkChain_cons _ _ _ _ hhead]
    have hin : s.mChunkFreeHead ∈ s.freeChunks := by
      rw [hL]
      exact List.mem_cons_self _ _
    have hlt := hmem _ hin
    have hnf := (hiff _ hlt).mp hin
    obtain ⟨hcinv, _, _, _, hbc, _⟩ := hchunks _ hlt
    have hne : (s.mChunks s.mChunkFreeHead).mFreeHead ≠ (s.mChunks s.mChunkFreeHead).mFreeTail := by
      intro h
      rw [((s.mChunks s.mChunkFreeHead).IsFull_iff).mpr h] at hnf
      cases hnf
    obtain ⟨hlt2, _⟩ := hcinv.head _ hne
    omega

/-- A sequence of allocations and of releases of valid records that returns keeps
the invariant of the storage. -/
theorem EntityComponentStorage.run_Inv (a : EntityArchetype) (ops : List StorageOp) :
    ∀ (s : EntityComponentStorage) (r : EntityComponentStorage × List EntityPtr),
      s.Inv → a.mComponentCount = s.mComponentCountPerEntity → s.run a ops = some r →
      r.1.Inv := by
  induction ops with
  | nil =>
    intro s r hinv _ hrun
    simp only [EntityComponentStorage.run, Option.some.injEq] at hrun
    subst hrun
    exact hinv
  | cons op ops ih =>
    intro s r hinv ha hrun
    cases op with
    | allocate b =>
      unfold EntityComponentStorage.run at hrun
      cases hall : s.Allocate a b with
      | none =>
        rw [hall] at hrun
        cases hrun
      | some tp =>
        obtain ⟨t, p⟩ := tp
        rw [hall] at hrun
        simp only [Option.map_eq_some'] at hrun
        obtain ⟨r1, hr1, hr⟩ := hrun
        have hn : 1 ≤ s.mEntityCountPerChunk := by
          by_contra hno
          rw [s.Allocate_none_of_zero a b hinv (by omega)] at hall
          cases hall
        obtain ⟨htinv, hrel⟩ := s.Allocate_some a b hinv hn ha t p hall
        have := ih t r1 htinv (by rw [hrel.mComponentCountPerEntity]; exact ha) hr1
        rw [← hr]
        exact this
    | release p =>
      unfold EntityComponentStorage.run at hrun
      by_cases hlive : s.live p
      · rw [if_pos hlive] at hrun
        obtain ⟨t, ht, htinv, hrel⟩ := s.Deallocate_spec p true hinv hlive.1 hlive.2.1 hlive.2.2
        rw [ht] at hrun
        exact ih t r htinv (by rw [hrel.mComponentCountPerEntity]; exact ha) hrun
      · rw [if_neg hlive] at hrun
        cases hrun

/-- C29: for every storage that a sequence of allocations and of releases of valid
records leaves of a new storage: the walk from `mChunkFreeHead` along
`mChunkFreeList` up to `mChunkCount` has no chunk twice, ends within `mChunkCount`
steps, and has exactly the chunks below `mChunkCount` that are not full, which are
the chunks with a block that is not valid; a full chunk is not on it. -/
theorem chunk_free_chain (pContext index pArchetype : Nat) (a : EntityArchetype)
    (ops : List StorageOp) (r : EntityComponentStorage × List EntityPtr)
    (hrun : (EntityComponentStorage.new pContext index pArchetype a).run a ops = some r) :
    r.1.freeChunks.Nodup
      ∧ r.1.freeChunks.length ≤ r.1.mChunkCount
      ∧ (∀ i, i ∈ r.1.freeChunks ↔ i < r.1.mChunkCount ∧ (r.1.mChunks i).IsFull = false)
      ∧ (∀ i, i < r.1.mChunkCount →
          ((r.1.mChunks i).IsFull = false
            ↔ ∃ b, b < (r.1.mChunks i).mBlockCount
                ∧ ((r.1.mChunks i).mEntitiesBuffer b).mValid = false))
      ∧ ∀ i, i < r.1.mChunkCount → (r.1.mChunks i).IsFull = true → i ∉ r.1.freeChunks := by
  have hinv := EntityComponentStorage.run_Inv a ops _ r
    (EntityComponentStorage.new_storage_Inv pContext index pArchetype a) rfl hrun
  obtain ⟨_, _, _, hchunks, hlen, hnd, hmem, hiff⟩ := hinv
  refine ⟨hnd, hlen, ?_, ?_, ?_⟩
  · intro i
    constructor
    · intro hi
      exact ⟨hmem i hi, (hiff i (hmem i hi)).mp hi⟩
    · rintro ⟨hi, hf⟩
      exact (hiff i hi).mpr hf
  · intro i hi
    obtain ⟨hcinv, _⟩ := hchunks i hi
    obtain ⟨_, hfull⟩ := EntityComponentChunk.Inv.counts _ hcinv
    constructor
    · intro hnf
      by_contra hno
      have hall : ∀ b, b < (r.1.mChunks i).mBlockCount →
          ((r.1.mChunks i).mEntitiesBuffer b).mValid = true := by
        intro b hb
        by_contra hv
        apply hno
        refine ⟨b, hb, ?_⟩
        cases h : ((r.1.mChunks i).mEntitiesBuffer b).mValid with
        | true => exact absurd h hv
        | false => rfl
      rw [hfull.mpr hall] at hnf
      cases hnf
    · rintro ⟨b, hb, hv⟩
      cases hf : (r.1.mChunks i).IsFull with
      | false => rfl
      | true =>
        rw [hfull.mp hf b hb] at hv
        cases hv
  · intro i hi hf hin
    rw [(hiff i hi).mp hin] at hf
    cases hf

set_option maxRecDepth 100000 in
/-- Witness of C29: a new storage of the archetype of `Terrain`, two blocks per
chunk, after three allocations and the release of the first record. -/
theorem chunk_free_chain_witness :
    exampleRun.1.freeChunks.Nodup
      ∧ exampleRun.1.freeChunks.length ≤ exampleRun.1.mChunkCount
      ∧ (∀ i, i ∈ exampleRun.1.freeChunks
          ↔ i < exampleRun.1.mChunkCount ∧ (exampleRun.1.mChunks i).IsFull = false)
      ∧ (∀ i, i < exampleRun.1.mChunkCount →
          ((exampleRun.1.mChunks i).IsFull = false
            ↔ ∃ b, b < (exampleRun.1.mChunks i).mBlockCount
                ∧ ((exampleRun.1.mChunks i).mEntitiesBuffer b).mValid = false))
      ∧ ∀ i, i < exampleRun.1.mChunkCount → (exampleRun.1.mChunks i).IsFull = true →
          i ∉ exampleRun.1.freeChunks :=
  chunk_free_chain 0 0 0 exampleArchetype
    [StorageOp.allocate true, StorageOp.allocate true, StorageOp.allocate true,
      StorageOp.release exampleEntity] exampleRun (eq_some_getD _ _ (by decide))
/-! ## The ranges `Prepare` hands out for one chunk -/

/-- The call `std::min_element` over a range that is not empty returns a position of
a smallest element, and no element before it is as small. -/
theorem min_element_spec (a : Nat → Int) (n : Nat) (hn : 0 < n) :
    min_element a n < n ∧ (∀ j, j < n → a (min_element a n) ≤ a j)
      ∧ ∀ j, j < min_element a n → a (min_element a n) < a j := by
  unfold min_element
  have h : ∀ m, 0 < m →
      List.foldl (fun smallest i => if a i < a smallest then i else smallest) 0 (List.range m) < m
        ∧ (∀ j, j < m →
            a (List.foldl (fun smallest i => if a i < a smallest then i else smallest) 0
              (List.range m)) ≤ a j)
        ∧ ∀ j, j < List.foldl (fun smallest i => if a i < a smallest then i else smallest) 0
              (List.range m) →
            a (List.foldl (fun smallest i => if a i < a smallest then i else smallest) 0
              (List.range m)) < a j := by
    intro m
    induction m with
    | zero =>
      intro h0
      omega
    | succ k ih =>
      intro _
      rw [List.range_succ, List.foldl_append]
      simp only [List.foldl_cons, List.foldl_nil]
      by_cases hk : k = 0
      · subst hk
        simp only [List.range_zero, List.foldl_nil, lt_self_iff_false, if_false]
        refine ⟨by omega, ?_, ?_⟩
        · intro j hj
          have : j = 0 := by omega
          rw [this]
        · intro j hj
          omega
      · obtain ⟨h1, h2, h3⟩ := ih (by omega)
        generalize List.foldl (fun smallest i => if a i < a smallest then i else smallest) 0
          (List.range k) = r at h1 h2 h3
        by_cases hlt : a k < a r
        · rw [if_pos hlt]
          refine ⟨by omega, ?_, ?_⟩
          · intro j hj
            by_cases hjk : j = k
            · rw [hjk]
            · have := h2 j (by omega)
              omega
          · intro j hj
            have := h2 j hj
            omega
        · rw [if_neg hlt]
          refine ⟨by omega, ?_, h3⟩
          intro j hj
          by_cases hjk : j = k
          · rw [hjk]
            omega
          · exact h2 j (by omega)
  exact h n hn

/-- A value of type `int` within its range is kept by `i32`. -/
theorem i32_eq (x : Int) (h1 : -2 ^ 31 ≤ x) (h2 : x < 2 ^ 31) : i32 x = x := by
  unfold i32
  omega

/-- A sum of `int` wraps once, however often its terms wrapped. -/
theorem i32_add (x y : Int) : i32 (i32 x + y) = i32 (x + y) := by
  unfold i32
  omega

/-- One round of the inner loop of `Prepare`: the worker `j` gets its segment of
`Prepare.assigned`, its load grows by the blocks of that segment as a sum of `int`,
and nothing changes for the other workers. -/
theorem Prepare.thread_shape (pChunk : ChunkPtr) (threadCount n per sel : Nat) (d : Division)
    (j : Nat) :
    (Prepare.thread pChunk threadCount n per sel
        (d, per * (if j ≤ sel then j else j - 1)) j).2
        = per * (if j + 1 ≤ sel then j + 1 else j)
      ∧ (Prepare.thread pChunk threadCount n per sel
          (d, per * (if j ≤ sel then j else j - 1)) j).1.segments
        = setAt d.segments j (d.segments j ++ Prepare.assigned pChunk threadCount n per sel j)
      ∧ (Prepare.thread pChunk threadCount n per sel
          (d, per * (if j ≤ sel then j else j - 1)) j).1.threadTaskCounts
        = setAt d.threadTaskCounts j
            (if segmentsTotal (Prepare.assigned pChunk threadCount n per sel j) = 0 then
              d.threadTaskCounts j
            else
              i32 (d.threadTaskCounts j
                + (segmentsTotal (Prepare.assigned pChunk threadCount n per sel j) : Int))) := by
  have hself : ∀ (f : Nat → List ParallelJobChunkSegement), setAt f j (f j ++ []) = f := by
    intro f
    funext x
    unfold setAt
    by_cases hx : x = j
    · rw [if_pos hx, hx, List.append_nil]
    · rw [if_neg hx]
  have hself2 : ∀ (f : Nat → Int) (v : Int),
      setAt f j (if segmentsTotal [] = 0 then f j else v) = f := by
    intro f v
    funext x
    unfold setAt
    by_cases hx : x = j
    · rw [if_pos hx, hx]
      exact if_pos rfl
    · rw [if_neg hx]
  have hone : ∀ (lo hi : Nat) (v : Int), lo < hi →
      (if segmentsTotal [{ pChunk := pChunk, RangeStart := lo, RangeEnd := hi }] = 0 then v
        else i32 (v + (segmentsTotal
          [{ pChunk := pChunk, RangeStart := lo, RangeEnd := hi }] : Int)))
        = i32 (v + (((hi : Nat) : Int) - ((lo : Nat) : Int))) := by
    intro lo hi v hlt
    have e : segmentsTotal [{ pChunk := pChunk, RangeStart := lo, RangeEnd := hi }]
        = hi - lo := by
      simp only [segmentsTotal, List.map_cons, List.map_nil, List.sum_cons, List.sum_nil,
        ParallelJobChunkSegement.count, Nat.add_zero]
    rw [e, if_neg (by omega)]
    congr 1
    omega
  unfold Prepare.thread Prepare.assigned
  by_cases hsel : j = sel
  · subst hsel
    simp only [if_true, le_refl]
    rw [if_neg (by omega : ¬ j + 1 ≤ j)]
    by_cases hk : per * (threadCount - 1) < n
    · have hpos : ((n : Nat) : Int) - ((per * (threadCount - 1) : Nat) : Int) > 0 := by omega
      rw [if_pos hpos, if_pos hk]
      refine ⟨rfl, rfl, ?_⟩
      simp only
      rw [hone _ _ _ hk]
    · have hneg : ¬ ((n : Nat) : Int) - ((per * (threadCount - 1) : Nat) : Int) > 0 := by omega
      rw [if_neg hneg, if_neg hk]
      exact ⟨rfl, (hself _).symm, (hself2 _ _).symm⟩
  · simp only [if_neg hsel]
    have hk : (if j ≤ sel then j else j - 1) = (if j < sel then j else j - 1) := by
      by_cases h1 : j < sel
      · rw [if_pos h1, if_pos (by omega)]
      · rw [if_neg h1, if_neg (by omega)]
    have hnext : per * (if j < sel then j else j - 1) + per
        = per * (if j + 1 ≤ sel then j + 1 else j) := by
      by_cases h1 : j < sel
      · rw [if_pos h1, if_pos (by omega), Nat.mul_succ]
      · rw [if_neg h1, if_neg (by omega)]
        have hj : j = (j - 1) + 1 := by omega
        conv_rhs => rw [hj, Nat.mul_succ]
    rw [hk]
    by_cases hp : 0 < per
    · have hpos : ((per * (if j < sel then j else j - 1) + per : Nat) : Int)
          - ((per * (if j < sel then j else j - 1) : Nat) : Int) > 0 := by omega
      rw [if_pos hpos, if_pos hp]
      refine ⟨hnext, rfl, ?_⟩
      simp only
      rw [hone _ _ _ (by omega)]
    · have hneg : ¬ ((per * (if j < sel then j else j - 1) + per : Nat) : Int)
          - ((per * (if j < sel then j else j - 1) : Nat) : Int) > 0 := by omega
      rw [if_neg hneg, if_neg hp]
      exact ⟨hnext, (hself _).symm, (hself2 _ _).symm⟩

/-- The inner loop of `Prepare` for one chunk: each worker below `threadCount` gets
its segment of `Prepare.assigned` for the selected worker `std::min_element`
returns, its load grows by the blocks of that segment as a sum of `int`, and nothing
changes for the workers from `threadCount` on. -/
theorem Prepare.chunk_shape (pStorage : StoragePtr) (threadCount n per : Nat) (d : Division)
    (i : Nat) :
    (∀ j, j < threadCount →
        (Prepare.chunk pStorage threadCount n per d i).segments j
            = d.segments j
              ++ Prepare.assigned { mStorage := pStorage, mChunkIndex := i } threadCount n per
                  (min_element d.threadTaskCounts threadCount) j
          ∧ (Prepare.chunk pStorage threadCount n per d i).threadTaskCounts j
            = (if segmentsTotal
                  (Prepare.assigned { mStorage := pStorage, mChunkIndex := i } threadCount n per
                    (min_element d.threadTaskCounts threadCount) j) = 0 then
                d.threadTaskCounts j
              else
                i32 (d.threadTaskCounts j
                  + (segmentsTotal
                      (Prepare.assigned { mStorage := pStorage, mChunkIndex := i } threadCount n
                        per (min_element d.threadTaskCounts threadCount) j) : Int))))
      ∧ ∀ j, threadCount ≤ j →
          (Prepare.chunk pStorage threadCount n per d i).segments j = d.segments j
            ∧ (Prepare.chunk pStorage threadCount n per d i).threadTaskCounts j
              = d.threadTaskCounts j := by
  unfold Prepare.chunk
  simp only []
  generalize min_element d.threadTaskCounts threadCount = sel
  have key : ∀ m,
      (List.foldl
          (Prepare.thread { mStorage := pStorage, mChunkIndex := i } threadCount n per sel)
          (d, 0) (List.range m)).2 = per * (if m ≤ sel then m else m - 1)
        ∧ (∀ j, j < m →
            (List.foldl
                (Prepare.thread { mStorage := pStorage, mChunkIndex := i } threadCount n per sel)
                (d, 0) (List.range m)).1.segments j
              = d.segments j
                ++ Prepare.assigned { mStorage := pStorage, mChunkIndex := i } threadCount n per
                    sel j
            ∧ (List.foldl
                (Prepare.thread { mStorage := pStorage, mChunkIndex := i } threadCount n per sel)
                (d, 0) (List.range m)).1.threadTaskCounts j
              = (if segmentsTotal
                    (Prepare.assigned { mStorage := pStorage, mChunkIndex := i } threadCount n
                      per sel j) = 0 then
                  d.threadTaskCounts j
                else
                  i32 (d.threadTaskCounts j
                    + (segmentsTotal
                        (Prepare.assigned { mStorage := pStorage, mChunkIndex := i } threadCount
                          n per sel j) : Int))))
        ∧ ∀ j, m ≤ j →
            (List.foldl
                (Prepare.thread { mStorage := pStorage, mChunkIndex := i } threadCount n per sel)
                (d, 0) (List.range m)).1.segments j = d.segments j
            ∧ (List.foldl
                (Prepare.thread { mStorage := pStorage, mChunkIndex := i } threadCount n per sel)
                (d, 0) (List.range m)).1.threadTaskCounts j = d.threadTaskCounts j := by
    intro m
    induction m with
    | zero =>
      refine ⟨by simp, fun j hj => absurd hj (Nat.not_lt_zero _), fun j _ => ⟨rfl, rfl⟩⟩
    | succ k ih =>
      obtain ⟨hcur, hlow, hhigh⟩ := ih
      rw [List.range_succ, List.foldl_append]
      simp only [List.foldl_cons, List.foldl_nil]
      generalize List.foldl
        (Prepare.thread { mStorage := pStorage, mChunkIndex := i } threadCount n per sel)
        (d, 0) (List.range k) = st at hcur hlow hhigh
      obtain ⟨d1, cur⟩ := st
      simp only at hcur hlow hhigh
      rw [hcur]
      obtain ⟨h1, h2, h3⟩ :=
        Prepare.thread_shape { mStorage := pStorage, mChunkIndex := i } threadCount n per sel d1 k
      refine ⟨?_, ?_, ?_⟩
      · rw [h1]
        by_cases hks : k + 1 ≤ sel
        · rw [if_pos hks, if_pos hks]
        · rw [if_neg hks, if_neg hks]
          rfl
      · intro j hj
        rw [h2, h3]
        by_cases hjk : j = k
        · subst hjk
          rw [setAt_same, setAt_same, (hhigh j (le_refl _)).1, (hhigh j (le_refl _)).2]
          exact ⟨rfl, rfl⟩
        · rw [setAt_other _ _ _ _ hjk, setAt_other _ _ _ _ hjk]
          exact hlow j (by omega)
      · intro j hj
        rw [h2, h3]
        have hjk : j ≠ k := by omega
        rw [setAt_other _ _ _ _ hjk, setAt_other _ _ _ _ hjk]
        exact hhigh j (by omega)
  obtain ⟨_, hlow, hhigh⟩ := key threadCount
  exact ⟨hlow, hhigh⟩

/-- The blocks `perWorkerCount` of `Prepare` fit the chunk `threadCount` times. -/
theorem Prepare.per_le (n threadCount : Nat) : n / threadCount / 16 * 16 * threadCount ≤ n := by
  have h1 : n / threadCount / 16 * 16 ≤ n / threadCount := Nat.div_mul_le_self _ _
  have h2 : n / threadCount * threadCount ≤ n := Nat.div_mul_le_self _ _
  exact le_trans (Nat.mul_le_mul_right _ h1) h2

/-- The segments of `Prepare.assigned`, case by case. -/
theorem Prepare.mem_assigned (pChunk : ChunkPtr) (threadCount n per sel j : Nat)
    (it : ParallelJobChunkSegement) :
    it ∈ Prepare.assigned pChunk threadCount n per sel j
      ↔ (j = sel ∧ per * (threadCount - 1) < n
          ∧ it = { pChunk := pChunk, RangeStart := per * (threadCount - 1), RangeEnd := n })
        ∨ (j ≠ sel ∧ 0 < per
          ∧ it = { pChunk := pChunk
                   RangeStart := per * (if j < sel then j else j - 1)
                   RangeEnd := per * (if j < sel then j else j - 1) + per }) := by
  unfold Prepare.assigned
  by_cases hsel : j = sel
  · rw [if_pos hsel]
    by_cases hk : per * (threadCount - 1) < n
    · rw [if_pos hk, List.mem_singleton]
      constructor
      · intro h
        exact Or.inl ⟨hsel, hk, h⟩
      · rintro (⟨_, _, h⟩ | ⟨h, _⟩)
        · exact h
        · exact absurd hsel h
    · rw [if_neg hk]
      constructor
      · intro h
        cases h
      · rintro (⟨_, h, _⟩ | ⟨h, _⟩)
        · exact absurd h hk
        · exact absurd hsel h
  · rw [if_neg hsel]
    by_cases hp : 0 < per
    · rw [if_pos hp, List.mem_singleton]
      constructor
      · intro h
        exact Or.inr ⟨hsel, hp, h⟩
      · rintro (⟨h, _⟩ | ⟨_, _, h⟩)
        · exact absurd h hsel
        · exact h
    · rw [if_neg hp]
      constructor
      · intro h
        cases h
      · rintro (⟨h, _⟩ | ⟨_, h, _⟩)
        · exact absurd h hsel
        · exact absurd h hp

theorem Prepare.assigned_length (pChunk : ChunkPtr) (threadCount n per sel j : Nat) :
    (Prepare.assigned pChunk threadCount n per sel j).length ≤ 1 := by
  unfold Prepare.assigned
  split_ifs <;> simp

/-- C27: for every chunk of `n` blocks, every worker count `threadCount` of at least
1 and every division with its loads, the segments the inner loop of `Prepare` adds
for the chunk, with `n / threadCount / 16 * 16` blocks per worker, are at most one
per worker, go to workers below `threadCount`, belong to the chunk, are not empty
and end at `n` at the latest; every block below `n` lies in one of them, and a block
lies in one of them only. -/
theorem Prepare_chunk_partition (pStorage : StoragePtr) (threadCount n : Nat) (d : Division)
    (i : Nat) (ht : 1 ≤ threadCount) :
    ∃ seg : Nat → List ParallelJobChunkSegement,
      (∀ j, (Prepare.chunk pStorage threadCount n (n / threadCount / 16 * 16) d i).segments j
          = d.segments j ++ seg j)
      ∧ (∀ j, (seg j).length ≤ 1)
      ∧ (∀ j it, it ∈ seg j →
          j < threadCount ∧ it.pChunk = { mStorage := pStorage, mChunkIndex := i }
            ∧ it.RangeStart < it.RangeEnd ∧ it.RangeEnd ≤ n)
      ∧ (∀ b, b < n → ∃ j it, it ∈ seg j ∧ it.RangeStart ≤ b ∧ b < it.RangeEnd)
      ∧ ∀ j1 it1 j2 it2 b, it1 ∈ seg j1 → it2 ∈ seg j2 →
          it1.RangeStart ≤ b → b < it1.RangeEnd → it2.RangeStart ≤ b → b < it2.RangeEnd →
          j1 = j2 ∧ it1 = it2 := by
  obtain ⟨hlow, hhigh⟩ :=
    Prepare.chunk_shape pStorage threadCount n (n / threadCount / 16 * 16) d i
  obtain ⟨hsel, _, _⟩ := min_element_spec d.threadTaskCounts threadCount (by omega)
  have hper := Prepare.per_le n threadCount
  generalize min_element d.threadTaskCounts threadCount = sel at hlow hsel
  generalize n / threadCount / 16 * 16 = per at hlow hhigh hper
  have hlast : per * (threadCount - 1) ≤ n := by
    have : per * (threadCount - 1) ≤ per * threadCount := Nat.mul_le_mul_left _ (by omega)
    omega
  have hkle : ∀ k, k + 1 ≤ threadCount - 1 → per * k + per ≤ per * (threadCount - 1) := by
    intro k hk
    have := Nat.mul_le_mul_left per hk
    rw [Nat.mul_succ] at this
    exact this
  have hkeq : ∀ k1 k2 b, 0 < per → per * k1 ≤ b → b < per * k1 + per → per * k2 ≤ b →
      b < per * k2 + per → k1 = k2 := by
    intro k1 k2 b hp h1 h2 h3 h4
    have e1 : b / per = k1 :=
      Nat.div_eq_of_lt_le (by rw [Nat.mul_comm]; exact h1)
        (by rw [Nat.succ_mul, Nat.mul_comm]; exact h2)
    have e2 : b / per = k2 :=
      Nat.div_eq_of_lt_le (by rw [Nat.mul_comm]; exact h3)
        (by rw [Nat.succ_mul, Nat.mul_comm]; exact h4)
    omega
  refine ⟨fun j => if j < threadCount then
      Prepare.assigned { mStorage := pStorage, mChunkIndex := i } threadCount n per sel j
    else [], ?_, ?_, ?_, ?_, ?_⟩
  · intro j
    by_cases hj : j < threadCount
    · simp only [if_pos hj]
      exact (hlow j hj).1
    · simp only [if_neg hj, List.append_nil]
      exact (hhigh j (by omega)).1
  · intro j
    by_cases hj : j < threadCount
    · simp only [if_pos hj]
      exact Prepare.assigned_length _ _ _ _ _ _
    · simp only [if_neg hj, List.length_nil]
      omega
  · intro j it hit
    by_cases hj : j < threadCount
    · simp only [if_pos hj] at hit
      rcases (Prepare.mem_assigned _ _ _ _ _ _ _).mp hit with ⟨_, hk, rfl⟩ | ⟨hne, hp, rfl⟩
      · exact ⟨hj, rfl, hk, le_refl _⟩
      · refine ⟨hj, rfl, by simp only; omega, ?_⟩
        simp only
        have := hkle (if j < sel then j else j - 1) (by split_ifs <;> omega)
        omega
    · simp only [if_neg hj] at hit
      cases hit
  · intro b hb
    by_cases hbl : per * (threadCount - 1) ≤ b
    · refine ⟨sel, ⟨⟨pStorage, i⟩, per * (threadCount - 1), n⟩, ?_, hbl, hb⟩
      simp only [if_pos hsel]
      exact (Prepare.mem_assigned _ _ _ _ _ _ _).mpr (Or.inl ⟨rfl, by omega, rfl⟩)
    · have hp : 0 < per := by
        by_contra h0
        have : per = 0 := by omega
        rw [this] at hbl
        simp at hbl
      have hklt : b / per < threadCount - 1 :=
        Nat.div_lt_of_lt_mul (by omega)
      have hlo : per * (b / per) ≤ b := Nat.mul_div_le b per
      have hhi : b < per * (b / per) + per := by
        have := Nat.lt_mul_div_succ b hp
        rw [Nat.mul_succ] at this
        exact this
      by_cases hks : b / per < sel
      · refine ⟨b / per, ⟨⟨pStorage, i⟩, per * (b / per), per * (b / per) + per⟩, ?_, hlo, hhi⟩
        simp only [if_pos (by omega : b / per < threadCount)]
        refine (Prepare.mem_assigned _ _ _ _ _ _ _).mpr (Or.inr ⟨by omega, hp, ?_⟩)
        rw [if_pos hks]
      · refine ⟨b / per + 1, ⟨⟨pStorage, i⟩, per * (b / per), per * (b / per) + per⟩, ?_, hlo,
          hhi⟩
        simp only [if_pos (by omega : b / per + 1 < threadCount)]
        refine (Prepare.mem_assigned _ _ _ _ _ _ _).mpr (Or.inr ⟨by omega, hp, ?_⟩)
        rw [if_neg (by omega)]
        rfl
  · intro j1 it1 j2 it2 b h1 h2 hl1 hu1 hl2 hu2
    by_cases hj1 : j1 < threadCount
    · by_cases hj2 : j2 < threadCount
      · simp only [if_pos hj1] at h1
        simp only [if_pos hj2] at h2
        rcases (Prepare.mem_assigned _ _ _ _ _ _ _).mp h1 with ⟨e1, _, rfl⟩ | ⟨ne1, hp1, rfl⟩
        · rcases (Prepare.mem_assigned _ _ _ _ _ _ _).mp h2 with ⟨e2, _, rfl⟩ | ⟨ne2, hp2, rfl⟩
          · exact ⟨by rw [e1, e2], rfl⟩
          · exfalso
            simp only at hl1 hu2
            have := hkle (if j2 < sel then j2 else j2 - 1) (by split_ifs <;> omega)
            omega
        · rcases (Prepare.mem_assigned _ _ _ _ _ _ _).mp h2 with ⟨e2, _, rfl⟩ | ⟨ne2, hp2, rfl⟩
          · exfalso
            simp only at hl2 hu1
            have := hkle (if j1 < sel then j1 else j1 - 1) (by split_ifs <;> omega)
            omega
          · simp only at hl1 hu1 hl2 hu2
            have hk := hkeq _ _ b hp1 hl1 hu1 hl2 hu2
            have hjj : j1 = j2 := by
              split_ifs at hk <;> omega
            subst hjj
            exact ⟨rfl, rfl⟩
      · simp only [if_neg hj2] at h2
        cases h2
    · simp only [if_neg hj1] at h1
      cases h1

/-- Witness of C27: a chunk of 100 blocks and three workers with the loads 5, 3
and 3. -/
theorem Prepare_chunk_partition_witness :
    ∃ seg : Nat → List ParallelJobChunkSegement,
      (∀ j, (Prepare.chunk { mContext := 0, mIndex := 0 } 3 100 (100 / 3 / 16 * 16)
            exampleDivision 0).segments j
          = exampleDivision.segments j ++ seg j)
      ∧ (∀ j, (seg j).length ≤ 1)
      ∧ (∀ j it, it ∈ seg j →
          j < 3 ∧ it.pChunk = { mStorage := { mContext := 0, mIndex := 0 }, mChunkIndex := 0 }
            ∧ it.RangeStart < it.RangeEnd ∧ it.RangeEnd ≤ 100)
      ∧ (∀ b, b < 100 → ∃ j it, it ∈ seg j ∧ it.RangeStart ≤ b ∧ b < it.RangeEnd)
      ∧ ∀ j1 it1 j2 it2 b, it1 ∈ seg j1 → it2 ∈ seg j2 →
          it1.RangeStart ≤ b → b < it1.RangeEnd → it2.RangeStart ≤ b → b < it2.RangeEnd →
          j1 = j2 ∧ it1 = it2 :=
  Prepare_chunk_partition { mContext := 0, mIndex := 0 } 3 100 exampleDivision 0 (by decide)

theorem segmentsTotal_append (l1 l2 : List ParallelJobChunkSegement) :
    segmentsTotal (l1 ++ l2) = segmentsTotal l1 + segmentsTotal l2 := by
  simp [segmentsTotal, List.map_append, List.sum_append]

/-- The inner loop of `Prepare` for one chunk takes no segment from a worker. -/
theorem Prepare.chunk_mono (pStorage : StoragePtr) (threadCount n per : Nat) (d : Division)
    (i j : Nat) :
    segmentsTotal (d.segments j)
      ≤ segmentsTotal ((Prepare.chunk pStorage threadCount n per d i).segments j) := by
  obtain ⟨hlow, hhigh⟩ := Prepare.chunk_shape pStorage threadCount n per d i
  by_cases hj : j < threadCount
  · rw [(hlow j hj).1, segmentsTotal_append]
    omega
  · rw [(hhigh j (by omega)).1]

/-- The loop of `Prepare` over the chunks of a storage takes no segment from a
worker. -/
theorem Prepare.chunks_mono (pStorage : StoragePtr) (threadCount n per : Nat) (j : Nat)
    (l : List Nat) :
    ∀ d : Division,
      segmentsTotal (d.segments j)
        ≤ segmentsTotal
            ((List.foldl (Prepare.chunk pStorage threadCount n per) d l).segments j) := by
  induction l with
  | nil =>
    intro d
    exact le_refl _
  | cons x rest ih =>
    intro d
    rw [List.foldl_cons]
    exact le_trans (Prepare.chunk_mono pStorage threadCount n per d x j) (ih _)

/-- The loops of `Prepare` over the storages take no segment from a worker. -/
theorem Prepare.storages_mono (threadCount : Nat) (j : Nat)
    (vecStorages : List (StoragePtr × EntityComponentStorage)) :
    ∀ d : Division,
      segmentsTotal (d.segments j)
        ≤ segmentsTotal ((List.foldl (Prepare.storage threadCount) d vecStorages).segments j) := by
  induction vecStorages with
  | nil =>
    intro d
    exact le_refl _
  | cons ps rest ih =>
    intro d
    rw [List.foldl_cons]
    refine le_trans ?_ (ih _)
    unfold Prepare.storage
    exact Prepare.chunks_mono _ _ _ _ j _ d

/-- The inner loop of `Prepare` for one chunk keeps the load of a worker equal to
the blocks of its segments, as long as these are fewer than 2^31. -/
theorem Prepare.chunk_total (pStorage : StoragePtr) (threadCount n per : Nat) (d : Division)
    (i j : Nat) (h : d.threadTaskCounts j = (segmentsTotal (d.segments j) : Int))
    (hlt : segmentsTotal ((Prepare.chunk pStorage threadCount n per d i).segments j) < 2 ^ 31) :
    (Prepare.chunk pStorage threadCount n per d i).threadTaskCounts j
      = (segmentsTotal ((Prepare.chunk pStorage threadCount n per d i).segments j) : Int) := by
  obtain ⟨hlow, hhigh⟩ := Prepare.chunk_shape pStorage threadCount n per d i
  by_cases hj : j < threadCount
  · rw [(hlow j hj).1, segmentsTotal_append] at hlt
    rw [(hlow j hj).1, (hlow j hj).2, segmentsTotal_append, h]
    generalize segmentsTotal (d.segments j) = x at hlt
    generalize segmentsTotal
      (Prepare.assigned { mStorage := pStorage, mChunkIndex := i } threadCount n per
        (min_element d.threadTaskCounts threadCount) j) = y at hlt
    by_cases hy : y = 0
    · rw [if_pos hy, hy]
      simp
    · rw [if_neg hy, i32_eq _ (by omega) (by omega)]
      push_cast
      rfl
  · rw [(hhigh j (by omega)).1, (hhigh j (by omega)).2, h]

/-- The loops of `Prepare` over the storages keep the load of a worker equal to
the blocks of its segments, as long as these are fewer than 2^31. -/
theorem Prepare.storages_total (threadCount : Nat) (j : Nat)
    (vecStorages : List (StoragePtr × EntityComponentStorage)) :
    ∀ d : Division, d.threadTaskCounts j = (segmentsTotal (d.segments j) : Int) →
      segmentsTotal ((List.foldl (Prepare.storage threadCount) d vecStorages).segments j)
        < 2 ^ 31 →
      (List.foldl (Prepare.storage threadCount) d vecStorages).threadTaskCounts j
        = (segmentsTotal
            ((List.foldl (Prepare.storage threadCount) d vecStorages).segments j) : Int) := by
  have hchunks : ∀ (ps : StoragePtr) (n per : Nat) (l : List Nat) (d : Division),
      d.threadTaskCounts j = (segmentsTotal (d.segments j) : Int) →
      segmentsTotal ((List.foldl (Prepare.chunk ps threadCount n per) d l).segments j)
        < 2 ^ 31 →
      (List.foldl (Prepare.chunk ps threadCount n per) d l).threadTaskCounts j
        = (segmentsTotal
            ((List.foldl (Prepare.chunk ps threadCount n per) d l).segments j) : Int) := by
    intro ps n per l
    induction l with
    | nil =>
      intro d hd _
      exact hd
    | cons x rest ih =>
      intro d hd hlt
      rw [List.foldl_cons] at hlt ⊢
      refine ih _ (Prepare.chunk_total ps threadCount n per d x j hd ?_) hlt
      exact lt_of_le_of_lt (Prepare.chunks_mono ps threadCount n per j rest _) hlt
  induction vecStorages with
  | nil =>
    intro d hd _
    exact hd
  | cons ps rest ih =>
    intro d hd hlt
    rw [List.foldl_cons] at hlt ⊢
    refine ih _ ?_ hlt
    have hlt2 := lt_of_le_of_lt (Prepare.storages_mono threadCount j rest _) hlt
    unfold Prepare.storage at hlt2 ⊢
    exact hchunks _ _ _ _ d hd hlt2

/-- C28 (amended): for every chunk of `n` blocks, every worker count `threadCount` of
at least 1 and every division: `Prepare` hands out the chunks of a storage with
`entityCountPerChunk / threadCount / 16 * 16` blocks per worker; the selected worker
is a worker with the smallest load, and the first of these; for a chunk with a
block it gets the segment from `perWorkerCount * (threadCount - 1)` to `n`, and no
segment for a chunk without blocks; every other worker below `threadCount` gets one
segment of `perWorkerCount` blocks, and no segment when `perWorkerCount` is 0; the
load of a worker, an `int`, stays the number of blocks of its segments as long as
that number is below 2^31, and after the loops of `Prepare` over any list of
storages it is that number for every worker whose segments have fewer than 2^31
blocks. -/
theorem Prepare_chunk_ranges (pStorage : StoragePtr) (threadCount n : Nat) (d : Division)
    (i : Nat) (vecStorages : List (StoragePtr × EntityComponentStorage))
    (ht : 1 ≤ threadCount) :
    (∀ (d0 : Division) (ps : StoragePtr × EntityComponentStorage),
        Prepare.storage threadCount d0 ps
          = List.foldl
              (Prepare.chunk ps.1 threadCount ps.2.mEntityCountPerChunk
                (ps.2.mEntityCountPerChunk / threadCount / 16 * 16))
              d0 (List.range ps.2.mChunkCount))
      ∧ min_element d.threadTaskCounts threadCount < threadCount
      ∧ (∀ j, j < threadCount →
          d.threadTaskCounts (min_element d.threadTaskCounts threadCount) ≤ d.threadTaskCounts j)
      ∧ (∀ j, j < min_element d.threadTaskCounts threadCount →
          d.threadTaskCounts (min_element d.threadTaskCounts threadCount) < d.threadTaskCounts j)
      ∧ (1 ≤ n →
          (Prepare.chunk pStorage threadCount n (n / threadCount / 16 * 16) d i).segments
              (min_element d.threadTaskCounts threadCount)
            = d.segments (min_element d.threadTaskCounts threadCount)
              ++ [{ pChunk := { mStorage := pStorage, mChunkIndex := i }
                    RangeStart := n / threadCount / 16 * 16 * (threadCount - 1)
                    RangeEnd := n }])
      ∧ (n = 0 →
          (Prepare.chunk pStorage threadCount n (n / threadCount / 16 * 16) d i).segments
              (min_element d.threadTaskCounts threadCount)
            = d.segments (min_element d.threadTaskCounts threadCount))
      ∧ (∀ j, j < threadCount → j ≠ min_element d.threadTaskCounts threadCount →
          0 < n / threadCount / 16 * 16 →
          ∃ lo,
            (Prepare.chunk pStorage threadCount n (n / threadCount / 16 * 16) d i).segments j
              = d.segments j
                ++ [{ pChunk := { mStorage := pStorage, mChunkIndex := i }
                      RangeStart := lo
                      RangeEnd := lo + n / threadCount / 16 * 16 }])
      ∧ (∀ j, j < threadCount → j ≠ min_element d.threadTaskCounts threadCount →
          n / threadCount / 16 * 16 = 0 →
          (Prepare.chunk pStorage threadCount n (n / threadCount / 16 * 16) d i).segments j
            = d.segments j)
      ∧ (∀ j, d.threadTaskCounts j = (segmentsTotal (d.segments j) : Int) →
          segmentsTotal
              ((Prepare.chunk pStorage threadCount n (n / threadCount / 16 * 16) d i).segments j)
            < 2 ^ 31 →
          (Prepare.chunk pStorage threadCount n (n / threadCount / 16 * 16) d i).threadTaskCounts j
            = (segmentsTotal
                ((Prepare.chunk pStorage threadCount n (n / threadCount / 16 * 16) d i).segments
                  j) : Int))
      ∧ ∀ j,
          segmentsTotal
              ((List.foldl (Prepare.storage threadCount) Division.init vecStorages).segments j)
            < 2 ^ 31 →
          (List.foldl (Prepare.storage threadCount) Division.init vecStorages).threadTaskCounts j
            = (segmentsTotal
                ((List.foldl (Prepare.storage threadCount) Division.init vecStorages).segments
                  j) : Int) := by
  obtain ⟨hlow, _⟩ := Prepare.chunk_shape pStorage threadCount n (n / threadCount / 16 * 16) d i
  obtain ⟨hsel, hmin, hfirst⟩ := min_element_spec d.threadTaskCounts threadCount (by omega)
  have hper := Prepare.per_le n threadCount
  have hlast : 1 ≤ n → n / threadCount / 16 * 16 * (threadCount - 1) < n := by
    intro hn
    have hmul : ∀ p : Nat, p * (threadCount - 1) + p = p * threadCount := by
      intro p
      have h := Nat.mul_succ p (threadCount - 1)
      rw [show (threadCount - 1).succ = threadCount by omega] at h
      omega
    have h1 := hmul (n / threadCount / 16 * 16)
    by_cases hp : n / threadCount / 16 * 16 = 0
    · rw [hp, Nat.zero_mul]
      omega
    · omega
  refine ⟨fun _ _ => rfl, hsel, hmin, hfirst, ?_, ?_, ?_, ?_,
    fun j h hlt => Prepare.chunk_total _ _ _ _ _ _ j h hlt,
    fun j hlt => Prepare.storages_total threadCount j vecStorages Division.init rfl hlt⟩
  · intro hn
    rw [(hlow _ hsel).1]
    unfold Prepare.assigned
    rw [if_pos rfl, if_pos (hlast hn)]
  · intro hn
    rw [(hlow _ hsel).1]
    unfold Prepare.assigned
    rw [if_pos rfl, if_neg (by omega), List.append_nil]
  · intro j hj hne hp
    refine ⟨n / threadCount / 16 * 16
      * (if j < min_element d.threadTaskCounts threadCount then j else j - 1), ?_⟩
    rw [(hlow j hj).1]
    unfold Prepare.assigned
    rw [if_neg hne, if_pos hp]
  · intro j hj hne hp
    rw [(hlow j hj).1]
    unfold Prepare.assigned
    rw [if_neg hne, if_neg (by omega), List.append_nil]

set_option maxRecDepth 100000 in
/-- Witness of C28: a chunk of 100 blocks and three workers with the loads 5, 3
and 3, which are the blocks of their segments, and the storage of the example
world. -/
theorem Prepare_chunk_ranges_witness :
    (exampleDivision.threadTaskCounts 0 = (segmentsTotal (exampleDivision.segments 0) : Int)
        ∧ exampleDivision.threadTaskCounts 1
          = (segmentsTotal (exampleDivision.segments 1) : Int)
        ∧ exampleDivision.threadTaskCounts 2
          = (segmentsTotal (exampleDivision.segments 2) : Int)
        ∧ segmentsTotal
            ((Prepare.chunk { mContext := 0, mIndex := 0 } 3 100 (100 / 3 / 16 * 16)
              exampleDivision 0).segments 1) = 39
        ∧ segmentsTotal
            ((List.foldl (Prepare.storage 3) Division.init
              [(exampleEntity.mStorage, exampleStorage)]).segments 0) = 2)
      ∧ (∀ (d0 : Division) (ps : StoragePtr × EntityComponentStorage),
        Prepare.storage 3 d0 ps
          = List.foldl
              (Prepare.chunk ps.1 3 ps.2.mEntityCountPerChunk
                (ps.2.mEntityCountPerChunk / 3 / 16 * 16))
              d0 (List.range ps.2.mChunkCount))
      ∧ min_element exampleDivision.threadTaskCounts 3 < 3
      ∧ (∀ j, j < 3 →
          exampleDivision.threadTaskCounts (min_element exampleDivision.threadTaskCounts 3)
            ≤ exampleDivision.threadTaskCounts j)
      ∧ (∀ j, j < min_element exampleDivision.threadTaskCounts 3 →
          exampleDivision.threadTaskCounts (min_element exampleDivision.threadTaskCounts 3)
            < exampleDivision.threadTaskCounts j)
      ∧ (1 ≤ 100 →
          (Prepare.chunk { mContext := 0, mIndex := 0 } 3 100 (100 / 3 / 16 * 16)
              exampleDivision 0).segments (min_element exampleDivision.threadTaskCounts 3)
            = exampleDivision.segments (min_element exampleDivision.threadTaskCounts 3)
              ++ [{ pChunk := { mStorage := { mContext := 0, mIndex := 0 }, mChunkIndex := 0 }
                    RangeStart := 100 / 3 / 16 * 16 * (3 - 1)
                    RangeEnd := 100 }])
      ∧ (100 = 0 →
          (Prepare.chunk { mContext := 0, mIndex := 0 } 3 100 (100 / 3 / 16 * 16)
              exampleDivision 0).segments (min_element exampleDivision.threadTaskCounts 3)
            = exampleDivision.segments (min_element exampleDivision.threadTaskCounts 3))
      ∧ (∀ j, j < 3 → j ≠ min_element exampleDivision.threadTaskCounts 3 →
          0 < 100 / 3 / 16 * 16 →
          ∃ lo,
            (Prepare.chunk { mContext := 0, mIndex := 0 } 3 100 (100 / 3 / 16 * 16)
                exampleDivision 0).segments j
              = exampleDivision.segments j
                ++ [{ pChunk := { mStorage := { mContext := 0, mIndex := 0 }, mChunkIndex := 0 }
                      RangeStart := lo
                      RangeEnd := lo + 100 / 3 / 16 * 16 }])
      ∧ (∀ j, j < 3 → j ≠ min_element exampleDivision.threadTaskCounts 3 →
          100 / 3 / 16 * 16 = 0 →
          (Prepare.chunk { mContext := 0, mIndex := 0 } 3 100 (100 / 3 / 16 * 16)
              exampleDivision 0).segments j
            = exampleDivision.segments j)
      ∧ (∀ j, exampleDivision.threadTaskCounts j
            = (segmentsTotal (exampleDivision.segments j) : Int) →
          segmentsTotal
              ((Prepare.chunk { mContext := 0, mIndex := 0 } 3 100 (100 / 3 / 16 * 16)
                exampleDivision 0).segments j)
            < 2 ^ 31 →
          (Prepare.chunk { mContext := 0, mIndex := 0 } 3 100 (100 / 3 / 16 * 16)
              exampleDivision 0).threadTaskCounts j
            = (segmentsTotal
                ((Prepare.chunk { mContext := 0, mIndex := 0 } 3 100 (100 / 3 / 16 * 16)
                  exampleDivision 0).segments j) : Int))
      ∧ ∀ j,
          segmentsTotal
              ((List.foldl (Prepare.storage 3) Division.init
                [(exampleEntity.mStorage, exampleStorage)]).segments j)
            < 2 ^ 31 →
          (List.foldl (Prepare.storage 3) Division.init
              [(exampleEntity.mStorage, exampleStorage)]).threadTaskCounts j
            = (segmentsTotal
                ((List.foldl (Prepare.storage 3) Division.init
                  [(exampleEntity.mStorage, exampleStorage)]).segments j) : Int) :=
  ⟨by decide,
    Prepare_chunk_ranges { mContext := 0, mIndex := 0 } 3 100 exampleDivision 0
      [(exampleEntity.mStorage, exampleStorage)] (by decide)⟩

/-- One worker and a chunk of 1024 blocks: the worker gets the whole chunk, and its
load grows by 1024 as a sum of `int`. -/
theorem Prepare.chunk_single (pStorage : StoragePtr) (d : Division) (i : Nat) :
    segmentsTotal ((Prepare.chunk pStorage 1 1024 1024 d i).segments 0)
        = segmentsTotal (d.segments 0) + 1024
      ∧ (Prepare.chunk pStorage 1 1024 1024 d i).threadTaskCounts 0
        = i32 (d.threadTaskCounts 0 + 1024) := by
  obtain ⟨hlow, _⟩ := Prepare.chunk_shape pStorage 1 1024 1024 d i
  obtain ⟨h1, h2⟩ := hlow 0 (by omega)
  have hsel : min_element d.threadTaskCounts 1 = 0 := by
    have := (min_element_spec d.threadTaskCounts 1 (by omega)).1
    omega
  have hass : segmentsTotal
      (Prepare.assigned { mStorage := pStorage, mChunkIndex := i } 1 1024 1024
        (min_element d.threadTaskCounts 1) 0) = 1024 := by
    rw [hsel]
    unfold Prepare.assigned
    rw [if_pos rfl, if_pos (by omega)]
    simp [segmentsTotal, ParallelJobChunkSegement.count]
  rw [h1, h2, segmentsTotal_append, hass]
  exact ⟨rfl, by rw [if_neg (by omega)]; rfl⟩

/-- One worker and chunks of 1024 blocks: over a list of chunks, the blocks of the
worker grow by 1024 per chunk, and so does its load as a sum of `int`. -/
theorem Prepare.chunks_single (pStorage : StoragePtr) (l : List Nat) :
    ∀ d : Division, i32 (d.threadTaskCounts 0) = d.threadTaskCounts 0 →
      segmentsTotal ((List.foldl (Prepare.chunk pStorage 1 1024 1024) d l).segments 0)
          = segmentsTotal (d.segments 0) + 1024 * l.length
        ∧ (List.foldl (Prepare.chunk pStorage 1 1024 1024) d l).threadTaskCounts 0
          = i32 (d.threadTaskCounts 0 + (1024 * l.length : Nat)) := by
  induction l with
  | nil =>
    intro d hd
    refine ⟨rfl, ?_⟩
    simp only [List.foldl_nil, List.length_nil, Nat.mul_zero, Nat.cast_zero, add_zero]
    exact hd.symm
  | cons x rest ih =>
    intro d _
    rw [List.foldl_cons]
    obtain ⟨c1, c2⟩ := Prepare.chunk_single pStorage d x
    obtain ⟨g1, g2⟩ := ih (Prepare.chunk pStorage 1 1024 1024 d x)
      (by rw [c2]; unfold i32; omega)
    rw [g1, g2, c1, c2, List.length_cons, i32_add]
    refine ⟨by omega, congrArg i32 ?_⟩
    push_cast
    omega

/-- One worker and storages of 32768 chunks of 1024 blocks: the blocks of the
worker grow by 2^25 per storage, and so does its load as a sum of `int`. -/
theorem Prepare.storages_single (vecStorages : List (StoragePtr × EntityComponentStorage))
    (hwide : ∀ ps, ps ∈ vecStorages →
      ps.2.mEntityCountPerChunk = 1024 ∧ ps.2.mChunkCount = 32768) :
    ∀ d : Division, i32 (d.threadTaskCounts 0) = d.threadTaskCounts 0 →
      segmentsTotal ((List.foldl (Prepare.storage 1) d vecStorages).segments 0)
          = segmentsTotal (d.segments 0) + 33554432 * vecStorages.length
        ∧ (List.foldl (Prepare.storage 1) d vecStorages).threadTaskCounts 0
          = i32 (d.threadTaskCounts 0 + (33554432 * vecStorages.length : Nat)) := by
  induction vecStorages with
  | nil =>
    intro d hd
    refine ⟨rfl, ?_⟩
    simp only [List.foldl_nil, List.length_nil, Nat.mul_zero, Nat.cast_zero, add_zero]
    exact hd.symm
  | cons ps rest ih =>
    intro d hd
    rw [List.foldl_cons]
    obtain ⟨e1, e2⟩ := hwide ps (List.mem_cons_self _ _)
    have hst : Prepare.storage 1 d ps
        = List.foldl (Prepare.chunk ps.1 1 1024 1024) d (List.range 32768) := by
      unfold Prepare.storage
      rw [e1, e2]
    obtain ⟨c1, c2⟩ := Prepare.chunks_single ps.1 (List.range 32768) d hd
    rw [List.length_range] at c1 c2
    obtain ⟨g1, g2⟩ :=
      ih (fun q hq => hwide q (List.mem_cons_of_mem _ hq)) (Prepare.storage 1 d ps)
        (by rw [hst, c2]; unfold i32; omega)
    rw [g1, g2, hst, c1, c2, List.length_cons, i32_add]
    refine ⟨by omega, congrArg i32 ?_⟩
    push_cast
    omega

/-- C28 (counterexample): one worker and the 64 storages `wideStorages`, each with
32768 chunks of 1024 blocks. `Prepare` hands every chunk to worker 0: its segments
have 2^31 blocks, and its load `threadTaskCounts[0]`, an `int` that grew by 1024 per
chunk, is -2^31. -/
theorem Prepare_load_wraps :
    wideStorages.length = 64
      ∧ (∀ ps, ps ∈ wideStorages →
          ps.2.mEntityCountPerChunk = 1024 ∧ ps.2.mChunkCount = 32768)
      ∧ segmentsTotal
          ((List.foldl (Prepare.storage 1) Division.init wideStorages).segments 0)
        = 2147483648
      ∧ (List.foldl (Prepare.storage 1) Division.init wideStorages).threadTaskCounts 0
        = -2147483648 := by
  have hlen : wideStorages.length = 64 := by
    unfold wideStorages
    rw [List.length_map, List.length_range]
  have hwide : ∀ ps, ps ∈ wideStorages →
      ps.2.mEntityCountPerChunk = 1024 ∧ ps.2.mChunkCount = 32768 := by
    intro ps hps
    unfold wideStorages at hps
    obtain ⟨index, _, rfl⟩ := List.mem_map.mp hps
    exact ⟨rfl, rfl⟩
  obtain ⟨g1, g2⟩ := Prepare.storages_single wideStorages hwide Division.init rfl
  rw [hlen] at g1 g2
  refine ⟨hlen, hwide, ?_, ?_⟩
  · rw [g1]
    rfl
  · rw [g2]
    unfold i32 Division.init
    norm_num
/-! ## `EntityContext::GetEntity`, case by case -/

/-- What `EntityContext::GetEntity` returns, by the decoded fields of the
identifier. The block index is not compared with the number of blocks of the
chunk: for a block index past the blocks, `mValid` and `mGenID` are read from the
bytes of the component arrays, and the answer is null, the pointer
`&mEntitiesBuffer[blockIndex]`, or not determined when a byte was never set. -/
theorem EntityContext.GetEntity_cases (c : EntityContext) (eid : Nat) :
    (c.mEntityComponentStorageList.length ≤ (ParseEntityID eid).storageIndex →
        c.GetEntity eid = Lookup.null)
      ∧ ∀ s, c.mEntityComponentStorageList[(ParseEntityID eid).storageIndex]? = some s →
          (s.mChunkCount ≤ (ParseEntityID eid).chunkIndex → c.GetEntity eid = Lookup.null)
          ∧ ((ParseEntityID eid).chunkIndex < s.mChunkCount →
              (s.mChunks (ParseEntityID eid).chunkIndex).mBlockCount
                ≤ (ParseEntityID eid).blockIndex →
              ((s.mChunks (ParseEntityID eid).chunkIndex).validPast
                    (ParseEntityID eid).blockIndex = some true →
                  (s.mChunks (ParseEntityID eid).chunkIndex).genPast
                    (ParseEntityID eid).blockIndex = some (ParseEntityID eid).genid →
                  c.GetEntity eid
                    = Lookup.found ((s.mChunks (ParseEntityID eid).chunkIndex).entityPtr
                        (ParseEntityID eid).blockIndex))
                ∧ ((s.mChunks (ParseEntityID eid).chunkIndex).validPast
                      (ParseEntityID eid).blockIndex = some false →
                    c.GetEntity eid = Lookup.null)
                ∧ ((s.mChunks (ParseEntityID eid).chunkIndex).validPast
                      (ParseEntityID eid).blockIndex = some true →
                    ∀ g, (s.mChunks (ParseEntityID eid).chunkIndex).genPast
                      (ParseEntityID eid).blockIndex = some g →
                    g ≠ (ParseEntityID eid).genid → c.GetEntity eid = Lookup.null)
                ∧ ((s.mChunks (ParseEntityID eid).chunkIndex).validPast
                      (ParseEntityID eid).blockIndex = none →
                    c.GetEntity eid = Lookup.indeterminate)
                ∧ ((s.mChunks (ParseEntityID eid).chunkIndex).validPast
                      (ParseEntityID eid).blockIndex = some true →
                    (s.mChunks (ParseEntityID eid).chunkIndex).genPast
                      (ParseEntityID eid).blockIndex = none →
                    c.GetEntity eid = Lookup.indeterminate))
          ∧ ((ParseEntityID eid).chunkIndex < s.mChunkCount →
              (ParseEntityID eid).blockIndex
                < (s.mChunks (ParseEntityID eid).chunkIndex).mBlockCount →
              ((s.mChunks (ParseEntityID eid).chunkIndex).mEntitiesBuffer
                  (ParseEntityID eid).blockIndex).mValid = false ∨
                ((s.mChunks (ParseEntityID eid).chunkIndex).mEntitiesBuffer
                  (ParseEntityID eid).blockIndex).mGenID ≠ (ParseEntityID eid).genid →
              c.GetEntity eid = Lookup.null)
          ∧ ((ParseEntityID eid).chunkIndex < s.mChunkCount →
              (ParseEntityID eid).blockIndex
                < (s.mChunks (ParseEntityID eid).chunkIndex).mBlockCount →
              ((s.mChunks (ParseEntityID eid).chunkIndex).mEntitiesBuffer
                  (ParseEntityID eid).blockIndex).mValid = true →
              ((s.mChunks (ParseEntityID eid).chunkIndex).mEntitiesBuffer
                  (ParseEntityID eid).blockIndex).mGenID = (ParseEntityID eid).genid →
              c.GetEntity eid
                = Lookup.found ((s.mChunks (ParseEntityID eid).chunkIndex).entityPtr
                    (ParseEntityID eid).blockIndex)) := by
  unfold EntityContext.GetEntity
  simp only []
  generalize ParseEntityID eid = id
  constructor
  · intro h
    rw [List.getElem?_eq_none h]
  · intro s hs
    rw [hs]
    simp only []
    unfold EntityComponentStorage.GetEntity
    refine ⟨?_, ?_, ?_, ?_⟩
    · intro h
      rw [if_pos h]
    · intro h1 h2
      rw [if_neg (by omega), if_pos h2]
      refine ⟨?_, ?_, ?_, ?_, ?_⟩
      · intro hv hg
        simp [hv, hg, h2]
      · intro hv
        simp [hv]
      · intro hv g hg hne
        simp [hv, hg, h2, hne]
      · intro hv
        simp [hv]
      · intro hv hg
        simp [hv, hg, h2]
    · intro h1 h2 h3
      rw [if_neg (by omega), if_neg (by omega)]
      rcases h3 with h3 | h3
      · simp [h3]
      · cases hv : ((s.mChunks id.chunkIndex).mEntitiesBuffer id.blockIndex).mValid with
        | false => simp
        | true =>
          simp only [Bool.not_true, Bool.false_eq_true, if_false]
          rw [if_neg (by omega)]
          simp [h3]
    · intro h1 h2 h3 h4
      rw [if_neg (by omega), if_neg (by omega)]
      simp only [h3, Bool.not_true, Bool.false_eq_true, if_false]
      rw [if_neg (by omega)]
      simp [h4]

/-- A pointer `EntityContext::GetEntity` returns is `&mEntitiesBuffer[blockIndex]`
of the chunk the identifier decodes to. -/
theorem EntityContext.GetEntity_found (c : EntityContext) (eid : Nat) (q : EntityPtr)
    (h : c.GetEntity eid = Lookup.found q) :
    ∃ s, c.mEntityComponentStorageList[(ParseEntityID eid).storageIndex]? = some s
      ∧ (ParseEntityID eid).chunkIndex < s.mChunkCount
      ∧ q = (s.mChunks (ParseEntityID eid).chunkIndex).entityPtr (ParseEntityID eid).blockIndex := by
  obtain ⟨h1, h2⟩ := c.GetEntity_cases eid
  cases hl : c.mEntityComponentStorageList[(ParseEntityID eid).storageIndex]? with
  | none =>
    have hlen : c.mEntityComponentStorageList.length ≤ (ParseEntityID eid).storageIndex := by
      by_contra hlt
      rw [List.getElem?_eq_getElem (by omega)] at hl
      cases hl
    rw [h1 hlen] at h
    cases h
  | some s =>
    obtain ⟨g1, g2, g3, g4⟩ := h2 s hl
    refine ⟨s, rfl, ?_, ?_⟩
    · by_contra hch
      rw [g1 (by omega)] at h
      cases h
    · have hch : (ParseEntityID eid).chunkIndex < s.mChunkCount := by
        by_contra hch
        rw [g1 (by omega)] at h
        cases h
      by_cases hbl : (ParseEntityID eid).blockIndex
          < (s.mChunks (ParseEntityID eid).chunkIndex).mBlockCount
      · cases hv : ((s.mChunks (ParseEntityID eid).chunkIndex).mEntitiesBuffer
            (ParseEntityID eid).blockIndex).mValid with
        | false =>
          rw [g3 hch hbl (Or.inl hv)] at h
          cases h
        | true =>
          by_cases hg : ((s.mChunks (ParseEntityID eid).chunkIndex).mEntitiesBuffer
              (ParseEntityID eid).blockIndex).mGenID = (ParseEntityID eid).genid
          · rw [g4 hch hbl hv hg] at h
            simp only [Lookup.found.injEq] at h
            exact h.symm
          · rw [g3 hch hbl (Or.inr hg)] at h
            cases h
      · obtain ⟨k1, k2, k3, k4, k5⟩ := g2 hch (by omega)
        cases hv : (s.mChunks (ParseEntityID eid).chunkIndex).validPast
            (ParseEntityID eid).blockIndex with
        | none =>
          rw [k4 hv] at h
          cases h
        | some b =>
          cases b with
          | false =>
            rw [k2 hv] at h
            cases h
          | true =>
            cases hgp : (s.mChunks (ParseEntityID eid).chunkIndex).genPast
                (ParseEntityID eid).blockIndex with
            | none =>
              rw [k5 hv hgp] at h
              cases h
            | some g =>
              by_cases hg : g = (ParseEntityID eid).genid
              · rw [hg] at hgp
                rw [k1 hv hgp] at h
                simp only [Lookup.found.injEq] at h
                exact h.symm
              · rw [k3 hv g hgp hg] at h
                cases h

set_option maxRecDepth 100000 in
/-- C21 (a block index past the chunk): the identifier `imprintedId` decodes to
generation 7, storage 0, chunk 0 and block 2; the world `imprintedWorld` satisfies
the invariant, and the storage 0 of its context has one chunk, of two blocks, whose
record at block 0 holds a `Terrain` with the bytes 01 00 07 00 at its start.
`GetEntity` of the context and of the world read `mEntitiesBuffer[2]`, past the two
headers of the chunk, where the array of `Terrain` starts, and return the pointer
`&mEntitiesBuffer[2]`, which is no record, instead of null. -/
theorem GetEntity_slot_unchecked :
    (ParseEntityID imprintedId).genid = 7
      ∧ (ParseEntityID imprintedId).storageIndex = 0
      ∧ (ParseEntityID imprintedId).chunkIndex = 0
      ∧ (ParseEntityID imprintedId).blockIndex = 2
      ∧ imprintedWorld.Inv
      ∧ imprintedWorld.component exampleEntity Terrain = some (1 + 7 * 65536)
      ∧ (∀ c, c ∈ imprintedWorld.mEntityContexts 0 →
          (∀ s, s ∈ c.mEntityComponentStorageList[0]? →
            s.mChunkCount = 1 ∧ (s.mChunks 0).mBlockCount = 2)
          ∧ c.GetEntity imprintedId
            = Lookup.found
                { mStorage := { mContext := 0, mIndex := 0 }, mChunkIndex := 0,
                  mBlockIndex := 2 })
      ∧ imprintedWorld.GetEntity imprintedId
        = Lookup.found
            { mStorage := { mContext := 0, mIndex := 0 }, mChunkIndex := 0, mBlockIndex := 2 }
      ∧ ¬ imprintedWorld.Live
          { mStorage := { mContext := 0, mIndex := 0 }, mChunkIndex := 0, mBlockIndex := 2 }
      ∧ exampleWorld.GetEntity (packEntityID 1 0 0 0 5) = Lookup.null := by
  refine ⟨by decide, by decide, by decide, by decide, by decide, by decide, by decide,
    by decide, by decide, by decide⟩
/-! ## Identifiers and other contexts -/

/-- The identifier of a valid record packs its generation and its path, and decodes
to them. -/
theorem World.Live.parse {w : World} {p : EntityPtr} (hinv : w.Inv) (hlive : w.Live p) :
    ∃ s, w.storage p.mStorage = some s
      ∧ w.GetEntityID p
          = some (packEntityID (s.header p).mGenID p.mStorage.mContext p.mStorage.mIndex
              p.mChunkIndex p.mBlockIndex)
      ∧ ParseEntityID (packEntityID (s.header p).mGenID p.mStorage.mContext p.mStorage.mIndex
            p.mChunkIndex p.mBlockIndex)
          = { genid := (s.header p).mGenID, contextId := p.mStorage.mContext,
              storageIndex := p.mStorage.mIndex, chunkIndex := p.mChunkIndex,
              blockIndex := p.mBlockIndex } := by
  obtain ⟨c, s, hc, hs, hws, hcid, hctx, hidx, hlen, hst, hch, hbl, hv⟩ :=
    World.Live.path hinv hlive
  obtain ⟨hsinv, hsctx, hsidx, _⟩ := hst
  obtain ⟨hcap, hcnt, _, hchunks, _⟩ := hsinv
  obtain ⟨hcinv, hcid2, hcst, _, _, _⟩ := hchunks _ hch
  obtain ⟨_, hbc, hhdr, _⟩ := hcinv
  obtain ⟨_, _, _, hgen⟩ := hhdr _ hbl
  have hcap2 : s.mChunkArrayCapacity ≤ 32768 := by
    simp only [List.mem_cons, List.mem_singleton, List.not_mem_nil, or_false] at hcap
    omega
  have b1 : (s.header p).mGenID < 2 ^ 16 := hgen
  have b2 : p.mStorage.mContext < 2 ^ 8 := by
    simp only [MAX_CONTEXT_COUNT] at hctx
    omega
  have b3 : p.mStorage.mIndex < 2 ^ 10 := by
    have : MAX_STORAGE_COUNT_PER_CONTEXT = 1024 := by decide
    omega
  have b4 : p.mChunkIndex < 2 ^ 15 := by omega
  have b5 : p.mBlockIndex < 2 ^ 10 := by
    have : MAX_ENTITY_COUNT_PER_CHUNK = 1024 := by decide
    omega
  refine ⟨s, hws, ?_, (ParseEntityID_pack _ _ _ _ _ b1 b2 b3 b4 b5).1⟩
  unfold World.GetEntityID
  rw [hws]
  simp only [hsctx, hc, hcid, hsidx]

/-- C22: for every valid record `e` of a world that satisfies the invariant, its
identifier `eid` and every context `c2` of the world other than the context of `e`:
`c2.GetEntity(eid)` never returns `e`; a pointer it returns has the storage index,
the chunk index and the block index of `e` in `c2`, and is a valid record of `c2`
with the generation of `e` when the chunk of `c2` has a block with that index; it
returns such a record when `c2` has one; it returns null when `c2` has no
storage with the storage index of `e`, when that storage has no chunk with the
chunk index of `e`, and when the block with the block index of `e` in that chunk is
not valid or has another generation; the world resolves `eid` to `e`. -/
theorem GetEntity_other_context (w : World) (e : EntityPtr) (eid i : Nat) (c2 : EntityContext)
    (hinv : w.Inv) (hlive : w.Live e) (hid : w.GetEntityID e = some eid)
    (hi : i < MAX_CONTEXT_COUNT) (hne : i ≠ e.mStorage.mContext)
    (hc2 : w.mEntityContexts i = some c2) :
    c2.GetEntity eid ≠ Lookup.found e
      ∧ (∀ q, c2.GetEntity eid = Lookup.found q →
          q = { mStorage := { mContext := i, mIndex := e.mStorage.mIndex },
                mChunkIndex := e.mChunkIndex, mBlockIndex := e.mBlockIndex }
            ∧ ((∀ s2, c2.mEntityComponentStorageList[e.mStorage.mIndex]? = some s2 →
                  e.mBlockIndex < (s2.mChunks e.mChunkIndex).mBlockCount) →
                w.Live q
                  ∧ (w.header q).map Entity.mGenID = (w.header e).map Entity.mGenID))
      ∧ (∀ q, q = { mStorage := { mContext := i, mIndex := e.mStorage.mIndex },
                    mChunkIndex := e.mChunkIndex, mBlockIndex := e.mBlockIndex } →
          w.Live q → (w.header q).map Entity.mGenID = (w.header e).map Entity.mGenID →
          c2.GetEntity eid = Lookup.found q)
      ∧ (c2.mEntityComponentStorageList.length ≤ e.mStorage.mIndex →
          c2.GetEntity eid = Lookup.null)
      ∧ (∀ s2, c2.mEntityComponentStorageList[e.mStorage.mIndex]? = some s2 →
          (s2.mChunkCount ≤ e.mChunkIndex → c2.GetEntity eid = Lookup.null)
          ∧ (e.mChunkIndex < s2.mChunkCount →
              e.mBlockIndex < (s2.mChunks e.mChunkIndex).mBlockCount →
              ((s2.mChunks e.mChunkIndex).mEntitiesBuffer e.mBlockIndex).mValid = false ∨
                some ((s2.mChunks e.mChunkIndex).mEntitiesBuffer e.mBlockIndex).mGenID
                  ≠ (w.header e).map Entity.mGenID →
              c2.GetEntity eid = Lookup.null))
      ∧ w.GetEntity eid = Lookup.found e := by
  obtain ⟨s, hs, hid2, hparse⟩ := World.Live.parse hinv hlive
  rw [hid] at hid2
  simp only [Option.some.injEq] at hid2
  obtain ⟨eid', _, hid3, _, _, hworld⟩ := World.Live.resolve hinv hlive
  rw [hid] at hid3
  simp only [Option.some.injEq] at hid3
  rw [← hid3] at hworld
  obtain ⟨hcase1, hcase2⟩ := c2.GetEntity_cases eid
  rw [hid2, hparse] at hcase1 hcase2
  simp only at hcase1 hcase2
  rw [← hid2] at hcase1 hcase2
  have hhe : (w.header e).map Entity.mGenID = some (s.header e).mGenID := by
    unfold World.header
    rw [hs]
    rfl
  have hfound : ∀ q, c2.GetEntity eid = Lookup.found q →
      q = { mStorage := { mContext := i, mIndex := e.mStorage.mIndex },
            mChunkIndex := e.mChunkIndex, mBlockIndex := e.mBlockIndex }
        ∧ ((∀ s2, c2.mEntityComponentStorageList[e.mStorage.mIndex]? = some s2 →
              e.mBlockIndex < (s2.mChunks e.mChunkIndex).mBlockCount) →
            w.Live q
              ∧ (w.header q).map Entity.mGenID = (w.header e).map Entity.mGenID) := by
    intro q hq
    cases hl : c2.mEntityComponentStorageList[e.mStorage.mIndex]? with
    | none =>
      have hlen : c2.mEntityComponentStorageList.length ≤ e.mStorage.mIndex := by
        by_contra hlt
        rw [List.getElem?_eq_getElem (by omega)] at hl
        cases hl
      rw [hcase1 hlen] at hq
      cases hq
    | some s2 =>
      obtain ⟨g1, g2, g3, g4⟩ := hcase2 s2 hl
      have hlen : e.mStorage.mIndex < c2.mEntityComponentStorageList.length := by
        by_contra hge
        rw [List.getElem?_eq_none (by omega)] at hl
        cases hl
      obtain ⟨_, _, hsts⟩ := hinv.2.2 i hi c2 hc2
      obtain ⟨hs2inv, hs2ctx, hs2idx, _⟩ := hsts _ hlen s2 hl
      by_cases hch : e.mChunkIndex < s2.mChunkCount
      · by_cases hbl : e.mBlockIndex < (s2.mChunks e.mChunkIndex).mBlockCount
        · cases hv : ((s2.mChunks e.mChunkIndex).mEntitiesBuffer e.mBlockIndex).mValid with
          | false =>
            rw [g3 hch hbl (Or.inl hv)] at hq
            cases hq
          | true =>
            by_cases hg : ((s2.mChunks e.mChunkIndex).mEntitiesBuffer e.mBlockIndex).mGenID
                = (s.header e).mGenID
            · rw [g4 hch hbl hv hg] at hq
              simp only [Lookup.found.injEq] at hq
              obtain ⟨_, hcid, hcst, _⟩ := hs2inv.2.2.2.1 _ hch
              have hq2 : q = ⟨⟨i, e.mStorage.mIndex⟩, e.mChunkIndex, e.mBlockIndex⟩ := by
                rw [← hq]
                unfold EntityComponentChunk.entityPtr
                rw [hcst, hcid]
                unfold EntityComponentStorage.this
                rw [hs2ctx, hs2idx]
              have hws2 : w.storage { mContext := i, mIndex := e.mStorage.mIndex } = some s2 := by
                unfold World.storage
                simp only [hc2]
                exact hl
              refine ⟨hq2, fun _ => ⟨?_, ?_⟩⟩
              · rw [hq2]
                exact ⟨hi, s2, hws2, hch, hbl, hv⟩
              · rw [hhe, hq2]
                unfold World.header
                simp only [hws2, Option.map_some']
                exact congrArg some hg
            · rw [g3 hch hbl (Or.inr hg)] at hq
              cases hq
        · obtain ⟨s3, hl3, _, hq3⟩ := c2.GetEntity_found eid q hq
          rw [hid2, hparse] at hl3 hq3
          simp only at hl3 hq3
          rw [hl] at hl3
          simp only [Option.some.injEq] at hl3
          subst hl3
          obtain ⟨_, hcid, hcst, _⟩ := hs2inv.2.2.2.1 _ hch
          refine ⟨?_, fun hin => absurd (hin s2 rfl) hbl⟩
          rw [hq3]
          unfold EntityComponentChunk.entityPtr
          rw [hcst, hcid]
          unfold EntityComponentStorage.this
          rw [hs2ctx, hs2idx]
      · rw [g1 (by omega)] at hq
        cases hq
  refine ⟨?_, hfound, ?_, hcase1, ?_, hworld⟩
  · intro hq
    obtain ⟨hq2, _⟩ := hfound e hq
    apply hne
    have := congrArg (fun x => x.mStorage.mContext) hq2
    simp only at this
    exact this.symm
  · intro q hq hql hgen
    obtain ⟨_, s2, hs2, hch, hbl, hv⟩ := hql
    rw [hq] at hs2 hch hbl hv
    simp only [Option.mem_def] at hs2
    have hl : c2.mEntityComponentStorageList[e.mStorage.mIndex]? = some s2 := by
      unfold World.storage at hs2
      simp only [hc2] at hs2
      exact hs2
    obtain ⟨_, _, _, g4⟩ := hcase2 s2 hl
    have hlen : e.mStorage.mIndex < c2.mEntityComponentStorageList.length := by
      by_contra hge
      rw [List.getElem?_eq_none (by omega)] at hl
      cases hl
    obtain ⟨_, _, hsts⟩ := hinv.2.2 i hi c2 hc2
    obtain ⟨hs2inv, hs2ctx, hs2idx, _⟩ := hsts _ hlen s2 hl
    obtain ⟨_, hcid, hcst, _⟩ := hs2inv.2.2.2.1 _ hch
    have hg : ((s2.mChunks e.mChunkIndex).mEntitiesBuffer e.mBlockIndex).mGenID
        = (s.header e).mGenID := by
      rw [hhe, hq] at hgen
      unfold World.header at hgen
      simp only [hs2, Option.map_some', Option.some.injEq] at hgen
      exact hgen
    rw [g4 hch hbl hv hg, hq]
    unfold EntityComponentChunk.entityPtr
    rw [hcst, hcid]
    unfold EntityComponentStorage.this
    rw [hs2ctx, hs2idx]
  · intro s2 hl
    obtain ⟨g1, _, g3, _⟩ := hcase2 s2 hl
    refine ⟨g1, ?_⟩
    intro hch hbl hor
    apply g3 hch hbl
    rcases hor with h | h
    · exact Or.inl h
    · right
      intro hg
      apply h
      rw [hhe, hg]

set_option maxRecDepth 100000 in
/-- Witness of C22: the record of context 0 of the world with two contexts, and
context 1. -/
theorem GetEntity_other_context_witness :
    twinContext.GetEntity (packEntityID 1 0 0 0 0) ≠ Lookup.found exampleEntity
      ∧ (∀ q, twinContext.GetEntity (packEntityID 1 0 0 0 0) = Lookup.found q →
          q = { mStorage := { mContext := 1, mIndex := exampleEntity.mStorage.mIndex },
                mChunkIndex := exampleEntity.mChunkIndex,
                mBlockIndex := exampleEntity.mBlockIndex }
            ∧ ((∀ s2, twinContext.mEntityComponentStorageList[exampleEntity.mStorage.mIndex]?
                    = some s2 →
                  exampleEntity.mBlockIndex
                    < (s2.mChunks exampleEntity.mChunkIndex).mBlockCount) →
                twinWorld.Live q
                  ∧ (twinWorld.header q).map Entity.mGenID
                      = (twinWorld.header exampleEntity).map Entity.mGenID))
      ∧ (∀ q, q = { mStorage := { mContext := 1, mIndex := exampleEntity.mStorage.mIndex },
                    mChunkIndex := exampleEntity.mChunkIndex,
                    mBlockIndex := exampleEntity.mBlockIndex } →
          twinWorld.Live q →
          (twinWorld.header q).map Entity.mGenID
            = (twinWorld.header exampleEntity).map Entity.mGenID →
          twinContext.GetEntity (packEntityID 1 0 0 0 0) = Lookup.found q)
      ∧ (twinContext.mEntityComponentStorageList.length ≤ exampleEntity.mStorage.mIndex →
          twinContext.GetEntity (packEntityID 1 0 0 0 0) = Lookup.null)
      ∧ (∀ s2, twinContext.mEntityComponentStorageList[exampleEntity.mStorage.mIndex]?
            = some s2 →
          (s2.mChunkCount ≤ exampleEntity.mChunkIndex →
            twinContext.GetEntity (packEntityID 1 0 0 0 0) = Lookup.null)
          ∧ (exampleEntity.mChunkIndex < s2.mChunkCount →
              exampleEntity.mBlockIndex
                < (s2.mChunks exampleEntity.mChunkIndex).mBlockCount →
              ((s2.mChunks exampleEntity.mChunkIndex).mEntitiesBuffer
                  exampleEntity.mBlockIndex).mValid = false ∨
                some ((s2.mChunks exampleEntity.mChunkIndex).mEntitiesBuffer
                    exampleEntity.mBlockIndex).mGenID
                  ≠ (twinWorld.header exampleEntity).map Entity.mGenID →
              twinContext.GetEntity (packEntityID 1 0 0 0 0) = Lookup.null))
      ∧ twinWorld.GetEntity (packEntityID 1 0 0 0 0) = Lookup.found exampleEntity :=
  GetEntity_other_context twinWorld exampleEntity (packEntityID 1 0 0 0 0) 1 twinContext
    (by decide) (by decide) (by decide) (by decide) (by decide) (eq_some_getD _ _ (by decide))

set_option maxRecDepth 100000 in
/-- C22 (counterexample): in a world with two contexts that satisfies the
invariant, the record `exampleEntity` of context 0 and the record `twinEntity` of
context 1 are valid, the identifier of `exampleEntity` has the context field 0, and
`GetEntity` of context 1 returns `twinEntity` for it, not null. -/
theorem GetEntity_foreign_context :
    twinWorld.Inv
      ∧ twinWorld.Live exampleEntity ∧ twinWorld.Live twinEntity
      ∧ twinWorld.GetEntityID exampleEntity = some (packEntityID 1 0 0 0 0)
      ∧ (ParseEntityID (packEntityID 1 0 0 0 0)).contextId = 0
      ∧ twinWorld.mEntityContexts 1 = some twinContext
      ∧ twinContext.mContextId = 1
      ∧ twinContext.GetEntity (packEntityID 1 0 0 0 0) = Lookup.found twinEntity :=
  ⟨by decide, by decide, by decide, by decide, by decide, eq_some_getD _ _ (by decide),
    by decide, by decide⟩
/-! ## The state of a job -/

/-- The method `Prepare` assigns no state: the job it returns has the state it was
called in, which is not `Executing`, and both counters are zero. -/
theorem ParallelJobBase.Prepare_state (job : ParallelJobBase) (w : World) (pContext : Nat)
    (threadCount : Nat) (job1 : ParallelJobBase)
    (h : job.Prepare w pContext threadCount = some job1) :
    job1.mState = job.mState ∧ job.mState ≠ ParallelJobState.Executing
      ∧ job1.mThreadCount = threadCount
      ∧ job1.mStartCounter = 0 ∧ job1.mCompleteCounter = 0 := by
  unfold ParallelJobBase.Prepare at h
  by_cases hg : threadCount ≤ MAX_THREAD_COUNT ∧ job.mState ≠ ParallelJobState.Executing
  · rw [if_pos hg] at h
    cases hm : w.matchingStorages pContext job.ComponentTypes with
    | none =>
      rw [hm] at h
      cases h
    | some vec =>
      rw [hm] at h
      simp only [] at h
      by_cases he : vec.isEmpty = true
      · rw [if_pos he] at h
        cases h
        exact ⟨rfl, hg.2, rfl, rfl, rfl⟩
      · rw [if_neg he] at h
        by_cases ht : threadCount = 0
        · rw [if_pos ht] at h
          cases h
        · rw [if_neg ht] at h
          cases h
          exact ⟨rfl, hg.2, rfl, rfl, rfl⟩
  · rw [if_neg hg] at h
    cases h

/-- The method `Execute`: a call that returns took the start counter as its worker
index, which is below the worker count, and the job afterwards has both counters
increased by one and the state `Unprepared` when the completion counter reached the
worker count, `Executing` otherwise. -/
theorem ParallelJobBase.Execute_state {σ : Type} (job : ParallelJobBase) (w : World)
    (f : σ → Visit → σ) (acc : σ) (job1 : ParallelJobBase) (r : σ)
    (h : job.Execute w f acc = some (job1, r)) :
    job.mStartCounter < job.mThreadCount
      ∧ job1.mThreadCount = job.mThreadCount
      ∧ job1.mStartCounter = job.mStartCounter + 1
      ∧ job1.mCompleteCounter = job.mCompleteCounter + 1
      ∧ job1.mState
          = if job.mCompleteCounter + 1 = job.mThreadCount then ParallelJobState.Unprepared
            else ParallelJobState.Executing := by
  unfold ParallelJobBase.Execute at h
  simp only [] at h
  by_cases hg : job.mStartCounter < job.mThreadCount
  · rw [if_pos hg] at h
    cases hf : List.foldl (Execute.segment w job.ComponentTypes f) (some acc)
        (job.mDividedJobChunkSegmentArray job.mStartCounter) with
    | none =>
      rw [hf] at h
      cases h
    | some acc1 =>
      rw [hf] at h
      simp only [Option.some.injEq, Prod.mk.injEq] at h
      obtain ⟨h1, _⟩ := h
      rw [← h1]
      exact ⟨hg, rfl, rfl, rfl, rfl⟩
  · rw [if_neg hg] at h
    cases h

set_option maxRecDepth 100000 in
/-- C24 (the code at a default-constructed job): `Prepare` for two workers in the
context of the example world returns the job `exampleJob`, whose state is
`Unprepared`, not `Prepared`, and whose counters are zero; the first `Execute`
returns and leaves the state `Executing`, and the second `Execute` returns and
leaves the state `Unprepared` and both counters at two. -/
theorem Prepare_state_unprepared :
    (ParallelJobBase.new [Terrain]).mState = ParallelJobState.Unprepared
      ∧ ((ParallelJobBase.new [Terrain]).Prepare exampleWorld 0 2).isSome = true
      ∧ (((ParallelJobBase.new [Terrain]).Prepare exampleWorld 0 2).map
          (fun job => job.mState)) = some ParallelJobState.Unprepared
      ∧ exampleJob.mState = ParallelJobState.Unprepared
      ∧ exampleJob.mState ≠ ParallelJobState.Prepared
      ∧ exampleJob.mThreadCount = 2
      ∧ exampleJob.mStartCounter = 0 ∧ exampleJob.mCompleteCounter = 0
      ∧ (exampleJob.Execute exampleWorld Visit.record []).map
          (fun x => (x.1.mState, x.1.mStartCounter, x.1.mCompleteCounter))
          = some (ParallelJobState.Executing, 1, 1)
      ∧ ((exampleJob.Execute exampleWorld Visit.record []).bind
          (fun x => x.1.Execute exampleWorld Visit.record [])).map
          (fun x => (x.1.mState, x.1.mStartCounter, x.1.mCompleteCounter))
          = some (ParallelJobState.Unprepared, 2, 2) := by
  refine ⟨by decide, by decide, by decide, by decide, by decide, by decide, by decide,
    by decide, by decide, by decide⟩
/-! ## Events -/

/-- The log of a context is the log of its event manager. -/
theorem World.triggered_eq (w : World) (pContext : Nat) :
    w.triggered pContext = (w.GetEventManager pContext).map EventManager.triggered := by
  unfold World.triggered World.GetEventManager
  cases w.mEntityContexts pContext with
  | none => rfl
  | some c => rfl

/-- Worlds with the same event manager in a context have the same log there. -/
theorem World.triggered_congr {w w1 : World} {i : Nat}
    (h : w1.GetEventManager i = w.GetEventManager i) : w1.triggered i = w.triggered i := by
  rw [World.triggered_eq, World.triggered_eq, h]

theorem World.setStorage_triggered (w : World) (p : StoragePtr) (s : EntityComponentStorage)
    (i : Nat) : (w.setStorage p s).triggered i = w.triggered i :=
  World.triggered_congr (w.setStorage_GetEventManager p s i)

theorem World.GetEntityComponentStorage_triggered (w w1 : World) (pContext pArchetype : Nat)
    (ps : StoragePtr) (h : w.GetEntityComponentStorage pContext pArchetype = some (w1, ps))
    (i : Nat) : w1.triggered i = w.triggered i :=
  World.triggered_congr (w.GetEntityComponentStorage_GetEventManager w1 pContext pArchetype ps h i)

theorem World.Allocate_triggered (w w1 : World) (ps : StoragePtr) (b : Bool) (p : EntityPtr)
    (h : w.Allocate ps b = some (w1, p)) (i : Nat) : w1.triggered i = w.triggered i :=
  World.triggered_congr (w.Allocate_GetEventManager w1 ps b p h i)

theorem World.store_triggered (w w1 : World) (p : EntityPtr) (slot : ComponentSlot)
    (v : Option Value) (h : w.store p slot v = some w1) (i : Nat) :
    w1.triggered i = w.triggered i :=
  World.triggered_congr (w.store_GetEventManager w1 p slot v h i)

theorem World.ConstructEntity_triggered (p : EntityPtr) (args : List (ComponentType × Value))
    (w w1 : World) (h : w.ConstructEntity p args = some w1) (i : Nat) :
    w1.triggered i = w.triggered i :=
  World.triggered_congr (World.ConstructEntity_GetEventManager p args w w1 h i)

theorem World.ConstructEntityDefault_triggered (p : EntityPtr) (Ts : List ComponentType)
    (w w1 : World) (h : w.ConstructEntityDefault p Ts = some w1) (i : Nat) :
    w1.triggered i = w.triggered i :=
  World.triggered_congr (World.ConstructEntityDefault_GetEventManager p Ts w w1 h i)

/-- A loop whose rounds keep the event logs keeps them. -/
theorem World.foldl_triggered (step : Option World → Nat → Option World)
    (hnone : ∀ k, step none k = none)
    (hstep : ∀ (w w1 : World) k, step (some w) k = some w1 →
      ∀ i, w1.triggered i = w.triggered i) (l : List Nat) :
    ∀ (w w1 : World), List.foldl step (some w) l = some w1 →
      ∀ i, w1.triggered i = w.triggered i := by
  induction l with
  | nil =>
    intro w w1 h i
    simp only [List.foldl_nil, Option.some.injEq] at h
    rw [h]
  | cons k rest ih =>
    intro w w1 h i
    rw [List.foldl_cons] at h
    cases hs : step (some w) k with
    | none =>
      rw [hs] at h
      have hn : ∀ l : List Nat, List.foldl step none l = none := by
        intro l
        induction l with
        | nil => rfl
        | cons k2 l2 ih2 => rw [List.foldl_cons, hnone, ih2]
      rw [hn] at h
      cases h
    | some w2 =>
      rw [hs] at h
      rw [ih w2 w1 h i, hstep w w2 k hs i]

theorem World.constructMissing_triggered (Args : List ComponentType) (a : EntityArchetype)
    (p : EntityPtr) (w w1 : World) (k : Nat)
    (h : World.constructMissing Args a p (some w) k = some w1) (i : Nat) :
    w1.triggered i = w.triggered i :=
  World.triggered_congr (World.constructMissing_GetEventManager Args a p w w1 k h i)

theorem World.CopyEntityData_triggered (w w1 : World) (pDst pSrc : EntityPtr)
    (h : w.CopyEntityData pDst pSrc = some w1) (i : Nat) :
    w1.triggered i = w.triggered i :=
  World.triggered_congr (w.CopyEntityData_GetEventManager w1 pDst pSrc h i)

theorem World.migrate_triggered (w w1 : World) (pContext : Nat) (pDst : Option Nat)
    (pSrc p : EntityPtr) (h : w.migrate pContext pDst pSrc = some (w1, p)) (i : Nat) :
    w1.triggered i = w.triggered i :=
  World.triggered_congr (w.migrate_GetEventManager w1 pContext pDst pSrc p h i)

/-- A write through a component pointer changes no header. -/
theorem World.store_header (w w1 : World) (p : EntityPtr) (slot : ComponentSlot)
    (v : Option Value) (h : w.store p slot v = some w1) (q : EntityPtr) :
    w1.header q = w.header q := by
  unfold World.store at h
  cases hs : w.storage p.mStorage with
  | none => simp [hs] at h
  | some s =>
    simp only [hs, Option.some.injEq] at h
    rw [← h]
    unfold World.header
    by_cases hq : q.mStorage = p.mStorage
    · rw [hq, w.storage_setStorage_same p.mStorage s _ hs, hs]
      simp only [Option.map_some', Option.some.injEq]
      unfold EntityComponentStorage.header EntityComponentStorage.store
      simp only []
      by_cases hc : q.mChunkIndex = p.mChunkIndex
      · rw [hc, setAt_same]
        rfl
      · rw [setAt_other _ _ _ _ hc]
    · rw [w.storage_setStorage_other p.mStorage _ _ hq]

/-- A write through a component pointer keeps the valid records valid, and makes no
other record valid. -/
theorem World.store_Live (w w1 : World) (p : EntityPtr) (slot : ComponentSlot)
    (v : Option Value) (h : w.store p slot v = some w1) (q : EntityPtr) :
    w1.Live q ↔ w.Live q := by
  unfold World.store at h
  cases hs : w.storage p.mStorage with
  | none => simp [hs] at h
  | some s =>
    simp only [hs, Option.some.injEq] at h
    rw [← h]
    unfold World.Live
    by_cases hq : q.mStorage = p.mStorage
    · rw [hq, w.storage_setStorage_same p.mStorage s _ hs, hs]
      simp only [Option.mem_def, Option.some.injEq, exists_eq_left']
      have e1 : (s.store p slot v).mChunkCount = s.mChunkCount := rfl
      have e2 : ((s.store p slot v).mChunks q.mChunkIndex).mBlockCount
          = (s.mChunks q.mChunkIndex).mBlockCount := by
        unfold EntityComponentStorage.store
        simp only []
        by_cases hc : q.mChunkIndex = p.mChunkIndex
        · rw [hc, setAt_same]
          rfl
        · rw [setAt_other _ _ _ _ hc]
      have e3 : (s.store p slot v).header q = s.header q := by
        unfold EntityComponentStorage.header EntityComponentStorage.store
        simp only []
        by_cases hc : q.mChunkIndex = p.mChunkIndex
        · rw [hc, setAt_same]
          rfl
        · rw [setAt_other _ _ _ _ hc]
      rw [e1, e2, e3]
    · rw [w.storage_setStorage_other p.mStorage _ _ hq]

/-- A call of `SetComponent` that returns changes no event manager and no header,
and the same records are valid. -/
theorem World.SetComponent_kept (w w1 : World) (p : EntityPtr) (T : ComponentType)
    (v : Value) (b : Bool) (h : w.SetComponent p T v = some (w1, b)) :
    (∀ i, w1.GetEventManager i = w.GetEventManager i) ∧ (∀ q, w1.header q = w.header q)
      ∧ ∀ q, w1.Live q ↔ w.Live q := by
  unfold World.SetComponent at h
  cases hg : w.GetComponent p T with
  | none => simp [hg] at h
  | some o =>
    cases o with
    | none =>
      simp only [hg, Option.some.injEq, Prod.mk.injEq] at h
      rw [← h.1]
      exact ⟨fun _ => rfl, fun _ => rfl, fun _ => Iff.rfl⟩
    | some slot =>
      simp only [hg] at h
      cases hst : w.store p slot (some v) with
      | none => simp [hst] at h
      | some w2 =>
        simp only [hst, Option.map_some', Option.some.injEq, Prod.mk.injEq] at h
        rw [← h.1]
        exact ⟨fun i => w.store_GetEventManager w2 p slot _ hst i,
          fun q => w.store_header w2 p slot _ hst q, fun q => w.store_Live w2 p slot _ hst q⟩

/-- The assignments of a callback, when they return, change no event manager and no
header, and the same records are valid. -/
theorem World.assign_kept (p : EntityPtr) (l : List (ComponentType × Value)) :
    ∀ (w w1 : World), w.assign p l = some w1 →
      (∀ i, w1.GetEventManager i = w.GetEventManager i) ∧ (∀ q, w1.header q = w.header q)
        ∧ ∀ q, w1.Live q ↔ w.Live q := by
  induction l with
  | nil =>
    intro w w1 h
    simp only [World.assign, Option.some.injEq] at h
    rw [← h]
    exact ⟨fun _ => rfl, fun _ => rfl, fun _ => Iff.rfl⟩
  | cons x rest ih =>
    intro w w1 h
    obtain ⟨T, data⟩ := x
    simp only [World.assign] at h
    cases hs : w.SetComponent p T data with
    | none => simp [hs] at h
    | some r =>
      obtain ⟨w2, b⟩ := r
      simp only [hs] at h
      obtain ⟨a1, a2, a3⟩ := w.SetComponent_kept w2 p T data b hs
      obtain ⟨b1, b2, b3⟩ := ih w2 w1 h
      exact ⟨fun i => (b1 i).trans (a1 i), fun q => (b2 q).trans (a2 q),
        fun q => (b3 q).trans (a3 q)⟩

/-- The callbacks of an event, when they return, change no event manager and no
header, and the same records are valid. -/
theorem World.invoke_kept (p : EntityPtr) (l : EventCallbackList) :
    ∀ (w w1 : World), List.foldl (World.invoke p) (some w) l = some w1 →
      (∀ i, w1.GetEventManager i = w.GetEventManager i) ∧ (∀ q, w1.header q = w.header q)
        ∧ ∀ q, w1.Live q ↔ w.Live q := by
  have hnone : ∀ l : EventCallbackList, List.foldl (World.invoke p) none l = none := by
    intro l
    induction l with
    | nil => rfl
    | cons it rest ih => exact ih
  induction l with
  | nil =>
    intro w w1 h
    simp only [List.foldl_nil, Option.some.injEq] at h
    rw [← h]
    exact ⟨fun _ => rfl, fun _ => rfl, fun _ => Iff.rfl⟩
  | cons it rest ih =>
    intro w w1 h
    rw [List.foldl_cons] at h
    cases hs : World.invoke p (some w) it with
    | none =>
      rw [hs, hnone] at h
      cases h
    | some w2 =>
      rw [hs] at h
      have hk : (∀ i, w2.GetEventManager i = w.GetEventManager i)
          ∧ (∀ q, w2.header q = w.header q) ∧ ∀ q, w2.Live q ↔ w.Live q := by
        simp only [World.invoke] at hs
        cases hh : w.header p with
        | none => simp [hh] at hs
        | some e =>
          simp only [hh] at hs
          exact World.assign_kept p _ w w2 hs
      obtain ⟨b1, b2, b3⟩ := ih w2 w1 h
      exact ⟨fun i => (b1 i).trans (hk.1 i), fun q => (b2 q).trans (hk.2.1 q),
        fun q => (b3 q).trans (hk.2.2 q)⟩

/-- The method `TriggerEvent`, when it returns, has appended the event to the log of
the manager of the context, if it has one, and has kept every other log and every
header, whatever the callbacks did; the same records are valid. -/
theorem World.TriggerEvent_triggered (w w1 : World) (pContext : Nat) (evt : EntityEvent)
    (h : w.TriggerEvent pContext evt = some w1) :
    w.Raised w1 pContext evt ∧ (∀ q, w1.header q = w.header q)
      ∧ ∀ q, w1.Live q ↔ w.Live q := by
  unfold World.TriggerEvent at h
  cases hc : w.mEntityContexts pContext with
  | none => simp [hc] at h
  | some c =>
    simp only [hc] at h
    cases hem : c.mEventManager with
    | none =>
      simp only [hem, Option.some.injEq] at h
      rw [← h]
      refine ⟨⟨?_, fun _ _ => rfl⟩, fun _ => rfl, fun _ => Iff.rfl⟩
      unfold World.triggered
      simp [hc, hem]
    | some em =>
      simp only [hem] at h
      obtain ⟨k1, k2, k3⟩ := World.invoke_kept evt.pEntity _ _ w1 h
      have hst0 : ∀ r, (w.noteEvent pContext c em evt).storage r = w.storage r := by
        intro r
        unfold World.storage World.noteEvent
        by_cases hr : r.mContext = pContext
        · simp [hr, hc, setAt]
        · simp [setAt, hr]
      refine ⟨⟨?_, ?_⟩, ?_, ?_⟩
      · rw [World.triggered_congr (k1 pContext)]
        unfold World.triggered World.noteEvent
        simp [setAt, hc, hem]
      · intro i hi
        rw [World.triggered_congr (k1 i)]
        unfold World.triggered World.noteEvent
        simp [setAt, hi]
      · intro q
        rw [k2]
        unfold World.header
        rw [hst0]
      · intro q
        rw [k3]
        unfold World.Live
        rw [hst0]

/-- The method `OnEntityCreated` raises one creation event with the pointer, and
the header the pointer leads to then and afterwards. -/
theorem World.OnEntityCreated_triggered (w w1 : World) (pContext : Nat) (p : EntityPtr)
    (h : w.OnEntityCreated pContext p = some w1) :
    ∃ hd, w.header p = some hd ∧ w1.header p = some hd
      ∧ w.Raised w1 pContext (EntityEvent.created p hd) := by
  unfold World.OnEntityCreated at h
  cases hh : w.header p with
  | none => simp [hh] at h
  | some hd =>
    simp only [hh] at h
    obtain ⟨hr, hst, _⟩ := w.TriggerEvent_triggered w1 pContext _ h
    refine ⟨hd, rfl, ?_, hr⟩
    rw [hst]
    exact hh

/-- Logs that did not change before an event was raised. -/
theorem World.Raised.of_eq {w0 w w1 : World} {pContext : Nat} {evt : EntityEvent}
    (h0 : ∀ i, w.triggered i = w0.triggered i) (h : w.Raised w1 pContext evt) :
    w0.Raised w1 pContext evt := by
  refine ⟨?_, ?_⟩
  · rw [h.1, h0]
  · intro i hi
    rw [h.2 i hi, h0]
/-- The creation event raised at the end of a structural operation: the logs did
not change before it. -/
theorem World.OnEntityCreated_raised {w w0 w1 : World} {pContext : Nat} {p : EntityPtr}
    {l : List EntityEvent} (hl : w0.triggered pContext = some l)
    (h0 : ∀ i, w.triggered i = w0.triggered i)
    (h : w.OnEntityCreated pContext p = some w1) :
    ∃ hd, w1.header p = some hd
      ∧ w1.triggered pContext = some (l ++ [EntityEvent.created p hd])
      ∧ ∀ i, i ≠ pContext → w1.triggered i = w0.triggered i := by
  obtain ⟨hd, _, hh, hr⟩ := w.OnEntityCreated_triggered w1 pContext p h
  obtain ⟨r1, r2⟩ := World.Raised.of_eq h0 hr
  refine ⟨hd, hh, ?_, r2⟩
  rw [r1, hl]
  rfl

/-- C25: for every world and every context with an event manager attached, whose
log of received events is `l`: a call of `CreateEntity(pArchetype)`,
`CreateEntity(pArchetype, args...)`, `ExtendEntity(pSrcEntity, args...)`,
`ExtendEntity<Ts...>(pSrcEntity)` or `RemoveComponentsFromEntity<Ts...>(pSrcEntity)`
of the context that returns a record leaves the log `l` followed by one creation
event that carries the returned record, and leaves the logs of the other contexts
unchanged; a call that returns `nullptr` raises nothing. For a record `e` of a
storage of the context, `Release` returns when the world satisfies the invariant
and `e` is valid, and a `Release` that returns leaves the log `l` followed by one
deletion event that carries `e` with the header `e` had before the call, which is
valid, leaves the logs of the other contexts unchanged, and leaves `e` not
valid. -/
theorem events_raised (w : World) (pContext : Nat) (l : List EntityEvent)
    (hl : w.triggered pContext = some l) :
    (∀ pArchetype w1 p, w.CreateEntity pContext pArchetype = some (w1, p) →
        ∃ hd, w1.header p = some hd
          ∧ w1.triggered pContext = some (l ++ [EntityEvent.created p hd])
          ∧ ∀ i, i ≠ pContext → w1.triggered i = w.triggered i)
      ∧ (∀ pArchetype args w1 p,
          w.CreateEntityWith pContext pArchetype args = some (w1, p) →
          ∃ hd, w1.header p = some hd
            ∧ w1.triggered pContext = some (l ++ [EntityEvent.created p hd])
            ∧ ∀ i, i ≠ pContext → w1.triggered i = w.triggered i)
      ∧ (∀ pSrcEntity args w1 r, w.ExtendEntityWith pContext pSrcEntity args = some (w1, r) →
          (∀ p, r = some p →
            ∃ hd, w1.header p = some hd
              ∧ w1.triggered pContext = some (l ++ [EntityEvent.created p hd])
              ∧ ∀ i, i ≠ pContext → w1.triggered i = w.triggered i)
          ∧ (r = none → ∀ i, w1.triggered i = w.triggered i))
      ∧ (∀ pSrcEntity Ts w1 r, w.ExtendEntity pContext pSrcEntity Ts = some (w1, r) →
          (∀ p, r = some p →
            ∃ hd, w1.header p = some hd
              ∧ w1.triggered pContext = some (l ++ [EntityEvent.created p hd])
              ∧ ∀ i, i ≠ pContext → w1.triggered i = w.triggered i)
          ∧ (r = none → ∀ i, w1.triggered i = w.triggered i))
      ∧ (∀ pSrcEntity Ts w1 r,
          w.RemoveComponentsFromEntity pContext pSrcEntity Ts = some (w1, r) →
          (∀ p, r = some p →
            ∃ hd, w1.header p = some hd
              ∧ w1.triggered pContext = some (l ++ [EntityEvent.created p hd])
              ∧ ∀ i, i ≠ pContext → w1.triggered i = w.triggered i)
          ∧ (r = none → ∀ i, w1.triggered i = w.triggered i))
      ∧ (∀ e s, w.storage e.mStorage = some s → s.mContext = pContext →
          (w.Inv → w.Live e → (w.Release e).isSome = true)
          ∧ ∀ w1, w.Release e = some w1 →
              ∃ hd, w.header e = some hd ∧ hd.mValid = true
                ∧ w1.triggered pContext = some (l ++ [EntityEvent.deleted e hd])
                ∧ (∀ i, i ≠ pContext → w1.triggered i = w.triggered i)
                ∧ w1.IsValid e = some false) := by
  refine ⟨?_, ?_, ?_, ?_, ?_, ?_⟩
  · intro pArchetype w1 p h
    unfold World.CreateEntity at h
    cases hg : w.GetEntityComponentStorage pContext pArchetype with
    | none => simp [hg] at h
    | some r1 =>
      obtain ⟨wa, ps⟩ := r1
      simp only [hg] at h
      cases hal : wa.Allocate ps true with
      | none => simp [hal] at h
      | some r2 =>
        obtain ⟨wb, q⟩ := r2
        simp only [hal] at h
        cases ho : wb.OnEntityCreated pContext q with
        | none => simp [ho] at h
        | some wc =>
          simp only [ho, Option.map_some', Option.some.injEq, Prod.mk.injEq] at h
          obtain ⟨h1, h2⟩ := h
          subst h1 h2
          refine World.OnEntityCreated_raised hl ?_ ho
          intro i
          rw [wa.Allocate_triggered wb ps true q hal i,
            w.GetEntityComponentStorage_triggered wa pContext pArchetype ps hg i]
  · intro pArchetype args w1 p h
    unfold World.CreateEntityWith at h
    cases hg : w.GetEntityComponentStorage pContext pArchetype with
    | none => simp [hg] at h
    | some r1 =>
      obtain ⟨wa, ps⟩ := r1
      simp only [hg] at h
      cases hal : wa.Allocate ps false with
      | none => simp [hal] at h
      | some r2 =>
        obtain ⟨wb, q⟩ := r2
        cases ha : wa.archetype pArchetype with
        | none => simp [hal, ha] at h
        | some a =>
          simp only [hal, ha] at h
          cases hf : List.foldl (World.constructMissing (args.map Prod.fst) a q) (some wb)
              (List.range a.mComponentCount) with
          | none => simp [hf] at h
          | some wc =>
            simp only [hf] at h
            cases hce : wc.ConstructEntity q args with
            | none => simp [hce] at h
            | some wd =>
              simp only [hce] at h
              cases ho : wd.OnEntityCreated pContext q with
              | none => simp [ho] at h
              | some we =>
                simp only [ho, Option.map_some', Option.some.injEq, Prod.mk.injEq] at h
                obtain ⟨h1, h2⟩ := h
                subst h1 h2
                refine World.OnEntityCreated_raised hl ?_ ho
                intro i
                rw [World.ConstructEntity_triggered q args wc wd hce i,
                  World.foldl_triggered (World.constructMissing (args.map Prod.fst) a q)
                    (fun _ => rfl)
                    (fun u u1 k hk j =>
                      World.constructMissing_triggered (args.map Prod.fst) a q u u1 k hk j)
                    _ wb wc hf i,
                  wa.Allocate_triggered wb ps false q hal i,
                  w.GetEntityComponentStorage_triggered wa pContext pArchetype ps hg i]
  · intro pSrc args w1 r h
    unfold World.ExtendEntityWith at h
    cases hga : w.GetArchetype pSrc with
    | none => simp [hga] at h
    | some pa =>
      cases ha : w.archetype pa with
      | none => simp [hga, ha] at h
      | some a =>
        simp only [hga, ha] at h
        by_cases hany : a.ContainAnyComponents (args.map Prod.fst) = true
        · rw [if_pos hany] at h
          simp only [Option.some.injEq, Prod.mk.injEq] at h
          obtain ⟨h1, h2⟩ := h
          subst h1 h2
          exact ⟨fun p hp => (by cases hp), fun _ _ => rfl⟩
        · rw [if_neg hany] at h
          cases hadd : w.mArchetypeManager.AddComponents (args.map Prod.fst) pa with
          | none => simp [hadd] at h
          | some r1 =>
            obtain ⟨mgr, pd⟩ := r1
            simp only [hadd] at h
            cases hm : World.migrate { w with mArchetypeManager := mgr } pContext pd pSrc with
            | none => simp [hm] at h
            | some r2 =>
              obtain ⟨wc, q⟩ := r2
              simp only [hm] at h
              cases hce : wc.ConstructEntity q args with
              | none => simp [hce] at h
              | some wd =>
                simp only [hce] at h
                cases ho : wd.OnEntityCreated pContext q with
                | none => simp [ho] at h
                | some we =>
                  simp only [ho, Option.map_some', Option.some.injEq, Prod.mk.injEq] at h
                  obtain ⟨h1, h2⟩ := h
                  subst h1 h2
                  refine ⟨?_, fun hn => by cases hn⟩
                  intro p hp
                  simp only [Option.some.injEq] at hp
                  subst hp
                  refine World.OnEntityCreated_raised hl ?_ ho
                  intro i
                  rw [World.ConstructEntity_triggered q args wc wd hce i,
                    World.migrate_triggered _ wc pContext pd pSrc q hm i]
                  rfl
  · intro pSrc Ts w1 r h
    unfold World.ExtendEntity at h
    cases hga : w.GetArchetype pSrc with
    | none => simp [hga] at h
    | some pa =>
      cases ha : w.archetype pa with
      | none => simp [hga, ha] at h
      | some a =>
        simp only [hga, ha] at h
        by_cases hany : a.ContainAnyComponents Ts = true
        · rw [if_pos hany] at h
          simp only [Option.some.injEq, Prod.mk.injEq] at h
          obtain ⟨h1, h2⟩ := h
          subst h1 h2
          exact ⟨fun p hp => (by cases hp), fun _ _ => rfl⟩
        · rw [if_neg hany] at h
          cases hadd : w.mArchetypeManager.AddComponents Ts pa with
          | none => simp [hadd] at h
          | some r1 =>
            obtain ⟨mgr, pd⟩ := r1
            simp only [hadd] at h
            cases hm : World.migrate { w with mArchetypeManager := mgr } pContext pd pSrc with
            | none => simp [hm] at h
            | some r2 =>
              obtain ⟨wc, q⟩ := r2
              simp only [hm] at h
              cases hce : wc.ConstructEntityDefault q Ts with
              | none => simp [hce] at h
              | some wd =>
                simp only [hce] at h
                cases ho : wd.OnEntityCreated pContext q with
                | none => simp [ho] at h
                | some we =>
                  simp only [ho, Option.map_some', Option.some.injEq, Prod.mk.injEq] at h
                  obtain ⟨h1, h2⟩ := h
                  subst h1 h2
                  refine ⟨?_, fun hn => by cases hn⟩
                  intro p hp
                  simp only [Option.some.injEq] at hp
                  subst hp
                  refine World.OnEntityCreated_raised hl ?_ ho
                  intro i
                  rw [World.ConstructEntityDefault_triggered q Ts wc wd hce i,
                    World.migrate_triggered _ wc pContext pd pSrc q hm i]
                  rfl
  · intro pSrc Ts w1 r h
    unfold World.RemoveComponentsFromEntity at h
    cases hga : w.GetArchetype pSrc with
    | none => simp [hga] at h
    | some pa =>
      cases ha : w.archetype pa with
      | none => simp [hga, ha] at h
      | some a =>
        simp only [hga, ha] at h
        by_cases hall : (!a.ContainAllComponents Ts) = true
        · rw [if_pos hall] at h
          simp only [Option.some.injEq, Prod.mk.injEq] at h
          obtain ⟨h1, h2⟩ := h
          subst h1 h2
          exact ⟨fun p hp => (by cases hp), fun _ _ => rfl⟩
        · rw [if_neg hall] at h
          cases hrem : w.mArchetypeManager.RemoveComponents Ts pa with
          | none => simp [hrem] at h
          | some r1 =>
            obtain ⟨mgr, pd⟩ := r1
            simp only [hrem] at h
            cases hm : World.migrate { w with mArchetypeManager := mgr } pContext pd pSrc with
            | none => simp [hm] at h
            | some r2 =>
              obtain ⟨wc, q⟩ := r2
              simp only [hm] at h
              cases ho : wc.OnEntityCreated pContext q with
              | none => simp [ho] at h
              | some we =>
                simp only [ho, Option.map_some', Option.some.injEq, Prod.mk.injEq] at h
                obtain ⟨h1, h2⟩ := h
                subst h1 h2
                refine ⟨?_, fun hn => by cases hn⟩
                intro p hp
                simp only [Option.some.injEq] at hp
                subst hp
                refine World.OnEntityCreated_raised hl ?_ ho
                intro i
                rw [World.migrate_triggered _ wc pContext pd pSrc q hm i]
                rfl
  · intro e s hs hsc
    refine ⟨?_, ?_⟩
    · intro hinv hlive
      obtain ⟨_, w1, _, _, hrel, _⟩ := w.Release_spec e hinv hlive
      rw [hrel]
      rfl
    · intro w1 h
      unfold World.Release at h
      rw [hs] at h
      simp only [] at h
      cases hv : (s.header e).mValid with
      | false => simp [hv] at h
      | true =>
        simp only [hv, Bool.not_true, Bool.false_eq_true, if_false, hsc] at h
        cases ho : w.OnEntityDeleted pContext e with
        | none => simp [ho] at h
        | some wa =>
          simp only [ho] at h
          have hhd : w.header e = some (s.header e) := by
            unfold World.header
            rw [hs]
            rfl
          unfold World.OnEntityDeleted at ho
          rw [hhd] at ho
          simp only [] at ho
          obtain ⟨⟨r1, r2⟩, _, _⟩ := w.TriggerEvent_triggered wa pContext _ ho
          cases hs1 : wa.storage e.mStorage with
          | none => simp [hs1] at h
          | some s1 =>
            simp only [hs1] at h
            cases hd : s1.Deallocate e true with
            | none => simp [hd] at h
            | some s2 =>
              simp only [hd, Option.map_some', Option.some.injEq] at h
              subst h
              refine ⟨s.header e, hhd, hv, ?_, ?_, ?_⟩
              · rw [World.setStorage_triggered, r1, hl]
                rfl
              · intro i hi
                rw [World.setStorage_triggered, r2 i hi]
              · unfold World.IsValid World.header
                rw [World.storage_setStorage_same wa e.mStorage s1 s2 hs1]
                simp only [Option.map_some', Option.some.injEq]
                unfold EntityComponentStorage.Deallocate at hd
                simp only [] at hd
                cases hcd : (s1.mChunks e.mChunkIndex).Deallocate e true with
                | none => simp [hcd] at hd
                | some chunk =>
                  simp only [hcd, Option.some.injEq] at hd
                  have hb : (chunk.mEntitiesBuffer e.mBlockIndex).mValid = false := by
                    unfold EntityComponentChunk.Deallocate at hcd
                    by_cases hne : e.mChunkIndex ≠ (s1.mChunks e.mChunkIndex).mChunkId
                    · rw [if_pos hne] at hcd
                      cases hcd
                    · rw [if_neg hne] at hcd
                      simp only [Option.some.injEq] at hcd
                      rw [← hcd]
                      simp [setAt]
                  rw [← hd]
                  unfold EntityComponentStorage.header
                  by_cases hfull : (s1.mChunks e.mChunkIndex).IsFull = true
                  · simp [hfull, setAt, hb]
                  · simp [hfull, setAt, hb]
set_option maxRecDepth 100000 in
/-- Witness of C25: context 0 of the example world with an event manager that has
received nothing; `CreateEntity` there returns a record and `Release` of the record
of the world returns. -/
theorem events_raised_witness :
    eventWorld.triggered 0 = some []
      ∧ (eventWorld.CreateEntity 0 0).isSome = true
      ∧ (eventWorld.Release exampleEntity).isSome = true
      ∧ ((∀ pArchetype w1 p, eventWorld.CreateEntity 0 pArchetype = some (w1, p) →
          ∃ hd, w1.header p = some hd
            ∧ w1.triggered 0 = some ([] ++ [EntityEvent.created p hd])
            ∧ ∀ i, i ≠ 0 → w1.triggered i = eventWorld.triggered i)
        ∧ (∀ pArchetype args w1 p,
            eventWorld.CreateEntityWith 0 pArchetype args = some (w1, p) →
            ∃ hd, w1.header p = some hd
              ∧ w1.triggered 0 = some ([] ++ [EntityEvent.created p hd])
              ∧ ∀ i, i ≠ 0 → w1.triggered i = eventWorld.triggered i)
        ∧ (∀ pSrcEntity args w1 r,
            eventWorld.ExtendEntityWith 0 pSrcEntity args = some (w1, r) →
            (∀ p, r = some p →
              ∃ hd, w1.header p = some hd
                ∧ w1.triggered 0 = some ([] ++ [EntityEvent.created p hd])
                ∧ ∀ i, i ≠ 0 → w1.triggered i = eventWorld.triggered i)
            ∧ (r = none → ∀ i, w1.triggered i = eventWorld.triggered i))
        ∧ (∀ pSrcEntity Ts w1 r, eventWorld.ExtendEntity 0 pSrcEntity Ts = some (w1, r) →
            (∀ p, r = some p →
              ∃ hd, w1.header p = some hd
                ∧ w1.triggered 0 = some ([] ++ [EntityEvent.created p hd])
                ∧ ∀ i, i ≠ 0 → w1.triggered i = eventWorld.triggered i)
            ∧ (r = none → ∀ i, w1.triggered i = eventWorld.triggered i))
        ∧ (∀ pSrcEntity Ts w1 r,
            eventWorld.RemoveComponentsFromEntity 0 pSrcEntity Ts = some (w1, r) →
            (∀ p, r = some p →
              ∃ hd, w1.header p = some hd
                ∧ w1.triggered 0 = some ([] ++ [EntityEvent.created p hd])
                ∧ ∀ i, i ≠ 0 → w1.triggered i = eventWorld.triggered i)
            ∧ (r = none → ∀ i, w1.triggered i = eventWorld.triggered i))
        ∧ (∀ e s, eventWorld.storage e.mStorage = some s → s.mContext = 0 →
            (eventWorld.Inv → eventWorld.Live e → (eventWorld.Release e).isSome = true)
            ∧ ∀ w1, eventWorld.Release e = some w1 →
                ∃ hd, eventWorld.header e = some hd ∧ hd.mValid = true
                  ∧ w1.triggered 0 = some ([] ++ [EntityEvent.deleted e hd])
                  ∧ (∀ i, i ≠ 0 → w1.triggered i = eventWorld.triggered i)
                  ∧ w1.IsValid e = some false)) :=
  ⟨by decide, by decide, by decide, events_raised eventWorld 0 [] (by decide)⟩
/-! ## Concurrent calls of `Execute` -/

/-- The rounds of the loop of `Execute`, one step each. -/
theorem Execute.steps_loop {σ : Type} (w : World) (f : σ → Visit → σ) (job : ParallelJobBase)
    (idx : Option Nat) (L : List ParallelJobChunkSegement) :
    ∀ (acc r : σ), List.foldl (Execute.segment w job.ComponentTypes f) (some acc) L = some r →
      Execute.steps w f L.length
          (job, { point := ExecutePoint.loop, threadIndex := idx, chunkList := L,
                  pThreadLocalArg := acc })
        = some (job, { point := ExecutePoint.loop, threadIndex := idx, chunkList := [],
                       pThreadLocalArg := r }) := by
  induction L with
  | nil =>
    intro acc r h
    simp only [List.foldl_nil, Option.some.injEq] at h
    rw [h]
    rfl
  | cons it rest ih =>
    intro acc r h
    rw [List.foldl_cons] at h
    cases hs : Execute.segment w job.ComponentTypes f (some acc) it with
    | none =>
      rw [hs] at h
      have hn : ∀ l : List ParallelJobChunkSegement,
          List.foldl (Execute.segment w job.ComponentTypes f) none l = none := by
        intro l
        induction l with
        | nil => rfl
        | cons x l2 ih2 =>
          rw [List.foldl_cons]
          exact ih2
      rw [hn] at h
      cases h
    | some acc1 =>
      rw [hs] at h
      simp only [List.length_cons, Execute.steps, Execute.step, hs]
      exact ih acc1 r h

/-- A call of `Execute` that runs alone is the steps of `Execute.step` in a row:
one for the start counter, one for each segment, one for the completion counter. -/
theorem ParallelJobBase.Execute_steps {σ : Type} (job : ParallelJobBase) (w : World)
    (f : σ → Visit → σ) (acc : σ) (job1 : ParallelJobBase) (r : σ)
    (h : job.Execute w f acc = some (job1, r)) :
    Execute.steps w f ((job.mDividedJobChunkSegmentArray job.mStartCounter).length + 2)
        (job, ExecuteCall.new acc)
      = some (job1, { point := ExecutePoint.returned, threadIndex := some job.mStartCounter,
                      chunkList := [], pThreadLocalArg := r }) := by
  unfold ParallelJobBase.Execute at h
  simp only [] at h
  by_cases hg : job.mStartCounter < job.mThreadCount
  · rw [if_pos hg] at h
    cases hf : List.foldl (Execute.segment w job.ComponentTypes f) (some acc)
        (job.mDividedJobChunkSegmentArray job.mStartCounter) with
    | none =>
      rw [hf] at h
      cases h
    | some acc1 =>
      rw [hf] at h
      simp only [Option.some.injEq, Prod.mk.injEq] at h
      obtain ⟨h1, h2⟩ := h
      subst h2
      have hloop := Execute.steps_loop w f
        { job with
          mStartCounter := job.mStartCounter + 1
          mState := ParallelJobState.Executing }
        (some job.mStartCounter) (job.mDividedJobChunkSegmentArray job.mStartCounter) acc acc1 hf
      have hsplit : ∀ (n : Nat) (a b : ParallelJobBase × ExecuteCall σ),
          Execute.steps w f n a = some b →
          Execute.steps w f (n + 1) a = Execute.step w f b.1 b.2 := by
        intro n
        induction n with
        | zero =>
          intro a b hab
          simp only [Execute.steps, Option.some.injEq] at hab
          subst hab
          simp only [Execute.steps]
          cases Execute.step w f a.1 a.2 <;> rfl
        | succ n ih =>
          intro a b hab
          simp only [Execute.steps] at hab ⊢
          cases hs : Execute.step w f a.1 a.2 with
          | none => simp [hs] at hab
          | some a1 =>
            simp only [hs] at hab ⊢
            exact ih a1 b hab
      have hfirst : Execute.steps w f
          ((job.mDividedJobChunkSegmentArray job.mStartCounter).length + 1)
          (job, ExecuteCall.new acc)
          = some ({ job with
                    mStartCounter := job.mStartCounter + 1
                    mState := ParallelJobState.Executing },
                  { point := ExecutePoint.loop, threadIndex := some job.mStartCounter,
                    chunkList := [], pThreadLocalArg := acc1 }) := by
        simp only [Execute.steps, Execute.step, ExecuteCall.new, if_pos hg]
        exact hloop
      rw [hsplit _ _ _ hfirst, ← h1]
      rfl
  · rw [if_neg hg] at h
    cases h

/-- The schedule `l` followed by a step of the thread `t`. -/
theorem Execute.interleave_append {σ : Type} (w : World) (f : σ → Visit → σ) (t : Nat)
    (l : List Nat) :
    ∀ st : ParallelJobBase × (Nat → ExecuteCall σ),
      Execute.interleave w f (l ++ [t]) st
        = (Execute.interleave w f l st).bind (fun st1 =>
            (Execute.step w f st1.1 (st1.2 t)).map (fun r => (r.1, setAt st1.2 t r.2))) := by
  induction l with
  | nil =>
    intro st
    simp only [List.nil_append, Execute.interleave, Option.some_bind]
    cases Execute.step w f st.1 (st.2 t) <;> rfl
  | cons u rest ih =>
    intro st
    simp only [List.cons_append, Execute.interleave]
    cases Execute.step w f st.1 (st.2 u) with
    | none => rfl
    | some r => exact ih _
/-- A step of the thread `t` that keeps the classes, the worker count and the
segments of the job, brings the start counter to the number of threads of the
longer schedule, and leaves the call of `t` as `Execute.Interleaved` describes it
with an index no other thread has: the longer schedule leads to the new state. -/
theorem Execute.Interleaved.push {w : World} {job : ParallelJobBase} {l : List Nat}
    {st : ParallelJobBase × (Nat → ExecuteCall (List Visit))} {t : Nat}
    (h : Execute.Interleaved w job l st) (job1 : ParallelJobBase)
    (call1 : ExecuteCall (List Visit))
    (h1 : job1.ComponentTypes = st.1.ComponentTypes)
    (h2 : job1.mThreadCount = st.1.mThreadCount)
    (h3 : job1.mDividedJobChunkSegmentArray = st.1.mDividedJobChunkSegmentArray)
    (h4 : job1.mStartCounter = (l ++ [t]).toFinset.card)
    (h5 : st.1.mStartCounter ≤ job1.mStartCounter)
    (h6 : ∃ j processed,
      call1.threadIndex = some j ∧ j < job1.mStartCounter
        ∧ processed ++ call1.chunkList = job.mDividedJobChunkSegmentArray j
        ∧ call1.pThreadLocalArg = processed.flatMap (w.segmentVisits job.ComponentTypes)
        ∧ ((call1.point = ExecutePoint.loop ∧ (l ++ [t]).count t = 1 + processed.length)
          ∨ (call1.point = ExecutePoint.returned ∧ call1.chunkList = []
              ∧ (job.mDividedJobChunkSegmentArray j).length + 2 ≤ (l ++ [t]).count t)))
    (h7 : ∀ u j, u ≠ t → call1.threadIndex = some j → (st.2 u).threadIndex ≠ some j) :
    Execute.Interleaved w job (l ++ [t]) (job1, setAt st.2 t call1) := by
  refine ⟨by rw [h1, h.types], by rw [h2, h.workers], by rw [h3, h.segments], h4, ?_, ?_, ?_⟩
  · intro u hu
    simp only [List.mem_append, List.mem_singleton, not_or] at hu
    simp only [setAt, if_neg hu.2]
    exact h.idle u hu.1
  · intro u hu
    by_cases hut : u = t
    · subst hut
      simp only [setAt, if_true]
      exact h6
    · simp only [List.mem_append, List.mem_singleton, hut, or_false] at hu
      obtain ⟨j, processed, b1, b2, b3, b4, b5⟩ := h.busy u hu
      simp only [setAt, if_neg hut]
      have hcount : (l ++ [t]).count u = l.count u := by
        have hut2 : ¬ t = u := fun e => hut e.symm
        rw [List.count_append, List.count_singleton]
        simp [hut2]
      refine ⟨j, processed, b1, by omega, b3, b4, ?_⟩
      rw [hcount]
      exact b5
  · intro u v j hu hv
    by_cases hut : u = t
    · by_cases hvt : v = t
      · rw [hut, hvt]
      · exfalso
        simp only [setAt, if_pos hut, if_neg hvt] at hu hv
        exact h7 v j hvt hu hv
    · by_cases hvt : v = t
      · exfalso
        simp only [setAt, if_neg hut, if_pos hvt] at hu hv
        exact h7 u j hut hv hu
      · simp only [setAt, if_neg hut, if_neg hvt] at hu hv
        exact h.distinct u v j hu hv

/-- Any schedule of steps of the threads below the worker count, from a job with a
start counter of zero and runnable segments: no step fails, and the state is the
one `Execute.Interleaved` describes. -/
theorem Execute.interleave_spec (w : World) (job : ParallelJobBase)
    (hstart : job.mStartCounter = 0)
    (hrun : ∀ j it, it ∈ job.mDividedJobChunkSegmentArray j → w.runnable job.ComponentTypes it)
    (l : List Nat) :
    (∀ t, t ∈ l → t < job.mThreadCount) →
      ∃ st, Execute.interleave w Visit.record l (job, fun _ => ExecuteCall.new []) = some st
        ∧ Execute.Interleaved w job l st := by
  induction l using List.reverseRecOn with
  | nil =>
    intro _
    refine ⟨_, rfl, ⟨rfl, rfl, rfl, ?_, fun _ _ => rfl, ?_, ?_⟩⟩
    · simp [hstart]
    · intro t ht
      cases ht
    · intro t u j ht
      simp [ExecuteCall.new] at ht
  | append_singleton l t ih =>
    intro hl
    obtain ⟨st, hst, hI⟩ := ih (fun u hu => hl u (List.mem_append_left _ hu))
    have ht : t < job.mThreadCount := hl t (by simp)
    rw [Execute.interleave_append, hst, Option.some_bind]
    by_cases hmem : t ∈ l
    · have hcard : (l ++ [t]).toFinset.card = st.1.mStartCounter := by
        rw [hI.started]
        congr 1
        ext x
        simp only [List.mem_toFinset, List.mem_append, List.mem_singleton]
        constructor
        · rintro (hx | hx)
          · exact hx
          · rw [hx]
            exact hmem
        · intro hx
          exact Or.inl hx
      have hcount : (l ++ [t]).count t = l.count t + 1 := by
        rw [List.count_append, List.count_singleton]
        simp
      obtain ⟨j, processed, b1, b2, b3, b4, b5⟩ := hI.busy t hmem
      rcases b5 with ⟨hp, hc⟩ | ⟨hp, hnil, hc⟩
      · cases hcl : (st.2 t).chunkList with
        | nil =>
          rw [hcl, List.append_nil] at b3
          refine ⟨_, ?_, hI.push
            { st.1 with
              mCompleteCounter := st.1.mCompleteCounter + 1
              mState :=
                if st.1.mCompleteCounter + 1 = st.1.mThreadCount then
                  ParallelJobState.Unprepared
                else st.1.mState }
            { st.2 t with point := ExecutePoint.returned } rfl rfl rfl hcard.symm
            (le_refl _) ?_ ?_⟩
          · simp only [Execute.step, hp, hcl, Option.map_some']
          · refine ⟨j, processed, b1, b2, ?_, b4, Or.inr ⟨rfl, hcl, ?_⟩⟩
            · simp only [hcl, List.append_nil]
              exact b3
            · rw [hcount, hc, ← b3]
              omega
          · intro u k hu hk hk2
            exact hu (hI.distinct u t k hk2 hk)
        | cons it rest =>
          rw [hcl] at b3
          have hit : w.runnable job.ComponentTypes it := by
            apply hrun j it
            rw [← b3]
            simp
          have hseg := Execute.segment_eq w job.ComponentTypes Visit.record
            (st.2 t).pThreadLocalArg it hit
          rw [foldl_record] at hseg
          refine ⟨_, ?_, hI.push st.1
            { st.2 t with
              chunkList := rest
              pThreadLocalArg := (st.2 t).pThreadLocalArg ++ w.segmentVisits job.ComponentTypes it }
            rfl rfl rfl hcard.symm (le_refl _) ?_ ?_⟩
          · simp only [Execute.step, hp, hcl, hI.types, hseg, Option.map_some']
          · refine ⟨j, processed ++ [it], b1, b2, ?_, ?_, Or.inl ⟨hp, ?_⟩⟩
            · simp only [List.append_assoc, List.singleton_append]
              exact b3
            · simp only [b4, List.flatMap_append, List.flatMap_cons, List.flatMap_nil,
                List.append_nil]
            · rw [hcount, hc, List.length_append]
              simp only [List.length_singleton]
              omega
          · intro u k hu hk hk2
            exact hu (hI.distinct u t k hk2 hk)
      · refine ⟨_, ?_, hI.push st.1 (st.2 t) rfl rfl rfl hcard.symm (le_refl _) ?_ ?_⟩
        · simp only [Execute.step, hp, Option.map_some']
        · refine ⟨j, processed, b1, b2, b3, b4, Or.inr ⟨hp, hnil, ?_⟩⟩
          rw [hcount]
          omega
        · intro u k hu hk hk2
          exact hu (hI.distinct u t k hk2 hk)
    · have hidle := hI.idle t hmem
      have hins : (l ++ [t]).toFinset = insert t l.toFinset := by
        ext x
        simp only [List.mem_toFinset, List.mem_append, List.mem_singleton, Finset.mem_insert]
        tauto
      have hnot : t ∉ l.toFinset := by
        simp only [List.mem_toFinset]
        exact hmem
      have hcard : (l ++ [t]).toFinset.card = st.1.mStartCounter + 1 := by
        rw [hins, Finset.card_insert_of_not_mem hnot, hI.started]
      have hsub : insert t l.toFinset ⊆ Finset.range job.mThreadCount := by
        intro x hx
        simp only [Finset.mem_insert, List.mem_toFinset] at hx
        simp only [Finset.mem_range]
        rcases hx with hx | hx
        · rw [hx]
          exact ht
        · exact hl x (List.mem_append_left _ hx)
      have hlt : st.1.mStartCounter < st.1.mThreadCount := by
        have hle := Finset.card_le_card hsub
        rw [Finset.card_insert_of_not_mem hnot, Finset.card_range, ← hI.started] at hle
        rw [hI.workers]
        omega
      have hcount : (l ++ [t]).count t = 1 := by
        rw [List.count_append, List.count_singleton, List.count_eq_zero_of_not_mem hmem]
        simp
      refine ⟨_, ?_, hI.push
        { st.1 with
          mStartCounter := st.1.mStartCounter + 1
          mState := ParallelJobState.Executing }
        { point := ExecutePoint.loop, threadIndex := some st.1.mStartCounter,
          chunkList := st.1.mDividedJobChunkSegmentArray st.1.mStartCounter,
          pThreadLocalArg := [] }
        rfl rfl rfl hcard.symm (Nat.le_succ _) ?_ ?_⟩
      · simp only [Execute.step, hidle, ExecuteCall.new, if_pos hlt, Option.map_some']
      · refine ⟨st.1.mStartCounter, [], rfl, Nat.lt_succ_self _, ?_, rfl, Or.inl ⟨rfl, ?_⟩⟩
        · simp only [List.nil_append, hI.segments]
        · rw [hcount]
          rfl
      · intro u k hu hk hk2
        simp only [Option.some.injEq] at hk
        by_cases hul : u ∈ l
        · obtain ⟨j, _, b1, b2, _⟩ := hI.busy u hul
          rw [b1] at hk2
          simp only [Option.some.injEq] at hk2
          omega
        · rw [hI.idle u hul] at hk2
          simp [ExecuteCall.new] at hk2
/-- The visits of the segments `Prepare` gave to different workers are visits of
different records, and no worker has two visits of one record. -/
theorem World.dividedVisits_disjoint (w : World) (Ts : List ComponentType) (threadCount : Nat)
    (segments : Nat → List ParallelJobChunkSegement) (visits : List Visit)
    (hdiv : w.dividedVisits Ts threadCount segments = ((visits : List Visit) : Multiset Visit))
    (hnd : (visits.map Visit.pEntity).Nodup) :
    (∀ j, j < threadCount →
        (((segments j).flatMap (w.segmentVisits Ts)).map Visit.pEntity).Nodup)
      ∧ ∀ j k, j < threadCount → k < threadCount → j ≠ k →
          ∀ v v2, v ∈ (segments j).flatMap (w.segmentVisits Ts) →
            v2 ∈ (segments k).flatMap (w.segmentVisits Ts) → v.pEntity ≠ v2.pEntity := by
  have hperm : ((List.range threadCount).flatMap
      (fun j => (segments j).flatMap (w.segmentVisits Ts))).Perm visits := by
    apply Multiset.coe_eq_coe.mp
    rw [← hdiv]
    rfl
  have hnd2 := (hperm.map Visit.pEntity).nodup_iff.mpr hnd
  rw [List.map_flatMap, List.nodup_flatMap] at hnd2
  obtain ⟨n1, n2⟩ := hnd2
  refine ⟨fun j hj => n1 j (List.mem_range.mpr hj), ?_⟩
  intro j k hj hk hjk v v2 hv hv2 heq
  have hsymm : Symmetric (fun a b : Nat =>
      List.Disjoint (((segments a).flatMap (w.segmentVisits Ts)).map Visit.pEntity)
        (((segments b).flatMap (w.segmentVisits Ts)).map Visit.pEntity)) := by
    intro a b hab
    exact hab.symm
  have hd := n2.forall hsymm (List.mem_range.mpr hj) (List.mem_range.mpr hk) hjk
  exact hd (List.mem_map_of_mem _ hv) (by rw [heq]; exact List.mem_map_of_mem _ hv2)

/-- C26: for every context of a world that satisfies the invariant and every worker
count from 1 to `MAX_THREAD_COUNT`, `Prepare` returns, and then for every schedule
in which the threads 0, ..., `threadCount - 1` take the steps of their calls of
`Execute` in any order (the fetch-and-add of the start counter, each round of the
loop over the segments and the fetch-and-add of the completion counter are one step
each): no step fails; the threads that took a step are the ones that have a worker
index; every worker index is below `threadCount`; no two threads have the same
worker index; a thread has called the callback exactly on the visits of a front part
of the segments of its index, and on all of them, and has returned, once it took as
many steps as that list has segments and two more; no two threads have called the
callback on the same record, and no thread has called it twice on one record. -/
theorem Execute_concurrent (w : World) (pContext : Nat) (c : EntityContext)
    (job : ParallelJobBase) (threadCount : Nat) (hinv : w.Inv)
    (hctx : pContext < MAX_CONTEXT_COUNT) (hc : w.mEntityContexts pContext = some c)
    (h1 : 1 ≤ threadCount) (h2 : threadCount ≤ MAX_THREAD_COUNT)
    (hstate : job.mState ≠ ParallelJobState.Executing) :
    ∃ job1, job.Prepare w pContext threadCount = some job1
      ∧ ∀ schedule : List Nat, (∀ t, t ∈ schedule → t < threadCount) →
        ∃ st, Execute.interleave w Visit.record schedule (job1, fun _ => ExecuteCall.new [])
            = some st
          ∧ (∀ t, t ∈ schedule ↔ ∃ j, (st.2 t).threadIndex = some j)
          ∧ (∀ t j, (st.2 t).threadIndex = some j → j < threadCount)
          ∧ (∀ t u j, (st.2 t).threadIndex = some j → (st.2 u).threadIndex = some j → t = u)
          ∧ (∀ t j, (st.2 t).threadIndex = some j →
              ∃ processed,
                processed ++ (st.2 t).chunkList = job1.mDividedJobChunkSegmentArray j
                  ∧ (st.2 t).pThreadLocalArg
                      = processed.flatMap (w.segmentVisits job.ComponentTypes))
          ∧ (∀ t j, (st.2 t).threadIndex = some j →
              (job1.mDividedJobChunkSegmentArray j).length + 2 ≤ schedule.count t →
              (st.2 t).point = ExecutePoint.returned
                ∧ (st.2 t).pThreadLocalArg
                    = (job1.mDividedJobChunkSegmentArray j).flatMap
                        (w.segmentVisits job.ComponentTypes))
          ∧ (∀ t u v v2, t ≠ u → v ∈ (st.2 t).pThreadLocalArg →
              v2 ∈ (st.2 u).pThreadLocalArg → v.pEntity ≠ v2.pEntity)
          ∧ ∀ t, ((st.2 t).pThreadLocalArg.map Visit.pEntity).Nodup := by
  obtain ⟨job1, hprep, g1, g2, g3, g4, g5⟩ :=
    job.Prepare_spec w pContext c threadCount hinv hctx hc h1 h2 hstate
  obtain ⟨s1, _, _⟩ := w.validVisits_spec pContext c job.ComponentTypes hinv hctx hc
  obtain ⟨d1, d2⟩ := w.dividedVisits_disjoint job.ComponentTypes threadCount
    job1.mDividedJobChunkSegmentArray _ g5 s1
  refine ⟨job1, hprep, ?_⟩
  intro schedule hsch
  obtain ⟨st, hst, hI⟩ := Execute.interleave_spec w job1 g3
    (by rw [g1]; exact g4) schedule (by rw [g2]; exact hsch)
  have hcard : st.1.mStartCounter ≤ threadCount := by
    rw [hI.started]
    have hsub : schedule.toFinset ⊆ Finset.range threadCount := by
      intro x hx
      simp only [List.mem_toFinset] at hx
      simp only [Finset.mem_range]
      exact hsch x hx
    have hle := Finset.card_le_card hsub
    rw [Finset.card_range] at hle
    exact hle
  have hmem : ∀ t j, (st.2 t).threadIndex = some j → t ∈ schedule := by
    intro t j ht
    by_contra hn
    rw [hI.idle t hn] at ht
    simp [ExecuteCall.new] at ht
  have hfront : ∀ t j, (st.2 t).threadIndex = some j →
      j < threadCount ∧ ∃ processed,
        processed ++ (st.2 t).chunkList = job1.mDividedJobChunkSegmentArray j
          ∧ (st.2 t).pThreadLocalArg = processed.flatMap (w.segmentVisits job.ComponentTypes)
          ∧ (((st.2 t).point = ExecutePoint.loop ∧ schedule.count t = 1 + processed.length)
            ∨ ((st.2 t).point = ExecutePoint.returned ∧ (st.2 t).chunkList = []
                ∧ (job1.mDividedJobChunkSegmentArray j).length + 2 ≤ schedule.count t)) := by
    intro t j ht
    obtain ⟨k, processed, b1, b2, b3, b4, b5⟩ := hI.busy t (hmem t j ht)
    rw [ht] at b1
    simp only [Option.some.injEq] at b1
    subst b1
    rw [g1] at b4
    exact ⟨by omega, processed, b3, b4, b5⟩
  have hsub : ∀ t j, (st.2 t).threadIndex = some j →
      ∀ v, v ∈ (st.2 t).pThreadLocalArg →
        v ∈ (job1.mDividedJobChunkSegmentArray j).flatMap
          (w.segmentVisits job.ComponentTypes) := by
    intro t j ht v hv
    obtain ⟨_, processed, b3, b4, _⟩ := hfront t j ht
    rw [← b3, List.flatMap_append, ← b4]
    exact List.mem_append_left _ hv
  refine ⟨st, hst, ?_, fun t j ht => (hfront t j ht).1, hI.distinct, ?_, ?_, ?_, ?_⟩
  · intro t
    constructor
    · intro ht
      obtain ⟨j, _, b1, _⟩ := hI.busy t ht
      exact ⟨j, b1⟩
    · rintro ⟨j, hj⟩
      exact hmem t j hj
  · intro t j ht
    obtain ⟨_, processed, b3, b4, _⟩ := hfront t j ht
    exact ⟨processed, b3, b4⟩
  · intro t j ht hcount
    obtain ⟨_, processed, b3, b4, b5⟩ := hfront t j ht
    rcases b5 with ⟨_, hc5⟩ | ⟨hp, hnil, _⟩
    · exfalso
      have hlen := congrArg List.length b3
      rw [List.length_append] at hlen
      omega
    · rw [hnil, List.append_nil] at b3
      rw [← b3]
      exact ⟨hp, b4⟩
  · intro t u v v2 htu hv hv2
    by_cases ht : t ∈ schedule
    · by_cases hu : u ∈ schedule
      · obtain ⟨j, _, bt, _⟩ := hI.busy t ht
        obtain ⟨k, _, bu, _⟩ := hI.busy u hu
        have hjk : j ≠ k := by
          intro e
          rw [← e] at bu
          exact htu (hI.distinct t u j bt bu)
        exact d2 j k (hfront t j bt).1 (hfront u k bu).1 hjk v v2 (hsub t j bt v hv)
          (hsub u k bu v2 hv2)
      · rw [hI.idle u hu] at hv2
        simp [ExecuteCall.new] at hv2
    · rw [hI.idle t ht] at hv
      simp [ExecuteCall.new] at hv
  · intro t
    by_cases ht : t ∈ schedule
    · obtain ⟨j, _, bt, _⟩ := hI.busy t ht
      obtain ⟨hj, processed, b3, b4, _⟩ := hfront t j bt
      have hnd := d1 j hj
      rw [← b3, List.flatMap_append, ← b4, List.map_append] at hnd
      exact (List.nodup_append.mp hnd).1
    · rw [hI.idle t ht]
      simp [ExecuteCall.new]

set_option maxRecDepth 100000 in
/-- Witness of C26: a job for `Terrain` in the context of the example world with two
workers. -/
theorem Execute_concurrent_witness :
    ∃ job1, (ParallelJobBase.new [Terrain]).Prepare exampleWorld 0 2 = some job1
      ∧ ∀ schedule : List Nat, (∀ t, t ∈ schedule → t < 2) →
        ∃ st, Execute.interleave exampleWorld Visit.record schedule
            (job1, fun _ => ExecuteCall.new []) = some st
          ∧ (∀ t, t ∈ schedule ↔ ∃ j, (st.2 t).threadIndex = some j)
          ∧ (∀ t j, (st.2 t).threadIndex = some j → j < 2)
          ∧ (∀ t u j, (st.2 t).threadIndex = some j → (st.2 u).threadIndex = some j → t = u)
          ∧ (∀ t j, (st.2 t).threadIndex = some j →
              ∃ processed,
                processed ++ (st.2 t).chunkList = job1.mDividedJobChunkSegmentArray j
                  ∧ (st.2 t).pThreadLocalArg
                      = processed.flatMap
                          (exampleWorld.segmentVisits (ParallelJobBase.new [Terrain]).ComponentTypes))
          ∧ (∀ t j, (st.2 t).threadIndex = some j →
              (job1.mDividedJobChunkSegmentArray j).length + 2 ≤ schedule.count t →
              (st.2 t).point = ExecutePoint.returned
                ∧ (st.2 t).pThreadLocalArg
                    = (job1.mDividedJobChunkSegmentArray j).flatMap
                        (exampleWorld.segmentVisits
                          (ParallelJobBase.new [Terrain]).ComponentTypes))
          ∧ (∀ t u v v2, t ≠ u → v ∈ (st.2 t).pThreadLocalArg →
              v2 ∈ (st.2 u).pThreadLocalArg → v.pEntity ≠ v2.pEntity)
          ∧ ∀ t, ((st.2 t).pThreadLocalArg.map Visit.pEntity).Nodup :=
  Execute_concurrent exampleWorld 0 exampleContext (ParallelJobBase.new [Terrain]) 2
    (by decide) (by decide)
    (by
      have h : (exampleWorld.mEntityContexts 0).isSome = true := by decide
      unfold exampleContext
      cases hs : exampleWorld.mEntityContexts 0 with
      | none => rw [hs] at h; cases h
      | some c => rfl)
    (by decide) (by decide) (by decide)
/-! ## Identifiers in reachable worlds -/

theorem World.InvSlots.of_Inv {w : World} (hinv : w.Inv) : w.InvSlots := by
  intro i hi c hc
  obtain ⟨h1, h2, h3⟩ := hinv.2.2 i hi c hc
  refine ⟨h1, h2, ?_⟩
  intro j hj s hs
  obtain ⟨g1, g2, g3, a, ha, _, g4⟩ := h3 j hj s hs
  exact ⟨g1, g2, g3, a, ha, g4⟩

theorem World.new_InvSlots : World.new.InvSlots := by
  intro i _ c hc
  cases hc

/-- The identifier of a valid record packs its generation and its path, and decodes
to them. -/
theorem World.InvSlots.identifier {w : World} {p : EntityPtr} (hinv : w.InvSlots)
    (hlive : w.Live p) :
    ∃ s, w.storage p.mStorage = some s
      ∧ w.GetEntityID p
          = some (packEntityID (s.header p).mGenID p.mStorage.mContext p.mStorage.mIndex
              p.mChunkIndex p.mBlockIndex)
      ∧ ParseEntityID (packEntityID (s.header p).mGenID p.mStorage.mContext p.mStorage.mIndex
            p.mChunkIndex p.mBlockIndex)
          = { genid := (s.header p).mGenID, contextId := p.mStorage.mContext,
              storageIndex := p.mStorage.mIndex, chunkIndex := p.mChunkIndex,
              blockIndex := p.mBlockIndex } := by
  obtain ⟨hctx, s, hs, hch, hbl, hv⟩ := hlive
  have hws : w.storage p.mStorage = some s := hs
  unfold World.storage at hs
  cases hc : w.mEntityContexts p.mStorage.mContext with
  | none => rw [hc] at hs; cases hs
  | some c =>
    rw [hc] at hs
    have hs2 : c.mEntityComponentStorageList[p.mStorage.mIndex]? = some s := hs
    have hlt : p.mStorage.mIndex < c.mEntityComponentStorageList.length := by
      by_contra hge
      rw [List.getElem?_eq_none (by omega)] at hs2
      cases hs2
    obtain ⟨hcid, hlen, h3⟩ := hinv _ hctx c hc
    obtain ⟨hsinv, hsctx, hsidx, _⟩ := h3 _ hlt s hs2
    obtain ⟨hcap, hcnt, _, hchunks, _⟩ := hsinv
    obtain ⟨hcinv, _, _, _, _, _⟩ := hchunks _ hch
    obtain ⟨_, hbc, hhdr, _⟩ := hcinv
    obtain ⟨_, _, _, hgen⟩ := hhdr _ hbl
    have hcap2 : s.mChunkArrayCapacity ≤ 32768 := by
      simp only [List.mem_cons, List.mem_singleton, List.not_mem_nil, or_false] at hcap
      omega
    have b1 : (s.header p).mGenID < 2 ^ 16 := hgen
    have b2 : p.mStorage.mContext < 2 ^ 8 := by
      simp only [MAX_CONTEXT_COUNT] at hctx
      omega
    have b3 : p.mStorage.mIndex < 2 ^ 10 := by
      have : MAX_STORAGE_COUNT_PER_CONTEXT = 1024 := by decide
      omega
    have b4 : p.mChunkIndex < 2 ^ 15 := by omega
    have b5 : p.mBlockIndex < 2 ^ 10 := by
      have : MAX_ENTITY_COUNT_PER_CHUNK = 1024 := by decide
      omega
    refine ⟨s, hws, ?_, (ParseEntityID_pack _ _ _ _ _ b1 b2 b3 b4 b5).1⟩
    unfold World.GetEntityID
    rw [hws]
    simp only [hsctx, hc, hcid, hsidx]

/-- Two valid records with the same identifier are the same record. -/
theorem World.InvSlots.GetEntityID_injective {w : World} {p q : EntityPtr} (hinv : w.InvSlots)
    (hp : w.Live p) (hq : w.Live q) (h : w.GetEntityID p = w.GetEntityID q) : p = q := by
  obtain ⟨s, _, hidp, hparsep⟩ := hinv.identifier hp
  obtain ⟨t, _, hidq, hparseq⟩ := hinv.identifier hq
  rw [hidp, hidq] at h
  simp only [Option.some.injEq] at h
  rw [h, hparseq] at hparsep
  simp only [ParsedEntityID.mk.injEq] at hparsep
  obtain ⟨_, h1, h2, h3, h4⟩ := hparsep
  cases p with
  | mk ps pc pb =>
    cases q with
    | mk qs qc qb =>
      cases ps
      cases qs
      simp only at h1 h2 h3 h4
      simp [h1, h2, h3, h4]
/-- The invariant `InvSlots` in a world whose contexts have the identifiers and the
storages they had, or are gone, and whose archetype objects have the component
counts they had. -/
theorem World.InvSlots.frame {w w1 : World} (hinv : w.InvSlots)
    (hctx : ∀ i, i < MAX_CONTEXT_COUNT → ∀ c1, w1.mEntityContexts i = some c1 →
      ∃ c, w.mEntityContexts i = some c ∧ c1.mContextId = c.mContextId
        ∧ c1.mEntityComponentStorageList = c.mEntityComponentStorageList)
    (hobj : ∀ (p : Nat) (a : EntityArchetype), w.mArchetypeManager.objects[p]? = some a →
      ∃ a1, w1.mArchetypeManager.objects[p]? = some a1
        ∧ a1.mComponentCount = a.mComponentCount) : w1.InvSlots := by
  intro i hi c1 hc1
  obtain ⟨c, hc, e1, e2⟩ := hctx i hi c1 hc1
  obtain ⟨h1, h2, h3⟩ := hinv i hi c hc
  rw [e1, e2]
  refine ⟨h1, h2, ?_⟩
  intro j hj s hs
  obtain ⟨g1, g2, g3, a, ha, g4⟩ := h3 j hj s hs
  obtain ⟨a1, ha1, hcount⟩ := hobj _ a (Option.mem_def.mp ha)
  exact ⟨g1, g2, g3, a1, Option.mem_def.mpr ha1, by rw [g4, hcount]⟩

/-- The invariant `InvSlots` after `*p = s1` for a storage pointer, when `s1`
satisfies the invariant of storages and has the path, the archetype pointer and the
component count of the storage it replaces. -/
theorem World.InvSlots.setStorage {w : World} (hinv : w.InvSlots) (p : StoragePtr)
    (s s1 : EntityComponentStorage) (hs : w.storage p = some s)
    (h1 : p.mContext < MAX_CONTEXT_COUNT → s.Inv →
      (∃ a, a ∈ w.mArchetypeManager.objects[s.mArchetype]?
        ∧ s.mComponentCountPerEntity = a.mComponentCount) →
      s1.Inv ∧ s1.mContext = s.mContext ∧ s1.mIndex = s.mIndex
        ∧ s1.mArchetype = s.mArchetype
        ∧ s1.mComponentCountPerEntity = s.mComponentCountPerEntity) :
    (w.setStorage p s1).InvSlots := by
  obtain ⟨c, hc, hcs⟩ := (w.storage_eq_some_iff p s).mp hs
  have hlt : p.mIndex < c.mEntityComponentStorageList.length := by
    by_contra hge
    rw [List.getElem?_eq_none (by omega)] at hcs
    cases hcs
  intro i hi c1 hc1
  rw [w.setStorage_manager p s1]
  by_cases hip : i = p.mContext
  · subst hip
    have hc1' : (w.setStorage p s1).mEntityContexts p.mContext = some c1 := hc1
    rw [w.setStorage_contexts_same p s1 c hc] at hc1'
    simp only [Option.some.injEq] at hc1'
    subst hc1'
    obtain ⟨g1, g2, g3⟩ := hinv _ hi c hc
    obtain ⟨k1, k2, k3, k4⟩ := g3 _ hlt s hcs
    obtain ⟨n1, n2, n3, n4, n5⟩ := h1 hi k1 k4
    refine ⟨g1, by simp only [List.length_set]; exact g2, ?_⟩
    intro j hj t ht
    simp only [List.length_set] at hj
    by_cases hjp : j = p.mIndex
    · subst hjp
      simp only [Option.mem_def, List.getElem?_set_self hlt, Option.some.injEq] at ht
      subst ht
      refine ⟨n1, by rw [n2, k2], by rw [n3, k3], ?_⟩
      rw [n4, n5]
      exact k4
    · have hne : p.mIndex ≠ j := fun e => hjp e.symm
      simp only [Option.mem_def, List.getElem?_set_ne hne] at ht
      exact g3 j hj t ht
  · have hc1' : (w.setStorage p s1).mEntityContexts i = some c1 := hc1
    rw [w.setStorage_contexts_other p s1 i hip] at hc1'
    exact hinv i hi c1 hc1'

/-- Setting an archetype object to one with the same component count keeps the
component counts of the archetype objects. -/
theorem objects_set_count (objects : List EntityArchetype) (k : Nat)
    (a a1 : EntityArchetype) (hk : objects[k]? = some a)
    (hcount : a1.mComponentCount = a.mComponentCount) :
    ∀ (p : Nat) (b : EntityArchetype), objects[p]? = some b →
      ∃ b1, (objects.set k a1)[p]? = some b1 ∧ b1.mComponentCount = b.mComponentCount := by
  intro p b hb
  have hlt : k < objects.length := by
    by_contra hge
    rw [List.getElem?_eq_none (by omega)] at hk
    cases hk
  by_cases hpk : p = k
  · subst hpk
    rw [hk] at hb
    simp only [Option.some.injEq] at hb
    subst hb
    exact ⟨a1, List.getElem?_set_self hlt, hcount⟩
  · have hne : k ≠ p := fun e => hpk e.symm
    exact ⟨b, by rw [List.getElem?_set_ne hne]; exact hb, rfl⟩

theorem World.InvSlots.GetEntityComponentStorage {w w1 : World} (hinv : w.InvSlots)
    (pContext pArchetype : Nat) (ps : StoragePtr)
    (h : w.GetEntityComponentStorage pContext pArchetype = some (w1, ps)) : w1.InvSlots := by
  unfold World.GetEntityComponentStorage at h
  cases hc : w.mEntityContexts pContext with
  | none => simp [hc] at h
  | some c =>
    cases ha : w.archetype pArchetype with
    | none => simp [hc, ha] at h
    | some a =>
      simp only [hc, ha] at h
      cases hm : a.mStoragesInContext c.mContextId with
      | some k =>
        simp only [hm, Option.some.injEq, Prod.mk.injEq] at h
        rw [← h.1]
        exact hinv
      | none =>
        simp only [hm] at h
        by_cases hlt : u16 c.mEntityComponentStorageList.length < MAX_STORAGE_COUNT_PER_CONTEXT
        · rw [if_pos hlt] at h
          simp only [Option.some.injEq, Prod.mk.injEq] at h
          rw [← h.1]
          have hset := objects_set_count w.mArchetypeManager.objects pArchetype a
            { a with
              mStoragesInContext := setAt a.mStoragesInContext c.mContextId
                (some c.mEntityComponentStorageList.length) } ha rfl
          intro i hi c1 hc1
          simp only [] at hc1 ⊢
          by_cases hip : i = pContext
          · subst hip
            simp only [Option.mem_def, setAt, if_true, Option.some.injEq] at hc1
            subst hc1
            obtain ⟨g1, g2, g3⟩ := hinv _ hi c hc
            have hu : u16 c.mEntityComponentStorageList.length
                = c.mEntityComponentStorageList.length := by
              have : MAX_STORAGE_COUNT_PER_CONTEXT = 1024 := by decide
              unfold u16
              omega
            rw [hu] at hlt
            refine ⟨g1, by simp only [List.length_append, List.length_singleton]; omega, ?_⟩
            intro j hj t ht
            simp only [List.length_append, List.length_singleton] at hj
            by_cases hjl : j < c.mEntityComponentStorageList.length
            · simp only [Option.mem_def, List.getElem?_append_left hjl] at ht
              obtain ⟨k1, k2, k3, b, hb, k4⟩ := g3 j hjl t ht
              obtain ⟨b1, hb1, hcount⟩ := hset _ b (Option.mem_def.mp hb)
              exact ⟨k1, k2, k3, b1, Option.mem_def.mpr hb1, by rw [k4, hcount]⟩
            · have hje : j = c.mEntityComponentStorageList.length := by omega
              subst hje
              simp only [Option.mem_def, List.getElem?_concat_length, Option.some.injEq] at ht
              subst ht
              refine ⟨EntityComponentStorage.new_storage_Inv _ _ _ _, rfl, hu, ?_⟩
              obtain ⟨b1, hb1, hcount⟩ := hset pArchetype a ha
              exact ⟨b1, Option.mem_def.mpr hb1, by rw [hcount]; rfl⟩
          · simp only [Option.mem_def, setAt, if_neg hip] at hc1
            obtain ⟨g1, g2, g3⟩ := hinv i hi c1 hc1
            refine ⟨g1, g2, ?_⟩
            intro j hj t ht
            obtain ⟨k1, k2, k3, b, hb, k4⟩ := g3 j hj t ht
            obtain ⟨b1, hb1, hcount⟩ := hset _ b (Option.mem_def.mp hb)
            exact ⟨k1, k2, k3, b1, Option.mem_def.mpr hb1, by rw [k4, hcount]⟩
        · rw [if_neg hlt] at h
          cases h

theorem World.InvSlots.Allocate {w w1 : World} (hinv : w.InvSlots) (ps : StoragePtr)
    (b : Bool) (p : EntityPtr) (h : w.Allocate ps b = some (w1, p)) : w1.InvSlots := by
  unfold World.Allocate at h
  cases hs : w.storage ps with
  | none => simp [hs] at h
  | some s =>
    cases ha : w.archetype s.mArchetype with
    | none => simp [hs, ha] at h
    | some a =>
      cases hal : s.Allocate a b with
      | none => simp [hs, ha, hal] at h
      | some r =>
        obtain ⟨t, q⟩ := r
        simp only [hs, ha, hal, Option.some.injEq, Prod.mk.injEq] at h
        rw [← h.1]
        apply hinv.setStorage ps s t hs
        intro _ hsinv hlink
        obtain ⟨a2, ha2, hcount⟩ := hlink
        have hae : a2 = a := by
          unfold World.archetype at ha
          rw [Option.mem_def, ha] at ha2
          simp only [Option.some.injEq] at ha2
          exact ha2.symm
        subst hae
        have hn : 1 ≤ s.mEntityCountPerChunk := by
          by_contra hno
          rw [s.Allocate_none_of_zero a2 b hsinv (by omega)] at hal
          cases hal
        obtain ⟨htinv, hrel⟩ := s.Allocate_some a2 b hsinv hn hcount.symm t q hal
        exact ⟨htinv, hrel.mContext, hrel.mIndex, hrel.mArchetype, hrel.mComponentCountPerEntity⟩

/-- A store through a component pointer keeps the invariant of the storage. -/
theorem EntityComponentStorage.store_Inv (s : EntityComponentStorage) (p : EntityPtr)
    (slot : ComponentSlot) (v : Option Value) (hinv : s.Inv) : (s.store p slot v).Inv := by
  have hch : ∀ i, (s.store p slot v).mChunks i = s.mChunks i
      ∨ (s.store p slot v).mChunks i = (s.mChunks i).store slot v := by
    intro i
    unfold EntityComponentStorage.store
    by_cases hi : i = p.mChunkIndex
    · right
      simp [setAt, hi]
    · left
      simp [setAt, hi]
  have hci : ∀ c : EntityComponentChunk, c.Inv → (c.store slot v).Inv := fun c h => h
  have hfull : ∀ i, ((s.store p slot v).mChunks i).IsFull = (s.mChunks i).IsFull := by
    intro i
    rcases hch i with h | h <;> rw [h]
    rfl
  obtain ⟨h1, h2, h3, h4, h5, h6, h7, h8⟩ := hinv
  refine ⟨h1, h2, h3, ?_, h5, h6, h7, ?_⟩
  · intro i hi
    obtain ⟨g1, g2, g3, g4, g5, g6⟩ := h4 i hi
    rcases hch i with h | h <;> rw [h]
    · exact ⟨g1, g2, g3, g4, g5, g6⟩
    · exact ⟨hci _ g1, g2, g3, g4, g5, g6⟩
  · intro i hi
    rw [hfull i]
    exact h8 i hi

theorem World.InvSlots.store {w w1 : World} (hinv : w.InvSlots) (p : EntityPtr)
    (slot : ComponentSlot) (v : Option Value) (h : w.store p slot v = some w1) :
    w1.InvSlots := by
  unfold World.store at h
  cases hs : w.storage p.mStorage with
  | none => simp [hs] at h
  | some s =>
    simp only [hs, Option.some.injEq] at h
    rw [← h]
    apply hinv.setStorage p.mStorage s _ hs
    intro _ hsinv _
    exact ⟨s.store_Inv p slot v hsinv, rfl, rfl, rfl, rfl⟩

/-- The invariant `InvSlots` does not depend on the event managers. -/
theorem World.InvSlots.setManager {w : World} (hinv : w.InvSlots) (pContext : Nat)
    (c : EntityContext) (em : Option EventManager)
    (hc : w.mEntityContexts pContext = some c) :
    World.InvSlots
      { w with
        mEntityContexts := setAt w.mEntityContexts pContext
          (some { c with mEventManager := em }) } := by
  apply hinv.frame
  · intro i _ c1 hc1
    by_cases hip : i = pContext
    · subst hip
      simp only [setAt, if_true, Option.some.injEq] at hc1
      exact ⟨c, hc, by rw [← hc1], by rw [← hc1]⟩
    · simp only [setAt, if_neg hip] at hc1
      exact ⟨c1, hc1, rfl, rfl⟩
  · intro p a ha
    exact ⟨a, ha, rfl⟩

theorem World.InvSlots.SetComponent {w w1 : World} (hinv : w.InvSlots) (e : EntityPtr)
    (T : ComponentType) (data : Value) (b : Bool)
    (h : w.SetComponent e T data = some (w1, b)) : w1.InvSlots := by
  unfold World.SetComponent at h
  cases hg : w.GetComponent e T with
  | none => simp [hg] at h
  | some o =>
    cases o with
    | none =>
      simp only [hg, Option.some.injEq, Prod.mk.injEq] at h
      rw [← h.1]
      exact hinv
    | some slot =>
      simp only [hg, Option.map_eq_some'] at h
      obtain ⟨x, hx, hxe⟩ := h
      simp only [Prod.mk.injEq] at hxe
      rw [← hxe.1]
      exact hinv.store e slot _ hx

theorem World.InvSlots.assign (p : EntityPtr) (l : List (ComponentType × Value)) :
    ∀ (w w1 : World), w.InvSlots → w.assign p l = some w1 → w1.InvSlots := by
  induction l with
  | nil =>
    intro w w1 hinv h
    simp only [World.assign, Option.some.injEq] at h
    rw [← h]
    exact hinv
  | cons x rest ih =>
    intro w w1 hinv h
    obtain ⟨T, data⟩ := x
    simp only [World.assign] at h
    cases hs : w.SetComponent p T data with
    | none => simp [hs] at h
    | some r =>
      obtain ⟨w2, b⟩ := r
      simp only [hs] at h
      exact ih w2 w1 (hinv.SetComponent p T data b hs) h

theorem World.InvSlots.invoke (p : EntityPtr) (l : EventCallbackList) :
    ∀ (w w1 : World), w.InvSlots → List.foldl (World.invoke p) (some w) l = some w1 →
      w1.InvSlots := by
  have hnone : ∀ l : EventCallbackList, List.foldl (World.invoke p) none l = none := by
    intro l
    induction l with
    | nil => rfl
    | cons it rest ih => exact ih
  induction l with
  | nil =>
    intro w w1 hinv h
    simp only [List.foldl_nil, Option.some.injEq] at h
    rw [← h]
    exact hinv
  | cons it rest ih =>
    intro w w1 hinv h
    rw [List.foldl_cons] at h
    cases hs : World.invoke p (some w) it with
    | none =>
      rw [hs, hnone] at h
      cases h
    | some w2 =>
      rw [hs] at h
      refine ih w2 w1 ?_ h
      simp only [World.invoke] at hs
      cases hh : w.header p with
      | none => simp [hh] at hs
      | some e =>
        simp only [hh] at hs
        exact World.InvSlots.assign p _ w w2 hinv hs

theorem World.InvSlots.TriggerEvent {w w1 : World} (hinv : w.InvSlots) (pContext : Nat)
    (evt : EntityEvent) (h : w.TriggerEvent pContext evt = some w1) : w1.InvSlots := by
  unfold World.TriggerEvent at h
  cases hc : w.mEntityContexts pContext with
  | none => simp [hc] at h
  | some c =>
    simp only [hc] at h
    cases hem : c.mEventManager with
    | none =>
      simp only [hem, Option.some.injEq] at h
      rw [← h]
      exact hinv
    | some em =>
      simp only [hem] at h
      exact World.InvSlots.invoke evt.pEntity _ _ w1
        (hinv.setManager pContext c (some { em with triggered := em.triggered ++ [evt] }) hc) h

/-- The method `TriggerEvent` keeps the catalog. -/
theorem World.TriggerEvent_manager (w w1 : World) (pContext : Nat) (evt : EntityEvent)
    (h : w.TriggerEvent pContext evt = some w1) :
    w1.mArchetypeManager = w.mArchetypeManager := by
  have hstore : ∀ (u u1 : World) (p : EntityPtr) (slot : ComponentSlot) (v : Option Value),
      u.store p slot v = some u1 → u1.mArchetypeManager = u.mArchetypeManager := by
    intro u u1 p slot v hu
    unfold World.store at hu
    cases hs : u.storage p.mStorage with
    | none => simp [hs] at hu
    | some s =>
      simp only [hs, Option.some.injEq] at hu
      rw [← hu]
      exact World.setStorage_manager _ _ _
  have hassign : ∀ (p : EntityPtr) (l : List (ComponentType × Value)) (u u1 : World),
      u.assign p l = some u1 → u1.mArchetypeManager = u.mArchetypeManager := by
    intro p l
    induction l with
    | nil =>
      intro u u1 hu
      simp only [World.assign, Option.some.injEq] at hu
      rw [← hu]
    | cons x rest ih =>
      intro u u1 hu
      obtain ⟨T, data⟩ := x
      simp only [World.assign] at hu
      cases hs : u.SetComponent p T data with
      | none => simp [hs] at hu
      | some r =>
        obtain ⟨u2, b⟩ := r
        simp only [hs] at hu
        rw [ih u2 u1 hu]
        unfold World.SetComponent at hs
        cases hg : u.GetComponent p T with
        | none => simp [hg] at hs
        | some o =>
          cases o with
          | none =>
            simp only [hg, Option.some.injEq, Prod.mk.injEq] at hs
            rw [← hs.1]
          | some slot =>
            simp only [hg, Option.map_eq_some'] at hs
            obtain ⟨x, hx, hxe⟩ := hs
            simp only [Prod.mk.injEq] at hxe
            rw [← hxe.1]
            exact hstore u x p slot _ hx
  have hinvoke : ∀ (p : EntityPtr) (l : EventCallbackList) (u u1 : World),
      List.foldl (World.invoke p) (some u) l = some u1 →
      u1.mArchetypeManager = u.mArchetypeManager := by
    intro p l
    have hnone : ∀ l : EventCallbackList, List.foldl (World.invoke p) none l = none := by
      intro l
      induction l with
      | nil => rfl
      | cons it rest ih => exact ih
    induction l with
    | nil =>
      intro u u1 hu
      simp only [List.foldl_nil, Option.some.injEq] at hu
      rw [← hu]
    | cons it rest ih =>
      intro u u1 hu
      rw [List.foldl_cons] at hu
      cases hs : World.invoke p (some u) it with
      | none =>
        rw [hs, hnone] at hu
        cases hu
      | some u2 =>
        rw [hs] at hu
        rw [ih u2 u1 hu]
        simp only [World.invoke] at hs
        cases hh : u.header p with
        | none => simp [hh] at hs
        | some e =>
          simp only [hh] at hs
          exact hassign p _ u u2 hs
  unfold World.TriggerEvent at h
  cases hc : w.mEntityContexts pContext with
  | none => simp [hc] at h
  | some c =>
    simp only [hc] at h
    cases hem : c.mEventManager with
    | none =>
      simp only [hem, Option.some.injEq] at h
      rw [← h]
    | some em =>
      simp only [hem] at h
      rw [hinvoke _ _ _ w1 h]
      rfl

theorem World.InvSlots.OnEntityCreated {w w1 : World} (hinv : w.InvSlots) (pContext : Nat)
    (p : EntityPtr) (h : w.OnEntityCreated pContext p = some w1) : w1.InvSlots := by
  unfold World.OnEntityCreated at h
  cases hh : w.header p with
  | none => simp [hh] at h
  | some hd =>
    simp only [hh] at h
    exact hinv.TriggerEvent pContext _ h

/-- The invariant `InvSlots` does not depend on the catalog of the archetype
manager, only on the component counts of the archetype objects. -/
theorem World.InvSlots.manager {w : World} (hinv : w.InvSlots) (mgr : EntityArchetypeManager)
    (hobj : ∀ (p : Nat) (a : EntityArchetype), w.mArchetypeManager.objects[p]? = some a → mgr.objects[p]? = some a) :
    World.InvSlots { w with mArchetypeManager := mgr } := by
  apply hinv.frame
  · intro i _ c1 hc1
    exact ⟨c1, hc1, rfl, rfl⟩
  · intro p a ha
    exact ⟨a, hobj p a ha, rfl⟩
theorem World.InvSlots.ConstructEntity (p : EntityPtr) (args : List (ComponentType × Value)) :
    ∀ (w w1 : World), w.InvSlots → w.ConstructEntity p args = some w1 → w1.InvSlots := by
  induction args with
  | nil =>
    intro w w1 hinv h
    simp only [World.ConstructEntity, Option.some.injEq] at h
    rw [← h]
    exact hinv
  | cons x rest ih =>
    intro w w1 hinv h
    obtain ⟨T, data⟩ := x
    simp only [World.ConstructEntity] at h
    by_cases hd : (!is_type_duplicate T (rest.map Prod.fst)) = true
    · rw [if_pos hd] at h
      cases hg : w.GetComponent p T with
      | none => simp [hg] at h
      | some o =>
        cases o with
        | none =>
          simp only [hg] at h
          exact ih w w1 hinv h
        | some slot =>
          simp only [hg] at h
          cases hst : w.store p slot (some data) with
          | none => simp [hst] at h
          | some w2 =>
            simp only [hst] at h
            exact ih w2 w1 (hinv.store p slot _ hst) h
    · rw [if_neg hd] at h
      exact ih w w1 hinv h

theorem World.InvSlots.ConstructEntityDefault (p : EntityPtr) (Ts : List ComponentType) :
    ∀ (w w1 : World), w.InvSlots → w.ConstructEntityDefault p Ts = some w1 → w1.InvSlots := by
  induction Ts with
  | nil =>
    intro w w1 hinv h
    simp only [World.ConstructEntityDefault, Option.some.injEq] at h
    rw [← h]
    exact hinv
  | cons T rest ih =>
    intro w w1 hinv h
    simp only [World.ConstructEntityDefault] at h
    by_cases hd : (!is_type_duplicate T rest) = true
    · rw [if_pos hd] at h
      cases hg : w.GetComponent p T with
      | none => simp [hg] at h
      | some o =>
        cases o with
        | none =>
          simp only [hg] at h
          exact ih w w1 hinv h
        | some slot =>
          simp only [hg] at h
          cases hst : w.store p slot (some T.defaultValue) with
          | none => simp [hst] at h
          | some w2 =>
            simp only [hst] at h
            exact ih w2 w1 (hinv.store p slot _ hst) h
    · rw [if_neg hd] at h
      exact ih w w1 hinv h

/-- A loop whose rounds keep `InvSlots` keeps it. -/
theorem World.InvSlots.foldl (step : Option World → Nat → Option World)
    (hnone : ∀ k, step none k = none)
    (hstep : ∀ (w w1 : World) k, w.InvSlots → step (some w) k = some w1 → w1.InvSlots)
    (l : List Nat) :
    ∀ (w w1 : World), w.InvSlots → List.foldl step (some w) l = some w1 → w1.InvSlots := by
  induction l with
  | nil =>
    intro w w1 hinv h
    simp only [List.foldl_nil, Option.some.injEq] at h
    rw [← h]
    exact hinv
  | cons k rest ih =>
    intro w w1 hinv h
    rw [List.foldl_cons] at h
    cases hs : step (some w) k with
    | none =>
      rw [hs] at h
      have hn : ∀ l : List Nat, List.foldl step none l = none := by
        intro l
        induction l with
        | nil => rfl
        | cons k2 l2 ih2 => rw [List.foldl_cons, hnone, ih2]
      rw [hn] at h
      cases h
    | some w2 =>
      rw [hs] at h
      exact ih w2 w1 (hstep w w2 k hinv hs) h

theorem World.InvSlots.constructMissing (Args : List ComponentType) (a : EntityArchetype)
    (p : EntityPtr) (w w1 : World) (k : Nat) (hinv : w.InvSlots)
    (h : World.constructMissing Args a p (some w) k = some w1) : w1.InvSlots := by
  simp only [World.constructMissing] at h
  by_cases hd : (!ComponentTypesHelperClass.Contain (a.mComponentTypeIds k) Args) = true
  · rw [if_pos hd] at h
    cases hg : w.GetComponentByIndex p k with
    | none => simp [hg] at h
    | some slot =>
      simp only [hg] at h
      exact hinv.store p slot _ h
  · rw [if_neg hd] at h
    simp only [Option.some.injEq] at h
    rw [← h]
    exact hinv

theorem World.InvSlots.copyComponent (a : EntityArchetype) (pDst pSrc : EntityPtr)
    (w w1 : World) (k : Nat) (hinv : w.InvSlots)
    (h : World.copyComponent a pDst pSrc (some w) k = some w1) : w1.InvSlots := by
  simp only [World.copyComponent] at h
  cases hg : w.GetComponentByTypeID pDst (a.mComponentTypeIds k) with
  | none => simp [hg] at h
  | some o =>
    cases o with
    | none =>
      simp only [hg, Option.some.injEq] at h
      rw [← h]
      exact hinv
    | some slot =>
      simp only [hg] at h
      cases hs : w.GetComponentByIndex pSrc k with
      | none => simp [hs] at h
      | some src =>
        simp only [hs] at h
        exact hinv.store pDst slot _ h

theorem World.InvSlots.cloneComponent (pDst pSrc : EntityPtr)
    (w w1 : World) (k : Nat) (hinv : w.InvSlots)
    (h : World.cloneComponent pDst pSrc (some w) k = some w1) : w1.InvSlots := by
  simp only [World.cloneComponent] at h
  cases hg : w.GetComponentByIndex pSrc k with
  | none => simp [hg] at h
  | some src =>
    simp only [hg] at h
    cases hs : w.GetComponentByIndex pDst k with
    | none => simp [hs] at h
    | some dst =>
      simp only [hs] at h
      exact hinv.store pDst dst _ h

theorem World.InvSlots.CopyEntityData {w w1 : World} (hinv : w.InvSlots) (pDst pSrc : EntityPtr)
    (h : w.CopyEntityData pDst pSrc = some w1) : w1.InvSlots := by
  unfold World.CopyEntityData at h
  cases hg : w.GetArchetype pSrc with
  | none => simp [hg] at h
  | some pa =>
    cases ha : w.archetype pa with
    | none => simp [hg, ha] at h
    | some a =>
      simp only [hg, ha] at h
      exact World.InvSlots.foldl (World.copyComponent a pDst pSrc) (fun _ => rfl)
        (fun u u1 k hu hk => World.InvSlots.copyComponent a pDst pSrc u u1 k hu hk) _ w w1
        hinv h

theorem World.InvSlots.migrate {w w1 : World} (hinv : w.InvSlots) (pContext : Nat)
    (pDst : Option Nat) (pSrc p : EntityPtr)
    (h : w.migrate pContext pDst pSrc = some (w1, p)) : w1.InvSlots := by
  unfold World.migrate at h
  cases pDst with
  | none => simp at h
  | some pd =>
    simp only [] at h
    cases hg : w.GetEntityComponentStorage pContext pd with
    | none => simp [hg] at h
    | some r =>
      obtain ⟨w2, ps⟩ := r
      simp only [hg] at h
      cases hal : w2.Allocate ps false with
      | none => simp [hal] at h
      | some r2 =>
        obtain ⟨w3, q⟩ := r2
        simp only [hal] at h
        cases hcp : w3.CopyEntityData q pSrc with
        | none => simp [hcp] at h
        | some w4 =>
          simp only [hcp, Option.map_some', Option.some.injEq, Prod.mk.injEq] at h
          rw [← h.1]
          exact ((hinv.GetEntityComponentStorage pContext pd ps hg).Allocate ps false q
            hal).CopyEntityData q pSrc hcp

/-! ### The archetype objects are only added to -/

theorem EntityArchetypeManager.construct_objects (mgr mgr1 : EntityArchetypeManager)
    (id : Nat) (metaMap : ComponentMetaMap) (r : Nat)
    (h : mgr.construct id metaMap = some (mgr1, r)) :
    ∀ (p : Nat) (a : EntityArchetype), mgr.objects[p]? = some a → mgr1.objects[p]? = some a := by
  unfold EntityArchetypeManager.construct at h
  cases hn : EntityArchetype.new id metaMap with
  | none => simp [hn] at h
  | some a0 =>
    simp only [hn, Option.some.injEq, Prod.mk.injEq] at h
    rw [← h.1]
    intro p a ha
    have hlt : p < mgr.objects.length := by
      by_contra hge
      rw [List.getElem?_eq_none (by omega)] at ha
      cases ha
    simp only [List.getElem?_append_left hlt]
    exact ha

theorem EntityArchetypeManager.CreateArchetype_objects (mgr mgr1 : EntityArchetypeManager)
    (args : ArchetypeArgs) (r : Nat) (h : mgr.CreateArchetype args = some (mgr1, r)) :
    ∀ (p : Nat) (a : EntityArchetype), mgr.objects[p]? = some a → mgr1.objects[p]? = some a := by
  have key : ∀ Ts : List ComponentType,
      (match umapFind mgr.mArchetypesMap (sum_component_hashcodes Ts) with
        | some p => some (mgr, p)
        | none =>
          (GetComponentsMetaHelperClass.Call Ts mgr []).1.construct (sum_component_hashcodes Ts)
            (GetComponentsMetaHelperClass.Call Ts mgr []).2) = some (mgr1, r) →
      ∀ (p : Nat) (a : EntityArchetype), mgr.objects[p]? = some a →
        mgr1.objects[p]? = some a := by
    intro Ts h p a ha
    cases hf : umapFind mgr.mArchetypesMap (sum_component_hashcodes Ts) with
    | some q =>
      simp only [hf, Option.some.injEq, Prod.mk.injEq] at h
      rw [← h.1]
      exact ha
    | none =>
      simp only [hf] at h
      apply EntityArchetypeManager.construct_objects _ _ _ _ _ h
      rw [(Call_objects Ts mgr []).1]
      exact ha
  cases args with
  | components Ts => exact key Ts h
  | entityClass Ts => exact key Ts h

theorem EntityArchetypeManager.AddComponents_objects (mgr mgr1 : EntityArchetypeManager)
    (Ts : List ComponentType) (pArchetype : Nat) (r : Option Nat)
    (h : mgr.AddComponents Ts pArchetype = some (mgr1, r)) :
    ∀ (p : Nat) (a : EntityArchetype), mgr.objects[p]? = some a → mgr1.objects[p]? = some a := by
  unfold EntityArchetypeManager.AddComponents at h
  cases ho : mgr.objects[pArchetype]? with
  | none => simp [ho] at h
  | some a0 =>
    simp only [ho] at h
    intro p a ha
    have hcall := (Call_objects Ts mgr a0.mComponentMetaMap).1
    by_cases hlen : (GetComponentsMetaHelperClass.Call Ts mgr a0.mComponentMetaMap).2.length
        = a0.mComponentMetaMap.length
    · rw [if_pos hlen] at h
      simp only [Option.some.injEq, Prod.mk.injEq] at h
      rw [← h.1, hcall]
      exact ha
    · rw [if_neg hlen] at h
      cases hf : umapFind
          (GetComponentsMetaHelperClass.Call Ts mgr a0.mComponentMetaMap).1.mArchetypesMap
          (GetArchetypeIDFromComponentMetaMap
            (GetComponentsMetaHelperClass.Call Ts mgr a0.mComponentMetaMap).2) with
      | some q =>
        simp only [hf, Option.some.injEq, Prod.mk.injEq] at h
        rw [← h.1, hcall]
        exact ha
      | none =>
        simp only [hf, Option.map_eq_some'] at h
        obtain ⟨x, hx, hxe⟩ := h
        simp only [Prod.mk.injEq] at hxe
        rw [← hxe.1]
        apply EntityArchetypeManager.construct_objects _ _ _ _ x.2 hx
        rw [hcall]
        exact ha

theorem EntityArchetypeManager.RemoveComponents_objects (mgr mgr1 : EntityArchetypeManager)
    (Ts : List ComponentType) (pArchetype : Nat) (r : Option Nat)
    (h : mgr.RemoveComponents Ts pArchetype = some (mgr1, r)) :
    ∀ (p : Nat) (a : EntityArchetype), mgr.objects[p]? = some a → mgr1.objects[p]? = some a := by
  unfold EntityArchetypeManager.RemoveComponents at h
  cases ho : mgr.objects[pArchetype]? with
  | none => simp [ho] at h
  | some a0 =>
    simp only [ho] at h
    intro p a ha
    by_cases hlen : (RemoveComponentsFromMetaMap.Call Ts a0.mComponentMetaMap).length
        = a0.mComponentMetaMap.length
    · rw [if_pos hlen] at h
      simp only [Option.some.injEq, Prod.mk.injEq] at h
      rw [← h.1]
      exact ha
    · rw [if_neg hlen] at h
      cases hf : umapFind mgr.mArchetypesMap
          (GetArchetypeIDFromComponentMetaMap
            (RemoveComponentsFromMetaMap.Call Ts a0.mComponentMetaMap)) with
      | some q =>
        simp only [hf, Option.some.injEq, Prod.mk.injEq] at h
        rw [← h.1]
        exact ha
      | none =>
        simp only [hf, Option.map_eq_some'] at h
        obtain ⟨x, hx, hxe⟩ := h
        simp only [Prod.mk.injEq] at hxe
        rw [← hxe.1]
        exact EntityArchetypeManager.construct_objects _ _ _ _ x.2 hx p a ha
/-! ### The calls keep `InvSlots` -/

theorem World.InvSlots.CreateContext {w w1 : World} (hinv : w.InvSlots) (id : Nat)
    (h : w.CreateContext = some (w1, id)) : w1.InvSlots := by
  unfold World.CreateContext at h
  cases hf : w.FindAvaibableContextId with
  | none => simp [hf] at h
  | some k =>
    simp only [hf, Option.some.injEq, Prod.mk.injEq] at h
    rw [← h.1]
    intro i hi c1 hc1
    by_cases hik : i = k
    · subst hik
      simp only [Option.mem_def, setAt, if_true, Option.some.injEq] at hc1
      subst hc1
      refine ⟨rfl, by simp, ?_⟩
      intro j hj
      simp at hj
    · simp only [Option.mem_def, setAt, if_neg hik] at hc1
      exact hinv i hi c1 hc1

theorem World.InvSlots.SetEventManager {w w1 : World} (hinv : w.InvSlots) (pContext : Nat)
    (pEventManager : Option EventManager)
    (h : w.SetEventManager pContext pEventManager = some w1) : w1.InvSlots := by
  unfold World.SetEventManager at h
  cases hc : w.mEntityContexts pContext with
  | none => simp [hc] at h
  | some c =>
    simp only [hc, Option.some.injEq] at h
    rw [← h]
    exact hinv.setManager pContext c pEventManager hc

theorem World.InvSlots.Subscrible {w w1 : World} (hinv : w.InvSlots)
    (pContext type_id genid : Nat) (cb : EventCallbackFunction) (handle : Nat)
    (h : w.Subscrible pContext type_id genid cb = some (w1, handle)) : w1.InvSlots := by
  unfold World.Subscrible at h
  cases hc : w.mEntityContexts pContext with
  | none => simp [hc] at h
  | some c =>
    simp only [hc] at h
    cases hem : c.mEventManager with
    | none => simp [hem] at h
    | some em =>
      simp only [hem, Option.map_eq_some'] at h
      obtain ⟨r, _, hr⟩ := h
      simp only [Prod.mk.injEq] at hr
      rw [← hr.1]
      exact hinv.setManager pContext c (some r.1) hc

theorem World.InvSlots.Unsubscribe {w w1 : World} (hinv : w.InvSlots)
    (pContext handle : Nat) (h : w.Unsubscribe pContext handle = some w1) : w1.InvSlots := by
  unfold World.Unsubscribe at h
  cases hc : w.mEntityContexts pContext with
  | none => simp [hc] at h
  | some c =>
    simp only [hc] at h
    cases hem : c.mEventManager with
    | none => simp [hem] at h
    | some em =>
      simp only [hem, Option.map_eq_some'] at h
      obtain ⟨em1, _, hr⟩ := h
      rw [← hr]
      exact hinv.setManager pContext c (some em1) hc

theorem World.InvSlots.UnsubscribeAll {w w1 : World} (hinv : w.InvSlots)
    (pContext type_id : Nat) (h : w.UnsubscribeAll pContext type_id = some w1) :
    w1.InvSlots := by
  unfold World.UnsubscribeAll at h
  cases hc : w.mEntityContexts pContext with
  | none => simp [hc] at h
  | some c =>
    simp only [hc] at h
    cases hem : c.mEventManager with
    | none => simp [hem] at h
    | some em =>
      simp only [hem, Option.some.injEq] at h
      rw [← h]
      exact hinv.setManager pContext c (some (em.UnsubscribeAll type_id)) hc

theorem World.InvSlots.ReleaseContext {w w1 : World} (hinv : w.InvSlots) (pContext : Nat)
    (h : w.ReleaseContext pContext = some w1) : w1.InvSlots := by
  unfold World.ReleaseContext at h
  cases hc : w.mEntityContexts pContext with
  | none => simp [hc] at h
  | some c =>
    simp only [hc] at h
    have hfold : ∀ (l : List EntityComponentStorage) (objects objects1 : List EntityArchetype),
        List.foldl
          (fun (objects : Option (List EntityArchetype)) (pStorage : EntityComponentStorage) =>
            match objects with
            | none => none
            | some objects =>
              match objects[pStorage.mArchetype]? with
              | none => none
              | some a =>
                some (objects.set pStorage.mArchetype
                  { a with
                    mStoragesInContext := setAt a.mStoragesInContext c.mContextId none }))
          (some objects) l = some objects1 →
        ∀ (p : Nat) (a : EntityArchetype), objects[p]? = some a →
          ∃ a1, objects1[p]? = some a1 ∧ a1.mComponentCount = a.mComponentCount := by
      intro l
      induction l with
      | nil =>
        intro objects objects1 hl p a ha
        simp only [List.foldl_nil, Option.some.injEq] at hl
        rw [← hl]
        exact ⟨a, ha, rfl⟩
      | cons s rest ih =>
        intro objects objects1 hl p a ha
        rw [List.foldl_cons] at hl
        cases ho : objects[s.mArchetype]? with
        | none =>
          simp only [ho] at hl
          have hn : ∀ l2 : List EntityComponentStorage,
              List.foldl
                (fun (objects : Option (List EntityArchetype))
                    (pStorage : EntityComponentStorage) =>
                  match objects with
                  | none => none
                  | some objects =>
                    match objects[pStorage.mArchetype]? with
                    | none => none
                    | some a =>
                      some (objects.set pStorage.mArchetype
                        { a with
                          mStoragesInContext :=
                            setAt a.mStoragesInContext c.mContextId none }))
                none l2 = none := by
            intro l2
            induction l2 with
            | nil => rfl
            | cons x l3 ih3 =>
              rw [List.foldl_cons]
              exact ih3
          rw [hn] at hl
          cases hl
        | some a0 =>
          simp only [ho] at hl
          obtain ⟨b1, hb1, hcount⟩ := objects_set_count objects s.mArchetype a0
            { a0 with mStoragesInContext := setAt a0.mStoragesInContext c.mContextId none }
            ho rfl p a ha
          obtain ⟨b2, hb2, hcount2⟩ := ih _ objects1 hl p b1 hb1
          exact ⟨b2, hb2, by rw [hcount2, hcount]⟩
    split at h
    · cases h
    · rename_i objects1 hf
      simp only [Option.some.injEq] at h
      rw [← h]
      apply hinv.frame
      · intro i _ c1 hc1
        simp only [setAt] at hc1
        by_cases hip : i = pContext
        · simp [hip] at hc1
        · by_cases hic : i = c.mContextId
          · simp [hip, hic] at hc1
          · simp only [if_neg hip, if_neg hic] at hc1
            exact ⟨c1, hc1, rfl, rfl⟩
      · exact hfold _ _ _ hf

theorem World.InvSlots.CreateArchetype {w w1 : World} (hinv : w.InvSlots)
    (args : ArchetypeArgs) (r : Nat) (h : w.CreateArchetype args = some (w1, r)) :
    w1.InvSlots := by
  unfold World.CreateArchetype at h
  simp only [Option.map_eq_some'] at h
  obtain ⟨x, hx, hxe⟩ := h
  simp only [Prod.mk.injEq] at hxe
  rw [← hxe.1]
  exact hinv.manager x.1 (EntityArchetypeManager.CreateArchetype_objects _ _ args x.2 hx)

theorem World.InvSlots.CreateEntity {w w1 : World} (hinv : w.InvSlots)
    (pContext pArchetype : Nat) (p : EntityPtr)
    (h : w.CreateEntity pContext pArchetype = some (w1, p)) : w1.InvSlots := by
  unfold World.CreateEntity at h
  cases hg : w.GetEntityComponentStorage pContext pArchetype with
  | none => simp [hg] at h
  | some r1 =>
    obtain ⟨wa, ps⟩ := r1
    simp only [hg] at h
    cases hal : wa.Allocate ps true with
    | none => simp [hal] at h
    | some r2 =>
      obtain ⟨wb, q⟩ := r2
      simp only [hal] at h
      cases ho : wb.OnEntityCreated pContext q with
      | none => simp [ho] at h
      | some wc =>
        simp only [ho, Option.map_some', Option.some.injEq, Prod.mk.injEq] at h
        rw [← h.1]
        exact ((hinv.GetEntityComponentStorage pContext pArchetype ps hg).Allocate ps true q
          hal).OnEntityCreated pContext q ho

theorem World.InvSlots.CreateEntityWith {w w1 : World} (hinv : w.InvSlots)
    (pContext pArchetype : Nat) (args : List (ComponentType × Value)) (p : EntityPtr)
    (h : w.CreateEntityWith pContext pArchetype args = some (w1, p)) : w1.InvSlots := by
  unfold World.CreateEntityWith at h
  cases hg : w.GetEntityComponentStorage pContext pArchetype with
  | none => simp [hg] at h
  | some r1 =>
    obtain ⟨wa, ps⟩ := r1
    simp only [hg] at h
    cases hal : wa.Allocate ps false with
    | none => simp [hal] at h
    | some r2 =>
      obtain ⟨wb, q⟩ := r2
      cases ha : wa.archetype pArchetype with
      | none => simp [hal, ha] at h
      | some a =>
        simp only [hal, ha] at h
        cases hf : List.foldl (World.constructMissing (args.map Prod.fst) a q) (some wb)
            (List.range a.mComponentCount) with
        | none => simp [hf] at h
        | some wc =>
          simp only [hf] at h
          cases hce : wc.ConstructEntity q args with
          | none => simp [hce] at h
          | some wd =>
            simp only [hce] at h
            cases ho : wd.OnEntityCreated pContext q with
            | none => simp [ho] at h
            | some we =>
              simp only [ho, Option.map_some', Option.some.injEq, Prod.mk.injEq] at h
              rw [← h.1]
              have hb := (hinv.GetEntityComponentStorage pContext pArchetype ps hg).Allocate
                ps false q hal
              have hcI := World.InvSlots.foldl
                (World.constructMissing (args.map Prod.fst) a q) (fun _ => rfl)
                (fun u u1 k hu hk =>
                  World.InvSlots.constructMissing (args.map Prod.fst) a q u u1 k hu hk)
                _ wb wc hb hf
              exact (World.InvSlots.ConstructEntity q args wc wd hcI hce).OnEntityCreated
                pContext q ho

theorem World.InvSlots.ExtendEntityWith {w w1 : World} (hinv : w.InvSlots)
    (pContext : Nat) (pSrc : EntityPtr) (args : List (ComponentType × Value))
    (r : Option EntityPtr)
    (h : w.ExtendEntityWith pContext pSrc args = some (w1, r)) : w1.InvSlots := by
  unfold World.ExtendEntityWith at h
  cases hga : w.GetArchetype pSrc with
  | none => simp [hga] at h
  | some pa =>
    cases ha : w.archetype pa with
    | none => simp [hga, ha] at h
    | some a =>
      simp only [hga, ha] at h
      by_cases hany : a.ContainAnyComponents (args.map Prod.fst) = true
      · rw [if_pos hany] at h
        simp only [Option.some.injEq, Prod.mk.injEq] at h
        rw [← h.1]
        exact hinv
      · rw [if_neg hany] at h
        cases hadd : w.mArchetypeManager.AddComponents (args.map Prod.fst) pa with
        | none => simp [hadd] at h
        | some r1 =>
          obtain ⟨mgr, pd⟩ := r1
          simp only [hadd] at h
          cases hm : World.migrate { w with mArchetypeManager := mgr } pContext pd pSrc with
          | none => simp [hm] at h
          | some r2 =>
            obtain ⟨wc, q⟩ := r2
            simp only [hm] at h
            cases hce : wc.ConstructEntity q args with
            | none => simp [hce] at h
            | some wd =>
              simp only [hce] at h
              cases ho : wd.OnEntityCreated pContext q with
              | none => simp [ho] at h
              | some we =>
                simp only [ho, Option.map_some', Option.some.injEq, Prod.mk.injEq] at h
                rw [← h.1]
                have hm1 := hinv.manager mgr
                  (EntityArchetypeManager.AddComponents_objects _ _ _ _ _ hadd)
                exact (World.InvSlots.ConstructEntity q args wc wd
                  (hm1.migrate pContext pd pSrc q hm) hce).OnEntityCreated pContext q ho

theorem World.InvSlots.ExtendEntity {w w1 : World} (hinv : w.InvSlots)
    (pContext : Nat) (pSrc : EntityPtr) (Ts : List ComponentType) (r : Option EntityPtr)
    (h : w.ExtendEntity pContext pSrc Ts = some (w1, r)) : w1.InvSlots := by
  unfold World.ExtendEntity at h
  cases hga : w.GetArchetype pSrc with
  | none => simp [hga] at h
  | some pa =>
    cases ha : w.archetype pa with
    | none => simp [hga, ha] at h
    | some a =>
      simp only [hga, ha] at h
      by_cases hany : a.ContainAnyComponents Ts = true
      · rw [if_pos hany] at h
        simp only [Option.some.injEq, Prod.mk.injEq] at h
        rw [← h.1]
        exact hinv
      · rw [if_neg hany] at h
        cases hadd : w.mArchetypeManager.AddComponents Ts pa with
        | none => simp [hadd] at h
        | some r1 =>
          obtain ⟨mgr, pd⟩ := r1
          simp only [hadd] at h
          cases hm : World.migrate { w with mArchetypeManager := mgr } pContext pd pSrc with
          | none => simp [hm] at h
          | some r2 =>
            obtain ⟨wc, q⟩ := r2
            simp only [hm] at h
            cases hce : wc.ConstructEntityDefault q Ts with
            | none => simp [hce] at h
            | some wd =>
              simp only [hce] at h
              cases ho : wd.OnEntityCreated pContext q with
              | none => simp [ho] at h
              | some we =>
                simp only [ho, Option.map_some', Option.some.injEq, Prod.mk.injEq] at h
                rw [← h.1]
                have hm1 := hinv.manager mgr
                  (EntityArchetypeManager.AddComponents_objects _ _ _ _ _ hadd)
                exact (World.InvSlots.ConstructEntityDefault q Ts wc wd
                  (hm1.migrate pContext pd pSrc q hm) hce).OnEntityCreated pContext q ho

theorem World.InvSlots.RemoveComponentsFromEntity {w w1 : World} (hinv : w.InvSlots)
    (pContext : Nat) (pSrc : EntityPtr) (Ts : List ComponentType) (r : Option EntityPtr)
    (h : w.RemoveComponentsFromEntity pContext pSrc Ts = some (w1, r)) : w1.InvSlots := by
  unfold World.RemoveComponentsFromEntity at h
  cases hga : w.GetArchetype pSrc with
  | none => simp [hga] at h
  | some pa =>
    cases ha : w.archetype pa with
    | none => simp [hga, ha] at h
    | some a =>
      simp only [hga, ha] at h
      by_cases hall : (!a.ContainAllComponents Ts) = true
      · rw [if_pos hall] at h
        simp only [Option.some.injEq, Prod.mk.injEq] at h
        rw [← h.1]
        exact hinv
      · rw [if_neg hall] at h
        cases hrem : w.mArchetypeManager.RemoveComponents Ts pa with
        | none => simp [hrem] at h
        | some r1 =>
          obtain ⟨mgr, pd⟩ := r1
          simp only [hrem] at h
          cases hm : World.migrate { w with mArchetypeManager := mgr } pContext pd pSrc with
          | none => simp [hm] at h
          | some r2 =>
            obtain ⟨wc, q⟩ := r2
            simp only [hm] at h
            cases ho : wc.OnEntityCreated pContext q with
            | none => simp [ho] at h
            | some we =>
              simp only [ho, Option.map_some', Option.some.injEq, Prod.mk.injEq] at h
              rw [← h.1]
              have hm1 := hinv.manager mgr
                (EntityArchetypeManager.RemoveComponents_objects _ _ _ _ _ hrem)
              exact (hm1.migrate pContext pd pSrc q hm).OnEntityCreated pContext q ho

theorem World.InvSlots.Release {w w1 : World} (hinv : w.InvSlots) (e : EntityPtr)
    (hlive : w.Live e) (h : w.Release e = some w1) : w1.InvSlots := by
  obtain ⟨hctx, s, hs, hch, hbl, hv⟩ := hlive
  have hs1 : w.storage e.mStorage = some s := hs
  unfold World.Release at h
  rw [hs1] at h
  simp only [hv, Bool.not_true, Bool.false_eq_true, if_false] at h
  cases ho : w.OnEntityDeleted s.mContext e with
  | none => simp [ho] at h
  | some wa =>
    simp only [ho] at h
    unfold World.OnEntityDeleted at ho
    cases hh : w.header e with
    | none => simp [hh] at ho
    | some hd =>
      simp only [hh] at ho
      obtain ⟨_, _, hlive⟩ := w.TriggerEvent_triggered wa s.mContext _ ho
      have hwa := hinv.TriggerEvent s.mContext _ ho
      obtain ⟨_, s1, hs1', hch1, hbl1, hv1⟩ := (hlive e).mpr ⟨hctx, s, hs, hch, hbl, hv⟩
      simp only [Option.mem_def] at hs1'
      rw [hs1'] at h
      simp only [] at h
      cases hd2 : s1.Deallocate e true with
      | none => simp [hd2] at h
      | some t =>
        simp only [hd2, Option.map_some', Option.some.injEq] at h
        rw [← h]
        apply hwa.setStorage e.mStorage s1 t hs1'
        intro _ hsinv _
        have hbl2 : e.mBlockIndex < s1.mEntityCountPerChunk := by
          obtain ⟨_, _, _, hchunks, _⟩ := hsinv
          obtain ⟨_, _, _, _, hbc, _⟩ := hchunks _ hch1
          rw [← hbc]
          exact hbl1
        obtain ⟨t2, ht2, htinv, hrel⟩ := s1.Deallocate_spec e true hsinv hch1 hbl2 hv1
        rw [hd2] at ht2
        simp only [Option.some.injEq] at ht2
        subst ht2
        exact ⟨htinv, hrel.mContext, hrel.mIndex, hrel.mArchetype,
          hrel.mComponentCountPerEntity⟩

theorem World.InvSlots.Clone {w w1 : World} (hinv : w.InvSlots) (e p : EntityPtr)
    (h : w.Clone e = some (w1, p)) : w1.InvSlots := by
  unfold World.Clone World.CloneEntity at h
  cases hs : w.storage e.mStorage with
  | none => simp [hs] at h
  | some s =>
    simp only [hs] at h
    by_cases hne : w.GetArchetype e ≠ some s.mArchetype
    · rw [if_pos hne] at h
      cases h
    · rw [if_neg hne] at h
      cases hal : w.Allocate e.mStorage false with
      | none => simp [hal] at h
      | some r =>
        obtain ⟨wa, q⟩ := r
        simp only [hal, Option.map_eq_some'] at h
        obtain ⟨x, hx, hxe⟩ := h
        simp only [Prod.mk.injEq] at hxe
        rw [← hxe.1]
        exact World.InvSlots.foldl (World.cloneComponent q e) (fun _ => rfl)
          (fun u u1 k hu hk => World.InvSlots.cloneComponent q e u u1 k hu hk) _ wa x
          (hinv.Allocate e.mStorage false q hal) hx

/-- Every call keeps `InvSlots`. -/
theorem World.InvSlots.call {w w1 : World} (hinv : w.InvSlots) (op : WorldOp)
    (h : w.call op = some w1) : w1.InvSlots := by
  cases op with
  | createContext =>
    simp only [World.call, Option.map_eq_some'] at h
    obtain ⟨x, hx, hxe⟩ := h
    rw [← hxe]
    exact hinv.CreateContext x.2 hx
  | releaseContext pContext => exact hinv.ReleaseContext pContext h
  | setEventManager pContext pEventManager =>
    exact hinv.SetEventManager pContext pEventManager h
  | subscrible pContext type_id genid cb =>
    simp only [World.call, Option.map_eq_some'] at h
    obtain ⟨x, hx, hxe⟩ := h
    rw [← hxe]
    exact hinv.Subscrible pContext type_id genid cb x.2 hx
  | unsubscribe pContext handle => exact hinv.Unsubscribe pContext handle h
  | unsubscribeAll pContext type_id => exact hinv.UnsubscribeAll pContext type_id h
  | createArchetype args =>
    simp only [World.call, Option.map_eq_some'] at h
    obtain ⟨x, hx, hxe⟩ := h
    rw [← hxe]
    exact hinv.CreateArchetype args x.2 hx
  | createEntity pContext pArchetype =>
    simp only [World.call, Option.map_eq_some'] at h
    obtain ⟨x, hx, hxe⟩ := h
    rw [← hxe]
    exact hinv.CreateEntity pContext pArchetype x.2 hx
  | createEntityWith pContext pArchetype args =>
    simp only [World.call, Option.map_eq_some'] at h
    obtain ⟨x, hx, hxe⟩ := h
    rw [← hxe]
    exact hinv.CreateEntityWith pContext pArchetype args x.2 hx
  | extendEntity pContext pSrc Ts =>
    simp only [World.call] at h
    by_cases hl : w.Live pSrc
    · rw [if_pos hl] at h
      simp only [Option.map_eq_some'] at h
      obtain ⟨x, hx, hxe⟩ := h
      rw [← hxe]
      exact hinv.ExtendEntity pContext pSrc Ts x.2 hx
    · rw [if_neg hl] at h
      cases h
  | extendEntityWith pContext pSrc args =>
    simp only [World.call] at h
    by_cases hl : w.Live pSrc
    · rw [if_pos hl] at h
      simp only [Option.map_eq_some'] at h
      obtain ⟨x, hx, hxe⟩ := h
      rw [← hxe]
      exact hinv.ExtendEntityWith pContext pSrc args x.2 hx
    · rw [if_neg hl] at h
      cases h
  | removeComponentsFromEntity pContext pSrc Ts =>
    simp only [World.call] at h
    by_cases hl : w.Live pSrc
    · rw [if_pos hl] at h
      simp only [Option.map_eq_some'] at h
      obtain ⟨x, hx, hxe⟩ := h
      rw [← hxe]
      exact hinv.RemoveComponentsFromEntity pContext pSrc Ts x.2 hx
    · rw [if_neg hl] at h
      cases h
  | release e =>
    simp only [World.call] at h
    by_cases hl : w.Live e
    · rw [if_pos hl] at h
      exact hinv.Release e hl h
    · rw [if_neg hl] at h
      cases h
  | setComponent e T data =>
    simp only [World.call] at h
    by_cases hl : w.Live e
    · rw [if_pos hl] at h
      simp only [Option.map_eq_some'] at h
      obtain ⟨x, hx, hxe⟩ := h
      rw [← hxe]
      exact hinv.SetComponent e T data x.2 hx
    · rw [if_neg hl] at h
      cases h
  | clone e =>
    simp only [World.call] at h
    by_cases hl : w.Live e
    · rw [if_pos hl] at h
      simp only [Option.map_eq_some'] at h
      obtain ⟨x, hx, hxe⟩ := h
      rw [← hxe]
      exact hinv.Clone e x.2 hx
    · rw [if_neg hl] at h
      cases h

/-- Every sequence of calls keeps `InvSlots`. -/
theorem World.InvSlots.run (ops : List WorldOp) :
    ∀ (w w1 : World), w.InvSlots → World.run ops w = some w1 → w1.InvSlots := by
  induction ops with
  | nil =>
    intro w w1 hinv h
    simp only [World.run, Option.some.injEq] at h
    rw [← h]
    exact hinv
  | cons op rest ih =>
    intro w w1 hinv h
    simp only [World.run] at h
    cases hc : w.call op with
    | none => simp [hc] at h
    | some w2 =>
      simp only [hc] at h
      exact ih w2 w1 (hinv.call op hc) h

/-- C23: for every world that a sequence of calls (creating and releasing contexts,
attaching event managers, creating archetypes, creating, extending, reducing,
cloning and releasing valid records, and assigning their components) leaves of a
new world, and any two different valid records of it: `GetEntityID` returns an
identifier for each, and the two identifiers differ. -/
theorem GetEntityID_unique (ops : List WorldOp) (w : World)
    (hrun : World.new.run ops = some w) (p q : EntityPtr) (hp : w.Live p) (hq : w.Live q)
    (hne : p ≠ q) :
    ∃ a b, w.GetEntityID p = some a ∧ w.GetEntityID q = some b ∧ a ≠ b := by
  have hinv := World.InvSlots.run ops World.new w World.new_InvSlots hrun
  obtain ⟨s, _, hidp, _⟩ := hinv.identifier hp
  obtain ⟨t, _, hidq, _⟩ := hinv.identifier hq
  refine ⟨_, _, hidp, hidq, ?_⟩
  intro he
  apply hne
  apply hinv.GetEntityID_injective hp hq
  rw [hidp, hidq, he]

set_option maxRecDepth 100000 in
/-- Witness of C23: the two records of a world built by four calls. -/
theorem GetEntityID_unique_witness :
    ∃ a b,
      pairRun.GetEntityID
          { mStorage := { mContext := 0, mIndex := 0 }, mChunkIndex := 0, mBlockIndex := 0 }
        = some a
      ∧ pairRun.GetEntityID
          { mStorage := { mContext := 0, mIndex := 0 }, mChunkIndex := 0, mBlockIndex := 1 }
        = some b
      ∧ a ≠ b :=
  GetEntityID_unique
    [WorldOp.createContext, WorldOp.createArchetype (ArchetypeArgs.components [Terrain]),
      WorldOp.createEntity 0 0, WorldOp.createEntity 0 0]
    pairRun (eq_some_getD _ _ (by decide))
    { mStorage := { mContext := 0, mIndex := 0 }, mChunkIndex := 0, mBlockIndex := 0 }
    { mStorage := { mContext := 0, mIndex := 0 }, mChunkIndex := 0, mBlockIndex := 1 }
    (by decide) (by decide) (by decide)
/-! ## Allocation in a chunk and iteration over a range -/

/-- C31: for every chunk that satisfies its invariant and is not full, `Allocate`
returns the pointer to the block at the head of the free list, which is a block of
the chunk that was not valid; afterwards that block is valid, its generation is the
one it had plus one modulo 2^16, its own indices and storage pointer are kept, the
used count is one more, the free list is the old one without its head, and the
header of every other block is what it was. -/
theorem Allocate_head (c : EntityComponentChunk) (a : EntityArchetype) (b : Bool)
    (hinv : c.Inv) (hfull : c.IsFull = false) :
    ∃ d, c.Allocate a b = some (d, c.entityPtr c.mFreeHead)
      ∧ c.freeBlocks.head? = some c.mFreeHead
      ∧ c.mFreeHead < c.mBlockCount
      ∧ (c.mEntitiesBuffer c.mFreeHead).mValid = false
      ∧ (d.mEntitiesBuffer c.mFreeHead).mValid = true
      ∧ (d.mEntitiesBuffer c.mFreeHead).mGenID
          = ((c.mEntitiesBuffer c.mFreeHead).mGenID + 1) % 2 ^ 16
      ∧ (d.mEntitiesBuffer c.mFreeHead).mBlockIndex = (c.mEntitiesBuffer c.mFreeHead).mBlockIndex
      ∧ (d.mEntitiesBuffer c.mFreeHead).mChunkIndex = (c.mEntitiesBuffer c.mFreeHead).mChunkIndex
      ∧ (d.mEntitiesBuffer c.mFreeHead).mStorage = (c.mEntitiesBuffer c.mFreeHead).mStorage
      ∧ d.mUsedCount = c.mUsedCount + 1
      ∧ d.freeBlocks = c.freeBlocks.tail
      ∧ d.mBlockCount = c.mBlockCount
      ∧ d.Inv
      ∧ ∀ blk, blk ≠ c.mFreeHead → d.mEntitiesBuffer blk = c.mEntitiesBuffer blk := by
  have hne : c.mFreeHead ≠ c.mFreeTail := by
    intro h
    unfold EntityComponentChunk.IsFull at hfull
    simp [h] at hfull
  obtain ⟨hlt, hval, hfb, _⟩ := hinv.head c hne
  have hidx : (c.mEntitiesBuffer c.mFreeHead).mBlockIndex = c.mFreeHead :=
    (hinv.2.2.1 _ hlt).1
  obtain ⟨d, hd, hrel, _⟩ := c.Allocate_chunk_spec a b hne hidx
  obtain ⟨hdinv, hdfb⟩ := hrel.keeps_Inv hinv hne
  have hused : c.mUsedCount + 1 < 2 ^ 16 := by
    obtain ⟨_, hbc, _, _, _, _, _, hu⟩ := hinv
    have : MAX_ENTITY_COUNT_PER_CHUNK = 1024 := by decide
    rw [hfb] at hu
    simp only [List.length_cons] at hu
    omega
  refine ⟨d, hd, by rw [hfb]; rfl, hlt, hval, ?_, ?_, ?_, ?_, ?_, ?_, hdfb, hrel.mBlockCount,
    hdinv, ?_⟩
  · rw [hrel.mEntitiesBuffer]
    simp [setAt]
  · rw [hrel.mEntitiesBuffer]
    simp [setAt]
  · rw [hrel.mEntitiesBuffer]
    simp [setAt]
  · rw [hrel.mEntitiesBuffer]
    simp [setAt]
  · rw [hrel.mEntitiesBuffer]
    simp [setAt]
  · rw [hrel.mUsedCount]
    unfold u16
    omega
  · intro blk hblk
    rw [hrel.mEntitiesBuffer]
    simp [setAt, hblk]

set_option maxRecDepth 100000 in
/-- Witness of C31: the chunk of two blocks in which block 1 is valid and block 0
was released. -/
theorem Allocate_head_witness :
    ∃ d, exampleChunk.Allocate exampleArchetype true
        = some (d, exampleChunk.entityPtr exampleChunk.mFreeHead)
      ∧ exampleChunk.freeBlocks.head? = some exampleChunk.mFreeHead
      ∧ exampleChunk.mFreeHead < exampleChunk.mBlockCount
      ∧ (exampleChunk.mEntitiesBuffer exampleChunk.mFreeHead).mValid = false
      ∧ (d.mEntitiesBuffer exampleChunk.mFreeHead).mValid = true
      ∧ (d.mEntitiesBuffer exampleChunk.mFreeHead).mGenID
          = ((exampleChunk.mEntitiesBuffer exampleChunk.mFreeHead).mGenID + 1) % 2 ^ 16
      ∧ (d.mEntitiesBuffer exampleChunk.mFreeHead).mBlockIndex
          = (exampleChunk.mEntitiesBuffer exampleChunk.mFreeHead).mBlockIndex
      ∧ (d.mEntitiesBuffer exampleChunk.mFreeHead).mChunkIndex
          = (exampleChunk.mEntitiesBuffer exampleChunk.mFreeHead).mChunkIndex
      ∧ (d.mEntitiesBuffer exampleChunk.mFreeHead).mStorage
          = (exampleChunk.mEntitiesBuffer exampleChunk.mFreeHead).mStorage
      ∧ d.mUsedCount = exampleChunk.mUsedCount + 1
      ∧ d.freeBlocks = exampleChunk.freeBlocks.tail
      ∧ d.mBlockCount = exampleChunk.mBlockCount
      ∧ d.Inv
      ∧ ∀ blk, blk ≠ exampleChunk.mFreeHead →
          d.mEntitiesBuffer blk = exampleChunk.mEntitiesBuffer blk :=
  Allocate_head exampleChunk exampleArchetype true (by decide) (by decide)

/-- C32: for every chunk whose archetype contains the requested classes `Ts` and
every range that ends within the `mBlockCount` blocks of the chunk, `ForEach` returns
and has called the callback on the visits of a list `blocks` of blocks, in the
order of the list: the list increases strictly, so no block occurs twice, and holds
exactly the valid blocks of the range; the visit of a block passes the pointer to
the header of that block, with that header, and for each requested class the
pointer to the element of that block in the component array of the class, with that
element. -/
theorem ForEach_range (σ : Type) (c : EntityComponentChunk) (a : EntityArchetype)
    (Ts : List ComponentType) (f : σ → Visit → σ) (startBlockIndex endBlockIndex : Nat)
    (acc : σ) (hcon : a.ContainAllComponents Ts = true)
    (hhi : endBlockIndex ≤ c.mBlockCount) :
    ∃ blocks : List Nat,
      c.ForEach a Ts f startBlockIndex endBlockIndex acc
          = some (List.foldl f acc
              (blocks.map (c.visit (GetComponentIndexesHelperClass.Call a Ts))))
        ∧ blocks.Sorted (· < ·)
        ∧ (∀ blk, blk ∈ blocks ↔
            startBlockIndex ≤ blk ∧ blk < endBlockIndex
              ∧ (c.mEntitiesBuffer blk).mValid = true)
        ∧ (∀ blk, blk ∈ blocks → blk < c.mBlockCount)
        ∧ ∀ blk,
            (c.visit (GetComponentIndexesHelperClass.Call a Ts) blk).pEntity = c.entityPtr blk
              ∧ (c.visit (GetComponentIndexesHelperClass.Call a Ts) blk).header
                  = c.mEntitiesBuffer blk
              ∧ (c.visit (GetComponentIndexesHelperClass.Call a Ts) blk).components
                  = Ts.map (fun T =>
                      { index := (a.GetComponentIndex T.typeId).toNat, block := blk })
              ∧ (c.visit (GetComponentIndexesHelperClass.Call a Ts) blk).values
                  = Ts.map (fun T =>
                      c.mComponentBuffers (a.GetComponentIndex T.typeId).toNat blk)
              ∧ ∀ T, T ∈ Ts → 0 ≤ a.GetComponentIndex T.typeId := by
  have hcall : ∀ (g : Int → ComponentSlot) (Us : List ComponentType),
      (GetComponentIndexesHelperClass.Call a Us).map g
        = Us.map (fun T => g (a.GetComponentIndex T.typeId)) := by
    intro g Us
    induction Us with
    | nil => rfl
    | cons T rest ih =>
      simp only [GetComponentIndexesHelperClass.Call, List.map_cons, ih]
  have hcall2 : ∀ (g : Int → Option Value) (Us : List ComponentType),
      (GetComponentIndexesHelperClass.Call a Us).map g
        = Us.map (fun T => g (a.GetComponentIndex T.typeId)) := by
    intro g Us
    induction Us with
    | nil => rfl
    | cons T rest ih =>
      simp only [GetComponentIndexesHelperClass.Call, List.map_cons, ih]
  have hvalid : ∀ Us : List ComponentType, a.ContainAllComponents Us = true →
      ∀ T, T ∈ Us → 0 ≤ a.GetComponentIndex T.typeId := by
    intro Us
    induction Us with
    | nil =>
      intro _ T hT
      cases hT
    | cons U rest ih =>
      intro h T hT
      have hv := GetComponentIndexesHelperClass.Call_valid a (U :: rest) h
      simp only [GetComponentIndexesHelperClass.Call, List.any_cons, Bool.or_eq_false_iff,
        decide_eq_false_iff_not] at hv
      rcases List.mem_cons.mp hT with e | e
      · subst e
        have hne := hv.1
        have hcases := LinearComponentIndexTable.Get_cases a.mComponentIndexTable T.typeId
        unfold EntityArchetype.GetComponentIndex at hne ⊢
        rcases hcases with h1 | h1
        · exact absurd h1 hne
        · obtain ⟨k, hk⟩ := h1
          rw [hk]
          exact Int.ofNat_nonneg k
      · have hrest : a.ContainAllComponents rest = true := by
          unfold EntityArchetype.ContainAllComponents at h ⊢
          simp only [ContainComponentsHelperClass.All, Bool.and_eq_true] at h
          exact h.2
        exact ih hrest T e
  refine ⟨c.validBlocks startBlockIndex endBlockIndex,
    c.ForEach_range_eq a Ts f startBlockIndex endBlockIndex acc hcon, ?_,
    c.mem_validBlocks startBlockIndex endBlockIndex, ?_, ?_⟩
  · unfold EntityComponentChunk.validBlocks
    apply List.Pairwise.filter
    rw [List.range'_eq_map_range]
    exact (List.pairwise_lt_range _).map _ (fun _ _ h => by omega)
  · intro blk hblk
    have := (c.mem_validBlocks startBlockIndex endBlockIndex blk).mp hblk
    omega
  · intro blk
    exact ⟨rfl, rfl, hcall _ Ts, hcall2 _ Ts, hvalid Ts hcon⟩

set_option maxRecDepth 100000 in
/-- Witness of C32: the two blocks of the example chunk and the class `Terrain`. -/
theorem ForEach_range_witness :
    ∃ blocks : List Nat,
      exampleChunk.ForEach exampleArchetype [Terrain] Visit.record 0 2 []
          = some (List.foldl Visit.record []
              (blocks.map
                (exampleChunk.visit (GetComponentIndexesHelperClass.Call exampleArchetype [Terrain]))))
        ∧ blocks.Sorted (· < ·)
        ∧ (∀ blk, blk ∈ blocks ↔
            0 ≤ blk ∧ blk < 2 ∧ (exampleChunk.mEntitiesBuffer blk).mValid = true)
        ∧ (∀ blk, blk ∈ blocks → blk < exampleChunk.mBlockCount)
        ∧ ∀ blk,
            (exampleChunk.visit (GetComponentIndexesHelperClass.Call exampleArchetype [Terrain])
                blk).pEntity = exampleChunk.entityPtr blk
              ∧ (exampleChunk.visit
                    (GetComponentIndexesHelperClass.Call exampleArchetype [Terrain]) blk).header
                  = exampleChunk.mEntitiesBuffer blk
              ∧ (exampleChunk.visit
                    (GetComponentIndexesHelperClass.Call exampleArchetype [Terrain])
                    blk).components
                  = [Terrain].map (fun T =>
                      { index := (exampleArchetype.GetComponentIndex T.typeId).toNat,
                        block := blk })
              ∧ (exampleChunk.visit
                    (GetComponentIndexesHelperClass.Call exampleArchetype [Terrain]) blk).values
                  = [Terrain].map (fun T =>
                      exampleChunk.mComponentBuffers
                        (exampleArchetype.GetComponentIndex T.typeId).toNat blk)
              ∧ ∀ T, T ∈ [Terrain] → 0 ≤ exampleArchetype.GetComponentIndex T.typeId :=
  ForEach_range (List Visit) exampleChunk exampleArchetype [Terrain] Visit.record 0 2 []
    (by decide) (by decide)
/-! ## Allocation in reachable storages -/

/-- Along a sequence of allocations and releases that returns, the invariant of the
storage is kept and the storage keeps its path, its block count per chunk and its
component count. -/
theorem EntityComponentStorage.run_shape (a : EntityArchetype) (ops : List StorageOp) :
    ∀ (s : EntityComponentStorage) (r : EntityComponentStorage × List EntityPtr),
      s.Inv → a.mComponentCount = s.mComponentCountPerEntity → s.run a ops = some r →
      r.1.Inv ∧ r.1.this = s.this ∧ r.1.mEntityCountPerChunk = s.mEntityCountPerChunk
        ∧ r.1.mComponentCountPerEntity = s.mComponentCountPerEntity := by
  induction ops with
  | nil =>
    intro s r hinv _ hrun
    simp only [EntityComponentStorage.run, Option.some.injEq] at hrun
    subst hrun
    exact ⟨hinv, rfl, rfl, rfl⟩
  | cons op ops ih =>
    intro s r hinv ha hrun
    cases op with
    | allocate b =>
      unfold EntityComponentStorage.run at hrun
      cases hall : s.Allocate a b with
      | none =>
        rw [hall] at hrun
        cases hrun
      | some tp =>
        obtain ⟨t, p⟩ := tp
        rw [hall] at hrun
        simp only [Option.map_eq_some'] at hrun
        obtain ⟨r1, hr1, hr⟩ := hrun
        have hn : 1 ≤ s.mEntityCountPerChunk := by
          by_contra hno
          rw [s.Allocate_none_of_zero a b hinv (by omega)] at hall
          cases hall
        obtain ⟨htinv, hrel⟩ := s.Allocate_some a b hinv hn ha t p hall
        obtain ⟨g1, g2, g3, g4⟩ :=
          ih t r1 htinv (by rw [hrel.mComponentCountPerEntity]; exact ha) hr1
        rw [← hr]
        refine ⟨g1, ?_, by rw [g3, hrel.mEntityCountPerChunk],
          by rw [g4, hrel.mComponentCountPerEntity]⟩
        rw [g2]
        unfold EntityComponentStorage.this
        rw [hrel.mContext, hrel.mIndex]
    | release p =>
      unfold EntityComponentStorage.run at hrun
      by_cases hlive : s.live p
      · rw [if_pos hlive] at hrun
        obtain ⟨t, ht, htinv, hrel⟩ := s.Deallocate_spec p true hinv hlive.1 hlive.2.1 hlive.2.2
        rw [ht] at hrun
        obtain ⟨g1, g2, g3, g4⟩ :=
          ih t r htinv (by rw [hrel.mComponentCountPerEntity]; exact ha) hrun
        refine ⟨g1, ?_, by rw [g3, hrel.mEntityCountPerChunk],
          by rw [g4, hrel.mComponentCountPerEntity]⟩
        rw [g2]
        unfold EntityComponentStorage.this
        rw [hrel.mContext, hrel.mIndex]
      · rw [if_neg hlive] at hrun
        cases hrun

/-- An allocation keeps the valid records valid, and the record it returns was not
valid. -/
theorem EntityComponentStorage.AllocatedAt.live {s t : EntityComponentStorage} {b : Bool}
    {p : EntityPtr} (h : s.AllocatedAt b p t) :
    t.live p ∧ ¬ s.live p ∧ ∀ q, s.live q → t.live q := by
  refine ⟨⟨h.chunk_lt, h.block_lt, h.valid⟩, ?_, ?_⟩
  · rintro ⟨h1, _, h3⟩
    rw [h.was_free h1] at h3
    cases h3
  · rintro q ⟨h1, h2, h3⟩
    refine ⟨lt_of_lt_of_le h1 h.count_le, by rw [h.mEntityCountPerChunk]; exact h2, ?_⟩
    by_cases hq : q.mChunkIndex = p.mChunkIndex ∧ q.mBlockIndex = p.mBlockIndex
    · unfold EntityComponentStorage.header
      rw [hq.1, hq.2]
      exact h.valid
    · have hne : q.mChunkIndex ≠ p.mChunkIndex ∨ q.mBlockIndex ≠ p.mBlockIndex := by
        by_contra hno
        push_neg at hno
        exact hq hno
      unfold EntityComponentStorage.header at h3 ⊢
      rw [h.headers _ _ h1 hne]
      exact h3

/-- A sequence of `k` allocations that returns: the records that were valid stay
valid, and the `k` returned records are different records that were not valid
before and are valid afterwards. -/
theorem EntityComponentStorage.run_allocations (a : EntityArchetype) (b : Bool) (k : Nat) :
    ∀ (s : EntityComponentStorage) (r : EntityComponentStorage × List EntityPtr),
      s.Inv → a.mComponentCount = s.mComponentCountPerEntity →
      s.run a (List.replicate k (StorageOp.allocate b)) = some r →
      r.1.Inv ∧ (∀ q, s.live q → r.1.live q)
        ∧ (∀ p, p ∈ r.2 → ¬ s.live p ∧ r.1.live p ∧ p.mStorage = s.this)
        ∧ r.2.Nodup ∧ r.2.length = k := by
  induction k with
  | zero =>
    intro s r hinv _ hrun
    simp only [List.replicate_zero, EntityComponentStorage.run, Option.some.injEq] at hrun
    subst hrun
    exact ⟨hinv, fun _ h => h, fun p hp => absurd hp (List.not_mem_nil _), List.nodup_nil, rfl⟩
  | succ k ih =>
    intro s r hinv ha hrun
    simp only [List.replicate_succ, EntityComponentStorage.run] at hrun
    cases hall : s.Allocate a b with
    | none =>
      rw [hall] at hrun
      cases hrun
    | some tp =>
      obtain ⟨t, p⟩ := tp
      rw [hall] at hrun
      simp only [Option.map_eq_some'] at hrun
      obtain ⟨r1, hr1, hr⟩ := hrun
      have hn : 1 ≤ s.mEntityCountPerChunk := by
        by_contra hno
        rw [s.Allocate_none_of_zero a b hinv (by omega)] at hall
        cases hall
      obtain ⟨htinv, hrel⟩ := s.Allocate_some a b hinv hn ha t p hall
      obtain ⟨l1, l2, l3⟩ := hrel.live
      obtain ⟨g1, g2, g3, g4, g5⟩ :=
        ih t r1 htinv (by rw [hrel.mComponentCountPerEntity]; exact ha) hr1
      have hthis : t.this = s.this := by
        unfold EntityComponentStorage.this
        rw [hrel.mContext, hrel.mIndex]
      rw [← hr]
      refine ⟨g1, fun q hq => g2 q (l3 q hq), ?_, ?_, by simp [g5]⟩
      · intro q hq
        rcases List.mem_cons.mp hq with e | e
        · subst e
          exact ⟨l2, g2 q l1, hrel.storage⟩
        · obtain ⟨n1, n2, n3⟩ := g3 q e
          exact ⟨fun hl => n1 (l3 q hl), n2, by rw [n3, hthis]⟩
      · refine List.nodup_cons.mpr ⟨?_, g4⟩
        intro hmem
        exact (g3 p hmem).1 l1

/-- A storage that satisfies its invariant has at most
`MAX_CHUNK_COUNT_PER_STORAGE * MAX_ENTITY_COUNT_PER_CHUNK` valid records. -/
theorem EntityComponentStorage.live_bound (s : EntityComponentStorage) (hinv : s.Inv)
    (st : StoragePtr) (l : List EntityPtr) (hnd : l.Nodup)
    (hl : ∀ p, p ∈ l → s.live p ∧ p.mStorage = st) :
    l.length ≤ MAX_CHUNK_COUNT_PER_STORAGE * MAX_ENTITY_COUNT_PER_CHUNK := by
  obtain ⟨hcap, hcnt, hpc, _⟩ := hinv
  have hc : s.mChunkCount ≤ 32768 := by
    simp only [List.mem_cons, List.mem_singleton, List.not_mem_nil, or_false] at hcap
    omega
  have hM : MAX_ENTITY_COUNT_PER_CHUNK = 1024 := by decide
  have hN : MAX_CHUNK_COUNT_PER_STORAGE = 32768 := by decide
  have hmap : (l.map (fun p => p.mChunkIndex * 1024 + p.mBlockIndex)).Nodup := by
    apply List.Nodup.map_on _ hnd
    intro p hp q hq he
    obtain ⟨⟨_, p2, _⟩, p4⟩ := hl p hp
    obtain ⟨⟨_, q2, _⟩, q4⟩ := hl q hq
    have h1 : p.mChunkIndex = q.mChunkIndex := by omega
    have h2 : p.mBlockIndex = q.mBlockIndex := by omega
    cases p
    cases q
    simp only [EntityPtr.mk.injEq]
    simp only at h1 h2 p4 q4
    exact ⟨by rw [p4, q4], h1, h2⟩
  have hsub : l.map (fun p => p.mChunkIndex * 1024 + p.mBlockIndex)
      ⊆ List.range (32768 * 1024) := by
    intro x hx
    obtain ⟨p, hp, rfl⟩ := List.mem_map.mp hx
    obtain ⟨⟨p1, p2, _⟩, _⟩ := hl p hp
    apply List.mem_range.mpr
    omega
  have hlen := (List.subperm_of_subset hmap hsub).length_le
  rw [List.length_map, List.length_range] at hlen
  rw [hM, hN]
  exact hlen

/-- A sequence of allocations that does not return has a first allocation that does
not return. -/
theorem EntityComponentStorage.run_first_none (a : EntityArchetype) (b : Bool) (k : Nat) :
    ∀ s : EntityComponentStorage,
      s.run a (List.replicate k (StorageOp.allocate b)) = none →
      ∃ j r, j < k ∧ s.run a (List.replicate j (StorageOp.allocate b)) = some r
        ∧ r.1.Allocate a b = none := by
  induction k with
  | zero =>
    intro s h
    simp [EntityComponentStorage.run] at h
  | succ k ih =>
    intro s h
    cases hall : s.Allocate a b with
    | none => exact ⟨0, (s, []), Nat.succ_pos k, rfl, hall⟩
    | some tp =>
      obtain ⟨t, p⟩ := tp
      simp only [List.replicate_succ, EntityComponentStorage.run, hall, Option.map_eq_none'] at h
      obtain ⟨j, r, hj, hr, hnone⟩ := ih t h
      refine ⟨j + 1, (r.1, p :: r.2), by omega, ?_, hnone⟩
      simp only [List.replicate_succ, EntityComponentStorage.run, hall, hr, Option.map_some']

/-- Allocations fill a storage: from a storage that satisfies its invariant, some
number of allocations leads to a storage of `MAX_CHUNK_COUNT_PER_STORAGE` full
chunks, in which `Allocate` does not return. -/
theorem EntityComponentStorage.run_exhausts (s : EntityComponentStorage) (a : EntityArchetype)
    (b : Bool) (hinv : s.Inv) (hn : 1 ≤ s.mEntityCountPerChunk)
    (ha : a.mComponentCount = s.mComponentCountPerEntity) :
    ∃ j r, s.run a (List.replicate j (StorageOp.allocate b)) = some r
      ∧ r.1.Inv ∧ r.1.mEntityCountPerChunk = s.mEntityCountPerChunk
      ∧ r.1.mChunkCount = MAX_CHUNK_COUNT_PER_STORAGE
      ∧ r.1.mChunkFreeHead = r.1.mChunkCount
      ∧ r.1.Allocate a b = none := by
  have hnone : s.run a (List.replicate
      (MAX_CHUNK_COUNT_PER_STORAGE * MAX_ENTITY_COUNT_PER_CHUNK + 1) (StorageOp.allocate b))
      = none := by
    cases hrun : s.run a (List.replicate
        (MAX_CHUNK_COUNT_PER_STORAGE * MAX_ENTITY_COUNT_PER_CHUNK + 1)
        (StorageOp.allocate b)) with
    | none => rfl
    | some r =>
      exfalso
      obtain ⟨g1, _, g3, g4, g5⟩ := EntityComponentStorage.run_allocations a b _ s r hinv ha hrun
      have hb := r.1.live_bound g1 s.this r.2 g4 (fun p hp => ⟨(g3 p hp).2.1, (g3 p hp).2.2⟩)
      omega
  obtain ⟨j, r, _, hr, hfail⟩ := EntityComponentStorage.run_first_none a b _ s hnone
  obtain ⟨g1, _, g3, g4⟩ := EntityComponentStorage.run_shape a _ s r hinv ha hr
  have hroom : ¬ (r.1.mChunkFreeHead ≠ r.1.mChunkCount
      ∨ r.1.mChunkCount < MAX_CHUNK_COUNT_PER_STORAGE) := by
    intro hroom
    obtain ⟨t, p, ht, _⟩ := r.1.Allocate_spec a b g1 (by rw [g3]; exact hn)
      (by rw [g4]; exact ha) hroom
    rw [hfail] at ht
    cases ht
  push_neg at hroom
  have hc : r.1.mChunkCount ≤ 32768 := by
    obtain ⟨hcap, hcnt, _⟩ := g1
    simp only [List.mem_cons, List.mem_singleton, List.not_mem_nil, or_false] at hcap
    omega
  have hN : MAX_CHUNK_COUNT_PER_STORAGE = 32768 := by decide
  exact ⟨j, r, hr, g1, g3, by omega, hroom.1, hfail⟩

/-- C33 (counterexample): a sequence of allocations leads from a new storage of the
archetype of `Terrain`, whose chunks have two blocks, to a storage of
`MAX_CHUNK_COUNT_PER_STORAGE` chunks that are all full, and in that storage
`Allocate` returns no record. -/
theorem Allocate_exhausted :
    ∃ (ops : List StorageOp) (r : EntityComponentStorage × List EntityPtr),
      (EntityComponentStorage.new 0 0 0 exampleArchetype).run exampleArchetype ops = some r
        ∧ r.1.mEntityCountPerChunk = 2
        ∧ r.1.mChunkCount = MAX_CHUNK_COUNT_PER_STORAGE
        ∧ r.1.mChunkFreeHead = r.1.mChunkCount
        ∧ (∀ i, i < r.1.mChunkCount → (r.1.mChunks i).IsFull = true)
        ∧ r.1.Allocate exampleArchetype true = none := by
  have h2 : (EntityComponentStorage.new 0 0 0 exampleArchetype).mEntityCountPerChunk = 2 := by
    decide
  obtain ⟨j, r, hr, hinv, hcount, hc, hhead, hfail⟩ :=
    (EntityComponentStorage.new 0 0 0 exampleArchetype).run_exhausts exampleArchetype true
      (EntityComponentStorage.new_storage_Inv 0 0 0 exampleArchetype) (by rw [h2]; decide) rfl
  refine ⟨_, r, hr, by rw [hcount, h2], hc, hhead, ?_, hfail⟩
  intro i hi
  obtain ⟨_, _, _, _, _, _, _, hiff⟩ := hinv
  have hempty : r.1.freeChunks = [] := by
    unfold EntityComponentStorage.freeChunks
    rw [hhead, linkChain_stop]
  cases hf : (r.1.mChunks i).IsFull with
  | true => rfl
  | false =>
    have := (hiff i hi).mpr hf
    rw [hempty] at this
    cases this

/-- C33: for every storage that a sequence of allocations and of releases of valid
records leaves of a new storage, whose chunks hold at least one block, and that has
a chunk with a free block or fewer than `MAX_CHUNK_COUNT_PER_STORAGE` chunks:
`Allocate` reaches the call of `Allocate` of a chunk (after it added a chunk when no
chunk had a free block) with a chunk that is not full, that call returns, and
`Allocate` returns the record `p` that call returned; `p` was not valid and is
valid afterwards, and the invariant of the storage holds afterwards. -/
theorem Allocate_never_full (pContext index pArchetype : Nat) (a : EntityArchetype)
    (ops : List StorageOp) (r : EntityComponentStorage × List EntityPtr) (b : Bool)
    (hrun : (EntityComponentStorage.new pContext index pArchetype a).run a ops = some r)
    (hn : 1 ≤ r.1.mEntityCountPerChunk)
    (hroom : r.1.mChunkFreeHead ≠ r.1.mChunkCount
      ∨ r.1.mChunkCount < MAX_CHUNK_COUNT_PER_STORAGE) :
    ∃ s1 d t p,
      (if r.1.mChunkFreeHead = r.1.mChunkCount then r.1.addChunk a else some r.1) = some s1
        ∧ s1.mChunkFreeHead < s1.mChunkCount
        ∧ (s1.mChunks s1.mChunkFreeHead).IsFull = false
        ∧ (s1.mChunks s1.mChunkFreeHead).Allocate a b = some (d, p)
        ∧ r.1.Allocate a b = some (t, p)
        ∧ ¬ r.1.live p ∧ t.live p ∧ t.Inv := by
  obtain ⟨hinv, _, _, hcc⟩ := EntityComponentStorage.run_shape a ops _ r
    (EntityComponentStorage.new_storage_Inv pContext index pArchetype a) rfl hrun
  have ha : a.mComponentCount = r.1.mComponentCountPerEntity := by
    rw [hcc]
    rfl
  obtain ⟨t, p, hall, htinv, hrel⟩ := r.1.Allocate_spec a b hinv hn ha hroom
  obtain ⟨l1, l2, _⟩ := hrel.live
  have key : ∀ s1 : EntityComponentStorage, s1.Inv → s1.mChunkFreeHead ≠ s1.mChunkCount →
      s1.allocateInHead a b = some (t, p) →
      s1.mChunkFreeHead < s1.mChunkCount
        ∧ (s1.mChunks s1.mChunkFreeHead).IsFull = false
        ∧ ∃ d, (s1.mChunks s1.mChunkFreeHead).Allocate a b = some (d, p) := by
    intro s1 hs1 hne hres
    obtain ⟨_, _, _, _, _, _, hmem, hiff⟩ := hs1
    have hL : s1.freeChunks = s1.mChunkFreeHead
        :: linkChain s1.mChunkFreeList s1.mChunkCount s1.mChunkCount
            (s1.mChunkFreeList s1.mChunkFreeHead) := by
      unfold EntityComponentStorage.freeChunks
      rw [linkChain_cons _ _ _ _ hne]
    have hhead : s1.mChunkFreeHead < s1.mChunkCount := hmem _ (by rw [hL]; simp)
    have hnf : (s1.mChunks s1.mChunkFreeHead).IsFull = false :=
      (hiff _ hhead).mp (by rw [hL]; simp)
    refine ⟨hhead, hnf, ?_⟩
    unfold EntityComponentStorage.allocateInHead at hres
    cases hc : (s1.mChunks s1.mChunkFreeHead).Allocate a b with
    | none =>
      rw [hc] at hres
      cases hres
    | some dq =>
      obtain ⟨d, q⟩ := dq
      rw [hc] at hres
      simp only [Option.some.injEq, Prod.mk.injEq] at hres
      exact ⟨d, by rw [hres.2]⟩
  by_cases hhead : r.1.mChunkFreeHead = r.1.mChunkCount
  · have hroom2 : r.1.mChunkCount < MAX_CHUNK_COUNT_PER_STORAGE := by
      rcases hroom with h | h
      · exact absurd hhead h
      · exact h
    obtain ⟨s1, hadd, hinv1, e1, e2, _⟩ := r.1.addChunk_spec a hinv hhead hroom2 hn ha
    have hres : s1.allocateInHead a b = some (t, p) := by
      unfold EntityComponentStorage.Allocate at hall
      rw [if_pos hhead, hadd] at hall
      exact hall
    obtain ⟨k1, k2, d, k3⟩ := key s1 hinv1 (by omega) hres
    exact ⟨s1, d, t, p, by rw [if_pos hhead, hadd], k1, k2, k3, hall, l2, l1, htinv⟩
  · have hres : r.1.allocateInHead a b = some (t, p) := by
      unfold EntityComponentStorage.Allocate at hall
      rw [if_neg hhead] at hall
      exact hall
    obtain ⟨k1, k2, d, k3⟩ := key r.1 hinv hhead hres
    exact ⟨r.1, d, t, p, by rw [if_neg hhead], k1, k2, k3, hall, l2, l1, htinv⟩

set_option maxRecDepth 100000 in
/-- Witness of C33: a new storage of the archetype of `Terrain` after three
allocations and the release of the first record. -/
theorem Allocate_never_full_witness :
    ∃ s1 d t p,
      (if exampleRun.1.mChunkFreeHead = exampleRun.1.mChunkCount then
          exampleRun.1.addChunk exampleArchetype
        else some exampleRun.1) = some s1
        ∧ s1.mChunkFreeHead < s1.mChunkCount
        ∧ (s1.mChunks s1.mChunkFreeHead).IsFull = false
        ∧ (s1.mChunks s1.mChunkFreeHead).Allocate exampleArchetype true = some (d, p)
        ∧ exampleRun.1.Allocate exampleArchetype true = some (t, p)
        ∧ ¬ exampleRun.1.live p ∧ t.live p ∧ t.Inv :=
  Allocate_never_full 0 0 0 exampleArchetype
    [StorageOp.allocate true, StorageOp.allocate true, StorageOp.allocate true,
      StorageOp.release exampleEntity]
    exampleRun true (eq_some_getD _ _ (by decide)) (by decide) (by decide)

/-! ## The capacity the storage constructor computes -/

/-- The block size the chunk computes is the footprint of a record when that is
below `2 ^ 64`. -/
theorem EntityComponentChunk.CalculateBlockSize_footprint (a : EntityArchetype)
    (h : a.footprint < 2 ^ 64) : EntityComponentChunk.CalculateBlockSize a = a.footprint := by
  unfold EntityComponentChunk.CalculateBlockSize
  exact foldl_u64_add a.mComponentSizes _ _ h

theorem EntityArchetype.footprint_pos (a : EntityArchetype) : 18 ≤ a.footprint := by
  unfold EntityArchetype.footprint sizeofFreeListEntry sizeofEntity
  omega

/-- The count `mChunkSize / entityBlockSize - 1` of the storage constructor when
the quotient is not zero. -/
theorem EntityComponentStorage.new_count (q : Nat) (h1 : 1 ≤ q) (h2 : q < 2 ^ 64) :
    u64 (q + (2 ^ 64 - 1)) = q - 1 := by
  unfold u64
  omega

set_option maxRecDepth 100000 in
/-- C34 (the archetype of `Terrain`): the footprint of a record is one free-list
entry, one header and the 16 MiB of the component, and it is the block size
`CalculateBlockSize` returns; `MAX_STORAGE_CHUNK_SIZE` divided by it is 3, which is
below `MAX_ENTITY_COUNT_PER_CHUNK`; and the capacity the storage constructor
computes is 2. -/
theorem capacity_below_quotient :
    exampleArchetype.footprint = sizeofFreeListEntry + sizeofEntity + Terrain.size
      ∧ EntityComponentChunk.CalculateBlockSize exampleArchetype = exampleArchetype.footprint
      ∧ MAX_STORAGE_CHUNK_SIZE / exampleArchetype.footprint = 3
      ∧ min MAX_ENTITY_COUNT_PER_CHUNK (MAX_STORAGE_CHUNK_SIZE / exampleArchetype.footprint) = 3
      ∧ (EntityComponentStorage.new 0 0 0 exampleArchetype).mEntityCountPerChunk = 2 := by
  decide

/-- C34: for every archetype whose footprint per record (the size of one free-list
entry plus the size of one `Entity` plus the sum of the sizes of the components) is
at most `MAX_STORAGE_CHUNK_SIZE`, the block size `CalculateBlockSize` returns is
that footprint, and the capacity the storage constructor computes is the smaller
of `MAX_ENTITY_COUNT_PER_CHUNK` and `MAX_STORAGE_CHUNK_SIZE / blockSize - 1` with
integer division; the chunk size is `MAX_STORAGE_CHUNK_SIZE` when the second is
the smaller one and `(MAX_ENTITY_COUNT_PER_CHUNK + 1) * blockSize` otherwise. -/
theorem capacity_min (pContext index pArchetype : Nat) (a : EntityArchetype)
    (hfit : a.footprint ≤ MAX_STORAGE_CHUNK_SIZE) :
    a.footprint = sizeofFreeListEntry + sizeofEntity
          + ((List.range a.mComponentCount).map a.mComponentSizes).sum
      ∧ EntityComponentChunk.CalculateBlockSize a = a.footprint
      ∧ (EntityComponentStorage.new pContext index pArchetype a).mEntityCountPerChunk
        = min MAX_ENTITY_COUNT_PER_CHUNK (MAX_STORAGE_CHUNK_SIZE / a.footprint - 1)
      ∧ (EntityComponentStorage.new pContext index pArchetype a).mChunkSize
        = if MAX_STORAGE_CHUNK_SIZE / a.footprint - 1 ≤ MAX_ENTITY_COUNT_PER_CHUNK then
            MAX_STORAGE_CHUNK_SIZE
          else (MAX_ENTITY_COUNT_PER_CHUNK + 1) * a.footprint := by
  have hM : MAX_STORAGE_CHUNK_SIZE = 67108864 := by decide
  have hE : MAX_ENTITY_COUNT_PER_CHUNK = 1024 := by decide
  have hB := EntityComponentChunk.CalculateBlockSize_footprint a (by omega)
  have hpos := EntityArchetype.footprint_pos a
  have hq1 : 1 ≤ MAX_STORAGE_CHUNK_SIZE / a.footprint :=
    (Nat.le_div_iff_mul_le (by omega)).mpr (by omega)
  have hq2 : MAX_STORAGE_CHUNK_SIZE / a.footprint ≤ 67108864 := by
    rw [← hM]
    exact Nat.div_le_self _ _
  have hcount := EntityComponentStorage.new_count
    (MAX_STORAGE_CHUNK_SIZE / a.footprint) hq1 (by omega)
  have hmul : MAX_STORAGE_CHUNK_SIZE / a.footprint * a.footprint ≤ MAX_STORAGE_CHUNK_SIZE :=
    Nat.div_mul_le_self _ _
  refine ⟨rfl, hB, ?_, ?_⟩
  · unfold EntityComponentStorage.new
    simp only [hB, hcount]
    split
    · omega
    · omega
  · unfold EntityComponentStorage.new
    simp only [hB, hcount]
    by_cases hc : MAX_STORAGE_CHUNK_SIZE / a.footprint - 1 ≤ MAX_ENTITY_COUNT_PER_CHUNK
    · rw [if_neg (by omega), if_pos hc]
    · rw [if_pos (by omega), if_neg hc]
      have hb : 1025 * a.footprint ≤ 67108864 := by
        have h3 : 1025 ≤ MAX_STORAGE_CHUNK_SIZE / a.footprint := by omega
        calc 1025 * a.footprint
            ≤ MAX_STORAGE_CHUNK_SIZE / a.footprint * a.footprint := Nat.mul_le_mul_right _ h3
          _ ≤ 67108864 := by omega
      rw [hE]
      unfold u64
      omega

set_option maxRecDepth 100000 in
theorem capacity_min_witness :
    exampleArchetype.footprint ≤ MAX_STORAGE_CHUNK_SIZE
      ∧ (EntityComponentStorage.new 0 0 0 exampleArchetype).mEntityCountPerChunk
        = min MAX_ENTITY_COUNT_PER_CHUNK
            (MAX_STORAGE_CHUNK_SIZE / exampleArchetype.footprint - 1) :=
  ⟨by decide, (capacity_min 0 0 0 exampleArchetype (by decide)).2.2.1⟩

set_option maxRecDepth 100000 in
/-- C39 (the archetype of `Atlas`, a component of 40 MiB): the footprint of a
record is at least 1 and is the block size `CalculateBlockSize` returns, one block
fits in `MAX_STORAGE_CHUNK_SIZE` bytes, the capacity the storage constructor
computes is 0, the chunk the storage constructs with it is full from the start,
and `Allocate` on the new storage returns no record. -/
theorem capacity_zero :
    1 ≤ atlasArchetype.footprint
      ∧ atlasArchetype.footprint = sizeofFreeListEntry + sizeofEntity + Atlas.size
      ∧ EntityComponentChunk.CalculateBlockSize atlasArchetype = atlasArchetype.footprint
      ∧ MAX_STORAGE_CHUNK_SIZE / atlasArchetype.footprint = 1
      ∧ (EntityComponentStorage.new 0 0 0 atlasArchetype).mEntityCountPerChunk = 0
      ∧ (EntityComponentChunk.new 0 (EntityComponentStorage.new 0 0 0 atlasArchetype).this 0
          atlasArchetype (EntityComponentStorage.new 0 0 0 atlasArchetype).mEntityCountPerChunk
          (EntityComponentStorage.new 0 0 0 atlasArchetype).mChunkSize).IsFull = true
      ∧ ((EntityComponentStorage.new 0 0 0 atlasArchetype).Allocate atlasArchetype true).isSome
        = false := by
  decide

/-- C39: for every archetype whose footprint per record is below `2 ^ 64` and for
which `MAX_STORAGE_CHUNK_SIZE` divided by the footprint is not 1, the capacity the
storage constructor computes is at least 1 and at most
`MAX_ENTITY_COUNT_PER_CHUNK`, and the chunk constructed with that capacity has that
many blocks, none of them used, and is not full. -/
theorem capacity_bounds (pContext index pArchetype chunkId : Nat) (a : EntityArchetype)
    (hlt : a.footprint < 2 ^ 64) (hq : MAX_STORAGE_CHUNK_SIZE / a.footprint ≠ 1) :
    1 ≤ (EntityComponentStorage.new pContext index pArchetype a).mEntityCountPerChunk
      ∧ (EntityComponentStorage.new pContext index pArchetype a).mEntityCountPerChunk
        ≤ MAX_ENTITY_COUNT_PER_CHUNK
      ∧ (EntityComponentChunk.new chunkId
          (EntityComponentStorage.new pContext index pArchetype a).this pArchetype a
          (EntityComponentStorage.new pContext index pArchetype a).mEntityCountPerChunk
          (EntityComponentStorage.new pContext index pArchetype a).mChunkSize).IsFull = false
      ∧ (EntityComponentChunk.new chunkId
          (EntityComponentStorage.new pContext index pArchetype a).this pArchetype a
          (EntityComponentStorage.new pContext index pArchetype a).mEntityCountPerChunk
          (EntityComponentStorage.new pContext index pArchetype a).mChunkSize).mBlockCount
        = (EntityComponentStorage.new pContext index pArchetype a).mEntityCountPerChunk
      ∧ (EntityComponentChunk.new chunkId
          (EntityComponentStorage.new pContext index pArchetype a).this pArchetype a
          (EntityComponentStorage.new pContext index pArchetype a).mEntityCountPerChunk
          (EntityComponentStorage.new pContext index pArchetype a).mChunkSize).mUsedCount = 0 := by
  have hM : MAX_STORAGE_CHUNK_SIZE = 67108864 := by decide
  have hE : MAX_ENTITY_COUNT_PER_CHUNK = 1024 := by decide
  have hB := EntityComponentChunk.CalculateBlockSize_footprint a hlt
  have hq2 : MAX_STORAGE_CHUNK_SIZE / a.footprint ≤ 67108864 := by
    rw [← hM]
    exact Nat.div_le_self _ _
  have hb : 1 ≤ (EntityComponentStorage.new pContext index pArchetype a).mEntityCountPerChunk
      ∧ (EntityComponentStorage.new pContext index pArchetype a).mEntityCountPerChunk
        ≤ MAX_ENTITY_COUNT_PER_CHUNK := by
    unfold EntityComponentStorage.new
    simp only [hB]
    generalize MAX_STORAGE_CHUNK_SIZE / a.footprint = x at hq hq2
    by_cases h0 : x = 0
    · rw [h0]
      have h1 : u64 (0 + (2 ^ 64 - 1)) = 18446744073709551615 := by
        unfold u64
        norm_num
      rw [h1, if_pos (by omega)]
      omega
    · rw [EntityComponentStorage.new_count _ (by omega) (by omega)]
      split
      · omega
      · omega
  have h16 : u16 (EntityComponentStorage.new pContext index pArchetype a).mEntityCountPerChunk
      = (EntityComponentStorage.new pContext index pArchetype a).mEntityCountPerChunk := by
    unfold u16
    omega
  refine ⟨hb.1, hb.2, ?_, h16, rfl⟩
  show decide ((0 : Nat)
    = u16 (EntityComponentStorage.new pContext index pArchetype a).mEntityCountPerChunk) = false
  rw [h16]
  exact decide_eq_false (by omega)

set_option maxRecDepth 100000 in
theorem capacity_bounds_witness :
    exampleArchetype.footprint < 2 ^ 64
      ∧ MAX_STORAGE_CHUNK_SIZE / exampleArchetype.footprint ≠ 1
      ∧ 1 ≤ (EntityComponentStorage.new 0 0 0 exampleArchetype).mEntityCountPerChunk
      ∧ (EntityComponentStorage.new 0 0 0 exampleArchetype).mEntityCountPerChunk
        ≤ MAX_ENTITY_COUNT_PER_CHUNK :=
  ⟨by decide, by decide, (capacity_bounds 0 0 0 0 exampleArchetype (by decide) (by decide)).1,
    (capacity_bounds 0 0 0 0 exampleArchetype (by decide) (by decide)).2.1⟩

/-! ## The identity of an archetype for a list that repeats a class -/

set_option maxRecDepth 100000 in
/-- C35 (the list `Terrain, Terrain`): `is_type_duplicate` does not find the second
`Terrain`, so the identity `CreateArchetype` uses is the hash code of `Terrain`
counted twice, 154, while the component map built from the list has the one entry
of `Terrain` and `GetArchetypeIDFromComponentMetaMap` of it is 77. After
`CreateArchetype<Terrain>()` on the empty catalog has returned pointer 0,
`CreateArchetype<Terrain, Terrain>()` does not find that archetype: it returns
pointer 1, a second archetype object with the same component map, registered under
154. -/
theorem CreateArchetype_repeated :
    is_type_duplicate Terrain [Terrain] = false
      ∧ sum_component_hashcodes [Terrain, Terrain] = 154
      ∧ sum_component_hashcodes [Terrain] = 77
      ∧ (GetComponentsMetaHelperClass.Call [Terrain, Terrain] EntityArchetypeManager.init
          []).2.keys = [Terrain.typeId]
      ∧ GetArchetypeIDFromComponentMetaMap
          (GetComponentsMetaHelperClass.Call [Terrain, Terrain] EntityArchetypeManager.init []).2
          = 77
      ∧ EntityArchetypeManager.init.CreateArchetype (ArchetypeArgs.components [Terrain])
          = some (repeatedFirst.1, 0)
      ∧ repeatedFirst.1.CreateArchetype (ArchetypeArgs.components [Terrain, Terrain])
          = some (repeatedSecond.1, 1)
      ∧ repeatedSecond.1.objects.length = 2
      ∧ umapFind repeatedSecond.1.mArchetypesMap 77 = some 0
      ∧ umapFind repeatedSecond.1.mArchetypesMap 154 = some 1
      ∧ ∀ a, a ∈ repeatedSecond.1.objects[0]? → ∀ b, b ∈ repeatedSecond.1.objects[1]? →
          a.mArchetypeId = 77 ∧ b.mArchetypeId = 154
            ∧ a.mComponentMetaMap = b.mComponentMetaMap
            ∧ GetArchetypeIDFromComponentMetaMap b.mComponentMetaMap = 77 := by
  have hsome1 : (EntityArchetypeManager.init.CreateArchetype
      (ArchetypeArgs.components [Terrain])).isSome = true := by decide
  have hptr1 : repeatedFirst.2 = 0 := by decide
  have hop1 : EntityArchetypeManager.init.CreateArchetype
      (ArchetypeArgs.components [Terrain]) = some (repeatedFirst.1, 0) := by
    rw [← hptr1]
    exact eq_some_getD _ (EntityArchetypeManager.init, 0) hsome1
  have hsome2 : (repeatedFirst.1.CreateArchetype
      (ArchetypeArgs.components [Terrain, Terrain])).isSome = true := by decide
  have hptr2 : repeatedSecond.2 = 1 := by decide
  have hop2 : repeatedFirst.1.CreateArchetype (ArchetypeArgs.components [Terrain, Terrain])
      = some (repeatedSecond.1, 1) := by
    rw [← hptr2]
    exact eq_some_getD _ (EntityArchetypeManager.init, 0) hsome2
  exact ⟨by decide, by decide, by decide, by decide, by decide, hop1, hop2, by decide,
    by decide, by decide, by decide⟩

/-! ## The order of the components of a new archetype -/

/-- The offsets the loop of the constructor records: the running sum of the sizes
in `size_t`. -/
theorem EntityArchetype.fill_offsets (rest : ComponentMetaMap) :
    ∀ (i off : Nat) (a : EntityArchetype), off < 2 ^ 64 →
      (∀ j, j < rest.length →
          (EntityArchetype.fill rest i off a).mComponentOffsets (i + j)
            = (off + ((rest.take j).map (fun e => e.2.size)).sum) % 2 ^ 64)
        ∧ ∀ j, j < i →
          (EntityArchetype.fill rest i off a).mComponentOffsets j = a.mComponentOffsets j := by
  induction rest with
  | nil =>
    intro i off a _
    exact ⟨fun j hj => absurd hj (Nat.not_lt_zero _), fun j _ => rfl⟩
  | cons it rest ih =>
    intro i off a hoff
    unfold EntityArchetype.fill
    have hu : u64 (off + it.2.size) < 2 ^ 64 := Nat.mod_lt _ (by norm_num)
    obtain ⟨h1, h2⟩ := ih (i + 1) (u64 (off + it.2.size))
      { a with
        mComponentHashes := setAt a.mComponentHashes i it.2.hashCode
        mComponentTypeIds := setAt a.mComponentTypeIds i it.2.typeId
        mComponentSizes := setAt a.mComponentSizes i it.2.size
        mComponentAlignments := setAt a.mComponentAlignments i it.2.alignment
        mComponentOffsets := setAt a.mComponentOffsets i off
        mComponentConstructors := setAt a.mComponentConstructors i (some it.2.constructor)
        mComponentIndexTable := (a.mComponentIndexTable.Add it.2.typeId).1 } hu
    constructor
    · intro j hj
      cases j with
      | zero =>
        refine (h2 i (by omega)).trans ?_
        simp only [setAt, if_true, List.take_zero, List.map_nil, List.sum_nil, Nat.add_zero]
        exact (Nat.mod_eq_of_lt hoff).symm
      | succ k =>
        have hk : k < rest.length := by
          simp only [List.length_cons] at hj
          omega
        have h := h1 k hk
        rw [show i + (k + 1) = i + 1 + k by omega, h]
        simp only [List.take_succ_cons, List.map_cons, List.sum_cons, u64]
        omega
    · intro j hj
      rw [h2 j (by omega)]
      exact setAt_other _ _ _ _ (by omega)

/-- The sum of the sizes in the first `n` member cells of an archetype is the sum of
the sizes of the first `n` entries of its component map. -/
theorem EntityArchetype.sizes_sum (a : EntityArchetype) (hinv : a.Inv) (n : Nat)
    (hn : n ≤ a.mComponentMetaMap.length) :
    ((List.range n).map a.mComponentSizes).sum
      = ((a.mComponentMetaMap.take n).map (fun e => e.2.size)).sum := by
  obtain ⟨_, _, _, _, hent⟩ := hinv
  have h1 := foldl_sizes_eq a.mComponentSizes a.mComponentMetaMap
    (fun i hi e he => (hent i hi e he).2.2.2.2.1) 0 n hn
  have h2 := foldl_add_eq_sum a.mComponentSizes (List.range n) 0
  omega

set_option maxRecDepth 100000 in
/-- C36 (the list `Velocity, Profile` on the empty catalog): `CreateArchetype`
builds a new archetype of two components. `Velocity`, with type id 3, comes first
in the list and `Profile`, with type id 1, second; in the archetype component 0 is
`Profile` with offset 0, and component 1 is `Velocity` with offset 132, the size
of `Profile`. -/
theorem CreateArchetype_declared_order :
    EntityArchetypeManager.init.CreateArchetype (ArchetypeArgs.components [Velocity, Profile])
        = some (orderedSetup.1, 0)
      ∧ orderedSetup.1.objects[0]? = some orderedArchetype
      ∧ orderedArchetype.mComponentCount = 2
      ∧ orderedArchetype.mComponentTypeIds 0 = Profile.typeId
      ∧ orderedArchetype.mComponentTypeIds 1 = Velocity.typeId
      ∧ orderedArchetype.GetComponentIndex Velocity.typeId = 1
      ∧ orderedArchetype.GetComponentIndex Profile.typeId = 0
      ∧ orderedArchetype.mComponentSizes 0 = Profile.size
      ∧ orderedArchetype.mComponentSizes 1 = Velocity.size
      ∧ orderedArchetype.mComponentOffsets 0 = 0
      ∧ orderedArchetype.mComponentOffsets 1 = 132
      ∧ Velocity.size = 16 ∧ Profile.size = 132 := by
  have hsome : (EntityArchetypeManager.init.CreateArchetype
      (ArchetypeArgs.components [Velocity, Profile])).isSome = true := by decide
  have hptr : orderedSetup.2 = 0 := by decide
  have hop : EntityArchetypeManager.init.CreateArchetype
      (ArchetypeArgs.components [Velocity, Profile]) = some (orderedSetup.1, 0) := by
    rw [← hptr]
    exact eq_some_getD _ (EntityArchetypeManager.init, 0) hsome
  have hobj : (orderedSetup.1.objects[0]?).isSome = true := by decide
  have hget : orderedSetup.1.objects[0]? = some orderedArchetype := by
    unfold orderedArchetype
    rw [hptr]
    cases h : orderedSetup.1.objects[0]? with
    | none => rw [h] at hobj; cases hobj
    | some a => rfl
  exact ⟨hop, hget, by decide, by decide, by decide, by decide, by decide, by decide,
    by decide, by decide, by decide, by decide, by decide⟩

/-- C36: for every catalog and every list `Ts` of classes the catalog knows whose
identity is not registered and which has at most `MAX_COMPONENT_COUNT_PER_ENTITY`
different type ids, `CreateArchetype<Ts...>()` builds a new archetype `a` whose
components are the classes of `Ts` in ascending order of type id: the type ids of
the components increase strictly and are exactly the type ids of `Ts`, component
`i` is a class `T` of `Ts` with its type id, size and alignment, `GetComponentIndex`
of that type id is `i`, and the offset recorded for component `i` is the sum of the
sizes of the components before it in that order, as a `size_t`. -/
theorem CreateArchetype_ascending (mgr : EntityArchetypeManager) (Ts : List ComponentType)
    (hknows : mgr.Knows Ts)
    (hfresh : umapFind mgr.mArchetypesMap (sum_component_hashcodes Ts) = none)
    (hlen : (Ts.map ComponentType.typeId).dedup.length ≤ MAX_COMPONENT_COUNT_PER_ENTITY) :
    ∃ m1 a, mgr.CreateArchetype (ArchetypeArgs.components Ts) = some (m1, mgr.objects.length)
      ∧ m1.objects[mgr.objects.length]? = some a
      ∧ a.mComponentCount = (Ts.map ComponentType.typeId).dedup.length
      ∧ ((List.range a.mComponentCount).map a.mComponentTypeIds).Sorted (· < ·)
      ∧ (∀ x, x ∈ (List.range a.mComponentCount).map a.mComponentTypeIds
          ↔ x ∈ Ts.map ComponentType.typeId)
      ∧ ∀ i, i < a.mComponentCount →
          (∃ T, T ∈ Ts ∧ a.mComponentTypeIds i = T.typeId ∧ a.mComponentSizes i = T.size
            ∧ a.mComponentAlignments i = T.alignment
            ∧ a.mComponentHashes i = T.hashCode
            ∧ a.GetComponentIndex T.typeId = (i : Int))
          ∧ a.mComponentOffsets i = ((List.range i).map a.mComponentSizes).sum % 2 ^ 64 := by
  have hcall := Call_eq_insertAll Ts mgr [] hknows
  have hlen2 : (GetComponentsMetaHelperClass.Call Ts mgr []).2.length
      ≤ MAX_COMPONENT_COUNT_PER_ENTITY := by
    rw [Call_length_nil]
    exact hlen
  have hk := Call_keys Ts mgr [] (by simp [ComponentMetaMap.keys])
  have hkey : ∀ e, e ∈ (GetComponentsMetaHelperClass.Call Ts mgr []).2 →
      ∃ T, T ∈ Ts ∧ e = (T.typeId, T.meta) := by
    intro e he
    rw [hcall] at he
    rcases ComponentMetaMap.mem_insertAll Ts [] e he with h | h
    · cases h
    · exact h
  obtain ⟨a, hnew, hinv, _, hmap, _⟩ := EntityArchetype.new_spec (sum_component_hashcodes Ts)
    (GetComponentsMetaHelperClass.Call Ts mgr []).2 hlen2 hk.1
    (fun e he => by
      obtain ⟨T, _, hT⟩ := hkey e he
      rw [hT]
      rfl)
  have hcons : mgr.CreateArchetype (ArchetypeArgs.components Ts)
      = some ({ (GetComponentsMetaHelperClass.Call Ts mgr []).1 with
                objects := mgr.objects ++ [a]
                mArchetypesMap := umapInsert mgr.mArchetypesMap (sum_component_hashcodes Ts)
                  mgr.objects.length }, mgr.objects.length) := by
    show mgr.CreateArchetypeByComponentTypes Ts = _
    rw [CreateArchetypeByComponentTypes_fresh mgr Ts hfresh]
    unfold EntityArchetypeManager.construct
    rw [hnew, (Call_objects Ts mgr []).1, (Call_objects Ts mgr []).2]
  have hoff := (EntityArchetype.fill_offsets (GetComponentsMetaHelperClass.Call Ts mgr []).2 0 0
    (EntityArchetype.init (sum_component_hashcodes Ts)
      (GetComponentsMetaHelperClass.Call Ts mgr []).2) (by norm_num)).1
  have ha : a = EntityArchetype.fill (GetComponentsMetaHelperClass.Call Ts mgr []).2 0 0
      (EntityArchetype.init (sum_component_hashcodes Ts)
        (GetComponentsMetaHelperClass.Call Ts mgr []).2) := by
    unfold EntityArchetype.new at hnew
    rw [if_pos hlen2] at hnew
    exact (Option.some.inj hnew).symm
  have hcount : a.mComponentCount = a.mComponentMetaMap.length := hinv.1
  have hids : (List.range a.mComponentCount).map a.mComponentTypeIds
      = a.mComponentMetaMap.keys := by
    apply List.ext_getElem?
    intro i
    by_cases hi : i < a.mComponentMetaMap.length
    · have h5 := hinv.2.2.2.2 i hi a.mComponentMetaMap[i]
        (by rw [List.getElem?_eq_getElem hi]; rfl)
      unfold ComponentMetaMap.keys
      rw [List.getElem?_map, List.getElem?_map, List.getElem?_range (by omega),
        List.getElem?_eq_getElem hi]
      simp only [Option.map_some']
      rw [h5.2.2.1]
    · unfold ComponentMetaMap.keys
      rw [List.getElem?_eq_none (by simp; omega), List.getElem?_eq_none (by simp; omega)]
  refine ⟨_, a, hcons, by simp, ?_, ?_, ?_, ?_⟩
  · rw [hcount, hmap, Call_length_nil]
  · rw [hids, hmap]
    exact hk.1
  · intro x
    rw [hids, hmap, hk.2]
    simp [ComponentMetaMap.keys]
  · intro i hi
    have hi2 : i < a.mComponentMetaMap.length := by omega
    have hentry : a.mComponentMetaMap[i]? = some a.mComponentMetaMap[i] :=
      List.getElem?_eq_getElem hi2
    have h5 := hinv.2.2.2.2 i hi2 a.mComponentMetaMap[i] (by rw [hentry]; rfl)
    obtain ⟨T, hT, heq⟩ := hkey a.mComponentMetaMap[i]
      (by rw [← hmap]; exact List.getElem_mem _)
    have hkeyi : a.mComponentMetaMap.keys[i]? = some T.typeId := by
      unfold ComponentMetaMap.keys
      rw [List.getElem?_map, hentry, heq]
      rfl
    refine ⟨⟨T, hT, ?_, ?_, ?_, ?_, a.GetComponentIndex_of_key hinv i T.typeId hkeyi⟩, ?_⟩
    · rw [h5.2.2.1, heq]
    · rw [h5.2.2.2.2.1, heq]
      rfl
    · rw [h5.2.2.2.2.2.1, heq]
      rfl
    · rw [h5.2.2.2.1, heq]
      rfl
    · have h := hoff i (by rw [← hmap]; exact hi2)
      rw [Nat.zero_add, Nat.zero_add, ← ha, ← hmap] at h
      rw [h, a.sizes_sum hinv i (by omega)]

set_option maxRecDepth 100000 in
theorem CreateArchetype_ascending_witness :
    EntityArchetypeManager.init.Knows [Velocity, Profile]
      ∧ umapFind EntityArchetypeManager.init.mArchetypesMap
          (sum_component_hashcodes [Velocity, Profile]) = none
      ∧ ∃ m1 a, EntityArchetypeManager.init.CreateArchetype
            (ArchetypeArgs.components [Velocity, Profile])
          = some (m1, EntityArchetypeManager.init.objects.length)
        ∧ m1.objects[EntityArchetypeManager.init.objects.length]? = some a
        ∧ a.mComponentCount = ([Velocity, Profile].map ComponentType.typeId).dedup.length
        ∧ ((List.range a.mComponentCount).map a.mComponentTypeIds).Sorted (· < ·)
        ∧ (∀ x, x ∈ (List.range a.mComponentCount).map a.mComponentTypeIds
            ↔ x ∈ [Velocity, Profile].map ComponentType.typeId)
        ∧ ∀ i, i < a.mComponentCount →
            (∃ T, T ∈ [Velocity, Profile] ∧ a.mComponentTypeIds i = T.typeId
              ∧ a.mComponentSizes i = T.size
              ∧ a.mComponentAlignments i = T.alignment
              ∧ a.mComponentHashes i = T.hashCode
              ∧ a.GetComponentIndex T.typeId = (i : Int))
            ∧ a.mComponentOffsets i = ((List.range i).map a.mComponentSizes).sum % 2 ^ 64 :=
  ⟨by decide, by decide,
    CreateArchetype_ascending EntityArchetypeManager.init [Velocity, Profile] (by decide)
      (by decide) (by decide)⟩

/-! ## Aligned addresses and the arrays of a chunk -/

/-- The address `get_next_aligned_address` returns when the sum does not wrap: the
least multiple of the alignment that is not below the pointer. -/
theorem get_next_aligned_address_spec (p al : Nat) (hal : 1 ≤ al)
    (hp : p + (al - 1) < 2 ^ 64) :
    ∃ q, get_next_aligned_address p al = some q ∧ al ∣ q ∧ p ≤ q ∧ q ≤ p + (al - 1)
      ∧ ∀ m, al ∣ m → p ≤ m → q ≤ m := by
  have h1 : u64 (al + (2 ^ 64 - 1)) = al - 1 := by
    unfold u64
    omega
  have h2 : u64 (p + (al - 1)) = p + (al - 1) := Nat.mod_eq_of_lt hp
  have h3 : (p + (al - 1)) / al * al ≤ p + (al - 1) := Nat.div_mul_le_self _ _
  have h4 : u64 ((p + (al - 1)) / al * al) = (p + (al - 1)) / al * al :=
    Nat.mod_eq_of_lt (by omega)
  refine ⟨(p + (al - 1)) / al * al, ?_, Nat.dvd_mul_left _ _, ?_, h3, ?_⟩
  · unfold get_next_aligned_address
    rw [if_neg (by omega), h1, h2, h4]
  · have h5 := Nat.lt_div_mul_add (a := p + (al - 1)) (b := al) (by omega)
    omega
  · intro m hm hpm
    obtain ⟨k, hk⟩ := hm
    rw [hk, Nat.mul_comm al k]
    apply Nat.mul_le_mul_right
    rw [Nat.div_le_iff_le_mul_add_pred (by omega)]
    rw [hk] at hpm
    rw [Nat.mul_comm al k] at hpm ⊢
    omega

/-- The loop of the chunk constructor over the component indexes `l`, when the
arrays with the largest padding end below `2 ^ 64`: it returns; every array starts
at a multiple of its alignment, not before `p` and not before the end of an
earlier array, and ends at or before the final address. -/
theorem EntityComponentChunk.layoutLoop_spec (a : EntityArchetype) (n : Nat) :
    ∀ (l : List Nat) (p : Nat) (bufs : List Nat),
      (∀ i, i ∈ l → 1 ≤ a.mComponentAlignments i) →
      p + (l.map (fun i => a.mComponentAlignments i - 1 + n * a.mComponentSizes i)).sum
          < 2 ^ 64 →
      ∃ (bs : List Nat) (pend : Nat),
        EntityComponentChunk.layoutLoop a n l p bufs = some (bufs ++ bs, pend)
          ∧ bs.length = l.length
          ∧ p ≤ pend
          ∧ pend ≤ p
              + (l.map (fun i => a.mComponentAlignments i - 1 + n * a.mComponentSizes i)).sum
          ∧ (l = [] → pend = p)
          ∧ ∀ (j i buf : Nat), l[j]? = some i → bs[j]? = some buf →
              a.mComponentAlignments i ∣ buf ∧ p ≤ buf
                ∧ buf + n * a.mComponentSizes i ≤ pend
                ∧ ∀ (j2 i2 buf2 : Nat), j2 < j → l[j2]? = some i2 → bs[j2]? = some buf2 →
                    buf2 + n * a.mComponentSizes i2 ≤ buf := by
  intro l
  induction l with
  | nil =>
    intro p bufs _ _
    refine ⟨[], p, ?_, rfl, Nat.le_refl _, by simp, fun _ => rfl, ?_⟩
    · unfold EntityComponentChunk.layoutLoop
      rw [List.append_nil]
    · intro j i buf h
      simp at h
  | cons i rest ih =>
    intro p bufs hal hroom
    simp only [List.map_cons, List.sum_cons] at hroom
    have hali := hal i (List.mem_cons_self _ _)
    obtain ⟨q, hq, hdvd, hpq, hqle, _⟩ :=
      get_next_aligned_address_spec p (a.mComponentAlignments i) hali (by omega)
    have hu1 : u64 (n * a.mComponentSizes i) = n * a.mComponentSizes i :=
      Nat.mod_eq_of_lt (by omega)
    have hu2 : u64 (q + n * a.mComponentSizes i) = q + n * a.mComponentSizes i :=
      Nat.mod_eq_of_lt (by omega)
    obtain ⟨bs, pend, hloop, hlen, hle1, hle2, _, hall⟩ :=
      ih (q + n * a.mComponentSizes i) (bufs ++ [q])
        (fun k hk => hal k (List.mem_cons_of_mem _ hk)) (by omega)
    refine ⟨q :: bs, pend, ?_, by simp [hlen], by omega, ?_, fun h => (by cases h), ?_⟩
    · unfold EntityComponentChunk.layoutLoop
      rw [hq]
      simp only [hu1, hu2]
      rw [hloop, List.append_assoc]
      rfl
    · simp only [List.map_cons, List.sum_cons]
      omega
    · intro j k buf hj hb
      cases j with
      | zero =>
        simp only [List.getElem?_cons_zero, Option.some.injEq] at hj hb
        subst hj
        subst hb
        exact ⟨hdvd, hpq, by omega, fun j2 _ _ h => absurd h (Nat.not_lt_zero _)⟩
      | succ j =>
        simp only [List.getElem?_cons_succ] at hj hb
        obtain ⟨h1, h2, h3, h4⟩ := hall j k buf hj hb
        refine ⟨h1, by omega, h3, ?_⟩
        intro j2 i2 buf2 hlt hj2 hb2
        cases j2 with
        | zero =>
          simp only [List.getElem?_cons_zero, Option.some.injEq] at hj2 hb2
          subst hj2
          subst hb2
          exact h2
        | succ j2 =>
          simp only [List.getElem?_cons_succ] at hj2 hb2
          exact h4 j2 i2 buf2 (by omega) hj2 hb2

/-- The addresses the chunk constructor computes when the arrays with the largest
padding end below `2 ^ 64`: the header array starts at a multiple of the alignment
of `Entity` after the free list, every component array starts at a multiple of its
alignment, after the header array and after every earlier component array, and
the last array ends at `pComponentBufferAddress`. -/
theorem EntityComponentChunk.layout_spec (pMem n : Nat) (a : EntityArchetype)
    (hn : n < 2 ^ 16) (hal : ∀ i, i < a.mComponentCount → 1 ≤ a.mComponentAlignments i)
    (hroom : pMem + EntityComponentChunk.layoutBound a n < 2 ^ 64) :
    ∃ l, EntityComponentChunk.layout pMem a n = some l
      ∧ l.mFreeList = pMem
      ∧ alignofEntity ∣ l.mEntitiesBuffer
      ∧ pMem + sizeofFreeListEntry * n ≤ l.mEntitiesBuffer
      ∧ l.mComponentBuffers.length = a.mComponentCount
      ∧ l.mEntitiesBuffer + sizeofEntity * n ≤ l.pComponentBufferAddress
      ∧ l.pComponentBufferAddress ≤ pMem + EntityComponentChunk.layoutBound a n
      ∧ (a.mComponentCount = 0 →
          l.pComponentBufferAddress = l.mEntitiesBuffer + sizeofEntity * n)
      ∧ ∀ (i buf : Nat), l.mComponentBuffers[i]? = some buf →
          a.mComponentAlignments i ∣ buf
            ∧ l.mEntitiesBuffer + sizeofEntity * n ≤ buf
            ∧ buf + n * a.mComponentSizes i ≤ l.pComponentBufferAddress
            ∧ ∀ (j bufj : Nat), j < i → l.mComponentBuffers[j]? = some bufj →
                bufj + n * a.mComponentSizes j ≤ buf := by
  have h16 : u16 n = n := Nat.mod_eq_of_lt hn
  have hF : sizeofFreeListEntry = 2 := rfl
  have hE : sizeofEntity = 16 := rfl
  have hA : alignofEntity = 8 := rfl
  unfold EntityComponentChunk.layoutBound at hroom
  rw [hF, hE, hA] at hroom
  have hu1 : u64 (pMem + sizeofFreeListEntry * n) = pMem + sizeofFreeListEntry * n :=
    Nat.mod_eq_of_lt (by rw [hF]; omega)
  obtain ⟨q, hq, hdvd, hpq, hqle, _⟩ :=
    get_next_aligned_address_spec (pMem + sizeofFreeListEntry * n) alignofEntity (by decide)
      (by rw [hF, hA]; omega)
  rw [hF, hA] at hqle
  rw [hF] at hpq
  have hu2 : u64 (q + sizeofEntity * n) = q + sizeofEntity * n :=
    Nat.mod_eq_of_lt (by rw [hE]; omega)
  obtain ⟨bs, pend, hloop, hlen, hle1, hle2, hnil, hall⟩ :=
    EntityComponentChunk.layoutLoop_spec a n (List.range a.mComponentCount)
      (q + sizeofEntity * n) []
      (fun i hi => hal i (List.mem_range.mp hi)) (by rw [hE]; omega)
  rw [hE] at hle1 hle2
  refine ⟨⟨pMem, q, bs, pend⟩, ?_, rfl, hdvd, by rw [hF]; exact hpq, ?_, by rw [hE]; exact hle1,
    ?_, ?_, ?_⟩
  · unfold EntityComponentChunk.layout
    simp only [h16, hu1, hq, hu2, hloop, List.nil_append]
  · simp only [hlen, List.length_range]
  · show pend ≤ pMem + EntityComponentChunk.layoutBound a n
    unfold EntityComponentChunk.layoutBound
    rw [hF, hE, hA]
    omega
  · intro h0
    exact hnil (by rw [h0]; rfl)
  · intro i buf hb
    have hi : i < a.mComponentCount := by
      have h := (List.getElem?_eq_some.mp hb).1
      simp only [hlen, List.length_range] at h
      exact h
    obtain ⟨h1, h2, h3, h4⟩ := hall i i buf (List.getElem?_range hi) hb
    refine ⟨h1, h2, h3, ?_⟩
    intro j bufj hj hbj
    exact h4 j j bufj hj (List.getElem?_range (by omega)) hbj

set_option maxRecDepth 100000 in
/-- C37 (the address `2 ^ 64 - 1` and the alignment 2): the sum
`ptr + (alignment - 1)` wraps to 0 and `get_next_aligned_address` returns 0, which
is below the address. -/
theorem get_next_aligned_address_wraps :
    (1 : Nat) ≤ 2 ∧ 2 ^ 64 - 1 < 2 ^ 64
      ∧ get_next_aligned_address (2 ^ 64 - 1) 2 = some 0
      ∧ ¬ (2 ^ 64 - 1 ≤ 0) := by
  decide

/-- C37: for every address `p` and alignment `al ≥ 1` for which `p + (al - 1)` is
below `2 ^ 64`, `get_next_aligned_address(p, al)` is the smallest multiple of `al`
that is not below `p`. Consequently, in a chunk of `n` blocks whose arrays with the
largest padding end below `2 ^ 64`, the constructor computes a start for each of
the `mComponentCount` component arrays; each start is a multiple of the alignment
of the component and lies at or after the end of the header array and of every
earlier component array; and when the size of the component is a multiple of its
alignment, the address `GetComponentByIndex` computes for a block of the chunk is
the start plus the block index times the size and is a multiple of the
alignment. -/
theorem aligned_arrays (p al pMem n : Nat) (a : EntityArchetype) (hal : 1 ≤ al)
    (hp : p + (al - 1) < 2 ^ 64) (hn : n < 2 ^ 16)
    (halign : ∀ i, i < a.mComponentCount → 1 ≤ a.mComponentAlignments i)
    (hroom : pMem + EntityComponentChunk.layoutBound a n < 2 ^ 64) :
    (∃ q, get_next_aligned_address p al = some q ∧ al ∣ q ∧ p ≤ q
        ∧ ∀ m, al ∣ m → p ≤ m → q ≤ m)
      ∧ ∃ l, EntityComponentChunk.layout pMem a n = some l
        ∧ l.mComponentBuffers.length = a.mComponentCount
        ∧ ∀ (i buf : Nat), l.mComponentBuffers[i]? = some buf →
            a.mComponentAlignments i ∣ buf
              ∧ l.mEntitiesBuffer + sizeofEntity * n ≤ buf
              ∧ (∀ (j bufj : Nat), j < i → l.mComponentBuffers[j]? = some bufj →
                  bufj + n * a.mComponentSizes j ≤ buf)
              ∧ (a.mComponentAlignments i ∣ a.mComponentSizes i →
                  ∀ mBlockIndex, mBlockIndex < n →
                    l.GetComponentByIndex a mBlockIndex i
                        = some (buf + mBlockIndex * a.mComponentSizes i)
                      ∧ a.mComponentAlignments i ∣ buf + mBlockIndex * a.mComponentSizes i) := by
  obtain ⟨q, hq, hdvd, hpq, _, hleast⟩ := get_next_aligned_address_spec p al hal hp
  refine ⟨⟨q, hq, hdvd, hpq, hleast⟩, ?_⟩
  obtain ⟨l, hl, _, _, _, hlen, _, hend, _, hall⟩ :=
    EntityComponentChunk.layout_spec pMem n a hn halign hroom
  refine ⟨l, hl, hlen, ?_⟩
  intro i buf hb
  obtain ⟨h1, h2, h3, h4⟩ := hall i buf hb
  refine ⟨h1, h2, h4, ?_⟩
  intro hds mBlockIndex hlt
  have hmul : a.mComponentSizes i * mBlockIndex ≤ n * a.mComponentSizes i := by
    rw [Nat.mul_comm n]
    exact Nat.mul_le_mul_left _ (by omega)
  have hu1 : u64 (a.mComponentSizes i * mBlockIndex) = a.mComponentSizes i * mBlockIndex :=
    Nat.mod_eq_of_lt (by omega)
  have hu2 : u64 (buf + a.mComponentSizes i * mBlockIndex)
      = buf + a.mComponentSizes i * mBlockIndex := Nat.mod_eq_of_lt (by omega)
  constructor
  · unfold ChunkLayout.GetComponentByIndex
    rw [hb]
    simp only [hu1, hu2]
    rw [Nat.mul_comm]
  · exact Nat.dvd_add h1 (Dvd.dvd.mul_left hds _)

set_option maxRecDepth 100000 in
theorem aligned_arrays_witness :
    (1 : Nat) ≤ 8 ∧ 13 + (8 - 1) < 2 ^ 64 ∧ 2 < 2 ^ 16
      ∧ (∀ i, i < exampleArchetype.mComponentCount →
          1 ≤ exampleArchetype.mComponentAlignments i)
      ∧ 4096 + EntityComponentChunk.layoutBound exampleArchetype 2 < 2 ^ 64
      ∧ ∃ q, get_next_aligned_address 13 8 = some q ∧ 8 ∣ q ∧ 13 ≤ q
          ∧ ∀ m, 8 ∣ m → 13 ≤ m → q ≤ m :=
  ⟨by decide, by decide, by decide, by decide, by decide,
    (aligned_arrays 13 8 4096 2 exampleArchetype (by decide) (by decide) (by decide)
      (by decide) (by decide)).1⟩

/-! ## The arrays of a chunk and the size of its buffer -/

/-- The arrays with the largest padding take less than one block more than the
blocks themselves when no alignment is larger than the size of its component. -/
theorem EntityComponentChunk.layoutBound_lt (a : EntityArchetype) (n : Nat)
    (hsz : ∀ i, i < a.mComponentCount →
      1 ≤ a.mComponentAlignments i ∧ a.mComponentAlignments i ≤ a.mComponentSizes i) :
    EntityComponentChunk.layoutBound a n < (n + 1) * a.footprint := by
  have key : ∀ l : List Nat, (∀ i, i ∈ l → i < a.mComponentCount) →
      (l.map (fun i => a.mComponentAlignments i - 1 + n * a.mComponentSizes i)).sum
        ≤ (n + 1) * (l.map a.mComponentSizes).sum := by
    intro l
    induction l with
    | nil => intro _; simp
    | cons i rest ih =>
      intro h
      have h1 := hsz i (h i (List.mem_cons_self _ _))
      have h2 := ih (fun k hk => h k (List.mem_cons_of_mem _ hk))
      simp only [List.map_cons, List.sum_cons, Nat.mul_add, Nat.add_mul, Nat.one_mul] at h2 ⊢
      omega
  have h := key (List.range a.mComponentCount) (fun i hi => List.mem_range.mp hi)
  unfold EntityComponentChunk.layoutBound EntityArchetype.footprint
  have hF : sizeofFreeListEntry = 2 := rfl
  have hE : sizeofEntity = 16 := rfl
  have hA : alignofEntity = 8 := rfl
  rw [hF, hE, hA]
  generalize ((List.range a.mComponentCount).map a.mComponentSizes).sum = S at h ⊢
  generalize ((List.range a.mComponentCount).map
    (fun i => a.mComponentAlignments i - 1 + n * a.mComponentSizes i)).sum = X at h ⊢
  have h3 : (n + 1) * (2 + 16 + S) = 18 * n + 18 + (n + 1) * S := by ring
  omega

/-- The capacity and the chunk size the storage constructor computes when
`MAX_ENTITY_COUNT_PER_CHUNK + 1` blocks take less than `2 ^ 64` bytes: the capacity
is at most `MAX_ENTITY_COUNT_PER_CHUNK` and the chunk has room for one block more
than the capacity. -/
theorem EntityComponentStorage.new_fits (pContext index pArchetype : Nat) (a : EntityArchetype)
    (hB : (MAX_ENTITY_COUNT_PER_CHUNK + 1) * a.footprint < 2 ^ 64) :
    (EntityComponentStorage.new pContext index pArchetype a).mEntityCountPerChunk
        ≤ MAX_ENTITY_COUNT_PER_CHUNK
      ∧ ((EntityComponentStorage.new pContext index pArchetype a).mEntityCountPerChunk + 1)
          * a.footprint
        ≤ (EntityComponentStorage.new pContext index pArchetype a).mChunkSize := by
  have hM : MAX_STORAGE_CHUNK_SIZE = 67108864 := by decide
  have hE : MAX_ENTITY_COUNT_PER_CHUNK = 1024 := by decide
  rw [hE] at hB
  have hpos := EntityArchetype.footprint_pos a
  have hF := EntityComponentChunk.CalculateBlockSize_footprint a (by omega)
  have hq2 : MAX_STORAGE_CHUNK_SIZE / a.footprint ≤ 67108864 := by
    rw [← hM]
    exact Nat.div_le_self _ _
  have hmul : MAX_STORAGE_CHUNK_SIZE / a.footprint * a.footprint ≤ MAX_STORAGE_CHUNK_SIZE :=
    Nat.div_mul_le_self _ _
  have hu : u64 ((1024 + 1) * a.footprint) = (1024 + 1) * a.footprint := Nat.mod_eq_of_lt hB
  unfold EntityComponentStorage.new
  simp only [hF, hE]
  generalize MAX_STORAGE_CHUNK_SIZE / a.footprint = x at hq2 hmul
  by_cases h0 : x = 0
  · rw [h0]
    have h1 : u64 (0 + (2 ^ 64 - 1)) = 18446744073709551615 := by
      unfold u64
      norm_num
    rw [h1, if_pos (by omega), if_pos (by omega), hu]
    exact ⟨Nat.le_refl _, Nat.le_refl _⟩
  · rw [EntityComponentStorage.new_count x (by omega) (by omega)]
    by_cases hc : x - 1 > 1024
    · rw [if_pos hc, if_pos hc, hu]
      exact ⟨Nat.le_refl _, Nat.le_refl _⟩
    · rw [if_neg hc, if_neg hc]
      refine ⟨by omega, ?_⟩
      have hx : x - 1 + 1 = x := by omega
      rw [hx]
      exact hmul

set_option maxRecDepth 100000 in
/-- C38 (the archetype of `Colossus`, a component of `2 ^ 54 - 100` bytes and
alignment 1, and the buffer at address 4096): the product
`(MAX_ENTITY_COUNT_PER_CHUNK + 1) * entityBlockSize` of the storage constructor
wraps, the capacity is 1024 and the chunk size `2 ^ 54 - 84050`, and the component
array the chunk constructor lays out ends at `2 ^ 64 - 79872`, past the end of the
buffer. -/
theorem layout_past_buffer :
    (∀ i, i < colossusArchetype.mComponentCount →
        1 ≤ colossusArchetype.mComponentAlignments i
          ∧ colossusArchetype.mComponentAlignments i ≤ colossusArchetype.mComponentSizes i)
      ∧ colossusArchetype.mComponentCount = 1
      ∧ colossusArchetype.footprint = 2 ^ 54 - 82
      ∧ (EntityComponentStorage.new 0 0 0 colossusArchetype).mEntityCountPerChunk = 1024
      ∧ (EntityComponentStorage.new 0 0 0 colossusArchetype).mChunkSize = 2 ^ 54 - 84050
      ∧ 4096 + (EntityComponentStorage.new 0 0 0 colossusArchetype).mChunkSize ≤ 2 ^ 64
      ∧ (EntityComponentChunk.layout 4096 colossusArchetype
            (EntityComponentStorage.new 0 0 0 colossusArchetype).mEntityCountPerChunk).map
          (fun l => (l.mComponentBuffers, l.pComponentBufferAddress))
          = some ([22528], 2 ^ 64 - 79872)
      ∧ ¬ (2 ^ 64 - 79872
            ≤ 4096 + (EntityComponentStorage.new 0 0 0 colossusArchetype).mChunkSize) := by
  decide

/-- C38: for every archetype whose components each have a size that is at least
the alignment, which is at least 1, and for which `MAX_ENTITY_COUNT_PER_CHUNK + 1`
records take less than `2 ^ 64` bytes, and for every address `pMem` of a buffer of
the chunk size that ends within the address space: with the capacity and the chunk
size the storage constructor computes, the chunk constructor computes its
addresses; the free list starts at `pMem`, the arrays follow each other, and the
last component array (the header array when there is no component) ends at
`pComponentBufferAddress`, which is at most `pMem` plus the chunk size. -/
theorem layout_within_buffer (pContext index pArchetype pMem : Nat) (a : EntityArchetype)
    (hsz : ∀ i, i < a.mComponentCount →
      1 ≤ a.mComponentAlignments i ∧ a.mComponentAlignments i ≤ a.mComponentSizes i)
    (hB : (MAX_ENTITY_COUNT_PER_CHUNK + 1) * a.footprint < 2 ^ 64)
    (hbuf : pMem + (EntityComponentStorage.new pContext index pArchetype a).mChunkSize
      ≤ 2 ^ 64) :
    ∃ l, EntityComponentChunk.layout pMem a
          (EntityComponentStorage.new pContext index pArchetype a).mEntityCountPerChunk = some l
      ∧ l.mFreeList = pMem
      ∧ pMem + sizeofFreeListEntry
          * (EntityComponentStorage.new pContext index pArchetype a).mEntityCountPerChunk
        ≤ l.mEntitiesBuffer
      ∧ l.mComponentBuffers.length = a.mComponentCount
      ∧ (a.mComponentCount = 0 →
          l.pComponentBufferAddress = l.mEntitiesBuffer + sizeofEntity
            * (EntityComponentStorage.new pContext index pArchetype a).mEntityCountPerChunk)
      ∧ l.mEntitiesBuffer + sizeofEntity
          * (EntityComponentStorage.new pContext index pArchetype a).mEntityCountPerChunk
        ≤ l.pComponentBufferAddress
      ∧ (∀ (i buf : Nat), l.mComponentBuffers[i]? = some buf →
          l.mEntitiesBuffer + sizeofEntity
              * (EntityComponentStorage.new pContext index pArchetype a).mEntityCountPerChunk
            ≤ buf
          ∧ buf + (EntityComponentStorage.new pContext index pArchetype a).mEntityCountPerChunk
              * a.mComponentSizes i ≤ l.pComponentBufferAddress)
      ∧ l.pComponentBufferAddress
        ≤ pMem + (EntityComponentStorage.new pContext index pArchetype a).mChunkSize := by
  obtain ⟨hcap, hfit⟩ := EntityComponentStorage.new_fits pContext index pArchetype a hB
  have hE : MAX_ENTITY_COUNT_PER_CHUNK = 1024 := by decide
  have hlt := EntityComponentChunk.layoutBound_lt a
    (EntityComponentStorage.new pContext index pArchetype a).mEntityCountPerChunk hsz
  obtain ⟨l, hl, h1, _, h3, h4, h5, h6, h7, hall⟩ :=
    EntityComponentChunk.layout_spec pMem
      (EntityComponentStorage.new pContext index pArchetype a).mEntityCountPerChunk a
      (by omega) (fun i hi => (hsz i hi).1) (by omega)
  refine ⟨l, hl, h1, h3, h4, h7, h5, ?_, by omega⟩
  intro i buf hb
  obtain ⟨_, g2, g3, _⟩ := hall i buf hb
  exact ⟨g2, g3⟩

set_option maxRecDepth 100000 in
theorem layout_within_buffer_witness :
    (∀ i, i < exampleArchetype.mComponentCount →
        1 ≤ exampleArchetype.mComponentAlignments i
          ∧ exampleArchetype.mComponentAlignments i ≤ exampleArchetype.mComponentSizes i)
      ∧ (MAX_ENTITY_COUNT_PER_CHUNK + 1) * exampleArchetype.footprint < 2 ^ 64
      ∧ 4096 + (EntityComponentStorage.new 0 0 0 exampleArchetype).mChunkSize ≤ 2 ^ 64
      ∧ ∃ l, EntityComponentChunk.layout 4096 exampleArchetype
            (EntityComponentStorage.new 0 0 0 exampleArchetype).mEntityCountPerChunk = some l
          ∧ l.pComponentBufferAddress
            ≤ 4096 + (EntityComponentStorage.new 0 0 0 exampleArchetype).mChunkSize := by
  obtain ⟨l, hl, _, _, _, _, _, _, hend⟩ :=
    layout_within_buffer 0 0 0 4096 exampleArchetype (by decide) (by decide) (by decide)
  exact ⟨by decide, by decide, by decide, l, hl, hend⟩

/-! ## The three component index tables -/

/-- A linear table that holds the ids of `pre` in the order they were added. -/
theorem LinearComponentIndexTable.AddAll_linear (MaxCount : Nat) :
    ∀ (ids pre : List Nat) (t : LinearComponentIndexTable),
      t.mComponentCount = pre.length →
      (∀ (j id : Nat), pre[j]? = some id → t.mComponentTypeIds j = id) →
      pre.length + ids.length ≤ MaxCount →
      ∃ t1, LinearComponentIndexTable.AddAll MaxCount ids t
            = some (t1, List.range' pre.length ids.length)
        ∧ t1.mComponentCount = (pre ++ ids).length
        ∧ ∀ (j id : Nat), (pre ++ ids)[j]? = some id → t1.mComponentTypeIds j = id := by
  intro ids
  induction ids with
  | nil =>
    intro pre t hc hids _
    refine ⟨t, rfl, by simp [hc], ?_⟩
    intro j id h
    rw [List.append_nil] at h
    exact hids j id h
  | cons x rest ih =>
    intro pre t hc hids hlen
    simp only [List.length_cons] at hlen
    have hstep : LinearComponentIndexTable.AddWithin MaxCount t x
        = some (⟨t.mComponentCount + 1, setAt t.mComponentTypeIds t.mComponentCount x⟩,
            t.mComponentCount) := by
      unfold LinearComponentIndexTable.AddWithin LinearComponentIndexTable.Add
      rw [if_pos (by omega)]
    obtain ⟨t1, h1, h2, h3⟩ := ih (pre ++ [x])
      ⟨t.mComponentCount + 1, setAt t.mComponentTypeIds t.mComponentCount x⟩
      (by simp [hc])
      (by
        intro j id h
        by_cases hj : j < pre.length
        · rw [List.getElem?_append_left hj] at h
          show setAt t.mComponentTypeIds t.mComponentCount x j = id
          rw [setAt_other _ _ _ _ (by omega)]
          exact hids j id h
        · have hlt := (List.getElem?_eq_some.mp h).1
          simp only [List.length_append, List.length_singleton] at hlt
          have hj2 : j = pre.length := by omega
          subst hj2
          simp only [List.getElem?_concat_length, Option.some.injEq] at h
          show setAt t.mComponentTypeIds t.mComponentCount x pre.length = id
          rw [hc, ← h]
          simp [setAt])
      (by simp only [List.length_append, List.length_singleton]; omega)
    simp only [List.length_append, List.length_singleton] at h1
    refine ⟨t1, ?_, by simpa using h2, by simpa using h3⟩
    unfold LinearComponentIndexTable.AddAll
    rw [hstep]
    simp only [h1]
    rw [hc]
    rfl

/-- What `Get` returns on a linear table that holds the pairwise distinct ids of
`pre` in order. -/
theorem LinearComponentIndexTable.Get_of_list (t : LinearComponentIndexTable) (pre : List Nat)
    (hc : t.mComponentCount = pre.length)
    (hids : ∀ (j id : Nat), pre[j]? = some id → t.mComponentTypeIds j = id)
    (hnd : pre.Nodup) :
    (∀ (j id : Nat), pre[j]? = some id → t.Get id = (j : Int))
      ∧ ∀ id, id ∉ pre → t.Get id = INVALID_COMPONENT_INDEX := by
  constructor
  · intro j id h
    have hj := (List.getElem?_eq_some.mp h).1
    unfold LinearComponentIndexTable.Get
    rw [find?_range_first _ _ j (by omega) (by simp [hids j id h])]
    intro k hk
    have hk2 : k < pre.length := by omega
    have hkk := hids k pre[k] (List.getElem?_eq_getElem hk2)
    by_contra hne
    simp only [Bool.not_eq_false, beq_iff_eq] at hne
    have h5 : pre[k]? = some id := by
      rw [List.getElem?_eq_getElem hk2, ← hkk, hne]
    have hij := List.getElem?_inj hk2 hnd (h5.trans h.symm)
    omega
  · intro id hid
    unfold LinearComponentIndexTable.Get
    rw [find?_range_none]
    intro k hk
    have hk2 : k < pre.length := by omega
    have hkk := hids k pre[k] (List.getElem?_eq_getElem hk2)
    by_contra hne
    simp only [Bool.not_eq_false, beq_iff_eq] at hne
    apply hid
    rw [← hne, hkk]
    exact List.getElem_mem _

theorem umapInsert_length {β : Type} (map : List (Nat × β)) (key : Nat) (v : β)
    (h : umapFind map key = none) : (umapInsert map key v).length = map.length + 1 := by
  unfold umapInsert
  rw [h]
  simp

/-- A hash-map table that holds the ids of `pre` with their positions. -/
theorem HashMapComponentIndexTable.AddAll_hashed :
    ∀ (ids pre : List Nat) (t : HashMapComponentIndexTable),
      t.mComponentCount = pre.length → t.mIndexMap.length = pre.length →
      (∀ (j id : Nat), pre[j]? = some id → umapFind t.mIndexMap id = some (j : Int)) →
      (∀ id, id ∉ pre → umapFind t.mIndexMap id = none) →
      (pre ++ ids).Nodup →
      ∃ t1, HashMapComponentIndexTable.AddAll ids t
            = some (t1, List.range' pre.length ids.length)
        ∧ (∀ (j id : Nat), (pre ++ ids)[j]? = some id →
            umapFind t1.mIndexMap id = some (j : Int))
        ∧ ∀ id, id ∉ pre ++ ids → umapFind t1.mIndexMap id = none := by
  intro ids
  induction ids with
  | nil =>
    intro pre t _ _ h1 h2 _
    refine ⟨t, rfl, ?_, ?_⟩
    · intro j id h
      rw [List.append_nil] at h
      exact h1 j id h
    · intro id h
      rw [List.append_nil] at h
      exact h2 id h
  | cons x rest ih =>
    intro pre t hc hl h1 h2 hnd
    have hx : x ∉ pre := by
      intro hmem
      have := List.nodup_append.mp hnd
      exact this.2.2 hmem (List.mem_cons_self _ _)
    have hfind := h2 x hx
    have hstep : t.Add x
        = some (⟨t.mComponentCount + 1, umapInsert t.mIndexMap x (t.mComponentCount : Int)⟩,
            t.mComponentCount) := by
      unfold HashMapComponentIndexTable.Add
      rw [if_neg (by rw [hl, hc]; simp), hfind]
      simp
    have hnd2 : (pre ++ [x] ++ rest).Nodup := by
      rw [List.append_assoc]
      exact hnd
    obtain ⟨t1, g1, g2, g3⟩ := ih (pre ++ [x])
      ⟨t.mComponentCount + 1, umapInsert t.mIndexMap x (t.mComponentCount : Int)⟩
      (by simp [hc])
      (by
        show (umapInsert t.mIndexMap x (t.mComponentCount : Int)).length = _
        rw [umapInsert_length _ _ _ hfind, hl]
        simp)
      (by
        intro j id h
        show umapFind (umapInsert t.mIndexMap x (t.mComponentCount : Int)) id = _
        by_cases hj : j < pre.length
        · rw [List.getElem?_append_left hj] at h
          have hne : id ≠ x := by
            intro he
            rw [he] at h
            exact hx (List.getElem?_mem h)
          rw [umapFind_umapInsert_other _ _ _ _ hne]
          exact h1 j id h
        · have hlt := (List.getElem?_eq_some.mp h).1
          simp only [List.length_append, List.length_singleton] at hlt
          have hj2 : j = pre.length := by omega
          subst hj2
          simp only [List.getElem?_concat_length, Option.some.injEq] at h
          rw [← h, umapFind_umapInsert_self _ _ _ hfind, hc])
      (by
        intro id h
        show umapFind (umapInsert t.mIndexMap x (t.mComponentCount : Int)) id = _
        simp only [List.mem_append, List.mem_singleton, not_or] at h
        rw [umapFind_umapInsert_other _ _ _ _ h.2]
        exact h2 id h.1)
      hnd2
    simp only [List.length_append, List.length_singleton] at g1
    refine ⟨t1, ?_, by simpa using g2, by simpa using g3⟩
    unfold HashMapComponentIndexTable.AddAll
    rw [hstep]
    simp only [g1]
    rw [hc]
    rfl

/-- A direct table that holds the ids of `pre` with their positions. -/
theorem DirectComponentIndexTable.AddAll_direct (MaxCount : Nat) :
    ∀ (ids pre : List Nat) (t : DirectComponentIndexTable),
      t.mComponentCount = pre.length →
      (∀ (j id : Nat), pre[j]? = some id → t.mIndexTable id = (j : Int)) →
      (∀ id, id ∉ pre → id < MaxCount → t.mIndexTable id = INVALID_COMPONENT_INDEX) →
      (pre ++ ids).Nodup → (∀ id, id ∈ ids → id < MaxCount) →
      ∃ t1, DirectComponentIndexTable.AddAll MaxCount ids t
            = some (t1, List.range' pre.length ids.length)
        ∧ (∀ (j id : Nat), (pre ++ ids)[j]? = some id → t1.mIndexTable id = (j : Int))
        ∧ ∀ id, id ∉ pre ++ ids → id < MaxCount →
            t1.mIndexTable id = INVALID_COMPONENT_INDEX := by
  intro ids
  induction ids with
  | nil =>
    intro pre t _ h1 h2 _ _
    refine ⟨t, rfl, ?_, ?_⟩
    · intro j id h
      rw [List.append_nil] at h
      exact h1 j id h
    · intro id h
      rw [List.append_nil] at h
      exact h2 id h
  | cons x rest ih =>
    intro pre t hc h1 h2 hnd hlt
    have hx : x ∉ pre := by
      intro hmem
      have := List.nodup_append.mp hnd
      exact this.2.2 hmem (List.mem_cons_self _ _)
    have hxlt := hlt x (List.mem_cons_self _ _)
    have hcell := h2 x hx hxlt
    have hstep : DirectComponentIndexTable.Add MaxCount t x
        = some (⟨t.mComponentCount + 1, setAt t.mIndexTable x (t.mComponentCount : Int)⟩,
            t.mComponentCount) := by
      unfold DirectComponentIndexTable.Add
      rw [if_pos hxlt, if_pos hcell]
    have hnd2 : (pre ++ [x] ++ rest).Nodup := by
      rw [List.append_assoc]
      exact hnd
    obtain ⟨t1, g1, g2, g3⟩ := ih (pre ++ [x])
      ⟨t.mComponentCount + 1, setAt t.mIndexTable x (t.mComponentCount : Int)⟩
      (by simp [hc])
      (by
        intro j id h
        show setAt t.mIndexTable x (t.mComponentCount : Int) id = _
        by_cases hj : j < pre.length
        · rw [List.getElem?_append_left hj] at h
          have hne : id ≠ x := by
            intro he
            rw [he] at h
            exact hx (List.getElem?_mem h)
          rw [setAt_other _ _ _ _ hne]
          exact h1 j id h
        · have hlt := (List.getElem?_eq_some.mp h).1
          simp only [List.length_append, List.length_singleton] at hlt
          have hj2 : j = pre.length := by omega
          subst hj2
          simp only [List.getElem?_concat_length, Option.some.injEq] at h
          rw [← h, hc]
          simp [setAt])
      (by
        intro id h hid
        show setAt t.mIndexTable x (t.mComponentCount : Int) id = _
        simp only [List.mem_append, List.mem_singleton, not_or] at h
        rw [setAt_other _ _ _ _ h.2]
        exact h2 id h.1 hid)
      hnd2 (fun id hid => hlt id (List.mem_cons_of_mem _ hid))
    simp only [List.length_append, List.length_singleton] at g1
    refine ⟨t1, ?_, by simpa using g2, by simpa using g3⟩
    unfold DirectComponentIndexTable.AddAll
    rw [hstep]
    simp only [g1]
    rw [hc]
    rfl

set_option maxRecDepth 100000 in
/-- C40 (the id 1 added to tables with `MaxCount = 4`, and `Get(7)`): the three
tables are built, the linear table and the hash-map table return
`INVALID_COMPONENT_INDEX` for the id 7, which was never added, and the direct
table reads the cell `mIndexTable[7]` past its array of 4 cells. -/
theorem DirectComponentIndexTable_Get_past :
    [1].Nodup ∧ (∀ id, id ∈ [1] → id < 4) ∧ [1].length ≤ 4 ∧ 7 ∉ [1]
      ∧ (LinearComponentIndexTable.AddAll 4 [1] LinearComponentIndexTable.init).map
          (fun r => (r.2, r.1.Get 7)) = some ([0], INVALID_COMPONENT_INDEX)
      ∧ (HashMapComponentIndexTable.AddAll [1] HashMapComponentIndexTable.init).map
          (fun r => (r.2, r.1.Get 7)) = some ([0], INVALID_COMPONENT_INDEX)
      ∧ (DirectComponentIndexTable.AddAll 4 [1] (DirectComponentIndexTable.init 4)).map
          (fun r => (r.2, DirectComponentIndexTable.Get 4 r.1 7)) = some ([0], none) := by
  decide

/-- C40: for every list of pairwise distinct component ids, at most `L` of them
and each below `D`, the calls `Add` for the ids in order return on a
`LinearComponentIndexTable<L>`, on a `HashMapComponentIndexTable` and on a
`DirectComponentIndexTable<D>`, and each call returns the 0-based position of its
id in the list. On the three tables built, `Get(id)` returns the position at which
`id` was added; for an id that was never added, `Get(id)` returns
`INVALID_COMPONENT_INDEX` on the linear table and on the hash-map table, and on
the direct table when the id is below `D`. -/
theorem index_tables_agree (L D : Nat) (ids : List Nat) (hnd : ids.Nodup)
    (hL : ids.length ≤ L) (hD : ∀ id, id ∈ ids → id < D) :
    ∃ tl th td,
      LinearComponentIndexTable.AddAll L ids LinearComponentIndexTable.init
          = some (tl, List.range ids.length)
      ∧ HashMapComponentIndexTable.AddAll ids HashMapComponentIndexTable.init
          = some (th, List.range ids.length)
      ∧ DirectComponentIndexTable.AddAll D ids (DirectComponentIndexTable.init D)
          = some (td, List.range ids.length)
      ∧ (∀ (j id : Nat), ids[j]? = some id →
          tl.Get id = (j : Int) ∧ th.Get id = (j : Int)
            ∧ DirectComponentIndexTable.Get D td id = some (j : Int))
      ∧ ∀ id, id ∉ ids →
          tl.Get id = INVALID_COMPONENT_INDEX ∧ th.Get id = INVALID_COMPONENT_INDEX
            ∧ (id < D → DirectComponentIndexTable.Get D td id = some INVALID_COMPONENT_INDEX) := by
  obtain ⟨tl, l1, l2, l3⟩ := LinearComponentIndexTable.AddAll_linear L ids []
    LinearComponentIndexTable.init rfl (fun j id h => by simp at h) (by simpa using hL)
  obtain ⟨th, a1, a2, a3⟩ := HashMapComponentIndexTable.AddAll_hashed ids []
    HashMapComponentIndexTable.init rfl rfl (fun j id h => by simp at h) (fun _ _ => rfl)
    (by simpa using hnd)
  obtain ⟨td, d1, d2, d3⟩ := DirectComponentIndexTable.AddAll_direct D ids []
    (DirectComponentIndexTable.init D) rfl (fun j id h => by simp at h)
    (fun id _ hid => by
      show (if id < D then INVALID_COMPONENT_INDEX else 0) = _
      rw [if_pos hid])
    (by simpa using hnd) hD
  simp only [List.nil_append, List.length_nil] at l1 l2 l3 a1 a2 a3 d1 d2 d3
  rw [← List.range_eq_range'] at l1 a1 d1
  obtain ⟨lg1, lg2⟩ := tl.Get_of_list ids l2 l3 hnd
  refine ⟨tl, th, td, l1, a1, d1, ?_, ?_⟩
  · intro j id h
    refine ⟨lg1 j id h, ?_, ?_⟩
    · unfold HashMapComponentIndexTable.Get
      rw [a2 j id h]
    · unfold DirectComponentIndexTable.Get
      rw [if_pos (hD id (List.getElem?_mem h)), d2 j id h]
  · intro id h
    refine ⟨lg2 id h, ?_, ?_⟩
    · unfold HashMapComponentIndexTable.Get
      rw [a3 id h]
    · intro hid
      unfold DirectComponentIndexTable.Get
      rw [if_pos hid, d3 id h hid]

set_option maxRecDepth 100000 in
theorem index_tables_agree_witness :
    [5, 2, 9].Nodup ∧ [5, 2, 9].length ≤ 3 ∧ (∀ id, id ∈ [5, 2, 9] → id < 10)
      ∧ ∃ tl th td,
        LinearComponentIndexTable.AddAll 3 [5, 2, 9] LinearComponentIndexTable.init
            = some (tl, List.range [5, 2, 9].length)
        ∧ HashMapComponentIndexTable.AddAll [5, 2, 9] HashMapComponentIndexTable.init
            = some (th, List.range [5, 2, 9].length)
        ∧ DirectComponentIndexTable.AddAll 10 [5, 2, 9] (DirectComponentIndexTable.init 10)
            = some (td, List.range [5, 2, 9].length)
        ∧ (∀ (j id : Nat), [5, 2, 9][j]? = some id →
            tl.Get id = (j : Int) ∧ th.Get id = (j : Int)
              ∧ DirectComponentIndexTable.Get 10 td id = some (j : Int))
        ∧ ∀ id, id ∉ [5, 2, 9] →
            tl.Get id = INVALID_COMPONENT_INDEX ∧ th.Get id = INVALID_COMPONENT_INDEX
              ∧ (id < 10
                → DirectComponentIndexTable.Get 10 td id = some INVALID_COMPONENT_INDEX) :=
  ⟨by decide, by decide, by decide,
    index_tables_agree 3 10 [5, 2, 9] (by decide) (by decide) (by decide)⟩
/-! ## The invariant in worlds built by calls -/

theorem World.new_Linked : World.new.Linked := by
  refine ⟨World.new_InvSlots, fun _ _ => rfl, ⟨?_, ?_⟩, ?_, ?_⟩
  · intro e he
    cases he
  · exact List.nodup_nil
  · intro p a ha
    simp [World.new, EntityArchetypeManager.init] at ha
  · intro i _ j s hs
    simp [World.new, World.storage] at hs

/-- A world with a storage at `p` has a context in the slot of `p`, which lies
below `MAX_CONTEXT_COUNT`. -/
theorem World.InvLinks.context_lt {w : World} (hinv : w.InvLinks) (p : StoragePtr)
    (s : EntityComponentStorage) (hs : w.storage p = some s) :
    p.mContext < MAX_CONTEXT_COUNT := by
  by_contra hge
  obtain ⟨c, hc, _⟩ := (w.storage_eq_some_iff p s).mp hs
  rw [hinv.1 p.mContext (by omega)] at hc
  cases hc

/-- The links only read the catalog and the archetype pointers of the storages. -/
theorem World.InvLinks.frame_links {w w1 : World} (hinv : w.InvLinks)
    (hctx : ∀ i, MAX_CONTEXT_COUNT ≤ i → w1.mEntityContexts i = none)
    (hmgr : w1.mArchetypeManager = w.mArchetypeManager)
    (hst : ∀ q, (w1.storage q).map EntityComponentStorage.mArchetype
      = (w.storage q).map EntityComponentStorage.mArchetype) : w1.InvLinks := by
  obtain ⟨_, hcat, hback, hlink⟩ := hinv
  refine ⟨hctx, ?_, ?_, ?_⟩
  · unfold World.InvCatalog
    rw [hmgr]
    exact hcat
  · intro p a ha
    rw [hmgr] at ha
    intro i hi j hj
    obtain ⟨s, hs, hsa⟩ := hback p a ha i hi j hj
    have h := hst { mContext := i, mIndex := j }
    rw [Option.mem_def.mp hs] at h
    cases hs1 : w1.storage { mContext := i, mIndex := j } with
    | none =>
      rw [hs1] at h
      cases h
    | some s1 =>
      rw [hs1] at h
      simp only [Option.map_some', Option.some.injEq] at h
      exact ⟨s1, rfl, by rw [h]; exact hsa⟩
  · intro i hi j s1 hs1
    have h := hst { mContext := i, mIndex := j }
    rw [hs1] at h
    cases hs : w.storage { mContext := i, mIndex := j } with
    | none =>
      rw [hs] at h
      cases h
    | some s =>
      rw [hs] at h
      simp only [Option.map_some', Option.some.injEq] at h
      rw [hmgr, h]
      exact hlink i hi j s hs

theorem World.Linked.setStorage_linked {w : World} (hinv : w.Linked) (p : StoragePtr)
    (s s1 : EntityComponentStorage) (hs : w.storage p = some s)
    (h1 : p.mContext < MAX_CONTEXT_COUNT → s.Inv →
      (∃ a, a ∈ w.mArchetypeManager.objects[s.mArchetype]?
        ∧ s.mComponentCountPerEntity = a.mComponentCount) →
      s1.Inv ∧ s1.mContext = s.mContext ∧ s1.mIndex = s.mIndex
        ∧ s1.mArchetype = s.mArchetype
        ∧ s1.mComponentCountPerEntity = s.mComponentCountPerEntity) :
    (w.setStorage p s1).Linked := by
  refine ⟨hinv.1.setStorage p s s1 hs h1, ?_⟩
  have hp := hinv.2.context_lt p s hs
  obtain ⟨c, hc, hcs⟩ := (w.storage_eq_some_iff p s).mp hs
  have hlt : p.mIndex < c.mEntityComponentStorageList.length := by
    by_contra hge
    rw [List.getElem?_eq_none (by omega)] at hcs
    cases hcs
  obtain ⟨_, _, g3⟩ := hinv.1 _ hp c hc
  obtain ⟨k1, _, _, k4⟩ := g3 _ hlt s hcs
  obtain ⟨_, _, _, harch, _⟩ := h1 hp k1 k4
  apply hinv.2.frame_links
  · intro i hi
    rw [w.setStorage_contexts_other p s1 i (by omega)]
    exact hinv.2.1 i hi
  · exact w.setStorage_manager p s1
  · intro q
    by_cases hq : q = p
    · rw [hq, w.storage_setStorage_same p s s1 hs, hs]
      simp only [Option.map_some', harch]
    · rw [w.storage_setStorage_other p q s1 hq]

/-- The invariant `Linked` does not depend on the event managers. -/
theorem World.Linked.setManager_linked {w : World} (hinv : w.Linked) (pContext : Nat)
    (c : EntityContext) (em : Option EventManager)
    (hc : w.mEntityContexts pContext = some c) :
    World.Linked
      { w with
        mEntityContexts := setAt w.mEntityContexts pContext
          (some { c with mEventManager := em }) } := by
  refine ⟨hinv.1.setManager pContext c em hc, ?_⟩
  apply hinv.2.frame_links
  · intro i hi
    have hne : i ≠ pContext := by
      intro h
      rw [h] at hi
      rw [hinv.2.1 pContext hi] at hc
      cases hc
    simp only [setAt, if_neg hne]
    exact hinv.2.1 i hi
  · rfl
  · intro q
    unfold World.storage
    by_cases hq : q.mContext = pContext
    · simp only [setAt, hq, if_true, hc]
    · simp only [setAt, if_neg hq]

theorem World.Linked.GetEntityComponentStorage_linked {w w1 : World} (hinv : w.Linked)
    (pContext pArchetype : Nat) (ps : StoragePtr)
    (h : w.GetEntityComponentStorage pContext pArchetype = some (w1, ps)) : w1.Linked := by
  refine ⟨hinv.1.GetEntityComponentStorage pContext pArchetype ps h, ?_⟩
  unfold World.GetEntityComponentStorage at h
  cases hc : w.mEntityContexts pContext with
  | none => simp [hc] at h
  | some c =>
    cases ha : w.archetype pArchetype with
    | none => simp [hc, ha] at h
    | some a =>
      simp only [hc, ha] at h
      cases hm : a.mStoragesInContext c.mContextId with
      | some k =>
        simp only [hm, Option.some.injEq, Prod.mk.injEq] at h
        rw [← h.1]
        exact hinv.2
      | none =>
        simp only [hm] at h
        by_cases hlt : u16 c.mEntityComponentStorageList.length < MAX_STORAGE_COUNT_PER_CONTEXT
        · rw [if_pos hlt] at h
          simp only [Option.some.injEq, Prod.mk.injEq] at h
          rw [← h.1]
          obtain ⟨hzero, ⟨hcat1, hcat2⟩, hback, hlink⟩ := hinv.2
          have hp : pContext < MAX_CONTEXT_COUNT := by
            by_contra hge
            rw [hzero pContext (by omega)] at hc
            cases hc
          obtain ⟨hcid, hlen, _⟩ := hinv.1 _ hp c hc
          rw [hcid] at hm
          have ha2 : w.mArchetypeManager.objects[pArchetype]? = some a := ha
          have hpa : pArchetype < w.mArchetypeManager.objects.length := by
            by_contra hge
            rw [List.getElem?_eq_none (by omega)] at ha2
            cases ha2
          -- the storages of the new world
          have hstor : ∀ (i j : Nat) (s : EntityComponentStorage),
              World.storage
                  { mArchetypeManager :=
                      { w.mArchetypeManager with
                        objects := w.mArchetypeManager.objects.set pArchetype
                          { a with
                            mStoragesInContext := setAt a.mStoragesInContext c.mContextId
                              (some c.mEntityComponentStorageList.length) } }
                    mEntityContexts := setAt w.mEntityContexts pContext
                      (some { c with
                              mEntityComponentStorageList :=
                                c.mEntityComponentStorageList
                                  ++ [EntityComponentStorage.new pContext
                                    (u16 c.mEntityComponentStorageList.length)
                                    pArchetype a] }) }
                  { mContext := i, mIndex := j } = some s ↔
                (w.storage { mContext := i, mIndex := j } = some s
                  ∨ (i = pContext ∧ j = c.mEntityComponentStorageList.length
                    ∧ s = EntityComponentStorage.new pContext
                        (u16 c.mEntityComponentStorageList.length) pArchetype a)) := by
            intro i j s
            unfold World.storage
            by_cases hi : i = pContext
            · subst hi
              simp only [setAt, if_true, hc]
              by_cases hj : j < c.mEntityComponentStorageList.length
              · rw [List.getElem?_append_left hj]
                constructor
                · intro hh
                  exact Or.inl hh
                · rintro (hh | ⟨_, hh, _⟩)
                  · exact hh
                  · omega
              · by_cases hje : j = c.mEntityComponentStorageList.length
                · subst hje
                  rw [List.getElem?_concat_length, List.getElem?_eq_none (by omega)]
                  constructor
                  · intro hh
                    simp only [Option.some.injEq] at hh
                    exact Or.inr ⟨trivial, rfl, hh.symm⟩
                  · rintro (hh | ⟨_, _, hh⟩)
                    · cases hh
                    · rw [hh]
                · rw [List.getElem?_eq_none (by simp; omega),
                    List.getElem?_eq_none (by omega)]
                  constructor
                  · intro hh
                    cases hh
                  · rintro (hh | ⟨_, hh, _⟩)
                    · cases hh
                    · exact absurd hh hje
            · simp only [setAt, if_neg hi]
              constructor
              · intro hh
                exact Or.inl hh
              · rintro (hh | ⟨hh, _, _⟩)
                · exact hh
                · exact absurd hh hi
          -- the archetype objects of the new world
          have hobj : ∀ (p : Nat) (b : EntityArchetype),
              (w.mArchetypeManager.objects.set pArchetype
                  { a with
                    mStoragesInContext := setAt a.mStoragesInContext c.mContextId
                      (some c.mEntityComponentStorageList.length) })[p]? = some b ↔
                ((p ≠ pArchetype ∧ w.mArchetypeManager.objects[p]? = some b)
                  ∨ (p = pArchetype
                    ∧ b = { a with
                            mStoragesInContext := setAt a.mStoragesInContext c.mContextId
                              (some c.mEntityComponentStorageList.length) })) := by
            intro p b
            by_cases hpp : p = pArchetype
            · subst hpp
              rw [List.getElem?_set_self hpa]
              constructor
              · intro hh
                simp only [Option.some.injEq] at hh
                exact Or.inr ⟨rfl, hh.symm⟩
              · rintro (⟨hh, _⟩ | ⟨_, hh⟩)
                · exact absurd rfl hh
                · rw [hh]
            · have hne : pArchetype ≠ p := fun e => hpp e.symm
              rw [List.getElem?_set_ne hne]
              constructor
              · intro hh
                exact Or.inl ⟨hpp, hh⟩
              · rintro (⟨_, hh⟩ | ⟨hh, _⟩)
                · exact hh
                · exact absurd hh hpp
          refine ⟨?_, ⟨?_, hcat2⟩, ?_, ?_⟩
          · intro i hi
            have hne : i ≠ pContext := by omega
            simp only [setAt, if_neg hne]
            exact hzero i hi
          · intro e he
            obtain ⟨g1, g2⟩ := hcat1 e he
            refine ⟨by simp only [List.length_set]; exact g1, ?_⟩
            intro b hb
            rcases (hobj e.2 b).mp (Option.mem_def.mp hb) with ⟨_, hb2⟩ | ⟨hp2, hb2⟩
            · exact g2 b hb2
            · rw [hb2]
              rw [hp2] at g2
              exact g2 a ha2
          · intro p b hb i hi j hj
            rcases (hobj p b).mp hb with ⟨_, hb2⟩ | ⟨hp2, hb2⟩
            · obtain ⟨s, hs, hsa⟩ := hback p b hb2 i hi j hj
              exact ⟨s, Option.mem_def.mpr ((hstor i j s).mpr (Or.inl hs)), hsa⟩
            · rw [hb2, hcid] at hj
              simp only [Option.mem_def] at hj
              by_cases hic : i = pContext
              · subst hic
                simp only [setAt, if_true, Option.some.injEq] at hj
                refine ⟨_, Option.mem_def.mpr ((hstor i j _).mpr (Or.inr ⟨rfl, hj.symm, rfl⟩)),
                  ?_⟩
                rw [hp2]
                rfl
              · simp only [setAt, if_neg hic] at hj
                obtain ⟨s, hs, hsa⟩ := hback pArchetype a ha2 i hi j hj
                rw [hp2]
                exact ⟨s, Option.mem_def.mpr ((hstor i j s).mpr (Or.inl hs)), hsa⟩
          · intro i hi j s hs
            rcases (hstor i j s).mp hs with hs2 | ⟨hi2, hj2, hs2⟩
            · obtain ⟨b, hb, hbl⟩ := hlink i hi j s hs2
              by_cases hsp : s.mArchetype = pArchetype
              · rw [hsp] at hb
                rw [ha2] at hb
                simp only [Option.some.injEq] at hb
                subst hb
                refine ⟨_, (hobj s.mArchetype _).mpr (Or.inr ⟨hsp, rfl⟩), ?_⟩
                rw [hcid]
                by_cases hic : i = pContext
                · rw [hic, hm] at hbl
                  cases hbl
                · simp only [setAt, if_neg hic]
                  exact hbl
              · exact ⟨b, (hobj s.mArchetype b).mpr (Or.inl ⟨hsp, hb⟩), hbl⟩
            · rw [hs2]
              refine ⟨_, (hobj pArchetype _).mpr (Or.inr ⟨rfl, rfl⟩), ?_⟩
              rw [hcid, hi2, hj2]
              simp only [setAt, if_true]
        · rw [if_neg hlt] at h
          cases h

/-! ### The steps of the calls keep the links -/

theorem World.Linked.Allocate_linked {w w1 : World} (hinv : w.Linked) (ps : StoragePtr)
    (b : Bool) (p : EntityPtr) (h : w.Allocate ps b = some (w1, p)) : w1.Linked := by
  unfold World.Allocate at h
  cases hs : w.storage ps with
  | none => simp [hs] at h
  | some s =>
    cases ha : w.archetype s.mArchetype with
    | none => simp [hs, ha] at h
    | some a =>
      cases hal : s.Allocate a b with
      | none => simp [hs, ha, hal] at h
      | some r =>
        obtain ⟨t, q⟩ := r
        simp only [hs, ha, hal, Option.some.injEq, Prod.mk.injEq] at h
        rw [← h.1]
        apply hinv.setStorage_linked ps s t hs
        intro _ hsinv hlink
        obtain ⟨a2, ha2, hcount⟩ := hlink
        have hae : a2 = a := by
          unfold World.archetype at ha
          rw [Option.mem_def, ha] at ha2
          simp only [Option.some.injEq] at ha2
          exact ha2.symm
        subst hae
        have hn : 1 ≤ s.mEntityCountPerChunk := by
          by_contra hno
          rw [s.Allocate_none_of_zero a2 b hsinv (by omega)] at hal
          cases hal
        obtain ⟨htinv, hrel⟩ := s.Allocate_some a2 b hsinv hn hcount.symm t q hal
        exact ⟨htinv, hrel.mContext, hrel.mIndex, hrel.mArchetype, hrel.mComponentCountPerEntity⟩

theorem World.Linked.store_linked {w w1 : World} (hinv : w.Linked) (p : EntityPtr)
    (slot : ComponentSlot) (v : Option Value) (h : w.store p slot v = some w1) :
    w1.Linked := by
  unfold World.store at h
  cases hs : w.storage p.mStorage with
  | none => simp [hs] at h
  | some s =>
    simp only [hs, Option.some.injEq] at h
    rw [← h]
    apply hinv.setStorage_linked p.mStorage s _ hs
    intro _ hsinv _
    exact ⟨s.store_Inv p slot v hsinv, rfl, rfl, rfl, rfl⟩

theorem World.Linked.SetComponent_linked {w w1 : World} (hinv : w.Linked) (e : EntityPtr)
    (T : ComponentType) (data : Value) (b : Bool)
    (h : w.SetComponent e T data = some (w1, b)) : w1.Linked := by
  unfold World.SetComponent at h
  cases hg : w.GetComponent e T with
  | none => simp [hg] at h
  | some o =>
    cases o with
    | none =>
      simp only [hg, Option.some.injEq, Prod.mk.injEq] at h
      rw [← h.1]
      exact hinv
    | some slot =>
      simp only [hg, Option.map_eq_some'] at h
      obtain ⟨x, hx, hxe⟩ := h
      simp only [Prod.mk.injEq] at hxe
      rw [← hxe.1]
      exact hinv.store_linked e slot _ hx

theorem World.Linked.assign_linked (p : EntityPtr) (l : List (ComponentType × Value)) :
    ∀ (w w1 : World), w.Linked → w.assign p l = some w1 → w1.Linked := by
  induction l with
  | nil =>
    intro w w1 hinv h
    simp only [World.assign, Option.some.injEq] at h
    rw [← h]
    exact hinv
  | cons x rest ih =>
    intro w w1 hinv h
    obtain ⟨T, data⟩ := x
    simp only [World.assign] at h
    cases hs : w.SetComponent p T data with
    | none => simp [hs] at h
    | some r =>
      obtain ⟨w2, b⟩ := r
      simp only [hs] at h
      exact ih w2 w1 (hinv.SetComponent_linked p T data b hs) h

theorem World.Linked.invoke_linked (p : EntityPtr) (l : EventCallbackList) :
    ∀ (w w1 : World), w.Linked → List.foldl (World.invoke p) (some w) l = some w1 →
      w1.Linked := by
  have hnone : ∀ l : EventCallbackList, List.foldl (World.invoke p) none l = none := by
    intro l
    induction l with
    | nil => rfl
    | cons it rest ih => exact ih
  induction l with
  | nil =>
    intro w w1 hinv h
    simp only [List.foldl_nil, Option.some.injEq] at h
    rw [← h]
    exact hinv
  | cons it rest ih =>
    intro w w1 hinv h
    rw [List.foldl_cons] at h
    cases hs : World.invoke p (some w) it with
    | none =>
      rw [hs, hnone] at h
      cases h
    | some w2 =>
      rw [hs] at h
      refine ih w2 w1 ?_ h
      simp only [World.invoke] at hs
      cases hh : w.header p with
      | none => simp [hh] at hs
      | some e =>
        simp only [hh] at hs
        exact World.Linked.assign_linked p _ w w2 hinv hs

theorem World.Linked.TriggerEvent_linked {w w1 : World} (hinv : w.Linked) (pContext : Nat)
    (evt : EntityEvent) (h : w.TriggerEvent pContext evt = some w1) : w1.Linked := by
  unfold World.TriggerEvent at h
  cases hc : w.mEntityContexts pContext with
  | none => simp [hc] at h
  | some c =>
    simp only [hc] at h
    cases hem : c.mEventManager with
    | none =>
      simp only [hem, Option.some.injEq] at h
      rw [← h]
      exact hinv
    | some em =>
      simp only [hem] at h
      exact World.Linked.invoke_linked evt.pEntity _ _ w1
        (hinv.setManager_linked pContext c (some { em with triggered := em.triggered ++ [evt] }) hc) h

theorem World.Linked.OnEntityCreated_linked {w w1 : World} (hinv : w.Linked) (pContext : Nat)
    (p : EntityPtr) (h : w.OnEntityCreated pContext p = some w1) : w1.Linked := by
  unfold World.OnEntityCreated at h
  cases hh : w.header p with
  | none => simp [hh] at h
  | some hd =>
    simp only [hh] at h
    exact hinv.TriggerEvent_linked pContext _ h

theorem World.Linked.ConstructEntity_linked (p : EntityPtr) (args : List (ComponentType × Value)) :
    ∀ (w w1 : World), w.Linked → w.ConstructEntity p args = some w1 → w1.Linked := by
  induction args with
  | nil =>
    intro w w1 hinv h
    simp only [World.ConstructEntity, Option.some.injEq] at h
    rw [← h]
    exact hinv
  | cons x rest ih =>
    intro w w1 hinv h
    obtain ⟨T, data⟩ := x
    simp only [World.ConstructEntity] at h
    by_cases hd : (!is_type_duplicate T (rest.map Prod.fst)) = true
    · rw [if_pos hd] at h
      cases hg : w.GetComponent p T with
      | none => simp [hg] at h
      | some o =>
        cases o with
        | none =>
          simp only [hg] at h
          exact ih w w1 hinv h
        | some slot =>
          simp only [hg] at h
          cases hst : w.store p slot (some data) with
          | none => simp [hst] at h
          | some w2 =>
            simp only [hst] at h
            exact ih w2 w1 (hinv.store_linked p slot _ hst) h
    · rw [if_neg hd] at h
      exact ih w w1 hinv h

theorem World.Linked.ConstructEntityDefault_linked (p : EntityPtr) (Ts : List ComponentType) :
    ∀ (w w1 : World), w.Linked → w.ConstructEntityDefault p Ts = some w1 → w1.Linked := by
  induction Ts with
  | nil =>
    intro w w1 hinv h
    simp only [World.ConstructEntityDefault, Option.some.injEq] at h
    rw [← h]
    exact hinv
  | cons T rest ih =>
    intro w w1 hinv h
    simp only [World.ConstructEntityDefault] at h
    by_cases hd : (!is_type_duplicate T rest) = true
    · rw [if_pos hd] at h
      cases hg : w.GetComponent p T with
      | none => simp [hg] at h
      | some o =>
        cases o with
        | none =>
          simp only [hg] at h
          exact ih w w1 hinv h
        | some slot =>
          simp only [hg] at h
          cases hst : w.store p slot (some T.defaultValue) with
          | none => simp [hst] at h
          | some w2 =>
            simp only [hst] at h
            exact ih w2 w1 (hinv.store_linked p slot _ hst) h
    · rw [if_neg hd] at h
      exact ih w w1 hinv h

/-- A loop whose rounds keep `Linked` keeps it. -/
theorem World.Linked.foldl_linked (step : Option World → Nat → Option World)
    (hnone : ∀ k, step none k = none)
    (hstep : ∀ (w w1 : World) k, w.Linked → step (some w) k = some w1 → w1.Linked)
    (l : List Nat) :
    ∀ (w w1 : World), w.Linked → List.foldl step (some w) l = some w1 → w1.Linked := by
  induction l with
  | nil =>
    intro w w1 hinv h
    simp only [List.foldl_nil, Option.some.injEq] at h
    rw [← h]
    exact hinv
  | cons k rest ih =>
    intro w w1 hinv h
    rw [List.foldl_cons] at h
    cases hs : step (some w) k with
    | none =>
      rw [hs] at h
      have hn : ∀ l : List Nat, List.foldl step none l = none := by
        intro l
        induction l with
        | nil => rfl
        | cons k2 l2 ih2 => rw [List.foldl_cons, hnone, ih2]
      rw [hn] at h
      cases h
    | some w2 =>
      rw [hs] at h
      exact ih w2 w1 (hstep w w2 k hinv hs) h

theorem World.Linked.constructMissing_linked (Args : List ComponentType) (a : EntityArchetype)
    (p : EntityPtr) (w w1 : World) (k : Nat) (hinv : w.Linked)
    (h : World.constructMissing Args a p (some w) k = some w1) : w1.Linked := by
  simp only [World.constructMissing] at h
  by_cases hd : (!ComponentTypesHelperClass.Contain (a.mComponentTypeIds k) Args) = true
  · rw [if_pos hd] at h
    cases hg : w.GetComponentByIndex p k with
    | none => simp [hg] at h
    | some slot =>
      simp only [hg] at h
      exact hinv.store_linked p slot _ h
  · rw [if_neg hd] at h
    simp only [Option.some.injEq] at h
    rw [← h]
    exact hinv

theorem World.Linked.copyComponent_linked (a : EntityArchetype) (pDst pSrc : EntityPtr)
    (w w1 : World) (k : Nat) (hinv : w.Linked)
    (h : World.copyComponent a pDst pSrc (some w) k = some w1) : w1.Linked := by
  simp only [World.copyComponent] at h
  cases hg : w.GetComponentByTypeID pDst (a.mComponentTypeIds k) with
  | none => simp [hg] at h
  | some o =>
    cases o with
    | none =>
      simp only [hg, Option.some.injEq] at h
      rw [← h]
      exact hinv
    | some slot =>
      simp only [hg] at h
      cases hs : w.GetComponentByIndex pSrc k with
      | none => simp [hs] at h
      | some src =>
        simp only [hs] at h
        exact hinv.store_linked pDst slot _ h

theorem World.Linked.cloneComponent_linked (pDst pSrc : EntityPtr)
    (w w1 : World) (k : Nat) (hinv : w.Linked)
    (h : World.cloneComponent pDst pSrc (some w) k = some w1) : w1.Linked := by
  simp only [World.cloneComponent] at h
  cases hg : w.GetComponentByIndex pSrc k with
  | none => simp [hg] at h
  | some src =>
    simp only [hg] at h
    cases hs : w.GetComponentByIndex pDst k with
    | none => simp [hs] at h
    | some dst =>
      simp only [hs] at h
      exact hinv.store_linked pDst dst _ h

theorem World.Linked.CopyEntityData_linked {w w1 : World} (hinv : w.Linked) (pDst pSrc : EntityPtr)
    (h : w.CopyEntityData pDst pSrc = some w1) : w1.Linked := by
  unfold World.CopyEntityData at h
  cases hg : w.GetArchetype pSrc with
  | none => simp [hg] at h
  | some pa =>
    cases ha : w.archetype pa with
    | none => simp [hg, ha] at h
    | some a =>
      simp only [hg, ha] at h
      exact World.Linked.foldl_linked (World.copyComponent a pDst pSrc) (fun _ => rfl)
        (fun u u1 k hu hk => World.Linked.copyComponent_linked a pDst pSrc u u1 k hu hk) _ w w1
        hinv h

theorem World.Linked.migrate_linked {w w1 : World} (hinv : w.Linked) (pContext : Nat)
    (pDst : Option Nat) (pSrc p : EntityPtr)
    (h : w.migrate pContext pDst pSrc = some (w1, p)) : w1.Linked := by
  unfold World.migrate at h
  cases pDst with
  | none => simp at h
  | some pd =>
    simp only [] at h
    cases hg : w.GetEntityComponentStorage pContext pd with
    | none => simp [hg] at h
    | some r =>
      obtain ⟨w2, ps⟩ := r
      simp only [hg] at h
      cases hal : w2.Allocate ps false with
      | none => simp [hal] at h
      | some r2 =>
        obtain ⟨w3, q⟩ := r2
        simp only [hal] at h
        cases hcp : w3.CopyEntityData q pSrc with
        | none => simp [hcp] at h
        | some w4 =>
          simp only [hcp, Option.map_some', Option.some.injEq, Prod.mk.injEq] at h
          rw [← h.1]
          exact ((hinv.GetEntityComponentStorage_linked pContext pd ps hg).Allocate_linked ps false q
            hal).CopyEntityData_linked q pSrc hcp

theorem World.Linked.SetEventManager_linked {w w1 : World} (hinv : w.Linked) (pContext : Nat)
    (pEventManager : Option EventManager)
    (h : w.SetEventManager pContext pEventManager = some w1) : w1.Linked := by
  unfold World.SetEventManager at h
  cases hc : w.mEntityContexts pContext with
  | none => simp [hc] at h
  | some c =>
    simp only [hc, Option.some.injEq] at h
    rw [← h]
    exact hinv.setManager_linked pContext c pEventManager hc

theorem World.Linked.Subscrible_linked {w w1 : World} (hinv : w.Linked)
    (pContext type_id genid : Nat) (cb : EventCallbackFunction) (handle : Nat)
    (h : w.Subscrible pContext type_id genid cb = some (w1, handle)) : w1.Linked := by
  unfold World.Subscrible at h
  cases hc : w.mEntityContexts pContext with
  | none => simp [hc] at h
  | some c =>
    simp only [hc] at h
    cases hem : c.mEventManager with
    | none => simp [hem] at h
    | some em =>
      simp only [hem, Option.map_eq_some'] at h
      obtain ⟨r, _, hr⟩ := h
      simp only [Prod.mk.injEq] at hr
      rw [← hr.1]
      exact hinv.setManager_linked pContext c (some r.1) hc

theorem World.Linked.Unsubscribe_linked {w w1 : World} (hinv : w.Linked)
    (pContext handle : Nat) (h : w.Unsubscribe pContext handle = some w1) : w1.Linked := by
  unfold World.Unsubscribe at h
  cases hc : w.mEntityContexts pContext with
  | none => simp [hc] at h
  | some c =>
    simp only [hc] at h
    cases hem : c.mEventManager with
    | none => simp [hem] at h
    | some em =>
      simp only [hem, Option.map_eq_some'] at h
      obtain ⟨em1, _, hr⟩ := h
      rw [← hr]
      exact hinv.setManager_linked pContext c (some em1) hc

theorem World.Linked.UnsubscribeAll_linked {w w1 : World} (hinv : w.Linked)
    (pContext type_id : Nat) (h : w.UnsubscribeAll pContext type_id = some w1) :
    w1.Linked := by
  unfold World.UnsubscribeAll at h
  cases hc : w.mEntityContexts pContext with
  | none => simp [hc] at h
  | some c =>
    simp only [hc] at h
    cases hem : c.mEventManager with
    | none => simp [hem] at h
    | some em =>
      simp only [hem, Option.some.injEq] at h
      rw [← h]
      exact hinv.setManager_linked pContext c (some (em.UnsubscribeAll type_id)) hc

theorem World.Linked.CreateEntity_linked {w w1 : World} (hinv : w.Linked)
    (pContext pArchetype : Nat) (p : EntityPtr)
    (h : w.CreateEntity pContext pArchetype = some (w1, p)) : w1.Linked := by
  unfold World.CreateEntity at h
  cases hg : w.GetEntityComponentStorage pContext pArchetype with
  | none => simp [hg] at h
  | some r1 =>
    obtain ⟨wa, ps⟩ := r1
    simp only [hg] at h
    cases hal : wa.Allocate ps true with
    | none => simp [hal] at h
    | some r2 =>
      obtain ⟨wb, q⟩ := r2
      simp only [hal] at h
      cases ho : wb.OnEntityCreated pContext q with
      | none => simp [ho] at h
      | some wc =>
        simp only [ho, Option.map_some', Option.some.injEq, Prod.mk.injEq] at h
        rw [← h.1]
        exact ((hinv.GetEntityComponentStorage_linked pContext pArchetype ps hg).Allocate_linked ps true q
          hal).OnEntityCreated_linked pContext q ho

theorem World.Linked.CreateEntityWith_linked {w w1 : World} (hinv : w.Linked)
    (pContext pArchetype : Nat) (args : List (ComponentType × Value)) (p : EntityPtr)
    (h : w.CreateEntityWith pContext pArchetype args = some (w1, p)) : w1.Linked := by
  unfold World.CreateEntityWith at h
  cases hg : w.GetEntityComponentStorage pContext pArchetype with
  | none => simp [hg] at h
  | some r1 =>
    obtain ⟨wa, ps⟩ := r1
    simp only [hg] at h
    cases hal : wa.Allocate ps false with
    | none => simp [hal] at h
    | some r2 =>
      obtain ⟨wb, q⟩ := r2
      cases ha : wa.archetype pArchetype with
      | none => simp [hal, ha] at h
      | some a =>
        simp only [hal, ha] at h
        cases hf : List.foldl (World.constructMissing (args.map Prod.fst) a q) (some wb)
            (List.range a.mComponentCount) with
        | none => simp [hf] at h
        | some wc =>
          simp only [hf] at h
          cases hce : wc.ConstructEntity q args with
          | none => simp [hce] at h
          | some wd =>
            simp only [hce] at h
            cases ho : wd.OnEntityCreated pContext q with
            | none => simp [ho] at h
            | some we =>
              simp only [ho, Option.map_some', Option.some.injEq, Prod.mk.injEq] at h
              rw [← h.1]
              have hb := (hinv.GetEntityComponentStorage_linked pContext pArchetype ps hg).Allocate_linked
                ps false q hal
              have hcI := World.Linked.foldl_linked
                (World.constructMissing (args.map Prod.fst) a q) (fun _ => rfl)
                (fun u u1 k hu hk =>
                  World.Linked.constructMissing_linked (args.map Prod.fst) a q u u1 k hu hk)
                _ wb wc hb hf
              exact (World.Linked.ConstructEntity_linked q args wc wd hcI hce).OnEntityCreated_linked
                pContext q ho

theorem World.Linked.Release_linked {w w1 : World} (hinv : w.Linked) (e : EntityPtr)
    (hlive : w.Live e) (h : w.Release e = some w1) : w1.Linked := by
  obtain ⟨hctx, s, hs, hch, hbl, hv⟩ := hlive
  have hs1 : w.storage e.mStorage = some s := hs
  unfold World.Release at h
  rw [hs1] at h
  simp only [hv, Bool.not_true, Bool.false_eq_true, if_false] at h
  cases ho : w.OnEntityDeleted s.mContext e with
  | none => simp [ho] at h
  | some wa =>
    simp only [ho] at h
    unfold World.OnEntityDeleted at ho
    cases hh : w.header e with
    | none => simp [hh] at ho
    | some hd =>
      simp only [hh] at ho
      obtain ⟨_, _, hlive⟩ := w.TriggerEvent_triggered wa s.mContext _ ho
      have hwa := hinv.TriggerEvent_linked s.mContext _ ho
      obtain ⟨_, s1, hs1', hch1, hbl1, hv1⟩ := (hlive e).mpr ⟨hctx, s, hs, hch, hbl, hv⟩
      simp only [Option.mem_def] at hs1'
      rw [hs1'] at h
      simp only [] at h
      cases hd2 : s1.Deallocate e true with
      | none => simp [hd2] at h
      | some t =>
        simp only [hd2, Option.map_some', Option.some.injEq] at h
        rw [← h]
        apply hwa.setStorage_linked e.mStorage s1 t hs1'
        intro _ hsinv _
        have hbl2 : e.mBlockIndex < s1.mEntityCountPerChunk := by
          obtain ⟨_, _, _, hchunks, _⟩ := hsinv
          obtain ⟨_, _, _, _, hbc, _⟩ := hchunks _ hch1
          rw [← hbc]
          exact hbl1
        obtain ⟨t2, ht2, htinv, hrel⟩ := s1.Deallocate_spec e true hsinv hch1 hbl2 hv1
        rw [hd2] at ht2
        simp only [Option.some.injEq] at ht2
        subst ht2
        exact ⟨htinv, hrel.mContext, hrel.mIndex, hrel.mArchetype,
          hrel.mComponentCountPerEntity⟩

theorem World.Linked.Clone_linked {w w1 : World} (hinv : w.Linked) (e p : EntityPtr)
    (h : w.Clone e = some (w1, p)) : w1.Linked := by
  unfold World.Clone World.CloneEntity at h
  cases hs : w.storage e.mStorage with
  | none => simp [hs] at h
  | some s =>
    simp only [hs] at h
    by_cases hne : w.GetArchetype e ≠ some s.mArchetype
    · rw [if_pos hne] at h
      cases h
    · rw [if_neg hne] at h
      cases hal : w.Allocate e.mStorage false with
      | none => simp [hal] at h
      | some r =>
        obtain ⟨wa, q⟩ := r
        simp only [hal, Option.map_eq_some'] at h
        obtain ⟨x, hx, hxe⟩ := h
        simp only [Prod.mk.injEq] at hxe
        rw [← hxe.1]
        exact World.Linked.foldl_linked (World.cloneComponent q e) (fun _ => rfl)
          (fun u u1 k hu hk => World.Linked.cloneComponent_linked q e u u1 k hu hk) _ wa x
          (hinv.Allocate_linked e.mStorage false q hal) hx

/-! ### The catalog and the contexts -/

theorem EntityArchetypeManager.construct_extends (mgr mgr0 mgr1 : EntityArchetypeManager)
    (id : Nat) (metaMap : ComponentMetaMap) (r : Nat)
    (h1 : mgr0.objects = mgr.objects) (h2 : mgr0.mArchetypesMap = mgr.mArchetypesMap)
    (hnew : umapFind mgr0.mArchetypesMap id = none)
    (h : mgr0.construct id metaMap = some (mgr1, r)) : mgr.Extends mgr1 := by
  unfold EntityArchetypeManager.construct at h
  cases hn : EntityArchetype.new id metaMap with
  | none => simp [hn] at h
  | some a0 =>
    simp only [hn, Option.some.injEq, Prod.mk.injEq] at h
    rw [← h.1]
    unfold EntityArchetype.new at hn
    by_cases hlen : metaMap.length ≤ MAX_COMPONENT_COUNT_PER_ENTITY
    · rw [if_pos hlen] at hn
      simp only [Option.some.injEq] at hn
      obtain ⟨g1, _, _, g4, _⟩ :=
        EntityArchetype.fill_spec metaMap 0 0 (EntityArchetype.init id metaMap) rfl
      rw [hn] at g1 g4
      have hid : a0.mArchetypeId = id := g1
      have hst : a0.mStoragesInContext = fun _ => none := g4
      right
      refine ⟨a0, ?_, ?_, ?_, hst⟩
      · simp only [h1]
      · simp only [h1, h2, hid]
      · rw [hid, ← h2]
        exact hnew
    · rw [if_neg hlen] at hn
      cases hn

theorem EntityArchetypeManager.CreateArchetype_extends (mgr mgr1 : EntityArchetypeManager)
    (args : ArchetypeArgs) (r : Nat) (h : mgr.CreateArchetype args = some (mgr1, r)) :
    mgr.Extends mgr1 := by
  have key : ∀ Ts : List ComponentType,
      (match umapFind mgr.mArchetypesMap (sum_component_hashcodes Ts) with
        | some p => some (mgr, p)
        | none =>
          (GetComponentsMetaHelperClass.Call Ts mgr []).1.construct (sum_component_hashcodes Ts)
            (GetComponentsMetaHelperClass.Call Ts mgr []).2) = some (mgr1, r) →
      mgr.Extends mgr1 := by
    intro Ts h
    cases hf : umapFind mgr.mArchetypesMap (sum_component_hashcodes Ts) with
    | some q =>
      simp only [hf, Option.some.injEq, Prod.mk.injEq] at h
      rw [← h.1]
      exact Or.inl ⟨rfl, rfl⟩
    | none =>
      simp only [hf] at h
      exact EntityArchetypeManager.construct_extends mgr _ mgr1 _ _ r
        (Call_objects Ts mgr []).1 (Call_objects Ts mgr []).2
        (by rw [(Call_objects Ts mgr []).2]; exact hf) h
  cases args with
  | components Ts => exact key Ts h
  | entityClass Ts => exact key Ts h

theorem EntityArchetypeManager.AddComponents_extends (mgr mgr1 : EntityArchetypeManager)
    (Ts : List ComponentType) (pArchetype : Nat) (r : Option Nat)
    (h : mgr.AddComponents Ts pArchetype = some (mgr1, r)) : mgr.Extends mgr1 := by
  unfold EntityArchetypeManager.AddComponents at h
  cases ho : mgr.objects[pArchetype]? with
  | none => simp [ho] at h
  | some a0 =>
    simp only [ho] at h
    have hcall := Call_objects Ts mgr a0.mComponentMetaMap
    by_cases hlen : (GetComponentsMetaHelperClass.Call Ts mgr a0.mComponentMetaMap).2.length
        = a0.mComponentMetaMap.length
    · rw [if_pos hlen] at h
      simp only [Option.some.injEq, Prod.mk.injEq] at h
      rw [← h.1]
      exact Or.inl hcall
    · rw [if_neg hlen] at h
      cases hf : umapFind
          (GetComponentsMetaHelperClass.Call Ts mgr a0.mComponentMetaMap).1.mArchetypesMap
          (GetArchetypeIDFromComponentMetaMap
            (GetComponentsMetaHelperClass.Call Ts mgr a0.mComponentMetaMap).2) with
      | some q =>
        simp only [hf, Option.some.injEq, Prod.mk.injEq] at h
        rw [← h.1]
        exact Or.inl hcall
      | none =>
        simp only [hf, Option.map_eq_some'] at h
        obtain ⟨x, hx, hxe⟩ := h
        simp only [Prod.mk.injEq] at hxe
        rw [← hxe.1]
        exact EntityArchetypeManager.construct_extends mgr _ x.1 _ _ x.2 hcall.1 hcall.2 hf hx

theorem EntityArchetypeManager.RemoveComponents_extends (mgr mgr1 : EntityArchetypeManager)
    (Ts : List ComponentType) (pArchetype : Nat) (r : Option Nat)
    (h : mgr.RemoveComponents Ts pArchetype = some (mgr1, r)) : mgr.Extends mgr1 := by
  unfold EntityArchetypeManager.RemoveComponents at h
  cases ho : mgr.objects[pArchetype]? with
  | none => simp [ho] at h
  | some a0 =>
    simp only [ho] at h
    by_cases hlen : (RemoveComponentsFromMetaMap.Call Ts a0.mComponentMetaMap).length
        = a0.mComponentMetaMap.length
    · rw [if_pos hlen] at h
      simp only [Option.some.injEq, Prod.mk.injEq] at h
      rw [← h.1]
      exact Or.inl ⟨rfl, rfl⟩
    · rw [if_neg hlen] at h
      cases hf : umapFind mgr.mArchetypesMap
          (GetArchetypeIDFromComponentMetaMap
            (RemoveComponentsFromMetaMap.Call Ts a0.mComponentMetaMap)) with
      | some q =>
        simp only [hf, Option.some.injEq, Prod.mk.injEq] at h
        rw [← h.1]
        exact Or.inl ⟨rfl, rfl⟩
      | none =>
        simp only [hf, Option.map_eq_some'] at h
        obtain ⟨x, hx, hxe⟩ := h
        simp only [Prod.mk.injEq] at hxe
        rw [← hxe.1]
        exact EntityArchetypeManager.construct_extends mgr mgr x.1 _ _ x.2 rfl rfl hf hx

/-- A call of the catalog keeps the invariant `Linked`. -/
theorem World.Linked.catalog {w : World} (hinv : w.Linked) (mgr : EntityArchetypeManager)
    (hext : w.mArchetypeManager.Extends mgr) :
    World.Linked { w with mArchetypeManager := mgr } := by
  have hobj : ∀ (p : Nat) (a : EntityArchetype),
      w.mArchetypeManager.objects[p]? = some a → mgr.objects[p]? = some a := by
    intro p a ha
    rcases hext with ⟨h1, _⟩ | ⟨aNew, h1, _⟩
    · rw [h1]
      exact ha
    · have hlt : p < w.mArchetypeManager.objects.length := by
        by_contra hge
        rw [List.getElem?_eq_none (by omega)] at ha
        cases ha
      rw [h1, List.getElem?_append_left hlt]
      exact ha
  refine ⟨hinv.1.manager mgr hobj, ?_⟩
  obtain ⟨hzero, ⟨hcat1, hcat2⟩, hback, hlink⟩ := hinv.2
  have hstor : ∀ q, World.storage { w with mArchetypeManager := mgr } q = w.storage q :=
    fun _ => rfl
  rcases hext with ⟨h1, h2⟩ | ⟨aNew, h1, h2, hnew, hst⟩
  · refine ⟨hzero, ?_, ?_, ?_⟩
    · unfold World.InvCatalog
      simp only [h1, h2]
      exact ⟨hcat1, hcat2⟩
    · intro p a ha
      simp only [h1] at ha
      exact hback p a ha
    · intro i hi j s hs
      simp only [h1]
      exact hlink i hi j s hs
  · have hmap : mgr.mArchetypesMap
        = w.mArchetypeManager.mArchetypesMap
          ++ [(aNew.mArchetypeId, w.mArchetypeManager.objects.length)] := by
      rw [h2]
      unfold umapInsert
      rw [hnew]
    have hnotin : aNew.mArchetypeId ∉ w.mArchetypeManager.mArchetypesMap.map Prod.fst := by
      intro hin
      rw [List.mem_map] at hin
      obtain ⟨e, he, heq⟩ := hin
      unfold umapFind at hnew
      simp only [Option.map_eq_none', List.find?_eq_none] at hnew
      exact hnew e he (by simp [heq])
    refine ⟨hzero, ⟨?_, ?_⟩, ?_, ?_⟩
    · intro e he
      simp only [hmap, List.mem_append, List.mem_singleton] at he
      simp only [h1]
      rcases he with he | he
      · obtain ⟨g1, g2⟩ := hcat1 e he
        refine ⟨by rw [List.length_append]; omega, ?_⟩
        intro a hmem
        rw [List.getElem?_append_left g1] at hmem
        exact g2 a hmem
      · subst he
        refine ⟨by simp, ?_⟩
        intro a hmem
        simp only [List.getElem?_concat_length, Option.mem_def, Option.some.injEq] at hmem
        rw [← hmem]
    · simp only [hmap, List.map_append, List.map_cons, List.map_nil]
      rw [List.nodup_append]
      refine ⟨hcat2, List.nodup_singleton _, ?_⟩
      intro x hx hx2
      rw [List.mem_singleton] at hx2
      exact hnotin (hx2 ▸ hx)
    · intro p a ha
      simp only [h1] at ha
      by_cases hlt : p < w.mArchetypeManager.objects.length
      · rw [List.getElem?_append_left hlt] at ha
        exact hback p a ha
      · by_cases hpe : p = w.mArchetypeManager.objects.length
        · subst hpe
          simp only [List.getElem?_concat_length, Option.some.injEq] at ha
          subst ha
          intro i _ j hj
          rw [hst] at hj
          cases hj
        · rw [List.getElem?_eq_none (by simp; omega)] at ha
          cases ha
    · intro i hi j s hs
      obtain ⟨a, ha, hal⟩ := hlink i hi j s hs
      exact ⟨a, hobj _ a ha, hal⟩

/-- The loop of `ReleaseContext` over the storages of the context `cid`: an archetype
object keeps its identity and its back-references to other contexts, its
back-reference to `cid` is cleared or kept, and it is cleared for the archetype of
every storage of the loop. -/
theorem ReleaseContext_loop
    (step : Option (List EntityArchetype) → EntityComponentStorage →
      Option (List EntityArchetype))
    (cid : Nat) (hnone : ∀ s, step none s = none)
    (hsome : ∀ objects s, step (some objects) s
      = (objects[s.mArchetype]?).map (fun a =>
          objects.set s.mArchetype
            { a with mStoragesInContext := setAt a.mStoragesInContext cid none }))
    (l : List EntityComponentStorage) :
    ∀ (objects objects1 : List EntityArchetype),
      List.foldl step (some objects) l = some objects1 →
      objects1.length = objects.length
        ∧ (∀ (p : Nat) (a : EntityArchetype), objects[p]? = some a →
            ∃ a1 : EntityArchetype, objects1[p]? = some a1
              ∧ a1 = { a with mStoragesInContext := a1.mStoragesInContext }
              ∧ (∀ i, i ≠ cid → a1.mStoragesInContext i = a.mStoragesInContext i)
              ∧ (a1.mStoragesInContext cid = none
                ∨ a1.mStoragesInContext cid = a.mStoragesInContext cid))
        ∧ ∀ s, s ∈ l → ∀ a1 : EntityArchetype, objects1[s.mArchetype]? = some a1 →
            a1.mStoragesInContext cid = none := by
  have hn : ∀ l2 : List EntityComponentStorage, List.foldl step none l2 = none := by
    intro l2
    induction l2 with
    | nil => rfl
    | cons x l3 ih3 => rw [List.foldl_cons, hnone, ih3]
  induction l with
  | nil =>
    intro objects objects1 h
    simp only [List.foldl_nil, Option.some.injEq] at h
    rw [← h]
    refine ⟨rfl, ?_, ?_⟩
    · intro p a ha
      exact ⟨a, ha, rfl, fun _ _ => rfl, Or.inr rfl⟩
    · intro s hs
      cases hs
  | cons s rest ih =>
    intro objects objects1 h
    rw [List.foldl_cons, hsome] at h
    cases ho : objects[s.mArchetype]? with
    | none =>
      rw [ho, Option.map_none', hn] at h
      cases h
    | some a0 =>
      rw [ho, Option.map_some'] at h
      have hlt : s.mArchetype < objects.length := by
        by_contra hge
        rw [List.getElem?_eq_none (by omega)] at ho
        cases ho
      obtain ⟨g1, g2, g3⟩ := ih _ objects1 h
      refine ⟨by rw [g1, List.length_set], ?_, ?_⟩
      · intro p a ha
        by_cases hp : p = s.mArchetype
        · subst hp
          rw [ho] at ha
          simp only [Option.some.injEq] at ha
          subst ha
          obtain ⟨a1, k1, k2, k4, k5⟩ := g2 s.mArchetype _ (List.getElem?_set_self hlt)
          refine ⟨a1, k1, k2, ?_, ?_⟩
          · intro i hi
            rw [k4 i hi]
            simp only [setAt, if_neg hi]
          · left
            rcases k5 with k5 | k5
            · exact k5
            · rw [k5]
              simp only [setAt, if_true]
        · have hne : s.mArchetype ≠ p := fun e => hp e.symm
          exact g2 p a (by rw [List.getElem?_set_ne hne]; exact ha)
      · intro s2 hs2 a1 ha1
        rcases List.mem_cons.mp hs2 with hs2 | hs2
        · rw [hs2] at ha1
          obtain ⟨a2, k1, _, _, k5⟩ := g2 s.mArchetype _ (List.getElem?_set_self hlt)
          rw [k1] at ha1
          simp only [Option.some.injEq] at ha1
          subst ha1
          rcases k5 with k5 | k5
          · exact k5
          · rw [k5]
            simp only [setAt, if_true]
        · exact g3 s2 hs2 a1 ha1

theorem World.Linked.CreateContext_linked {w w1 : World} (hinv : w.Linked) (id : Nat)
    (h : w.CreateContext = some (w1, id)) : w1.Linked := by
  refine ⟨hinv.1.CreateContext id h, ?_⟩
  unfold World.CreateContext at h
  cases hf : w.FindAvaibableContextId with
  | none => simp [hf] at h
  | some k =>
    simp only [hf, Option.some.injEq, Prod.mk.injEq] at h
    rw [← h.1]
    unfold World.FindAvaibableContextId at hf
    have hk : k < MAX_CONTEXT_COUNT := List.mem_range.mp (List.mem_of_find?_eq_some hf)
    have hfree : w.mEntityContexts k = none := by
      have := List.find?_some hf
      simp only [Option.isNone_iff_eq_none] at this
      exact this
    apply hinv.2.frame_links
    · intro i hi
      have hne : i ≠ k := by omega
      simp only [setAt, if_neg hne]
      exact hinv.2.1 i hi
    · rfl
    · intro q
      unfold World.storage
      by_cases hq : q.mContext = k
      · simp only [setAt, hq, if_true, hfree]
        simp
      · simp only [setAt, if_neg hq]

theorem World.Linked.ReleaseContext_linked {w w1 : World} (hinv : w.Linked) (pContext : Nat)
    (h : w.ReleaseContext pContext = some w1) : w1.Linked := by
  refine ⟨hinv.1.ReleaseContext pContext h, ?_⟩
  unfold World.ReleaseContext at h
  cases hc : w.mEntityContexts pContext with
  | none => simp [hc] at h
  | some c =>
    simp only [hc] at h
    obtain ⟨hzero, ⟨hcat1, hcat2⟩, hback, hlink⟩ := hinv.2
    have hp : pContext < MAX_CONTEXT_COUNT := by
      by_contra hge
      rw [hzero pContext (by omega)] at hc
      cases hc
    obtain ⟨hcid, _, _⟩ := hinv.1 _ hp c hc
    split at h
    · cases h
    · rename_i objects1 hf
      simp only [Option.some.injEq] at h
      rw [← h]
      obtain ⟨g1, g2, g3⟩ := ReleaseContext_loop _ c.mContextId (fun _ => rfl)
        (fun objects s => by
          dsimp only
          split <;> rename_i ho <;> rw [ho] <;> rfl)
        c.mEntityComponentStorageList _ objects1 hf
      rw [hcid] at g2 g3
      have hback1 : ∀ (p : Nat) (a1 : EntityArchetype), objects1[p]? = some a1 →
          ∃ a, w.mArchetypeManager.objects[p]? = some a
            ∧ a1.mArchetypeId = a.mArchetypeId
            ∧ (∀ i, i ≠ pContext → a1.mStoragesInContext i = a.mStoragesInContext i)
            ∧ (a1.mStoragesInContext pContext = none
              ∨ a1.mStoragesInContext pContext = a.mStoragesInContext pContext) := by
        intro p a1 ha1
        have hlt : p < w.mArchetypeManager.objects.length := by
          by_contra hge
          rw [List.getElem?_eq_none (by omega)] at ha1
          cases ha1
        obtain ⟨a2, k1, k2, k4, k5⟩ := g2 p _ (List.getElem?_eq_getElem hlt)
        rw [k1] at ha1
        simp only [Option.some.injEq] at ha1
        subst ha1
        exact ⟨_, List.getElem?_eq_getElem hlt, by rw [k2], k4, k5⟩
      have hstor : ∀ i, i ≠ pContext → ∀ j,
          World.storage
              { mArchetypeManager := { w.mArchetypeManager with objects := objects1 }
                mEntityContexts := setAt (setAt w.mEntityContexts c.mContextId none)
                  pContext none }
              { mContext := i, mIndex := j }
            = w.storage { mContext := i, mIndex := j } := by
        intro i hi j
        unfold World.storage
        simp only [setAt, hcid, if_neg hi]
      have hgone : ∀ j,
          World.storage
              { mArchetypeManager := { w.mArchetypeManager with objects := objects1 }
                mEntityContexts := setAt (setAt w.mEntityContexts c.mContextId none)
                  pContext none }
              { mContext := pContext, mIndex := j } = none := by
        intro j
        unfold World.storage
        simp only [setAt, if_true]
      refine ⟨?_, ⟨?_, hcat2⟩, ?_, ?_⟩
      · intro i hi
        simp only [setAt]
        by_cases h1 : i = pContext
        · rw [if_pos h1]
        · rw [if_neg h1]
          by_cases h2 : i = c.mContextId
          · rw [if_pos h2]
          · rw [if_neg h2]
            exact hzero i hi
      · intro e he
        obtain ⟨k1, k2⟩ := hcat1 e he
        refine ⟨by simp only [g1]; exact k1, ?_⟩
        intro a1 ha1
        obtain ⟨a, ha, hid, _⟩ := hback1 e.2 a1 (Option.mem_def.mp ha1)
        rw [hid]
        exact k2 a ha
      · intro p a1 ha1 i hi j hj
        obtain ⟨a, ha, _, hother, hself⟩ := hback1 p a1 ha1
        simp only [Option.mem_def] at hj
        by_cases hip : i = pContext
        · subst hip
          rcases hself with hself | hself
          · rw [hself] at hj
            cases hj
          · rw [hself] at hj
            obtain ⟨s, hs, hsa⟩ := hback p a ha i hi j hj
            have hs2 : w.storage { mContext := i, mIndex := j } = some s := hs
            unfold World.storage at hs2
            simp only [hc] at hs2
            have hmem : s ∈ c.mEntityComponentStorageList := by
              have hlt : j < c.mEntityComponentStorageList.length := by
                by_contra hge
                rw [List.getElem?_eq_none (by omega)] at hs2
                cases hs2
              rw [List.getElem?_eq_getElem hlt] at hs2
              simp only [Option.some.injEq] at hs2
              rw [← hs2]
              exact List.getElem_mem _
            have hcl := g3 s hmem a1 (by rw [hsa]; exact ha1)
            rw [hself, hj] at hcl
            cases hcl
        · rw [hother i hip] at hj
          obtain ⟨s, hs, hsa⟩ := hback p a ha i hi j hj
          exact ⟨s, by rw [Option.mem_def, hstor i hip j]; exact hs, hsa⟩
      · intro i hi j s hs
        by_cases hip : i = pContext
        · rw [hip, hgone j] at hs
          cases hs
        · rw [hstor i hip j] at hs
          obtain ⟨a, ha, hal⟩ := hlink i hi j s hs
          obtain ⟨a1, k1, _, k4, _⟩ := g2 _ a ha
          exact ⟨a1, k1, by rw [k4 i hip]; exact hal⟩

/-! ### The calls keep the links -/

theorem World.Linked.CreateArchetype_linked {w w1 : World} (hinv : w.Linked)
    (args : ArchetypeArgs) (r : Nat) (h : w.CreateArchetype args = some (w1, r)) :
    w1.Linked := by
  unfold World.CreateArchetype at h
  simp only [Option.map_eq_some'] at h
  obtain ⟨x, hx, hxe⟩ := h
  simp only [Prod.mk.injEq] at hxe
  rw [← hxe.1]
  exact hinv.catalog x.1 (EntityArchetypeManager.CreateArchetype_extends _ _ args x.2 hx)

theorem World.Linked.ExtendEntityWith_linked {w w1 : World} (hinv : w.Linked)
    (pContext : Nat) (pSrc : EntityPtr) (args : List (ComponentType × Value))
    (r : Option EntityPtr)
    (h : w.ExtendEntityWith pContext pSrc args = some (w1, r)) : w1.Linked := by
  unfold World.ExtendEntityWith at h
  cases hga : w.GetArchetype pSrc with
  | none => simp [hga] at h
  | some pa =>
    cases ha : w.archetype pa with
    | none => simp [hga, ha] at h
    | some a =>
      simp only [hga, ha] at h
      by_cases hany : a.ContainAnyComponents (args.map Prod.fst) = true
      · rw [if_pos hany] at h
        simp only [Option.some.injEq, Prod.mk.injEq] at h
        rw [← h.1]
        exact hinv
      · rw [if_neg hany] at h
        cases hadd : w.mArchetypeManager.AddComponents (args.map Prod.fst) pa with
        | none => simp [hadd] at h
        | some r1 =>
          obtain ⟨mgr, pd⟩ := r1
          simp only [hadd] at h
          cases hm : World.migrate { w with mArchetypeManager := mgr } pContext pd pSrc with
          | none => simp [hm] at h
          | some r2 =>
            obtain ⟨wc, q⟩ := r2
            simp only [hm] at h
            cases hce : wc.ConstructEntity q args with
            | none => simp [hce] at h
            | some wd =>
              simp only [hce] at h
              cases ho : wd.OnEntityCreated pContext q with
              | none => simp [ho] at h
              | some we =>
                simp only [ho, Option.map_some', Option.some.injEq, Prod.mk.injEq] at h
                rw [← h.1]
                have hm1 := hinv.catalog mgr
                  (EntityArchetypeManager.AddComponents_extends _ _ _ _ _ hadd)
                exact (World.Linked.ConstructEntity_linked q args wc wd
                  (hm1.migrate_linked pContext pd pSrc q hm) hce).OnEntityCreated_linked pContext q ho

theorem World.Linked.ExtendEntity_linked {w w1 : World} (hinv : w.Linked)
    (pContext : Nat) (pSrc : EntityPtr) (Ts : List ComponentType) (r : Option EntityPtr)
    (h : w.ExtendEntity pContext pSrc Ts = some (w1, r)) : w1.Linked := by
  unfold World.ExtendEntity at h
  cases hga : w.GetArchetype pSrc with
  | none => simp [hga] at h
  | some pa =>
    cases ha : w.archetype pa with
    | none => simp [hga, ha] at h
    | some a =>
      simp only [hga, ha] at h
      by_cases hany : a.ContainAnyComponents Ts = true
      · rw [if_pos hany] at h
        simp only [Option.some.injEq, Prod.mk.injEq] at h
        rw [← h.1]
        exact hinv
      · rw [if_neg hany] at h
        cases hadd : w.mArchetypeManager.AddComponents Ts pa with
        | none => simp [hadd] at h
        | some r1 =>
          obtain ⟨mgr, pd⟩ := r1
          simp only [hadd] at h
          cases hm : World.migrate { w with mArchetypeManager := mgr } pContext pd pSrc with
          | none => simp [hm] at h
          | some r2 =>
            obtain ⟨wc, q⟩ := r2
            simp only [hm] at h
            cases hce : wc.ConstructEntityDefault q Ts with
            | none => simp [hce] at h
            | some wd =>
              simp only [hce] at h
              cases ho : wd.OnEntityCreated pContext q with
              | none => simp [ho] at h
              | some we =>
                simp only [ho, Option.map_some', Option.some.injEq, Prod.mk.injEq] at h
                rw [← h.1]
                have hm1 := hinv.catalog mgr
                  (EntityArchetypeManager.AddComponents_extends _ _ _ _ _ hadd)
                exact (World.Linked.ConstructEntityDefault_linked q Ts wc wd
                  (hm1.migrate_linked pContext pd pSrc q hm) hce).OnEntityCreated_linked pContext q ho

theorem World.Linked.RemoveComponentsFromEntity_linked {w w1 : World} (hinv : w.Linked)
    (pContext : Nat) (pSrc : EntityPtr) (Ts : List ComponentType) (r : Option EntityPtr)
    (h : w.RemoveComponentsFromEntity pContext pSrc Ts = some (w1, r)) : w1.Linked := by
  unfold World.RemoveComponentsFromEntity at h
  cases hga : w.GetArchetype pSrc with
  | none => simp [hga] at h
  | some pa =>
    cases ha : w.archetype pa with
    | none => simp [hga, ha] at h
    | some a =>
      simp only [hga, ha] at h
      by_cases hall : (!a.ContainAllComponents Ts) = true
      · rw [if_pos hall] at h
        simp only [Option.some.injEq, Prod.mk.injEq] at h
        rw [← h.1]
        exact hinv
      · rw [if_neg hall] at h
        cases hrem : w.mArchetypeManager.RemoveComponents Ts pa with
        | none => simp [hrem] at h
        | some r1 =>
          obtain ⟨mgr, pd⟩ := r1
          simp only [hrem] at h
          cases hm : World.migrate { w with mArchetypeManager := mgr } pContext pd pSrc with
          | none => simp [hm] at h
          | some r2 =>
            obtain ⟨wc, q⟩ := r2
            simp only [hm] at h
            cases ho : wc.OnEntityCreated pContext q with
            | none => simp [ho] at h
            | some we =>
              simp only [ho, Option.map_some', Option.some.injEq, Prod.mk.injEq] at h
              rw [← h.1]
              have hm1 := hinv.catalog mgr
                (EntityArchetypeManager.RemoveComponents_extends _ _ _ _ _ hrem)
              exact (hm1.migrate_linked pContext pd pSrc q hm).OnEntityCreated_linked pContext q ho

/-- Every call keeps `Linked`. -/
theorem World.Linked.call_linked {w w1 : World} (hinv : w.Linked) (op : WorldOp)
    (h : w.call op = some w1) : w1.Linked := by
  cases op with
  | createContext =>
    simp only [World.call, Option.map_eq_some'] at h
    obtain ⟨x, hx, hxe⟩ := h
    rw [← hxe]
    exact hinv.CreateContext_linked x.2 hx
  | releaseContext pContext => exact hinv.ReleaseContext_linked pContext h
  | setEventManager pContext pEventManager =>
    exact hinv.SetEventManager_linked pContext pEventManager h
  | subscrible pContext type_id genid cb =>
    simp only [World.call, Option.map_eq_some'] at h
    obtain ⟨x, hx, hxe⟩ := h
    rw [← hxe]
    exact hinv.Subscrible_linked pContext type_id genid cb x.2 hx
  | unsubscribe pContext handle => exact hinv.Unsubscribe_linked pContext handle h
  | unsubscribeAll pContext type_id => exact hinv.UnsubscribeAll_linked pContext type_id h
  | createArchetype args =>
    simp only [World.call, Option.map_eq_some'] at h
    obtain ⟨x, hx, hxe⟩ := h
    rw [← hxe]
    exact hinv.CreateArchetype_linked args x.2 hx
  | createEntity pContext pArchetype =>
    simp only [World.call, Option.map_eq_some'] at h
    obtain ⟨x, hx, hxe⟩ := h
    rw [← hxe]
    exact hinv.CreateEntity_linked pContext pArchetype x.2 hx
  | createEntityWith pContext pArchetype args =>
    simp only [World.call, Option.map_eq_some'] at h
    obtain ⟨x, hx, hxe⟩ := h
    rw [← hxe]
    exact hinv.CreateEntityWith_linked pContext pArchetype args x.2 hx
  | extendEntity pContext pSrc Ts =>
    simp only [World.call] at h
    by_cases hl : w.Live pSrc
    · rw [if_pos hl] at h
      simp only [Option.map_eq_some'] at h
      obtain ⟨x, hx, hxe⟩ := h
      rw [← hxe]
      exact hinv.ExtendEntity_linked pContext pSrc Ts x.2 hx
    · rw [if_neg hl] at h
      cases h
  | extendEntityWith pContext pSrc args =>
    simp only [World.call] at h
    by_cases hl : w.Live pSrc
    · rw [if_pos hl] at h
      simp only [Option.map_eq_some'] at h
      obtain ⟨x, hx, hxe⟩ := h
      rw [← hxe]
      exact hinv.ExtendEntityWith_linked pContext pSrc args x.2 hx
    · rw [if_neg hl] at h
      cases h
  | removeComponentsFromEntity pContext pSrc Ts =>
    simp only [World.call] at h
    by_cases hl : w.Live pSrc
    · rw [if_pos hl] at h
      simp only [Option.map_eq_some'] at h
      obtain ⟨x, hx, hxe⟩ := h
      rw [← hxe]
      exact hinv.RemoveComponentsFromEntity_linked pContext pSrc Ts x.2 hx
    · rw [if_neg hl] at h
      cases h
  | release e =>
    simp only [World.call] at h
    by_cases hl : w.Live e
    · rw [if_pos hl] at h
      exact hinv.Release_linked e hl h
    · rw [if_neg hl] at h
      cases h
  | setComponent e T data =>
    simp only [World.call] at h
    by_cases hl : w.Live e
    · rw [if_pos hl] at h
      simp only [Option.map_eq_some'] at h
      obtain ⟨x, hx, hxe⟩ := h
      rw [← hxe]
      exact hinv.SetComponent_linked e T data x.2 hx
    · rw [if_neg hl] at h
      cases h
  | clone e =>
    simp only [World.call] at h
    by_cases hl : w.Live e
    · rw [if_pos hl] at h
      simp only [Option.map_eq_some'] at h
      obtain ⟨x, hx, hxe⟩ := h
      rw [← hxe]
      exact hinv.Clone_linked e x.2 hx
    · rw [if_neg hl] at h
      cases h

/-- Every sequence of calls keeps `Linked`. -/
theorem World.Linked.run_linked (ops : List WorldOp) :
    ∀ (w w1 : World), w.Linked → World.run ops w = some w1 → w1.Linked := by
  induction ops with
  | nil =>
    intro w w1 hinv h
    simp only [World.run, Option.some.injEq] at h
    rw [← h]
    exact hinv
  | cons op rest ih =>
    intro w w1 hinv h
    simp only [World.run] at h
    cases hc : w.call op with
    | none => simp [hc] at h
    | some w2 =>
      simp only [hc] at h
      exact ih w2 w1 (hinv.call_linked op hc) h

/-- A linked world whose archetype objects have consistent tables satisfies the
invariant. -/
theorem World.Linked.Inv {w : World} (hinv : w.Linked)
    (htables : ∀ p a, w.archetype p = some a → a.Inv) : w.Inv := by
  obtain ⟨hslots, _, hcat, hback, hlink⟩ := hinv
  refine ⟨hcat, ?_, ?_⟩
  · intro p _ a ha
    exact ⟨htables p a ha, hback p a ha⟩
  · intro i hi c hc
    obtain ⟨h1, h2, h3⟩ := hslots i hi c hc
    refine ⟨h1, h2, ?_⟩
    intro j hj s hs
    obtain ⟨g1, g2, g3, a, ha, g4⟩ := h3 j hj s hs
    have hst : w.storage { mContext := i, mIndex := j } = some s :=
      (w.storage_eq_some_iff _ s).mpr ⟨c, hc, hs⟩
    obtain ⟨b, hb, hbl⟩ := hlink i hi j s hst
    rw [Option.mem_def, hb] at ha
    simp only [Option.some.injEq] at ha
    subst ha
    exact ⟨g1, g2, g3, b, hb, hbl, g4⟩

/-- A world that satisfies the invariant is linked when its contexts sit in the
slots below `MAX_CONTEXT_COUNT`. -/
theorem World.Linked.of_Inv_linked {w : World} (hinv : w.Inv)
    (hzero : ∀ i, MAX_CONTEXT_COUNT ≤ i → w.mEntityContexts i = none) : w.Linked := by
  refine ⟨World.InvSlots.of_Inv hinv, hzero, hinv.1, ?_, ?_⟩
  · intro p a ha
    have hlt : p < w.mArchetypeManager.objects.length := by
      by_contra hge
      rw [List.getElem?_eq_none (by omega)] at ha
      cases ha
    exact (hinv.2.1 p hlt a ha).2
  · intro i hi j s hs
    obtain ⟨c, hc, hlist⟩ := (w.storage_eq_some_iff _ s).mp hs
    simp only [] at hc hlist
    have hlt : j < c.mEntityComponentStorageList.length := by
      by_contra hge
      rw [List.getElem?_eq_none (by omega)] at hlist
      cases hlist
    obtain ⟨_, _, h3⟩ := hinv.2.2 i hi c hc
    obtain ⟨_, _, _, a, ha, hal, _⟩ := h3 j hlt s hlist
    exact ⟨a, ha, hal⟩

/-- In every world that a sequence of calls leaves of the empty world, whatever
classes, pointers and callbacks the calls are given, the invariant holds as soon as
the tables of the archetype objects are consistent. -/
theorem World.Inv_of_run (ops : List WorldOp) (w : World)
    (hrun : World.new.run ops = some w)
    (htables : ∀ p a, w.archetype p = some a → a.Inv) : w.Inv :=
  (World.Linked.run_linked ops World.new w World.new_Linked hrun).Inv htables

/-! ### The tables of the archetype objects -/

theorem World.new_Tabled (L : List ComponentType)
    (hL : ∀ T, T ∈ L → ∀ U, U ∈ L → T.hashCode = U.hashCode → T.meta = U.meta) :
    World.new.Tabled L := by
  refine ⟨⟨?_, hL⟩, ?_⟩
  · intro T _ m hm
    cases hm
  · intro p a ha
    cases ha

/-- The tables only read the catalog. -/
theorem World.Tabled.frame_tabled {w w1 : World} {L : List ComponentType} (hinv : w.Tabled L)
    (hmgr : w1.mArchetypeManager = w.mArchetypeManager) : w1.Tabled L := by
  unfold World.Tabled
  rw [hmgr]
  exact hinv

theorem World.Tabled.setStorage_tabled {w : World} {L : List ComponentType} (hinv : w.Tabled L)
    (p : StoragePtr) (s s1 : EntityComponentStorage) (_ : w.storage p = some s)
    (_ : p.mContext < MAX_CONTEXT_COUNT → s.Inv →
      (∃ a, a ∈ w.mArchetypeManager.objects[s.mArchetype]?
        ∧ s.mComponentCountPerEntity = a.mComponentCount) →
      s1.Inv ∧ s1.mContext = s.mContext ∧ s1.mIndex = s.mIndex
        ∧ s1.mArchetype = s.mArchetype
        ∧ s1.mComponentCountPerEntity = s.mComponentCountPerEntity) :
    (w.setStorage p s1).Tabled L :=
  hinv.frame_tabled (w.setStorage_manager p s1)

theorem World.Tabled.setManager_tabled {w : World} {L : List ComponentType} (hinv : w.Tabled L)
    (pContext : Nat) (c : EntityContext) (em : Option EventManager)
    (_ : w.mEntityContexts pContext = some c) :
    World.Tabled
      { w with
        mEntityContexts := setAt w.mEntityContexts pContext
          (some { c with mEventManager := em }) } L :=
  hinv.frame_tabled rfl

/-- Setting archetype objects to objects that differ in their back-references only
keeps the tables. -/
theorem World.Tabled.objects {w : World} {L : List ComponentType} (hinv : w.Tabled L)
    (objects1 : List EntityArchetype) (contexts : Nat → Option EntityContext)
    (h : ∀ (p : Nat) (a1 : EntityArchetype), objects1[p]? = some a1 →
      ∃ a, w.mArchetypeManager.objects[p]? = some a
        ∧ a1 = { a with mStoragesInContext := a1.mStoragesInContext }) :
    World.Tabled
      { mArchetypeManager := { w.mArchetypeManager with objects := objects1 }
        mEntityContexts := contexts } L := by
  refine ⟨hinv.1.of_metas rfl, ?_⟩
  intro p a1 ha1
  obtain ⟨a, ha, heq⟩ := h p a1 ha1
  exact EntityArchetype.Inv_of_eq a a1 (hinv.2 p a ha) heq

theorem World.Tabled.GetEntityComponentStorage_tabled {w w1 : World} {L : List ComponentType}
    (hinv : w.Tabled L) (pContext pArchetype : Nat) (ps : StoragePtr)
    (h : w.GetEntityComponentStorage pContext pArchetype = some (w1, ps)) : w1.Tabled L := by
  unfold World.GetEntityComponentStorage at h
  cases hc : w.mEntityContexts pContext with
  | none => simp [hc] at h
  | some c =>
    cases ha : w.archetype pArchetype with
    | none => simp [hc, ha] at h
    | some a =>
      simp only [hc, ha] at h
      cases hm : a.mStoragesInContext c.mContextId with
      | some k =>
        simp only [hm, Option.some.injEq, Prod.mk.injEq] at h
        rw [← h.1]
        exact hinv
      | none =>
        simp only [hm] at h
        by_cases hlt : u16 c.mEntityComponentStorageList.length < MAX_STORAGE_COUNT_PER_CONTEXT
        · rw [if_pos hlt] at h
          simp only [Option.some.injEq, Prod.mk.injEq] at h
          rw [← h.1]
          apply hinv.objects
          intro p a1 ha1
          have ha2 : w.mArchetypeManager.objects[pArchetype]? = some a := ha
          have hpa : pArchetype < w.mArchetypeManager.objects.length := by
            by_contra hge
            rw [List.getElem?_eq_none (by omega)] at ha2
            cases ha2
          by_cases hpp : p = pArchetype
          · subst hpp
            rw [List.getElem?_set_self hpa] at ha1
            simp only [Option.some.injEq] at ha1
            exact ⟨a, ha2, by rw [← ha1]⟩
          · have hne : pArchetype ≠ p := fun e => hpp e.symm
            rw [List.getElem?_set_ne hne] at ha1
            exact ⟨a1, ha1, rfl⟩
        · rw [if_neg hlt] at h
          cases h

theorem World.Tabled.CreateContext_tabled {w w1 : World} {L : List ComponentType} (hinv : w.Tabled L)
    (id : Nat) (h : w.CreateContext = some (w1, id)) : w1.Tabled L := by
  unfold World.CreateContext at h
  cases hf : w.FindAvaibableContextId with
  | none => simp [hf] at h
  | some k =>
    simp only [hf, Option.some.injEq, Prod.mk.injEq] at h
    rw [← h.1]
    exact hinv.frame_tabled rfl

theorem World.Tabled.ReleaseContext_tabled {w w1 : World} {L : List ComponentType} (hinv : w.Tabled L)
    (pContext : Nat) (h : w.ReleaseContext pContext = some w1) : w1.Tabled L := by
  unfold World.ReleaseContext at h
  cases hc : w.mEntityContexts pContext with
  | none => simp [hc] at h
  | some c =>
    simp only [hc] at h
    split at h
    · cases h
    · rename_i objects1 hf
      simp only [Option.some.injEq] at h
      rw [← h]
      obtain ⟨g1, g2, _⟩ := ReleaseContext_loop _ c.mContextId (fun _ => rfl)
        (fun objects s => by
          dsimp only
          split <;> rename_i ho <;> rw [ho] <;> rfl)
        c.mEntityComponentStorageList _ objects1 hf
      apply hinv.objects
      intro p a1 ha1
      have hlt : p < w.mArchetypeManager.objects.length := by
        by_contra hge
        rw [List.getElem?_eq_none (by omega)] at ha1
        cases ha1
      obtain ⟨a2, k1, k2, _⟩ := g2 p _ (List.getElem?_eq_getElem hlt)
      rw [k1] at ha1
      simp only [Option.some.injEq] at ha1
      subst ha1
      exact ⟨_, List.getElem?_eq_getElem hlt, k2⟩

/-- A new archetype object for a component map with strictly increasing keys, each
entry filed under the type id of its meta data, keeps the tables. -/
theorem World.Tabled.construct {w : World} {L : List ComponentType} (hinv : w.Tabled L)
    (mgr0 mgr1 : EntityArchetypeManager) (id : Nat) (metaMap : ComponentMetaMap) (r : Nat)
    (hk : mgr0.Knows L) (hobj : mgr0.objects = w.mArchetypeManager.objects)
    (hsorted : metaMap.keys.Sorted (· < ·))
    (hkey : ∀ e, e ∈ metaMap → e.2.typeId = e.1)
    (h : mgr0.construct id metaMap = some (mgr1, r)) :
    World.Tabled { w with mArchetypeManager := mgr1 } L := by
  by_cases hlen : metaMap.length ≤ MAX_COMPONENT_COUNT_PER_ENTITY
  · obtain ⟨a, hnew, hainv, _⟩ := EntityArchetype.new_spec id metaMap hlen hsorted hkey
    obtain ⟨a2, hnew2, hcons⟩ := construct_eq_some mgr0 id metaMap hlen
    rw [hnew] at hnew2
    simp only [Option.some.injEq] at hnew2
    subst hnew2
    rw [hcons] at h
    simp only [Option.some.injEq, Prod.mk.injEq] at h
    rw [← h.1]
    refine ⟨hk.of_metas rfl, ?_⟩
    intro p b hb
    simp only [hobj] at hb
    by_cases hlt : p < w.mArchetypeManager.objects.length
    · rw [List.getElem?_append_left hlt] at hb
      exact hinv.2 p b hb
    · by_cases hpe : p = w.mArchetypeManager.objects.length
      · subst hpe
        simp only [List.getElem?_concat_length, Option.some.injEq] at hb
        rw [← hb]
        exact hainv
      · rw [List.getElem?_eq_none (by simp; omega)] at hb
        cases hb
  · rw [construct_eq_none mgr0 id metaMap hlen] at h
    cases h

/-- The entries of a map that `GetComponentsMetaHelperClass` fills for classes the
catalog knows as themselves are filed under the type ids of their meta data. -/
theorem Call_keyed (L Ts : List ComponentType) (mgr : EntityArchetypeManager)
    (metaMap : ComponentMetaMap) (hk : mgr.Knows L) (hsub : ∀ T, T ∈ Ts → T ∈ L)
    (hkey : ∀ e, e ∈ metaMap → e.2.typeId = e.1) :
    ∀ e, e ∈ (GetComponentsMetaHelperClass.Call Ts mgr metaMap).2 → e.2.typeId = e.1 := by
  intro e he
  rw [Call_eq_insertAll Ts mgr metaMap (hk.mono hsub)] at he
  rcases ComponentMetaMap.mem_insertAll Ts metaMap e he with h1 | ⟨T, _, h1⟩
  · exact hkey e h1
  · rw [h1]
    rfl

theorem World.Tabled.CreateArchetype_tabled {w w1 : World} {L : List ComponentType} (hinv : w.Tabled L)
    (args : ArchetypeArgs) (r : Nat)
    (hsub : ∀ T, T ∈ (WorldOp.createArchetype args).classes → T ∈ L)
    (h : w.CreateArchetype args = some (w1, r)) : w1.Tabled L := by
  unfold World.CreateArchetype at h
  simp only [Option.map_eq_some'] at h
  obtain ⟨x, hx, hxe⟩ := h
  simp only [Prod.mk.injEq] at hxe
  rw [← hxe.1]
  have key : ∀ Ts : List ComponentType, (∀ T, T ∈ Ts → T ∈ L) →
      (match umapFind w.mArchetypeManager.mArchetypesMap (sum_component_hashcodes Ts) with
        | some p => some (w.mArchetypeManager, p)
        | none =>
          (GetComponentsMetaHelperClass.Call Ts w.mArchetypeManager []).1.construct
            (sum_component_hashcodes Ts)
            (GetComponentsMetaHelperClass.Call Ts w.mArchetypeManager []).2) = some x →
      World.Tabled { w with mArchetypeManager := x.1 } L := by
    intro Ts hTs h
    cases hf : umapFind w.mArchetypeManager.mArchetypesMap (sum_component_hashcodes Ts) with
    | some q =>
      simp only [hf, Option.some.injEq] at h
      rw [← h]
      exact hinv
    | none =>
      simp only [hf] at h
      exact hinv.construct _ x.1 _ _ x.2
        (Call_knows L Ts w.mArchetypeManager [] hinv.1 hTs)
        (Call_objects Ts w.mArchetypeManager []).1
        (Call_keys Ts w.mArchetypeManager [] (by simp [ComponentMetaMap.keys])).1
        (Call_keyed L Ts w.mArchetypeManager [] hinv.1 hTs (fun e he => by cases he)) h
  cases args with
  | components Ts => exact key Ts hsub hx
  | entityClass Ts => exact key Ts hsub hx

/-- The component map of an archetype object with consistent tables has strictly
increasing keys, and its entries are filed under the type ids of their meta data. -/
theorem EntityArchetype.Inv.keyed {a : EntityArchetype} (ha : a.Inv) :
    a.mComponentMetaMap.keys.Sorted (· < ·)
      ∧ ∀ e, e ∈ a.mComponentMetaMap → e.2.typeId = e.1 := by
  obtain ⟨_, _, _, hsorted, hent⟩ := ha
  refine ⟨hsorted, ?_⟩
  intro e he
  obtain ⟨i, hi, hget⟩ := List.getElem_of_mem he
  exact (hent i hi e (by rw [List.getElem?_eq_getElem hi, Option.mem_def, hget])).1

theorem World.Tabled.AddComponents {w : World} {L : List ComponentType} (hinv : w.Tabled L)
    (Ts : List ComponentType) (pArchetype : Nat) (mgr : EntityArchetypeManager)
    (r : Option Nat) (hsub : ∀ T, T ∈ Ts → T ∈ L)
    (h : w.mArchetypeManager.AddComponents Ts pArchetype = some (mgr, r)) :
    World.Tabled { w with mArchetypeManager := mgr } L := by
  unfold EntityArchetypeManager.AddComponents at h
  cases ho : w.mArchetypeManager.objects[pArchetype]? with
  | none => simp [ho] at h
  | some a0 =>
    simp only [ho] at h
    have hcall := Call_objects Ts w.mArchetypeManager a0.mComponentMetaMap
    have hkn := Call_knows L Ts w.mArchetypeManager a0.mComponentMetaMap hinv.1 hsub
    obtain ⟨hsorted, hkey⟩ := (hinv.2 pArchetype a0 ho).keyed
    have hsame : World.Tabled
        { w with
          mArchetypeManager :=
            (GetComponentsMetaHelperClass.Call Ts w.mArchetypeManager a0.mComponentMetaMap).1 }
        L := by
      refine ⟨hkn, ?_⟩
      intro p b hb
      simp only [hcall.1] at hb
      exact hinv.2 p b hb
    by_cases hlen : (GetComponentsMetaHelperClass.Call Ts w.mArchetypeManager
        a0.mComponentMetaMap).2.length = a0.mComponentMetaMap.length
    · rw [if_pos hlen] at h
      simp only [Option.some.injEq, Prod.mk.injEq] at h
      rw [← h.1]
      exact hsame
    · rw [if_neg hlen] at h
      cases hf : umapFind
          (GetComponentsMetaHelperClass.Call Ts w.mArchetypeManager
            a0.mComponentMetaMap).1.mArchetypesMap
          (GetArchetypeIDFromComponentMetaMap
            (GetComponentsMetaHelperClass.Call Ts w.mArchetypeManager
              a0.mComponentMetaMap).2) with
      | some q =>
        simp only [hf, Option.some.injEq, Prod.mk.injEq] at h
        rw [← h.1]
        exact hsame
      | none =>
        simp only [hf, Option.map_eq_some'] at h
        obtain ⟨x, hx, hxe⟩ := h
        simp only [Prod.mk.injEq] at hxe
        rw [← hxe.1]
        exact hinv.construct _ x.1 _ _ x.2 hkn hcall.1
          (Call_keys Ts w.mArchetypeManager a0.mComponentMetaMap hsorted).1
          (Call_keyed L Ts w.mArchetypeManager a0.mComponentMetaMap hinv.1 hsub hkey) hx

theorem World.Tabled.RemoveComponents {w : World} {L : List ComponentType} (hinv : w.Tabled L)
    (Ts : List ComponentType) (pArchetype : Nat) (mgr : EntityArchetypeManager)
    (r : Option Nat)
    (h : w.mArchetypeManager.RemoveComponents Ts pArchetype = some (mgr, r)) :
    World.Tabled { w with mArchetypeManager := mgr } L := by
  unfold EntityArchetypeManager.RemoveComponents at h
  cases ho : w.mArchetypeManager.objects[pArchetype]? with
  | none => simp [ho] at h
  | some a0 =>
    simp only [ho] at h
    obtain ⟨hsorted, hkey⟩ := (hinv.2 pArchetype a0 ho).keyed
    by_cases hlen : (RemoveComponentsFromMetaMap.Call Ts a0.mComponentMetaMap).length
        = a0.mComponentMetaMap.length
    · rw [if_pos hlen] at h
      simp only [Option.some.injEq, Prod.mk.injEq] at h
      rw [← h.1]
      exact hinv
    · rw [if_neg hlen] at h
      cases hf : umapFind w.mArchetypeManager.mArchetypesMap
          (GetArchetypeIDFromComponentMetaMap
            (RemoveComponentsFromMetaMap.Call Ts a0.mComponentMetaMap)) with
      | some q =>
        simp only [hf, Option.some.injEq, Prod.mk.injEq] at h
        rw [← h.1]
        exact hinv
      | none =>
        simp only [hf, Option.map_eq_some'] at h
        obtain ⟨x, hx, hxe⟩ := h
        simp only [Prod.mk.injEq] at hxe
        rw [← hxe.1]
        have hsub : (RemoveComponentsFromMetaMap.Call Ts a0.mComponentMetaMap).Sublist
            a0.mComponentMetaMap := by
          rw [RemoveComponentsFromMetaMap.Call_eq]
          exact List.filter_sublist _
        refine hinv.construct _ x.1 _ _ x.2 hinv.1 rfl ?_ ?_ hx
        · exact List.Pairwise.sublist (hsub.map Prod.fst) hsorted
        · intro e he
          exact hkey e (hsub.subset he)

theorem World.Tabled.Allocate_tabled {L : List ComponentType} {w w1 : World} (hinv : w.Tabled L) (ps : StoragePtr)
    (b : Bool) (p : EntityPtr) (h : w.Allocate ps b = some (w1, p)) : w1.Tabled L := by
  unfold World.Allocate at h
  cases hs : w.storage ps with
  | none => simp [hs] at h
  | some s =>
    cases ha : w.archetype s.mArchetype with
    | none => simp [hs, ha] at h
    | some a =>
      cases hal : s.Allocate a b with
      | none => simp [hs, ha, hal] at h
      | some r =>
        obtain ⟨t, q⟩ := r
        simp only [hs, ha, hal, Option.some.injEq, Prod.mk.injEq] at h
        rw [← h.1]
        apply hinv.setStorage_tabled ps s t hs
        intro _ hsinv hlink
        obtain ⟨a2, ha2, hcount⟩ := hlink
        have hae : a2 = a := by
          unfold World.archetype at ha
          rw [Option.mem_def, ha] at ha2
          simp only [Option.some.injEq] at ha2
          exact ha2.symm
        subst hae
        have hn : 1 ≤ s.mEntityCountPerChunk := by
          by_contra hno
          rw [s.Allocate_none_of_zero a2 b hsinv (by omega)] at hal
          cases hal
        obtain ⟨htinv, hrel⟩ := s.Allocate_some a2 b hsinv hn hcount.symm t q hal
        exact ⟨htinv, hrel.mContext, hrel.mIndex, hrel.mArchetype, hrel.mComponentCountPerEntity⟩

theorem World.Tabled.store_tabled {L : List ComponentType} {w w1 : World} (hinv : w.Tabled L) (p : EntityPtr)
    (slot : ComponentSlot) (v : Option Value) (h : w.store p slot v = some w1) :
    w1.Tabled L := by
  unfold World.store at h
  cases hs : w.storage p.mStorage with
  | none => simp [hs] at h
  | some s =>
    simp only [hs, Option.some.injEq] at h
    rw [← h]
    apply hinv.setStorage_tabled p.mStorage s _ hs
    intro _ hsinv _
    exact ⟨s.store_Inv p slot v hsinv, rfl, rfl, rfl, rfl⟩

theorem World.Tabled.SetComponent_tabled {L : List ComponentType} {w w1 : World} (hinv : w.Tabled L) (e : EntityPtr)
    (T : ComponentType) (data : Value) (b : Bool)
    (h : w.SetComponent e T data = some (w1, b)) : w1.Tabled L := by
  unfold World.SetComponent at h
  cases hg : w.GetComponent e T with
  | none => simp [hg] at h
  | some o =>
    cases o with
    | none =>
      simp only [hg, Option.some.injEq, Prod.mk.injEq] at h
      rw [← h.1]
      exact hinv
    | some slot =>
      simp only [hg, Option.map_eq_some'] at h
      obtain ⟨x, hx, hxe⟩ := h
      simp only [Prod.mk.injEq] at hxe
      rw [← hxe.1]
      exact hinv.store_tabled e slot _ hx

theorem World.Tabled.assign_tabled {L : List ComponentType} (p : EntityPtr) (l : List (ComponentType × Value)) :
    ∀ (w w1 : World), w.Tabled L → w.assign p l = some w1 → w1.Tabled L := by
  induction l with
  | nil =>
    intro w w1 hinv h
    simp only [World.assign, Option.some.injEq] at h
    rw [← h]
    exact hinv
  | cons x rest ih =>
    intro w w1 hinv h
    obtain ⟨T, data⟩ := x
    simp only [World.assign] at h
    cases hs : w.SetComponent p T data with
    | none => simp [hs] at h
    | some r =>
      obtain ⟨w2, b⟩ := r
      simp only [hs] at h
      exact ih w2 w1 (hinv.SetComponent_tabled p T data b hs) h

theorem World.Tabled.invoke_tabled {L : List ComponentType} (p : EntityPtr) (l : EventCallbackList) :
    ∀ (w w1 : World), w.Tabled L → List.foldl (World.invoke p) (some w) l = some w1 →
      w1.Tabled L := by
  have hnone : ∀ l : EventCallbackList, List.foldl (World.invoke p) none l = none := by
    intro l
    induction l with
    | nil => rfl
    | cons it rest ih => exact ih
  induction l with
  | nil =>
    intro w w1 hinv h
    simp only [List.foldl_nil, Option.some.injEq] at h
    rw [← h]
    exact hinv
  | cons it rest ih =>
    intro w w1 hinv h
    rw [List.foldl_cons] at h
    cases hs : World.invoke p (some w) it with
    | none =>
      rw [hs, hnone] at h
      cases h
    | some w2 =>
      rw [hs] at h
      refine ih w2 w1 ?_ h
      simp only [World.invoke] at hs
      cases hh : w.header p with
      | none => simp [hh] at hs
      | some e =>
        simp only [hh] at hs
        exact World.Tabled.assign_tabled p _ w w2 hinv hs

theorem World.Tabled.TriggerEvent_tabled {L : List ComponentType} {w w1 : World} (hinv : w.Tabled L) (pContext : Nat)
    (evt : EntityEvent) (h : w.TriggerEvent pContext evt = some w1) : w1.Tabled L := by
  unfold World.TriggerEvent at h
  cases hc : w.mEntityContexts pContext with
  | none => simp [hc] at h
  | some c =>
    simp only [hc] at h
    cases hem : c.mEventManager with
    | none =>
      simp only [hem, Option.some.injEq] at h
      rw [← h]
      exact hinv
    | some em =>
      simp only [hem] at h
      exact World.Tabled.invoke_tabled evt.pEntity _ _ w1
        (hinv.setManager_tabled pContext c (some { em with triggered := em.triggered ++ [evt] }) hc) h

theorem World.Tabled.OnEntityCreated_tabled {L : List ComponentType} {w w1 : World} (hinv : w.Tabled L) (pContext : Nat)
    (p : EntityPtr) (h : w.OnEntityCreated pContext p = some w1) : w1.Tabled L := by
  unfold World.OnEntityCreated at h
  cases hh : w.header p with
  | none => simp [hh] at h
  | some hd =>
    simp only [hh] at h
    exact hinv.TriggerEvent_tabled pContext _ h

theorem World.Tabled.ConstructEntity_tabled {L : List ComponentType} (p : EntityPtr) (args : List (ComponentType × Value)) :
    ∀ (w w1 : World), w.Tabled L → w.ConstructEntity p args = some w1 → w1.Tabled L := by
  induction args with
  | nil =>
    intro w w1 hinv h
    simp only [World.ConstructEntity, Option.some.injEq] at h
    rw [← h]
    exact hinv
  | cons x rest ih =>
    intro w w1 hinv h
    obtain ⟨T, data⟩ := x
    simp only [World.ConstructEntity] at h
    by_cases hd : (!is_type_duplicate T (rest.map Prod.fst)) = true
    · rw [if_pos hd] at h
      cases hg : w.GetComponent p T with
      | none => simp [hg] at h
      | some o =>
        cases o with
        | none =>
          simp only [hg] at h
          exact ih w w1 hinv h
        | some slot =>
          simp only [hg] at h
          cases hst : w.store p slot (some data) with
          | none => simp [hst] at h
          | some w2 =>
            simp only [hst] at h
            exact ih w2 w1 (hinv.store_tabled p slot _ hst) h
    · rw [if_neg hd] at h
      exact ih w w1 hinv h

theorem World.Tabled.ConstructEntityDefault_tabled {L : List ComponentType} (p : EntityPtr) (Ts : List ComponentType) :
    ∀ (w w1 : World), w.Tabled L → w.ConstructEntityDefault p Ts = some w1 → w1.Tabled L := by
  induction Ts with
  | nil =>
    intro w w1 hinv h
    simp only [World.ConstructEntityDefault, Option.some.injEq] at h
    rw [← h]
    exact hinv
  | cons T rest ih =>
    intro w w1 hinv h
    simp only [World.ConstructEntityDefault] at h
    by_cases hd : (!is_type_duplicate T rest) = true
    · rw [if_pos hd] at h
      cases hg : w.GetComponent p T with
      | none => simp [hg] at h
      | some o =>
        cases o with
        | none =>
          simp only [hg] at h
          exact ih w w1 hinv h
        | some slot =>
          simp only [hg] at h
          cases hst : w.store p slot (some T.defaultValue) with
          | none => simp [hst] at h
          | some w2 =>
            simp only [hst] at h
            exact ih w2 w1 (hinv.store_tabled p slot _ hst) h
    · rw [if_neg hd] at h
      exact ih w w1 hinv h

/-- A loop whose rounds keep `Tabled` keeps it. -/
theorem World.Tabled.foldl_tabled {L : List ComponentType} (step : Option World → Nat → Option World)
    (hnone : ∀ k, step none k = none)
    (hstep : ∀ (w w1 : World) k, w.Tabled L → step (some w) k = some w1 → w1.Tabled L)
    (l : List Nat) :
    ∀ (w w1 : World), w.Tabled L → List.foldl step (some w) l = some w1 → w1.Tabled L := by
  induction l with
  | nil =>
    intro w w1 hinv h
    simp only [List.foldl_nil, Option.some.injEq] at h
    rw [← h]
    exact hinv
  | cons k rest ih =>
    intro w w1 hinv h
    rw [List.foldl_cons] at h
    cases hs : step (some w) k with
    | none =>
      rw [hs] at h
      have hn : ∀ l : List Nat, List.foldl step none l = none := by
        intro l
        induction l with
        | nil => rfl
        | cons k2 l2 ih2 => rw [List.foldl_cons, hnone, ih2]
      rw [hn] at h
      cases h
    | some w2 =>
      rw [hs] at h
      exact ih w2 w1 (hstep w w2 k hinv hs) h

theorem World.Tabled.constructMissing_tabled {L : List ComponentType} (Args : List ComponentType) (a : EntityArchetype)
    (p : EntityPtr) (w w1 : World) (k : Nat) (hinv : w.Tabled L)
    (h : World.constructMissing Args a p (some w) k = some w1) : w1.Tabled L := by
  simp only [World.constructMissing] at h
  by_cases hd : (!ComponentTypesHelperClass.Contain (a.mComponentTypeIds k) Args) = true
  · rw [if_pos hd] at h
    cases hg : w.GetComponentByIndex p k with
    | none => simp [hg] at h
    | some slot =>
      simp only [hg] at h
      exact hinv.store_tabled p slot _ h
  · rw [if_neg hd] at h
    simp only [Option.some.injEq] at h
    rw [← h]
    exact hinv

theorem World.Tabled.copyComponent_tabled {L : List ComponentType} (a : EntityArchetype) (pDst pSrc : EntityPtr)
    (w w1 : World) (k : Nat) (hinv : w.Tabled L)
    (h : World.copyComponent a pDst pSrc (some w) k = some w1) : w1.Tabled L := by
  simp only [World.copyComponent] at h
  cases hg : w.GetComponentByTypeID pDst (a.mComponentTypeIds k) with
  | none => simp [hg] at h
  | some o =>
    cases o with
    | none =>
      simp only [hg, Option.some.injEq] at h
      rw [← h]
      exact hinv
    | some slot =>
      simp only [hg] at h
      cases hs : w.GetComponentByIndex pSrc k with
      | none => simp [hs] at h
      | some src =>
        simp only [hs] at h
        exact hinv.store_tabled pDst slot _ h

theorem World.Tabled.cloneComponent_tabled {L : List ComponentType} (pDst pSrc : EntityPtr)
    (w w1 : World) (k : Nat) (hinv : w.Tabled L)
    (h : World.cloneComponent pDst pSrc (some w) k = some w1) : w1.Tabled L := by
  simp only [World.cloneComponent] at h
  cases hg : w.GetComponentByIndex pSrc k with
  | none => simp [hg] at h
  | some src =>
    simp only [hg] at h
    cases hs : w.GetComponentByIndex pDst k with
    | none => simp [hs] at h
    | some dst =>
      simp only [hs] at h
      exact hinv.store_tabled pDst dst _ h

theorem World.Tabled.CopyEntityData_tabled {L : List ComponentType} {w w1 : World} (hinv : w.Tabled L) (pDst pSrc : EntityPtr)
    (h : w.CopyEntityData pDst pSrc = some w1) : w1.Tabled L := by
  unfold World.CopyEntityData at h
  cases hg : w.GetArchetype pSrc with
  | none => simp [hg] at h
  | some pa =>
    cases ha : w.archetype pa with
    | none => simp [hg, ha] at h
    | some a =>
      simp only [hg, ha] at h
      exact World.Tabled.foldl_tabled (World.copyComponent a pDst pSrc) (fun _ => rfl)
        (fun u u1 k hu hk => World.Tabled.copyComponent_tabled a pDst pSrc u u1 k hu hk) _ w w1
        hinv h

theorem World.Tabled.migrate_tabled {L : List ComponentType} {w w1 : World} (hinv : w.Tabled L) (pContext : Nat)
    (pDst : Option Nat) (pSrc p : EntityPtr)
    (h : w.migrate pContext pDst pSrc = some (w1, p)) : w1.Tabled L := by
  unfold World.migrate at h
  cases pDst with
  | none => simp at h
  | some pd =>
    simp only [] at h
    cases hg : w.GetEntityComponentStorage pContext pd with
    | none => simp [hg] at h
    | some r =>
      obtain ⟨w2, ps⟩ := r
      simp only [hg] at h
      cases hal : w2.Allocate ps false with
      | none => simp [hal] at h
      | some r2 =>
        obtain ⟨w3, q⟩ := r2
        simp only [hal] at h
        cases hcp : w3.CopyEntityData q pSrc with
        | none => simp [hcp] at h
        | some w4 =>
          simp only [hcp, Option.map_some', Option.some.injEq, Prod.mk.injEq] at h
          rw [← h.1]
          exact ((hinv.GetEntityComponentStorage_tabled pContext pd ps hg).Allocate_tabled ps false q
            hal).CopyEntityData_tabled q pSrc hcp

theorem World.Tabled.SetEventManager_tabled {L : List ComponentType} {w w1 : World} (hinv : w.Tabled L) (pContext : Nat)
    (pEventManager : Option EventManager)
    (h : w.SetEventManager pContext pEventManager = some w1) : w1.Tabled L := by
  unfold World.SetEventManager at h
  cases hc : w.mEntityContexts pContext with
  | none => simp [hc] at h
  | some c =>
    simp only [hc, Option.some.injEq] at h
    rw [← h]
    exact hinv.setManager_tabled pContext c pEventManager hc

theorem World.Tabled.Subscrible_tabled {L : List ComponentType} {w w1 : World} (hinv : w.Tabled L)
    (pContext type_id genid : Nat) (cb : EventCallbackFunction) (handle : Nat)
    (h : w.Subscrible pContext type_id genid cb = some (w1, handle)) : w1.Tabled L := by
  unfold World.Subscrible at h
  cases hc : w.mEntityContexts pContext with
  | none => simp [hc] at h
  | some c =>
    simp only [hc] at h
    cases hem : c.mEventManager with
    | none => simp [hem] at h
    | some em =>
      simp only [hem, Option.map_eq_some'] at h
      obtain ⟨r, _, hr⟩ := h
      simp only [Prod.mk.injEq] at hr
      rw [← hr.1]
      exact hinv.setManager_tabled pContext c (some r.1) hc

theorem World.Tabled.Unsubscribe_tabled {L : List ComponentType} {w w1 : World} (hinv : w.Tabled L)
    (pContext handle : Nat) (h : w.Unsubscribe pContext handle = some w1) : w1.Tabled L := by
  unfold World.Unsubscribe at h
  cases hc : w.mEntityContexts pContext with
  | none => simp [hc] at h
  | some c =>
    simp only [hc] at h
    cases hem : c.mEventManager with
    | none => simp [hem] at h
    | some em =>
      simp only [hem, Option.map_eq_some'] at h
      obtain ⟨em1, _, hr⟩ := h
      rw [← hr]
      exact hinv.setManager_tabled pContext c (some em1) hc

theorem World.Tabled.UnsubscribeAll_tabled {L : List ComponentType} {w w1 : World} (hinv : w.Tabled L)
    (pContext type_id : Nat) (h : w.UnsubscribeAll pContext type_id = some w1) :
    w1.Tabled L := by
  unfold World.UnsubscribeAll at h
  cases hc : w.mEntityContexts pContext with
  | none => simp [hc] at h
  | some c =>
    simp only [hc] at h
    cases hem : c.mEventManager with
    | none => simp [hem] at h
    | some em =>
      simp only [hem, Option.some.injEq] at h
      rw [← h]
      exact hinv.setManager_tabled pContext c (some (em.UnsubscribeAll type_id)) hc

theorem World.Tabled.CreateEntity_tabled {L : List ComponentType} {w w1 : World} (hinv : w.Tabled L)
    (pContext pArchetype : Nat) (p : EntityPtr)
    (h : w.CreateEntity pContext pArchetype = some (w1, p)) : w1.Tabled L := by
  unfold World.CreateEntity at h
  cases hg : w.GetEntityComponentStorage pContext pArchetype with
  | none => simp [hg] at h
  | some r1 =>
    obtain ⟨wa, ps⟩ := r1
    simp only [hg] at h
    cases hal : wa.Allocate ps true with
    | none => simp [hal] at h
    | some r2 =>
      obtain ⟨wb, q⟩ := r2
      simp only [hal] at h
      cases ho : wb.OnEntityCreated pContext q with
      | none => simp [ho] at h
      | some wc =>
        simp only [ho, Option.map_some', Option.some.injEq, Prod.mk.injEq] at h
        rw [← h.1]
        exact ((hinv.GetEntityComponentStorage_tabled pContext pArchetype ps hg).Allocate_tabled ps true q
          hal).OnEntityCreated_tabled pContext q ho

theorem World.Tabled.CreateEntityWith_tabled {L : List ComponentType} {w w1 : World} (hinv : w.Tabled L)
    (pContext pArchetype : Nat) (args : List (ComponentType × Value)) (p : EntityPtr)
    (h : w.CreateEntityWith pContext pArchetype args = some (w1, p)) : w1.Tabled L := by
  unfold World.CreateEntityWith at h
  cases hg : w.GetEntityComponentStorage pContext pArchetype with
  | none => simp [hg] at h
  | some r1 =>
    obtain ⟨wa, ps⟩ := r1
    simp only [hg] at h
    cases hal : wa.Allocate ps false with
    | none => simp [hal] at h
    | some r2 =>
      obtain ⟨wb, q⟩ := r2
      cases ha : wa.archetype pArchetype with
      | none => simp [hal, ha] at h
      | some a =>
        simp only [hal, ha] at h
        cases hf : List.foldl (World.constructMissing (args.map Prod.fst) a q) (some wb)
            (List.range a.mComponentCount) with
        | none => simp [hf] at h
        | some wc =>
          simp only [hf] at h
          cases hce : wc.ConstructEntity q args with
          | none => simp [hce] at h
          | some wd =>
            simp only [hce] at h
            cases ho : wd.OnEntityCreated pContext q with
            | none => simp [ho] at h
            | some we =>
              simp only [ho, Option.map_some', Option.some.injEq, Prod.mk.injEq] at h
              rw [← h.1]
              have hb := (hinv.GetEntityComponentStorage_tabled pContext pArchetype ps hg).Allocate_tabled
                ps false q hal
              have hcI := World.Tabled.foldl_tabled
                (World.constructMissing (args.map Prod.fst) a q) (fun _ => rfl)
                (fun u u1 k hu hk =>
                  World.Tabled.constructMissing_tabled (args.map Prod.fst) a q u u1 k hu hk)
                _ wb wc hb hf
              exact (World.Tabled.ConstructEntity_tabled q args wc wd hcI hce).OnEntityCreated_tabled
                pContext q ho

theorem World.Tabled.Release_tabled {L : List ComponentType} {w w1 : World} (hinv : w.Tabled L) (e : EntityPtr)
    (hlive : w.Live e) (h : w.Release e = some w1) : w1.Tabled L := by
  obtain ⟨hctx, s, hs, hch, hbl, hv⟩ := hlive
  have hs1 : w.storage e.mStorage = some s := hs
  unfold World.Release at h
  rw [hs1] at h
  simp only [hv, Bool.not_true, Bool.false_eq_true, if_false] at h
  cases ho : w.OnEntityDeleted s.mContext e with
  | none => simp [ho] at h
  | some wa =>
    simp only [ho] at h
    unfold World.OnEntityDeleted at ho
    cases hh : w.header e with
    | none => simp [hh] at ho
    | some hd =>
      simp only [hh] at ho
      obtain ⟨_, _, hlive⟩ := w.TriggerEvent_triggered wa s.mContext _ ho
      have hwa := hinv.TriggerEvent_tabled s.mContext _ ho
      obtain ⟨_, s1, hs1', hch1, hbl1, hv1⟩ := (hlive e).mpr ⟨hctx, s, hs, hch, hbl, hv⟩
      simp only [Option.mem_def] at hs1'
      rw [hs1'] at h
      simp only [] at h
      cases hd2 : s1.Deallocate e true with
      | none => simp [hd2] at h
      | some t =>
        simp only [hd2, Option.map_some', Option.some.injEq] at h
        rw [← h]
        apply hwa.setStorage_tabled e.mStorage s1 t hs1'
        intro _ hsinv _
        have hbl2 : e.mBlockIndex < s1.mEntityCountPerChunk := by
          obtain ⟨_, _, _, hchunks, _⟩ := hsinv
          obtain ⟨_, _, _, _, hbc, _⟩ := hchunks _ hch1
          rw [← hbc]
          exact hbl1
        obtain ⟨t2, ht2, htinv, hrel⟩ := s1.Deallocate_spec e true hsinv hch1 hbl2 hv1
        rw [hd2] at ht2
        simp only [Option.some.injEq] at ht2
        subst ht2
        exact ⟨htinv, hrel.mContext, hrel.mIndex, hrel.mArchetype,
          hrel.mComponentCountPerEntity⟩

theorem World.Tabled.Clone_tabled {L : List ComponentType} {w w1 : World} (hinv : w.Tabled L) (e p : EntityPtr)
    (h : w.Clone e = some (w1, p)) : w1.Tabled L := by
  unfold World.Clone World.CloneEntity at h
  cases hs : w.storage e.mStorage with
  | none => simp [hs] at h
  | some s =>
    simp only [hs] at h
    by_cases hne : w.GetArchetype e ≠ some s.mArchetype
    · rw [if_pos hne] at h
      cases h
    · rw [if_neg hne] at h
      cases hal : w.Allocate e.mStorage false with
      | none => simp [hal] at h
      | some r =>
        obtain ⟨wa, q⟩ := r
        simp only [hal, Option.map_eq_some'] at h
        obtain ⟨x, hx, hxe⟩ := h
        simp only [Prod.mk.injEq] at hxe
        rw [← hxe.1]
        exact World.Tabled.foldl_tabled (World.cloneComponent q e) (fun _ => rfl)
          (fun u u1 k hu hk => World.Tabled.cloneComponent_tabled q e u u1 k hu hk) _ wa x
          (hinv.Allocate_tabled e.mStorage false q hal) hx

theorem World.Tabled.ExtendEntityWith_tabled {L : List ComponentType} {w w1 : World} (hinv : w.Tabled L)
    (pContext : Nat) (pSrc : EntityPtr) (args : List (ComponentType × Value))
    (r : Option EntityPtr) (hsub : ∀ T, T ∈ args.map Prod.fst → T ∈ L)
    (h : w.ExtendEntityWith pContext pSrc args = some (w1, r)) : w1.Tabled L := by
  unfold World.ExtendEntityWith at h
  cases hga : w.GetArchetype pSrc with
  | none => simp [hga] at h
  | some pa =>
    cases ha : w.archetype pa with
    | none => simp [hga, ha] at h
    | some a =>
      simp only [hga, ha] at h
      by_cases hany : a.ContainAnyComponents (args.map Prod.fst) = true
      · rw [if_pos hany] at h
        simp only [Option.some.injEq, Prod.mk.injEq] at h
        rw [← h.1]
        exact hinv
      · rw [if_neg hany] at h
        cases hadd : w.mArchetypeManager.AddComponents (args.map Prod.fst) pa with
        | none => simp [hadd] at h
        | some r1 =>
          obtain ⟨mgr, pd⟩ := r1
          simp only [hadd] at h
          cases hm : World.migrate { w with mArchetypeManager := mgr } pContext pd pSrc with
          | none => simp [hm] at h
          | some r2 =>
            obtain ⟨wc, q⟩ := r2
            simp only [hm] at h
            cases hce : wc.ConstructEntity q args with
            | none => simp [hce] at h
            | some wd =>
              simp only [hce] at h
              cases ho : wd.OnEntityCreated pContext q with
              | none => simp [ho] at h
              | some we =>
                simp only [ho, Option.map_some', Option.some.injEq, Prod.mk.injEq] at h
                rw [← h.1]
                have hm1 := hinv.AddComponents _ pa mgr pd hsub hadd
                exact (World.Tabled.ConstructEntity_tabled q args wc wd
                  (hm1.migrate_tabled pContext pd pSrc q hm) hce).OnEntityCreated_tabled pContext q ho

theorem World.Tabled.ExtendEntity_tabled {L : List ComponentType} {w w1 : World} (hinv : w.Tabled L)
    (pContext : Nat) (pSrc : EntityPtr) (Ts : List ComponentType) (r : Option EntityPtr)
    (hsub : ∀ T, T ∈ Ts → T ∈ L) (h : w.ExtendEntity pContext pSrc Ts = some (w1, r)) : w1.Tabled L := by
  unfold World.ExtendEntity at h
  cases hga : w.GetArchetype pSrc with
  | none => simp [hga] at h
  | some pa =>
    cases ha : w.archetype pa with
    | none => simp [hga, ha] at h
    | some a =>
      simp only [hga, ha] at h
      by_cases hany : a.ContainAnyComponents Ts = true
      · rw [if_pos hany] at h
        simp only [Option.some.injEq, Prod.mk.injEq] at h
        rw [← h.1]
        exact hinv
      · rw [if_neg hany] at h
        cases hadd : w.mArchetypeManager.AddComponents Ts pa with
        | none => simp [hadd] at h
        | some r1 =>
          obtain ⟨mgr, pd⟩ := r1
          simp only [hadd] at h
          cases hm : World.migrate { w with mArchetypeManager := mgr } pContext pd pSrc with
          | none => simp [hm] at h
          | some r2 =>
            obtain ⟨wc, q⟩ := r2
            simp only [hm] at h
            cases hce : wc.ConstructEntityDefault q Ts with
            | none => simp [hce] at h
            | some wd =>
              simp only [hce] at h
              cases ho : wd.OnEntityCreated pContext q with
              | none => simp [ho] at h
              | some we =>
                simp only [ho, Option.map_some', Option.some.injEq, Prod.mk.injEq] at h
                rw [← h.1]
                have hm1 := hinv.AddComponents _ pa mgr pd hsub hadd
                exact (World.Tabled.ConstructEntityDefault_tabled q Ts wc wd
                  (hm1.migrate_tabled pContext pd pSrc q hm) hce).OnEntityCreated_tabled pContext q ho

theorem World.Tabled.RemoveComponentsFromEntity_tabled {L : List ComponentType} {w w1 : World} (hinv : w.Tabled L)
    (pContext : Nat) (pSrc : EntityPtr) (Ts : List ComponentType) (r : Option EntityPtr)
    (h : w.RemoveComponentsFromEntity pContext pSrc Ts = some (w1, r)) : w1.Tabled L := by
  unfold World.RemoveComponentsFromEntity at h
  cases hga : w.GetArchetype pSrc with
  | none => simp [hga] at h
  | some pa =>
    cases ha : w.archetype pa with
    | none => simp [hga, ha] at h
    | some a =>
      simp only [hga, ha] at h
      by_cases hall : (!a.ContainAllComponents Ts) = true
      · rw [if_pos hall] at h
        simp only [Option.some.injEq, Prod.mk.injEq] at h
        rw [← h.1]
        exact hinv
      · rw [if_neg hall] at h
        cases hrem : w.mArchetypeManager.RemoveComponents Ts pa with
        | none => simp [hrem] at h
        | some r1 =>
          obtain ⟨mgr, pd⟩ := r1
          simp only [hrem] at h
          cases hm : World.migrate { w with mArchetypeManager := mgr } pContext pd pSrc with
          | none => simp [hm] at h
          | some r2 =>
            obtain ⟨wc, q⟩ := r2
            simp only [hm] at h
            cases ho : wc.OnEntityCreated pContext q with
            | none => simp [ho] at h
            | some we =>
              simp only [ho, Option.map_some', Option.some.injEq, Prod.mk.injEq] at h
              rw [← h.1]
              have hm1 := hinv.RemoveComponents Ts pa mgr pd hrem
              exact (hm1.migrate_tabled pContext pd pSrc q hm).OnEntityCreated_tabled pContext q ho

/-- Every call keeps `Tabled`. -/
theorem World.Tabled.call_tabled {L : List ComponentType} {w w1 : World} (hinv : w.Tabled L) (op : WorldOp)
    (hsub : ∀ T, T ∈ op.classes → T ∈ L) (h : w.call op = some w1) : w1.Tabled L := by
  cases op with
  | createContext =>
    simp only [World.call, Option.map_eq_some'] at h
    obtain ⟨x, hx, hxe⟩ := h
    rw [← hxe]
    exact hinv.CreateContext_tabled x.2 hx
  | releaseContext pContext => exact hinv.ReleaseContext_tabled pContext h
  | setEventManager pContext pEventManager =>
    exact hinv.SetEventManager_tabled pContext pEventManager h
  | subscrible pContext type_id genid cb =>
    simp only [World.call, Option.map_eq_some'] at h
    obtain ⟨x, hx, hxe⟩ := h
    rw [← hxe]
    exact hinv.Subscrible_tabled pContext type_id genid cb x.2 hx
  | unsubscribe pContext handle => exact hinv.Unsubscribe_tabled pContext handle h
  | unsubscribeAll pContext type_id => exact hinv.UnsubscribeAll_tabled pContext type_id h
  | createArchetype args =>
    simp only [World.call, Option.map_eq_some'] at h
    obtain ⟨x, hx, hxe⟩ := h
    rw [← hxe]
    exact hinv.CreateArchetype_tabled args x.2 hsub hx
  | createEntity pContext pArchetype =>
    simp only [World.call, Option.map_eq_some'] at h
    obtain ⟨x, hx, hxe⟩ := h
    rw [← hxe]
    exact hinv.CreateEntity_tabled pContext pArchetype x.2 hx
  | createEntityWith pContext pArchetype args =>
    simp only [World.call, Option.map_eq_some'] at h
    obtain ⟨x, hx, hxe⟩ := h
    rw [← hxe]
    exact hinv.CreateEntityWith_tabled pContext pArchetype args x.2 hx
  | extendEntity pContext pSrc Ts =>
    simp only [World.call] at h
    by_cases hl : w.Live pSrc
    · rw [if_pos hl] at h
      simp only [Option.map_eq_some'] at h
      obtain ⟨x, hx, hxe⟩ := h
      rw [← hxe]
      exact hinv.ExtendEntity_tabled pContext pSrc Ts x.2 hsub hx
    · rw [if_neg hl] at h
      cases h
  | extendEntityWith pContext pSrc args =>
    simp only [World.call] at h
    by_cases hl : w.Live pSrc
    · rw [if_pos hl] at h
      simp only [Option.map_eq_some'] at h
      obtain ⟨x, hx, hxe⟩ := h
      rw [← hxe]
      exact hinv.ExtendEntityWith_tabled pContext pSrc args x.2 hsub hx
    · rw [if_neg hl] at h
      cases h
  | removeComponentsFromEntity pContext pSrc Ts =>
    simp only [World.call] at h
    by_cases hl : w.Live pSrc
    · rw [if_pos hl] at h
      simp only [Option.map_eq_some'] at h
      obtain ⟨x, hx, hxe⟩ := h
      rw [← hxe]
      exact hinv.RemoveComponentsFromEntity_tabled pContext pSrc Ts x.2 hx
    · rw [if_neg hl] at h
      cases h
  | release e =>
    simp only [World.call] at h
    by_cases hl : w.Live e
    · rw [if_pos hl] at h
      exact hinv.Release_tabled e hl h
    · rw [if_neg hl] at h
      cases h
  | setComponent e T data =>
    simp only [World.call] at h
    by_cases hl : w.Live e
    · rw [if_pos hl] at h
      simp only [Option.map_eq_some'] at h
      obtain ⟨x, hx, hxe⟩ := h
      rw [← hxe]
      exact hinv.SetComponent_tabled e T data x.2 hx
    · rw [if_neg hl] at h
      cases h
  | clone e =>
    simp only [World.call] at h
    by_cases hl : w.Live e
    · rw [if_pos hl] at h
      simp only [Option.map_eq_some'] at h
      obtain ⟨x, hx, hxe⟩ := h
      rw [← hxe]
      exact hinv.Clone_tabled e x.2 hx
    · rw [if_neg hl] at h
      cases h

/-- Every sequence of calls with classes of `L` keeps `Tabled`. -/
theorem World.Tabled.run_tabled {L : List ComponentType} (ops : List WorldOp) :
    ∀ (w w1 : World), w.Tabled L → (∀ op, op ∈ ops → ∀ T, T ∈ op.classes → T ∈ L) →
      World.run ops w = some w1 → w1.Tabled L := by
  induction ops with
  | nil =>
    intro w w1 hinv _ h
    simp only [World.run, Option.some.injEq] at h
    rw [← h]
    exact hinv
  | cons op rest ih =>
    intro w w1 hinv hsub h
    simp only [World.run] at h
    cases hc : w.call op with
    | none => simp [hc] at h
    | some w2 =>
      simp only [hc] at h
      exact ih w2 w1 (hinv.call_tabled op (hsub op (List.mem_cons_self _ _)) hc)
        (fun op2 h2 => hsub op2 (List.mem_cons_of_mem _ h2)) h

/-- Every world that a sequence of calls leaves of the empty world satisfies the
invariant, whatever pointers and callbacks the calls are given, when no two of the
classes the calls hand to the catalog have one hash code and different meta
data. -/
theorem World.Inv_of_classes (ops : List WorldOp) (L : List ComponentType) (w : World)
    (hL : ∀ T, T ∈ L → ∀ U, U ∈ L → T.hashCode = U.hashCode → T.meta = U.meta)
    (hops : ∀ op, op ∈ ops → ∀ T, T ∈ op.classes → T ∈ L)
    (hrun : World.new.run ops = some w) : w.Inv :=
  World.Inv_of_run ops w hrun
    (World.Tabled.run_tabled ops World.new w (World.new_Tabled L hL) hops hrun).2

/-- The example world is the world the three calls `exampleOps` leave of the empty
world. -/
theorem exampleWorld_run : World.new.run exampleOps = some exampleWorld := by
  have h : (World.new.run exampleOps).isSome = true := by decide
  rw [eq_some_getD _ World.new h]
  rfl
/-! ## Claims about the worlds built by calls -/

/-! ### C6: `Prepare` and `Execute` -/

/-- C6 (amended): in every world that a sequence of calls leaves of the empty world,
when no two of the classes the calls hand to the catalog have one hash code and
different meta data, for every context, every list of requested component classes
and every worker count from 1 to `MAX_THREAD_COUNT`, `Prepare` of a job that is not
executing returns, and then `Execute` run once for each worker returns each time and
worker `j` calls the callback on the `j`-th of `threadCount` lists of visits; the
visits of these lists together are, each once, the visits of a list `slots` in which
every valid record of the context whose archetype contains every requested class
occurs exactly once and no other record occurs; the sum of the per-worker numbers of
visits is the number of these records. -/
theorem Prepare_Execute_visits (ops : List WorldOp) (L : List ComponentType) (w : World)
    (hL : ∀ T, T ∈ L → ∀ U, U ∈ L → T.hashCode = U.hashCode → T.meta = U.meta)
    (hops : ∀ op, op ∈ ops → ∀ T, T ∈ op.classes → T ∈ L)
    (hrun : World.new.run ops = some w)
    (pContext : Nat) (c : EntityContext) (job : ParallelJobBase) (threadCount : Nat)
    (hctx : pContext < MAX_CONTEXT_COUNT) (hc : w.mEntityContexts pContext = some c)
    (h1 : 1 ≤ threadCount) (h2 : threadCount ≤ MAX_THREAD_COUNT)
    (hstate : job.mState ≠ ParallelJobState.Executing) :
    ∃ (job1 : ParallelJobBase) (visits : List (List Visit)) (slots : List Visit),
      job.Prepare w pContext threadCount = some job1
        ∧ visits.length = threadCount
        ∧ (∀ (σ : Type) (f : σ → Visit → σ) (acc : σ),
            ∃ job2, ParallelJobBase.ExecuteEach w f acc threadCount job1
              = some (job2, visits.map (List.foldl f acc)))
        ∧ visits.flatten.Perm slots
        ∧ (visits.map List.length).sum = slots.length
        ∧ (slots.map Visit.pEntity).Nodup
        ∧ (∀ p, p ∈ slots.map Visit.pEntity ↔
            (p.mStorage.mContext = pContext ∧ w.Live p
              ∧ ∃ s a, w.storage p.mStorage = some s ∧ w.archetype s.mArchetype = some a
                ∧ ∀ T, T ∈ job.ComponentTypes → T.typeId ∈ a.mComponentMetaMap.keys))
        ∧ (∀ v, v ∈ slots →
            w.header v.pEntity = some v.header
              ∧ job.ComponentTypes.map (w.GetComponent v.pEntity)
                  = v.components.map (fun slot => some (some slot))
              ∧ job.ComponentTypes.map (w.component v.pEntity) = v.values) :=
  Prepare_Execute_visits_of_Inv w pContext c job threadCount (World.Inv_of_classes ops L w hL hops hrun)
    hctx hc h1 h2 hstate

set_option maxRecDepth 100000 in
/-- Witness of C6: a job for `Terrain` in the context of the example world with two
workers. -/
theorem Prepare_Execute_visits_witness :
    ∃ (job1 : ParallelJobBase) (visits : List (List Visit)) (slots : List Visit),
      (ParallelJobBase.new [Terrain]).Prepare exampleWorld 0 2 = some job1
        ∧ visits.length = 2
        ∧ (∀ (σ : Type) (f : σ → Visit → σ) (acc : σ),
            ∃ job2, ParallelJobBase.ExecuteEach exampleWorld f acc 2 job1
              = some (job2, visits.map (List.foldl f acc)))
        ∧ visits.flatten.Perm slots
        ∧ (visits.map List.length).sum = slots.length
        ∧ (slots.map Visit.pEntity).Nodup
        ∧ (∀ p, p ∈ slots.map Visit.pEntity ↔
            (p.mStorage.mContext = 0 ∧ exampleWorld.Live p
              ∧ ∃ s a, exampleWorld.storage p.mStorage = some s
                ∧ exampleWorld.archetype s.mArchetype = some a
                ∧ ∀ T, T ∈ (ParallelJobBase.new [Terrain]).ComponentTypes →
                    T.typeId ∈ a.mComponentMetaMap.keys))
        ∧ (∀ v, v ∈ slots →
            exampleWorld.header v.pEntity = some v.header
              ∧ (ParallelJobBase.new [Terrain]).ComponentTypes.map
                  (exampleWorld.GetComponent v.pEntity)
                  = v.components.map (fun slot => some (some slot))
              ∧ (ParallelJobBase.new [Terrain]).ComponentTypes.map
                  (exampleWorld.component v.pEntity) = v.values) :=
  Prepare_Execute_visits exampleOps [Terrain] exampleWorld (by decide) (by decide)
    exampleWorld_run 0 exampleContext (ParallelJobBase.new [Terrain]) 2
    (by decide)
    (by
      have h : (exampleWorld.mEntityContexts 0).isSome = true := by decide
      unfold exampleContext
      cases hs : exampleWorld.mEntityContexts 0 with
      | none => rw [hs] at h; cases h
      | some c => rfl)
    (by decide) (by decide) (by decide)

/-! ### C7: `ForEach` -/

/-- C7 (amended): in every world that a sequence of calls leaves of the empty world,
when no two of the classes the calls hand to the catalog have one hash code and
different meta data, for every context and every list `Ts` of component classes,
`ForEach<Ts...>` of the context returns and calls the callback on a list of visits
in which every valid record of the context whose archetype contains every class of
`Ts` occurs exactly once and no other record occurs, each visit carrying the header
of its record and the components `GetComponent` returns for it; a field summed by
the callback is the sum of the field over these visits. -/
theorem ForEach_visits (ops : List WorldOp) (L : List ComponentType) (w : World)
    (hL : ∀ T, T ∈ L → ∀ U, U ∈ L → T.hashCode = U.hashCode → T.meta = U.meta)
    (hops : ∀ op, op ∈ ops → ∀ T, T ∈ op.classes → T ∈ L)
    (hrun : World.new.run ops = some w)
    (pContext : Nat) (c : EntityContext) (Ts : List ComponentType)
    (hctx : pContext < MAX_CONTEXT_COUNT) (hc : w.mEntityContexts pContext = some c) :
    ∃ visits : List Visit,
      (∀ (σ : Type) (f : σ → Visit → σ) (acc : σ),
          c.ForEach w.mArchetypeManager Ts f acc = some (List.foldl f acc visits))
        ∧ (visits.map Visit.pEntity).Nodup
        ∧ (∀ p, p ∈ visits.map Visit.pEntity ↔
            (p.mStorage.mContext = pContext ∧ w.Live p
              ∧ ∃ s a, w.storage p.mStorage = some s ∧ w.archetype s.mArchetype = some a
                ∧ ∀ T, T ∈ Ts → T.typeId ∈ a.mComponentMetaMap.keys))
        ∧ (∀ v, v ∈ visits →
            w.header v.pEntity = some v.header
              ∧ Ts.map (w.GetComponent v.pEntity)
                  = v.components.map (fun slot => some (some slot))
              ∧ Ts.map (w.component v.pEntity) = v.values)
        ∧ (∀ field : Visit → Nat,
            c.ForEach w.mArchetypeManager Ts (fun acc v => acc + field v) 0
              = some ((visits.map field).sum)) :=
  ForEach_visits_of_Inv w pContext c Ts (World.Inv_of_classes ops L w hL hops hrun) hctx hc

set_option maxRecDepth 100000 in
/-- Witness of C7: the context of the example world and the component class
`Terrain`. -/
theorem ForEach_visits_witness :
    ∃ visits : List Visit,
      (∀ (σ : Type) (f : σ → Visit → σ) (acc : σ),
          exampleContext.ForEach exampleWorld.mArchetypeManager [Terrain] f acc
            = some (List.foldl f acc visits))
        ∧ (visits.map Visit.pEntity).Nodup
        ∧ (∀ p, p ∈ visits.map Visit.pEntity ↔
            (p.mStorage.mContext = 0 ∧ exampleWorld.Live p
              ∧ ∃ s a, exampleWorld.storage p.mStorage = some s
                ∧ exampleWorld.archetype s.mArchetype = some a
                ∧ ∀ T, T ∈ [Terrain] → T.typeId ∈ a.mComponentMetaMap.keys))
        ∧ (∀ v, v ∈ visits →
            exampleWorld.header v.pEntity = some v.header
              ∧ [Terrain].map (exampleWorld.GetComponent v.pEntity)
                  = v.components.map (fun slot => some (some slot))
              ∧ [Terrain].map (exampleWorld.component v.pEntity) = v.values)
        ∧ (∀ field : Visit → Nat,
            exampleContext.ForEach exampleWorld.mArchetypeManager [Terrain]
                (fun acc v => acc + field v) 0
              = some ((visits.map field).sum)) :=
  ForEach_visits exampleOps [Terrain] exampleWorld (by decide) (by decide) exampleWorld_run
    0 exampleContext [Terrain] (by decide)
    (by
      have h : (exampleWorld.mEntityContexts 0).isSome = true := by decide
      unfold exampleContext
      cases hs : exampleWorld.mEntityContexts 0 with
      | none => rw [hs] at h; cases h
      | some c => rfl)

/-! ### C11: null results of `ExtendEntity` and `RemoveComponentsFromEntity` -/

/-- C11 (amended): in every world that a sequence of calls leaves of the empty
world, when no two of the classes the calls hand to the catalog have one hash code
and different meta data, for every valid record `e`, with the archetype `aSrc`:
`ExtendEntity` with arguments (and `ExtendEntity<Ts...>`) returns null exactly when
`aSrc` has the type id of one of the classes, and
`RemoveComponentsFromEntity<Ts...>` returns null exactly when `aSrc` lacks the type
id of one of the classes; and whenever null is returned, the world is the world
before the call. -/
theorem Extend_Remove_null (ops : List WorldOp) (L : List ComponentType) (w : World)
    (hL : ∀ T, T ∈ L → ∀ U, U ∈ L → T.hashCode = U.hashCode → T.meta = U.meta)
    (hops : ∀ op, op ∈ ops → ∀ T, T ∈ op.classes → T ∈ L)
    (hrun : World.new.run ops = some w)
    (pContext : Nat) (e : EntityPtr) (args : List (ComponentType × Value))
    (Ts : List ComponentType) (aSrc : EntityArchetype) (hlive : w.Live e)
    (hsrc : (w.GetArchetype e).bind w.archetype = some aSrc) :
    (∀ w1, w.ExtendEntityWith pContext e args = some (w1, none)
        ↔ w1 = w ∧ ∃ x, x ∈ args ∧ x.1.typeId ∈ aSrc.mComponentMetaMap.keys)
      ∧ (∀ w1, w.ExtendEntity pContext e Ts = some (w1, none)
        ↔ w1 = w ∧ ∃ T, T ∈ Ts ∧ T.typeId ∈ aSrc.mComponentMetaMap.keys)
      ∧ (∀ w1, w.RemoveComponentsFromEntity pContext e Ts = some (w1, none)
        ↔ w1 = w ∧ ∃ T, T ∈ Ts ∧ T.typeId ∉ aSrc.mComponentMetaMap.keys) :=
  Extend_Remove_null_of_Inv w pContext e args Ts aSrc (World.Inv_of_classes ops L w hL hops hrun)
    hlive hsrc

set_option maxRecDepth 100000 in
/-- Witness of C11: the record of the example world, which has the component
`Terrain` and lacks `Profile`. -/
theorem Extend_Remove_null_witness :
    (∀ w1, exampleWorld.ExtendEntityWith 0 exampleEntity [(Terrain, 1)] = some (w1, none)
        ↔ w1 = exampleWorld ∧ ∃ x, x ∈ [(Terrain, 1)]
            ∧ x.1.typeId ∈ exampleSource.mComponentMetaMap.keys)
      ∧ (∀ w1, exampleWorld.ExtendEntity 0 exampleEntity [Profile] = some (w1, none)
        ↔ w1 = exampleWorld ∧ ∃ T, T ∈ [Profile]
            ∧ T.typeId ∈ exampleSource.mComponentMetaMap.keys)
      ∧ (∀ w1, exampleWorld.RemoveComponentsFromEntity 0 exampleEntity [Profile]
            = some (w1, none)
        ↔ w1 = exampleWorld ∧ ∃ T, T ∈ [Profile]
            ∧ T.typeId ∉ exampleSource.mComponentMetaMap.keys) :=
  Extend_Remove_null exampleOps [Terrain] exampleWorld (by decide) (by decide)
    exampleWorld_run 0 exampleEntity [(Terrain, 1)] [Profile] exampleSource (by decide) (eq_some_getD _ _ (by decide))

/-! ### C15: `GetComponent` -/

/-- C15 (amended): in every world that a sequence of calls leaves of the empty
world, when no two of the classes the calls hand to the catalog have one hash code
and different meta data, for every valid record `e` and every class `T`,
`GetComponent<T>()` returns null exactly when the archetype of `e` does not contain
`T`; when `T` is the component number `i` of the archetype, it returns the pointer
to the element at the block index of `e` in the component array `i` of the chunk of
`e`, and that element is what the pointer reads. -/
theorem GetComponent_correct (ops : List WorldOp) (L : List ComponentType) (w : World)
    (hL : ∀ T, T ∈ L → ∀ U, U ∈ L → T.hashCode = U.hashCode → T.meta = U.meta)
    (hops : ∀ op, op ∈ ops → ∀ T, T ∈ op.classes → T ∈ L)
    (hrun : World.new.run ops = some w)
    (e : EntityPtr) (T : ComponentType) (aSrc : EntityArchetype) (hlive : w.Live e)
    (hsrc : (w.GetArchetype e).bind w.archetype = some aSrc) :
    (w.GetComponent e T = some none ↔ aSrc.ContainComponent T = false)
      ∧ (aSrc.ContainComponent T = true ↔ T.typeId ∈ aSrc.mComponentMetaMap.keys)
      ∧ ∀ i, aSrc.mComponentMetaMap.keys[i]? = some T.typeId →
          w.GetComponent e T = some (some { index := i, block := e.mBlockIndex })
            ∧ ∃ s, w.storage e.mStorage = some s
                ∧ w.load e { index := i, block := e.mBlockIndex }
                    = (s.mChunks e.mChunkIndex).mComponentBuffers i e.mBlockIndex :=
  GetComponent_correct_of_Inv w e T aSrc (World.Inv_of_classes ops L w hL hops hrun) hlive hsrc

set_option maxRecDepth 100000 in
/-- Witness of C15: the record of the example world and the class `Terrain`, the
component number 0 of its archetype: `GetComponent<Terrain>()` returns the pointer
to the element at the block index of the record in the component array 0. -/
theorem GetComponent_correct_witness :
    ((exampleWorld.GetComponent exampleEntity Terrain = some none
          ↔ exampleSource.ContainComponent Terrain = false)
        ∧ (exampleSource.ContainComponent Terrain = true
          ↔ Terrain.typeId ∈ exampleSource.mComponentMetaMap.keys)
        ∧ ∀ i, exampleSource.mComponentMetaMap.keys[i]? = some Terrain.typeId →
            exampleWorld.GetComponent exampleEntity Terrain
                = some (some { index := i, block := exampleEntity.mBlockIndex })
              ∧ ∃ s, exampleWorld.storage exampleEntity.mStorage = some s
                  ∧ exampleWorld.load exampleEntity
                      { index := i, block := exampleEntity.mBlockIndex }
                    = (s.mChunks exampleEntity.mChunkIndex).mComponentBuffers i
                        exampleEntity.mBlockIndex)
      ∧ exampleSource.mComponentMetaMap.keys[0]? = some Terrain.typeId
      ∧ exampleSource.ContainComponent Terrain = true
      ∧ exampleWorld.Live exampleEntity :=
  ⟨GetComponent_correct exampleOps [Terrain] exampleWorld (by decide) (by decide)
    exampleWorld_run exampleEntity Terrain exampleSource (by decide)
    (eq_some_getD _ _ (by decide)), by decide, by decide, by decide⟩

/-! ### C16: `SetComponent` -/

/-- C16 (amended): in every world that a sequence of calls leaves of the empty
world, when no two of the classes the calls hand to the catalog have one hash code
and different meta data, for every valid record `e`, every class `T` and value `v`:
if the archetype of `e` contains `T`, `SetComponent(v)` returns true, afterwards
`GetComponent<T>()` of `e` leads to `v`, the components of `e` with another type id
and every component of every other record read what they read before, and no header
and no component pointer changes; if the archetype lacks `T`, it returns false and
the world is the world before the call. -/
theorem SetComponent_correct (ops : List WorldOp) (L : List ComponentType) (w : World)
    (hL : ∀ T, T ∈ L → ∀ U, U ∈ L → T.hashCode = U.hashCode → T.meta = U.meta)
    (hops : ∀ op, op ∈ ops → ∀ T, T ∈ op.classes → T ∈ L)
    (hrun : World.new.run ops = some w)
    (e : EntityPtr) (T : ComponentType) (v : Value) (aSrc : EntityArchetype)
    (hlive : w.Live e) (hsrc : (w.GetArchetype e).bind w.archetype = some aSrc) :
    (T.typeId ∈ aSrc.mComponentMetaMap.keys →
        ∃ w1, w.SetComponent e T v = some (w1, true)
          ∧ w1.Inv
          ∧ w1.component e T = some v
          ∧ (∀ U, U.typeId ≠ T.typeId → w1.component e U = w.component e U)
          ∧ (∀ q, q ≠ e → ∀ U, w1.component q U = w.component q U)
          ∧ (∀ q, w1.header q = w.header q)
          ∧ ∀ q U, w1.GetComponent q U = w.GetComponent q U)
      ∧ (T.typeId ∉ aSrc.mComponentMetaMap.keys → w.SetComponent e T v = some (w, false)) :=
  SetComponent_correct_of_Inv w e T v aSrc (World.Inv_of_classes ops L w hL hops hrun) hlive hsrc

set_option maxRecDepth 100000 in
/-- Witness of C16: `SetComponent` of a `Terrain` on the record of the example
world, which has the component `Terrain`. -/
theorem SetComponent_correct_witness :
    (Terrain.typeId ∈ exampleSource.mComponentMetaMap.keys →
        ∃ w1, exampleWorld.SetComponent exampleEntity Terrain 7 = some (w1, true)
          ∧ w1.Inv
          ∧ w1.component exampleEntity Terrain = some 7
          ∧ (∀ U, U.typeId ≠ Terrain.typeId →
              w1.component exampleEntity U = exampleWorld.component exampleEntity U)
          ∧ (∀ q, q ≠ exampleEntity → ∀ U, w1.component q U = exampleWorld.component q U)
          ∧ (∀ q, w1.header q = exampleWorld.header q)
          ∧ ∀ q U, w1.GetComponent q U = exampleWorld.GetComponent q U)
      ∧ (Terrain.typeId ∉ exampleSource.mComponentMetaMap.keys →
        exampleWorld.SetComponent exampleEntity Terrain 7 = some (exampleWorld, false)) :=
  SetComponent_correct exampleOps [Terrain] exampleWorld (by decide) (by decide)
    exampleWorld_run exampleEntity Terrain 7 exampleSource (by decide) (eq_some_getD _ _ (by decide))
end FastECS
